import Mathlib

/-! # Tetrahedral trees: a shallow embedding and its verified properties

The development follows the C++ sources of the Tetrahedral Trees library.

* `int` values (ids, run lengths, thresholds) are mathematical integers or
  naturals: every id handled by the library is bounded by the number of
  vertices or tetrahedra of the mesh, and `run_iterator` is a template over its
  `Incrementable` element type.
* `double` coordinates are rationals (exact arithmetic).
* a `std::vector<int>` is a `List Int`; an iterator into it is an index, and a
  read outside the vector is `none`.
-/

namespace TetrahedralTrees

/-! ## `tetrahedral_trees/run_iterator.h` -/

/-- The two modes of `run_iterator` (`enum RunMode`). -/
inductive RunMode where
  | NO_RUN
  | IN_RUN
  deriving DecidableEq

/-- The fields of `run_iterator<int>`; `runIter` and `runIterEnd` are positions
in the underlying vector. -/
structure run_iterator where
  runIter : Nat
  runIterEnd : Nat
  currentElement : Int
  runElementsRemaining : Int
  runMode : RunMode
  deriving DecidableEq

namespace run_iterator

/-- `run_iterator::updateElement` (run_iterator.h:237-259). -/
def updateElement (vec : List Int) (it : run_iterator) : Option run_iterator :=
  if it.runIter = it.runIterEnd then some it
  else
    match it.runMode with
    | RunMode.NO_RUN =>
      match vec[it.runIter]? with
      | none => none
      | some cur =>
        if cur < 0 then
          match vec[it.runIter + 1]? with
          | none => none
          | some len =>
            some { it with
              runMode := RunMode.IN_RUN
              currentElement := -cur
              runIter := it.runIter + 1
              runElementsRemaining := len }
        else some { it with currentElement := cur }
    | RunMode.IN_RUN =>
      if it.runIter = 0 then none
      else
        match vec[it.runIter]?, vec[it.runIter - 1]? with
        | some a, some b =>
          some { it with currentElement := a - it.runElementsRemaining - b }
        | _, _ => none

/-- `run_iterator::increment` (run_iterator.h:209-231). -/
def increment (vec : List Int) (it : run_iterator) : Option run_iterator :=
  match it.runMode with
  | RunMode.NO_RUN => updateElement vec { it with runIter := it.runIter + 1 }
  | RunMode.IN_RUN =>
    if it.runElementsRemaining = 0 then
      updateElement vec { it with runMode := RunMode.NO_RUN, runIter := it.runIter + 1 }
    else
      updateElement vec { it with runElementsRemaining := it.runElementsRemaining - 1 }

/-- `run_iterator::dereference`. -/
def dereference (it : run_iterator) : Int := it.currentElement

/-- `run_iterator::equal` (run_iterator.h:276-291). -/
def equal (it other : run_iterator) : Bool :=
  match it.runMode with
  | RunMode.IN_RUN =>
    it.runIter == other.runIter && other.runMode == RunMode.IN_RUN
      && it.runElementsRemaining == other.runElementsRemaining
  | RunMode.NO_RUN =>
    it.runIter == other.runIter && other.runMode == RunMode.NO_RUN

/-- The begin iterator `run_iterator(vec.begin(), vec.end())`: the constructor
initialises the fields and calls `updateElement`. -/
def beginIt (vec : List Int) : Option run_iterator :=
  updateElement vec
    { runIter := 0, runIterEnd := vec.length, currentElement := 0,
      runElementsRemaining := 0, runMode := RunMode.NO_RUN }

/-- The end iterator `run_iterator(vec.end())`. -/
def endIt (vec : List Int) : run_iterator :=
  { runIter := vec.length, runIterEnd := vec.length, currentElement := 0,
    runElementsRemaining := 0, runMode := RunMode.NO_RUN }

/-- The loop `for (; it != end; ++it) visit(*it)`, collecting the visited
values. `none` when a read leaves the vector or the fuel runs out. -/
def collectFrom (vec : List Int) : Nat → run_iterator → Option (List Int)
  | 0, _ => none
  | fuel + 1, it =>
    if equal it (endIt vec) then some []
    else
      match increment vec it with
      | none => none
      | some it' =>
        match collectFrom vec fuel it' with
        | none => none
        | some rest => some (dereference it :: rest)

/-- Iteration over `make_run_iterator_pair(vec)` from begin to end. -/
def collect (vec : List Int) (fuel : Nat) : Option (List Int) :=
  match beginIt vec with
  | none => none
  | some it => collectFrom vec fuel it

end run_iterator

/-! ### The expansion a compressed sequence stands for -/

/-- The ids `v, v+1, …, v+k`. -/
def idRange (v : Int) : Nat → List Int
  | 0 => [v]
  | k + 1 => v :: idRange (v + 1) k

/-- A compressed sequence is well formed when each entry is a positive id or a
negative header immediately followed by a tail length `k ≥ 0`. -/
def wellFormedRuns : List Int → Bool
  | [] => true
  | [x] => decide (0 < x)
  | x :: k :: rest =>
    if 0 < x then wellFormedRuns (k :: rest)
    else decide (x < 0) && decide (0 ≤ k) && wellFormedRuns rest

/-- The expansion of a compressed sequence as the data model describes it: a
positive `v` is the id `v`, a pair `[-v, k]` is the run `v, …, v+k`. -/
def runExpansion : List Int → List Int
  | [] => []
  | [x] => [x]
  | x :: k :: rest =>
    if x < 0 then idRange (-x) k.toNat ++ runExpansion rest
    else x :: runExpansion (k :: rest)

/-! ## `tetrahedral_trees/reindexer.h`: run encoding of a leaf list -/

namespace Reindexer

/-- The `for` loop of `Reindexer::compress_t_array` (reindexer.h:351-378).
`todo` counts the iterations still to run, `i` is the loop index, `t_array` the
array of the node, to which `add_tetrahedron` appends. The last iteration
executes `start_t_id = new_t_list[i+1]` with `i+1 = size`; `junk` stands for
the value that read returns (it is never used afterwards). -/
def compress_loop (junk : Int) (new_t_list : List Int) :
    Nat → Nat → Nat → Int → List Int → List Int
  | 0, _, _, _, t_array => t_array
  | todo + 1, i, count, start_t_id, t_array =>
    if i + 1 < new_t_list.length ∧
        new_t_list.getD i junk + 1 = new_t_list.getD (i + 1) junk then
      compress_loop junk new_t_list todo (i + 1) (count + 1) start_t_id t_array
    else
      let t_array' :=
        if count > 1 then t_array ++ [-start_t_id, (count : Int)]
        else if count = 1 then t_array ++ [start_t_id, start_t_id + (count : Int)]
        else t_array ++ [start_t_id]
      compress_loop junk new_t_list todo (i + 1) 0 (new_t_list.getD (i + 1) junk) t_array'

/-- `Reindexer::compress_t_array` (reindexer.h:336-379): sorts the new ids and
appends their encoding to the (cleared) tetrahedra array of the node. The
caller guarantees that `new_t_list` is not empty. -/
def compress_t_array (junk : Int) (t_array : List Int) (new_t_list : List Int) : List Int :=
  let sorted := new_t_list.insertionSort (fun a b => a ≤ b)
  let start_t_id := sorted.getD 0 junk
  if sorted.length = 1 then t_array ++ [start_t_id]
  else compress_loop junk sorted sorted.length 0 0 start_t_id t_array

end Reindexer

/-! ## `basic_types/point.h`, `basic_types/box.h` -/

/-- A point of the 3D space (`Point`), with exact rational coordinates. -/
structure Point where
  x : ℚ
  y : ℚ
  z : ℚ
  deriving DecidableEq

namespace Point

/-- `Point::get_c`: the coordinate at position `i`. -/
def get_c (p : Point) (i : Fin 3) : ℚ :=
  match i with
  | 0 => p.x
  | 1 => p.y
  | 2 => p.z

/-- `Point::set_c`: overwrite the coordinate at position `i`. -/
def set_c (p : Point) (i : Fin 3) (v : ℚ) : Point :=
  match i with
  | 0 => { p with x := v }
  | 1 => { p with y := v }
  | 2 => { p with z := v }

end Point

/-- An axis-aligned box (`Box`): its minimum and maximum points. -/
structure Box where
  min : Point
  max : Point
  deriving DecidableEq

namespace Box

/-- `Box::is_in_range` (box.h:246-262): the range is closed at `max` only when
`max` equals the maximum of the mesh domain. -/
def is_in_range (min max coord max_dom : ℚ) : Bool :=
  if max = max_dom then
    if max < coord then false
    else if min > coord then false
    else true
  else if max ≤ coord then false
  else if min > coord then false
  else true

/-- `Box::is_in_range_all_closed` (box.h:272-276). -/
def is_in_range_all_closed (min max coord : ℚ) : Bool :=
  if max < coord ∨ min > coord then false else true

/-- `Box::contains` (box.h:164-175): the loop over the three coordinates
returns `false` at the first coordinate out of range. -/
def contains (b : Box) (p : Point) (max : Point) : Bool :=
  is_in_range (b.min.get_c 0) (b.max.get_c 0) (p.get_c 0) (max.get_c 0) &&
  is_in_range (b.min.get_c 1) (b.max.get_c 1) (p.get_c 1) (max.get_c 1) &&
  is_in_range (b.min.get_c 2) (b.max.get_c 2) (p.get_c 2) (max.get_c 2)

/-- `Box::contains_with_all_closed_faces` (box.h:145-153). -/
def contains_with_all_closed_faces (b : Box) (p : Point) : Bool :=
  is_in_range_all_closed (b.min.get_c 0) (b.max.get_c 0) (p.get_c 0) &&
  is_in_range_all_closed (b.min.get_c 1) (b.max.get_c 1) (p.get_c 1) &&
  is_in_range_all_closed (b.min.get_c 2) (b.max.get_c 2) (p.get_c 2)

end Box

/-! ## `tetrahedral_trees/ok_subdivision.cpp`, `tetrahedral_trees/kd_subdivision.cpp` -/

namespace OK_Subdivision

/-- `OK_Subdivision::son_number`. -/
def son_number : Nat := 8

/-- `OK_Subdivision::compute_domain` (ok_subdivision.cpp:27-109); the level is
unused. -/
def compute_domain (parent_dom : Box) (_level : Nat) (child_ind : Nat) : Box :=
  let p_min := parent_dom.min
  let p_max := parent_dom.max
  let xs : ℚ × ℚ :=
    if child_ind = 0 ∨ child_ind = 1 ∨ child_ind = 4 ∨ child_ind = 5 then
      (p_min.x + (p_max.x - p_min.x) / 2, p_max.x)
    else (p_min.x, p_min.x + (p_max.x - p_min.x) / 2)
  let ys : ℚ × ℚ :=
    if child_ind = 0 ∨ child_ind = 2 ∨ child_ind = 4 ∨ child_ind = 6 then
      (p_min.y + (p_max.y - p_min.y) / 2, p_max.y)
    else (p_min.y, p_min.y + (p_max.y - p_min.y) / 2)
  let zs : ℚ × ℚ :=
    if child_ind = 0 ∨ child_ind = 1 ∨ child_ind = 2 ∨ child_ind = 3 then
      (p_min.z, p_min.z + (p_max.z - p_min.z) / 2)
    else (p_min.z + (p_max.z - p_min.z) / 2, p_max.z)
  { min := { x := xs.1, y := ys.1, z := zs.1 },
    max := { x := xs.2, y := ys.2, z := zs.2 } }

end OK_Subdivision

namespace KD_Subdivision

/-- `KD_Subdivision::son_number`. -/
def son_number : Nat := 2

/-- The coordinate split at a level: `level % 3`. -/
def coord_to_change (level : Nat) : Fin 3 := ⟨level % 3, Nat.mod_lt _ (by decide)⟩

/-- `KD_Subdivision::compute_domain` (kd_subdivision.cpp:26-42). -/
def compute_domain (parent_dom : Box) (level : Nat) (child_ind : Nat) : Box :=
  let c := coord_to_change level
  let mid := parent_dom.min.get_c c + (parent_dom.max.get_c c - parent_dom.min.get_c c) / 2
  if child_ind = 1 then { parent_dom with min := parent_dom.min.set_c c mid }
  else if child_ind = 0 then { parent_dom with max := parent_dom.max.set_c c mid }
  else parent_dom

end KD_Subdivision

/-- The subdivision a tree is instantiated with (the template parameter `D`). -/
inductive Subdivision where
  | OK
  | KD
  deriving DecidableEq

namespace Subdivision

/-- `D::son_number`. -/
def son_number : Subdivision → Nat
  | OK => OK_Subdivision.son_number
  | KD => KD_Subdivision.son_number

/-- `D::compute_domain`. -/
def compute_domain : Subdivision → Box → Nat → Nat → Box
  | OK => OK_Subdivision.compute_domain
  | KD => KD_Subdivision.compute_domain

end Subdivision

/-! ## `geometry/geometry.h`, `geometry/geometry.cpp` -/

namespace Geometry

/-- The tolerance `ZERO` (`10E-14`). -/
def ZERO : ℚ := 1 / 10000000000000

/-- Macro `Det2D`. -/
def Det2D (a b c d : ℚ) : ℚ := (a * d) - (b * c)

/-- Macro `Det3D`. -/
def Det3D (a1 a2 a3 b1 b2 b3 c1 c2 c3 : ℚ) : ℚ :=
  a1 * Det2D b2 b3 c2 c3 - a2 * Det2D b1 b3 c1 c3 + a3 * Det2D b1 b2 c1 c2

/-- Macro `Det4D`. -/
def Det4D (a1 a2 a3 a4 b1 b2 b3 b4 c1 c2 c3 c4 d1 d2 d3 d4 : ℚ) : ℚ :=
  a1 * Det3D b2 b3 b4 c2 c3 c4 d2 d3 d4 -
  a2 * Det3D b1 b3 b4 c1 c3 c4 d1 d3 d4 +
  a3 * Det3D b1 b2 b4 c1 c2 c4 d1 d2 d4 -
  a4 * Det3D b1 b2 b3 c1 c2 c3 d1 d2 d3

/-- `Geometry::DetSign2D` (geometry.cpp:30-38). -/
def DetSign2D (a b c d : ℚ) : Int :=
  let t1 := a * d
  let t2 := b * c
  if t1 > t2 + ZERO then 1
  else if t2 > t1 + ZERO then -1
  else 0

/-- `Geometry::DetSign3D` (geometry.cpp:45-52). -/
def DetSign3D (a1 a2 a3 b1 b2 b3 c1 c2 c3 : ℚ) : Int :=
  let d := Det3D a1 a2 a3 b1 b2 b3 c1 c2 c3
  if |d| ≤ ZERO then 0 else if d > 0 then 1 else -1

/-- `Geometry::DetSign4D` (geometry.cpp:60-68). -/
def DetSign4D (a1 a2 a3 a4 b1 b2 b3 b4 c1 c2 c3 c4 d1 d2 d3 d4 : ℚ) : Int :=
  let d := Det4D a1 a2 a3 a4 b1 b2 b3 b4 c1 c2 c3 c4 d1 d2 d3 d4
  if |d| ≤ ZERO then 0 else if d > 0 then 1 else -1

/-- `Geometry::FourPointTurn` (geometry.cpp:71-77). -/
def FourPointTurn (x y z x1 y1 z1 x2 y2 z2 x3 y3 z3 : ℚ) : Int :=
  DetSign3D (x1 - x) (y1 - y) (z1 - z) (x2 - x1) (y2 - y1) (z2 - z1)
    (x3 - x1) (y3 - y1) (z3 - z1)

/-- `Geometry::PointTurn2D` (geometry.h). -/
def PointTurn2D (x y x1 y1 x2 y2 : ℚ) : Int :=
  DetSign2D (x - x1) (y - y1) (x2 - x1) (y2 - y1)

/-- `Geometry::PointInTriangle2D` (geometry.cpp:82-96); `LEFT_TURN` is `-1` and
`RIGHT_TURN` is `1`. -/
def PointInTriangle2D (x y x1 y1 x2 y2 x3 y3 : ℚ) : Bool :=
  if PointTurn2D x y x1 y1 x2 y2 = -1 ∧ PointTurn2D x y x2 y2 x3 y3 = -1 ∧
      PointTurn2D x y x3 y3 x1 y1 = -1 then true
  else if PointTurn2D x y x1 y1 x2 y2 = 1 ∧ PointTurn2D x y x2 y2 x3 y3 = 1 ∧
      PointTurn2D x y x3 y3 x1 y1 = 1 then true
  else false

/-- `Geometry::ClipTest2D_strict` (geometry.cpp:126-144): `none` is the result
`0`, `some (u1, u2)` the result `1` with the updated interval. -/
def ClipTest2D_strict (p q u1 u2 : ℚ) : Option (ℚ × ℚ) :=
  if p < 0 then
    let r := q / p
    if r ≥ u2 then none
    else if r > u1 then some (r, u2)
    else some (u1, u2)
  else if p > 0 then
    let r := q / p
    if r ≤ u1 then none
    else if r < u2 then some (u1, r)
    else some (u1, u2)
  else if q ≤ 0 then none
  else some (u1, u2)

/-- `Geometry::ClipLine2D_strict` (geometry.cpp:149-162). -/
def ClipLine2D_strict (minX minY maxX maxY x1 y1 x2 y2 : ℚ) : Bool :=
  let dx := x2 - x1
  let dy := y2 - y1
  ((((ClipTest2D_strict (-dx) (x1 - minX) 0 1).bind
      fun u => ClipTest2D_strict dx (maxX - x1) u.1 u.2).bind
      fun u => ClipTest2D_strict (-dy) (y1 - minY) u.1 u.2).bind
      fun u => ClipTest2D_strict dy (maxY - y1) u.1 u.2).isSome

/-- `Geometry::OverlapXSegment` (geometry.cpp:167-174). -/
def OverlapXSegment (x1 y1 x2 y2 x0 y01 y02 : ℚ) : Bool :=
  if x1 ≠ x0 ∨ x2 ≠ x0 then false
  else if y1 ≤ y01 ∧ y2 ≤ y01 then false
  else if y1 ≥ y02 ∧ y2 ≥ y02 then false
  else true

/-- `Geometry::ClipTriangle2D_strict` (geometry.cpp:179-231). -/
def ClipTriangle2D_strict (minX minY maxX maxY : ℚ) (x y : Fin 3 → ℚ) : Bool :=
  if x 0 ≤ minX ∧ x 1 ≤ minX ∧ x 2 ≤ minX then false
  else if x 0 ≥ maxX ∧ x 1 ≥ maxX ∧ x 2 ≥ maxX then false
  else if y 0 ≤ minY ∧ y 1 ≤ minY ∧ y 2 ≤ minY then false
  else if y 0 ≥ maxY ∧ y 1 ≥ maxY ∧ y 2 ≥ maxY then false
  else if (List.finRange 3).any (fun i =>
      decide (x i < maxX ∧ x i > minX ∧ y i < maxY ∧ y i > minY)) then true
  else if (List.finRange 3).any (fun i =>
      ClipLine2D_strict minX minY maxX maxY (x i) (y i) (x (i + 1)) (y (i + 1))) then true
  else if PointInTriangle2D (1 / 2 * (minX + maxX)) (1 / 2 * (minY + maxY))
      (x 0) (y 0) (x 1) (y 1) (x 2) (y 2) then true
  else (List.finRange 3).any (fun i =>
    (OverlapXSegment (x i) (y i) (x (i + 1)) (y (i + 1)) minX minY maxY
        && decide (x (i + 2) > minX)) ||
    (OverlapXSegment (x i) (y i) (x (i + 1)) (y (i + 1)) maxX minY maxY
        && decide (x (i + 2) < maxX)) ||
    (OverlapXSegment (y i) (x i) (y (i + 1)) (x (i + 1)) minY minX maxX
        && decide (y (i + 2) > minY)) ||
    (OverlapXSegment (y i) (x i) (y (i + 1)) (x (i + 1)) maxY minX maxX
        && decide (y (i + 2) < maxY)))

/-- `Geometry::PointInTetra_strict` (geometry.cpp:283-320). -/
def PointInTetra_strict (xp yp zp : ℚ) (v1 v2 v3 v4 : Point) : Bool :=
  let d := DetSign4D v1.x v1.y v1.z 1 v2.x v2.y v2.z 1 v3.x v3.y v3.z 1 v4.x v4.y v4.z 1
  let d1 := DetSign4D xp yp zp 1 v2.x v2.y v2.z 1 v3.x v3.y v3.z 1 v4.x v4.y v4.z 1
  if d1 ≠ d then false
  else
    let d2 := DetSign4D v1.x v1.y v1.z 1 xp yp zp 1 v3.x v3.y v3.z 1 v4.x v4.y v4.z 1
    if d2 ≠ d then false
    else
      let d3 := DetSign4D v1.x v1.y v1.z 1 v2.x v2.y v2.z 1 xp yp zp 1 v4.x v4.y v4.z 1
      if d3 ≠ d then false
      else
        let d4 := DetSign4D v1.x v1.y v1.z 1 v2.x v2.y v2.z 1 v3.x v3.y v3.z 1 xp yp zp 1
        if d4 ≠ d then false else true

/-- `Geometry::ClipTest3D_strict` (geometry.cpp:354-376). -/
def ClipTest3D_strict (p q u1 u2 : ℚ) : Option (ℚ × ℚ) :=
  if p < 0 then
    let r := q / p
    if r ≥ u2 then none
    else if r > u1 then some (r, u2)
    else some (u1, u2)
  else if p > 0 then
    let r := q / p
    if r ≤ u1 then none
    else if r < u2 then some (u1, r)
    else some (u1, u2)
  else if q ≤ 0 then none
  else some (u1, u2)

/-- `Geometry::ClipLine3D_strict` (geometry.cpp:403-420). -/
def ClipLine3D_strict (minX minY minZ maxX maxY maxZ x1 y1 z1 x2 y2 z2 : ℚ) : Bool :=
  let dx := x2 - x1
  let dy := y2 - y1
  let dz := z2 - z1
  ((((((ClipTest3D_strict (-dx) (x1 - minX) 0 1).bind
      fun u => ClipTest3D_strict dx (maxX - x1) u.1 u.2).bind
      fun u => ClipTest3D_strict (-dy) (y1 - minY) u.1 u.2).bind
      fun u => ClipTest3D_strict dy (maxY - y1) u.1 u.2).bind
      fun u => ClipTest3D_strict (-dz) (z1 - minZ) u.1 u.2).bind
      fun u => ClipTest3D_strict dz (maxZ - z1) u.1 u.2).isSome

/-- `Geometry::EdgeIntersectTriangle_strict` (geometry.cpp:658-671); `NO_TURN`
is `0`. -/
def EdgeIntersectTriangle_strict (x1 y1 z1 x2 y2 z2 : ℚ) (x y z : Fin 3 → ℚ) : Bool :=
  let turn1 := FourPointTurn x1 y1 z1 (x 0) (y 0) (z 0) (x 1) (y 1) (z 1) (x 2) (y 2) (z 2)
  let turn2 := FourPointTurn x2 y2 z2 (x 0) (y 0) (z 0) (x 1) (y 1) (z 1) (x 2) (y 2) (z 2)
  if turn1 = -turn2 ∧ turn1 ≠ 0 then true else false

/-- `Geometry::ClipTriangle3D_strict`, the version without flags
(geometry.cpp:674-757). -/
def ClipTriangle3D_strict (minX minY minZ maxX maxY maxZ : ℚ) (x y z : Fin 3 → ℚ) : Bool :=
  if x 0 ≤ minX ∧ x 1 ≤ minX ∧ x 2 ≤ minX then false
  else if y 0 ≤ minY ∧ y 1 ≤ minY ∧ y 2 ≤ minY then false
  else if z 0 ≤ minZ ∧ z 1 ≤ minZ ∧ z 2 ≤ minZ then false
  else if x 0 ≥ maxX ∧ x 1 ≥ maxX ∧ x 2 ≥ maxX then false
  else if y 0 ≥ maxY ∧ y 1 ≥ maxY ∧ y 2 ≥ maxY then false
  else if z 0 ≥ maxZ ∧ z 1 ≥ maxZ ∧ z 2 ≥ maxZ then false
  else if (List.finRange 3).any (fun i =>
      decide (x i < maxX ∧ x i > minX ∧ y i < maxY ∧ y i > minY ∧ z i < maxZ ∧ z i > minZ))
    then true
  else if (List.finRange 3).any (fun i =>
      ClipLine3D_strict minX minY minZ maxX maxY maxZ (x i) (y i) (z i)
        (x (i + 1)) (y (i + 1)) (z (i + 1))) then true
  else
    let centerX := (x 0 + x 1 + x 2) / 3
    let centerY := (y 0 + y 1 + y 2) / 3
    let centerZ := (z 0 + z 1 + z 2) / 3
    if centerX > minX ∧ centerX < maxX ∧ centerY > minY ∧ centerY < maxY ∧
        centerZ > minZ ∧ centerZ < maxZ then true
    -- edges parallel to the x axis
    else if EdgeIntersectTriangle_strict minX minY minZ maxX minY minZ x y z
        && PointInTriangle2D minY minZ (y 0) (z 0) (y 1) (z 1) (y 2) (z 2) then true
    else if EdgeIntersectTriangle_strict minX maxY minZ maxX maxY minZ x y z
        && PointInTriangle2D maxY minZ (y 0) (z 0) (y 1) (z 1) (y 2) (z 2) then true
    else if EdgeIntersectTriangle_strict minX maxY maxZ maxX maxY maxZ x y z
        && PointInTriangle2D maxY maxZ (y 0) (z 0) (y 1) (z 1) (y 2) (z 2) then true
    else if EdgeIntersectTriangle_strict minX minY maxZ maxX minY maxZ x y z
        && PointInTriangle2D minY maxZ (y 0) (z 0) (y 1) (z 1) (y 2) (z 2) then true
    -- edges parallel to the y axis
    else if EdgeIntersectTriangle_strict minX minY minZ minX maxY minZ x y z
        && PointInTriangle2D minX minZ (x 0) (z 0) (x 1) (z 1) (x 2) (z 2) then true
    else if EdgeIntersectTriangle_strict minX minY maxZ minX maxY maxZ x y z
        && PointInTriangle2D minX maxZ (x 0) (z 0) (x 1) (z 1) (x 2) (z 2) then true
    else if EdgeIntersectTriangle_strict maxX minY minZ maxX maxY minZ x y z
        && PointInTriangle2D maxX minZ (x 0) (z 0) (x 1) (z 1) (x 2) (z 2) then true
    else if EdgeIntersectTriangle_strict maxX minY maxZ maxX maxY maxZ x y z
        && PointInTriangle2D maxX maxZ (x 0) (z 0) (x 1) (z 1) (x 2) (z 2) then true
    -- edges parallel to the z axis
    else if EdgeIntersectTriangle_strict minX minY minZ minX minY maxZ x y z
        && PointInTriangle2D minX minY (x 0) (y 0) (x 1) (y 1) (x 2) (y 2) then true
    else if EdgeIntersectTriangle_strict minX maxY minZ minX maxY maxZ x y z
        && PointInTriangle2D minX maxY (x 0) (y 0) (x 1) (y 1) (x 2) (y 2) then true
    else if EdgeIntersectTriangle_strict maxX minY minZ maxX minY maxZ x y z
        && PointInTriangle2D maxX minY (x 0) (y 0) (x 1) (y 1) (x 2) (y 2) then true
    else if EdgeIntersectTriangle_strict maxX maxY minZ maxX maxY maxZ x y z
        && PointInTriangle2D maxX maxY (x 0) (y 0) (x 1) (y 1) (x 2) (y 2) then true
    else false

/-- The test of `tetra_in_box_strict` on a face coplanar to the box face with
minimum (`atMax = false`) or maximum (`atMax = true`) `j`-coordinate
(geometry.cpp:880-925): the three vertices `i, i+1, i+2` lie on the face plane,
the triangle overlaps the square face, and the fourth vertex lies on the
interior side. -/
def coplanarFaceTest (minF maxF : Point) (c : Fin 4 → Point) (i : Fin 4) (j : Fin 3)
    (atMax : Bool) : Bool :=
  let f : ℚ := if atMax then maxF.get_c j else minF.get_c j
  if (c i).get_c j = f ∧ (c (i + 1)).get_c j = f ∧ (c (i + 2)).get_c j = f then
    let xt : Fin 3 → ℚ := fun k => (c (i + Fin.ofNat k.val)).get_c (j + 1)
    let yt : Fin 3 → ℚ := fun k => (c (i + Fin.ofNat k.val)).get_c (j + 2)
    if ClipTriangle2D_strict (minF.get_c (j + 1)) (minF.get_c (j + 2))
        (maxF.get_c (j + 1)) (maxF.get_c (j + 2)) xt yt then
      if atMax then decide ((c (i + 3)).get_c j < maxF.get_c j)
      else decide ((c (i + 3)).get_c j > minF.get_c j)
    else false
  else false

/-- `Geometry::tetra_in_box_strict` (geometry.cpp:769-928): `minF`, `maxF` are
the corners of the box and `c` the four vertices of the tetrahedron. -/
def tetra_in_box_strict (minF maxF : Point) (c : Fin 4 → Point) : Bool :=
  -- all vertices on the same side of the box: no intersection
  if (List.finRange 3).any (fun j =>
      decide (((c 0).get_c j ≤ minF.get_c j ∧ (c 1).get_c j ≤ minF.get_c j ∧
          (c 2).get_c j ≤ minF.get_c j ∧ (c 3).get_c j ≤ minF.get_c j) ∨
        ((c 0).get_c j ≥ maxF.get_c j ∧ (c 1).get_c j ≥ maxF.get_c j ∧
          (c 2).get_c j ≥ maxF.get_c j ∧ (c 3).get_c j ≥ maxF.get_c j))) then false
  -- one tetrahedron vertex strictly inside the box
  else if (List.finRange 4).any (fun i =>
      decide (minF.x < (c i).x ∧ (c i).x < maxF.x ∧ minF.y < (c i).y ∧ (c i).y < maxF.y ∧
        minF.z < (c i).z ∧ (c i).z < maxF.z)) then true
  -- one box vertex inside the tetrahedron
  else if PointInTetra_strict minF.x minF.y minF.z (c 0) (c 1) (c 2) (c 3) ||
      PointInTetra_strict minF.x minF.y maxF.z (c 0) (c 1) (c 2) (c 3) ||
      PointInTetra_strict minF.x maxF.y minF.z (c 0) (c 1) (c 2) (c 3) ||
      PointInTetra_strict maxF.x minF.y minF.z (c 0) (c 1) (c 2) (c 3) ||
      PointInTetra_strict maxF.x maxF.y maxF.z (c 0) (c 1) (c 2) (c 3) ||
      PointInTetra_strict maxF.x maxF.y minF.z (c 0) (c 1) (c 2) (c 3) ||
      PointInTetra_strict maxF.x minF.y maxF.z (c 0) (c 1) (c 2) (c 3) ||
      PointInTetra_strict minF.x maxF.y maxF.z (c 0) (c 1) (c 2) (c 3) then true
  -- the box centre inside the tetrahedron
  else if PointInTetra_strict (1 / 2 * (minF.x + maxF.x)) (1 / 2 * (minF.y + maxF.y))
      (1 / 2 * (minF.z + maxF.z)) (c 0) (c 1) (c 2) (c 3) then true
  -- one triangular facet intersects the box
  else if (List.finRange 4).any (fun i =>
      ClipTriangle3D_strict minF.x minF.y minF.z maxF.x maxF.y maxF.z
        (fun j => (c (i + Fin.ofNat j.val)).x) (fun j => (c (i + Fin.ofNat j.val)).y)
        (fun j => (c (i + Fin.ofNat j.val)).z)) then true
  -- a facet coplanar to a face of the box
  else (List.finRange 4).any (fun i => (List.finRange 3).any (fun j =>
    coplanarFaceTest minF maxF c i j false || coplanarFaceTest minF maxF c i j true))

end Geometry

/-! ## `basic_types/vertex.h`, `basic_types/tetrahedron.h`, `basic_types/mesh.h` -/

/-- A mesh vertex (`Vertex`): a point with a scalar field value. -/
structure Vertex extends Point where
  field_value : ℚ
  deriving DecidableEq

/-- A tetrahedron (`Tetrahedron`): four signed vertex indices. -/
structure Tetrahedron where
  vertices : Fin 4 → Int

namespace Tetrahedron

/-- `Tetrahedron::TV`: the (unsigned) index of the vertex at position `pos`. -/
def TV (t : Tetrahedron) (pos : Fin 4) : Nat := (t.vertices pos).natAbs

/-- The constructor `Tetrahedron(v1, v2, v3, v4)`. -/
def mk4 (v1 v2 v3 v4 : Int) : Tetrahedron :=
  ⟨fun i => match i with
    | 0 => v1
    | 1 => v2
    | 2 => v3
    | 3 => v4⟩

end Tetrahedron

/-- The mesh (`Mesh`): its domain, its vertices and its tetrahedra. Ids are
1-based positions in the two arrays. -/
structure Mesh where
  domain : Box
  vertices : List Vertex
  tetrahedra : List Tetrahedron

namespace Mesh

/-- `Mesh::get_vertex`: `vertices[id-1]`. The mesh invariant (every index in
range) makes the read defined; outside the array the model yields the origin. -/
def get_vertex (m : Mesh) (id : Nat) : Vertex :=
  m.vertices.getD (id - 1) ⟨⟨0, 0, 0⟩, 0⟩

/-- `Mesh::get_tetrahedron`: `tetrahedra[id-1]`, defined by the mesh invariant;
outside the array the model yields the tetrahedron with four indices `0`. -/
def get_tetrahedron (m : Mesh) (id : Nat) : Tetrahedron :=
  m.tetrahedra.getD (id - 1) ⟨fun _ => 0⟩

/-- `Mesh::get_num_vertices`. -/
def get_num_vertices (m : Mesh) : Nat := m.vertices.length

/-- `Mesh::get_num_tetrahedra`. -/
def get_num_tetrahedra (m : Mesh) : Nat := m.tetrahedra.length

end Mesh

/-! ## `geometry/geometry_wrapper.cpp` -/

namespace Geometry_Wrapper

/-- `Geometry_Wrapper::tetra_in_box` (geometry_wrapper.cpp:80-117): copies the
box corners and the four vertex positions and calls
`Geometry::tetra_in_box_strict`. -/
def tetra_in_box (t_id : Nat) (box : Box) (mesh : Mesh) : Bool :=
  let t := mesh.get_tetrahedron t_id
  Geometry.tetra_in_box_strict box.min box.max
    (fun i => (mesh.get_vertex (t.TV i)).toPoint)

/-- `Geometry_Wrapper::tetra_in_box_build` (geometry_wrapper.cpp:66-78): a
tetrahedron with a vertex contained by the box (half-open test against the
mesh-domain maximum) is inside; otherwise the strict test decides. -/
def tetra_in_box_build (t_id : Nat) (box : Box) (mesh : Mesh) : Bool :=
  let t := mesh.get_tetrahedron t_id
  if (List.finRange 4).any (fun v =>
      box.contains (mesh.get_vertex (t.TV v)).toPoint mesh.domain.max) then true
  else tetra_in_box t_id box mesh

end Geometry_Wrapper

/-! ## `tetrahedral_trees/node.h`, `node_v.h`, `node_t.h` -/

/-- A node of a tree (`Node<N>`): a leaf with its vertex and tetrahedra
arrays, or an internal node with its sons (whose arrays are empty). A `Node_T`
leaf has no vertex array: its `vertices` stay empty. During the construction
the arrays hold plain (positive) ids, on which `run_iterator` is the identity. -/
inductive Node where
  | leaf (vertices : List Nat) (tetrahedra : List Nat)
  | internal (sons : List Node)

namespace Node

/-- `Node::is_leaf`. -/
def is_leaf : Node → Bool
  | leaf _ _ => true
  | internal _ => false

/-- `Node_V::get_v_array_size`. -/
def get_v_array_size : Node → Nat
  | leaf vs _ => vs.length
  | internal _ => 0

/-- `Node::get_t_array_size`. -/
def get_t_array_size : Node → Nat
  | leaf _ ts => ts.length
  | internal _ => 0

/-- `Node::get_t_array`. -/
def get_t_array : Node → List Nat
  | leaf _ ts => ts
  | internal _ => []

/-- `Node_V::add_vertex`: `vertices.push_back(ind)`. -/
def add_vertex : Node → Nat → Node
  | leaf vs ts, ind => leaf (vs ++ [ind]) ts
  | internal sons, _ => internal sons

/-- `Node::add_tetrahedron`: `tetrahedra.push_back(ind)`. -/
def add_tetrahedron : Node → Nat → Node
  | leaf vs ts, ind => leaf vs (ts ++ [ind])
  | internal sons, _ => internal sons

/-- The node right after `init_sons` and the `set_son` loop of `split`:
`son_number` new empty sons. -/
def with_new_sons (d : Subdivision) : Node :=
  internal (List.replicate d.son_number (leaf [] []))

/-- A loop `for (i = 0; i < son_number; i++) f(i, *n.get_son(i))` over the sons
of an internal node, `i` being the index of the first son of the list. -/
def forSons (f : Nat → Node → Option Node) : Nat → List Node → Option (List Node)
  | _, [] => some []
  | i, s :: rest =>
    match f i s with
    | none => none
    | some s' =>
      match forSons f (i + 1) rest with
      | none => none
      | some rest' => some (s' :: rest')

/-- A loop over the sons that applies `f` to the first son passing `test` and
then breaks. -/
def forFirstSon (test : Nat → Bool) (f : Nat → Node → Option Node) :
    Nat → List Node → Option (List Node)
  | _, [] => some []
  | i, s :: rest =>
    if test i then
      match f i s with
      | none => none
      | some s' => some (s' :: rest)
    else
      match forFirstSon test f (i + 1) rest with
      | none => none
      | some rest' => some (s :: rest')

/-- A loop inserting the ids of a list one after the other into a node. -/
def insertAll (add : Node → Nat → Option Node) : List Nat → Node → Option Node
  | [], n => some n
  | x :: xs, n =>
    match add n x with
    | none => none
    | some n' => insertAll add xs n'

mutual
/-- The leaves of the subtree of a node with their boxes: the box of a son is
recomputed from the box of its parent, the level and the index of the son. -/
def leaves (d : Subdivision) : Node → Box → Nat → List (Box × List Nat × List Nat)
  | leaf vs ts, dom, _ => [(dom, vs, ts)]
  | internal sons, dom, level => leavesOfSons d sons dom level 0
/-- The leaves below the sons of a node, `i` being the index of the first son
of the list. -/
def leavesOfSons (d : Subdivision) :
    List Node → Box → Nat → Nat → List (Box × List Nat × List Nat)
  | [], _, _, _ => []
  | s :: rest, dom, level, i =>
    leaves d s (d.compute_domain dom level i) (level + 1) ++
      leavesOfSons d rest dom level (i + 1)
end

end Node

/-! ## `tetrahedral_trees/p_tree.h` -/

namespace P_Tree

/-- `P_Tree::is_full` (p_tree.h:100). -/
def is_full (vertices_threshold : Nat) (n : Node) : Bool :=
  decide (n.get_v_array_size > vertices_threshold)

/-- `P_Tree::add_tetrahedron` (p_tree.h:150-167). -/
def add_tetrahedron (d : Subdivision) (mesh : Mesh) :
    Nat → Node → Box → Nat → Nat → Option Node
  | 0, _, _, _, _ => none
  | fuel + 1, n, domain, level, t =>
    if !Geometry_Wrapper.tetra_in_box_build t domain mesh then some n
    else
      match n with
      | Node.leaf vs ts => some (Node.add_tetrahedron (Node.leaf vs ts) t)
      | Node.internal sons =>
        match Node.forSons (fun i s =>
            add_tetrahedron d mesh fuel s (d.compute_domain domain level i) (level + 1) t)
            0 sons with
        | none => none
        | some sons' => some (Node.internal sons')

/-- `P_Tree::split` (p_tree.h:169-190) of the leaf with arrays `vs` and `ts`;
`addV` and `addT` are the two insertion procedures. -/
def split (d : Subdivision) (addV addT : Node → Box → Nat → Nat → Option Node)
    (vs ts : List Nat) (domain : Box) (level : Nat) : Option Node :=
  match Node.insertAll (fun n v => addV n domain level v) vs (Node.with_new_sons d) with
  | none => none
  | some n1 => Node.insertAll (fun n t => addT n domain level t) ts n1

/-- `P_Tree::add_vertex` (p_tree.h:127-148). -/
def add_vertex (d : Subdivision) (mesh : Mesh) (vertices_threshold : Nat) :
    Nat → Node → Box → Nat → Nat → Option Node
  | 0, _, _, _, _ => none
  | fuel + 1, n, domain, level, v =>
    match n with
    | Node.leaf vs ts =>
      if is_full vertices_threshold (Node.add_vertex (Node.leaf vs ts) v) then
        split d (add_vertex d mesh vertices_threshold fuel) (add_tetrahedron d mesh fuel)
          (vs ++ [v]) ts domain level
      else some (Node.add_vertex (Node.leaf vs ts) v)
    | Node.internal sons =>
      match Node.forFirstSon
          (fun i => (d.compute_domain domain level i).contains
            (mesh.get_vertex v).toPoint mesh.domain.max)
          (fun i s =>
            add_vertex d mesh vertices_threshold fuel s (d.compute_domain domain level i)
              (level + 1) v)
          0 sons with
      | none => none
      | some sons' => some (Node.internal sons')

/-- `P_Tree::build_tree` (p_tree.h:112-125). -/
def build_tree (d : Subdivision) (mesh : Mesh) (vertices_threshold : Nat) (fuel : Nat) :
    Option Node :=
  match Node.insertAll
      (fun n i => add_vertex d mesh vertices_threshold fuel n mesh.domain 0 i)
      (List.range' 1 mesh.get_num_vertices) (Node.leaf [] []) with
  | none => none
  | some root =>
    Node.insertAll (fun n i => add_tetrahedron d mesh fuel n mesh.domain 0 i)
      (List.range' 1 mesh.get_num_tetrahedra) root

end P_Tree

/-! ## `utilities/sorting_structure.h`, `utilities/sorting.cpp` -/

/-- A vertex-tetrahedron pair (`vertex_tetrahedron_pair`), ordered by its
vertex. -/
structure vertex_tetrahedron_pair where
  v : Nat
  t : Nat
  deriving DecidableEq

/-- `sorting_vertices` (sorting.cpp:27-43): the four pairs of every
tetrahedron of the array, sorted by vertex. -/
def sorting_vertices (tetrahedra : List Nat) (mesh : Mesh) : List vertex_tetrahedron_pair :=
  (tetrahedra.flatMap (fun t =>
      [⟨(mesh.get_tetrahedron t).TV 0, t⟩, ⟨(mesh.get_tetrahedron t).TV 1, t⟩,
       ⟨(mesh.get_tetrahedron t).TV 2, t⟩, ⟨(mesh.get_tetrahedron t).TV 3, t⟩])).insertionSort
    (fun a b => a.v ≤ b.v)

/-- The loop of `is_full` over the adjacent pairs `vert_vec[i]`, `vert_vec[i+1]`
(t_tree.h:152-165, pt_tree.h:227-240): `false` as soon as a vertex is found in
`count > threshold` pairs with `count == t_size`, `true` at the end. The list
is the part of `vert_vec` from position `i`. -/
def common_vertex_loop (threshold t_size : Nat) :
    List vertex_tetrahedron_pair → Nat → Bool
  | a :: b :: rest, count =>
    if a.v = b.v then
      if count + 1 > threshold ∧ count + 1 = t_size then false
      else common_vertex_loop threshold t_size (b :: rest) (count + 1)
    else common_vertex_loop threshold t_size (b :: rest) 1
  | _, _ => true

/-! ## `tetrahedral_trees/t_tree.h` -/

namespace T_Tree

/-- `T_Tree::is_full` (t_tree.h:143-170). -/
def is_full (mesh : Mesh) (tetrahedra_threshold : Nat) (n : Node) : Bool :=
  let t_size := n.get_t_array_size
  if t_size > tetrahedra_threshold then
    common_vertex_loop tetrahedra_threshold t_size (sorting_vertices n.get_t_array mesh) 1
  else false

/-- `T_Tree::split` (t_tree.h:129-141) of the leaf with tetrahedra array `ts`;
`addT` is the insertion procedure. -/
def split (d : Subdivision) (addT : Node → Box → Nat → Nat → Option Node)
    (ts : List Nat) (domain : Box) (level : Nat) : Option Node :=
  Node.insertAll (fun n t => addT n domain level t) ts (Node.with_new_sons d)

/-- `T_Tree::add_tetrahedron` (t_tree.h:106-127). -/
def add_tetrahedron (d : Subdivision) (mesh : Mesh) (tetrahedra_threshold : Nat) :
    Nat → Node → Box → Nat → Nat → Option Node
  | 0, _, _, _, _ => none
  | fuel + 1, n, domain, level, t =>
    if !Geometry_Wrapper.tetra_in_box_build t domain mesh then some n
    else
      match n with
      | Node.leaf vs ts =>
        if is_full mesh tetrahedra_threshold (Node.add_tetrahedron (Node.leaf vs ts) t) then
          split d (add_tetrahedron d mesh tetrahedra_threshold fuel) (ts ++ [t]) domain level
        else some (Node.add_tetrahedron (Node.leaf vs ts) t)
      | Node.internal sons =>
        match Node.forSons (fun i s =>
            add_tetrahedron d mesh tetrahedra_threshold fuel s
              (d.compute_domain domain level i) (level + 1) t) 0 sons with
        | none => none
        | some sons' => some (Node.internal sons')

/-- `T_Tree::build_tree` (t_tree.h:98-104). -/
def build_tree (d : Subdivision) (mesh : Mesh) (tetrahedra_threshold : Nat) (fuel : Nat) :
    Option Node :=
  Node.insertAll
    (fun n i => add_tetrahedron d mesh tetrahedra_threshold fuel n mesh.domain 0 i)
    (List.range' 1 mesh.get_num_tetrahedra) (Node.leaf [] [])

end T_Tree

/-! ## `tetrahedral_trees/rt_tree.h` -/

namespace RT_Tree

/-- `RT_Tree::is_full` (rt_tree.h:101). -/
def is_full (tetrahedra_threshold : Nat) (n : Node) : Bool :=
  decide (n.get_t_array_size > tetrahedra_threshold)

/-- `RT_Tree::reinsert_tetrahedron_once` (rt_tree.h:143-151). -/
def reinsert_tetrahedron_once (mesh : Mesh) (n : Node) (domain : Box) (t : Nat) : Node :=
  if !Geometry_Wrapper.tetra_in_box_build t domain mesh then n
  else if n.is_leaf then n.add_tetrahedron t
  else n

/-- `RT_Tree::split` (rt_tree.h:153-175) of the leaf with tetrahedra array `ts`:
every son, in turn, receives the tetrahedra of the array once. -/
def split (d : Subdivision) (mesh : Mesh) (ts : List Nat) (domain : Box) (level : Nat) : Node :=
  Node.internal ((List.range d.son_number).map (fun j =>
    ts.foldl (fun son t =>
      reinsert_tetrahedron_once mesh son (d.compute_domain domain level j) t)
      (Node.leaf [] [])))

/-- `RT_Tree::add_tetrahedron` (rt_tree.h:120-141). -/
def add_tetrahedron (d : Subdivision) (mesh : Mesh) (tetrahedra_threshold : Nat) :
    Nat → Node → Box → Nat → Nat → Option Node
  | 0, _, _, _, _ => none
  | fuel + 1, n, domain, level, t =>
    if !Geometry_Wrapper.tetra_in_box_build t domain mesh then some n
    else
      match n with
      | Node.leaf vs ts =>
        if is_full tetrahedra_threshold (Node.add_tetrahedron (Node.leaf vs ts) t) then
          some (split d mesh (ts ++ [t]) domain level)
        else some (Node.add_tetrahedron (Node.leaf vs ts) t)
      | Node.internal sons =>
        match Node.forSons (fun i s =>
            add_tetrahedron d mesh tetrahedra_threshold fuel s
              (d.compute_domain domain level i) (level + 1) t) 0 sons with
        | none => none
        | some sons' => some (Node.internal sons')

/-- `RT_Tree::build_tree` (rt_tree.h:111-117). -/
def build_tree (d : Subdivision) (mesh : Mesh) (tetrahedra_threshold : Nat) (fuel : Nat) :
    Option Node :=
  Node.insertAll
    (fun n i => add_tetrahedron d mesh tetrahedra_threshold fuel n mesh.domain 0 i)
    (List.range' 1 mesh.get_num_tetrahedra) (Node.leaf [] [])

end RT_Tree

/-! ## `tetrahedral_trees/pt_tree.h` -/

namespace PT_Tree

/-- `PT_Tree::is_full_vertex` (pt_tree.h:117). -/
def is_full_vertex (vertices_threshold : Nat) (n : Node) : Bool :=
  decide (n.get_v_array_size > vertices_threshold)

/-- `PT_Tree::is_full_tetrahedra` (pt_tree.h:218-245). -/
def is_full_tetrahedra (mesh : Mesh) (tetrahedra_threshold : Nat) (n : Node) : Bool :=
  let t_size := n.get_t_array_size
  if t_size > tetrahedra_threshold then
    common_vertex_loop tetrahedra_threshold t_size (sorting_vertices n.get_t_array mesh) 1
  else false

/-- `PT_Tree::split` (pt_tree.h:197-216) of the leaf with arrays `vs` and `ts`;
`addV` and `addT` are the two insertion procedures. -/
def split (d : Subdivision) (addV addT : Node → Box → Nat → Nat → Option Node)
    (vs ts : List Nat) (domain : Box) (level : Nat) : Option Node :=
  match Node.insertAll (fun n v => addV n domain level v) vs (Node.with_new_sons d) with
  | none => none
  | some n1 => Node.insertAll (fun n t => addT n domain level t) ts n1

mutual
/-- `PT_Tree::add_vertex` (pt_tree.h:157-177). -/
def add_vertex (d : Subdivision) (mesh : Mesh) (vertices_threshold tetrahedra_threshold : Nat) :
    Nat → Node → Box → Nat → Nat → Option Node
  | 0, _, _, _, _ => none
  | fuel + 1, n, domain, level, v =>
    match n with
    | Node.leaf vs ts =>
      if is_full_vertex vertices_threshold (Node.add_vertex (Node.leaf vs ts) v) then
        split d (add_vertex d mesh vertices_threshold tetrahedra_threshold fuel)
          (add_tetrahedron d mesh vertices_threshold tetrahedra_threshold fuel)
          (vs ++ [v]) ts domain level
      else some (Node.add_vertex (Node.leaf vs ts) v)
    | Node.internal sons =>
      match Node.forFirstSon
          (fun i => (d.compute_domain domain level i).contains
            (mesh.get_vertex v).toPoint mesh.domain.max)
          (fun i s =>
            add_vertex d mesh vertices_threshold tetrahedra_threshold fuel s
              (d.compute_domain domain level i) (level + 1) v)
          0 sons with
      | none => none
      | some sons' => some (Node.internal sons')
/-- `PT_Tree::add_tetrahedron` (pt_tree.h:179-195). -/
def add_tetrahedron (d : Subdivision) (mesh : Mesh)
    (vertices_threshold tetrahedra_threshold : Nat) :
    Nat → Node → Box → Nat → Nat → Option Node
  | 0, _, _, _, _ => none
  | fuel + 1, n, domain, level, t =>
    if !Geometry_Wrapper.tetra_in_box_build t domain mesh then some n
    else
      match n with
      | Node.leaf vs ts =>
        if is_full_tetrahedra mesh tetrahedra_threshold
            (Node.add_tetrahedron (Node.leaf vs ts) t) then
          split d (add_vertex d mesh vertices_threshold tetrahedra_threshold fuel)
            (add_tetrahedron d mesh vertices_threshold tetrahedra_threshold fuel)
            vs (ts ++ [t]) domain level
        else some (Node.add_tetrahedron (Node.leaf vs ts) t)
      | Node.internal sons =>
        match Node.forSons (fun i s =>
            add_tetrahedron d mesh vertices_threshold tetrahedra_threshold fuel s
              (d.compute_domain domain level i) (level + 1) t) 0 sons with
        | none => none
        | some sons' => some (Node.internal sons')
end

/-- `PT_Tree::build_tree` (pt_tree.h:145-155). -/
def build_tree (d : Subdivision) (mesh : Mesh) (vertices_threshold tetrahedra_threshold : Nat)
    (fuel : Nat) : Option Node :=
  match Node.insertAll
      (fun n i =>
        add_vertex d mesh vertices_threshold tetrahedra_threshold fuel n mesh.domain 0 i)
      (List.range' 1 mesh.get_num_vertices) (Node.leaf [] []) with
  | none => none
  | some root =>
    Node.insertAll
      (fun n i =>
        add_tetrahedron d mesh vertices_threshold tetrahedra_threshold fuel n mesh.domain 0 i)
      (List.range' 1 mesh.get_num_tetrahedra) root

end PT_Tree

/-! ## Example meshes -/

namespace Examples

/-- A mesh with one tetrahedron, of vertices `(1,0,0), (2,0,0), (2,1,0),
(2,0,1)`, and two more vertices that stretch the domain to `[0,2]³`. -/
def faceTouchMesh : Mesh :=
  { domain := ⟨⟨0, 0, 0⟩, ⟨2, 2, 2⟩⟩
    vertices := [⟨⟨1, 0, 0⟩, 0⟩, ⟨⟨2, 0, 0⟩, 0⟩, ⟨⟨2, 1, 0⟩, 0⟩, ⟨⟨2, 0, 1⟩, 0⟩,
      ⟨⟨0, 0, 0⟩, 0⟩, ⟨⟨2, 2, 2⟩, 0⟩]
    tetrahedra := [Tetrahedron.mk4 1 2 3 4] }

end Examples

/-! ## Properties of trees used in the statements -/

/-- The position of the vertex at position `j` of tetrahedron `t`. -/
def Mesh.tetra_vertex (mesh : Mesh) (t : Nat) (j : Fin 4) : Point :=
  (mesh.get_vertex ((mesh.get_tetrahedron t).TV j)).toPoint

namespace Node

/-- A property of every son of a list, given the index of the son (`i` is the
index of the first son of the list). -/
def AllSons (Q : Nat → Node → Prop) : Nat → List Node → Prop
  | _, [] => True
  | i, s :: rest => Q i s ∧ AllSons Q (i + 1) rest

mutual
/-- Every internal node of the subtree has `son_number` sons. -/
def Shaped (d : Subdivision) : Node → Prop
  | leaf _ _ => True
  | internal sons => sons.length = d.son_number ∧ ShapedSons d sons
/-- Every node of the list is `Shaped`. -/
def ShapedSons (d : Subdivision) : List Node → Prop
  | [] => True
  | s :: rest => Shaped d s ∧ ShapedSons d rest
end

mutual
/-- Along the boxes containing the point `p`, the subtree lists tetrahedron
`t`: a leaf whose box contains `p` lists `t`, and below an internal node whose
box contains `p` the property holds for every son. -/
def Covers (d : Subdivision) (dmax p : Point) (t : Nat) : Node → Box → Nat → Prop
  | leaf _ ts, dom, _ => dom.contains p dmax = true → t ∈ ts
  | internal sons, dom, level =>
    dom.contains p dmax = true → CoversSons d dmax p t sons dom level 0
/-- `Covers` for the sons of a node of box `dom`, from son index `i`. -/
def CoversSons (d : Subdivision) (dmax p : Point) (t : Nat) :
    List Node → Box → Nat → Nat → Prop
  | [], _, _, _ => True
  | s :: rest, dom, level, i =>
    Covers d dmax p t s (d.compute_domain dom level i) (level + 1) ∧
      CoversSons d dmax p t rest dom level (i + 1)
end

end Node

/-- An insertion procedure for tetrahedra establishes `Covers` for the
inserted tetrahedron (at each of its vertices) and keeps it for the others. -/
def CoverStep (d : Subdivision) (mesh : Mesh)
    (add : Node → Box → Nat → Nat → Option Node) : Prop :=
  ∀ n dom level t' n', add n dom level t' = some n' →
    (∀ j, Node.Covers d mesh.domain.max (mesh.tetra_vertex t' j) t' n' dom level) ∧
    (∀ t j, Node.Covers d mesh.domain.max (mesh.tetra_vertex t j) t n dom level →
      Node.Covers d mesh.domain.max (mesh.tetra_vertex t j) t n' dom level)

/-- An insertion procedure (for vertices) keeps `Covers` for every
tetrahedron. -/
def CoverKeep (d : Subdivision) (mesh : Mesh)
    (add : Node → Box → Nat → Nat → Option Node) : Prop :=
  ∀ n dom level v n', add n dom level v = some n' →
    ∀ t j, Node.Covers d mesh.domain.max (mesh.tetra_vertex t j) t n dom level →
      Node.Covers d mesh.domain.max (mesh.tetra_vertex t j) t n' dom level

/-- An insertion procedure keeps the tree well shaped. -/
def ShapeKeep (d : Subdivision) (add : Node → Box → Nat → Nat → Option Node) : Prop :=
  ∀ n dom level x n', add n dom level x = some n' → Node.Shaped d n → Node.Shaped d n'

/-- The mesh invariant: the vertex indices of every tetrahedron are in range
and the domain encloses (as a closed box) every vertex. -/
def Mesh.wellFormed (mesh : Mesh) : Prop :=
  (∀ tet ∈ mesh.tetrahedra, ∀ j : Fin 4,
    1 ≤ tet.TV j ∧ tet.TV j ≤ mesh.get_num_vertices) ∧
  (∀ v ∈ mesh.vertices, mesh.domain.contains_with_all_closed_faces v.toPoint = true)

namespace Examples

/-- The unit cube with its eight corners and its centre, split into twelve
tetrahedra joining the centre to the two triangles of each face. -/
def cubeMesh : Mesh :=
  { domain := ⟨⟨0, 0, 0⟩, ⟨1, 1, 1⟩⟩
    vertices := [⟨⟨0, 0, 0⟩, 0⟩, ⟨⟨1, 0, 0⟩, 0⟩, ⟨⟨0, 1, 0⟩, 0⟩, ⟨⟨1, 1, 0⟩, 0⟩,
      ⟨⟨0, 0, 1⟩, 0⟩, ⟨⟨1, 0, 1⟩, 0⟩, ⟨⟨0, 1, 1⟩, 0⟩, ⟨⟨1, 1, 1⟩, 0⟩,
      ⟨⟨1 / 2, 1 / 2, 1 / 2⟩, 0⟩]
    tetrahedra := [Tetrahedron.mk4 1 2 3 9, Tetrahedron.mk4 2 3 4 9,
      Tetrahedron.mk4 5 6 7 9, Tetrahedron.mk4 6 7 8 9,
      Tetrahedron.mk4 1 2 5 9, Tetrahedron.mk4 2 5 6 9,
      Tetrahedron.mk4 3 4 7 9, Tetrahedron.mk4 4 7 8 9,
      Tetrahedron.mk4 1 3 5 9, Tetrahedron.mk4 3 5 7 9,
      Tetrahedron.mk4 2 4 6 9, Tetrahedron.mk4 4 6 8 9] }

end Examples

/-- Every tetrahedron id `1..|T|` is listed in at least one leaf of the tree. -/
def Node.listsAllTetrahedra (d : Subdivision) (mesh : Mesh) (tree : Node) : Prop :=
  ∀ t, 1 ≤ t → t ≤ mesh.get_num_tetrahedra →
    ∃ x ∈ Node.leaves d tree mesh.domain 0, t ∈ x.2.2

namespace Node

/-- The leaves of a subtree with their boxes and vertex arrays only. -/
def vertexLeaves (d : Subdivision) (n : Node) (dom : Box) (level : Nat) :
    List (Box × List Nat) :=
  (leaves d n dom level).map (fun x => (x.1, x.2.1))

end Node

/-- Every vertex stored in a leaf is contained by the box of the leaf
(half-open test with mesh-max override). -/
def verticesInBox (mesh : Mesh) (W : List (Box × List Nat)) : Prop :=
  ∀ x ∈ W, ∀ v ∈ x.2, x.1.contains (mesh.get_vertex v).toPoint mesh.domain.max = true

/-- The vertex ids stored in the leaves, leaf after leaf. -/
def storedVertices (W : List (Box × List Nat)) : List Nat :=
  W.flatMap (fun x => x.2)

/-- Every leaf stores at most `kv` vertex ids. -/
def verticesBounded (kv : Nat) (W : List (Box × List Nat)) : Prop :=
  ∀ x ∈ W, x.2.length ≤ kv

/-- What an insertion procedure for vertices guarantees on the vertex arrays
of the leaves: the bound `kv` on their length is kept; and, in a well-shaped
tree whose leaves store only vertices contained by their boxes, a vertex
contained by the box of the node ends up stored once, in a leaf whose box
contains it. -/
def VertexStep (d : Subdivision) (mesh : Mesh) (kv : Nat)
    (add : Node → Box → Nat → Nat → Option Node) : Prop :=
  ∀ n dom level v n', add n dom level v = some n' →
    (verticesBounded kv (Node.vertexLeaves d n dom level) →
      verticesBounded kv (Node.vertexLeaves d n' dom level)) ∧
    (Node.Shaped d n → verticesInBox mesh (Node.vertexLeaves d n dom level) →
      dom.contains (mesh.get_vertex v).toPoint mesh.domain.max = true →
      verticesInBox mesh (Node.vertexLeaves d n' dom level) ∧
      (storedVertices (Node.vertexLeaves d n' dom level)).Perm
        (v :: storedVertices (Node.vertexLeaves d n dom level)))

namespace Examples

/-- Two tetrahedra on the same four positions `(0,0,0), (1,0,0), (0,1,0),
(0,0,1)` but with disjoint vertex ids (vertices 5..8 coincide with vertices
1..4). -/
def twinMesh : Mesh :=
  { domain := ⟨⟨0, 0, 0⟩, ⟨1, 1, 1⟩⟩
    vertices := [⟨⟨0, 0, 0⟩, 0⟩, ⟨⟨1, 0, 0⟩, 0⟩, ⟨⟨0, 1, 0⟩, 0⟩, ⟨⟨0, 0, 1⟩, 0⟩,
      ⟨⟨0, 0, 0⟩, 0⟩, ⟨⟨1, 0, 0⟩, 0⟩, ⟨⟨0, 1, 0⟩, 0⟩, ⟨⟨0, 0, 1⟩, 0⟩]
    tetrahedra := [Tetrahedron.mk4 1 2 3 4, Tetrahedron.mk4 5 6 7 8] }

end Examples

namespace Node

/-- `Node_V::get_v_array`. -/
def get_v_array : Node → List Nat
  | leaf vs _ => vs
  | internal _ => []

/-- The sons of a node (`get_son(0)`, `get_son(1)`, ...), none for a leaf. -/
def get_sons : Node → List Node
  | leaf _ _ => []
  | internal sons => sons

end Node

namespace Node

mutual
/-- Every leaf of the subtree has arrays satisfying `P`. -/
def AllLeaves (P : List Nat → List Nat → Prop) : Node → Prop
  | leaf vs ts => P vs ts
  | internal sons => AllLeavesSons P sons
/-- Every leaf below the nodes of the list has arrays satisfying `P`. -/
def AllLeavesSons (P : List Nat → List Nat → Prop) : List Node → Prop
  | [] => True
  | s :: rest => AllLeaves P s ∧ AllLeavesSons P rest
end

/-- The tetrahedra array of every leaf is a strictly increasing list of ids
in `1..b-1`. -/
def SortedBelow (b : Nat) (n : Node) : Prop :=
  n.AllLeaves (fun _ ts => ts.Pairwise (fun x y => x < y) ∧ ∀ x ∈ ts, 1 ≤ x ∧ x < b)

end Node

/-- An insertion procedure for tetrahedra, called with the ids in increasing
order, keeps the tetrahedra arrays of the leaves strictly increasing. -/
def SortedStep (add : Node → Box → Nat → Nat → Option Node) : Prop :=
  ∀ n dom level t n', add n dom level t = some n' → 1 ≤ t →
    Node.SortedBelow t n → Node.SortedBelow (t + 1) n'

/-- An insertion procedure for vertices keeps the tetrahedra arrays of the
leaves strictly increasing and below the same bound. -/
def SortedKeep (add : Node → Box → Nat → Nat → Option Node) : Prop :=
  ∀ n dom level v n' b, add n dom level v = some n' →
    Node.SortedBelow b n → Node.SortedBelow b n'

/-- The tree is the result of `build_tree` of one of the four tree classes
(`P_Tree`, `PT_Tree`, `T_Tree`, `RT_Tree`) on the mesh, for some thresholds. -/
def BuiltTree (d : Subdivision) (mesh : Mesh) (tree : Node) : Prop :=
  ∃ kv kt fuel, P_Tree.build_tree d mesh kv fuel = some tree ∨
    PT_Tree.build_tree d mesh kv kt fuel = some tree ∨
    T_Tree.build_tree d mesh kt fuel = some tree ∨
    RT_Tree.build_tree d mesh kt fuel = some tree

/-- The tree is the result of `build_tree` of one of the two classes on
`Node_T` (`T_Tree`, `RT_Tree`). -/
def BuiltTreeT (d : Subdivision) (mesh : Mesh) (tree : Node) : Prop :=
  ∃ kt fuel, T_Tree.build_tree d mesh kt fuel = some tree ∨
    RT_Tree.build_tree d mesh kt fuel = some tree

/-! ## `basic_types/box.h`: a box against a box -/

namespace Box

/-- `Box::intersects` (box.h:108-117): closed boxes. -/
def intersects (b other : Box) : Bool :=
  if b.max.x < other.min.x then false
  else if b.min.x > other.max.x then false
  else if b.max.y < other.min.y then false
  else if b.min.y > other.max.y then false
  else if b.max.z < other.min.z then false
  else if b.min.z > other.max.z then false
  else true

/-- `Box::completely_contains` (box.h:125-136): the six comparisons are
strict. -/
def completely_contains (b other : Box) : Bool :=
  if b.min.x < other.min.x ∧ b.min.y < other.min.y ∧ b.min.z < other.min.z ∧
      b.max.x > other.max.x ∧ b.max.y > other.max.y ∧ b.max.z > other.max.z then true
  else false

end Box

/-! ## `basic_types/point.h`: vector operations -/

namespace Point

/-- `Point::operator-`. -/
def sub (p s : Point) : Point := ⟨p.x - s.x, p.y - s.y, p.z - s.z⟩

/-- `Point::cross_3D(Point&)`. -/
def cross_3D (p v1 : Point) : Point :=
  ⟨p.y * v1.z - v1.y * p.z, p.z * v1.x - v1.z * p.x, p.x * v1.y - v1.x * p.y⟩

/-- `Point::dot_3D`. -/
def dot_3D (p v1 : Point) : ℚ := p.x * v1.x + p.y * v1.y + p.z * v1.z

end Point

/-! ## Nodes as the queries read them -/

/-- A node as the queries read it: a leaf with its two raw arrays
(`vector<int>`), in which, after the reindexing, a negative entry `-v` followed
by `k` stands for the run `v, …, v+k`; or an internal node with its sons. -/
inductive RawNode where
  | leaf (v_array : List Int) (t_array : List Int)
  | internal (sons : List RawNode)

namespace Node

mutual
/-- The node a tree under construction is for the queries: the arrays hold the
ids as they were pushed. -/
def toRaw : Node → RawNode
  | leaf vs ts => RawNode.leaf (vs.map Int.ofNat) (ts.map Int.ofNat)
  | internal sons => RawNode.internal (toRawSons sons)
/-- `toRaw` on the sons of a node. -/
def toRawSons : List Node → List RawNode
  | [] => []
  | s :: rest => toRaw s :: toRawSons rest
end

end Node

/-- The largest finite `double` (`std::numeric_limits<double>::max()`). -/
def DBL_MAX : ℚ := 2 ^ 1024 - 2 ^ 971

namespace RawNode

/-- The ids `run.first, …, run.second` visited by a loop
`for (t_id = run.first; t_id <= run.second; t_id++)`, where
`run.second = run.first + len`. -/
def run_ids (first : Nat) (len : Int) : List Nat :=
  if len < 0 then [] else List.range' first (len.toNat + 1)

/-- The two updates of `get_run_bounding_box` for a vertex `v`
(node.h:196-203). -/
def bb_add (acc : Point × Point) (v : Point) : Point × Point :=
  (⟨if v.x < acc.1.x then v.x else acc.1.x, if v.y < acc.1.y then v.y else acc.1.y,
      if v.z < acc.1.z then v.z else acc.1.z⟩,
    ⟨if v.x > acc.2.x then v.x else acc.2.x, if v.y > acc.2.y then v.y else acc.2.y,
      if v.z > acc.2.z then v.z else acc.2.z⟩)

/-- `Node::get_run_bounding_box` (node.h:161-214) at a run header `-first`
followed by `len`: the bounding box of the vertices of the tetrahedra of the
run, and the ids of the run. -/
def get_run_bounding_box (mesh : Mesh) (first : Nat) (len : Int) : Box × List Nat :=
  let ids := run_ids first len
  let c := ids.foldl (fun acc t_id =>
      (List.finRange 4).foldl (fun acc i =>
        bb_add acc (mesh.get_vertex ((mesh.get_tetrahedron t_id).TV i)).toPoint) acc)
    ((⟨DBL_MAX, DBL_MAX, DBL_MAX⟩, ⟨-DBL_MAX, -DBL_MAX, -DBL_MAX⟩) : Point × Point)
  (⟨c.1, c.2⟩, ids)

mutual
/-- The recursion shared by the visits of a tree
(`exec_box_query`, `exec_line_query`, `windowed_VT_no_reindex`, `windowed_TT`,
`batched_TT_visit`, `calc_mesh_borders`): `pre` is what is done on entering a
node; the visit returns when `prune` holds of the box of the node; on a leaf
`leaf_fn` runs on the two arrays and the box; below an internal node the sons
are visited in order, son `i` with the box `compute_domain(dom, level, i)`. -/
def visit {σ : Type} (d : Subdivision) (pre : σ → σ) (prune : Box → Bool)
    (leaf_fn : List Int → List Int → Box → σ → Option σ) :
    RawNode → Box → Nat → σ → Option σ
  | leaf vs ts, dom, _, s =>
    if prune dom then some (pre s) else leaf_fn vs ts dom (pre s)
  | internal sons, dom, level, s =>
    if prune dom then some (pre s) else visitSons d pre prune leaf_fn sons dom level 0 (pre s)
/-- The loop of `visit` over the sons, `i` being the index of the first son of
the list. -/
def visitSons {σ : Type} (d : Subdivision) (pre : σ → σ) (prune : Box → Bool)
    (leaf_fn : List Int → List Int → Box → σ → Option σ) :
    List RawNode → Box → Nat → Nat → σ → Option σ
  | [], _, _, _, s => some s
  | n :: rest, dom, level, i, s =>
    match visit d pre prune leaf_fn n (d.compute_domain dom level i) (level + 1) s with
    | none => none
    | some s' => visitSons d pre prune leaf_fn rest dom level (i + 1) s'
end

end RawNode

/-! ## `statistics/query_statistics.h` -/

/-- The container of the result and of the counters of a query
(`QueryStatistics`). The two bit vectors (`bm::bvector<>`) are the sets of
their set bits. -/
structure QueryStatistics where
  numNode : Int
  numLeaf : Int
  numGeometricTest : Int
  checkTetra : Nat → Bool
  access_per_tetra : List Int
  tetrahedra : List Nat
  box_completely_contains_leaf_num : Int
  box_completely_contains_bbox_num : Int
  box_intersect_bbox_num : Int
  box_no_intersect_bbox_num : Int
  box_intersect_bbox_geom_tests_num : Int
  avoided_tetra_geom_tests_num : Int
  tetra_compl_cont_leaf_num : Int
  tetra_compl_cont_bbox_num : Int
  avoid_to_check_tetra : Nat → Bool

namespace QueryStatistics

/-- The constructor `QueryStatistics(num_t, perc_res)` used by the box and
line queries (and, with `num_t = 0`, the state the default constructor leaves,
its counters taken as zero). -/
def init (num_t : Nat) : QueryStatistics :=
  { numNode := 0, numLeaf := 0, numGeometricTest := 0
    checkTetra := fun _ => false
    access_per_tetra := List.replicate num_t 0
    tetrahedra := []
    box_completely_contains_leaf_num := 0, box_completely_contains_bbox_num := 0
    box_intersect_bbox_num := 0, box_no_intersect_bbox_num := 0
    box_intersect_bbox_geom_tests_num := 0, avoided_tetra_geom_tests_num := 0
    tetra_compl_cont_leaf_num := 0, tetra_compl_cont_bbox_num := 0
    avoid_to_check_tetra := fun _ => false }

/-- `QueryStatistics::reset(bool)`, the reset of the box and line queries. -/
def reset (qS : QueryStatistics) : QueryStatistics :=
  { numNode := 0, numLeaf := 0, numGeometricTest := 0
    checkTetra := fun _ => false
    access_per_tetra := qS.access_per_tetra.map (fun _ => 0)
    tetrahedra := []
    box_completely_contains_leaf_num := 0, box_completely_contains_bbox_num := 0
    box_intersect_bbox_num := 0, box_no_intersect_bbox_num := 0
    box_intersect_bbox_geom_tests_num := 0, avoided_tetra_geom_tests_num := 0
    tetra_compl_cont_leaf_num := 0, tetra_compl_cont_bbox_num := 0
    avoid_to_check_tetra := fun _ => false }

/-- `QueryStatistics::reset()`, the reset of the point locations. -/
def reset_point (qS : QueryStatistics) : QueryStatistics :=
  { qS with numNode := 0, numLeaf := 0, numGeometricTest := 0, tetrahedra := [] }

/-- The statement `access_per_tetra[tet_id]++`: `none` when `tet_id` is not an
index of the vector (the write leaves the vector; the vector of the
constructor has `num_t` entries, and the ids are 1-based). -/
def count_access (qS : QueryStatistics) (tet_id : Nat) : Option QueryStatistics :=
  if tet_id < qS.access_per_tetra.length then
    some { qS with access_per_tetra :=
      qS.access_per_tetra.set tet_id (qS.access_per_tetra.getD tet_id 0 + 1) }
  else none

/-- The statement `if (get_stats) access_per_tetra[tet_id]++`. -/
def count_access_if (get_stats : Bool) (qS : QueryStatistics) (tet_id : Nat) :
    Option QueryStatistics :=
  if get_stats then qS.count_access tet_id else some qS

end QueryStatistics

/-! ## `geometry/geometry.cpp`: the tests of the point and line queries -/

namespace Geometry

/-- `Geometry::PointInTetra` (geometry.cpp:242-286): a point equal to a vertex
is inside; otherwise the four signs must agree with the orientation or be
zero. -/
def PointInTetra (xp yp zp : ℚ) (v1 v2 v3 v4 : Point) : Bool :=
  if xp = v1.x ∧ yp = v1.y ∧ zp = v1.z then true
  else if xp = v2.x ∧ yp = v2.y ∧ zp = v2.z then true
  else if xp = v3.x ∧ yp = v3.y ∧ zp = v3.z then true
  else if xp = v4.x ∧ yp = v4.y ∧ zp = v4.z then true
  else
    let orientation :=
      DetSign4D v1.x v1.y v1.z 1 v2.x v2.y v2.z 1 v3.x v3.y v3.z 1 v4.x v4.y v4.z 1
    let d1 := DetSign4D xp yp zp 1 v2.x v2.y v2.z 1 v3.x v3.y v3.z 1 v4.x v4.y v4.z 1
    if d1 ≠ orientation ∧ d1 ≠ 0 then false
    else
      let d2 := DetSign4D v1.x v1.y v1.z 1 xp yp zp 1 v3.x v3.y v3.z 1 v4.x v4.y v4.z 1
      if d2 ≠ orientation ∧ d2 ≠ 0 then false
      else
        let d3 := DetSign4D v1.x v1.y v1.z 1 v2.x v2.y v2.z 1 xp yp zp 1 v4.x v4.y v4.z 1
        if d3 ≠ orientation ∧ d3 ≠ 0 then false
        else
          let d4 := DetSign4D v1.x v1.y v1.z 1 v2.x v2.y v2.z 1 v3.x v3.y v3.z 1 xp yp zp 1
          if d4 ≠ orientation ∧ d4 ≠ 0 then false
          else true

/-- `Geometry::ClipTest3D` (geometry.cpp:333-357): `none` for the return value
`0`, otherwise the interval `[u1, u2]` after the call. -/
def ClipTest3D (p q u1 u2 : ℚ) : Option (ℚ × ℚ) :=
  if p < 0 then
    let r := q / p
    if r > u2 then none
    else if r > u1 then some (r, u2)
    else some (u1, u2)
  else if p > 0 then
    let r := q / p
    if r < u1 then none
    else if r < u2 then some (u1, r)
    else some (u1, u2)
  else if q < 0 then none
  else some (u1, u2)

/-- `Geometry::ClipLine3D` (geometry.cpp:388-404). -/
def ClipLine3D (minX minY minZ maxX maxY maxZ x1 y1 z1 x2 y2 z2 : ℚ) : Bool :=
  let dx := x2 - x1
  let dy := y2 - y1
  let dz := z2 - z1
  ((((((ClipTest3D (-dx) (x1 - minX) 0 1).bind
      fun u => ClipTest3D dx (maxX - x1) u.1 u.2).bind
      fun u => ClipTest3D (-dy) (y1 - minY) u.1 u.2).bind
      fun u => ClipTest3D dy (maxY - y1) u.1 u.2).bind
      fun u => ClipTest3D (-dz) (z1 - minZ) u.1 u.2).bind
      fun u => ClipTest3D dz (maxZ - z1) u.1 u.2).isSome

/-- `Geometry::ClipLine3D_middle` (geometry.cpp:424-443): the minimum faces
are clipped with the closed test, the maximum faces with the strict one. -/
def ClipLine3D_middle (minX minY minZ maxX maxY maxZ x1 y1 z1 x2 y2 z2 : ℚ) : Bool :=
  let dx := x2 - x1
  let dy := y2 - y1
  let dz := z2 - z1
  ((((((ClipTest3D (-dx) (x1 - minX) 0 1).bind
      fun u => ClipTest3D_strict dx (maxX - x1) u.1 u.2).bind
      fun u => ClipTest3D (-dy) (y1 - minY) u.1 u.2).bind
      fun u => ClipTest3D_strict dy (maxY - y1) u.1 u.2).bind
      fun u => ClipTest3D (-dz) (z1 - minZ) u.1 u.2).bind
      fun u => ClipTest3D_strict dz (maxZ - z1) u.1 u.2).isSome

end Geometry

/-! ## `geometry/geometry_wrapper.cpp`: the wrappers of the queries -/

namespace Geometry_Wrapper

/-- `Geometry_Wrapper::point_in_tetra` (geometry_wrapper.cpp:40-64). -/
def point_in_tetra (t_id : Nat) (point : Point) (mesh : Mesh) : Bool :=
  let tet := mesh.get_tetrahedron t_id
  Geometry.PointInTetra point.x point.y point.z
    (mesh.get_vertex (tet.TV 0)).toPoint (mesh.get_vertex (tet.TV 1)).toPoint
    (mesh.get_vertex (tet.TV 2)).toPoint (mesh.get_vertex (tet.TV 3)).toPoint

/-- `Geometry_Wrapper::line_in_box` (geometry_wrapper.cpp:119-125). -/
def line_in_box (v1 v2 : Point) (box : Box) : Bool :=
  Geometry.ClipLine3D_middle box.min.x box.min.y box.min.z box.max.x box.max.y box.max.z
    v1.x v1.y v1.z v2.x v2.y v2.z

/-- `Geometry_Wrapper::line_in_bounding_box` (geometry_wrapper.cpp:127-133). -/
def line_in_bounding_box (v1 v2 : Point) (bb : Box) : Bool :=
  Geometry.ClipLine3D bb.min.x bb.min.y bb.min.z bb.max.x bb.max.y bb.max.z
    v1.x v1.y v1.z v2.x v2.y v2.z

/-- `Geometry_Wrapper::ordered_TF` (geometry_wrapper.cpp:182-211): the three
vertices of the face at position `pos`, in the order of the table. -/
def ordered_TF (t : Tetrahedron) (pos : Fin 4) : Fin 3 → Nat :=
  match pos with
  | 0 => fun k => match k with
    | 0 => t.TV 0
    | 1 => t.TV 1
    | 2 => t.TV 2
  | 1 => fun k => match k with
    | 0 => t.TV 1
    | 1 => t.TV 3
    | 2 => t.TV 2
  | 2 => fun k => match k with
    | 0 => t.TV 3
    | 1 => t.TV 0
    | 2 => t.TV 2
  | 3 => fun k => match k with
    | 0 => t.TV 1
    | 1 => t.TV 0
    | 2 => t.TV 3

/-- The body of the loop of `line_in_tetra` for the face at position `i`
(geometry_wrapper.cpp:147-177): `none` when the function returns `false`,
otherwise `tfirst` and `tlast` after the iteration. -/
def line_in_tetra_face (v1 d : Point) (tet : Tetrahedron) (mesh : Mesh) (i : Fin 4)
    (tfirst tlast : ℚ) : Option (ℚ × ℚ) :=
  let f := ordered_TF tet i
  let sub_ba := (mesh.get_vertex (f 1)).toPoint.sub (mesh.get_vertex (f 0)).toPoint
  let sub_ca := (mesh.get_vertex (f 2)).toPoint.sub (mesh.get_vertex (f 0)).toPoint
  let n := sub_ba.cross_3D sub_ca
  let sub_v1a := v1.sub (mesh.get_vertex (f 0)).toPoint
  let N := - sub_v1a.dot_3D n
  let D := d.dot_3D n
  if D = 0 then
    if N < 0 then none else some (tfirst, tlast)
  else
    let t := N / D
    if D < 0 then
      let tfirst' := max tfirst t
      if tfirst' > tlast then none else some (tfirst', tlast)
    else if D > 0 then
      let tlast' := min tlast t
      if tlast' < tfirst then none else some (tfirst, tlast')
    else some (tfirst, tlast)

/-- `Geometry_Wrapper::line_in_tetra` (geometry_wrapper.cpp:135-180). -/
def line_in_tetra (v1 v2 : Point) (t_id : Nat) (mesh : Mesh) : Bool :=
  let tet := mesh.get_tetrahedron t_id
  let d := v2.sub v1
  ((List.finRange 4).foldl (fun (st : Option (ℚ × ℚ)) i =>
      st.bind (fun u => line_in_tetra_face v1 d tet mesh i u.1 u.2))
    (some (0, 1))).isSome

/-- `Geometry_Wrapper::four_point_turn_wrapper` (geometry_wrapper.cpp:263-266). -/
def four_point_turn_wrapper (v0 v1 v2 op : Point) : Int :=
  Geometry.FourPointTurn op.x op.y op.z v0.x v0.y v0.z v1.x v1.y v1.z v2.x v2.y v2.z

/-- `Geometry_Wrapper::set_face_orientation` (geometry_wrapper.cpp:218-261):
the tetrahedron after the call (`RIGHT_TURN` is `1`). -/
def set_face_orientation (tet : Tetrahedron) (mesh : Mesh) : Tetrahedron :=
  let p := fun i => (mesh.get_vertex (tet.TV i)).toPoint
  if four_point_turn_wrapper (p 0) (p 1) (p 2) (p 3) = 1 then tet
  else if four_point_turn_wrapper (p 1) (p 0) (p 2) (p 3) = 1 then
    Tetrahedron.mk4 (tet.TV 1) (tet.TV 0) (tet.TV 2) (tet.TV 3)
  else if four_point_turn_wrapper (p 2) (p 1) (p 0) (p 3) = 1 then
    Tetrahedron.mk4 (tet.TV 2) (tet.TV 1) (tet.TV 0) (tet.TV 3)
  else tet

/-- `Geometry_Wrapper::set_faces_ordering` (geometry_wrapper.cpp:213-217): the
mesh after the loop over its tetrahedra (the positions of the vertices do not
change, so each tetrahedron is reordered on its own). -/
def set_faces_ordering (mesh : Mesh) : Mesh :=
  { mesh with tetrahedra := mesh.tetrahedra.map (fun tet => set_face_orientation tet mesh) }

end Geometry_Wrapper

/-! ## `queries/spatial_queries.h`, `queries/spatial_queries.cpp` -/

namespace Spatial_Queries

/-- `Spatial_Queries::atomic_point_in_tetra_test` (spatial_queries.cpp:26-35):
the statistics after the call and the returned value. -/
def atomic_point_in_tetra_test (tet_id : Nat) (p : Point) (qS : QueryStatistics)
    (mesh : Mesh) : QueryStatistics × Bool :=
  let qS1 := { qS with numGeometricTest := qS.numGeometricTest + 1 }
  if Geometry_Wrapper.point_in_tetra tet_id p mesh then
    ({ qS1 with tetrahedra := qS1.tetrahedra ++ [tet_id] }, true)
  else (qS1, false)

/-- A `for` loop over a list whose body may fail: the loop fails at the first
failure of its body. -/
def forEach {σ α : Type} (body : σ → α → Option σ) : List α → σ → Option σ
  | [], s => some s
  | x :: xs, s => (body s x).bind (forEach body xs)

/-- `Spatial_Queries::atomic_tetra_in_box_test` (spatial_queries.cpp:37-54);
`none` when the statistics are collected and `tet_id` is not an index of
`access_per_tetra`. -/
def atomic_tetra_in_box_test (tet_id : Nat) (b : Box) (qS : QueryStatistics) (mesh : Mesh)
    (get_stats : Bool) : Option QueryStatistics :=
  (qS.count_access_if get_stats tet_id).map fun qS1 =>
    if !qS1.checkTetra tet_id then
      let qS2 := { qS1 with checkTetra := Function.update qS1.checkTetra tet_id true }
      let qS3 := if get_stats then { qS2 with numGeometricTest := qS2.numGeometricTest + 1 }
        else qS2
      if Geometry_Wrapper.tetra_in_box tet_id b mesh then
        { qS3 with tetrahedra := qS3.tetrahedra ++ [tet_id] }
      else qS3
    else qS1

/-- `Spatial_Queries::atomic_line_in_tetra_test` (spatial_queries.cpp:56-73):
the segment is given by the two corners of `b`; `none` when the statistics are
collected and `tet_id` is not an index of `access_per_tetra`. -/
def atomic_line_in_tetra_test (tet_id : Nat) (b : Box) (qS : QueryStatistics) (mesh : Mesh)
    (get_stats : Bool) : Option QueryStatistics :=
  (qS.count_access_if get_stats tet_id).map fun qS1 =>
    if !qS1.checkTetra tet_id then
      let qS2 := { qS1 with checkTetra := Function.update qS1.checkTetra tet_id true }
      let qS3 := if get_stats then { qS2 with numGeometricTest := qS2.numGeometricTest + 1 }
        else qS2
      if Geometry_Wrapper.line_in_tetra b.min b.max tet_id mesh then
        { qS3 with tetrahedra := qS3.tetrahedra ++ [tet_id] }
      else qS3
    else qS1

/-- The loop `for (t_id = run.first; t_id <= run.second; t_id++)
if (atomic_point_in_tetra_test(...)) return;` of `exec_point_query_leaf`: the
statistics and whether the function returned. -/
def point_tests_run (p : Point) (mesh : Mesh) : List Nat → QueryStatistics →
    QueryStatistics × Bool
  | [], qS => (qS, false)
  | t :: rest, qS =>
    match atomic_point_in_tetra_test t p qS mesh with
    | (qS', true) => (qS', true)
    | (qS', false) => point_tests_run p mesh rest qS'

/-- `Spatial_Queries::exec_point_query_leaf` (spatial_queries.h:303-325) on the
part of the tetrahedra array from the iterator on; `none` when a run header is
the last entry of the array (the read of its length leaves the array). -/
def exec_point_query_leaf (p : Point) (mesh : Mesh) : List Int → QueryStatistics →
    Option QueryStatistics
  | [], qS => some qS
  | [a], qS =>
    if a < 0 then none else some (atomic_point_in_tetra_test a.toNat p qS mesh).1
  | a :: len :: rest, qS =>
    if a < 0 then
      let r := RawNode.get_run_bounding_box mesh a.natAbs len
      if r.1.contains p mesh.domain.max then
        match point_tests_run p mesh r.2 qS with
        | (qS', true) => some qS'
        | (qS', false) => exec_point_query_leaf p mesh rest qS'
      else exec_point_query_leaf p mesh rest qS
    else
      match atomic_point_in_tetra_test a.toNat p qS mesh with
      | (qS', true) => some qS'
      | (qS', false) => exec_point_query_leaf p mesh (len :: rest) qS'

mutual
/-- `Spatial_Queries::exec_point_query` (spatial_queries.h:277-301). -/
def exec_point_query (d : Subdivision) (p : Point) (mesh : Mesh) :
    RawNode → Box → Nat → QueryStatistics → Option QueryStatistics
  | RawNode.leaf _ ts, _, _, qS =>
    exec_point_query_leaf p mesh ts
      { qS with numNode := qS.numNode + 1, numLeaf := qS.numLeaf + 1 }
  | RawNode.internal sons, dom, level, qS =>
    exec_point_query_sons d p mesh sons dom level 0 { qS with numNode := qS.numNode + 1 }
/-- The loop of `exec_point_query` over the sons: the first son whose box
contains the point is visited, then the loop breaks. -/
def exec_point_query_sons (d : Subdivision) (p : Point) (mesh : Mesh) :
    List RawNode → Box → Nat → Nat → QueryStatistics → Option QueryStatistics
  | [], _, _, _, qS => some qS
  | n :: rest, dom, level, i, qS =>
    if (d.compute_domain dom level i).contains p mesh.domain.max then
      exec_point_query d p mesh n (d.compute_domain dom level i) (level + 1) qS
    else exec_point_query_sons d p mesh rest dom level (i + 1) qS
end

/-- The body of the loop of `exec_box_query_leaf_test` over a run whose
bounding box is completely contained by the query box
(spatial_queries.h:423-439); `none` when the statistics are collected and
`t_id` is not an index of `access_per_tetra`. -/
def box_run_contained_step (get_stats : Bool) (qS : QueryStatistics) (t_id : Nat) :
    Option QueryStatistics :=
  (qS.count_access_if get_stats t_id).map fun qS1 =>
    if !qS1.checkTetra t_id then
      let qS2 := { qS1 with
        checkTetra := Function.update qS1.checkTetra t_id true
        tetrahedra := qS1.tetrahedra ++ [t_id] }
      if get_stats then
        { qS2 with
          tetra_compl_cont_bbox_num := qS2.tetra_compl_cont_bbox_num + 1
          avoided_tetra_geom_tests_num := qS2.avoided_tetra_geom_tests_num + 1 }
      else qS2
    else qS1

/-- The body of the loop over a run whose bounding box intersects the query
box (spatial_queries.h:450-456). -/
def box_run_intersect_step (b : Box) (mesh : Mesh) (get_stats : Bool) (qS : QueryStatistics)
    (t_id : Nat) : Option QueryStatistics :=
  let qS1 :=
    if get_stats then
      if !qS.checkTetra t_id then
        { qS with
          box_intersect_bbox_geom_tests_num := qS.box_intersect_bbox_geom_tests_num + 1 }
      else qS
    else qS
  atomic_tetra_in_box_test t_id b qS1 mesh get_stats

/-- The body of the loop over a run whose bounding box does not intersect the
query box, run only with `get_stats` (spatial_queries.h:463-476). -/
def box_run_disjoint_step (qS : QueryStatistics) (t_id : Nat) : QueryStatistics :=
  if !qS.checkTetra t_id ∧ !qS.avoid_to_check_tetra t_id then
    { qS with
      avoid_to_check_tetra := Function.update qS.avoid_to_check_tetra t_id true
      avoided_tetra_geom_tests_num := qS.avoided_tetra_geom_tests_num + 1 }
  else qS

/-- `Spatial_Queries::exec_box_query_leaf_test` (spatial_queries.h:401-485) on
the part of the tetrahedra array from the iterator on; `none` when a run
header is the last entry of the array, or when the statistics are collected and
an id is not an index of `access_per_tetra`. -/
def exec_box_query_leaf_test (b : Box) (mesh : Mesh) (get_stats : Bool) :
    List Int → QueryStatistics → Option QueryStatistics
  | [], qS => some qS
  | [a], qS =>
    if a < 0 then none else atomic_tetra_in_box_test a.toNat b qS mesh get_stats
  | a :: len :: rest, qS =>
    if a < 0 then
      let r := RawNode.get_run_bounding_box mesh a.natAbs len
      if b.completely_contains r.1 then
        let qS1 := if get_stats then
          { qS with
            box_completely_contains_bbox_num := qS.box_completely_contains_bbox_num + 1 }
          else qS
        (forEach (box_run_contained_step get_stats) r.2 qS1).bind
          (exec_box_query_leaf_test b mesh get_stats rest)
      else if b.intersects r.1 then
        let qS1 := if get_stats then
          { qS with box_intersect_bbox_num := qS.box_intersect_bbox_num + 1 }
          else qS
        (forEach (box_run_intersect_step b mesh get_stats) r.2 qS1).bind
          (exec_box_query_leaf_test b mesh get_stats rest)
      else if get_stats then
        exec_box_query_leaf_test b mesh get_stats rest
          (r.2.foldl box_run_disjoint_step
            { qS with box_no_intersect_bbox_num := qS.box_no_intersect_bbox_num + 1 })
      else exec_box_query_leaf_test b mesh get_stats rest qS
    else
      (atomic_tetra_in_box_test a.toNat b qS mesh get_stats).bind
        (exec_box_query_leaf_test b mesh get_stats (len :: rest))

/-- The body of the loop of `add_tetrahedra_to_box_query_result`
(spatial_queries.h:491-506); `none` when the statistics are collected and
`tet_id` is not an index of `access_per_tetra`. -/
def add_tetrahedron_to_result (get_stats : Bool) (qS : QueryStatistics) (tet_id : Nat) :
    Option QueryStatistics :=
  (qS.count_access_if get_stats tet_id).map fun qS1 =>
    if !qS1.checkTetra tet_id then
      let qS2 := { qS1 with
        checkTetra := Function.update qS1.checkTetra tet_id true
        tetrahedra := qS1.tetrahedra ++ [tet_id] }
      if get_stats then
        { qS2 with
          tetra_compl_cont_leaf_num := qS2.tetra_compl_cont_leaf_num + 1
          avoided_tetra_geom_tests_num := qS2.avoided_tetra_geom_tests_num + 1 }
      else qS2
    else qS1

/-- `Spatial_Queries::add_tetrahedra_to_box_query_result`
(spatial_queries.h:487-507): the loop over the run iterator pair of the
tetrahedra array (`fuel` bounds its iterations). -/
def add_tetrahedra_to_box_query_result (fuel : Nat) (t_array : List Int)
    (qS : QueryStatistics) (get_stats : Bool) : Option QueryStatistics :=
  match run_iterator.collect t_array fuel with
  | none => none
  | some ids => forEach (fun q (t : Int) => add_tetrahedron_to_result get_stats q t.toNat) ids qS

/-- The statement `if (get_stats) qS.numNode++` on entering a node. -/
def count_node (get_stats : Bool) (qS : QueryStatistics) : QueryStatistics :=
  if get_stats then { qS with numNode := qS.numNode + 1 } else qS

/-- The leaf branch of `exec_box_query` (spatial_queries.h:334-349): all the
tetrahedra of a leaf whose box is completely contained by the query box are
added, otherwise they are tested. -/
def exec_box_query_leaf (b : Box) (mesh : Mesh) (get_stats : Bool) (fuel : Nat)
    (t_array : List Int) (dom : Box) (qS : QueryStatistics) : Option QueryStatistics :=
  let qS1 := if get_stats then { qS with numLeaf := qS.numLeaf + 1 } else qS
  if b.completely_contains dom then
    let qS2 := if get_stats then
      { qS1 with
        box_completely_contains_leaf_num := qS1.box_completely_contains_leaf_num + 1 }
      else qS1
    add_tetrahedra_to_box_query_result fuel t_array qS2 get_stats
  else exec_box_query_leaf_test b mesh get_stats t_array qS1

/-- `Spatial_Queries::exec_box_query` (spatial_queries.h:326-399). -/
def exec_box_query (d : Subdivision) (b : Box) (mesh : Mesh) (get_stats : Bool)
    (fuel : Nat) : RawNode → Box → Nat → QueryStatistics → Option QueryStatistics :=
  RawNode.visit d (count_node get_stats) (fun dom => !dom.intersects b)
    (fun _ ts dom qS => exec_box_query_leaf b mesh get_stats fuel ts dom qS)

/-- `Spatial_Queries::exec_line_query_leaf` (spatial_queries.h:535-556) on the
part of the tetrahedra array from the iterator on; `none` when a run header is
the last entry of the array, or when the statistics are collected and an id is
not an index of `access_per_tetra`. -/
def exec_line_query_leaf (b : Box) (mesh : Mesh) (get_stats : Bool) :
    List Int → QueryStatistics → Option QueryStatistics
  | [], qS => some qS
  | [a], qS =>
    if a < 0 then none else atomic_line_in_tetra_test a.toNat b qS mesh get_stats
  | a :: len :: rest, qS =>
    if a < 0 then
      let r := RawNode.get_run_bounding_box mesh a.natAbs len
      if Geometry_Wrapper.line_in_bounding_box b.min b.max r.1 then
        (forEach (fun q t => atomic_line_in_tetra_test t b q mesh get_stats) r.2 qS).bind
          (exec_line_query_leaf b mesh get_stats rest)
      else exec_line_query_leaf b mesh get_stats rest qS
    else
      (atomic_line_in_tetra_test a.toNat b qS mesh get_stats).bind
        (exec_line_query_leaf b mesh get_stats (len :: rest))

/-- `Spatial_Queries::exec_line_query` (spatial_queries.h:509-533): the segment
is given by the two corners of `b`. -/
def exec_line_query (d : Subdivision) (b : Box) (mesh : Mesh) (get_stats : Bool) :
    RawNode → Box → Nat → QueryStatistics → Option QueryStatistics :=
  RawNode.visit d (count_node get_stats)
    (fun dom => !Geometry_Wrapper.line_in_box b.min b.max dom)
    (fun _ ts _ qS =>
      exec_line_query_leaf b mesh get_stats ts
        (if get_stats then { qS with numLeaf := qS.numLeaf + 1 } else qS))

end Spatial_Queries

namespace RawNode

mutual
/-- Every leaf of the subtree has arrays satisfying `P`. -/
def AllLeaves (P : List Int → List Int → Prop) : RawNode → Prop
  | leaf vs ts => P vs ts
  | internal sons => AllLeavesSons P sons
/-- Every leaf below the nodes of the list has arrays satisfying `P`. -/
def AllLeavesSons (P : List Int → List Int → Prop) : List RawNode → Prop
  | [] => True
  | s :: rest => AllLeaves P s ∧ AllLeavesSons P rest
end

/-- The tetrahedra array of every leaf is a well-formed compressed sequence
whose expansion has fewer than `fuel` ids. -/
def WellFormed (fuel : Nat) (n : RawNode) : Prop :=
  n.AllLeaves (fun _ ts => wellFormedRuns ts = true ∧ (runExpansion ts).length < fuel)

end RawNode

namespace QueryStatistics

/-- The result vector has no duplicate and the `checkTetra` bit of each of its
ids is set. -/
def NoDuplicates (qS : QueryStatistics) : Prop :=
  qS.tetrahedra.Nodup ∧ ∀ t ∈ qS.tetrahedra, qS.checkTetra t = true

/-- What a step on tetrahedron `t` does to the result vector and to
`checkTetra`: nothing (the counters apart), or it sets the bit of `t`, which
was not set, and possibly appends `t` to the result. -/
def Marks (t : Nat) (qS qS' : QueryStatistics) : Prop :=
  (qS'.tetrahedra = qS.tetrahedra ∧ qS'.checkTetra = qS.checkTetra) ∨
  (qS.checkTetra t = false ∧ qS'.checkTetra = Function.update qS.checkTetra t true ∧
    (qS'.tetrahedra = qS.tetrahedra ∨ qS'.tetrahedra = qS.tetrahedra ++ [t]))

end QueryStatistics

namespace Examples

/-- A reindexed tree on the cube mesh: an octree root whose leaves list the
run `1..4` (`[-1, 3]`), overlapping runs and plain ids, several tetrahedra in
more than one leaf. -/
def runTree : RawNode :=
  RawNode.internal
    [RawNode.leaf [] [-1, 3], RawNode.leaf [] [2, -3, 2, 9], RawNode.leaf [] [],
      RawNode.leaf [] [-9, 3, 1], RawNode.leaf [] [-1, 11], RawNode.leaf [] [5, 6],
      RawNode.leaf [] [-6, 1, 12], RawNode.leaf [] [-2, 0, 7]]

end Examples

/-- A raw tetrahedra array as `build_tree` leaves it: the plain ids of a
strictly increasing list of ids in `1..n`, no run. -/
def PlainArray (n : Nat) (ts : List Int) : Prop :=
  ∃ ts0 : List Nat, ts = ts0.map Int.ofNat ∧
    ts0.Pairwise (fun x y => x < y) ∧ ∀ x ∈ ts0, 1 ≤ x ∧ x ≤ n

namespace Box

/-- The point lies strictly inside the box. -/
def strictly_contains (b : Box) (p : Point) : Prop :=
  b.min.x < p.x ∧ p.x < b.max.x ∧ b.min.y < p.y ∧ p.y < b.max.y ∧
    b.min.z < p.z ∧ p.z < b.max.z

end Box

namespace QueryStatistics

/-- What a step that reports tetrahedron `t` does: nothing to the result and to
`checkTetra` when the bit of `t` is set already; otherwise it sets the bit and
appends `t` to the result. -/
def Pushes (t : Nat) (qS qS' : QueryStatistics) : Prop :=
  (qS.checkTetra t = true ∧ qS'.tetrahedra = qS.tetrahedra ∧
    qS'.checkTetra = qS.checkTetra) ∨
  (qS.checkTetra t = false ∧ qS'.checkTetra = Function.update qS.checkTetra t true ∧
    qS'.tetrahedra = qS.tetrahedra ++ [t])

/-- The result vector holds exactly the ids in `1..n` whose `checkTetra` bit is
set, each once. -/
def Exact (n : Nat) (qS : QueryStatistics) : Prop :=
  qS.tetrahedra.Nodup ∧ (∀ t ∈ qS.tetrahedra, 1 ≤ t ∧ t ≤ n) ∧
    ∀ t, 1 ≤ t → t ≤ n → (qS.checkTetra t = true ↔ t ∈ qS.tetrahedra)

end QueryStatistics

/-! ## `std::map<int, V>` -/

/-- A `std::map<int, V>`: the list of its entries, in the order of the
iteration (increasing keys). -/
abbrev StdMap (V : Type) := List (Nat × V)

namespace StdMap

/-- `map::find(k)`: the value at key `k`, `none` for `end()`. -/
def find {V : Type} : StdMap V → Nat → Option V
  | [], _ => none
  | e :: rest, k => if e.1 = k then some e.2 else find rest k

/-- The new entry placed at its position in the key order. -/
def place {V : Type} (k : Nat) (v : V) : StdMap V → StdMap V
  | [] => [(k, v)]
  | e :: rest => if k < e.1 then (k, v) :: e :: rest else e :: place k v rest

/-- `map::insert(make_pair(k, v))`: nothing changes when the key is present. -/
def insert {V : Type} (m : StdMap V) (k : Nat) (v : V) : StdMap V :=
  match find m k with
  | some _ => m
  | none => place k v m

/-- The assignment `iter->second = v` through the iterator `find(k)`. -/
def assign {V : Type} (m : StdMap V) (k : Nat) (v : V) : StdMap V :=
  m.map (fun e => if e.1 = k then (e.1, v) else e)

/-- `map::insert(first, last)` with the entries of another map: each entry is
inserted in turn. -/
def insert_range {V : Type} (m other : StdMap V) : StdMap V :=
  other.foldl (fun acc e => insert acc e.1 e.2) m

end StdMap

/-! ## `queries/topological_queries_windowed.h`, `queries/topological_queries.cpp`: windowed VT -/

namespace Topological_Queries

/-- `Topological_Queries::update_resulting_VT` (topological_queries.cpp:101-116). -/
def update_resulting_VT (v t : Nat) (vt : StdMap (List Nat)) : StdMap (List Nat) :=
  match StdMap.find vt v with
  | none => StdMap.insert vt v [t]
  | some l => StdMap.assign vt v (l ++ [t])

/-- The body of the two loops of `windowed_VT_Leaf_no_reindex` for tetrahedron
`tet_id` and position `v` (topological_queries_windowed.h:126-132). -/
def windowed_VT_step (mesh : Mesh) (b dom : Box) (tet_id : Nat) (local_vt : StdMap (List Nat))
    (v : Fin 4) : StdMap (List Nat) :=
  let tet := mesh.get_tetrahedron tet_id
  if dom.contains (mesh.get_vertex (tet.TV v)).toPoint mesh.domain.max &&
      b.contains_with_all_closed_faces (mesh.get_vertex (tet.TV v)).toPoint then
    update_resulting_VT (tet.TV v) tet_id local_vt
  else local_vt

/-- `Topological_Queries::windowed_VT_Leaf_no_reindex`
(topological_queries_windowed.h:118-136): the local map of the leaf is built
and then inserted into the global one (`fuel` bounds the iterations of the run
iterator). -/
def windowed_VT_Leaf_no_reindex (mesh : Mesh) (b : Box) (fuel : Nat) (t_array : List Int)
    (dom : Box) (vt : StdMap (List Nat)) : Option (StdMap (List Nat)) :=
  match run_iterator.collect t_array fuel with
  | none => none
  | some ids =>
    let local_vt := ids.foldl (fun lv tet_id =>
      (List.finRange 4).foldl (windowed_VT_step mesh b dom tet_id.toNat) lv) []
    some (StdMap.insert_range vt local_vt)

/-- `Topological_Queries::windowed_VT_no_reindex`
(topological_queries_windowed.h:79-97). -/
def windowed_VT_no_reindex (d : Subdivision) (mesh : Mesh) (b : Box) (fuel : Nat) :
    RawNode → Box → Nat → StdMap (List Nat) → Option (StdMap (List Nat)) :=
  RawNode.visit d id (fun dom => !dom.intersects b)
    (fun _ ts dom vt => windowed_VT_Leaf_no_reindex mesh b fuel ts dom vt)

end Topological_Queries

/-- Tetrahedron `t` (an id of the mesh) is incident in vertex `v`. -/
def Mesh.incident (mesh : Mesh) (t v : Nat) : Prop :=
  1 ≤ t ∧ t ≤ mesh.get_num_tetrahedra ∧ ∃ j, (mesh.get_tetrahedron t).TV j = v

/-- The four vertex ids of every tetrahedron are distinct. -/
def Mesh.distinctVertices (mesh : Mesh) : Prop :=
  ∀ tet ∈ mesh.tetrahedra, Function.Injective tet.TV

/-- A leaf (box and arrays) as a built tree holds it: the tetrahedra array is
a strictly increasing list of ids of the mesh, and it lists every tetrahedron
of the mesh having a vertex contained by the box of the leaf. -/
def Mesh.LeafOK (mesh : Mesh) (x : Box × List Nat × List Nat) : Prop :=
  x.2.2.Pairwise (fun a b => a < b) ∧
  (∀ t ∈ x.2.2, 1 ≤ t ∧ t ≤ mesh.get_num_tetrahedra) ∧
  ∀ t j, 1 ≤ t → t ≤ mesh.get_num_tetrahedra →
    x.1.contains (mesh.tetra_vertex t j) mesh.domain.max = true → t ∈ x.2.2

/-! ## `utilities/sorting_structure.h`, `utilities/sorting.cpp`: the face tuples -/

/-- A face with the tetrahedron it is a face of (`triangle_tetrahedron_tuple`):
the three vertex indices, the tetrahedron index and the position of the face
in the tetrahedron. The indices stored are never negative. -/
structure triangle_tetrahedron_tuple where
  v1 : Nat
  v2 : Nat
  v3 : Nat
  t : Nat
  f_pos : Nat
  deriving DecidableEq

namespace triangle_tetrahedron_tuple

/-- The `operator<` of the tuples: the lexicographic order of the three vertex
indices. -/
def lt (a p : triangle_tetrahedron_tuple) : Bool :=
  decide (a.v1 < p.v1 ∨ (a.v1 = p.v1 ∧ a.v2 < p.v2) ∨
    (a.v1 = p.v1 ∧ a.v2 = p.v2 ∧ a.v3 < p.v3))

/-- The `operator==` of the tuples: the three vertex indices are compared, the
tetrahedron and the position are not. -/
def eq (a s : triangle_tetrahedron_tuple) : Bool :=
  decide (a.v1 = s.v1 ∧ a.v2 = s.v2 ∧ a.v3 = s.v3)

/-- `sort_and_set(vid1, vid2, vid3, tid, f_p)` (sorting_structure.h:62-81). The
overload without `f_p` leaves the position of a fresh tuple at `0`. -/
def sort_and_set (vid1 vid2 vid3 tid f_p : Nat) : triangle_tetrahedron_tuple :=
  let minV := min vid1 (min vid2 vid3)
  let maxV := max vid1 (max vid2 vid3)
  let medV :=
    if minV < vid1 ∧ maxV > vid1 then vid1
    else if minV < vid2 ∧ maxV > vid2 then vid2
    else vid3
  ⟨minV, medV, maxV, tid, f_p⟩

/-- `has_not(v_ind)`: the index is none of the three of the face. -/
def has_not (a : triangle_tetrahedron_tuple) (v_ind : Nat) : Bool :=
  decide (v_ind ≠ a.v1 ∧ v_ind ≠ a.v2 ∧ v_ind ≠ a.v3)

end triangle_tetrahedron_tuple

/-- `Tetrahedron::face_tuple(pos, f, t_id)` (tetrahedron.h:115): the face made
of the vertices at the positions `(pos+1)%4`, `(pos+2)%4`, `(pos+3)%4`. -/
def Tetrahedron.face_tuple (tet : Tetrahedron) (pos t_id : Nat) : triangle_tetrahedron_tuple :=
  triangle_tetrahedron_tuple.sort_and_set (tet.TV (Fin.ofNat (pos + 1)))
    (tet.TV (Fin.ofNat (pos + 2))) (tet.TV (Fin.ofNat (pos + 3))) t_id pos

/-- What `std::sort` guarantees of `sorting_faces` (sorting.cpp:44): the result
is a rearrangement of the array in which no tuple is followed by a smaller one.
The order of the tuples that compare equal is left to the library. -/
def StdSort (sort : List triangle_tetrahedron_tuple → List triangle_tetrahedron_tuple) :
    Prop :=
  ∀ l, (sort l).Perm l ∧ (sort l).Pairwise (fun a b => b.lt a = false)

/-- A sort of the face tuples by insertion, one of the functions `std::sort`
may be. -/
def insertion_sort_faces (l : List triangle_tetrahedron_tuple) :
    List triangle_tetrahedron_tuple :=
  l.insertionSort (fun a b => b.lt a = false)

/-! ## `queries/topological_queries_batched.h`: batched TT -/

/-- The table `vector<vector<int> > tt` of the batched TT: row `t-1` holds the
four adjacencies of tetrahedron `t`. -/
abbrev TTTable := List (List Int)

namespace TTTable

/-- The table after `tmp.assign(4,-1); tt.assign(n,tmp)`. -/
def init (n : Nat) : TTTable := List.replicate n (List.replicate 4 (-1))

/-- The read `tt[i][p]`. -/
def get (tt : TTTable) (i p : Nat) : Int := (tt.getD i []).getD p 0

/-- The write `tt[i][p] = v`. -/
def set (tt : TTTable) (i p : Nat) (v : Int) : TTTable :=
  List.set tt i ((tt.getD i []).set p v)

end TTTable

namespace Topological_Queries

/-- The inner loop of the first part of `batched_TT_leaf`
(topological_queries_batched.h:115-122): the faces of tetrahedron `tet_id`
whose entry of the table is `-1` are pushed. -/
def batched_TT_faces (mesh : Mesh) (tt : TTTable) (faces : List triangle_tetrahedron_tuple)
    (tet_id : Nat) : List triangle_tetrahedron_tuple :=
  (List.range 4).foldl (fun fs v =>
    if tt.get (tet_id - 1) v = -1 then
      fs ++ [(mesh.get_tetrahedron tet_id).face_tuple v tet_id]
    else fs) faces

/-- The loop of `batched_TT_leaf` over the sorted faces
(topological_queries_batched.h:128-150), on the part of the array from index
`j` on: two consecutive equal tuples are paired and skipped, otherwise one
tuple is skipped. -/
def batched_TT_pair : List triangle_tetrahedron_tuple → TTTable → TTTable
  | [], tt => tt
  | [_], tt => tt
  | a :: b :: rest, tt =>
    if a.eq b then
      batched_TT_pair rest ((tt.set (a.t - 1) a.f_pos b.t).set (b.t - 1) b.f_pos a.t)
    else batched_TT_pair (b :: rest) tt

/-- `Topological_Queries::batched_TT_leaf`
(topological_queries_batched.h:105-158); `sort` is `sorting_faces` and `fuel`
bounds the iterations of the run iterator. The count `max_entries` of the
statistics is left out. -/
def batched_TT_leaf (mesh : Mesh)
    (sort : List triangle_tetrahedron_tuple → List triangle_tetrahedron_tuple) (fuel : Nat)
    (t_array : List Int) (tt : TTTable) : Option TTTable :=
  match run_iterator.collect t_array fuel with
  | none => none
  | some ids =>
    let faces := ids.foldl (fun fs tet_id => batched_TT_faces mesh tt fs tet_id.toNat) []
    some (batched_TT_pair (sort faces) tt)

/-- `Topological_Queries::batched_TT_visit`
(topological_queries_batched.h:90-103): every leaf is visited; the boxes of the
nodes, which the procedure does not compute, play no role. -/
def batched_TT_visit (d : Subdivision) (mesh : Mesh)
    (sort : List triangle_tetrahedron_tuple → List triangle_tetrahedron_tuple) (fuel : Nat) :
    RawNode → Box → Nat → TTTable → Option TTTable :=
  RawNode.visit d id (fun _ => false) (fun _ ts _ tt => batched_TT_leaf mesh sort fuel ts tt)

end Topological_Queries

/-! ## `queries/topological_queries_windowed.h`, `queries/topological_queries.cpp`: windowed TT -/

namespace Topological_Queries

/-- `Topological_Queries::init_TT_entry` (topological_queries.cpp:338-343). -/
def init_TT_entry (t1 : Nat) (tt : StdMap (List Int)) : StdMap (List Int) :=
  StdMap.insert tt t1 (List.replicate 4 (-1))

/-- `Topological_Queries::add_faces` (topological_queries.cpp:268-293); `iter`
is the entry of the tetrahedron found before the call (`none` for `tt.end()`). -/
def add_faces (t_id : Nat) (faces : List triangle_tetrahedron_tuple) (mesh : Mesh)
    (iter : Option (List Int)) : List triangle_tetrahedron_tuple :=
  let tet := mesh.get_tetrahedron t_id
  match iter with
  | none => (List.range 4).foldl (fun fs v => fs ++ [tet.face_tuple v t_id]) faces
  | some partial_tt =>
    (List.range partial_tt.length).foldl (fun fs i =>
      if partial_tt.getD i 0 = -1 then fs ++ [tet.face_tuple i t_id] else fs) faces

/-- `Topological_Queries::update_resulting_TT` (topological_queries.cpp:323-336);
without an entry for `t1` the map is left as it is. -/
def update_resulting_TT (pos t1 t2 : Nat) (tt : StdMap (List Int)) : StdMap (List Int) :=
  match StdMap.find tt t1 with
  | none => tt
  | some row => StdMap.assign tt t1 (row.set pos t2)

/-- `Topological_Queries::pair_adjacent_tetrahedra`
(topological_queries.cpp:295-321), on the part of the array from index `j` on. -/
def pair_adjacent_tetrahedra : List triangle_tetrahedron_tuple → StdMap (List Int) →
    StdMap (List Int)
  | [], tt => tt
  | [_], tt => tt
  | a :: b :: rest, tt =>
    if a.eq b then
      pair_adjacent_tetrahedra rest
        (update_resulting_TT b.f_pos b.t a.t (update_resulting_TT a.f_pos a.t b.t tt))
    else pair_adjacent_tetrahedra (b :: rest) tt

/-- `Topological_Queries::finalize_TT_Leaf` (topological_queries.cpp:345-351). -/
def finalize_TT_Leaf
    (sort : List triangle_tetrahedron_tuple → List triangle_tetrahedron_tuple)
    (faces : List triangle_tetrahedron_tuple) (tt : StdMap (List Int)) : StdMap (List Int) :=
  pair_adjacent_tetrahedra (sort faces) tt

/-- The state of the loop of a leaf of the windowed TT: the faces collected,
the map and the bit vector `checkTetra`. -/
structure TTState where
  faces : List triangle_tetrahedron_tuple
  tt : StdMap (List Int)
  checkTetra : Nat → Bool

/-- The body of the loops that add a tetrahedron without a test
(topological_queries_windowed.h:357-367, 414-423). -/
def windowed_TT_add_step (mesh : Mesh) (s : TTState) (t_id : Nat) : TTState :=
  let entry := StdMap.find s.tt t_id
  let checkTetra := Function.update s.checkTetra t_id true
  let tt := if entry = none then init_TT_entry t_id s.tt else s.tt
  ⟨add_faces t_id s.faces mesh entry, tt, checkTetra⟩

/-- The body of the loops that test a tetrahedron against the box
(topological_queries_windowed.h:372-386, 391-403). -/
def windowed_TT_test_step (b : Box) (mesh : Mesh) (s : TTState) (t_id : Nat) : TTState :=
  let entry := StdMap.find s.tt t_id
  let s1 :=
    if entry ≠ none ∨ (!s.checkTetra t_id && Geometry_Wrapper.tetra_in_box t_id b mesh) then
      let tt := if entry = none then init_TT_entry t_id s.tt else s.tt
      { s with faces := add_faces t_id s.faces mesh entry, tt := tt }
    else s
  { s1 with checkTetra := Function.update s1.checkTetra t_id true }

/-- The loop of `windowed_TT_Leaf_test` (topological_queries_windowed.h:351-404)
on the part of the tetrahedra array from the iterator on; `none` when a run
header is the last entry of the array. -/
def windowed_TT_Leaf_test_loop (b : Box) (mesh : Mesh) : List Int → TTState → Option TTState
  | [], s => some s
  | [a], s => if a < 0 then none else some (windowed_TT_test_step b mesh s a.toNat)
  | a :: len :: rest, s =>
    if a < 0 then
      let r := RawNode.get_run_bounding_box mesh a.natAbs len
      if b.completely_contains r.1 then
        windowed_TT_Leaf_test_loop b mesh rest (r.2.foldl (windowed_TT_add_step mesh) s)
      else if b.intersects r.1 then
        windowed_TT_Leaf_test_loop b mesh rest (r.2.foldl (windowed_TT_test_step b mesh) s)
      else windowed_TT_Leaf_test_loop b mesh rest s
    else
      windowed_TT_Leaf_test_loop b mesh (len :: rest) (windowed_TT_test_step b mesh s a.toNat)

/-- `Topological_Queries::windowed_TT_Leaf_test`
(topological_queries_windowed.h:345-406). -/
def windowed_TT_Leaf_test (b : Box) (mesh : Mesh)
    (sort : List triangle_tetrahedron_tuple → List triangle_tetrahedron_tuple)
    (t_array : List Int) (s : StdMap (List Int) × (Nat → Bool)) :
    Option (StdMap (List Int) × (Nat → Bool)) :=
  match windowed_TT_Leaf_test_loop b mesh t_array ⟨[], s.1, s.2⟩ with
  | none => none
  | some s' => some (finalize_TT_Leaf sort s'.faces s'.tt, s'.checkTetra)

/-- `Topological_Queries::windowed_TT_Leaf_add`
(topological_queries_windowed.h:408-426); `fuel` bounds the iterations of the
run iterator. -/
def windowed_TT_Leaf_add (mesh : Mesh)
    (sort : List triangle_tetrahedron_tuple → List triangle_tetrahedron_tuple) (fuel : Nat)
    (t_array : List Int) (s : StdMap (List Int) × (Nat → Bool)) :
    Option (StdMap (List Int) × (Nat → Bool)) :=
  match run_iterator.collect t_array fuel with
  | none => none
  | some ids =>
    let s' := ids.foldl (fun s tet_id => windowed_TT_add_step mesh s tet_id.toNat)
      ⟨[], s.1, s.2⟩
    some (finalize_TT_Leaf sort s'.faces s'.tt, s'.checkTetra)

/-- The leaf branch of `windowed_TT` (topological_queries_windowed.h:328-334). -/
def windowed_TT_leaf (b : Box) (mesh : Mesh)
    (sort : List triangle_tetrahedron_tuple → List triangle_tetrahedron_tuple) (fuel : Nat)
    (t_array : List Int) (dom : Box) (s : StdMap (List Int) × (Nat → Bool)) :
    Option (StdMap (List Int) × (Nat → Bool)) :=
  if b.completely_contains dom then windowed_TT_Leaf_add mesh sort fuel t_array s
  else windowed_TT_Leaf_test b mesh sort t_array s

/-- `Topological_Queries::windowed_TT` (topological_queries_windowed.h:323-343):
the state is the map `tt` and the bit vector `checkTetra`. -/
def windowed_TT (d : Subdivision) (b : Box) (mesh : Mesh)
    (sort : List triangle_tetrahedron_tuple → List triangle_tetrahedron_tuple) (fuel : Nat) :
    RawNode → Box → Nat → StdMap (List Int) × (Nat → Bool) →
      Option (StdMap (List Int) × (Nat → Bool)) :=
  RawNode.visit d id (fun dom => !dom.intersects b)
    (fun _ ts dom s => windowed_TT_leaf b mesh sort fuel ts dom s)

end Topological_Queries

/-! ## `queries/border_checker.h`, `queries/border_checker.cpp` -/

namespace Tetrahedron

/-- `Tetrahedron::setTV`. -/
def setTV (t : Tetrahedron) (pos : Fin 4) (newId : Int) : Tetrahedron :=
  ⟨Function.update t.vertices pos newId⟩

/-- `Tetrahedron::is_border_face`: the index stored at the position is negative. -/
def is_border_face (t : Tetrahedron) (pos : Fin 4) : Bool := decide (t.vertices pos < 0)

end Tetrahedron

namespace Border_Checker

/-- `Border_Checker::get_incident_triangles` (border_checker.cpp:160-174): the
three faces of the tetrahedron incident in the vertex at position `v_pos` are
pushed, for `(i, j) = (1,2), (1,3), (2,3)`. -/
def get_incident_triangles (t : Tetrahedron) (t_id : Nat) (v_pos : Nat)
    (faces : List triangle_tetrahedron_tuple) : List triangle_tetrahedron_tuple :=
  [(1, 2), (1, 3), (2, 3)].foldl (fun fs (ij : Nat × Nat) =>
    fs ++ [triangle_tetrahedron_tuple.sort_and_set (t.TV (Fin.ofNat v_pos))
      (t.TV (Fin.ofNat (v_pos + ij.1))) (t.TV (Fin.ofNat (v_pos + ij.2))) t_id 0]) faces

/-- The loop over the positions of `set_mesh_borders`
(border_checker.cpp:111-122, 134-145): the first position whose vertex is not
of the face gets its index negated in the tetrahedron `faces[j].t` of the mesh. -/
def flag_border (mesh : Mesh) (a : triangle_tetrahedron_tuple) : Mesh :=
  let tet := mesh.get_tetrahedron a.t
  match (List.finRange 4).find? (fun v => a.has_not (tet.TV v)) with
  | none => mesh
  | some v =>
    { mesh with tetrahedra := mesh.tetrahedra.set (a.t - 1) (tet.setTV v (-(tet.TV v : Int))) }

/-- The loop of `set_mesh_borders` over the sorted faces
(border_checker.cpp:105-155), on the part of the array from index `j` on: a
tuple different from the next one, or the last one, flags its tetrahedron; two
equal tuples are skipped. -/
def set_mesh_borders_loop : List triangle_tetrahedron_tuple → Mesh → Mesh
  | [], mesh => mesh
  | [a], mesh => flag_border mesh a
  | a :: b :: rest, mesh =>
    if a.eq b = false then set_mesh_borders_loop (b :: rest) (flag_border mesh a)
    else set_mesh_borders_loop rest mesh

/-- `Border_Checker::set_mesh_borders` (border_checker.cpp:99-158); `sort` is
`sorting_faces`. The flag the procedure returns, which no caller reads, is
left out. -/
def set_mesh_borders
    (sort : List triangle_tetrahedron_tuple → List triangle_tetrahedron_tuple)
    (faces : List triangle_tetrahedron_tuple) (mesh : Mesh) : Mesh :=
  set_mesh_borders_loop (sort faces) mesh

/-- The body of the loops of the first part of `calc_mesh_borders(Node_T&)`
(border_checker.cpp:67-85) for the vertex at position `j` of tetrahedron
`tet_id`. -/
def calc_mesh_borders_add (mesh : Mesh) (dom : Box) (tet_id : Nat)
    (all_faces : StdMap (List triangle_tetrahedron_tuple)) (j : Fin 4) :
    StdMap (List triangle_tetrahedron_tuple) :=
  let t := mesh.get_tetrahedron tet_id
  let real_index := t.TV j
  if dom.contains (mesh.get_vertex real_index).toPoint mesh.domain.max then
    let faces := get_incident_triangles t tet_id j.val []
    match StdMap.find all_faces real_index with
    | none => StdMap.insert all_faces real_index faces
    | some old => StdMap.assign all_faces real_index (old ++ faces)
  else all_faces

/-- `Border_Checker::calc_mesh_borders(Node_T&, Box&, Mesh&)`
(border_checker.cpp:59-97): the faces incident in the vertices contained by the
box of the leaf are collected per vertex, then the borders are set for each
vertex in the order of the map (`fuel` bounds the iterations of the run
iterator). -/
def calc_mesh_borders_leaf
    (sort : List triangle_tetrahedron_tuple → List triangle_tetrahedron_tuple) (fuel : Nat)
    (t_array : List Int) (dom : Box) (mesh : Mesh) : Option Mesh :=
  match run_iterator.collect t_array fuel with
  | none => none
  | some ids =>
    let all_faces := ids.foldl (fun m tet_id =>
      (List.finRange 4).foldl (calc_mesh_borders_add mesh dom tet_id.toNat) m) []
    some (all_faces.foldl (fun m e =>
      if e.2.length > 0 then set_mesh_borders sort e.2 m else m) mesh)

/-- `Border_Checker::calc_mesh_borders(Node_T&, Box&, int, Mesh&, D&)`
(border_checker.h:100-115). -/
def calc_mesh_borders (d : Subdivision)
    (sort : List triangle_tetrahedron_tuple → List triangle_tetrahedron_tuple) (fuel : Nat) :
    RawNode → Box → Nat → Mesh → Option Mesh :=
  RawNode.visit d id (fun _ => false)
    (fun _ ts dom mesh => calc_mesh_borders_leaf sort fuel ts dom mesh)

end Border_Checker

/-- Tetrahedron `u` has the three vertices of the face of `t` opposite to the
position `p`. -/
def Tetrahedron.has_face_of (u t : Tetrahedron) (p : Fin 4) : Prop :=
  ∀ j : Fin 4, j ≠ p → ∃ k : Fin 4, u.TV k = t.TV j

/-- Tetrahedron `u` of the mesh is another tetrahedron than `t` and has the
face of `t` opposite to the position `p`. -/
def Mesh.shares_face (mesh : Mesh) (u t : Nat) (p : Fin 4) : Prop :=
  1 ≤ u ∧ u ≤ mesh.get_num_tetrahedra ∧ u ≠ t ∧
    (mesh.get_tetrahedron u).has_face_of (mesh.get_tetrahedron t) p

/-- Each triangular face belongs to at most two tetrahedra of the mesh. -/
def Mesh.twoPerFace (mesh : Mesh) : Prop :=
  ∀ t ∈ List.range' 1 mesh.get_num_tetrahedra, ∀ p : Fin 4,
    ∀ u ∈ List.range' 1 mesh.get_num_tetrahedra,
    ∀ w ∈ List.range' 1 mesh.get_num_tetrahedra, u ≠ t → w ≠ t →
      (mesh.get_tetrahedron u).has_face_of (mesh.get_tetrahedron t) p →
      (mesh.get_tetrahedron w).has_face_of (mesh.get_tetrahedron t) p → u = w

/-- The vertex indices are stored as they are read, none flagged by a sign. -/
def Mesh.unflagged (mesh : Mesh) : Prop :=
  ∀ tet ∈ mesh.tetrahedra, ∀ j : Fin 4, 0 ≤ tet.vertices j

/-- The table has `n` rows of four entries. -/
def TTTable.Shape (n : Nat) (tt : TTTable) : Prop :=
  tt.length = n ∧ ∀ row ∈ tt, row.length = 4

/-- What the loops over a sorted array of faces do with it
(`batched_TT_leaf`, `pair_adjacent_tetrahedra`, `set_mesh_borders`): a tuple
equal to the next one is taken with it, any other tuple is taken alone. -/
def scan_faces : List triangle_tetrahedron_tuple →
    List (triangle_tetrahedron_tuple × Option triangle_tetrahedron_tuple)
  | [] => []
  | [a] => [(a, none)]
  | a :: b :: rest =>
    if a.eq b then (a, some b) :: scan_faces rest else (a, none) :: scan_faces (b :: rest)

/-- Two different tuples of the array are equal as faces. -/
def FacePartner (F : List triangle_tetrahedron_tuple) (x y : triangle_tetrahedron_tuple) :
    Prop :=
  x ∈ F ∧ y ∈ F ∧ x.eq y = true ∧ x ≠ y

/-- An array of faces in which no tuple occurs twice and no face more than
twice. -/
def FacesTwice (F : List triangle_tetrahedron_tuple) : Prop :=
  F.Nodup ∧ ∀ a ∈ F, ∀ b ∈ F, ∀ c ∈ F, a.eq b = true → a.eq c = true →
    a = b ∨ a = c ∨ b = c

/-- What `batched_TT_leaf` does with the tuples the loop takes together. -/
def batched_TT_step (tt : TTTable)
    (e : triangle_tetrahedron_tuple × Option triangle_tetrahedron_tuple) : TTTable :=
  match e.2 with
  | some b => (tt.set (e.1.t - 1) e.1.f_pos b.t).set (b.t - 1) b.f_pos e.1.t
  | none => tt

/-- The tuples are of tetrahedra `1..n` and of positions `0..3`, and a
tetrahedron and a position have one tuple at most. -/
def FacesOf (n : Nat) (F : List triangle_tetrahedron_tuple) : Prop :=
  (∀ a ∈ F, 1 ≤ a.t ∧ a.t ≤ n ∧ a.f_pos < 4) ∧
    ∀ a ∈ F, ∀ b ∈ F, a.t = b.t → a.f_pos = b.f_pos → a = b

/-- The faces `batched_TT_leaf` collects from the tetrahedra `ts`: those whose
entry of the table is `-1`. -/
def batched_TT_collected (mesh : Mesh) (tt : TTTable) (ts : List Nat) :
    List triangle_tetrahedron_tuple :=
  ts.flatMap (fun t => (List.range 4).filterMap (fun v =>
    if tt.get (t - 1) v = -1 then some ((mesh.get_tetrahedron t).face_tuple v t) else none))

/-- What the batched TT keeps true of its table: an entry is `-1`, or it is
another tetrahedron with the same face, whose entry for the face is the
tetrahedron of this entry. -/
def TTInv (mesh : Mesh) (tt : TTTable) : Prop :=
  TTTable.Shape mesh.get_num_tetrahedra tt ∧
    ∀ t, 1 ≤ t → t ≤ mesh.get_num_tetrahedra → ∀ p : Fin 4,
      tt.get (t - 1) p = -1 ∨
      ∃ (u : Nat) (q : Fin 4), 1 ≤ u ∧ u ≤ mesh.get_num_tetrahedra ∧ u ≠ t ∧
        ((mesh.get_tetrahedron t).face_tuple p t).eq
          ((mesh.get_tetrahedron u).face_tuple q u) = true ∧
        tt.get (t - 1) p = u ∧ tt.get (u - 1) q = t

/-- The mesh `m` is the mesh `mesh` up to the signs of the vertex indices of
its tetrahedra. -/
def Mesh.SameTV (m mesh : Mesh) : Prop :=
  m.domain = mesh.domain ∧ m.vertices = mesh.vertices ∧
    m.tetrahedra.length = mesh.tetrahedra.length ∧
    ∀ t (j : Fin 4), (m.get_tetrahedron t).TV j = (mesh.get_tetrahedron t).TV j

/-- What `set_mesh_borders` does with the tuples the loop takes: a tuple taken
alone flags its tetrahedron. -/
def border_step (m : Mesh)
    (e : triangle_tetrahedron_tuple × Option triangle_tetrahedron_tuple) : Mesh :=
  match e.2 with
  | none => Border_Checker.flag_border m e.1
  | some _ => m

/-- The values `vs` are appended to the list at key `k` of a map, which is
created when the key is new (`find`, then `insert` or `push_back`). -/
def StdMap.push {α : Type} (m : StdMap (List α)) (k : Nat) (vs : List α) : StdMap (List α) :=
  match StdMap.find m k with
  | none => StdMap.insert m k vs
  | some old => StdMap.assign m k (old ++ vs)

/-- The faces `calc_mesh_borders` pushes for the tetrahedra `ts` of a leaf of
box `dom`, each with the vertex it is pushed for, in order. -/
def border_pushes (mesh : Mesh) (dom : Box) (ts : List Nat) :
    List (Nat × List triangle_tetrahedron_tuple) :=
  ts.flatMap (fun t => (List.finRange 4).filterMap (fun j =>
    if dom.contains (mesh.get_vertex ((mesh.get_tetrahedron t).TV j)).toPoint mesh.domain.max
    then some ((mesh.get_tetrahedron t).TV j,
      Border_Checker.get_incident_triangles (mesh.get_tetrahedron t) t j.val [])
    else none))

/-- The array of faces `calc_mesh_borders` hands to `set_mesh_borders` for
vertex `x` in a leaf of tetrahedra `ts`: the tuples, all different, of the
faces incident in `x` of the tetrahedra of `ts`. -/
def VertexFaces (mesh : Mesh) (ts : List Nat) (x : Nat)
    (L : List triangle_tetrahedron_tuple) : Prop :=
  (∀ a ∈ L, a.t ∈ ts ∧ ∃ j p : Fin 4, (mesh.get_tetrahedron a.t).TV j = x ∧ p ≠ j ∧
    a.eq ((mesh.get_tetrahedron a.t).face_tuple p a.t) = true) ∧
  (∀ t ∈ ts, ∀ j p : Fin 4, (mesh.get_tetrahedron t).TV j = x → p ≠ j →
    ∃ a ∈ L, a.t = t ∧ a.eq ((mesh.get_tetrahedron t).face_tuple p t) = true) ∧
  L.Nodup ∧ (∀ a ∈ L, ∀ b ∈ L, a.t = b.t → a.eq b = true → a = b)

/-- What the border checker keeps true of the mesh `m` it flags, `mesh` being
the mesh it started on: the unsigned indices are those of `mesh`, and a
negative index is opposite to a face that no other tetrahedron has. -/
def BorderInv (mesh m : Mesh) : Prop :=
  m.SameTV mesh ∧ ∀ t, 1 ≤ t → t ≤ mesh.get_num_tetrahedra → ∀ q : Fin 4,
    (m.get_tetrahedron t).vertices q < 0 → ¬ ∃ u, mesh.shares_face u t q

/-- The box `B`, its minimum below its maximum, lies in the closed box `D`. -/
def Box.Within (D B : Box) : Prop :=
  (D.min.x ≤ B.min.x ∧ B.min.x ≤ B.max.x ∧ B.max.x ≤ D.max.x) ∧
  (D.min.y ≤ B.min.y ∧ B.min.y ≤ B.max.y ∧ B.max.y ≤ D.max.y) ∧
  (D.min.z ≤ B.min.z ∧ B.min.z ≤ B.max.z ∧ B.max.z ≤ D.max.z)

/-- The box `b` covers the box `D`: the closed box `D` lies in the closed box
`b`. -/
def Box.covers (b D : Box) : Prop :=
  (b.min.x ≤ D.min.x ∧ D.max.x ≤ b.max.x) ∧ (b.min.y ≤ D.min.y ∧ D.max.y ≤ b.max.y) ∧
  (b.min.z ≤ D.min.z ∧ D.max.z ≤ b.max.z)

/-- The map of the windowed TT against the table of the batched TT: a
tetrahedron without an entry in the map has a row of `-1` in the table, the
entry of any other tetrahedron is its row of the table. -/
def TTSim (n : Nat) (tt : TTTable) (m : StdMap (List Int)) : Prop :=
  TTTable.Shape n tt ∧ ∀ t, 1 ≤ t → t ≤ n →
    (StdMap.find m t = none ∧ tt.getD (t - 1) [] = List.replicate 4 (-1)) ∨
      StdMap.find m t = some (tt.getD (t - 1) [])

/-- What the windowed TT keeps true of its state when every tetrahedron passes
the box test: a tetrahedron whose bit of `checkTetra` is set has an entry in
the map. -/
def TTChecked (n : Nat) (s : StdMap (List Int) × (Nat → Bool)) : Prop :=
  ∀ t, 1 ≤ t → t ≤ n → s.2 t = true → StdMap.find s.1 t ≠ none

namespace Examples

/-- Two tetrahedra in the unit cube with the common face of vertices 1, 3, 4:
the corner `(0,0,0), (1,0,0), (0,1,0), (0,0,1)` and a flat tetrahedron
`(0,0,0), (0,1,0), (0,0,1), (0,1,1)` lying in the face `x = 0` of the domain. -/
def flatMesh : Mesh :=
  { domain := ⟨⟨0, 0, 0⟩, ⟨1, 1, 1⟩⟩
    vertices := [⟨⟨0, 0, 0⟩, 0⟩, ⟨⟨1, 0, 0⟩, 0⟩, ⟨⟨0, 1, 0⟩, 0⟩, ⟨⟨0, 0, 1⟩, 0⟩,
      ⟨⟨0, 1, 1⟩, 0⟩]
    tetrahedra := [Tetrahedron.mk4 1 2 3 4, Tetrahedron.mk4 1 3 4 5] }

end Examples

/-! ## `tetrahedral_trees/run_iterator.h`: counting the ids -/

namespace run_iterator

/-- The loop of `run_iterator::elementCount` (run_iterator.h:303-309) from the
iterator `it` with `count` ids counted so far: `++count` for every position of
the run iterator before the end. -/
def elementCountFrom (vec : List Int) : Nat → run_iterator → Int → Option Int
  | 0, _, _ => none
  | fuel + 1, it, count =>
    if equal it (endIt vec) then some count
    else
      match increment vec it with
      | none => none
      | some it' => elementCountFrom vec fuel it' (count + 1)

/-- `run_iterator::elementCount` (run_iterator.h:303-309). -/
def elementCount (intvec : List Int) (fuel : Nat) : Option Int :=
  match beginIt intvec with
  | none => none
  | some it => elementCountFrom intvec fuel it 0

/-- The loop of `run_iterator::elementCountFast` (run_iterator.h:311-317) over
the raw entries still to read: a positive entry counts `1`; otherwise the loop
advances to the next entry and counts `1 + *(++it)`. When there is no next entry
the read is outside the vector (`none`). -/
def elementCountFastFrom : List Int → Int → Option Int
  | [], count => some count
  | [x], count => if x > 0 then some (count + 1) else none
  | x :: k :: rest, count =>
    if x > 0 then elementCountFastFrom (k :: rest) (count + 1)
    else elementCountFastFrom rest (count + (1 + k))

/-- `run_iterator::elementCountFast` (run_iterator.h:311-317). -/
def elementCountFast (intvec : List Int) : Option Int := elementCountFastFrom intvec 0

end run_iterator

/-! ## `geometry/geometry_wrapper.cpp`: the diagnostic of `set_face_orientation` -/

namespace Geometry_Wrapper

/-- Whether `Geometry_Wrapper::set_face_orientation` (geometry_wrapper.cpp:218-261)
reaches its last statements, which print
`not found a face at the right of the first one`: none of the three orders it
tries gives `RIGHT_TURN`. -/
def set_face_orientation_not_found (tet : Tetrahedron) (mesh : Mesh) : Bool :=
  let p := fun i => (mesh.get_vertex (tet.TV i)).toPoint
  if four_point_turn_wrapper (p 0) (p 1) (p 2) (p 3) = 1 then false
  else if four_point_turn_wrapper (p 1) (p 0) (p 2) (p 3) = 1 then false
  else if four_point_turn_wrapper (p 2) (p 1) (p 0) (p 3) = 1 then false
  else true

/-- The turn of the stored order of a tetrahedron:
`four_point_turn_wrapper(v(TV(0)), v(TV(1)), v(TV(2)), v(TV(3)))`, as
`set_face_orientation` computes it first. -/
def stored_turn (tet : Tetrahedron) (mesh : Mesh) : Int :=
  four_point_turn_wrapper (mesh.get_vertex (tet.TV 0)).toPoint
    (mesh.get_vertex (tet.TV 1)).toPoint (mesh.get_vertex (tet.TV 2)).toPoint
    (mesh.get_vertex (tet.TV 3)).toPoint

end Geometry_Wrapper

/-! ## `queries/border_checker.cpp`: the leaves of the trees with vertex ranges -/

namespace Border_Checker

/-- The body of the loops of the first part of `calc_mesh_borders(Node_V&)`
(border_checker.cpp:36-47) for the vertex at position `j` of tetrahedron
`tet_id`: `v_start` and `v_end` are `n.get_v_start()` and `n.get_v_end()`, and
`n.indexes_vertex(real_index)` is `real_index >= v_start && real_index < v_end`
(node_v.h:57-67). -/
def calc_mesh_borders_add_V (mesh : Mesh) (v_start v_end : Int) (tet_id : Nat)
    (all_faces : List (List triangle_tetrahedron_tuple)) (j : Fin 4) :
    List (List triangle_tetrahedron_tuple) :=
  let t := mesh.get_tetrahedron tet_id
  let real_index : Int := t.TV j
  if real_index ≥ v_start ∧ real_index < v_end then
    all_faces.set (real_index - v_start).toNat
      (get_incident_triangles t tet_id j.val (all_faces.getD (real_index - v_start).toNat []))
  else all_faces

/-- `Border_Checker::calc_mesh_borders(Node_V&, Mesh&)` (border_checker.cpp:25-57).
The vertex array of the leaf holds the range written by the reindexer:
`get_v_start()` is `abs(vertices[0])` and `get_v_end()` is
`abs(vertices[0]) + vertices[1] + 1`, so an array with one entry is read
outside its bounds (`none`), as is a negative size of `all_faces`. -/
def calc_mesh_borders_leaf_V
    (sort : List triangle_tetrahedron_tuple → List triangle_tetrahedron_tuple) (fuel : Nat)
    (v_array t_array : List Int) (mesh : Mesh) : Option Mesh :=
  match v_array with
  | [] => some mesh
  | [_] => none
  | a :: b :: _ =>
    let v_start : Int := |a|
    let v_end : Int := |a| + b + 1
    if v_end - v_start < 0 then none
    else
      match run_iterator.collect t_array fuel with
      | none => none
      | some ids =>
        let all_faces := ids.foldl (fun m tet_id =>
          (List.finRange 4).foldl (calc_mesh_borders_add_V mesh v_start v_end tet_id.toNat) m)
          (List.replicate (v_end - v_start).toNat [])
        some (all_faces.foldl (fun m fs =>
          if fs.length > 0 then set_mesh_borders sort fs m else m) mesh)

/-- `Border_Checker::calc_mesh_borders(Node_V&, Box&, int, Mesh&, D&)`
(border_checker.h:117-131). -/
def calc_mesh_borders_V (d : Subdivision)
    (sort : List triangle_tetrahedron_tuple → List triangle_tetrahedron_tuple) (fuel : Nat) :
    RawNode → Box → Nat → Mesh → Option Mesh :=
  RawNode.visit d id (fun _ => false)
    (fun vs ts _ mesh => calc_mesh_borders_leaf_V sort fuel vs ts mesh)

end Border_Checker

/-- The tuples of a sorted array that `set_mesh_borders` takes alone, in the
order of the array. -/
def border_singles (F : List triangle_tetrahedron_tuple) : List triangle_tetrahedron_tuple :=
  (scan_faces F).filterMap (fun e => match e.2 with
    | none => some e.1
    | some _ => none)

/-- The tuples that flag a tetrahedron when `set_mesh_borders` runs on each
non-empty array of `E` in turn. -/
def border_writes
    (sort : List triangle_tetrahedron_tuple → List triangle_tetrahedron_tuple)
    (E : List (List triangle_tetrahedron_tuple)) : List triangle_tetrahedron_tuple :=
  E.flatMap (fun fs => if fs.length > 0 then border_singles (sort fs) else [])

/-- The tetrahedron of the tuple `a` is flagged already at the position
`flag_border` would flag. -/
def Border_Checker.Settled (m : Mesh) (a : triangle_tetrahedron_tuple) : Prop :=
  ∀ v, (List.finRange 4).find? (fun v => a.has_not ((m.get_tetrahedron a.t).TV v)) = some v →
    a.t - 1 < m.tetrahedra.length → (m.get_tetrahedron a.t).vertices v ≤ 0

/-- On every mesh that is `mesh` up to the signs of the indices, the procedure
run on a leaf flags the tetrahedra of one list of tuples. -/
def Border_Checker.WriteLeaf (mesh : Mesh)
    (leaf_fn : List Int → List Int → Box → Mesh → Option Mesh) : Prop :=
  ∀ vs ts dom, ∃ oW : Option (List triangle_tetrahedron_tuple),
    ∀ m : Mesh, m.SameTV mesh →
      leaf_fn vs ts dom m = oW.map (fun W => W.foldl Border_Checker.flag_border m)

/-! ## `geometry/geometry_distortion.h`, `queries/topological_queries.cpp`,
`queries/topological_queries_windowed.h`: windowed distortion -/

/-- The two functions of `Geometry_Distortion` the windowed distortion calls
(geometry_distortion.h:41, 50). They are computed with `acos` and `sqrt`, and
are taken as given. -/
structure Geometry_Distortion where
  get_trihedral_angle : Tetrahedron → Nat → Mesh → ℚ
  get_trihedral_angle_3D : Tetrahedron → Nat → Mesh → ℚ

/-- The literal of `#define PI 3.14159265358979323846`
(geometry_distortion.h:28). -/
def PI : ℚ := 314159265358979323846 / 100000000000000000000

namespace Node_T

/-- One step of the loops of `Node_T::get_v_range` (node_t.cpp:33-47) for the
vertex at position `v` of tetrahedron `t_id`; `r` holds `v_start` and `v_end`. -/
def get_v_range_step (dom : Box) (mesh : Mesh) (t_id : Nat) (r : Int × Int) (v : Fin 4) :
    Int × Int :=
  let v_id : Int := (mesh.get_tetrahedron t_id).TV v
  if (r.1 = -1 ∧ r.2 = -1) ∨ (v_id < r.1 ∨ v_id ≥ r.2) then
    if dom.contains (mesh.get_vertex v_id.toNat).toPoint mesh.domain.max then
      let v_start := if r.1 = -1 ∨ r.1 > v_id then v_id else r.1
      let v_end := if r.2 = -1 ∨ r.2 ≤ v_id then v_id + 1 else r.2
      (v_start, v_end)
    else r
  else r

/-- `Node_T::get_v_range` (node_t.cpp:26-49) over the ids of the tetrahedra
array. -/
def get_v_range (ids : List Int) (dom : Box) (mesh : Mesh) : Int × Int :=
  ids.foldl (fun r t_id => (List.finRange 4).foldl (get_v_range_step dom mesh t_id.toNat) r)
    (-1, -1)

/-- `Node_T::indexes_vertex` (node_t.h:71). -/
def indexes_vertex (v_start v_end v_id : Int) : Bool :=
  decide (v_id ≥ v_start) && decide (v_id < v_end)

end Node_T

namespace Topological_Queries

/-- `Topological_Queries::update_resulting_distortion`
(topological_queries.cpp:225-238). -/
def update_resulting_distortion (v : Nat) (d : ℚ) (dist : StdMap ℚ) : StdMap ℚ :=
  match StdMap.find dist v with
  | none => StdMap.insert dist v d
  | some old => StdMap.assign dist v (old + d)

/-- The three arrays of a leaf in `windowed_Distortion_Leaf`, indexed by
`real_v_index - v_start`. -/
structure DistortionArrays where
  all_vt : List (List Nat)
  local_distortion : List ℚ
  isVBorder : List Bool

/-- The body of the loops of `windowed_Distortion_Leaf(Node_T&, …)`
(topological_queries.cpp:141-165) for the vertex at position `v` of
tetrahedron `tet_id`. -/
def windowed_Distortion_step_T (G : Geometry_Distortion) (mesh : Mesh) (b : Box)
    (v_start v_end : Int) (tet_id : Nat) (s : DistortionArrays) (v : Fin 4) :
    DistortionArrays :=
  let tet := mesh.get_tetrahedron tet_id
  let real_v_index := tet.TV v
  if Node_T.indexes_vertex v_start v_end real_v_index &&
      b.contains_with_all_closed_faces (mesh.get_vertex real_v_index).toPoint then
    let i := ((real_v_index : Int) - v_start).toNat
    { all_vt := s.all_vt.set i (s.all_vt.getD i [] ++ [tet_id])
      local_distortion := s.local_distortion.set i
        (s.local_distortion.getD i 0 + G.get_trihedral_angle tet real_v_index mesh)
      isVBorder :=
        if !s.isVBorder.getD i false then
          if [1, 2, 3].any (fun j => tet.is_border_face (Fin.ofNat (j + v.val))) then
            s.isVBorder.set i true
          else s.isVBorder
        else s.isVBorder }
  else s

/-- The body of the loops of `windowed_Distortion_Leaf(Node_V&, …)`
(topological_queries.cpp:194-220) for the vertex at position `v` of
tetrahedron `tet_id`. The test of the inner loop is
`tet.is_border_face(…) < 0`: the `bool` is converted to `0` or `1` and
compared with `0`. -/
def windowed_Distortion_step_V (G : Geometry_Distortion) (mesh : Mesh) (b : Box)
    (v_start v_end : Int) (tet_id : Nat) (s : DistortionArrays) (v : Fin 4) :
    DistortionArrays :=
  let tet := mesh.get_tetrahedron tet_id
  let real_v_index := tet.TV v
  if (decide ((real_v_index : Int) ≥ v_start) && decide ((real_v_index : Int) < v_end)) &&
      b.contains_with_all_closed_faces (mesh.get_vertex real_v_index).toPoint then
    let i := ((real_v_index : Int) - v_start).toNat
    { all_vt := s.all_vt.set i (s.all_vt.getD i [] ++ [tet_id])
      local_distortion := s.local_distortion.set i
        (s.local_distortion.getD i 0 + G.get_trihedral_angle tet real_v_index mesh)
      isVBorder :=
        if !s.isVBorder.getD i false then
          if [1, 2, 3].any (fun j =>
              decide (((tet.is_border_face (Fin.ofNat (j + v.val))).toNat : Int) < 0)) then
            s.isVBorder.set i true
          else s.isVBorder
        else s.isVBorder }
  else s

/-- `Topological_Queries::finalize_Distortion_Leaf`
(topological_queries.cpp:240-266). -/
def finalize_Distortion_Leaf (G : Geometry_Distortion) (v_start : Int) (s : DistortionArrays)
    (mesh : Mesh) (dist : StdMap ℚ) : StdMap ℚ :=
  (List.range s.all_vt.length).foldl (fun dist i =>
    if (s.all_vt.getD i []).length > 0 then
      let real_v_index := ((i : Int) + v_start).toNat
      let old := s.local_distortion.getD i 0
      let new :=
        if s.isVBorder.getD i false then
          (s.all_vt.getD i []).foldl (fun acc t =>
            acc + G.get_trihedral_angle_3D (mesh.get_tetrahedron t) real_v_index mesh) (-old)
        else 4 * PI - old
      StdMap.insert dist real_v_index new
    else dist) dist

/-- The three arrays of `size` entries as they are assigned at the start of
`windowed_Distortion_Leaf`. -/
def DistortionArrays.init (size : Nat) : DistortionArrays :=
  { all_vt := List.replicate size []
    local_distortion := List.replicate size 0
    isVBorder := List.replicate size false }

/-- `Topological_Queries::windowed_Distortion_Leaf(Node_T&, Box&, Box&, Mesh&, …)`
(topological_queries.cpp:118-169); `fuel` bounds the iterations of the run
iterator. -/
def windowed_Distortion_Leaf_T (G : Geometry_Distortion) (mesh : Mesh) (b : Box) (fuel : Nat)
    (t_array : List Int) (dom : Box) (dist : StdMap ℚ) : Option (StdMap ℚ) :=
  match run_iterator.collect t_array fuel with
  | none => none
  | some ids =>
    let r := Node_T.get_v_range ids dom mesh
    if r.1 = r.2 then some dist
    else
      let s := ids.foldl (fun s tet_id =>
        (List.finRange 4).foldl (windowed_Distortion_step_T G mesh b r.1 r.2 tet_id.toNat) s)
        (DistortionArrays.init (r.2 - r.1).toNat)
      some (finalize_Distortion_Leaf G r.1 s mesh dist)

/-- `Topological_Queries::windowed_Distortion_Leaf(Node_V&, Box&, Mesh&, …)`
(topological_queries.cpp:171-223). The vertex array of the leaf holds the range
written by the reindexer: `get_v_start()` is `abs(vertices[0])` and
`get_v_end()` is `abs(vertices[0]) + vertices[1] + 1` (node_v.h:57-59), so an
array with one entry is read outside its bounds (`none`), as is a negative size
of the arrays. -/
def windowed_Distortion_Leaf_V (G : Geometry_Distortion) (mesh : Mesh) (b : Box) (fuel : Nat)
    (v_array t_array : List Int) (dist : StdMap ℚ) : Option (StdMap ℚ) :=
  match v_array with
  | [] => some dist
  | [_] => none
  | x :: y :: _ =>
    let v_start : Int := |x|
    let v_end : Int := |x| + y + 1
    if v_end - v_start < 0 then none
    else
      match run_iterator.collect t_array fuel with
      | none => none
      | some ids =>
        let s := ids.foldl (fun s tet_id =>
          (List.finRange 4).foldl
            (windowed_Distortion_step_V G mesh b v_start v_end tet_id.toNat) s)
          (DistortionArrays.init (v_end - v_start).toNat)
        some (finalize_Distortion_Leaf G v_start s mesh dist)

/-- `Topological_Queries::windowed_Distortion(Node_T&, …)`
(topological_queries_windowed.h:171-189). -/
def windowed_Distortion_T (d : Subdivision) (G : Geometry_Distortion) (mesh : Mesh) (b : Box)
    (fuel : Nat) : RawNode → Box → Nat → StdMap ℚ → Option (StdMap ℚ) :=
  RawNode.visit d id (fun dom => !dom.intersects b)
    (fun _ ts dom dist => windowed_Distortion_Leaf_T G mesh b fuel ts dom dist)

/-- `Topological_Queries::windowed_Distortion(Node_V&, …)`
(topological_queries_windowed.h:211-229). -/
def windowed_Distortion_V (d : Subdivision) (G : Geometry_Distortion) (mesh : Mesh) (b : Box)
    (fuel : Nat) : RawNode → Box → Nat → StdMap ℚ → Option (StdMap ℚ) :=
  RawNode.visit d id (fun dom => !dom.intersects b)
    (fun vs ts _ dist => windowed_Distortion_Leaf_V G mesh b fuel vs ts dist)

/-- The three local structures of `windowed_Distortion_Leaf_no_reindex`: the
map `vt`, the set `border_v` (only `find` and `insert` are used, so the list of
its elements stands for it) and the map `local_dist`. -/
structure DistortionLocal where
  vt : StdMap (List Nat)
  border_v : List Nat
  local_dist : StdMap ℚ

/-- The body of the first loops of `windowed_Distortion_Leaf_no_reindex`
(topological_queries_windowed.h:240-268) for the vertex at position `v` of
tetrahedron `tet_id`. -/
def windowed_Distortion_step_no_reindex (G : Geometry_Distortion) (mesh : Mesh) (b dom : Box)
    (tet_id : Nat) (s : DistortionLocal) (v : Fin 4) : DistortionLocal :=
  let tet := mesh.get_tetrahedron tet_id
  let real_v_index := tet.TV v
  if dom.contains (mesh.get_vertex real_v_index).toPoint mesh.domain.max &&
      b.contains_with_all_closed_faces (mesh.get_vertex real_v_index).toPoint then
    { vt := update_resulting_VT real_v_index tet_id s.vt
      local_dist := update_resulting_distortion real_v_index
        (G.get_trihedral_angle tet real_v_index mesh) s.local_dist
      border_v :=
        if real_v_index ∈ s.border_v then s.border_v
        else if [1, 2, 3].any (fun j => tet.is_border_face (Fin.ofNat (j + v.val))) then
          real_v_index :: s.border_v
        else s.border_v }
  else s

/-- The body of the second loop of `windowed_Distortion_Leaf_no_reindex`
(topological_queries_windowed.h:270-291) for the entry `e` of `vt`. The first
loop gives `vt` and `local_dist` the same keys, so `it_v` is never `end()`. -/
def windowed_Distortion_finish_no_reindex (G : Geometry_Distortion) (mesh : Mesh)
    (border_v : List Nat) (local_dist : StdMap ℚ) (e : Nat × List Nat) : StdMap ℚ :=
  match StdMap.find local_dist e.1 with
  | none => local_dist
  | some old =>
    if e.1 ∉ border_v then
      StdMap.assign local_dist e.1 (e.2.foldl (fun acc t =>
        acc + G.get_trihedral_angle_3D (mesh.get_tetrahedron t) e.1 mesh) (-old))
    else StdMap.assign local_dist e.1 (4 * PI - old)

/-- `Topological_Queries::windowed_Distortion_Leaf_no_reindex`
(topological_queries_windowed.h:232-294); `fuel` bounds the iterations of the
run iterator. -/
def windowed_Distortion_Leaf_no_reindex (G : Geometry_Distortion) (mesh : Mesh) (b : Box)
    (fuel : Nat) (t_array : List Int) (dom : Box) (dist : StdMap ℚ) : Option (StdMap ℚ) :=
  match run_iterator.collect t_array fuel with
  | none => none
  | some ids =>
    let s := ids.foldl (fun s tet_id =>
      (List.finRange 4).foldl (windowed_Distortion_step_no_reindex G mesh b dom tet_id.toNat) s)
      ⟨[], [], []⟩
    let local_dist :=
      s.vt.foldl (windowed_Distortion_finish_no_reindex G mesh s.border_v) s.local_dist
    some (StdMap.insert_range dist local_dist)

/-- `Topological_Queries::windowed_Distortion_no_reindex`
(topological_queries_windowed.h:191-209). -/
def windowed_Distortion_no_reindex (d : Subdivision) (G : Geometry_Distortion) (mesh : Mesh)
    (b : Box) (fuel : Nat) : RawNode → Box → Nat → StdMap ℚ → Option (StdMap ℚ) :=
  RawNode.visit d id (fun dom => !dom.intersects b)
    (fun _ ts dom dist => windowed_Distortion_Leaf_no_reindex G mesh b fuel ts dom dist)

end Topological_Queries

namespace Examples

/-- Angle functions for the scenarios: every 4D trihedral angle is `1`, every
3D trihedral angle is `2`. -/
def unitAngles : Geometry_Distortion :=
  { get_trihedral_angle := fun _ _ _ => 1
    get_trihedral_angle_3D := fun _ _ _ => 2 }

end Examples

/-! ## `tetrahedral_trees/node_v.h`: nodes with a vertices array -/

/-- A node as the reindexer reads and writes it (`Node_V`): every node has a
vertices array, in which the reindexer writes the range of the vertices below
the node; a leaf has a tetrahedra array, an internal node has its sons. -/
inductive Node_V where
  | leaf (vertices tetrahedra : List Int)
  | internal (vertices : List Int) (sons : List Node_V)

namespace Node_V

/-- `Node_V::set_v_range` (node_v.h:55): two entries are pushed at the back of
the vertices array. -/
def set_v_range (vertices : List Int) (start finish : Int) : List Int :=
  vertices ++ [-start, finish - start - 1]

/-- `Node_V::get_v_array`. -/
def get_v_array : Node_V → List Int
  | leaf vs _ => vs
  | internal vs _ => vs

/-- The sons of a node (none for a leaf). -/
def get_sons : Node_V → List Node_V
  | leaf _ _ => []
  | internal _ sons => sons

mutual
/-- The vertices and tetrahedra arrays of the leaves, in the order of the
visit. -/
def leafArrays : Node_V → List (List Int × List Int)
  | leaf vs ts => [(vs, ts)]
  | internal _ sons => leafArraysSons sons
/-- `leafArrays` along the sons of a node. -/
def leafArraysSons : List Node_V → List (List Int × List Int)
  | [] => []
  | n :: rest => leafArrays n ++ leafArraysSons rest
end

mutual
/-- The vertices arrays of the internal nodes, in the order of the visit. -/
def internalArrays : Node_V → List (List Int)
  | leaf _ _ => []
  | internal vs sons => vs :: internalArraysSons sons
/-- `internalArrays` along the sons of a node. -/
def internalArraysSons : List Node_V → List (List Int)
  | [] => []
  | n :: rest => internalArrays n ++ internalArraysSons rest
end

end Node_V

namespace Node

mutual
/-- A tree as `build_tree` leaves it, read as a tree of `Node_V`: the arrays of
the leaves hold the ids as they were pushed, those of the internal nodes are
empty. -/
def toV : Node → Node_V
  | leaf vs ts => Node_V.leaf (vs.map Int.ofNat) (ts.map Int.ofNat)
  | internal sons => Node_V.internal [] (toVSons sons)
/-- `toV` on the sons of a node. -/
def toVSons : List Node → List Node_V
  | [] => []
  | s :: rest => toV s :: toVSons rest
end

end Node

/-! ## `tetrahedral_trees/reindexer.h`, `tetrahedral_trees/reindexer.cpp` -/

namespace Reindexer

/-- The private variables `coherent_indices` and `indices_counter` of the
class `Reindexer`. -/
structure Indices where
  coherent_indices : List Int
  indices_counter : Int

/-- The loops `coherent_indices[id-1] = indices_counter; indices_counter++`
over a list of ids (reindexer.h:263-268, reindexer.cpp:88-92); a write outside
the vector gives `none`. -/
def assign_indices : List Int → Indices → Option Indices
  | [], st => some st
  | id :: rest, st =>
    if 1 ≤ id ∧ id ≤ st.coherent_indices.length then
      assign_indices rest
        ⟨st.coherent_indices.set (id - 1).toNat st.indices_counter, st.indices_counter + 1⟩
    else none

mutual
/-- `Reindexer::reindex_vertices(Node_V&, D&)` (reindexer.h:255-289): the node
and the private variables after the call (`fuel` bounds the iterations of the
run iterator). -/
def reindex_vertices (fuel : Nat) : Node_V → Indices → Option (Node_V × Indices)
  | Node_V.leaf vs ts, st =>
    match run_iterator.elementCountFast vs with
    | none => none
    | some size =>
      if size > 0 then
        match run_iterator.collect vs fuel with
        | none => none
        | some ids =>
          match assign_indices ids st with
          | none => none
          | some st' =>
            some (Node_V.leaf (Node_V.set_v_range [] st.indices_counter st'.indices_counter) ts,
              st')
      else some (Node_V.leaf vs ts, st)
  | Node_V.internal vs sons, st =>
    match reindex_vertices_sons fuel sons st with
    | none => none
    | some (sons', st') =>
      some (Node_V.internal (Node_V.set_v_range vs st.indices_counter st'.indices_counter)
        sons', st')
/-- The loop of `reindex_vertices` over the sons. -/
def reindex_vertices_sons (fuel : Nat) :
    List Node_V → Indices → Option (List Node_V × Indices)
  | [], st => some ([], st)
  | n :: rest, st =>
    match reindex_vertices fuel n st with
    | none => none
    | some (n', st') =>
      match reindex_vertices_sons fuel rest st' with
      | none => none
      | some (rest', st'') => some (n' :: rest', st'')
end

/-- The read `coherent_indices[id-1]`, `none` outside the vector. -/
def coherent_at (coherent_indices : List Int) (id : Int) : Option Int :=
  if 1 ≤ id then coherent_indices[(id - 1).toNat]? else none

/-- The first loop of `Reindexer::update_mesh_vertices` and of
`update_mesh_tetrahedra` (reindexer.cpp:32-40, 60-63):
`newOrder[coherent_indices[i-1]-1] = old[i-1]` for `i = 1, 2, …`; `i` is the
id of the first entry of `old`. A read or a write outside a vector gives
`none`. -/
def reorder {α : Type} (coherent_indices : List Int) :
    List α → Nat → List α → Option (List α)
  | [], _, newOrder => some newOrder
  | x :: old, i, newOrder =>
    match coherent_at coherent_indices i with
    | none => none
    | some c =>
      if 1 ≤ c ∧ c ≤ newOrder.length then
        reorder coherent_indices old (i + 1) (newOrder.set (c - 1).toNat x)
      else none

/-- The loop `t.setTV(j, coherent_indices[t.TV(j)-1])` over the four positions
of a tetrahedron (reindexer.cpp:49-50). -/
def reindex_TV (coherent_indices : List Int) (t : Tetrahedron) : Option Tetrahedron :=
  (List.finRange 4).foldl (fun (acc : Option Tetrahedron) j =>
    match acc with
    | none => none
    | some t =>
      match coherent_at coherent_indices (t.TV j) with
      | none => none
      | some c => some (t.setTV j c)) (some t)

/-- A loop that applies `f` to each entry in turn and pushes the results; it
fails as soon as one application does. -/
def mapAll {α β : Type} (f : α → Option β) : List α → Option (List β)
  | [] => some []
  | x :: xs =>
    match f x with
    | none => none
    | some y =>
      match mapAll f xs with
      | none => none
      | some ys => some (y :: ys)

/-- `Reindexer::update_mesh_vertices` (reindexer.cpp:26-52). The new array is
assigned `get_num_vertices()` copies of `Vertex()`. For an entry `-1` of
`coherent_indices` a message is printed, and the write that follows is outside
the new array. -/
def update_mesh_vertices (coherent_indices : List Int) (mesh : Mesh) : Option Mesh :=
  match reorder coherent_indices mesh.vertices 1
      (List.replicate mesh.get_num_vertices (⟨⟨0, 0, 0⟩, 0⟩ : Vertex)) with
  | none => none
  | some newVertexOrder =>
    match mapAll (reindex_TV coherent_indices) mesh.tetrahedra with
    | none => none
    | some ts => some { mesh with vertices := newVertexOrder, tetrahedra := ts }

/-- `Reindexer::update_mesh_tetrahedra` (reindexer.cpp:54-68). The new array is
assigned `get_num_tetrahedra()` copies of `Tetrahedron()`. -/
def update_mesh_tetrahedra (coherent_indices : List Int) (mesh : Mesh) : Option Mesh :=
  match reorder coherent_indices mesh.tetrahedra 1
      (List.replicate mesh.get_num_tetrahedra (⟨fun _ => 0⟩ : Tetrahedron)) with
  | none => none
  | some newTopSimplexesOrder => some { mesh with tetrahedra := newTopSimplexesOrder }

/-- `Node_V::indexes_tetrahedron_vertices` (node_v.h:76-84) for a node whose
range is `[v_start, v_end)`. -/
def indexes_tetrahedron_vertices (v_start v_end : Int) (t : Tetrahedron) : Bool :=
  (List.finRange 4).any (fun i =>
    decide (((t.TV i : Nat) : Int) ≥ v_start) && decide (((t.TV i : Nat) : Int) < v_end))

/-- The loop of the leaf of `extract_tetra_leaves_association(Node_V&, …)`
(reindexer.h:425-434) over the ids of the tetrahedra array; a write outside
`tetra_leaves_association` gives `none`. -/
def extract_tetra_leaves_loop (mesh : Mesh) (leaf : Int × Int) :
    List Int → List (List (Int × Int)) → Option (List (List (Int × Int)))
  | [], tla => some tla
  | tet_id :: rest, tla =>
    if indexes_tetrahedron_vertices leaf.1 leaf.2 (mesh.get_tetrahedron tet_id.toNat) then
      if 1 ≤ tet_id ∧ tet_id ≤ tla.length then
        extract_tetra_leaves_loop mesh leaf rest
          (tla.set (tet_id - 1).toNat (tla.getD (tet_id - 1).toNat [] ++ [leaf]))
      else none
    else extract_tetra_leaves_loop mesh leaf rest tla

mutual
/-- `Reindexer::extract_tetra_leaves_association(Node_V&, D&, Mesh&)`
(reindexer.h:416-447). `get_v_start()` is `abs(vertices[0])` and `get_v_end()`
is `abs(vertices[0]) + vertices[1] + 1` (node_v.h:57-59), so a vertices array
with one entry is read outside its bounds (`none`). -/
def extract_tetra_leaves_association (fuel : Nat) (mesh : Mesh) :
    Node_V → List (List (Int × Int)) → Option (List (List (Int × Int)))
  | Node_V.leaf vs ts, tla =>
    match vs with
    | [] => some tla
    | [_] => none
    | a :: b :: _ =>
      match run_iterator.collect ts fuel with
      | none => none
      | some ids => extract_tetra_leaves_loop mesh (|a|, |a| + b + 1) ids tla
  | Node_V.internal _ sons, tla => extract_tetra_leaves_association_sons fuel mesh sons tla
/-- The loop of `extract_tetra_leaves_association` over the sons. -/
def extract_tetra_leaves_association_sons (fuel : Nat) (mesh : Mesh) :
    List Node_V → List (List (Int × Int)) → Option (List (List (Int × Int)))
  | [], tla => some tla
  | n :: rest, tla =>
    match extract_tetra_leaves_association fuel mesh n tla with
    | none => none
    | some tla' => extract_tetra_leaves_association_sons fuel mesh rest tla'
end

/-- The order `operator<` of `pair<int,int>`. -/
def pair_lt (a b : Int × Int) : Bool :=
  decide (a.1 < b.1) || (!decide (b.1 < a.1) && decide (a.2 < b.2))

/-- The order `operator<` of `vector<pair<int,int> >`
(`std::lexicographical_compare`). -/
def vector_lt : List (Int × Int) → List (Int × Int) → Bool
  | _, [] => false
  | [], _ :: _ => true
  | a :: l, b :: r =>
    if pair_lt a b then true else if pair_lt b a then false else vector_lt l r

/-- The statement `leaf_tetra_association[key].push_back(t_id)` on the
`map<vector<pair<int,int> >, vector<int> >` (reindexer.cpp:80): the entries
are kept in the order of the keys. -/
def group_push (key : List (Int × Int)) (t_id : Int) :
    List (List (Int × Int) × List Int) → List (List (Int × Int) × List Int)
  | [] => [(key, [t_id])]
  | e :: rest =>
    if vector_lt key e.1 then (key, [t_id]) :: e :: rest
    else if vector_lt e.1 key then e :: group_push key t_id rest
    else (e.1, e.2 ++ [t_id]) :: rest

/-- The first loop of `extract_leaves_tetra_association` (reindexer.cpp:73-81)
on the part of `tetra_leaves_association` from the index `i` on. -/
def leaf_tetra_groups : List (List (Int × Int)) → Nat →
    List (List (Int × Int) × List Int) → List (List (Int × Int) × List Int)
  | [], _, groups => groups
  | key :: rest, i, groups => leaf_tetra_groups rest (i + 1) (group_push key (i + 1 : Nat) groups)

/-- `Reindexer::extract_leaves_tetra_association` (reindexer.cpp:70-94): the
tetrahedra are grouped by their list of leaves, and numbered group by group. -/
def extract_leaves_tetra_association (tetra_leaves_association : List (List (Int × Int)))
    (st : Indices) : Option Indices :=
  (leaf_tetra_groups tetra_leaves_association 0 []).foldl
    (fun acc g => acc.bind (assign_indices g.2)) (some st)

mutual
/-- `Reindexer::reindex_tetrahedra` (reindexer.h:291-334): the node after the
call; a read outside `coherent_indices` gives `none`. -/
def reindex_tetrahedra (junk : Int) (fuel : Nat) (coherent_indices : List Int) :
    Node_V → Option Node_V
  | Node_V.leaf vs ts =>
    match run_iterator.collect ts fuel with
    | none => none
    | some ids =>
      match mapAll (coherent_at coherent_indices) ids with
      | none => none
      | some new_t_list =>
        if new_t_list.length > 0 then
          some (Node_V.leaf vs (compress_t_array junk [] new_t_list))
        else some (Node_V.leaf vs [])
  | Node_V.internal vs sons =>
    match reindex_tetrahedra_sons junk fuel coherent_indices sons with
    | none => none
    | some sons' => some (Node_V.internal vs sons')
/-- The loop of `reindex_tetrahedra` over the sons. -/
def reindex_tetrahedra_sons (junk : Int) (fuel : Nat) (coherent_indices : List Int) :
    List Node_V → Option (List Node_V)
  | [] => some []
  | n :: rest =>
    match reindex_tetrahedra junk fuel coherent_indices n with
    | none => none
    | some n' =>
      match reindex_tetrahedra_sons junk fuel coherent_indices rest with
      | none => none
      | some rest' => some (n' :: rest')
end

/-- The second half of `reindex_tree_and_mesh` (reindexer.h:185-193, 204-212)
once `tetra_leaves_association` is extracted: the tetrahedra are numbered,
the arrays of the leaves are rewritten and the tetrahedra of the mesh are
reordered. The result holds `coherent_indices` as it is before `reset()`. -/
def reindex_tetrahedra_pass (junk : Int) (fuel : Nat)
    (tetra_leaves_association : List (List (Int × Int))) (tree : Node_V) (mesh : Mesh) :
    Option (Node_V × Mesh × List Int) :=
  match extract_leaves_tetra_association tetra_leaves_association
      ⟨List.replicate mesh.get_num_tetrahedra (-1), 1⟩ with
  | none => none
  | some st =>
    match reindex_tetrahedra junk fuel st.coherent_indices tree with
    | none => none
    | some tree' =>
      match update_mesh_tetrahedra st.coherent_indices mesh with
      | none => none
      | some mesh' => some (tree', mesh', st.coherent_indices)

/-- `Reindexer::reindex_tree_and_mesh(P_Tree<D>&)` and
`reindex_tree_and_mesh(PT_Tree<D>&)` (reindexer.h:177-213, the two bodies are
the same): the tree and the mesh after the call. `indices_counter` is `1` when
the object is built and after every `reset()`. -/
def reindex_tree_and_mesh (junk : Int) (fuel : Nat) (tree : Node_V) (mesh : Mesh) :
    Option (Node_V × Mesh) :=
  match reindex_vertices fuel tree ⟨List.replicate mesh.get_num_vertices (-1), 1⟩ with
  | none => none
  | some (tree1, st1) =>
    match update_mesh_vertices st1.coherent_indices mesh with
    | none => none
    | some mesh1 =>
      match extract_tetra_leaves_association fuel mesh1 tree1
          (List.replicate mesh1.get_num_tetrahedra []) with
      | none => none
      | some tla =>
        match reindex_tetrahedra_pass junk fuel tla tree1 mesh1 with
        | none => none
        | some r => some (r.1, r.2.1)

end Reindexer

/-- The vector `coherent_indices` is a renumbering of `1 … n`: it has `n`
entries, each one in `1 … n`, and no two of them are equal, so that
`i ↦ coherent_indices[i-1]` is a bijection of `1 … n` onto itself. -/
def Reindexer.IsRenumbering (n : Nat) (coherent_indices : List Int) : Prop :=
  coherent_indices.length = n ∧ (∀ c ∈ coherent_indices, 1 ≤ c ∧ c ≤ (n : Int)) ∧
    coherent_indices.Nodup

/-- The writes `newOrder[c-1] = x` for the pairs `(c, x)` of a list, in turn. -/
def Reindexer.place_all {α : Type} (pairs : List (Int × α)) (newOrder : List α) : List α :=
  pairs.foldl (fun acc p => acc.set (p.1 - 1).toNat p.2) newOrder

/-- The ids of the vertices listed by the leaves of a tree, in the order of the
visit: the vertices array of each leaf is expanded. -/
def Node_V.vertexIds (n : Node_V) : List Int :=
  n.leafArrays.flatMap (fun a => runExpansion a.1)

/-- The ids of a list paired with the consecutive numbers from `c` on. -/
def Reindexer.numbered (c : Int) : List Int → List (Int × Int)
  | [] => []
  | v :: rest => (v, c) :: Reindexer.numbered (c + 1) rest

namespace Examples

/-- The tree of scenario S2 (the cube mesh in a PR octree with `kv = 4`) as
`build_tree` leaves it, read as a tree of `Node_V`. -/
def cubeTreeV : Node_V :=
  Node_V.internal []
    [Node_V.leaf [4] [2, 7, 8, 11, 12], Node_V.leaf [2] [1, 2, 5, 6, 11],
      Node_V.leaf [3] [1, 2, 7, 9, 10], Node_V.leaf [1] [1, 5, 9],
      Node_V.leaf [8, 9] [1, 2, 3, 4, 5, 6, 7, 8, 9, 10, 11, 12],
      Node_V.leaf [6] [3, 4, 6, 11, 12], Node_V.leaf [7] [3, 4, 7, 8, 10],
      Node_V.leaf [5] [3, 5, 6, 9, 10]]

end Examples

/-- The arrays `a` of a leaf before `reindex_tetrahedra` and `a'` after it: the
vertices array is kept, and the run iterator decodes from the new tetrahedra
array the new indices of the ids decoded from the old one, sorted. -/
def Reindexer.LeafRenumbered (coherent_indices : List Int) (fuel : Nat)
    (a a' : List Int × List Int) : Prop :=
  a'.1 = a.1 ∧ ∃ imgs, Reindexer.mapAll (Reindexer.coherent_at coherent_indices)
      (runExpansion a.2) = some imgs ∧
    run_iterator.collect a'.2 fuel = some (imgs.insertionSort (fun x y => x ≤ y))

/-! ## `Reindexer::compress_t_array`: the indices at which `new_t_list` is read -/

namespace Reindexer

/-- The `for` loop of `Reindexer::compress_t_array` (reindexer.h:351-378) with
the same control flow as `compress_loop`, recording in `reads` every index at
which `new_t_list[·]` is evaluated. The condition is evaluated left to right:
`new_t_list[i]` and `new_t_list[i+1]` are read only when `i+1 < size`; the
`else` branch ends with `start_t_id = new_t_list[i+1]`. -/
def compress_loop_reads (junk : Int) (new_t_list : List Int) :
    Nat → Nat → Nat → Int → List Int → List Nat → List Int × List Nat
  | 0, _, _, _, t_array, reads => (t_array, reads)
  | todo + 1, i, count, start_t_id, t_array, reads =>
    let reads1 := if i + 1 < new_t_list.length then reads ++ [i, i + 1] else reads
    if i + 1 < new_t_list.length ∧
        new_t_list.getD i junk + 1 = new_t_list.getD (i + 1) junk then
      compress_loop_reads junk new_t_list todo (i + 1) (count + 1) start_t_id t_array reads1
    else
      let t_array' :=
        if count > 1 then t_array ++ [-start_t_id, (count : Int)]
        else if count = 1 then t_array ++ [start_t_id, start_t_id + (count : Int)]
        else t_array ++ [start_t_id]
      compress_loop_reads junk new_t_list todo (i + 1) 0 (new_t_list.getD (i + 1) junk) t_array'
        (reads1 ++ [i + 1])

/-- `Reindexer::compress_t_array` (reindexer.h:336-379) together with the list
of the indices at which the sorted `new_t_list` is read, in order; the first
read is `start_t_id = new_t_list[0]`. -/
def compress_t_array_reads (junk : Int) (t_array : List Int) (new_t_list : List Int) :
    List Int × List Nat :=
  let sorted := new_t_list.insertionSort (fun a b => a ≤ b)
  let start_t_id := sorted.getD 0 junk
  if sorted.length = 1 then (t_array ++ [start_t_id], [0])
  else compress_loop_reads junk sorted sorted.length 0 0 start_t_id t_array [0]

end Reindexer

/-! ## Interval clipping -/

/-- The state of a clipping loop describes a set `S` of parameters: the loop has
failed exactly when `S` is empty, otherwise the interval `[u1, u2]` is `S`. -/
def ClipExact (S : ℚ → Prop) : Option (ℚ × ℚ) → Prop
  | none => ∀ u, ¬ S u
  | some (a, b) => a ≤ b ∧ ∀ u, (a ≤ u ∧ u ≤ b) ↔ S u

/-! ## Segments and closed tetrahedra -/

/-- The point `a + s (b - a)` of the segment from `a` to `b`. -/
def segment_point (a b : Point) (s : ℚ) : Point :=
  ⟨a.x + s * (b.x - a.x), a.y + s * (b.y - a.y), a.z + s * (b.z - a.z)⟩

/-- The closed tetrahedron of vertices `v0, v1, v2, v3`: the points that are
convex combinations of the four vertices. -/
def inClosedTetrahedron (v0 v1 v2 v3 x : Point) : Prop :=
  ∃ l0 l1 l2 l3 : ℚ, 0 ≤ l0 ∧ 0 ≤ l1 ∧ 0 ≤ l2 ∧ 0 ≤ l3 ∧ l0 + l1 + l2 + l3 = 1 ∧
    x.x = l0 * v0.x + l1 * v1.x + l2 * v2.x + l3 * v3.x ∧
    x.y = l0 * v0.y + l1 * v1.y + l2 * v2.y + l3 * v3.y ∧
    x.z = l0 * v0.z + l1 * v1.z + l2 * v2.z + l3 * v3.z

/-- The side of `x` with respect to the plane through `A`, `B`, `C`: the dot
product of `x - A` with the normal `(B - A) × (C - A)`. -/
def plane_side (A B C x : Point) : ℚ := (x.sub A).dot_3D ((B.sub A).cross_3D (C.sub A))

/-! ## Maximal ranges of consecutive ids -/

/-- The maximal ranges of consecutive ids of `head, …, head + len - 1` followed
by the ids of the list: the current range grows while the next id is the one
after its last id, otherwise it is closed and a new range starts. A range is
its first id and the number of its ids. -/
def maximal_ranges_from (head : Int) (len : Nat) : List Int → List (Int × Nat)
  | [] => [(head, len)]
  | y :: rest =>
    if y = head + (len : Int) then maximal_ranges_from head (len + 1) rest
    else (head, len) :: maximal_ranges_from y 1 rest

/-- The maximal ranges of consecutive ids of a list, in order. -/
def maximal_ranges : List Int → List (Int × Nat)
  | [] => []
  | x :: rest => maximal_ranges_from x 1 rest

/-- The ids `head, …, head + len - 1` of a range. -/
def range_ids (r : Int × Nat) : List Int := (List.range r.2).map (fun (k : Nat) => r.1 + (k : Int))

/-- The encoding of a range as the data model describes it: the pair
`[-head, length - 1]` for three or more ids, the plain ids for one or two. -/
def encode_range (r : Int × Nat) : List Int :=
  if 3 ≤ r.2 then [-r.1, (r.2 : Int) - 1] else range_ids r

/-- A scan of an encoded array in the order of the run iterator: every
positive entry is a plain id, every negative entry is a header followed by a
tail length of at least 2. -/
def tailsAtLeastTwo : List Int → Bool
  | [] => true
  | [x] => decide (0 < x)
  | x :: k :: rest =>
    if 0 < x then tailsAtLeastTwo (k :: rest)
    else decide (x < 0) && decide (2 ≤ k) && tailsAtLeastTwo rest

/-! ## Results of a query against a test -/

namespace QueryStatistics

/-- The result vector agrees with a test on the tetrahedra seen so far: it has
no duplicate, each of its ids has its `checkTetra` bit set and passes the test,
and every id whose bit is set and that passes the test is in it. -/
def Agrees (test : Nat → Bool) (qS : QueryStatistics) : Prop :=
  qS.tetrahedra.Nodup ∧ (∀ t ∈ qS.tetrahedra, qS.checkTetra t = true ∧ test t = true) ∧
    ∀ t, qS.checkTetra t = true → test t = true → t ∈ qS.tetrahedra

/-- A step on tetrahedron `t` decides it: from a state that agrees with the
test it leads to a state that agrees with the test, whose result vector holds
the ids it held before and `t` if `t` passes the test. -/
def Decides (test : Nat → Bool) (t : Nat) (qS qS' : QueryStatistics) : Prop :=
  qS.Agrees test →
    qS'.Agrees test ∧
      ∀ u, u ∈ qS'.tetrahedra ↔ u ∈ qS.tetrahedra ∨ (u = t ∧ test t = true)

end QueryStatistics

/-- The box encloses the point (closed faces). -/
def Encloses (acc : Point × Point) (p : Point) : Prop :=
  acc.1.x ≤ p.x ∧ p.x ≤ acc.2.x ∧ acc.1.y ≤ p.y ∧ p.y ≤ acc.2.y ∧ acc.1.z ≤ p.z ∧ p.z ≤ acc.2.z

/-! ## The line query: statements -/

/-- The state of a clipping loop keeps the parameter `u0`: the loop has not
failed and `u0` lies in the interval `[u1, u2]`. -/
def ClipHas (u0 : ℚ) (o : Option (ℚ × ℚ)) : Prop :=
  ∃ a b, o = some (a, b) ∧ a ≤ u0 ∧ u0 ≤ b

/-- Tetrahedron `t` is stored in `RIGHT` orientation: the determinant of
`(v0 - v3, v1 - v0, v2 - v0)`, whose sign `four_point_turn_wrapper` computes for
the stored order, is positive. -/
def Mesh.right_oriented (mesh : Mesh) (t : Nat) : Prop :=
  0 < Geometry.Det3D
    ((mesh.tetra_vertex t 0).x - (mesh.tetra_vertex t 3).x)
    ((mesh.tetra_vertex t 0).y - (mesh.tetra_vertex t 3).y)
    ((mesh.tetra_vertex t 0).z - (mesh.tetra_vertex t 3).z)
    ((mesh.tetra_vertex t 1).x - (mesh.tetra_vertex t 0).x)
    ((mesh.tetra_vertex t 1).y - (mesh.tetra_vertex t 0).y)
    ((mesh.tetra_vertex t 1).z - (mesh.tetra_vertex t 0).z)
    ((mesh.tetra_vertex t 2).x - (mesh.tetra_vertex t 0).x)
    ((mesh.tetra_vertex t 2).y - (mesh.tetra_vertex t 0).y)
    ((mesh.tetra_vertex t 2).z - (mesh.tetra_vertex t 0).z)

/-! ## `io/reader.cpp`: `Reader::read_mesh` -/

namespace Box

/-- `Box::resize` (box.h:183-193): nothing if the closed box contains the
point, otherwise each coordinate of `min` and `max` is moved to the point where
the point lies outside. -/
def resize (b : Box) (p : Point) : Box :=
  if b.contains_with_all_closed_faces p then b
  else
    (List.finRange 3).foldl (fun b i =>
      let b1 := if p.get_c i < b.min.get_c i then { b with min := b.min.set_c i (p.get_c i) }
        else b
      if p.get_c i > b1.max.get_c i then { b1 with max := b1.max.set_c i (p.get_c i) }
      else b1) b

end Box

namespace Mesh

/-- The mesh after the constructor `Mesh()`: the default box and two empty
arrays. -/
def empty : Mesh := { domain := ⟨⟨0, 0, 0⟩, ⟨0, 0, 0⟩⟩, vertices := [], tetrahedra := [] }

/-- `Mesh::add_vertex`: `vertices.push_back(v)`. -/
def add_vertex (m : Mesh) (v : Vertex) : Mesh := { m with vertices := m.vertices ++ [v] }

/-- `Mesh::add_tetrahedron`: `tetrahedra.push_back(t)`. -/
def add_tetrahedron (m : Mesh) (t : Tetrahedron) : Mesh :=
  { m with tetrahedra := m.tetrahedra ++ [t] }

end Mesh

namespace Reader

/-- A `.ts` file as `Reader::read_mesh` reads it: whether the stream opens, the
two integers that `atoi` returns for the two fields of the header line, and
the numbers that follow as the two loops extract them, four reals for each
vertex and four integers for each tetrahedron. -/
structure TsFile where
  is_open : Bool
  num_vertices : Int
  num_tetrahedra : Int
  vertex_lines : List (ℚ × ℚ × ℚ × ℚ)
  tetra_lines : List (Int × Int × Int × Int)

/-- The body of the loop over the vertices (reader.cpp:55-71) at index `i`,
for the four numbers extracted; the stream is not at its end, since the
tetrahedra follow. -/
def read_vertex (mesh : Mesh) (i : Nat) (l : ℚ × ℚ × ℚ × ℚ) : Mesh :=
  let v : Vertex := ⟨⟨l.1, l.2.1, l.2.2.1⟩, l.2.2.2⟩
  let mesh1 := mesh.add_vertex v
  if i = 0 then { mesh1 with domain := ⟨v.toPoint, v.toPoint⟩ }
  else { mesh1 with domain := mesh1.domain.resize v.toPoint }

/-- The loop over the vertices, from index `i` on. -/
def read_vertices : List (ℚ × ℚ × ℚ × ℚ) → Nat → Mesh → Mesh
  | [], _, mesh => mesh
  | l :: rest, i, mesh => read_vertices rest (i + 1) (read_vertex mesh i l)

/-- The body of the loop over the tetrahedra (reader.cpp:74-83): each index
read is stored incremented by one. -/
def read_tetrahedron (mesh : Mesh) (l : Int × Int × Int × Int) : Mesh :=
  mesh.add_tetrahedron (Tetrahedron.mk4 (l.1 + 1) (l.2.1 + 1) (l.2.2.1 + 1) (l.2.2.2 + 1))

/-- `Reader::read_mesh` (reader.cpp:29-87): the returned value and the mesh
after the call. The result is `none` where the function does not return or what
it stores is not determined by the file: a negative count (`reserve` throws), a
number of vertex lines different from `num_vertices`, or fewer tetrahedron
lines than `num_tetrahedra` (the extractions fail). -/
def read_mesh (mesh : Mesh) (f : TsFile) : Option (Bool × Mesh) :=
  if f.is_open = false then some (false, mesh)
  else if f.num_vertices = 0 ∨ f.num_tetrahedra = 0 then some (false, mesh)
  else if f.num_vertices < 0 ∨ f.num_tetrahedra < 0 then none
  else if f.vertex_lines.length ≠ f.num_vertices.toNat ∨
      f.tetra_lines.length < f.num_tetrahedra.toNat then none
  else
    let mesh1 := read_vertices f.vertex_lines 0 mesh
    some (true, (f.tetra_lines.take f.num_tetrahedra.toNat).foldl read_tetrahedron mesh1)

end Reader

namespace Examples

/-- The cube mesh with one more vertex at `(2, 2, 2)`, which belongs to no
tetrahedron: the domain is `[0,2]³` and no face of the cube lies on its
maximum. -/
def cubeFarMesh : Mesh :=
  { domain := ⟨⟨0, 0, 0⟩, ⟨2, 2, 2⟩⟩
    vertices := cubeMesh.vertices ++ [⟨⟨2, 2, 2⟩, 0⟩]
    tetrahedra := cubeMesh.tetrahedra }

end Examples

namespace Examples

end Examples

namespace T_Tree

/-- The tetrahedra of the list `R` that pass the build-time inclusion test
`tetra_in_box_build` of the box `B`, in the order of the list: the tetrahedra
that `add_tetrahedron` does not send back at a node of box `B`. -/
def passing (mesh : Mesh) (B : Box) (R : List Nat) : List Nat :=
  R.filter (fun t => Geometry_Wrapper.tetra_in_box_build t B mesh)

/-- The subdivision separates the tetrahedra `R` offered to the node of box `B`
within `k` further levels: the leaf that lists those passing the test of `B`
is not full (`is_full`), or, with `k` at least 1, the same holds one level
down for each of the `son_number` boxes of the sons, to which those passing
are offered. -/
def resolved (d : Subdivision) (mesh : Mesh) (tetrahedra_threshold : Nat) :
    Nat → Box → Nat → List Nat → Bool
  | 0, B, _, R => !is_full mesh tetrahedra_threshold (Node.leaf [] (passing mesh B R))
  | k + 1, B, level, R =>
    !is_full mesh tetrahedra_threshold (Node.leaf [] (passing mesh B R)) ||
      (List.range d.son_number).all (fun i =>
        resolved d mesh tetrahedra_threshold k (d.compute_domain B level i) (level + 1)
          (passing mesh B R))

end T_Tree

namespace T_Tree

mutual
/-- A subtree at the node of box `B` to which the tetrahedra `R` have been
offered is as `add_tetrahedron` leaves it: a leaf lists the tetrahedra passing
the test of `B` and is not full; the sons of an internal node, `son_number` of
them, are such subtrees for the tetrahedra passing the test of `B`. -/
def Canonical (d : Subdivision) (mesh : Mesh) (tetrahedra_threshold : Nat) :
    Node → Box → Nat → List Nat → Prop
  | Node.leaf _ ts, B, _, R =>
    ts = passing mesh B R ∧ is_full mesh tetrahedra_threshold (Node.leaf [] ts) = false
  | Node.internal sons, B, level, R =>
    CanonicalSons d mesh tetrahedra_threshold sons B level 0 (passing mesh B R) ∧
      sons.length = d.son_number
/-- `Canonical` along the sons of the node of box `B`, `i` being the index of
the first son of the list. -/
def CanonicalSons (d : Subdivision) (mesh : Mesh) (tetrahedra_threshold : Nat) :
    List Node → Box → Nat → Nat → List Nat → Prop
  | [], _, _, _, _ => True
  | s :: rest, B, level, i, S =>
    Canonical d mesh tetrahedra_threshold s (d.compute_domain B level i) (level + 1) S ∧
      CanonicalSons d mesh tetrahedra_threshold rest B level (i + 1) S
end

end T_Tree

/-! # Theorems -/

/-! ## Run iterator -/

open run_iterator Reindexer

theorem getElem?_append_cons {α : Type} (pre : List α) (x : α) (rest : List α) :
    (pre ++ x :: rest)[pre.length]? = some x := by
  induction pre with
  | nil => simp
  | cons a pre ih => simpa using ih

theorem getElem?_append_cons_succ (pre : List Int) (x y : Int) (rest : List Int) :
    (pre ++ x :: y :: rest)[pre.length + 1]? = some y := by
  have h := getElem?_append_cons (pre ++ [x]) y rest
  simpa using h

theorem length_idRange (v : Int) (k : Nat) : (idRange v k).length = k + 1 := by
  induction k generalizing v with
  | zero => rfl
  | succ k ih => simp [idRange, ih]


theorem getElem?_idRange (v : Int) (k j : Nat) (hj : j ≤ k) :
    (idRange v k)[j]? = some (v + j) := by
  induction k generalizing v j with
  | zero =>
    have : j = 0 := by omega
    subst this
    simp [idRange]
  | succ k ih =>
    cases j with
    | zero => simp [idRange]
    | succ j =>
      simp only [idRange, List.getElem?_cons_succ]
      rw [ih (v + 1) j (by omega)]
      congr 1
      push_cast
      ring

/-- Inside a run `[h, k]` stored after `pre`, with `r` ids still to come after
the current one, the loop emits the remaining ids of the run and then
whatever the continuation emits from the entry after the run. -/
theorem collectFrom_inRun (vec pre : List Int) (h k : Int) (rest out : List Int)
    (hvec : vec = pre ++ h :: k :: rest)
    (cont : ∀ fuel, out.length < fuel →
      (updateElement vec
        { runIter := pre.length + 2, runIterEnd := vec.length, currentElement := k - h,
          runElementsRemaining := 0, runMode := RunMode.NO_RUN }).bind (collectFrom vec fuel)
        = some out) :
    ∀ (r : Nat) (fuel : Nat), (r + 1 + out.length) < fuel →
      collectFrom vec fuel
        { runIter := pre.length + 1, runIterEnd := vec.length, currentElement := k - r - h,
          runElementsRemaining := r, runMode := RunMode.IN_RUN }
        = some (idRange (k - r - h) r ++ out) := by
  intro r
  induction r with
  | zero =>
    intro fuel hf
    obtain ⟨f, rfl⟩ : ∃ f, fuel = f + 1 := ⟨fuel - 1, by omega⟩
    have hc := cont f (by omega)
    simp only [collectFrom, equal, endIt, increment, dereference, idRange]
    simp only [Nat.cast_zero, sub_zero] at hc ⊢
    cases hu : updateElement vec
        { runIter := pre.length + 2, runIterEnd := vec.length, currentElement := k - h,
          runElementsRemaining := 0, runMode := RunMode.NO_RUN } with
    | none => simp [hu] at hc
    | some it' =>
      simp [hu] at hc
      simp [hu, hc]
  | succ r ih =>
    intro fuel hf
    obtain ⟨f, rfl⟩ : ∃ f, fuel = f + 1 := ⟨fuel - 1, by omega⟩
    have hi := ih f (by omega)
    have hlen : vec.length = pre.length + 2 + rest.length := by
      subst hvec; simp; omega
    have h1 : vec[pre.length + 1]? = some k := by
      subst hvec; exact getElem?_append_cons_succ pre h k rest
    have h0 : vec[pre.length]? = some h := by
      subst hvec; exact getElem?_append_cons pre h (k :: rest)
    have hne : ((r : Int) + 1 = 0) = False := by
      apply eq_false; omega
    have hne2 : (pre.length + 1 = vec.length) = False := by
      apply eq_false; omega
    simp only [collectFrom, equal, endIt, increment, dereference, idRange, updateElement,
      Nat.cast_succ, hne, hne2, if_false, add_sub_cancel_right, h1, h0,
      Nat.add_sub_cancel, Nat.succ_ne_zero]
    have e1 : k - (↑r + 1) - h + 1 = k - ↑r - h := by ring
    rw [e1]
    simp [hi]

theorem wellFormedRuns_cons_pos (x : Int) (rest : List Int) (hx : 0 < x) :
    wellFormedRuns (x :: rest) = wellFormedRuns rest := by
  cases rest with
  | nil => simp [wellFormedRuns, hx]
  | cons k rest => simp [wellFormedRuns, hx]

theorem runExpansion_cons_nonneg (x : Int) (rest : List Int) (hx : ¬ x < 0) :
    runExpansion (x :: rest) = x :: runExpansion rest := by
  cases rest with
  | nil => simp [runExpansion]
  | cons k rest => simp [runExpansion, hx]

theorem wellFormedRuns_cons_cases (x : Int) (rest : List Int)
    (h : wellFormedRuns (x :: rest) = true) :
    (0 < x ∧ wellFormedRuns rest = true) ∨
      ∃ k rest', rest = k :: rest' ∧ x < 0 ∧ 0 ≤ k ∧ wellFormedRuns rest' = true := by
  by_cases hx : 0 < x
  · left
    exact ⟨hx, by rwa [wellFormedRuns_cons_pos x rest hx] at h⟩
  · right
    cases rest with
    | nil => simp [wellFormedRuns, hx] at h
    | cons k rest' =>
      simp [wellFormedRuns, hx] at h
      exact ⟨k, rest', rfl, h.1.1, h.1.2, h.2⟩

/-- One step of the loop at a plain (non-negative) entry. -/
theorem collectFrom_step_plain (vec pre : List Int) (x : Int) (rest : List Int)
    (hvec : vec = pre ++ x :: rest) (hx : ¬ x < 0) (cur rem : Int) (f : Nat) :
    (updateElement vec
      { runIter := pre.length, runIterEnd := vec.length, currentElement := cur,
        runElementsRemaining := rem, runMode := RunMode.NO_RUN }).bind
      (collectFrom vec (f + 1))
    = ((updateElement vec
        { runIter := pre.length + 1, runIterEnd := vec.length, currentElement := x,
          runElementsRemaining := rem, runMode := RunMode.NO_RUN }).bind
        (collectFrom vec f)).map (fun l => x :: l) := by
  have h0 : vec[pre.length]? = some x := by
    subst hvec; exact getElem?_append_cons pre x rest
  have hlen : vec.length = pre.length + 1 + rest.length := by subst hvec; simp; omega
  have hne : (pre.length = vec.length) = False := by apply eq_false; omega
  have hne2 : ¬ (pre.length = vec.length) := by omega
  simp only [updateElement, hne, if_false, h0, hx, Option.bind, collectFrom, equal, endIt,
    increment, dereference]
  simp only [beq_iff_eq, hne2, Bool.and_eq_true, false_and, if_false, Bool.false_eq_true]
  cases hu : updateElement vec
      { runIter := pre.length + 1, runIterEnd := vec.length, currentElement := x,
        runElementsRemaining := rem, runMode := RunMode.NO_RUN } with
  | none => simp [updateElement] at hu ⊢; simp [hu]
  | some it' =>
    simp [updateElement] at hu ⊢
    simp [hu]
    cases collectFrom vec f it' <;> simp

/-- At a run header the `updateElement` call enters the run. -/
theorem updateElement_header (vec pre : List Int) (h k : Int) (rest : List Int)
    (hvec : vec = pre ++ h :: k :: rest) (hh : h < 0) (cur rem : Int) :
    updateElement vec
      { runIter := pre.length, runIterEnd := vec.length, currentElement := cur,
        runElementsRemaining := rem, runMode := RunMode.NO_RUN }
    = some { runIter := pre.length + 1, runIterEnd := vec.length, currentElement := -h,
             runElementsRemaining := k, runMode := RunMode.IN_RUN } := by
  have h0 : vec[pre.length]? = some h := by
    subst hvec; exact getElem?_append_cons pre h (k :: rest)
  have h1 : vec[pre.length + 1]? = some k := by
    subst hvec; exact getElem?_append_cons_succ pre h k rest
  have hlen : vec.length = pre.length + 2 + rest.length := by subst hvec; simp; omega
  have hne : (pre.length = vec.length) = False := by apply eq_false; omega
  simp only [updateElement, hne, if_false, h0, h1, hh, if_true]

theorem collectFrom_noRun (vec : List Int) :
    ∀ (n : Nat) (pre suf : List Int), suf.length ≤ n → vec = pre ++ suf →
      wellFormedRuns suf = true →
      ∀ (cur rem : Int) (fuel : Nat), (runExpansion suf).length < fuel →
        (updateElement vec
          { runIter := pre.length, runIterEnd := vec.length, currentElement := cur,
            runElementsRemaining := rem, runMode := RunMode.NO_RUN }).bind
          (collectFrom vec fuel) = some (runExpansion suf) := by
  intro n
  induction n with
  | zero =>
    intro pre suf hn hvec _ cur rem fuel hf
    have hs : suf = [] := List.length_eq_zero.mp (by omega)
    subst hs
    obtain ⟨f, rfl⟩ : ∃ f, fuel = f + 1 := ⟨fuel - 1, by omega⟩
    subst hvec
    simp [updateElement, collectFrom, equal, endIt, runExpansion]
  | succ n ih =>
    intro pre suf hn hvec hwf cur rem fuel hf
    cases suf with
    | nil =>
      obtain ⟨f, rfl⟩ : ∃ f, fuel = f + 1 := ⟨fuel - 1, by omega⟩
      subst hvec
      simp [updateElement, collectFrom, equal, endIt, runExpansion]
    | cons x rest =>
      rcases wellFormedRuns_cons_cases x rest hwf with ⟨hx, hrest⟩ | ⟨k, rest', rfl, hx, hk, hrest⟩
      · have hnx : ¬ x < 0 := by omega
        rw [runExpansion_cons_nonneg x rest hnx] at hf ⊢
        obtain ⟨f, rfl⟩ : ∃ f, fuel = f + 1 := ⟨fuel - 1, by simp at hf; omega⟩
        rw [collectFrom_step_plain vec pre x rest hvec hnx cur rem f]
        have hnext := ih (pre ++ [x]) rest (by simp at hn; omega) (by simp [hvec]) hrest x rem f
          (by simp at hf; omega)
        simp only [List.length_append, List.length_singleton] at hnext
        rw [hnext]
        rfl
      · have hnext : ∀ fuel, (runExpansion rest').length < fuel →
            (updateElement vec
              { runIter := pre.length + 2, runIterEnd := vec.length, currentElement := k - x,
                runElementsRemaining := 0, runMode := RunMode.NO_RUN }).bind
              (collectFrom vec fuel) = some (runExpansion rest') := by
          intro fuel hfuel
          have := ih (pre ++ [x, k]) rest' (by simp at hn; omega) (by simp [hvec]) hrest
            (k - x) 0 fuel hfuel
          simpa using this
        have hrun := collectFrom_inRun vec pre x k rest' (runExpansion rest') hvec hnext
          k.toNat fuel
        have hkk : ((k.toNat : Nat) : Int) = k := Int.toNat_of_nonneg hk
        rw [updateElement_header vec pre x k rest' hvec hx cur rem]
        have hexp : runExpansion (x :: k :: rest') = idRange (-x) k.toNat ++ runExpansion rest' := by
          simp [runExpansion, hx]
        rw [hexp] at hf ⊢
        rw [hkk] at hrun
        have e : k - k - x = -x := by ring
        rw [e] at hrun
        simp only [Option.bind]
        apply hrun
        simp [length_idRange] at hf
        omega

/-- The begin-to-end loop emits the expansion of a well-formed sequence. -/
theorem collect_wellFormed (vec : List Int) (hwf : wellFormedRuns vec = true) (fuel : Nat)
    (hf : (runExpansion vec).length < fuel) :
    collect vec fuel = some (runExpansion vec) := by
  have h := collectFrom_noRun vec vec.length [] vec (le_refl _) (by simp) hwf 0 0 fuel hf
  simp only [collect, beginIt]
  simp only [List.length_nil] at h
  cases hu : updateElement vec
      { runIter := 0, runIterEnd := vec.length, currentElement := 0,
        runElementsRemaining := 0, runMode := RunMode.NO_RUN } with
  | none => rw [hu] at h; simp at h
  | some it => rw [hu] at h; simpa using h

/-- C1: for every well-formed compressed sequence (each entry a positive id, or
a negative header `-v` immediately followed by a tail length `k ≥ 0`), the loop
over `run_iterator` from begin to end terminates (any fuel above the number of
expanded ids is enough) and yields exactly the expansion in encounter order: a
positive `v` yields `v`, a pair `[-v, k]` yields `v, v+1, …, v+k`, and iteration
resumes with the entry after the pair. -/
theorem C1_run_iterator_yields_expansion (vec : List Int)
    (hwf : wellFormedRuns vec = true) (fuel : Nat)
    (hfuel : (runExpansion vec).length < fuel) :
    run_iterator.collect vec fuel = some (runExpansion vec) ∧
      (∀ (v : Int) (rest : List Int), 0 < v →
        runExpansion (v :: rest) = v :: runExpansion rest) ∧
      (∀ (v k : Int) (rest : List Int), 0 < v → 0 ≤ k →
        runExpansion (-v :: k :: rest) = idRange v k.toNat ++ runExpansion rest) ∧
      (∀ (v : Int) (k : Nat), (idRange v k).length = k + 1 ∧
        ∀ j, j ≤ k → (idRange v k)[j]? = some (v + j)) := by
  refine ⟨collect_wellFormed vec hwf fuel hfuel, ?_, ?_, ?_⟩
  · intro v rest hv
    exact runExpansion_cons_nonneg v rest (by omega)
  · intro v k rest hv _
    have hneg : -v < 0 := by omega
    simp [runExpansion, hneg]
  · intro v k
    exact ⟨length_idRange v k, fun j hj => getElem?_idRange v k j hj⟩

/-- C1 at the sequence `[3, -5, 3, 9, -1, 0, 2]`, which expands to
`3, 5, 6, 7, 8, 9, 1, 2`. -/
theorem C1_run_iterator_yields_expansion_witness :
    wellFormedRuns [3, -5, 3, 9, -1, 0, 2] = true ∧
      run_iterator.collect [3, -5, 3, 9, -1, 0, 2] 9 = some [3, 5, 6, 7, 8, 9, 1, 2] :=
  ⟨by decide,
    (C1_run_iterator_yields_expansion [3, -5, 3, 9, -1, 0, 2] (by decide) 9 (by decide)).1⟩

/-! ## Run encoding written by the reindexer -/


theorem wellFormedRuns_append (n : Nat) :
    ∀ (a b : List Int), a.length ≤ n → wellFormedRuns a = true → wellFormedRuns b = true →
      wellFormedRuns (a ++ b) = true := by
  induction n with
  | zero =>
    intro a b hn _ hb
    have : a = [] := List.length_eq_zero.mp (by omega)
    subst this; simpa using hb
  | succ n ih =>
    intro a b hn ha hb
    cases a with
    | nil => simpa using hb
    | cons x rest =>
      rcases wellFormedRuns_cons_cases x rest ha with ⟨hx, hrest⟩ | ⟨k, rest', rfl, hx, hk, hrest⟩
      · rw [List.cons_append, wellFormedRuns_cons_pos x _ hx]
        exact ih rest b (by simp at hn; omega) hrest hb
      · have hnx : ¬ 0 < x := by omega
        have := ih rest' b (by simp at hn; omega) hrest hb
        simp [wellFormedRuns, hnx, hx, hk, this]

theorem runExpansion_append (n : Nat) :
    ∀ (a b : List Int), a.length ≤ n → wellFormedRuns a = true →
      runExpansion (a ++ b) = runExpansion a ++ runExpansion b := by
  induction n with
  | zero =>
    intro a b hn _
    have : a = [] := List.length_eq_zero.mp (by omega)
    subst this; simp [runExpansion]
  | succ n ih =>
    intro a b hn ha
    cases a with
    | nil => simp [runExpansion]
    | cons x rest =>
      rcases wellFormedRuns_cons_cases x rest ha with ⟨hx, hrest⟩ | ⟨k, rest', rfl, hx, hk, hrest⟩
      · have hnx : ¬ x < 0 := by omega
        rw [List.cons_append, runExpansion_cons_nonneg x _ hnx, runExpansion_cons_nonneg x _ hnx,
          ih rest b (by simp at hn; omega) hrest]
        rfl
      · have := ih rest' b (by simp at hn; omega) hrest
        simp [runExpansion, hx, this]

theorem idRange_succ_last (v : Int) (k : Nat) :
    idRange v (k + 1) = idRange v k ++ [v + (k : Int) + 1] := by
  induction k generalizing v with
  | zero => simp [idRange]
  | succ k ih =>
    have h := ih (v + 1)
    have e : v + 1 + (k : Int) + 1 = v + ((k + 1 : Nat) : Int) + 1 := by push_cast; ring
    rw [e] at h
    conv_lhs => rw [idRange]
    rw [h]
    rfl

/-- What one `else` branch of the encoding loop appends: a folded run for
three or more ids, the plain ids otherwise. It is well formed and expands to
the `count + 1` ids from `start`. -/
theorem emitted_block (start : Int) (count : Nat) (hs : 0 < start) :
    let block : List Int :=
      if count > 1 then [-start, (count : Int)]
      else if count = 1 then [start, start + (count : Int)]
      else [start]
    wellFormedRuns block = true ∧ runExpansion block = idRange start count := by
  intro block
  by_cases h1 : count > 1
  · have hneg : -start < 0 := by omega
    have hnp : ¬ 0 < -start := by omega
    simp [block, h1, wellFormedRuns, runExpansion, hneg, hnp]
  · by_cases h2 : count = 1
    · subst h2
      have hnn : ¬ start < 0 := by omega
      have hp : 0 < start + 1 := by omega
      simp [block, wellFormedRuns, runExpansion, hs, hnn, hp, idRange]
    · have h0 : count = 0 := by omega
      subst h0
      simp [block, wellFormedRuns, runExpansion, hs, idRange]

theorem compress_loop_succ (junk : Int) (l : List Int) (todo i count : Nat) (start : Int)
    (out : List Int) :
    compress_loop junk l (todo + 1) i count start out =
      if i + 1 < l.length ∧ l.getD i junk + 1 = l.getD (i + 1) junk then
        compress_loop junk l todo (i + 1) (count + 1) start out
      else
        compress_loop junk l todo (i + 1) 0 (l.getD (i + 1) junk)
          (if count > 1 then out ++ [-start, (count : Int)]
           else if count = 1 then out ++ [start, start + (count : Int)]
           else out ++ [start]) := rfl

theorem compress_loop_spec (junk : Int) (l : List Int) :
    ∀ (suf pre : List Int) (x : Int) (count : Nat) (start : Int) (out : List Int),
      l = pre ++ x :: suf → x = start + (count : Int) → 0 < start →
      (∀ y ∈ suf, 0 < y) → wellFormedRuns out = true →
      wellFormedRuns (compress_loop junk l (suf.length + 1) pre.length count start out) = true ∧
      runExpansion (compress_loop junk l (suf.length + 1) pre.length count start out)
        = runExpansion out ++ idRange start count ++ suf := by
  intro suf
  induction suf with
  | nil =>
    intro pre x count start out hl hx hs _ hout
    have hlen : ¬ (pre.length + 1 < l.length) := by subst hl; simp
    obtain ⟨hw, he⟩ := emitted_block start count hs
    simp only [List.length_nil, compress_loop, hlen, false_and, if_false]
    constructor
    · split_ifs at hw ⊢ <;> exact wellFormedRuns_append _ out _ (le_refl _) hout hw
    · split_ifs at he ⊢ <;>
        simp [runExpansion_append _ out _ (le_refl _) hout, he]
  | cons y suf ih =>
    intro pre x count start out hl hx hs hpos hout
    have hlen : pre.length + 1 < l.length := by subst hl; simp
    have hgi : l.getD pre.length junk = x := by
      subst hl; rw [List.getD_eq_getElem?_getD, getElem?_append_cons]; rfl
    have hgi1 : l.getD (pre.length + 1) junk = y := by
      subst hl; rw [List.getD_eq_getElem?_getD, getElem?_append_cons_succ]; rfl
    have hl' : l = (pre ++ [x]) ++ y :: suf := by simp [hl]
    have hy : 0 < y := hpos y (by simp)
    have hpos' : ∀ z ∈ suf, 0 < z := fun z hz => hpos z (by simp [hz])
    rw [show (y :: suf).length + 1 = (suf.length + 1) + 1 by simp, compress_loop_succ]
    by_cases hstep : x + 1 = y
    · have := ih (pre ++ [x]) y (count + 1) start out hl' (by push_cast; omega) hs hpos' hout
      simp only [List.length_append, List.length_singleton] at this
      simp only [hlen, hgi, hgi1, hstep, and_self, if_true]
      refine ⟨this.1, ?_⟩
      rw [this.2, idRange_succ_last]
      have : start + (count : Int) + 1 = y := by omega
      simp [this]
    · obtain ⟨hw, he⟩ := emitted_block start count hs
      simp only [hlen, hgi, hgi1, hstep, and_false, if_false]
      split_ifs at hw he ⊢ <;>
      · have hout' := wellFormedRuns_append _ out _ (le_refl _) hout hw
        have := ih (pre ++ [x]) y 0 y _ hl' (by simp) hy hpos' hout'
        simp only [List.length_append, List.length_singleton] at this
        refine ⟨this.1, ?_⟩
        rw [this.2, runExpansion_append _ out _ (le_refl _) hout, he]
        simp [idRange]


/-- The array written by `compress_t_array` for a non-empty list of positive
ids (already in the order `sorted`) is well formed and expands to the list. -/
theorem compress_sorted_spec (junk : Int) (sorted : List Int) (hne : sorted ≠ [])
    (hpos : ∀ t ∈ sorted, 0 < t) :
    let out := if sorted.length = 1 then [] ++ [sorted.getD 0 junk]
      else compress_loop junk sorted sorted.length 0 0 (sorted.getD 0 junk) []
    wellFormedRuns out = true ∧ runExpansion out = sorted := by
  intro out
  cases sorted with
  | nil => exact absurd rfl hne
  | cons x suf =>
    have hx : 0 < x := hpos x (by simp)
    have hsuf : ∀ y ∈ suf, 0 < y := fun y hy => hpos y (by simp [hy])
    by_cases h1 : (x :: suf).length = 1
    · have hs : suf = [] := by
        cases suf with
        | nil => rfl
        | cons y r => simp at h1
      subst hs
      simp [out, wellFormedRuns, runExpansion, hx]
    · have := compress_loop_spec junk (x :: suf) suf [] x 0 x [] (by simp) (by simp) hx hsuf rfl
      simp only [List.length_nil] at this
      have h1' : ¬ (suf.length + 1 = 1) := by simpa using h1
      simp only [out, if_false, List.length_cons, List.getD_cons_zero, h1']
      refine ⟨this.1, ?_⟩
      rw [this.2]
      simp [runExpansion, idRange]

theorem compress_t_array_roundtrip (junk : Int) (L : List Int) (hne : L ≠ [])
    (hpos : ∀ t ∈ L, 0 < t) (fuel : Nat) (hfuel : L.length < fuel) :
    collect (compress_t_array junk [] L) fuel = some (L.insertionSort (fun a b => a ≤ b)) := by
  have hperm := List.perm_insertionSort (fun a b : Int => a ≤ b) L
  have hne' : L.insertionSort (fun a b => a ≤ b) ≠ [] := by
    intro h
    rw [h] at hperm
    exact hne (List.Perm.eq_nil hperm.symm)
  have hpos' : ∀ t ∈ L.insertionSort (fun a b => a ≤ b), 0 < t :=
    fun t ht => hpos t (hperm.mem_iff.mp ht)
  obtain ⟨hw, he⟩ := compress_sorted_spec junk _ hne' hpos'
  have hlen : (L.insertionSort (fun a b => a ≤ b)).length = L.length := hperm.length_eq
  have := collect_wellFormed (compress_t_array junk [] L) hw fuel
    (by
      show (runExpansion (compress_t_array junk [] L)).length < fuel
      have he' : runExpansion (compress_t_array junk [] L) = L.insertionSort (fun a b => a ≤ b) := he
      rw [he', hlen]; exact hfuel)
  rw [this]
  exact congrArg some he

/-- C2: for every non-empty list `L` of positive tetrahedron ids, expanding with
the run iterator the sequence that `Reindexer::compress_t_array` writes for `L`
(into the cleared array of the leaf) terminates and yields exactly `L` sorted
ascending, a sorted permutation of `L` (same ids, same multiplicities). -/
theorem C2_expand_compress_t_array (junk : Int) (L : List Int) (hne : L ≠ [])
    (hpos : ∀ t ∈ L, 0 < t) (fuel : Nat) (hfuel : L.length < fuel) :
    run_iterator.collect (Reindexer.compress_t_array junk [] L) fuel
        = some (L.insertionSort (fun a b => a ≤ b)) ∧
      (L.insertionSort (fun a b => a ≤ b)).Sorted (fun a b => a ≤ b) ∧
      (L.insertionSort (fun a b => a ≤ b)).Perm L :=
  ⟨compress_t_array_roundtrip junk L hne hpos fuel hfuel,
    List.sorted_insertionSort (fun a b : Int => a ≤ b) L,
    List.perm_insertionSort (fun a b : Int => a ≤ b) L⟩

/-- C2 at the list `[5, 3, 4, 9, 10, 1, 20, 21, 22, 5]`, encoded as
`[1, -3, 2, 5, 9, 10, -20, 2]`. -/
theorem C2_expand_compress_t_array_witness :
    Reindexer.compress_t_array 0 [] [5, 3, 4, 9, 10, 1, 20, 21, 22, 5]
        = [1, -3, 2, 5, 9, 10, -20, 2] ∧
      run_iterator.collect (Reindexer.compress_t_array 0 [] [5, 3, 4, 9, 10, 1, 20, 21, 22, 5]) 11
        = some [1, 3, 4, 5, 5, 9, 10, 20, 21, 22] :=
  ⟨by decide,
    (C2_expand_compress_t_array 0 [5, 3, 4, 9, 10, 1, 20, 21, 22, 5] (by decide) (by decide)
      11 (by decide)).1⟩

/-! ## Point-in-box predicate -/

theorem is_in_range_iff (min max coord max_dom : ℚ) :
    Box.is_in_range min max coord max_dom = true ↔
      min ≤ coord ∧ (coord < max ∨ (max = max_dom ∧ coord = max)) := by
  unfold Box.is_in_range
  split_ifs with h1 h2 h3 h2 h3
  · simp only [Bool.false_eq_true, false_iff, not_and, not_or]
    intro _
    exact ⟨fun h => absurd (lt_trans h h2) (lt_irrefl _), fun _ h => absurd (h ▸ h2) (lt_irrefl _)⟩
  · simp only [Bool.false_eq_true, false_iff, not_and]
    intro h
    exact absurd h (not_le.mpr h3)
  · simp only [true_iff]
    refine ⟨not_lt.mp h3, ?_⟩
    rcases lt_or_eq_of_le (not_lt.mp h2) with h | h
    · exact Or.inl h
    · exact Or.inr ⟨h1, h⟩
  · simp only [Bool.false_eq_true, false_iff, not_and, not_or]
    intro _
    exact ⟨not_lt.mpr h2, fun h => absurd h h1⟩
  · simp only [Bool.false_eq_true, false_iff, not_and]
    intro h
    exact absurd h (not_le.mpr h3)
  · simp only [true_iff]
    exact ⟨not_lt.mp h3, Or.inl (not_le.mp h2)⟩

theorem contains_iff (b : Box) (p dmax : Point) :
    b.contains p dmax = true ↔
      ∀ i : Fin 3, b.min.get_c i ≤ p.get_c i ∧
        (p.get_c i < b.max.get_c i ∨
          (b.max.get_c i = dmax.get_c i ∧ p.get_c i = b.max.get_c i)) := by
  unfold Box.contains
  simp only [Bool.and_eq_true, is_in_range_iff]
  constructor
  · rintro ⟨⟨h0, h1⟩, h2⟩ i
    fin_cases i
    · exact h0
    · exact h1
    · exact h2
  · intro h
    exact ⟨⟨h 0, h 1⟩, h 2⟩

/-- C3: `Box::contains(p, dmax)` returns true iff on every axis `i`:
`box.min_i ≤ p_i`, and either `p_i < box.max_i`, or `box.max_i` equals `dmax_i`
and `p_i = box.max_i` (minimum faces closed, maximum faces open unless they
coincide with the maximum of the mesh domain). -/
theorem C3_contains_half_open (b : Box) (p dmax : Point) :
    b.contains p dmax = true ↔
      ∀ i : Fin 3, b.min.get_c i ≤ p.get_c i ∧
        (p.get_c i < b.max.get_c i ∨
          (b.max.get_c i = dmax.get_c i ∧ p.get_c i = b.max.get_c i)) :=
  contains_iff b p dmax

/-! ## The children of a box partition it -/

/-- On one axis: a coordinate in the range of the parent is in the range of
the lower half exactly when it is below the midpoint. -/
theorem is_in_range_lower_half (min max coord max_dom : ℚ) (h1 : min ≤ max)
    (h2 : max ≤ max_dom) (h3 : ¬ (min = max ∧ max = max_dom))
    (hin : Box.is_in_range min max coord max_dom = true) :
    Box.is_in_range min (min + (max - min) / 2) coord max_dom = true ↔
      coord < min + (max - min) / 2 := by
  rw [is_in_range_iff] at hin ⊢
  have hmid : min + (max - min) / 2 ≠ max_dom := by
    intro h
    apply h3
    constructor <;> linarith
  constructor
  · rintro ⟨_, h | ⟨h, _⟩⟩
    · exact h
    · exact absurd h hmid
  · intro h
    exact ⟨hin.1, Or.inl h⟩

/-- On one axis: a coordinate in the range of the parent is in the range of
the upper half exactly when it is at or above the midpoint. -/
theorem is_in_range_upper_half (min max coord max_dom : ℚ)
    (hin : Box.is_in_range min max coord max_dom = true) :
    Box.is_in_range (min + (max - min) / 2) max coord max_dom = true ↔
      min + (max - min) / 2 ≤ coord := by
  rw [is_in_range_iff] at hin ⊢
  constructor
  · rintro ⟨h, _⟩
    exact h
  · intro h
    exact ⟨h, hin.2⟩

/-- A coordinate in the range of the parent is in the range of the lower or of
the upper half (no assumption on the parent). -/
theorem is_in_range_some_half (min max coord max_dom : ℚ)
    (hin : Box.is_in_range min max coord max_dom = true) :
    Box.is_in_range min (min + (max - min) / 2) coord max_dom = true ∨
      Box.is_in_range (min + (max - min) / 2) max coord max_dom = true := by
  by_cases h : coord < min + (max - min) / 2
  · left
    rw [is_in_range_iff] at hin ⊢
    exact ⟨hin.1, Or.inl h⟩
  · right
    exact (is_in_range_upper_half min max coord max_dom hin).mpr (not_lt.mp h)


/-- A contained point is in range on each of the three axes. -/
theorem contains_axes (b : Box) (p dmax : Point) (h : b.contains p dmax = true) :
    Box.is_in_range b.min.x b.max.x p.x dmax.x = true ∧
    Box.is_in_range b.min.y b.max.y p.y dmax.y = true ∧
    Box.is_in_range b.min.z b.max.z p.z dmax.z = true := by
  simpa [Box.contains, Point.get_c, and_assoc] using h

theorem OK_child_contains_iff (B : Box) (p dmax : Point) (level : Nat)
    (hB : ∀ i : Fin 3, B.min.get_c i ≤ B.max.get_c i ∧ B.max.get_c i ≤ dmax.get_c i ∧
      ¬ (B.min.get_c i = B.max.get_c i ∧ B.max.get_c i = dmax.get_c i))
    (hin : B.contains p dmax = true) (j : Nat) (hj : j < 8) :
    (OK_Subdivision.compute_domain B level j).contains p dmax = true ↔
      ((j = 0 ∨ j = 1 ∨ j = 4 ∨ j = 5) ↔ B.min.x + (B.max.x - B.min.x) / 2 ≤ p.x) ∧
      ((j = 0 ∨ j = 2 ∨ j = 4 ∨ j = 6) ↔ B.min.y + (B.max.y - B.min.y) / 2 ≤ p.y) ∧
      ((j = 4 ∨ j = 5 ∨ j = 6 ∨ j = 7) ↔ B.min.z + (B.max.z - B.min.z) / 2 ≤ p.z) := by
  obtain ⟨ix, iy, iz⟩ := contains_axes B p dmax hin
  have lx := is_in_range_lower_half _ _ _ _ (hB 0).1 (hB 0).2.1 (hB 0).2.2 ix
  have ly := is_in_range_lower_half _ _ _ _ (hB 1).1 (hB 1).2.1 (hB 1).2.2 iy
  have lz := is_in_range_lower_half _ _ _ _ (hB 2).1 (hB 2).2.1 (hB 2).2.2 iz
  have ux := is_in_range_upper_half _ _ _ _ ix
  have uy := is_in_range_upper_half _ _ _ _ iy
  have uz := is_in_range_upper_half _ _ _ _ iz
  simp only [Point.get_c] at lx ly lz
  interval_cases j <;>
    simp [OK_Subdivision.compute_domain, Box.contains, Point.get_c, lx, ly, lz, ux, uy, uz,
      and_assoc]


theorem OK_children_partition (B : Box) (p dmax : Point) (level : Nat)
    (hB : ∀ i : Fin 3, B.min.get_c i ≤ B.max.get_c i ∧ B.max.get_c i ≤ dmax.get_c i ∧
      ¬ (B.min.get_c i = B.max.get_c i ∧ B.max.get_c i = dmax.get_c i))
    (hin : B.contains p dmax = true) :
    ∃! i, i < OK_Subdivision.son_number ∧
      (OK_Subdivision.compute_domain B level i).contains p dmax = true := by
  have key := OK_child_contains_iff B p dmax level hB hin
  by_cases cx : B.min.x + (B.max.x - B.min.x) / 2 ≤ p.x <;>
  by_cases cy : B.min.y + (B.max.y - B.min.y) / 2 ≤ p.y <;>
  by_cases cz : B.min.z + (B.max.z - B.min.z) / 2 ≤ p.z
  · refine ⟨4, ⟨by decide, (key 4 (by decide)).mpr (by simp [cx, cy, cz])⟩, ?_⟩
    rintro j ⟨hj, hc⟩
    have := (key j hj).mp hc
    simp only [cx, cy, cz, iff_true, iff_false] at this
    have hj' : j < 8 := hj
    omega
  · refine ⟨0, ⟨by decide, (key 0 (by decide)).mpr (by simp [cx, cy, cz])⟩, ?_⟩
    rintro j ⟨hj, hc⟩
    have := (key j hj).mp hc
    simp only [cx, cy, cz, iff_true, iff_false] at this
    have hj' : j < 8 := hj
    omega
  · refine ⟨5, ⟨by decide, (key 5 (by decide)).mpr (by simp [cx, cy, cz])⟩, ?_⟩
    rintro j ⟨hj, hc⟩
    have := (key j hj).mp hc
    simp only [cx, cy, cz, iff_true, iff_false] at this
    have hj' : j < 8 := hj
    omega
  · refine ⟨1, ⟨by decide, (key 1 (by decide)).mpr (by simp [cx, cy, cz])⟩, ?_⟩
    rintro j ⟨hj, hc⟩
    have := (key j hj).mp hc
    simp only [cx, cy, cz, iff_true, iff_false] at this
    have hj' : j < 8 := hj
    omega
  · refine ⟨6, ⟨by decide, (key 6 (by decide)).mpr (by simp [cx, cy, cz])⟩, ?_⟩
    rintro j ⟨hj, hc⟩
    have := (key j hj).mp hc
    simp only [cx, cy, cz, iff_true, iff_false] at this
    have hj' : j < 8 := hj
    omega
  · refine ⟨2, ⟨by decide, (key 2 (by decide)).mpr (by simp [cx, cy, cz])⟩, ?_⟩
    rintro j ⟨hj, hc⟩
    have := (key j hj).mp hc
    simp only [cx, cy, cz, iff_true, iff_false] at this
    have hj' : j < 8 := hj
    omega
  · refine ⟨7, ⟨by decide, (key 7 (by decide)).mpr (by simp [cx, cy, cz])⟩, ?_⟩
    rintro j ⟨hj, hc⟩
    have := (key j hj).mp hc
    simp only [cx, cy, cz, iff_true, iff_false] at this
    have hj' : j < 8 := hj
    omega
  · refine ⟨3, ⟨by decide, (key 3 (by decide)).mpr (by simp [cx, cy, cz])⟩, ?_⟩
    rintro j ⟨hj, hc⟩
    have := (key j hj).mp hc
    simp only [cx, cy, cz, iff_true, iff_false] at this
    have hj' : j < 8 := hj
    omega

theorem coord_to_change_cases (level : Nat) :
    KD_Subdivision.coord_to_change level = 0 ∨ KD_Subdivision.coord_to_change level = 1 ∨
      KD_Subdivision.coord_to_change level = 2 := by
  have h : level % 3 < 3 := Nat.mod_lt _ (by decide)
  unfold KD_Subdivision.coord_to_change
  have : level % 3 = 0 ∨ level % 3 = 1 ∨ level % 3 = 2 := by omega
  rcases this with h' | h' | h'
  · left; exact Fin.ext h'
  · right; left; exact Fin.ext h'
  · right; right; exact Fin.ext h'

theorem KD_child_contains_iff (B : Box) (p dmax : Point) (level : Nat)
    (hB : ∀ i : Fin 3, B.min.get_c i ≤ B.max.get_c i ∧ B.max.get_c i ≤ dmax.get_c i ∧
      ¬ (B.min.get_c i = B.max.get_c i ∧ B.max.get_c i = dmax.get_c i))
    (hin : B.contains p dmax = true) (j : Nat) (hj : j < 2) :
    (KD_Subdivision.compute_domain B level j).contains p dmax = true ↔
      (j = 1 ↔
        B.min.get_c (KD_Subdivision.coord_to_change level) +
          (B.max.get_c (KD_Subdivision.coord_to_change level) -
            B.min.get_c (KD_Subdivision.coord_to_change level)) / 2
          ≤ p.get_c (KD_Subdivision.coord_to_change level)) := by
  obtain ⟨ix, iy, iz⟩ := contains_axes B p dmax hin
  have lx := is_in_range_lower_half _ _ _ _ (hB 0).1 (hB 0).2.1 (hB 0).2.2 ix
  have ly := is_in_range_lower_half _ _ _ _ (hB 1).1 (hB 1).2.1 (hB 1).2.2 iy
  have lz := is_in_range_lower_half _ _ _ _ (hB 2).1 (hB 2).2.1 (hB 2).2.2 iz
  have ux := is_in_range_upper_half _ _ _ _ ix
  have uy := is_in_range_upper_half _ _ _ _ iy
  have uz := is_in_range_upper_half _ _ _ _ iz
  simp only [Point.get_c] at lx ly lz
  rcases coord_to_change_cases level with hc | hc | hc <;>
  interval_cases j <;>
    simp [KD_Subdivision.compute_domain, hc, Box.contains, Point.get_c, Point.set_c,
      lx, ly, lz, ux, uy, uz, ix, iy, iz]

theorem KD_children_partition (B : Box) (p dmax : Point) (level : Nat)
    (hB : ∀ i : Fin 3, B.min.get_c i ≤ B.max.get_c i ∧ B.max.get_c i ≤ dmax.get_c i ∧
      ¬ (B.min.get_c i = B.max.get_c i ∧ B.max.get_c i = dmax.get_c i))
    (hin : B.contains p dmax = true) :
    ∃! i, i < KD_Subdivision.son_number ∧
      (KD_Subdivision.compute_domain B level i).contains p dmax = true := by
  have key := KD_child_contains_iff B p dmax level hB hin
  by_cases c : B.min.get_c (KD_Subdivision.coord_to_change level) +
          (B.max.get_c (KD_Subdivision.coord_to_change level) -
            B.min.get_c (KD_Subdivision.coord_to_change level)) / 2
          ≤ p.get_c (KD_Subdivision.coord_to_change level)
  · refine ⟨1, ⟨by decide, (key 1 (by decide)).mpr (by simp [c])⟩, ?_⟩
    rintro j ⟨hj, hc⟩
    have := (key j hj).mp hc
    simpa [c] using this
  · refine ⟨0, ⟨by decide, (key 0 (by decide)).mpr (by simp [c])⟩, ?_⟩
    rintro j ⟨hj, hc⟩
    have := (key j hj).mp hc
    simp only [c, iff_false] at this
    have hj' : j < 2 := hj
    omega


theorem children_partition (d : Subdivision) (B : Box) (p dmax : Point) (level : Nat)
    (hB : ∀ i : Fin 3, B.min.get_c i ≤ B.max.get_c i ∧ B.max.get_c i ≤ dmax.get_c i ∧
      ¬ (B.min.get_c i = B.max.get_c i ∧ B.max.get_c i = dmax.get_c i))
    (hin : B.contains p dmax = true) :
    ∃! i, i < d.son_number ∧ (d.compute_domain B level i).contains p dmax = true := by
  cases d with
  | OK => exact OK_children_partition B p dmax level hB hin
  | KD => exact KD_children_partition B p dmax level hB hin

/-- C4, as stated, fails on a box flattened onto a maximum face of the domain:
for the domain `[0,1]×[0,1]×[0,0]` itself (so `min ≤ max` and the box lies inside
the domain) the point `(0,0,0)` is contained by the parent, by the octree
children 3 and 7, and by both KD children at level 2. -/
theorem C4_counterexample_flat_box :
    ((0 : ℚ) ≤ 1 ∧ (0 : ℚ) ≤ 0) ∧
      (Box.mk ⟨0, 0, 0⟩ ⟨1, 1, 0⟩).contains ⟨0, 0, 0⟩ ⟨1, 1, 0⟩ = true ∧
      ¬ (∃! i, i < Subdivision.OK.son_number ∧
          (Subdivision.OK.compute_domain (Box.mk ⟨0, 0, 0⟩ ⟨1, 1, 0⟩) 0 i).contains
            ⟨0, 0, 0⟩ ⟨1, 1, 0⟩ = true) ∧
      ¬ (∃! i, i < Subdivision.KD.son_number ∧
          (Subdivision.KD.compute_domain (Box.mk ⟨0, 0, 0⟩ ⟨1, 1, 0⟩) 2 i).contains
            ⟨0, 0, 0⟩ ⟨1, 1, 0⟩ = true) := by
  refine ⟨⟨by norm_num, le_refl _⟩, ?_, ?_, ?_⟩
  · simp [Box.contains, Box.is_in_range, Point.get_c]
  · rintro ⟨i, _, huniq⟩
    have h3 := huniq 3 ⟨by decide, by
      simp [Subdivision.compute_domain, OK_Subdivision.compute_domain, Box.contains,
        Box.is_in_range, Point.get_c]⟩
    have h7 := huniq 7 ⟨by decide, by
      simp [Subdivision.compute_domain, OK_Subdivision.compute_domain, Box.contains,
        Box.is_in_range, Point.get_c]⟩
    omega
  · rintro ⟨i, _, huniq⟩
    have h0 := huniq 0 ⟨by decide, by
      simp [Subdivision.compute_domain, KD_Subdivision.compute_domain,
        KD_Subdivision.coord_to_change, Box.contains, Box.is_in_range, Point.get_c,
        Point.set_c]⟩
    have h1 := huniq 1 ⟨by decide, by
      simp [Subdivision.compute_domain, KD_Subdivision.compute_domain,
        KD_Subdivision.coord_to_change, Box.contains, Box.is_in_range, Point.get_c,
        Point.set_c]⟩
    omega

/-- C4 (amended): for both built-in subdivisions (octree, and KD at any level)
and for every box `B` with `min ≤ max` componentwise lying inside the mesh domain
that is not flattened onto a maximum face of the domain (on no axis
`min_i = max_i = dmax_i`), every point `p` with `B.contains(p, domain_max)` is
contained (same half-open predicate with mesh-max override, exact arithmetic)
by exactly one of the child boxes `compute_domain(B, level, i)`,
`i` in `0..son_number-1`. -/
theorem C4_children_partition_parent (d : Subdivision) (B : Box) (p dmax : Point)
    (level : Nat)
    (hB : ∀ i : Fin 3, B.min.get_c i ≤ B.max.get_c i ∧ B.max.get_c i ≤ dmax.get_c i ∧
      ¬ (B.min.get_c i = B.max.get_c i ∧ B.max.get_c i = dmax.get_c i))
    (hin : B.contains p dmax = true) :
    ∃! i, i < d.son_number ∧ (d.compute_domain B level i).contains p dmax = true :=
  children_partition d B p dmax level hB hin

/-- C4 (amended) at the unit cube and the point `(0, 1, 1)` of its boundary,
for the octree. -/
theorem C4_children_partition_parent_witness :
    (Box.mk ⟨0, 0, 0⟩ ⟨1, 1, 1⟩).contains ⟨0, 1, 1⟩ ⟨1, 1, 1⟩ = true ∧
      ∃! i, i < Subdivision.OK.son_number ∧
        (Subdivision.OK.compute_domain (Box.mk ⟨0, 0, 0⟩ ⟨1, 1, 1⟩) 0 i).contains
          ⟨0, 1, 1⟩ ⟨1, 1, 1⟩ = true :=
  ⟨by simp [Box.contains, Box.is_in_range, Point.get_c],
    C4_children_partition_parent Subdivision.OK (Box.mk ⟨0, 0, 0⟩ ⟨1, 1, 1⟩) ⟨0, 1, 1⟩
      ⟨1, 1, 1⟩ 0
      (by intro i; fin_cases i <;> simp [Point.get_c])
      (by simp [Box.contains, Box.is_in_range, Point.get_c])⟩

/-! ## The build-time inclusion test -/

theorem finRange_three : List.finRange 3 = [0, 1, 2] := by decide

theorem finRange_four : List.finRange 4 = [0, 1, 2, 3] := by decide

/-- The first test of `tetra_in_box_strict`: four vertices on the same side of
the box along one axis give `false`. -/
theorem tetra_in_box_strict_same_side (minF maxF : Point) (c : Fin 4 → Point) (j : Fin 3)
    (h : ((c 0).get_c j ≤ minF.get_c j ∧ (c 1).get_c j ≤ minF.get_c j ∧
          (c 2).get_c j ≤ minF.get_c j ∧ (c 3).get_c j ≤ minF.get_c j) ∨
        ((c 0).get_c j ≥ maxF.get_c j ∧ (c 1).get_c j ≥ maxF.get_c j ∧
          (c 2).get_c j ≥ maxF.get_c j ∧ (c 3).get_c j ≥ maxF.get_c j)) :
    Geometry.tetra_in_box_strict minF maxF c = false := by
  unfold Geometry.tetra_in_box_strict
  rw [if_pos]
  simp only [List.any_eq_true, decide_eq_true_eq]
  exact ⟨j, List.mem_finRange j, h⟩

/-- A vertex contained by the box (half-open test) puts the tetrahedron in the
box at build time. -/
theorem tetra_in_box_build_of_vertex (t_id : Nat) (box : Box) (mesh : Mesh) (v : Fin 4)
    (h : box.contains (mesh.get_vertex ((mesh.get_tetrahedron t_id).TV v)).toPoint
      mesh.domain.max = true) :
    Geometry_Wrapper.tetra_in_box_build t_id box mesh = true := by
  unfold Geometry_Wrapper.tetra_in_box_build
  rw [if_pos]
  simp only [List.any_eq_true]
  exact ⟨v, List.mem_finRange v, h⟩


/-- C7, as stated, fails for a vertex on a maximum face of the box that is not
on the maximum of the mesh domain: in the mesh `faceTouchMesh` (domain
`[0,2]³`), the box `[0,1]³` (octree child 3 of the domain) contains, as a
closed box, the vertex `(1,0,0)` of tetrahedron 1, whose other vertices have
`x = 2`; the build-time test returns `false`. -/
theorem C7_counterexample_vertex_on_max_face :
    OK_Subdivision.compute_domain Examples.faceTouchMesh.domain 0 3
        = Box.mk ⟨0, 0, 0⟩ ⟨1, 1, 1⟩ ∧
      (Box.mk ⟨0, 0, 0⟩ ⟨1, 1, 1⟩).contains_with_all_closed_faces
        (Examples.faceTouchMesh.get_vertex
          ((Examples.faceTouchMesh.get_tetrahedron 1).TV 0)).toPoint = true ∧
      Geometry_Wrapper.tetra_in_box_build 1 (Box.mk ⟨0, 0, 0⟩ ⟨1, 1, 1⟩)
        Examples.faceTouchMesh = false := by
  refine ⟨?_, ?_, ?_⟩
  · simp [OK_Subdivision.compute_domain, Examples.faceTouchMesh]
  · simp [Box.contains_with_all_closed_faces, Box.is_in_range_all_closed, Point.get_c,
      Mesh.get_vertex, Mesh.get_tetrahedron, Tetrahedron.TV, Tetrahedron.mk4,
      Examples.faceTouchMesh]
  · unfold Geometry_Wrapper.tetra_in_box_build
    rw [if_neg]
    · unfold Geometry_Wrapper.tetra_in_box
      apply tetra_in_box_strict_same_side _ _ _ 0
      right
      simp [Point.get_c, Mesh.get_vertex, Mesh.get_tetrahedron, Tetrahedron.TV,
        Tetrahedron.mk4, Examples.faceTouchMesh]
    · simp [finRange_four, Box.contains, Box.is_in_range, Point.get_c, Mesh.get_vertex,
        Mesh.get_tetrahedron, Tetrahedron.TV, Tetrahedron.mk4, Examples.faceTouchMesh]

/-- C7 (amended): for every box `B` and every tetrahedron having at least one
vertex contained by `B` under the half-open test with mesh-max override (a
vertex on a minimum face of `B` included; a vertex on a maximum face only when
that face lies on the maximum of the mesh domain), the build-time inclusion
test `Geometry_Wrapper::tetra_in_box_build(t, B, mesh)` returns true. -/
theorem C7_tetra_in_box_build_vertex_contained (mesh : Mesh) (t_id : Nat) (B : Box)
    (h : ∃ v : Fin 4,
      B.contains (mesh.get_vertex ((mesh.get_tetrahedron t_id).TV v)).toPoint
        mesh.domain.max = true) :
    Geometry_Wrapper.tetra_in_box_build t_id B mesh = true := by
  obtain ⟨v, hv⟩ := h
  exact tetra_in_box_build_of_vertex t_id B mesh v hv

/-- C7 (amended) at octree child 1 of the domain of `faceTouchMesh`, the box
`[1,2]×[0,1]×[0,1]`, whose minimum `x` face holds the vertex `(1,0,0)`. -/
theorem C7_tetra_in_box_build_vertex_contained_witness :
    OK_Subdivision.compute_domain Examples.faceTouchMesh.domain 0 1
        = Box.mk ⟨1, 0, 0⟩ ⟨2, 1, 1⟩ ∧
      Geometry_Wrapper.tetra_in_box_build 1 (Box.mk ⟨1, 0, 0⟩ ⟨2, 1, 1⟩)
        Examples.faceTouchMesh = true :=
  ⟨by simp [OK_Subdivision.compute_domain, Examples.faceTouchMesh],
    C7_tetra_in_box_build_vertex_contained Examples.faceTouchMesh 1
      (Box.mk ⟨1, 0, 0⟩ ⟨2, 1, 1⟩)
      ⟨0, by
        simp [Box.contains, Box.is_in_range, Point.get_c, Mesh.get_vertex,
          Mesh.get_tetrahedron, Tetrahedron.TV, Tetrahedron.mk4, Examples.faceTouchMesh]⟩⟩

/-! ## `RT_Tree::split` -/

theorem reinsert_once_leaf (mesh : Mesh) (domain : Box) (t : Nat) (vs acc : List Nat) :
    RT_Tree.reinsert_tetrahedron_once mesh (Node.leaf vs acc) domain t
      = Node.leaf vs
          (if Geometry_Wrapper.tetra_in_box_build t domain mesh then acc ++ [t] else acc) := by
  unfold RT_Tree.reinsert_tetrahedron_once
  by_cases h : Geometry_Wrapper.tetra_in_box_build t domain mesh = true
  · simp [h, Node.is_leaf, Node.add_tetrahedron]
  · have h' : Geometry_Wrapper.tetra_in_box_build t domain mesh = false := by simpa using h
    simp [h']

/-- Reinserting once the tetrahedra of a list into a leaf appends those that
pass the build-time inclusion test for the box, in order; the node stays a
leaf. -/
theorem reinsert_once_foldl (mesh : Mesh) (domain : Box) (ts : List Nat) (vs acc : List Nat) :
    ts.foldl (fun son t => RT_Tree.reinsert_tetrahedron_once mesh son domain t)
        (Node.leaf vs acc)
      = Node.leaf vs
          (acc ++ ts.filter (fun t => Geometry_Wrapper.tetra_in_box_build t domain mesh)) := by
  induction ts generalizing acc with
  | nil => simp
  | cons t ts ih =>
    rw [List.foldl_cons, reinsert_once_leaf, ih]
    by_cases h : Geometry_Wrapper.tetra_in_box_build t domain mesh = true
    · simp [h, List.filter_cons]
    · have h' : Geometry_Wrapper.tetra_in_box_build t domain mesh = false := by simpa using h
      simp [h', List.filter_cons]

/-- C8: `RT_Tree::split` of a leaf listing `ts` yields an internal node with
`son_number` children, every one of which is a leaf (no child is split,
whatever the threshold and however many tetrahedra it receives); child `j`
lists exactly the tetrahedra of `ts` passing the build-time inclusion test for
its box, in order, so that each tetrahedron of the split leaf is reinserted
into each child at most once. -/
theorem C8_RT_split_children_are_leaves (d : Subdivision) (mesh : Mesh) (ts : List Nat)
    (domain : Box) (level : Nat) :
    ∃ sons : List Node,
      RT_Tree.split d mesh ts domain level = Node.internal sons ∧
      sons.length = d.son_number ∧
      ∀ j, j < d.son_number →
        sons[j]? = some (Node.leaf []
          (ts.filter (fun t =>
            Geometry_Wrapper.tetra_in_box_build t (d.compute_domain domain level j) mesh))) ∧
        ∀ t, (ts.filter (fun t =>
            Geometry_Wrapper.tetra_in_box_build t (d.compute_domain domain level j) mesh)).count t
          ≤ ts.count t := by
  refine ⟨_, rfl, by simp, ?_⟩
  intro j hj
  constructor
  · simp [List.getElem?_map, List.getElem?_range hj, reinsert_once_foldl]
  · intro t
    exact List.Sublist.count_le (List.filter_sublist _) t

/-! ## Trees: generic facts -/

/-- A point contained by a box is contained by at least one of its children
(no assumption on the box). -/
theorem exists_child_contains (d : Subdivision) (B : Box) (p dmax : Point) (level : Nat)
    (hin : B.contains p dmax = true) :
    ∃ i, i < d.son_number ∧ (d.compute_domain B level i).contains p dmax = true := by
  obtain ⟨ix, iy, iz⟩ := contains_axes B p dmax hin
  have hx := is_in_range_some_half _ _ _ _ ix
  have hy := is_in_range_some_half _ _ _ _ iy
  have hz := is_in_range_some_half _ _ _ _ iz
  cases d with
  | OK =>
    rcases hx with hx | hx <;> rcases hy with hy | hy <;> rcases hz with hz | hz
    · exact ⟨3, by decide, by
        simp [Subdivision.compute_domain, OK_Subdivision.compute_domain, Box.contains,
          Point.get_c, hx, hy, hz]⟩
    · exact ⟨7, by decide, by
        simp [Subdivision.compute_domain, OK_Subdivision.compute_domain, Box.contains,
          Point.get_c, hx, hy, hz]⟩
    · exact ⟨2, by decide, by
        simp [Subdivision.compute_domain, OK_Subdivision.compute_domain, Box.contains,
          Point.get_c, hx, hy, hz]⟩
    · exact ⟨6, by decide, by
        simp [Subdivision.compute_domain, OK_Subdivision.compute_domain, Box.contains,
          Point.get_c, hx, hy, hz]⟩
    · exact ⟨1, by decide, by
        simp [Subdivision.compute_domain, OK_Subdivision.compute_domain, Box.contains,
          Point.get_c, hx, hy, hz]⟩
    · exact ⟨5, by decide, by
        simp [Subdivision.compute_domain, OK_Subdivision.compute_domain, Box.contains,
          Point.get_c, hx, hy, hz]⟩
    · exact ⟨0, by decide, by
        simp [Subdivision.compute_domain, OK_Subdivision.compute_domain, Box.contains,
          Point.get_c, hx, hy, hz]⟩
    · exact ⟨4, by decide, by
        simp [Subdivision.compute_domain, OK_Subdivision.compute_domain, Box.contains,
          Point.get_c, hx, hy, hz]⟩
  | KD =>
    rcases coord_to_change_cases level with hc | hc | hc
    · rcases hx with hx | hx
      · exact ⟨0, by decide, by
          simp [Subdivision.compute_domain, KD_Subdivision.compute_domain, hc, Box.contains,
            Point.get_c, Point.set_c, hx, iy, iz]⟩
      · exact ⟨1, by decide, by
          simp [Subdivision.compute_domain, KD_Subdivision.compute_domain, hc, Box.contains,
            Point.get_c, Point.set_c, hx, iy, iz]⟩
    · rcases hy with hy | hy
      · exact ⟨0, by decide, by
          simp [Subdivision.compute_domain, KD_Subdivision.compute_domain, hc, Box.contains,
            Point.get_c, Point.set_c, hy, ix, iz]⟩
      · exact ⟨1, by decide, by
          simp [Subdivision.compute_domain, KD_Subdivision.compute_domain, hc, Box.contains,
            Point.get_c, Point.set_c, hy, ix, iz]⟩
    · rcases hz with hz | hz
      · exact ⟨0, by decide, by
          simp [Subdivision.compute_domain, KD_Subdivision.compute_domain, hc, Box.contains,
            Point.get_c, Point.set_c, hz, ix, iy]⟩
      · exact ⟨1, by decide, by
          simp [Subdivision.compute_domain, KD_Subdivision.compute_domain, hc, Box.contains,
            Point.get_c, Point.set_c, hz, ix, iy]⟩

theorem shapedSons_iff (d : Subdivision) (sons : List Node) (i : Nat) :
    Node.ShapedSons d sons ↔ Node.AllSons (fun _ s => Node.Shaped d s) i sons := by
  induction sons generalizing i with
  | nil => simp [Node.ShapedSons, Node.AllSons]
  | cons s rest ih => simp [Node.ShapedSons, Node.AllSons, ih (i + 1)]

theorem coversSons_iff (d : Subdivision) (dmax p : Point) (t : Nat) (sons : List Node)
    (dom : Box) (level i : Nat) :
    Node.CoversSons d dmax p t sons dom level i ↔
      Node.AllSons (fun k s =>
        Node.Covers d dmax p t s (d.compute_domain dom level k) (level + 1)) i sons := by
  induction sons generalizing i with
  | nil => simp [Node.CoversSons, Node.AllSons]
  | cons s rest ih => simp [Node.CoversSons, Node.AllSons, ih (i + 1)]

theorem forSons_length (f : Nat → Node → Option Node) (i : Nat) (sons sons' : List Node)
    (h : Node.forSons f i sons = some sons') : sons'.length = sons.length := by
  induction sons generalizing i sons' with
  | nil =>
    simp only [Node.forSons, Option.some.injEq] at h
    subst h; rfl
  | cons s rest ih =>
    simp only [Node.forSons] at h
    cases hf : f i s with
    | none => simp [hf] at h
    | some s' =>
      cases hr : Node.forSons f (i + 1) rest with
      | none => simp [hf, hr] at h
      | some rest' =>
        simp only [hf, hr, Option.some.injEq] at h
        subst h
        simp [ih (i + 1) rest' hr]

/-- A property of the sons is carried through a loop over the sons when each
step carries it. -/
theorem forSons_allSons (f : Nat → Node → Option Node) (Q Q' : Nat → Node → Prop)
    (hstep : ∀ k s s', f k s = some s' → Q k s → Q' k s')
    (i : Nat) (sons sons' : List Node) (h : Node.forSons f i sons = some sons')
    (hQ : Node.AllSons Q i sons) : Node.AllSons Q' i sons' := by
  induction sons generalizing i sons' with
  | nil =>
    simp only [Node.forSons, Option.some.injEq] at h
    subst h; trivial
  | cons s rest ih =>
    simp only [Node.forSons] at h
    cases hf : f i s with
    | none => simp [hf] at h
    | some s' =>
      cases hr : Node.forSons f (i + 1) rest with
      | none => simp [hf, hr] at h
      | some rest' =>
        simp only [hf, hr, Option.some.injEq] at h
        subst h
        exact ⟨hstep i s s' hf hQ.1, ih (i + 1) rest' hr hQ.2⟩

theorem allSons_true (i : Nat) (sons : List Node) : Node.AllSons (fun _ _ => True) i sons := by
  induction sons generalizing i with
  | nil => trivial
  | cons s rest ih => exact ⟨trivial, ih (i + 1)⟩

theorem allSons_replicate (Q : Nat → Node → Prop) (s : Node) (k i : Nat)
    (h : ∀ j, Q j s) : Node.AllSons Q i (List.replicate k s) := by
  induction k generalizing i with
  | zero => trivial
  | succ k ih => exact ⟨h i, ih (i + 1)⟩

theorem insertAll_invariant (add : Node → Nat → Option Node) (I : Node → Prop)
    (hstep : ∀ n x n', add n x = some n' → I n → I n')
    (xs : List Nat) (n n' : Node) (h : Node.insertAll add xs n = some n') (hI : I n) : I n' := by
  induction xs generalizing n with
  | nil =>
    simp only [Node.insertAll, Option.some.injEq] at h
    subst h; exact hI
  | cons x xs ih =>
    simp only [Node.insertAll] at h
    cases ha : add n x with
    | none => simp [ha] at h
    | some n1 =>
      simp only [ha] at h
      exact ih n1 h (hstep n x n1 ha hI)

/-- After a loop of insertions, a property established by the insertion of an
id and carried by the later insertions holds for every id of the list. -/
theorem insertAll_established (add : Node → Nat → Option Node) (E : Nat → Node → Prop)
    (hest : ∀ n x n', add n x = some n' → E x n')
    (hpres : ∀ n x n' y, add n x = some n' → E y n → E y n')
    (xs : List Nat) (n n' : Node) (h : Node.insertAll add xs n = some n') :
    ∀ y ∈ xs, E y n' := by
  induction xs generalizing n with
  | nil => intro y hy; simp at hy
  | cons x xs ih =>
    simp only [Node.insertAll] at h
    cases ha : add n x with
    | none => simp [ha] at h
    | some n1 =>
      simp only [ha] at h
      intro y hy
      rcases List.mem_cons.mp hy with rfl | hy'
      · exact insertAll_invariant add (E y) (fun m z m' hm hE => hpres m z m' y hm hE)
          xs n1 n' h (hest n y n1 ha)
      · exact ih n1 h y hy'


mutual
/-- In a well-shaped subtree that `Covers` a point for `t`, a box containing
the point leads to a leaf listing `t`. -/
theorem covers_gives_leaf (d : Subdivision) (dmax p : Point) (t : Nat) :
    ∀ (n : Node) (dom : Box) (level : Nat), Node.Shaped d n →
      Node.Covers d dmax p t n dom level → dom.contains p dmax = true →
      ∃ x ∈ Node.leaves d n dom level, t ∈ x.2.2
  | Node.leaf vs ts, dom, level, _, hc, hin => by
    refine ⟨(dom, vs, ts), ?_, ?_⟩
    · simp [Node.leaves]
    · simp only [Node.Covers] at hc
      exact hc hin
  | Node.internal sons, dom, level, hs, hc, hin => by
    simp only [Node.Covers] at hc
    simp only [Node.Shaped] at hs
    obtain ⟨i, hi, hci⟩ := exists_child_contains d dom p dmax level hin
    have := covers_gives_leaf_sons d dmax p t sons dom level 0 i hs.2 (hc hin)
      (by rw [hs.1]; exact hi) (by simpa using hci)
    simpa [Node.leaves] using this
/-- The same for the sons of a node: the son of index `i0 + k` is reached. -/
theorem covers_gives_leaf_sons (d : Subdivision) (dmax p : Point) (t : Nat) :
    ∀ (sons : List Node) (dom : Box) (level i0 k : Nat), Node.ShapedSons d sons →
      Node.CoversSons d dmax p t sons dom level i0 → k < sons.length →
      (d.compute_domain dom level (i0 + k)).contains p dmax = true →
      ∃ x ∈ Node.leavesOfSons d sons dom level i0, t ∈ x.2.2
  | [], _, _, _, _, _, _, hk, _ => by simp at hk
  | s :: rest, dom, level, i0, 0, hs, hc, _, hin => by
    simp only [Node.ShapedSons] at hs
    simp only [Node.CoversSons] at hc
    obtain ⟨x, hx, ht⟩ := covers_gives_leaf d dmax p t s _ _ hs.1 hc.1 (by simpa using hin)
    exact ⟨x, by simp [Node.leavesOfSons, hx], ht⟩
  | s :: rest, dom, level, i0, k + 1, hs, hc, hk, hin => by
    simp only [Node.ShapedSons] at hs
    simp only [Node.CoversSons] at hc
    obtain ⟨x, hx, ht⟩ := covers_gives_leaf_sons d dmax p t rest dom level (i0 + 1) k hs.2 hc.2
      (by simpa using hk) (by
        have : i0 + 1 + k = i0 + (k + 1) := by omega
        rw [this]; exact hin)
    exact ⟨x, by simp [Node.leavesOfSons, hx], ht⟩
end


theorem covers_of_not_contains (d : Subdivision) (dmax p : Point) (t : Nat) (n : Node)
    (dom : Box) (level : Nat) (h : ¬ dom.contains p dmax = true) :
    Node.Covers d dmax p t n dom level := by
  cases n with
  | leaf vs ts => simp only [Node.Covers]; intro hc; exact absurd hc h
  | internal sons => simp only [Node.Covers]; intro hc; exact absurd hc h

/-- The build-time test fails only for boxes containing no vertex of the
tetrahedron. -/
theorem not_contains_of_test_false (mesh : Mesh) (t : Nat) (dom : Box) (j : Fin 4)
    (h : Geometry_Wrapper.tetra_in_box_build t dom mesh = false) :
    ¬ dom.contains (mesh.tetra_vertex t j) mesh.domain.max = true := by
  intro hc
  rw [tetra_in_box_build_of_vertex t dom mesh j hc] at h
  exact Bool.noConfusion h

/-- Insertion below an internal node: the loop over the sons. -/
theorem cover_internal (d : Subdivision) (mesh : Mesh)
    (add : Node → Box → Nat → Nat → Option Node) (hadd : CoverStep d mesh add)
    (sons sons' : List Node) (dom : Box) (level t' : Nat)
    (h : Node.forSons (fun i s => add s (d.compute_domain dom level i) (level + 1) t') 0 sons
      = some sons') :
    (∀ j, Node.Covers d mesh.domain.max (mesh.tetra_vertex t' j) t' (Node.internal sons')
      dom level) ∧
    (∀ t j, Node.Covers d mesh.domain.max (mesh.tetra_vertex t j) t (Node.internal sons)
        dom level →
      Node.Covers d mesh.domain.max (mesh.tetra_vertex t j) t (Node.internal sons')
        dom level) := by
  constructor
  · intro j
    simp only [Node.Covers]
    intro _
    rw [coversSons_iff]
    exact forSons_allSons
      (fun i s => add s (d.compute_domain dom level i) (level + 1) t') (fun _ _ => True)
      (fun k s => Node.Covers d mesh.domain.max (mesh.tetra_vertex t' j) t' s
        (d.compute_domain dom level k) (level + 1))
      (fun k s s' hk _ => (hadd s (d.compute_domain dom level k) (level + 1) t' s' hk).1 j)
      0 sons sons' h (allSons_true 0 sons)
  · intro t j hc
    simp only [Node.Covers] at hc ⊢
    intro hin
    have := hc hin
    rw [coversSons_iff] at this ⊢
    exact forSons_allSons
      (fun i s => add s (d.compute_domain dom level i) (level + 1) t')
      (fun k s => Node.Covers d mesh.domain.max (mesh.tetra_vertex t j) t s
        (d.compute_domain dom level k) (level + 1))
      (fun k s => Node.Covers d mesh.domain.max (mesh.tetra_vertex t j) t s
        (d.compute_domain dom level k) (level + 1))
      (fun k s s' hk hq =>
        (hadd s (d.compute_domain dom level k) (level + 1) t' s' hk).2 t j hq)
      0 sons sons' h this

/-- After the reinsertion loop of a split, every reinserted tetrahedron is
covered at each of its vertices. -/
theorem cover_reinsert (d : Subdivision) (mesh : Mesh)
    (add : Node → Box → Nat → Nat → Option Node) (hadd : CoverStep d mesh add)
    (ts : List Nat) (dom : Box) (level : Nat) (n0 n' : Node)
    (h : Node.insertAll (fun n t => add n dom level t) ts n0 = some n') :
    ∀ t ∈ ts, ∀ j, Node.Covers d mesh.domain.max (mesh.tetra_vertex t j) t n' dom level :=
  insertAll_established (fun n t => add n dom level t)
    (fun t n => ∀ j, Node.Covers d mesh.domain.max (mesh.tetra_vertex t j) t n dom level)
    (fun n x n1 hx => (hadd n dom level x n1 hx).1)
    (fun n x n1 y hx hy j => (hadd n dom level x n1 hx).2 y j (hy j))
    ts n0 n' h

/-- A split keeps `Covers`: what the leaf covered is covered by the subtree
that replaces it, provided the tetrahedra of the leaf are among those
reinserted. -/
theorem cover_split (d : Subdivision) (mesh : Mesh)
    (add : Node → Box → Nat → Nat → Option Node) (hadd : CoverStep d mesh add)
    (vs ts ts' : List Nat) (hsub : ∀ t ∈ ts, t ∈ ts') (dom : Box) (level : Nat)
    (n0 n' : Node)
    (h : Node.insertAll (fun n t => add n dom level t) ts' n0 = some n') (t : Nat) (j : Fin 4)
    (hc : Node.Covers d mesh.domain.max (mesh.tetra_vertex t j) t (Node.leaf vs ts) dom level) :
    Node.Covers d mesh.domain.max (mesh.tetra_vertex t j) t n' dom level := by
  by_cases hin : dom.contains (mesh.tetra_vertex t j) mesh.domain.max = true
  · simp only [Node.Covers] at hc
    exact cover_reinsert d mesh add hadd ts' dom level n0 n' h t (hsub t (hc hin)) j
  · exact covers_of_not_contains _ _ _ _ _ _ _ hin

theorem covers_leaf_append (d : Subdivision) (dmax p : Point) (t t' : Nat) (vs ts : List Nat)
    (dom : Box) (level : Nat) (h : Node.Covers d dmax p t (Node.leaf vs ts) dom level) :
    Node.Covers d dmax p t (Node.leaf vs (ts ++ [t'])) dom level := by
  simp only [Node.Covers] at h ⊢
  intro hin
  exact List.mem_append_left _ (h hin)

theorem covers_leaf_last (d : Subdivision) (dmax p : Point) (t : Nat) (vs ts : List Nat)
    (dom : Box) (level : Nat) :
    Node.Covers d dmax p t (Node.leaf vs (ts ++ [t])) dom level := by
  simp only [Node.Covers]
  intro _
  simp

/-- `T_Tree::add_tetrahedron` establishes and keeps `Covers`. -/
theorem T_Tree_coverStep (d : Subdivision) (mesh : Mesh) (thr : Nat) :
    ∀ fuel, CoverStep d mesh (T_Tree.add_tetrahedron d mesh thr fuel) := by
  intro fuel
  induction fuel with
  | zero => intro n dom level t' n' h; simp [T_Tree.add_tetrahedron] at h
  | succ fuel ih =>
    intro n dom level t' n' h
    simp only [T_Tree.add_tetrahedron] at h
    by_cases htest : Geometry_Wrapper.tetra_in_box_build t' dom mesh = true
    · simp only [htest, Bool.not_true, Bool.false_eq_true, if_false] at h
      cases n with
      | leaf vs ts =>
        simp only [Node.add_tetrahedron] at h
        by_cases hfull : T_Tree.is_full mesh thr (Node.leaf vs (ts ++ [t'])) = true
        · simp only [hfull, if_true, T_Tree.split] at h
          constructor
          · intro j
            exact cover_reinsert d mesh _ ih (ts ++ [t']) dom level _ n' h t' (by simp) j
          · intro t j hc
            exact cover_split d mesh _ ih vs ts (ts ++ [t'])
              (fun x hx => List.mem_append_left _ hx) dom level _ n' h t j hc
        · have hfull' : T_Tree.is_full mesh thr (Node.leaf vs (ts ++ [t'])) = false := by
            simpa using hfull
          simp only [hfull', Bool.false_eq_true, if_false, Option.some.injEq] at h
          subst h
          exact ⟨fun j => covers_leaf_last _ _ _ _ _ _ _ _,
            fun t j hc => covers_leaf_append _ _ _ _ _ _ _ _ _ hc⟩
      | internal sons =>
        simp only at h
        cases hs : Node.forSons (fun i s =>
            T_Tree.add_tetrahedron d mesh thr fuel s (d.compute_domain dom level i)
              (level + 1) t') 0 sons with
        | none => simp [hs] at h
        | some sons' =>
          simp only [hs, Option.some.injEq] at h
          subst h
          exact cover_internal d mesh _ ih sons sons' dom level t' hs
    · have htest' : Geometry_Wrapper.tetra_in_box_build t' dom mesh = false := by
        simpa using htest
      simp only [htest', Bool.not_false, if_true, Option.some.injEq] at h
      subst h
      exact ⟨fun j => covers_of_not_contains _ _ _ _ _ _ _
        (not_contains_of_test_false mesh t' dom j htest'), fun t j hc => hc⟩


theorem allSons_iff_getElem (Q : Nat → Node → Prop) (i : Nat) (sons : List Node) :
    Node.AllSons Q i sons ↔ ∀ j s, sons[j]? = some s → Q (i + j) s := by
  induction sons generalizing i with
  | nil => simp [Node.AllSons]
  | cons a rest ih =>
    simp only [Node.AllSons, ih (i + 1)]
    constructor
    · rintro ⟨ha, hrest⟩ j s hj
      cases j with
      | zero =>
        simp only [List.getElem?_cons_zero, Option.some.injEq] at hj
        subst hj; simpa using ha
      | succ j =>
        simp only [List.getElem?_cons_succ] at hj
        have := hrest j s hj
        have e : i + 1 + j = i + (j + 1) := by omega
        rwa [e] at this
    · intro h
      refine ⟨by simpa using h 0 a (by simp), fun j s hj => ?_⟩
      have := h (j + 1) s (by simpa using hj)
      have e : i + 1 + j = i + (j + 1) := by omega
      rwa [e]

theorem forFirstSon_length (test : Nat → Bool) (f : Nat → Node → Option Node) (i : Nat)
    (sons sons' : List Node) (h : Node.forFirstSon test f i sons = some sons') :
    sons'.length = sons.length := by
  induction sons generalizing i sons' with
  | nil =>
    simp only [Node.forFirstSon, Option.some.injEq] at h
    subst h; rfl
  | cons s rest ih =>
    simp only [Node.forFirstSon] at h
    by_cases ht : test i = true
    · simp only [ht, if_true] at h
      cases hf : f i s with
      | none => simp [hf] at h
      | some s' =>
        simp only [hf, Option.some.injEq] at h
        subst h; simp
    · have ht' : test i = false := by simpa using ht
      simp only [ht', Bool.false_eq_true, if_false] at h
      cases hr : Node.forFirstSon test f (i + 1) rest with
      | none => simp [hr] at h
      | some rest' =>
        simp only [hr, Option.some.injEq] at h
        subst h
        simp [ih (i + 1) rest' hr]

/-- A property of the sons is kept by a loop that changes the first son
passing a test, when the change keeps it. -/
theorem forFirstSon_allSons (test : Nat → Bool) (f : Nat → Node → Option Node)
    (Q : Nat → Node → Prop)
    (hstep : ∀ k s s', test k = true → f k s = some s' → Q k s → Q k s')
    (i : Nat) (sons sons' : List Node) (h : Node.forFirstSon test f i sons = some sons')
    (hQ : Node.AllSons Q i sons) : Node.AllSons Q i sons' := by
  induction sons generalizing i sons' with
  | nil =>
    simp only [Node.forFirstSon, Option.some.injEq] at h
    subst h; trivial
  | cons s rest ih =>
    simp only [Node.forFirstSon] at h
    by_cases ht : test i = true
    · simp only [ht, if_true] at h
      cases hf : f i s with
      | none => simp [hf] at h
      | some s' =>
        simp only [hf, Option.some.injEq] at h
        subst h
        exact ⟨hstep i s s' ht hf hQ.1, hQ.2⟩
    · have ht' : test i = false := by simpa using ht
      simp only [ht', Bool.false_eq_true, if_false] at h
      cases hr : Node.forFirstSon test f (i + 1) rest with
      | none => simp [hr] at h
      | some rest' =>
        simp only [hr, Option.some.injEq] at h
        subst h
        exact ⟨hQ.1, ih (i + 1) rest' hr hQ.2⟩

theorem shaped_with_new_sons (d : Subdivision) : Node.Shaped d (Node.with_new_sons d) := by
  simp only [Node.with_new_sons, Node.Shaped, List.length_replicate, true_and]
  rw [shapedSons_iff d _ 0]
  exact allSons_replicate _ _ _ _ (fun _ => by simp [Node.Shaped])

theorem shape_internal (d : Subdivision) (f : Nat → Node → Option Node)
    (hf : ∀ k s s', f k s = some s' → Node.Shaped d s → Node.Shaped d s')
    (sons sons' : List Node) (h : Node.forSons f 0 sons = some sons')
    (hs : Node.Shaped d (Node.internal sons)) : Node.Shaped d (Node.internal sons') := by
  simp only [Node.Shaped] at hs ⊢
  refine ⟨by rw [forSons_length f 0 sons sons' h]; exact hs.1, ?_⟩
  rw [shapedSons_iff d _ 0] at hs ⊢
  exact forSons_allSons f _ _ (fun k s s' hk hq => hf k s s' hk hq) 0 sons sons' h hs.2

theorem shape_internal_first (d : Subdivision) (test : Nat → Bool)
    (f : Nat → Node → Option Node)
    (hf : ∀ k s s', f k s = some s' → Node.Shaped d s → Node.Shaped d s')
    (sons sons' : List Node) (h : Node.forFirstSon test f 0 sons = some sons')
    (hs : Node.Shaped d (Node.internal sons)) : Node.Shaped d (Node.internal sons') := by
  simp only [Node.Shaped] at hs ⊢
  refine ⟨by rw [forFirstSon_length test f 0 sons sons' h]; exact hs.1, ?_⟩
  rw [shapedSons_iff d _ 0] at hs ⊢
  exact forFirstSon_allSons test f _ (fun k s s' _ hk hq => hf k s s' hk hq) 0 sons sons' h hs.2

theorem shape_insertAll (d : Subdivision) (add : Node → Box → Nat → Nat → Option Node)
    (hadd : ShapeKeep d add) (xs : List Nat) (dom : Box) (level : Nat) (n n' : Node)
    (h : Node.insertAll (fun m x => add m dom level x) xs n = some n')
    (hs : Node.Shaped d n) : Node.Shaped d n' :=
  insertAll_invariant _ (Node.Shaped d) (fun m x m' hm hI => hadd m dom level x m' hm hI)
    xs n n' h hs

/-- `T_Tree::add_tetrahedron` keeps the tree well shaped. -/
theorem T_Tree_shapeKeep (d : Subdivision) (mesh : Mesh) (thr : Nat) :
    ∀ fuel, ShapeKeep d (T_Tree.add_tetrahedron d mesh thr fuel) := by
  intro fuel
  induction fuel with
  | zero => intro n dom level t' n' h; simp [T_Tree.add_tetrahedron] at h
  | succ fuel ih =>
    intro n dom level t' n' h hs
    simp only [T_Tree.add_tetrahedron] at h
    by_cases htest : Geometry_Wrapper.tetra_in_box_build t' dom mesh = true
    · simp only [htest, Bool.not_true, Bool.false_eq_true, if_false] at h
      cases n with
      | leaf vs ts =>
        simp only [Node.add_tetrahedron] at h
        by_cases hfull : T_Tree.is_full mesh thr (Node.leaf vs (ts ++ [t'])) = true
        · simp only [hfull, if_true, T_Tree.split] at h
          exact shape_insertAll d _ ih _ dom level _ n' h (shaped_with_new_sons d)
        · have hfull' : T_Tree.is_full mesh thr (Node.leaf vs (ts ++ [t'])) = false := by
            simpa using hfull
          simp only [hfull', Bool.false_eq_true, if_false, Option.some.injEq] at h
          subst h
          simp [Node.Shaped]
      | internal sons =>
        simp only at h
        cases hs' : Node.forSons (fun i s =>
            T_Tree.add_tetrahedron d mesh thr fuel s (d.compute_domain dom level i)
              (level + 1) t') 0 sons with
        | none => simp [hs'] at h
        | some sons' =>
          simp only [hs', Option.some.injEq] at h
          subst h
          exact shape_internal d _ (fun k s s' hk hq => ih s _ _ t' s' hk hq) sons sons' hs' hs
    · have htest' : Geometry_Wrapper.tetra_in_box_build t' dom mesh = false := by
        simpa using htest
      simp only [htest', Bool.not_false, if_true, Option.some.injEq] at h
      subst h
      exact hs

/-! ### `RT_Tree` -/

theorem RT_split_sons (d : Subdivision) (mesh : Mesh) (ts : List Nat) (dom : Box)
    (level j : Nat) (s : Node)
    (h : ((List.range d.son_number).map (fun j =>
      ts.foldl (fun son t =>
        RT_Tree.reinsert_tetrahedron_once mesh son (d.compute_domain dom level j) t)
        (Node.leaf [] [])))[j]? = some s) :
    s = Node.leaf [] (ts.filter (fun t =>
      Geometry_Wrapper.tetra_in_box_build t (d.compute_domain dom level j) mesh)) := by
  rw [List.getElem?_map] at h
  by_cases hj : j < d.son_number
  · rw [List.getElem?_range hj] at h
    simp only [Option.map_some', Option.some.injEq, reinsert_once_foldl, List.nil_append] at h
    exact h.symm
  · have : (List.range d.son_number)[j]? = none := by
      apply List.getElem?_eq_none
      simp; omega
    rw [this] at h
    simp at h

theorem RT_split_covers (d : Subdivision) (mesh : Mesh) (ts : List Nat) (dom : Box)
    (level : Nat) (t : Nat) (ht : t ∈ ts) (j : Fin 4) :
    Node.Covers d mesh.domain.max (mesh.tetra_vertex t j) t
      (RT_Tree.split d mesh ts dom level) dom level := by
  simp only [RT_Tree.split, Node.Covers]
  intro _
  rw [coversSons_iff, allSons_iff_getElem]
  intro k s hk
  have := RT_split_sons d mesh ts dom level k s hk
  subst this
  simp only [Node.Covers, zero_add]
  intro hin
  exact List.mem_filter.mpr ⟨ht, tetra_in_box_build_of_vertex t _ mesh j hin⟩

theorem RT_split_shaped (d : Subdivision) (mesh : Mesh) (ts : List Nat) (dom : Box)
    (level : Nat) : Node.Shaped d (RT_Tree.split d mesh ts dom level) := by
  simp only [RT_Tree.split, Node.Shaped, List.length_map, List.length_range, true_and]
  rw [shapedSons_iff d _ 0, allSons_iff_getElem]
  intro k s hk
  have := RT_split_sons d mesh ts dom level k s hk
  subst this
  simp [Node.Shaped]

/-- `RT_Tree::add_tetrahedron` establishes and keeps `Covers`. -/
theorem RT_Tree_coverStep (d : Subdivision) (mesh : Mesh) (thr : Nat) :
    ∀ fuel, CoverStep d mesh (RT_Tree.add_tetrahedron d mesh thr fuel) := by
  intro fuel
  induction fuel with
  | zero => intro n dom level t' n' h; simp [RT_Tree.add_tetrahedron] at h
  | succ fuel ih =>
    intro n dom level t' n' h
    simp only [RT_Tree.add_tetrahedron] at h
    by_cases htest : Geometry_Wrapper.tetra_in_box_build t' dom mesh = true
    · simp only [htest, Bool.not_true, Bool.false_eq_true, if_false] at h
      cases n with
      | leaf vs ts =>
        simp only [Node.add_tetrahedron] at h
        by_cases hfull : RT_Tree.is_full thr (Node.leaf vs (ts ++ [t'])) = true
        · simp only [hfull, if_true, Option.some.injEq] at h
          subst h
          constructor
          · intro j
            exact RT_split_covers d mesh _ dom level t' (by simp) j
          · intro t j hc
            by_cases hin : dom.contains (mesh.tetra_vertex t j) mesh.domain.max = true
            · simp only [Node.Covers] at hc
              exact RT_split_covers d mesh _ dom level t (List.mem_append_left _ (hc hin)) j
            · exact covers_of_not_contains _ _ _ _ _ _ _ hin
        · have hfull' : RT_Tree.is_full thr (Node.leaf vs (ts ++ [t'])) = false := by
            simpa using hfull
          simp only [hfull', Bool.false_eq_true, if_false, Option.some.injEq] at h
          subst h
          exact ⟨fun j => covers_leaf_last _ _ _ _ _ _ _ _,
            fun t j hc => covers_leaf_append _ _ _ _ _ _ _ _ _ hc⟩
      | internal sons =>
        simp only at h
        cases hs : Node.forSons (fun i s =>
            RT_Tree.add_tetrahedron d mesh thr fuel s (d.compute_domain dom level i)
              (level + 1) t') 0 sons with
        | none => simp [hs] at h
        | some sons' =>
          simp only [hs, Option.some.injEq] at h
          subst h
          exact cover_internal d mesh _ ih sons sons' dom level t' hs
    · have htest' : Geometry_Wrapper.tetra_in_box_build t' dom mesh = false := by
        simpa using htest
      simp only [htest', Bool.not_false, if_true, Option.some.injEq] at h
      subst h
      exact ⟨fun j => covers_of_not_contains _ _ _ _ _ _ _
        (not_contains_of_test_false mesh t' dom j htest'), fun t j hc => hc⟩

/-- `RT_Tree::add_tetrahedron` keeps the tree well shaped. -/
theorem RT_Tree_shapeKeep (d : Subdivision) (mesh : Mesh) (thr : Nat) :
    ∀ fuel, ShapeKeep d (RT_Tree.add_tetrahedron d mesh thr fuel) := by
  intro fuel
  induction fuel with
  | zero => intro n dom level t' n' h; simp [RT_Tree.add_tetrahedron] at h
  | succ fuel ih =>
    intro n dom level t' n' h hs
    simp only [RT_Tree.add_tetrahedron] at h
    by_cases htest : Geometry_Wrapper.tetra_in_box_build t' dom mesh = true
    · simp only [htest, Bool.not_true, Bool.false_eq_true, if_false] at h
      cases n with
      | leaf vs ts =>
        simp only [Node.add_tetrahedron] at h
        by_cases hfull : RT_Tree.is_full thr (Node.leaf vs (ts ++ [t'])) = true
        · simp only [hfull, if_true, Option.some.injEq] at h
          subst h
          exact RT_split_shaped d mesh _ dom level
        · have hfull' : RT_Tree.is_full thr (Node.leaf vs (ts ++ [t'])) = false := by
            simpa using hfull
          simp only [hfull', Bool.false_eq_true, if_false, Option.some.injEq] at h
          subst h
          simp [Node.Shaped]
      | internal sons =>
        simp only at h
        cases hs' : Node.forSons (fun i s =>
            RT_Tree.add_tetrahedron d mesh thr fuel s (d.compute_domain dom level i)
              (level + 1) t') 0 sons with
        | none => simp [hs'] at h
        | some sons' =>
          simp only [hs', Option.some.injEq] at h
          subst h
          exact shape_internal d _ (fun k s s' hk hq => ih s _ _ t' s' hk hq) sons sons' hs' hs
    · have htest' : Geometry_Wrapper.tetra_in_box_build t' dom mesh = false := by
        simpa using htest
      simp only [htest', Bool.not_false, if_true, Option.some.injEq] at h
      subst h
      exact hs

/-! ### `P_Tree` -/

/-- `P_Tree::add_tetrahedron` establishes and keeps `Covers`. -/
theorem P_Tree_coverStep (d : Subdivision) (mesh : Mesh) :
    ∀ fuel, CoverStep d mesh (P_Tree.add_tetrahedron d mesh fuel) := by
  intro fuel
  induction fuel with
  | zero => intro n dom level t' n' h; simp [P_Tree.add_tetrahedron] at h
  | succ fuel ih =>
    intro n dom level t' n' h
    simp only [P_Tree.add_tetrahedron] at h
    by_cases htest : Geometry_Wrapper.tetra_in_box_build t' dom mesh = true
    · simp only [htest, Bool.not_true, Bool.false_eq_true, if_false] at h
      cases n with
      | leaf vs ts =>
        simp only [Node.add_tetrahedron, Option.some.injEq] at h
        subst h
        exact ⟨fun j => covers_leaf_last _ _ _ _ _ _ _ _,
          fun t j hc => covers_leaf_append _ _ _ _ _ _ _ _ _ hc⟩
      | internal sons =>
        simp only at h
        cases hs : Node.forSons (fun i s =>
            P_Tree.add_tetrahedron d mesh fuel s (d.compute_domain dom level i)
              (level + 1) t') 0 sons with
        | none => simp [hs] at h
        | some sons' =>
          simp only [hs, Option.some.injEq] at h
          subst h
          exact cover_internal d mesh _ ih sons sons' dom level t' hs
    · have htest' : Geometry_Wrapper.tetra_in_box_build t' dom mesh = false := by
        simpa using htest
      simp only [htest', Bool.not_false, if_true, Option.some.injEq] at h
      subst h
      exact ⟨fun j => covers_of_not_contains _ _ _ _ _ _ _
        (not_contains_of_test_false mesh t' dom j htest'), fun t j hc => hc⟩

/-- `P_Tree::add_tetrahedron` keeps the tree well shaped. -/
theorem P_Tree_shapeKeep_tetra (d : Subdivision) (mesh : Mesh) :
    ∀ fuel, ShapeKeep d (P_Tree.add_tetrahedron d mesh fuel) := by
  intro fuel
  induction fuel with
  | zero => intro n dom level t' n' h; simp [P_Tree.add_tetrahedron] at h
  | succ fuel ih =>
    intro n dom level t' n' h hs
    simp only [P_Tree.add_tetrahedron] at h
    by_cases htest : Geometry_Wrapper.tetra_in_box_build t' dom mesh = true
    · simp only [htest, Bool.not_true, Bool.false_eq_true, if_false] at h
      cases n with
      | leaf vs ts =>
        simp only [Node.add_tetrahedron, Option.some.injEq] at h
        subst h
        simp [Node.Shaped]
      | internal sons =>
        simp only at h
        cases hs' : Node.forSons (fun i s =>
            P_Tree.add_tetrahedron d mesh fuel s (d.compute_domain dom level i)
              (level + 1) t') 0 sons with
        | none => simp [hs'] at h
        | some sons' =>
          simp only [hs', Option.some.injEq] at h
          subst h
          exact shape_internal d _ (fun k s s' hk hq => ih s _ _ t' s' hk hq) sons sons' hs' hs
    · have htest' : Geometry_Wrapper.tetra_in_box_build t' dom mesh = false := by
        simpa using htest
      simp only [htest', Bool.not_false, if_true, Option.some.injEq] at h
      subst h
      exact hs

theorem cover_keep_internal_first (d : Subdivision) (mesh : Mesh)
    (add : Node → Box → Nat → Nat → Option Node) (hadd : CoverKeep d mesh add)
    (test : Nat → Bool) (sons sons' : List Node) (dom : Box) (level v : Nat)
    (h : Node.forFirstSon test
      (fun i s => add s (d.compute_domain dom level i) (level + 1) v) 0 sons = some sons')
    (t : Nat) (j : Fin 4)
    (hc : Node.Covers d mesh.domain.max (mesh.tetra_vertex t j) t (Node.internal sons)
      dom level) :
    Node.Covers d mesh.domain.max (mesh.tetra_vertex t j) t (Node.internal sons') dom level := by
  simp only [Node.Covers] at hc ⊢
  intro hin
  have := hc hin
  rw [coversSons_iff] at this ⊢
  exact forFirstSon_allSons test
    (fun i s => add s (d.compute_domain dom level i) (level + 1) v)
    (fun k s => Node.Covers d mesh.domain.max (mesh.tetra_vertex t j) t s
      (d.compute_domain dom level k) (level + 1))
    (fun k s s' _ hk hq => hadd s (d.compute_domain dom level k) (level + 1) v s' hk t j hq)
    0 sons sons' h this

theorem P_split_phases (d : Subdivision) (addV addT : Node → Box → Nat → Nat → Option Node)
    (vs ts : List Nat) (dom : Box) (level : Nat) (n' : Node)
    (h : P_Tree.split d addV addT vs ts dom level = some n') :
    ∃ n1, Node.insertAll (fun n v => addV n dom level v) vs (Node.with_new_sons d) = some n1 ∧
      Node.insertAll (fun n t => addT n dom level t) ts n1 = some n' := by
  simp only [P_Tree.split] at h
  cases h1 : Node.insertAll (fun n v => addV n dom level v) vs (Node.with_new_sons d) with
  | none => simp [h1] at h
  | some n1 => exact ⟨n1, rfl, by simpa [h1] using h⟩

theorem PT_split_phases (d : Subdivision) (addV addT : Node → Box → Nat → Nat → Option Node)
    (vs ts : List Nat) (dom : Box) (level : Nat) (n' : Node)
    (h : PT_Tree.split d addV addT vs ts dom level = some n') :
    ∃ n1, Node.insertAll (fun n v => addV n dom level v) vs (Node.with_new_sons d) = some n1 ∧
      Node.insertAll (fun n t => addT n dom level t) ts n1 = some n' := by
  simp only [PT_Tree.split] at h
  cases h1 : Node.insertAll (fun n v => addV n dom level v) vs (Node.with_new_sons d) with
  | none => simp [h1] at h
  | some n1 => exact ⟨n1, rfl, by simpa [h1] using h⟩

theorem covers_leaf_vertices (d : Subdivision) (dmax p : Point) (t : Nat)
    (vs vs' ts : List Nat) (dom : Box) (level : Nat)
    (h : Node.Covers d dmax p t (Node.leaf vs ts) dom level) :
    Node.Covers d dmax p t (Node.leaf vs' ts) dom level := by
  simpa only [Node.Covers] using h

/-- `P_Tree::add_vertex` keeps `Covers`. -/
theorem P_Tree_coverKeep (d : Subdivision) (mesh : Mesh) (thr : Nat) :
    ∀ fuel, CoverKeep d mesh (P_Tree.add_vertex d mesh thr fuel) := by
  intro fuel
  induction fuel with
  | zero => intro n dom level v n' h; simp [P_Tree.add_vertex] at h
  | succ fuel ih =>
    intro n dom level v n' h t j hc
    simp only [P_Tree.add_vertex] at h
    cases n with
    | leaf vs ts =>
      simp only [Node.add_vertex] at h
      by_cases hfull : P_Tree.is_full thr (Node.leaf (vs ++ [v]) ts) = true
      · simp only [hfull, if_true] at h
        obtain ⟨n1, _, h2⟩ := P_split_phases d _ _ _ _ dom level n' h
        exact cover_split d mesh _ (P_Tree_coverStep d mesh fuel) vs ts ts (fun x hx => hx)
          dom level n1 n' h2 t j hc
      · have hfull' : P_Tree.is_full thr (Node.leaf (vs ++ [v]) ts) = false := by
          simpa using hfull
        simp only [hfull', Bool.false_eq_true, if_false, Option.some.injEq] at h
        subst h
        exact covers_leaf_vertices _ _ _ _ _ _ _ _ _ hc
    | internal sons =>
      simp only at h
      cases hs : Node.forFirstSon
          (fun i => (d.compute_domain dom level i).contains
            (mesh.get_vertex v).toPoint mesh.domain.max)
          (fun i s =>
            P_Tree.add_vertex d mesh thr fuel s (d.compute_domain dom level i) (level + 1) v)
          0 sons with
      | none => simp [hs] at h
      | some sons' =>
        simp only [hs, Option.some.injEq] at h
        subst h
        exact cover_keep_internal_first d mesh _ ih _ sons sons' dom level v hs t j hc

/-- `P_Tree::add_vertex` keeps the tree well shaped. -/
theorem P_Tree_shapeKeep_vertex (d : Subdivision) (mesh : Mesh) (thr : Nat) :
    ∀ fuel, ShapeKeep d (P_Tree.add_vertex d mesh thr fuel) := by
  intro fuel
  induction fuel with
  | zero => intro n dom level v n' h; simp [P_Tree.add_vertex] at h
  | succ fuel ih =>
    intro n dom level v n' h hs
    simp only [P_Tree.add_vertex] at h
    cases n with
    | leaf vs ts =>
      simp only [Node.add_vertex] at h
      by_cases hfull : P_Tree.is_full thr (Node.leaf (vs ++ [v]) ts) = true
      · simp only [hfull, if_true] at h
        obtain ⟨n1, h1, h2⟩ := P_split_phases d _ _ _ _ dom level n' h
        exact shape_insertAll d _ (P_Tree_shapeKeep_tetra d mesh fuel) _ dom level n1 n' h2
          (shape_insertAll d _ ih _ dom level _ n1 h1 (shaped_with_new_sons d))
      · have hfull' : P_Tree.is_full thr (Node.leaf (vs ++ [v]) ts) = false := by
          simpa using hfull
        simp only [hfull', Bool.false_eq_true, if_false, Option.some.injEq] at h
        subst h
        simp [Node.Shaped]
    | internal sons =>
      simp only at h
      cases hs' : Node.forFirstSon
          (fun i => (d.compute_domain dom level i).contains
            (mesh.get_vertex v).toPoint mesh.domain.max)
          (fun i s =>
            P_Tree.add_vertex d mesh thr fuel s (d.compute_domain dom level i) (level + 1) v)
          0 sons with
      | none => simp [hs'] at h
      | some sons' =>
        simp only [hs', Option.some.injEq] at h
        subst h
        exact shape_internal_first d _ _ (fun k s s' hk hq => ih s _ _ v s' hk hq)
          sons sons' hs' hs

/-! ### `PT_Tree` -/

/-- `PT_Tree::add_vertex` keeps `Covers`, and `PT_Tree::add_tetrahedron`
establishes and keeps it. -/
theorem PT_Tree_cover (d : Subdivision) (mesh : Mesh) (thrV thrT : Nat) :
    ∀ fuel, CoverKeep d mesh (PT_Tree.add_vertex d mesh thrV thrT fuel) ∧
      CoverStep d mesh (PT_Tree.add_tetrahedron d mesh thrV thrT fuel) := by
  intro fuel
  induction fuel with
  | zero =>
    constructor
    · intro n dom level v n' h; simp [PT_Tree.add_vertex] at h
    · intro n dom level v n' h; simp [PT_Tree.add_tetrahedron] at h
  | succ fuel ih =>
    obtain ⟨ihV, ihT⟩ := ih
    constructor
    · intro n dom level v n' h t j hc
      simp only [PT_Tree.add_vertex] at h
      cases n with
      | leaf vs ts =>
        simp only [Node.add_vertex] at h
        by_cases hfull : PT_Tree.is_full_vertex thrV (Node.leaf (vs ++ [v]) ts) = true
        · simp only [hfull, if_true] at h
          obtain ⟨n1, _, h2⟩ := PT_split_phases d _ _ _ _ dom level n' h
          exact cover_split d mesh _ ihT vs ts ts (fun x hx => hx) dom level n1 n' h2 t j hc
        · have hfull' : PT_Tree.is_full_vertex thrV (Node.leaf (vs ++ [v]) ts) = false := by
            simpa using hfull
          simp only [hfull', Bool.false_eq_true, if_false, Option.some.injEq] at h
          subst h
          exact covers_leaf_vertices _ _ _ _ _ _ _ _ _ hc
      | internal sons =>
        simp only at h
        cases hs : Node.forFirstSon
            (fun i => (d.compute_domain dom level i).contains
              (mesh.get_vertex v).toPoint mesh.domain.max)
            (fun i s =>
              PT_Tree.add_vertex d mesh thrV thrT fuel s (d.compute_domain dom level i)
                (level + 1) v)
            0 sons with
        | none => simp [hs] at h
        | some sons' =>
          simp only [hs, Option.some.injEq] at h
          subst h
          exact cover_keep_internal_first d mesh _ ihV _ sons sons' dom level v hs t j hc
    · intro n dom level t' n' h
      simp only [PT_Tree.add_tetrahedron] at h
      by_cases htest : Geometry_Wrapper.tetra_in_box_build t' dom mesh = true
      · simp only [htest, Bool.not_true, Bool.false_eq_true, if_false] at h
        cases n with
        | leaf vs ts =>
          simp only [Node.add_tetrahedron] at h
          by_cases hfull :
              PT_Tree.is_full_tetrahedra mesh thrT (Node.leaf vs (ts ++ [t'])) = true
          · simp only [hfull, if_true] at h
            obtain ⟨n1, _, h2⟩ := PT_split_phases d _ _ _ _ dom level n' h
            constructor
            · intro j
              exact cover_reinsert d mesh _ ihT (ts ++ [t']) dom level n1 n' h2 t' (by simp) j
            · intro t j hc
              exact cover_split d mesh _ ihT vs ts (ts ++ [t'])
                (fun x hx => List.mem_append_left _ hx) dom level n1 n' h2 t j hc
          · have hfull' :
                PT_Tree.is_full_tetrahedra mesh thrT (Node.leaf vs (ts ++ [t'])) = false := by
              simpa using hfull
            simp only [hfull', Bool.false_eq_true, if_false, Option.some.injEq] at h
            subst h
            exact ⟨fun j => covers_leaf_last _ _ _ _ _ _ _ _,
              fun t j hc => covers_leaf_append _ _ _ _ _ _ _ _ _ hc⟩
        | internal sons =>
          simp only at h
          cases hs : Node.forSons (fun i s =>
              PT_Tree.add_tetrahedron d mesh thrV thrT fuel s (d.compute_domain dom level i)
                (level + 1) t') 0 sons with
          | none => simp [hs] at h
          | some sons' =>
            simp only [hs, Option.some.injEq] at h
            subst h
            exact cover_internal d mesh _ ihT sons sons' dom level t' hs
      · have htest' : Geometry_Wrapper.tetra_in_box_build t' dom mesh = false := by
          simpa using htest
        simp only [htest', Bool.not_false, if_true, Option.some.injEq] at h
        subst h
        exact ⟨fun j => covers_of_not_contains _ _ _ _ _ _ _
          (not_contains_of_test_false mesh t' dom j htest'), fun t j hc => hc⟩

/-- Both insertion procedures of `PT_Tree` keep the tree well shaped. -/
theorem PT_Tree_shapeKeep (d : Subdivision) (mesh : Mesh) (thrV thrT : Nat) :
    ∀ fuel, ShapeKeep d (PT_Tree.add_vertex d mesh thrV thrT fuel) ∧
      ShapeKeep d (PT_Tree.add_tetrahedron d mesh thrV thrT fuel) := by
  intro fuel
  induction fuel with
  | zero =>
    constructor
    · intro n dom level v n' h; simp [PT_Tree.add_vertex] at h
    · intro n dom level v n' h; simp [PT_Tree.add_tetrahedron] at h
  | succ fuel ih =>
    obtain ⟨ihV, ihT⟩ := ih
    constructor
    · intro n dom level v n' h hs
      simp only [PT_Tree.add_vertex] at h
      cases n with
      | leaf vs ts =>
        simp only [Node.add_vertex] at h
        by_cases hfull : PT_Tree.is_full_vertex thrV (Node.leaf (vs ++ [v]) ts) = true
        · simp only [hfull, if_true] at h
          obtain ⟨n1, h1, h2⟩ := PT_split_phases d _ _ _ _ dom level n' h
          exact shape_insertAll d _ ihT _ dom level n1 n' h2
            (shape_insertAll d _ ihV _ dom level _ n1 h1 (shaped_with_new_sons d))
        · have hfull' : PT_Tree.is_full_vertex thrV (Node.leaf (vs ++ [v]) ts) = false := by
            simpa using hfull
          simp only [hfull', Bool.false_eq_true, if_false, Option.some.injEq] at h
          subst h
          simp [Node.Shaped]
      | internal sons =>
        simp only at h
        cases hs' : Node.forFirstSon
            (fun i => (d.compute_domain dom level i).contains
              (mesh.get_vertex v).toPoint mesh.domain.max)
            (fun i s =>
              PT_Tree.add_vertex d mesh thrV thrT fuel s (d.compute_domain dom level i)
                (level + 1) v)
            0 sons with
        | none => simp [hs'] at h
        | some sons' =>
          simp only [hs', Option.some.injEq] at h
          subst h
          exact shape_internal_first d _ _ (fun k s s' hk hq => ihV s _ _ v s' hk hq)
            sons sons' hs' hs
    · intro n dom level t' n' h hs
      simp only [PT_Tree.add_tetrahedron] at h
      by_cases htest : Geometry_Wrapper.tetra_in_box_build t' dom mesh = true
      · simp only [htest, Bool.not_true, Bool.false_eq_true, if_false] at h
        cases n with
        | leaf vs ts =>
          simp only [Node.add_tetrahedron] at h
          by_cases hfull :
              PT_Tree.is_full_tetrahedra mesh thrT (Node.leaf vs (ts ++ [t'])) = true
          · simp only [hfull, if_true] at h
            obtain ⟨n1, h1, h2⟩ := PT_split_phases d _ _ _ _ dom level n' h
            exact shape_insertAll d _ ihT _ dom level n1 n' h2
              (shape_insertAll d _ ihV _ dom level _ n1 h1 (shaped_with_new_sons d))
          · have hfull' :
                PT_Tree.is_full_tetrahedra mesh thrT (Node.leaf vs (ts ++ [t'])) = false := by
              simpa using hfull
            simp only [hfull', Bool.false_eq_true, if_false, Option.some.injEq] at h
            subst h
            simp [Node.Shaped]
        | internal sons =>
          simp only at h
          cases hs' : Node.forSons (fun i s =>
              PT_Tree.add_tetrahedron d mesh thrV thrT fuel s (d.compute_domain dom level i)
                (level + 1) t') 0 sons with
          | none => simp [hs'] at h
          | some sons' =>
            simp only [hs', Option.some.injEq] at h
            subst h
            exact shape_internal d _ (fun k s s' hk hq => ihT s _ _ t' s' hk hq)
              sons sons' hs' hs
      · have htest' : Geometry_Wrapper.tetra_in_box_build t' dom mesh = false := by
          simpa using htest
        simp only [htest', Bool.not_false, if_true, Option.some.injEq] at h
        subst h
        exact hs

/-! ### Every tetrahedron is listed in a leaf -/

theorem contains_own_max (b : Box) (p : Point) :
    b.contains p b.max = b.contains_with_all_closed_faces p := by
  have h : ∀ lo hi c : ℚ, Box.is_in_range lo hi c hi = Box.is_in_range_all_closed lo hi c := by
    intro lo hi c
    unfold Box.is_in_range Box.is_in_range_all_closed
    by_cases h1 : hi < c <;> by_cases h2 : lo > c <;> simp [h1, h2]
  simp [Box.contains, Box.contains_with_all_closed_faces, h]

/-- In a well-formed mesh the domain contains every vertex of every
tetrahedron. -/
theorem domain_contains_tetra_vertex (mesh : Mesh) (hwf : mesh.wellFormed) (t : Nat)
    (h1 : 1 ≤ t) (h2 : t ≤ mesh.get_num_tetrahedra) (j : Fin 4) :
    mesh.domain.contains (mesh.tetra_vertex t j) mesh.domain.max = true := by
  obtain ⟨hidx, hdom⟩ := hwf
  have ht : t - 1 < mesh.tetrahedra.length := by
    simp only [Mesh.get_num_tetrahedra] at h2; omega
  have htet : mesh.get_tetrahedron t = mesh.tetrahedra[t - 1] := by
    simp [Mesh.get_tetrahedron, List.getD_eq_getElem?_getD, List.getElem?_eq_getElem ht]
  have hmem : mesh.get_tetrahedron t ∈ mesh.tetrahedra := by
    rw [htet]; exact List.getElem_mem ht
  obtain ⟨hv1, hv2⟩ := hidx _ hmem j
  have hv : (mesh.get_tetrahedron t).TV j - 1 < mesh.vertices.length := by
    simp only [Mesh.get_num_vertices] at hv2; omega
  have hvtx : mesh.get_vertex ((mesh.get_tetrahedron t).TV j)
      = mesh.vertices[(mesh.get_tetrahedron t).TV j - 1] := by
    simp [Mesh.get_vertex, List.getD_eq_getElem?_getD, List.getElem?_eq_getElem hv]
  rw [contains_own_max, Mesh.tetra_vertex, hvtx]
  exact hdom _ (List.getElem_mem hv)

/-- The loop of `build_tree` over the tetrahedra leaves every tetrahedron
listed in a leaf. -/
theorem build_lists_all (d : Subdivision) (mesh : Mesh) (hwf : mesh.wellFormed)
    (add : Node → Box → Nat → Nat → Option Node) (hcov : CoverStep d mesh add)
    (hshape : ShapeKeep d add) (root0 root : Node) (hs0 : Node.Shaped d root0)
    (h : Node.insertAll (fun n i => add n mesh.domain 0 i)
      (List.range' 1 mesh.get_num_tetrahedra) root0 = some root) :
    Node.listsAllTetrahedra d mesh root := by
  intro t h1 h2
  have hs : Node.Shaped d root := shape_insertAll d add hshape _ mesh.domain 0 root0 root h hs0
  have hc := cover_reinsert d mesh add hcov _ mesh.domain 0 root0 root h t
    (List.mem_range'_1.mpr ⟨h1, by omega⟩) 0
  exact covers_gives_leaf d _ _ t root mesh.domain 0 hs hc
    (domain_contains_tetra_vertex mesh hwf t h1 h2 0)

/-- C5: for each of the four builders (P_Tree, PT_Tree, T_Tree, RT_Tree), both
subdivisions, every threshold and every mesh whose vertex indices are in range
and whose domain encloses all vertices, whenever `build_tree` terminates
(returns a tree for the given fuel) every tetrahedron id `1..|T|` is listed in
at least one leaf of the resulting tree. -/
theorem C5_every_tetrahedron_listed (d : Subdivision) (mesh : Mesh)
    (hwf : mesh.wellFormed) (kv kt fuel : Nat) :
    (∀ tree, P_Tree.build_tree d mesh kv fuel = some tree →
      Node.listsAllTetrahedra d mesh tree) ∧
    (∀ tree, PT_Tree.build_tree d mesh kv kt fuel = some tree →
      Node.listsAllTetrahedra d mesh tree) ∧
    (∀ tree, T_Tree.build_tree d mesh kt fuel = some tree →
      Node.listsAllTetrahedra d mesh tree) ∧
    (∀ tree, RT_Tree.build_tree d mesh kt fuel = some tree →
      Node.listsAllTetrahedra d mesh tree) := by
  have hleaf : Node.Shaped d (Node.leaf [] []) := by simp [Node.Shaped]
  refine ⟨?_, ?_, ?_, ?_⟩
  · intro tree h
    simp only [P_Tree.build_tree] at h
    cases h1 : Node.insertAll
        (fun n i => P_Tree.add_vertex d mesh kv fuel n mesh.domain 0 i)
        (List.range' 1 mesh.get_num_vertices) (Node.leaf [] []) with
    | none => simp [h1] at h
    | some root =>
      simp only [h1] at h
      exact build_lists_all d mesh hwf _ (P_Tree_coverStep d mesh fuel)
        (P_Tree_shapeKeep_tetra d mesh fuel) root tree
        (shape_insertAll d _ (P_Tree_shapeKeep_vertex d mesh kv fuel) _ mesh.domain 0 _ root
          h1 hleaf) h
  · intro tree h
    simp only [PT_Tree.build_tree] at h
    cases h1 : Node.insertAll
        (fun n i => PT_Tree.add_vertex d mesh kv kt fuel n mesh.domain 0 i)
        (List.range' 1 mesh.get_num_vertices) (Node.leaf [] []) with
    | none => simp [h1] at h
    | some root =>
      simp only [h1] at h
      exact build_lists_all d mesh hwf _ (PT_Tree_cover d mesh kv kt fuel).2
        (PT_Tree_shapeKeep d mesh kv kt fuel).2 root tree
        (shape_insertAll d _ (PT_Tree_shapeKeep d mesh kv kt fuel).1 _ mesh.domain 0 _ root
          h1 hleaf) h
  · intro tree h
    exact build_lists_all d mesh hwf _ (T_Tree_coverStep d mesh kt fuel)
      (T_Tree_shapeKeep d mesh kt fuel) _ tree hleaf h
  · intro tree h
    exact build_lists_all d mesh hwf _ (RT_Tree_coverStep d mesh kt fuel)
      (RT_Tree_shapeKeep d mesh kt fuel) _ tree hleaf h

theorem cubeMesh_wellFormed : Examples.cubeMesh.wellFormed := by
  unfold Mesh.wellFormed
  constructor
  · decide
  · decide!

/-- C5 on the cube mesh with the octree, `kv = 4`, and `kt = 5` (`kt = 11` for
RT_Tree): the four builders terminate with fuel 20 and every tetrahedron is
listed in a leaf. -/
theorem C5_every_tetrahedron_listed_witness :
    (∃ tree, P_Tree.build_tree Subdivision.OK Examples.cubeMesh 4 20 = some tree ∧
      Node.listsAllTetrahedra Subdivision.OK Examples.cubeMesh tree) ∧
    (∃ tree, PT_Tree.build_tree Subdivision.OK Examples.cubeMesh 4 5 20 = some tree ∧
      Node.listsAllTetrahedra Subdivision.OK Examples.cubeMesh tree) ∧
    (∃ tree, T_Tree.build_tree Subdivision.OK Examples.cubeMesh 5 20 = some tree ∧
      Node.listsAllTetrahedra Subdivision.OK Examples.cubeMesh tree) ∧
    (∃ tree, RT_Tree.build_tree Subdivision.OK Examples.cubeMesh 11 20 = some tree ∧
      Node.listsAllTetrahedra Subdivision.OK Examples.cubeMesh tree) := by
  have key := C5_every_tetrahedron_listed Subdivision.OK Examples.cubeMesh
    cubeMesh_wellFormed 4 5 20
  refine ⟨?_, ?_, ?_, ?_⟩
  · obtain ⟨tree, h⟩ := Option.isSome_iff_exists.mp
      (by decide! : (P_Tree.build_tree Subdivision.OK Examples.cubeMesh 4 20).isSome = true)
    exact ⟨tree, h, key.1 tree h⟩
  · obtain ⟨tree, h⟩ := Option.isSome_iff_exists.mp
      (by decide! : (PT_Tree.build_tree Subdivision.OK Examples.cubeMesh 4 5 20).isSome = true)
    exact ⟨tree, h, key.2.1 tree h⟩
  · obtain ⟨tree, h⟩ := Option.isSome_iff_exists.mp
      (by decide! : (T_Tree.build_tree Subdivision.OK Examples.cubeMesh 5 20).isSome = true)
    exact ⟨tree, h, key.2.2.1 tree h⟩
  · obtain ⟨tree, h⟩ := Option.isSome_iff_exists.mp
      (by decide! : (RT_Tree.build_tree Subdivision.OK Examples.cubeMesh 11 20).isSome = true)
    exact ⟨tree, h,
      (C5_every_tetrahedron_listed Subdivision.OK Examples.cubeMesh cubeMesh_wellFormed
        4 11 20).2.2.2 tree h⟩

/-! ## `P_Tree`: the vertices in the leaves -/

theorem leavesOfSons_append (d : Subdivision) (pre : List Node) (s : Node) (post : List Node)
    (dom : Box) (level i : Nat) :
    Node.leavesOfSons d (pre ++ s :: post) dom level i =
      Node.leavesOfSons d pre dom level i ++
        (Node.leaves d s (d.compute_domain dom level (i + pre.length)) (level + 1) ++
          Node.leavesOfSons d post dom level (i + pre.length + 1)) := by
  induction pre generalizing i with
  | nil => simp [Node.leavesOfSons]
  | cons a pre ih =>
    have e1 : i + 1 + pre.length = i + (pre.length + 1) := by omega
    have := ih (i + 1)
    rw [e1] at this
    rw [List.cons_append, Node.leavesOfSons, this]
    simp [Node.leavesOfSons]

/-- The loop that changes the first son passing the test either changes one
son, at a position passing the test, or changes nothing because no son passes
the test. -/
theorem forFirstSon_spec (test : Nat → Bool) (f : Nat → Node → Option Node) (i : Nat)
    (sons sons' : List Node) (h : Node.forFirstSon test f i sons = some sons') :
    (∃ pre s s' post, sons = pre ++ s :: post ∧ sons' = pre ++ s' :: post ∧
        test (i + pre.length) = true ∧ f (i + pre.length) s = some s') ∨
      (sons' = sons ∧ ∀ k, k < sons.length → test (i + k) = false) := by
  induction sons generalizing i sons' with
  | nil =>
    simp only [Node.forFirstSon, Option.some.injEq] at h
    subst h
    right
    exact ⟨rfl, fun k hk => by simp at hk⟩
  | cons s rest ih =>
    simp only [Node.forFirstSon] at h
    by_cases ht : test i = true
    · simp only [ht, if_true] at h
      cases hf : f i s with
      | none => simp [hf] at h
      | some s' =>
        simp only [hf, Option.some.injEq] at h
        subst h
        left
        exact ⟨[], s, s', rest, rfl, rfl, by simpa using ht, by simpa using hf⟩
    · have ht' : test i = false := by simpa using ht
      simp only [ht', Bool.false_eq_true, if_false] at h
      cases hr : Node.forFirstSon test f (i + 1) rest with
      | none => simp [hr] at h
      | some rest' =>
        simp only [hr, Option.some.injEq] at h
        subst h
        rcases ih (i + 1) rest' hr with ⟨pre, a, a', post, h1, h2, h3, h4⟩ | ⟨h1, h2⟩
        · left
          refine ⟨s :: pre, a, a', post, by simp [h1], by simp [h2], ?_, ?_⟩
          · have e : i + (s :: pre).length = i + 1 + pre.length := by simp; omega
            rw [e]; exact h3
          · have e : i + (s :: pre).length = i + 1 + pre.length := by simp; omega
            rw [e]; exact h4
        · right
          refine ⟨by rw [h1], fun k hk => ?_⟩
          cases k with
          | zero => simpa using ht'
          | succ k =>
            have := h2 k (by simpa using hk)
            have e : i + (k + 1) = i + 1 + k := by omega
            rw [e]; exact this

theorem vertexLeaves_leaf (d : Subdivision) (vs ts : List Nat) (dom : Box) (level : Nat) :
    Node.vertexLeaves d (Node.leaf vs ts) dom level = [(dom, vs)] := by
  simp [Node.vertexLeaves, Node.leaves]

/-- A loop over the sons whose steps keep the vertex arrays of the leaves
keeps them below the node. -/
theorem forSons_vertexLeaves (d : Subdivision) (f : Nat → Node → Option Node) (dom : Box)
    (level : Nat)
    (hstep : ∀ k s s', f k s = some s' →
      Node.vertexLeaves d s' (d.compute_domain dom level k) (level + 1) =
        Node.vertexLeaves d s (d.compute_domain dom level k) (level + 1))
    (i : Nat) (sons sons' : List Node) (h : Node.forSons f i sons = some sons') :
    (Node.leavesOfSons d sons' dom level i).map (fun x => (x.1, x.2.1)) =
      (Node.leavesOfSons d sons dom level i).map (fun x => (x.1, x.2.1)) := by
  induction sons generalizing i sons' with
  | nil =>
    simp only [Node.forSons, Option.some.injEq] at h
    subst h; rfl
  | cons s rest ih =>
    simp only [Node.forSons] at h
    cases hf : f i s with
    | none => simp [hf] at h
    | some s' =>
      cases hr : Node.forSons f (i + 1) rest with
      | none => simp [hf, hr] at h
      | some rest' =>
        simp only [hf, hr, Option.some.injEq] at h
        subst h
        have h1 := hstep i s s' hf
        simp only [Node.vertexLeaves] at h1
        simp only [Node.leavesOfSons, List.map_append, h1, ih (i + 1) rest' hr]

/-- `P_Tree::add_tetrahedron` does not change the vertex arrays of the leaves
(nor the hierarchy). -/
theorem P_add_tetrahedron_vertexLeaves (d : Subdivision) (mesh : Mesh) :
    ∀ fuel n dom level t n', P_Tree.add_tetrahedron d mesh fuel n dom level t = some n' →
      Node.vertexLeaves d n' dom level = Node.vertexLeaves d n dom level := by
  intro fuel
  induction fuel with
  | zero => intro n dom level t n' h; simp [P_Tree.add_tetrahedron] at h
  | succ fuel ih =>
    intro n dom level t n' h
    simp only [P_Tree.add_tetrahedron] at h
    by_cases htest : Geometry_Wrapper.tetra_in_box_build t dom mesh = true
    · simp only [htest, Bool.not_true, Bool.false_eq_true, if_false] at h
      cases n with
      | leaf vs ts =>
        simp only [Node.add_tetrahedron, Option.some.injEq] at h
        subst h
        simp [vertexLeaves_leaf]
      | internal sons =>
        simp only at h
        cases hs : Node.forSons (fun i s =>
            P_Tree.add_tetrahedron d mesh fuel s (d.compute_domain dom level i)
              (level + 1) t) 0 sons with
        | none => simp [hs] at h
        | some sons' =>
          simp only [hs, Option.some.injEq] at h
          subst h
          simp only [Node.vertexLeaves, Node.leaves]
          exact forSons_vertexLeaves d _ dom level
            (fun k s s' hk => ih s _ _ t s' hk) 0 sons sons' hs
    · have htest' : Geometry_Wrapper.tetra_in_box_build t dom mesh = false := by
        simpa using htest
      simp only [htest', Bool.not_false, if_true, Option.some.injEq] at h
      subst h
      rfl

theorem insertAll_vertexLeaves (d : Subdivision) (add : Node → Box → Nat → Nat → Option Node)
    (hadd : ∀ n dom level t n', add n dom level t = some n' →
      Node.vertexLeaves d n' dom level = Node.vertexLeaves d n dom level)
    (ts : List Nat) (dom : Box) (level : Nat) (n n' : Node)
    (h : Node.insertAll (fun m t => add m dom level t) ts n = some n') :
    Node.vertexLeaves d n' dom level = Node.vertexLeaves d n dom level := by
  induction ts generalizing n with
  | nil =>
    simp only [Node.insertAll, Option.some.injEq] at h
    subst h; rfl
  | cons t ts ih =>
    simp only [Node.insertAll] at h
    cases ha : add n dom level t with
    | none => simp [ha] at h
    | some n1 =>
      simp only [ha] at h
      rw [ih n1 h, hadd n dom level t n1 ha]

theorem leavesOfSons_replicate_empty (d : Subdivision) (k : Nat) (dom : Box) (level i : Nat) :
    ∀ x ∈ Node.leavesOfSons d (List.replicate k (Node.leaf [] [])) dom level i,
      x.2.1 = [] ∧ x.2.2 = [] := by
  induction k generalizing i with
  | zero => intro x hx; simp [Node.leavesOfSons] at hx
  | succ k ih =>
    intro x hx
    simp only [List.replicate_succ, Node.leavesOfSons, Node.leaves, List.singleton_append,
      List.mem_cons] at hx
    rcases hx with rfl | hx
    · exact ⟨rfl, rfl⟩
    · exact ih (i + 1) x hx

theorem vertexLeaves_with_new_sons (d : Subdivision) (dom : Box) (level : Nat) :
    ∀ x ∈ Node.vertexLeaves d (Node.with_new_sons d) dom level, x.2 = [] := by
  intro x hx
  simp only [Node.vertexLeaves, Node.with_new_sons, Node.leaves, List.mem_map] at hx
  obtain ⟨y, hy, rfl⟩ := hx
  exact (leavesOfSons_replicate_empty d _ dom level 0 y hy).1

theorem storedVertices_with_new_sons (d : Subdivision) (dom : Box) (level : Nat) :
    storedVertices (Node.vertexLeaves d (Node.with_new_sons d) dom level) = [] := by
  simp only [storedVertices, List.flatMap_eq_nil_iff]
  exact vertexLeaves_with_new_sons d dom level

theorem vertexLeaves_internal_append (d : Subdivision) (pre : List Node) (s : Node)
    (post : List Node) (dom : Box) (level : Nat) :
    Node.vertexLeaves d (Node.internal (pre ++ s :: post)) dom level =
      (Node.leavesOfSons d pre dom level 0).map (fun x => (x.1, x.2.1)) ++
        (Node.vertexLeaves d s (d.compute_domain dom level pre.length) (level + 1) ++
          (Node.leavesOfSons d post dom level (pre.length + 1)).map (fun x => (x.1, x.2.1))) := by
  simp [Node.vertexLeaves, Node.leaves, leavesOfSons_append]

theorem shaped_son (d : Subdivision) (pre : List Node) (s : Node) (post : List Node)
    (h : Node.Shaped d (Node.internal (pre ++ s :: post))) : Node.Shaped d s := by
  simp only [Node.Shaped] at h
  have := (shapedSons_iff d _ 0).mp h.2
  rw [allSons_iff_getElem] at this
  exact this pre.length s (getElem?_append_cons pre s post)

/-- The loop of a split (or of `build_tree`) over vertex ids. -/
theorem insertAll_vertexStep (d : Subdivision) (mesh : Mesh) (kv : Nat)
    (add : Node → Box → Nat → Nat → Option Node) (hadd : VertexStep d mesh kv add)
    (hshape : ShapeKeep d add) (dom : Box) (level : Nat) (xs : List Nat) (n n' : Node)
    (h : Node.insertAll (fun m x => add m dom level x) xs n = some n') :
    (verticesBounded kv (Node.vertexLeaves d n dom level) →
      verticesBounded kv (Node.vertexLeaves d n' dom level)) ∧
    (Node.Shaped d n → verticesInBox mesh (Node.vertexLeaves d n dom level) →
      (∀ x ∈ xs, dom.contains (mesh.get_vertex x).toPoint mesh.domain.max = true) →
      verticesInBox mesh (Node.vertexLeaves d n' dom level) ∧
      (storedVertices (Node.vertexLeaves d n' dom level)).Perm
        (xs ++ storedVertices (Node.vertexLeaves d n dom level))) := by
  induction xs generalizing n with
  | nil =>
    simp only [Node.insertAll, Option.some.injEq] at h
    subst h
    exact ⟨fun hb => hb, fun _ hi _ => ⟨hi, by simp⟩⟩
  | cons x xs ih =>
    simp only [Node.insertAll] at h
    cases ha : add n dom level x with
    | none => simp [ha] at h
    | some n1 =>
      simp only [ha] at h
      obtain ⟨hb1, hv1⟩ := hadd n dom level x n1 ha
      obtain ⟨hb2, hv2⟩ := ih n1 h
      refine ⟨fun hb => hb2 (hb1 hb), fun hs hi hx => ?_⟩
      obtain ⟨hi1, hp1⟩ := hv1 hs hi (hx x (by simp))
      obtain ⟨hi2, hp2⟩ := hv2 (hshape n dom level x n1 ha hs) hi1
        (fun y hy => hx y (by simp [hy]))
      refine ⟨hi2, hp2.trans ?_⟩
      have : (xs ++ storedVertices (Node.vertexLeaves d n1 dom level)).Perm
          (xs ++ x :: storedVertices (Node.vertexLeaves d n dom level)) :=
        List.Perm.append_left xs hp1
      exact this.trans List.perm_middle

theorem verticesInBox_append (mesh : Mesh) (A B : List (Box × List Nat)) :
    verticesInBox mesh (A ++ B) ↔ verticesInBox mesh A ∧ verticesInBox mesh B := by
  simp only [verticesInBox, List.mem_append]
  constructor
  · intro h
    exact ⟨fun x hx => h x (Or.inl hx), fun x hx => h x (Or.inr hx)⟩
  · rintro ⟨h1, h2⟩ x (hx | hx)
    · exact h1 x hx
    · exact h2 x hx

theorem verticesBounded_append (kv : Nat) (A B : List (Box × List Nat)) :
    verticesBounded kv (A ++ B) ↔ verticesBounded kv A ∧ verticesBounded kv B := by
  simp only [verticesBounded, List.mem_append]
  constructor
  · intro h
    exact ⟨fun x hx => h x (Or.inl hx), fun x hx => h x (Or.inr hx)⟩
  · rintro ⟨h1, h2⟩ x (hx | hx)
    · exact h1 x hx
    · exact h2 x hx

theorem storedVertices_append (A B : List (Box × List Nat)) :
    storedVertices (A ++ B) = storedVertices A ++ storedVertices B := by
  simp [storedVertices]

/-- `P_Tree::add_vertex` satisfies `VertexStep`. -/
theorem P_Tree_vertexStep (d : Subdivision) (mesh : Mesh) (kv : Nat) :
    ∀ fuel, VertexStep d mesh kv (P_Tree.add_vertex d mesh kv fuel) := by
  intro fuel
  induction fuel with
  | zero => intro n dom level v n' h; simp [P_Tree.add_vertex] at h
  | succ fuel ih =>
    intro n dom level v n' h
    simp only [P_Tree.add_vertex] at h
    cases n with
    | leaf vs ts =>
      simp only [Node.add_vertex] at h
      by_cases hfull : P_Tree.is_full kv (Node.leaf (vs ++ [v]) ts) = true
      · simp only [hfull, if_true] at h
        obtain ⟨n1, h1, h2⟩ := P_split_phases d _ _ _ _ dom level n' h
        have hsame := insertAll_vertexLeaves d _ (P_add_tetrahedron_vertexLeaves d mesh fuel)
          ts dom level n1 n' h2
        obtain ⟨hb, hv⟩ := insertAll_vertexStep d mesh kv _ ih
          (P_Tree_shapeKeep_vertex d mesh kv fuel) dom level (vs ++ [v]) _ n1 h1
        rw [hsame]
        constructor
        · intro _
          apply hb
          intro x hx
          rw [vertexLeaves_with_new_sons d dom level x hx]
          exact Nat.zero_le _
        · intro _ hin hv0
          have hnew : verticesInBox mesh (Node.vertexLeaves d (Node.with_new_sons d) dom level) := by
            intro x hx u hu
            rw [vertexLeaves_with_new_sons d dom level x hx] at hu
            simp at hu
          have hall : ∀ x ∈ vs ++ [v],
              dom.contains (mesh.get_vertex x).toPoint mesh.domain.max = true := by
            intro x hx
            rcases List.mem_append.mp hx with hx | hx
            · exact hin (dom, vs) (by simp [vertexLeaves_leaf]) x hx
            · simp only [List.mem_singleton] at hx
              subst hx; exact hv0
          obtain ⟨hi, hp⟩ := hv (shaped_with_new_sons d) hnew hall
          refine ⟨hi, hp.trans ?_⟩
          rw [storedVertices_with_new_sons, vertexLeaves_leaf]
          simp only [List.append_nil, storedVertices, List.flatMap_cons, List.flatMap_nil]
          exact List.perm_append_singleton v vs
      · have hfull' : P_Tree.is_full kv (Node.leaf (vs ++ [v]) ts) = false := by
          simpa using hfull
        simp only [hfull', Bool.false_eq_true, if_false, Option.some.injEq] at h
        subst h
        simp only [vertexLeaves_leaf]
        constructor
        · intro _ x hx
          simp only [List.mem_singleton] at hx
          subst hx
          simpa [P_Tree.is_full, Node.get_v_array_size] using hfull'
        · intro _ hin hv0
          constructor
          · intro x hx u hu
            simp only [List.mem_singleton] at hx
            subst hx
            rcases List.mem_append.mp hu with hu | hu
            · exact hin (dom, vs) (by simp) u hu
            · simp only [List.mem_singleton] at hu
              subst hu; exact hv0
          · simp only [storedVertices, List.flatMap_cons, List.flatMap_nil, List.append_nil]
            exact List.perm_append_singleton v vs
    | internal sons =>
      simp only at h
      cases hs : Node.forFirstSon
          (fun i => (d.compute_domain dom level i).contains
            (mesh.get_vertex v).toPoint mesh.domain.max)
          (fun i s =>
            P_Tree.add_vertex d mesh kv fuel s (d.compute_domain dom level i) (level + 1) v)
          0 sons with
      | none => simp [hs] at h
      | some sons' =>
        simp only [hs, Option.some.injEq] at h
        subst h
        rcases forFirstSon_spec _ _ 0 sons sons' hs with
          ⟨pre, s, s', post, h1, h2, h3, h4⟩ | ⟨h1, h2⟩
        · subst h1 h2
          simp only [zero_add] at h3 h4
          obtain ⟨hb, hv⟩ := ih s _ _ v s' h4
          simp only [vertexLeaves_internal_append, verticesBounded_append, verticesInBox_append,
            storedVertices_append]
          constructor
          · rintro ⟨ha, hs0, hc⟩
            exact ⟨ha, hb hs0, hc⟩
          · rintro hshape ⟨ha, hs0, hc⟩ _
            obtain ⟨hi, hp⟩ := hv (shaped_son d pre s post hshape) hs0 h3
            refine ⟨⟨ha, hi, hc⟩, ?_⟩
            have := (List.Perm.append_left
              (storedVertices ((Node.leavesOfSons d pre dom level 0).map
                (fun x => (x.1, x.2.1))))
              (List.Perm.append_right
                (storedVertices ((Node.leavesOfSons d post dom level (pre.length + 1)).map
                  (fun x => (x.1, x.2.1)))) hp))
            refine this.trans ?_
            rw [List.cons_append]
            exact List.perm_middle
        · subst h1
          constructor
          · exact fun hb => hb
          · intro hshape _ hv0
            exfalso
            obtain ⟨i, hi, hci⟩ := exists_child_contains d dom _ mesh.domain.max level hv0
            simp only [Node.Shaped] at hshape
            have := h2 i (by rw [hshape.1]; exact hi)
            simp only [zero_add] at this
            rw [hci] at this
            exact Bool.noConfusion this

/-- The vertex arrays of the leaves after `P_Tree::build_tree`. -/
theorem P_build_vertexLeaves (d : Subdivision) (mesh : Mesh) (kv fuel : Nat) (tree : Node)
    (h : P_Tree.build_tree d mesh kv fuel = some tree) :
    verticesBounded kv (Node.vertexLeaves d tree mesh.domain 0) ∧
    ((∀ v ∈ mesh.vertices, mesh.domain.contains_with_all_closed_faces v.toPoint = true) →
      verticesInBox mesh (Node.vertexLeaves d tree mesh.domain 0) ∧
      (storedVertices (Node.vertexLeaves d tree mesh.domain 0)).Perm
        (List.range' 1 mesh.get_num_vertices)) := by
  simp only [P_Tree.build_tree] at h
  cases h1 : Node.insertAll
      (fun n i => P_Tree.add_vertex d mesh kv fuel n mesh.domain 0 i)
      (List.range' 1 mesh.get_num_vertices) (Node.leaf [] []) with
  | none => simp [h1] at h
  | some root =>
    simp only [h1] at h
    have hsame := insertAll_vertexLeaves d _ (P_add_tetrahedron_vertexLeaves d mesh fuel)
      _ mesh.domain 0 root tree h
    obtain ⟨hb, hv⟩ := insertAll_vertexStep d mesh kv _ (P_Tree_vertexStep d mesh kv fuel)
      (P_Tree_shapeKeep_vertex d mesh kv fuel) mesh.domain 0 _ _ root h1
    rw [hsame]
    constructor
    · apply hb
      intro x hx
      simp only [vertexLeaves_leaf, List.mem_singleton] at hx
      subst hx
      exact Nat.zero_le _
    · intro henc
      have hall : ∀ x ∈ List.range' 1 mesh.get_num_vertices,
          mesh.domain.contains (mesh.get_vertex x).toPoint mesh.domain.max = true := by
        intro x hx
        obtain ⟨hx1, hx2⟩ := List.mem_range'_1.mp hx
        have hlt : x - 1 < mesh.vertices.length := by
          simp only [Mesh.get_num_vertices] at hx2; omega
        have hvtx : mesh.get_vertex x = mesh.vertices[x - 1] := by
          simp [Mesh.get_vertex, List.getD_eq_getElem?_getD, List.getElem?_eq_getElem hlt]
        rw [contains_own_max, hvtx]
        exact henc _ (List.getElem_mem hlt)
      obtain ⟨hi, hp⟩ := hv (by simp [Node.Shaped])
        (by
          intro x hx u hu
          simp only [vertexLeaves_leaf, List.mem_singleton] at hx
          subst hx
          simp at hu)
        hall
      refine ⟨hi, ?_⟩
      simpa [vertexLeaves_leaf, storedVertices] using hp

/-- C6: after `P_Tree::build_tree` terminates (returns a tree for the given
fuel) on a mesh whose domain encloses all vertices, every vertex id `1..|V|`
occurs exactly once across all leaf vertex lists, and the box of the leaf that
stores a vertex contains it (half-open test with mesh-max override). -/
theorem C6_P_Tree_vertices_once_in_their_leaf (d : Subdivision) (mesh : Mesh)
    (kv fuel : Nat) (tree : Node)
    (henc : ∀ v ∈ mesh.vertices, mesh.domain.contains_with_all_closed_faces v.toPoint = true)
    (hbuild : P_Tree.build_tree d mesh kv fuel = some tree) :
    (∀ v, 1 ≤ v → v ≤ mesh.get_num_vertices →
      ((Node.leaves d tree mesh.domain 0).flatMap (fun x => x.2.1)).count v = 1) ∧
    (∀ x ∈ Node.leaves d tree mesh.domain 0, ∀ v ∈ x.2.1,
      x.1.contains (mesh.get_vertex v).toPoint mesh.domain.max = true) := by
  obtain ⟨hi, hp⟩ := (P_build_vertexLeaves d mesh kv fuel tree hbuild).2 henc
  constructor
  · intro v h1 h2
    have e : (Node.leaves d tree mesh.domain 0).flatMap (fun x => x.2.1)
        = storedVertices (Node.vertexLeaves d tree mesh.domain 0) := by
      simp [storedVertices, Node.vertexLeaves, List.flatMap_map]
    rw [e, hp.count_eq]
    exact List.count_eq_one_of_mem (List.nodup_range' 1 _)
      (List.mem_range'_1.mpr ⟨h1, by omega⟩)
  · intro x hx v hv
    exact hi (x.1, x.2.1) (by
      simp only [Node.vertexLeaves, List.mem_map]
      exact ⟨x, hx, rfl⟩) v hv

/-- C6 on the cube mesh with the octree and `kv = 4`. -/
theorem C6_P_Tree_vertices_once_in_their_leaf_witness :
    ∃ tree, P_Tree.build_tree Subdivision.OK Examples.cubeMesh 4 20 = some tree ∧
      (∀ v, 1 ≤ v → v ≤ Examples.cubeMesh.get_num_vertices →
        ((Node.leaves Subdivision.OK tree Examples.cubeMesh.domain 0).flatMap
          (fun x => x.2.1)).count v = 1) ∧
      (∀ x ∈ Node.leaves Subdivision.OK tree Examples.cubeMesh.domain 0, ∀ v ∈ x.2.1,
        x.1.contains (Examples.cubeMesh.get_vertex v).toPoint
          Examples.cubeMesh.domain.max = true) := by
  obtain ⟨tree, h⟩ := Option.isSome_iff_exists.mp
    (by decide! : (P_Tree.build_tree Subdivision.OK Examples.cubeMesh 4 20).isSome = true)
  exact ⟨tree, h, C6_P_Tree_vertices_once_in_their_leaf Subdivision.OK Examples.cubeMesh 4 20
    tree cubeMesh_wellFormed.2 h⟩

/-- C9: after `P_Tree::build_tree` terminates (returns a tree for the given
fuel) with threshold `V_max`, every leaf of the tree stores at most `V_max`
vertex ids. -/
theorem C9_P_Tree_leaf_vertices_bounded (d : Subdivision) (mesh : Mesh) (kv fuel : Nat)
    (tree : Node) (hbuild : P_Tree.build_tree d mesh kv fuel = some tree) :
    ∀ x ∈ Node.leaves d tree mesh.domain 0, x.2.1.length ≤ kv := by
  intro x hx
  exact (P_build_vertexLeaves d mesh kv fuel tree hbuild).1 (x.1, x.2.1) (by
    simp only [Node.vertexLeaves, List.mem_map]
    exact ⟨x, hx, rfl⟩)

/-- C9 on the cube mesh with the octree and `V_max = 4`. -/
theorem C9_P_Tree_leaf_vertices_bounded_witness :
    ∃ tree, P_Tree.build_tree Subdivision.OK Examples.cubeMesh 4 20 = some tree ∧
      ∀ x ∈ Node.leaves Subdivision.OK tree Examples.cubeMesh.domain 0, x.2.1.length ≤ 4 := by
  obtain ⟨tree, h⟩ := Option.isSome_iff_exists.mp
    (by decide! : (P_Tree.build_tree Subdivision.OK Examples.cubeMesh 4 20).isSome = true)
  exact ⟨tree, h, C9_P_Tree_leaf_vertices_bounded Subdivision.OK Examples.cubeMesh 4 20 tree h⟩

/-! ## `T_Tree`: the common-vertex escape and termination -/

/-- On a list sorted by vertex, the loop of `is_full` returns `false` when
the vertex `c` occurs in at least `t_size` pairs still to be visited, `count`
being the number of pairs of `c` visited so far when the current pair is at
`c`. -/
theorem common_vertex_loop_false (kt t_size c : Nat) (hk : kt < t_size) (h2 : 2 ≤ t_size) :
    ∀ (rest : List vertex_tetrahedron_pair) (a : vertex_tetrahedron_pair) (count : Nat),
      List.Sorted (fun x y => x.v ≤ y.v) (a :: rest) →
      ((a.v ≠ c ∧ t_size ≤ rest.countP (fun x => x.v = c)) ∨
        (a.v = c ∧ t_size ≤ count + rest.countP (fun x => x.v = c) ∧ count < t_size)) →
      common_vertex_loop kt t_size (a :: rest) count = false := by
  intro rest
  induction rest with
  | nil =>
    intro a count _ h
    rcases h with ⟨_, h⟩ | ⟨_, h, h'⟩
    · simp at h; omega
    · simp at h; omega
  | cons b rest ih =>
    intro a count hs h
    have hs' : List.Sorted (fun x y => x.v ≤ y.v) (b :: rest) := hs.of_cons
    have hab : a.v ≤ b.v := List.rel_of_sorted_cons hs b (by simp)
    simp only [common_vertex_loop]
    have hcount : (b :: rest).countP (fun x => x.v = c) =
        rest.countP (fun x => x.v = c) + (if b.v = c then 1 else 0) := by
      rw [List.countP_cons]; simp
    rcases h with ⟨hac, hm⟩ | ⟨hac, hm, hlt⟩
    · by_cases heq : a.v = b.v
      · have hbc : b.v ≠ c := fun h => hac (heq.trans h)
        simp only [heq, if_true]
        split_ifs with hret
        · rfl
        · apply ih b (count + 1) hs'
          left
          refine ⟨hbc, ?_⟩
          rw [hcount] at hm
          simpa [hbc] using hm
      · simp only [heq, if_false]
        apply ih b 1 hs'
        by_cases hbc : b.v = c
        · right
          refine ⟨hbc, ?_, by omega⟩
          rw [hcount] at hm
          simp only [hbc, if_true] at hm
          omega
        · left
          refine ⟨hbc, ?_⟩
          rw [hcount] at hm
          simpa [hbc] using hm
    · have hpos : 0 < (b :: rest).countP (fun x => x.v = c) := by omega
      obtain ⟨x, hx, hxc⟩ := List.countP_pos_iff.mp hpos
      have hxc' : x.v = c := by simpa using hxc
      have hbx : b.v ≤ x.v := by
        rcases List.mem_cons.mp hx with rfl | hx'
        · exact le_refl _
        · exact List.rel_of_sorted_cons hs' x hx'
      have hbc : b.v = c := by omega
      have heq : a.v = b.v := by omega
      simp only [heq, if_true]
      split_ifs with hret
      · rfl
      · apply ih b (count + 1) hs'
        right
        refine ⟨hbc, ?_, ?_⟩
        · rw [hcount] at hm
          simp only [hbc, if_true] at hm
          omega
        · by_contra hcon
          apply hret
          constructor <;> omega

theorem countP_pairs_ge (mesh : Mesh) (c : Nat) (ts : List Nat)
    (h : ∀ t ∈ ts, ∃ j : Fin 4, (mesh.get_tetrahedron t).TV j = c) :
    ts.length ≤ (ts.flatMap (fun t =>
      ([⟨(mesh.get_tetrahedron t).TV 0, t⟩, ⟨(mesh.get_tetrahedron t).TV 1, t⟩,
        ⟨(mesh.get_tetrahedron t).TV 2, t⟩, ⟨(mesh.get_tetrahedron t).TV 3, t⟩] :
        List vertex_tetrahedron_pair))).countP (fun x => x.v = c) := by
  induction ts with
  | nil => simp
  | cons t ts ih =>
    have ih' := ih (fun x hx => h x (by simp [hx]))
    obtain ⟨j, hj⟩ := h t (by simp)
    simp only [List.flatMap_cons, List.countP_append, List.length_cons]
    have : 1 ≤ ([⟨(mesh.get_tetrahedron t).TV 0, t⟩, ⟨(mesh.get_tetrahedron t).TV 1, t⟩,
        ⟨(mesh.get_tetrahedron t).TV 2, t⟩, ⟨(mesh.get_tetrahedron t).TV 3, t⟩] :
        List vertex_tetrahedron_pair).countP (fun x => x.v = c) := by
      apply List.countP_pos_iff.mpr
      refine ⟨⟨(mesh.get_tetrahedron t).TV j, t⟩, ?_, by simpa using hj⟩
      fin_cases j <;> simp
    omega

/-- The common-vertex escape: a leaf whose tetrahedra all have the vertex `c`
is never full, for a threshold of at least 1. -/
theorem T_is_full_common_vertex (mesh : Mesh) (kt c : Nat) (hkt : 1 ≤ kt) (vs ts : List Nat)
    (h : ∀ t ∈ ts, ∃ j : Fin 4, (mesh.get_tetrahedron t).TV j = c) :
    T_Tree.is_full mesh kt (Node.leaf vs ts) = false := by
  simp only [T_Tree.is_full, Node.get_t_array_size, Node.get_t_array]
  by_cases hsize : ts.length > kt
  · simp only [hsize, if_true]
    haveI : IsTotal vertex_tetrahedron_pair (fun a b => a.v ≤ b.v) :=
      ⟨fun a b => le_total a.v b.v⟩
    haveI : IsTrans vertex_tetrahedron_pair (fun a b => a.v ≤ b.v) :=
      ⟨fun a b c hab hbc => le_trans hab hbc⟩
    have hsorted := List.sorted_insertionSort (fun a b : vertex_tetrahedron_pair => a.v ≤ b.v)
      (ts.flatMap (fun t =>
        ([⟨(mesh.get_tetrahedron t).TV 0, t⟩, ⟨(mesh.get_tetrahedron t).TV 1, t⟩,
          ⟨(mesh.get_tetrahedron t).TV 2, t⟩, ⟨(mesh.get_tetrahedron t).TV 3, t⟩] :
          List vertex_tetrahedron_pair)))
    have hperm := List.perm_insertionSort (fun a b : vertex_tetrahedron_pair => a.v ≤ b.v)
      (ts.flatMap (fun t =>
        ([⟨(mesh.get_tetrahedron t).TV 0, t⟩, ⟨(mesh.get_tetrahedron t).TV 1, t⟩,
          ⟨(mesh.get_tetrahedron t).TV 2, t⟩, ⟨(mesh.get_tetrahedron t).TV 3, t⟩] :
          List vertex_tetrahedron_pair)))
    have hcnt := countP_pairs_ge mesh c ts h
    rw [← hperm.countP_eq] at hcnt
    unfold sorting_vertices
    generalize (List.insertionSort (fun a b : vertex_tetrahedron_pair => a.v ≤ b.v)
      (ts.flatMap (fun t =>
        ([⟨(mesh.get_tetrahedron t).TV 0, t⟩, ⟨(mesh.get_tetrahedron t).TV 1, t⟩,
          ⟨(mesh.get_tetrahedron t).TV 2, t⟩, ⟨(mesh.get_tetrahedron t).TV 3, t⟩] :
          List vertex_tetrahedron_pair)))) = L at hsorted hcnt
    cases L with
    | nil => rw [List.countP_nil] at hcnt; omega
    | cons a rest =>
      apply common_vertex_loop_false kt ts.length c hsize (by omega) rest a 1 hsorted
      have hcount : (a :: rest).countP (fun x => x.v = c) =
          rest.countP (fun x => x.v = c) + (if a.v = c then 1 else 0) := by
        rw [List.countP_cons]; simp
      rw [hcount] at hcnt
      by_cases hac : a.v = c
      · right
        simp only [hac, if_true] at hcnt
        exact ⟨hac, by omega, by omega⟩
      · left
        simp only [hac, if_false] at hcnt
        exact ⟨hac, by omega⟩
  · simp [hsize]

theorem get_tetrahedron_mem (mesh : Mesh) (t : Nat) (h1 : 1 ≤ t)
    (h2 : t ≤ mesh.get_num_tetrahedra) : mesh.get_tetrahedron t ∈ mesh.tetrahedra := by
  have ht : t - 1 < mesh.tetrahedra.length := by
    simp only [Mesh.get_num_tetrahedra] at h2; omega
  have htet : mesh.get_tetrahedron t = mesh.tetrahedra[t - 1] := by
    simp [Mesh.get_tetrahedron, List.getD_eq_getElem?_getD, List.getElem?_eq_getElem ht]
  rw [htet]; exact List.getElem_mem ht

theorem T_add_tetrahedron_leaf (d : Subdivision) (mesh : Mesh) (kt fuel : Nat)
    (vs ts : List Nat) (dom : Box) (level t : Nat) :
    T_Tree.add_tetrahedron d mesh kt (fuel + 1) (Node.leaf vs ts) dom level t =
      if !Geometry_Wrapper.tetra_in_box_build t dom mesh then some (Node.leaf vs ts)
      else if T_Tree.is_full mesh kt (Node.leaf vs (ts ++ [t])) then
        T_Tree.split d (T_Tree.add_tetrahedron d mesh kt fuel) (ts ++ [t]) dom level
      else some (Node.leaf vs (ts ++ [t])) := by
  simp only [T_Tree.add_tetrahedron, Node.add_tetrahedron]

theorem insertAll_cons (add : Node → Nat → Option Node) (x : Nat) (xs : List Nat) (n : Node) :
    Node.insertAll add (x :: xs) n =
      match add n x with
      | none => none
      | some n' => Node.insertAll add xs n' := rfl

/-- Inserting tetrahedra that share the vertex `c` into a leaf: the node
stays a leaf and receives those passing the inclusion test. -/
theorem T_insertAll_common_vertex (d : Subdivision) (mesh : Mesh) (kt c : Nat) (hkt : 1 ≤ kt)
    (hc : ∀ tet ∈ mesh.tetrahedra, ∃ j : Fin 4, tet.TV j = c) (fuel : Nat) (dom : Box)
    (level : Nat) :
    ∀ (xs acc : List Nat),
      (∀ t ∈ acc ++ xs, 1 ≤ t ∧ t ≤ mesh.get_num_tetrahedra) →
      Node.insertAll
        (fun n t => T_Tree.add_tetrahedron d mesh kt (fuel + 1) n dom level t) xs
        (Node.leaf [] acc)
      = some (Node.leaf []
          (acc ++ xs.filter (fun t => Geometry_Wrapper.tetra_in_box_build t dom mesh))) := by
  intro xs
  induction xs with
  | nil => intro acc _; simp [Node.insertAll]
  | cons t xs ih =>
    intro acc hr
    rw [insertAll_cons, T_add_tetrahedron_leaf]
    by_cases htest : Geometry_Wrapper.tetra_in_box_build t dom mesh = true
    · have hnf : T_Tree.is_full mesh kt (Node.leaf [] (acc ++ [t])) = false := by
        apply T_is_full_common_vertex mesh kt c hkt
        intro x hx
        have := hr x (by
          rcases List.mem_append.mp hx with hx | hx
          · exact List.mem_append_left _ hx
          · simp only [List.mem_singleton] at hx
            subst hx; simp)
        exact hc _ (get_tetrahedron_mem mesh x this.1 this.2)
      simp only [htest, Bool.not_true, Bool.false_eq_true, if_false, hnf]
      rw [ih (acc ++ [t]) (by simpa using hr)]
      simp [List.filter_cons, htest]
    · have htest' : Geometry_Wrapper.tetra_in_box_build t dom mesh = false := by
        simpa using htest
      simp only [htest', Bool.not_false, if_true]
      rw [ih acc (fun x hx => hr x (by
        rcases List.mem_append.mp hx with hx | hx
        · exact List.mem_append_left _ hx
        · exact List.mem_append_right _ (List.mem_cons_of_mem _ hx)))]
      simp [List.filter_cons, htest']

/-- C11: for every parent box and every child index `0..7`,
`OK_Subdivision::compute_domain` returns the octant of the reference table.
With `mid = min + (max - min)/2` on each axis, the x-range of the child is the
upper half `[mid, max]` when the index is in `{0,1,4,5}` and the lower half
`[min, mid]` otherwise, the y-range is the upper half when the index is in
`{0,2,4,6}` and the lower half otherwise, the z-range is the upper half when
the index is in `{4,5,6,7}` and the lower half otherwise (on an axis where the
parent is not flat the two halves differ, so "when" is "iff"); the level
argument is ignored. -/
theorem C11_OK_compute_domain_table (B : Box) (level level' : Nat) (i : Nat) (hi : i < 8) :
    ((((OK_Subdivision.compute_domain B level i).min.x,
        (OK_Subdivision.compute_domain B level i).max.x) =
        if i ∈ [0, 1, 4, 5] then (B.min.x + (B.max.x - B.min.x) / 2, B.max.x)
        else (B.min.x, B.min.x + (B.max.x - B.min.x) / 2)) ∧
      (((OK_Subdivision.compute_domain B level i).min.y,
        (OK_Subdivision.compute_domain B level i).max.y) =
        if i ∈ [0, 2, 4, 6] then (B.min.y + (B.max.y - B.min.y) / 2, B.max.y)
        else (B.min.y, B.min.y + (B.max.y - B.min.y) / 2)) ∧
      (((OK_Subdivision.compute_domain B level i).min.z,
        (OK_Subdivision.compute_domain B level i).max.z) =
        if i ∈ [4, 5, 6, 7] then (B.min.z + (B.max.z - B.min.z) / 2, B.max.z)
        else (B.min.z, B.min.z + (B.max.z - B.min.z) / 2))) ∧
    ((B.min.x < B.max.x →
        ((((OK_Subdivision.compute_domain B level i).min.x,
          (OK_Subdivision.compute_domain B level i).max.x) =
          (B.min.x + (B.max.x - B.min.x) / 2, B.max.x)) ↔ i ∈ [0, 1, 4, 5])) ∧
      (B.min.y < B.max.y →
        ((((OK_Subdivision.compute_domain B level i).min.y,
          (OK_Subdivision.compute_domain B level i).max.y) =
          (B.min.y + (B.max.y - B.min.y) / 2, B.max.y)) ↔ i ∈ [0, 2, 4, 6])) ∧
      (B.min.z < B.max.z →
        ((((OK_Subdivision.compute_domain B level i).min.z,
          (OK_Subdivision.compute_domain B level i).max.z) =
          (B.min.z + (B.max.z - B.min.z) / 2, B.max.z)) ↔ i ∈ [4, 5, 6, 7]))) ∧
    OK_Subdivision.compute_domain B level' i = OK_Subdivision.compute_domain B level i := by
  have key : ∀ a b : ℚ, a < b → a ≠ a + (b - a) / 2 := by
    intro a b h e
    linarith
  refine ⟨?_, ?_, rfl⟩
  · interval_cases i <;> simp [OK_Subdivision.compute_domain]
  · refine ⟨fun h => ?_, fun h => ?_, fun h => ?_⟩ <;>
      interval_cases i <;>
      simp [OK_Subdivision.compute_domain, Prod.ext_iff] <;>
      intro e <;> first | exact absurd e (key _ _ h) | linarith

/-- C11 on the unit cube, child 5: the octant `[1/2,1] x [0,1/2] x [1/2,1]`. -/
theorem C11_OK_compute_domain_table_witness :
    OK_Subdivision.compute_domain ⟨⟨0, 0, 0⟩, ⟨1, 1, 1⟩⟩ 3 5 = ⟨⟨1 / 2, 0, 1 / 2⟩, ⟨1, 1 / 2, 1⟩⟩ := by
  have h := C11_OK_compute_domain_table ⟨⟨0, 0, 0⟩, ⟨1, 1, 1⟩⟩ 0 3 5 (by decide)
  rw [h.2.2]
  simp [OK_Subdivision.compute_domain]

/-! ## Scenario S2: the cube mesh in a PR octree with `kv = 4` -/

/-- The root of the S2 tree and, son after son, whether the son is a leaf and
its vertex array. -/
theorem S2_tree_sons :
    (P_Tree.build_tree Subdivision.OK Examples.cubeMesh 4 3).map
        (fun n => (n.is_leaf, n.get_sons.map (fun s => (s.is_leaf, s.get_v_array)))) =
      some (false, [(true, [4]), (true, [2]), (true, [3]), (true, [1]), (true, [8, 9]),
        (true, [6]), (true, [7]), (true, [5])]) := by
  decide!

/-- Among the eight sons of the cube, son 4 (the octant `[1/2,1]³`) is the one
whose box contains the centre. -/
theorem S2_centre_child (i : Nat) (hi : i < 8) :
    (Subdivision.OK.compute_domain Examples.cubeMesh.domain 0 i).contains
      (Examples.cubeMesh.get_vertex 9).toPoint Examples.cubeMesh.domain.max = true ↔ i = 4 := by
  interval_cases i <;> decide!

/-- C16, as stated, fails: in the S2 tree the son whose box contains the centre
vertex (vertex 9) does not store it alone; its vertex array is `[8, 9]`, the
corner `(1,1,1)` and the centre. -/
theorem C16_counterexample_centre_not_alone :
    ∃ tree, P_Tree.build_tree Subdivision.OK Examples.cubeMesh 4 3 = some tree ∧
      ¬ (∀ i s, tree.get_sons[i]? = some s →
        (Subdivision.OK.compute_domain Examples.cubeMesh.domain 0 i).contains
          (Examples.cubeMesh.get_vertex 9).toPoint Examples.cubeMesh.domain.max = true →
        s.get_v_array = [9]) := by
  obtain ⟨tree, htree⟩ :
      ∃ tree, P_Tree.build_tree Subdivision.OK Examples.cubeMesh 4 3 = some tree :=
    Option.isSome_iff_exists.mp (by decide!)
  refine ⟨tree, htree, fun h => ?_⟩
  have hs := S2_tree_sons
  rw [htree] at hs
  simp only [Option.map_some', Option.some.injEq, Prod.mk.injEq] at hs
  have h4 : (tree.get_sons.map (fun s => (s.is_leaf, s.get_v_array)))[4]? = some (true, [8, 9]) := by
    rw [hs.2]; rfl
  rw [List.getElem?_map] at h4
  cases hson : tree.get_sons[4]? with
  | none => rw [hson] at h4; simp at h4
  | some s =>
    rw [hson] at h4
    simp only [Option.map_some', Option.some.injEq, Prod.mk.injEq] at h4
    have := h 4 s hson ((S2_centre_child 4 (by decide)).mpr rfl)
    rw [h4.2] at this
    exact absurd this (by decide)

/-- C16 (amended): in scenario S2 (the cube mesh, PR criterion, octree,
`kv = 4`) `build_tree` returns a tree whose root is internal with eight leaf
children; the child whose box contains the centre vertex is child 4 (the octant
`[1/2,1]³`) and it stores the centre vertex together with the corner `(1,1,1)`
(vertices 8 and 9) and no other vertex, while each of the other seven children
stores exactly one corner. -/
theorem C16_S2_centre_child_holds_centre_and_corner :
    ∃ tree, P_Tree.build_tree Subdivision.OK Examples.cubeMesh 4 3 = some tree ∧
      tree.is_leaf = false ∧ tree.get_sons.length = 8 ∧
      (∀ s ∈ tree.get_sons, s.is_leaf = true) ∧
      (∀ i s, tree.get_sons[i]? = some s →
        ((Subdivision.OK.compute_domain Examples.cubeMesh.domain 0 i).contains
          (Examples.cubeMesh.get_vertex 9).toPoint Examples.cubeMesh.domain.max = true ↔
          i = 4) ∧
        (i = 4 → s.get_v_array = [8, 9]) ∧
        (i ≠ 4 → ∃ c, c ≤ 7 ∧ s.get_v_array = [c])) ∧
      (Examples.cubeMesh.get_vertex 8).toPoint = ⟨1, 1, 1⟩ ∧
      (Examples.cubeMesh.get_vertex 9).toPoint = ⟨1 / 2, 1 / 2, 1 / 2⟩ := by
  obtain ⟨tree, htree⟩ :
      ∃ tree, P_Tree.build_tree Subdivision.OK Examples.cubeMesh 4 3 = some tree :=
    Option.isSome_iff_exists.mp (by decide!)
  have hs := S2_tree_sons
  rw [htree] at hs
  simp only [Option.map_some', Option.some.injEq, Prod.mk.injEq] at hs
  have hlen : tree.get_sons.length = 8 := by
    have := congrArg List.length hs.2
    simpa using this
  refine ⟨tree, htree, hs.1, hlen, ?_, ?_, by decide!, by decide!⟩
  · intro s hsm
    have : (s.is_leaf, s.get_v_array) ∈
        tree.get_sons.map (fun s => (s.is_leaf, s.get_v_array)) :=
      List.mem_map_of_mem _ hsm
    rw [hs.2] at this
    simp only [List.mem_cons, Prod.mk.injEq, List.mem_singleton, List.not_mem_nil,
      or_false] at this
    rcases this with h | h | h | h | h | h | h | h <;> exact h.1
  · intro i s hson
    have hi : i < 8 := by
      rw [← hlen]
      exact (List.getElem?_eq_some_iff.mp hson).1
    have hm : (tree.get_sons.map (fun s => (s.is_leaf, s.get_v_array)))[i]? =
        some (s.is_leaf, s.get_v_array) := by
      rw [List.getElem?_map, hson]; rfl
    rw [hs.2] at hm
    refine ⟨S2_centre_child i hi, ?_, ?_⟩
    · intro h4
      subst h4
      simp at hm
      exact hm.2.symm
    · intro hne
      interval_cases i <;> simp at hm <;> first
        | exact absurd rfl hne
        | exact ⟨_, by decide, hm.2.symm⟩

/-! ## The tetrahedra arrays of the leaves of a built tree -/

theorem allLeavesSons_iff (P : List Nat → List Nat → Prop) (sons : List Node) (i : Nat) :
    Node.AllLeavesSons P sons ↔ Node.AllSons (fun _ s => Node.AllLeaves P s) i sons := by
  induction sons generalizing i with
  | nil => simp [Node.AllLeavesSons, Node.AllSons]
  | cons s rest ih => simp [Node.AllLeavesSons, Node.AllSons, ih (i + 1)]

mutual
theorem allLeaves_mono (P Q : List Nat → List Nat → Prop) (h : ∀ vs ts, P vs ts → Q vs ts) :
    ∀ n : Node, Node.AllLeaves P n → Node.AllLeaves Q n
  | Node.leaf vs ts, hn => by
    simp only [Node.AllLeaves] at hn ⊢
    exact h vs ts hn
  | Node.internal sons, hn => by
    simp only [Node.AllLeaves] at hn ⊢
    exact allLeavesSons_mono P Q h sons hn
theorem allLeavesSons_mono (P Q : List Nat → List Nat → Prop)
    (h : ∀ vs ts, P vs ts → Q vs ts) :
    ∀ sons : List Node, Node.AllLeavesSons P sons → Node.AllLeavesSons Q sons
  | [], _ => by simp [Node.AllLeavesSons]
  | s :: rest, hn => by
    simp only [Node.AllLeavesSons] at hn ⊢
    exact ⟨allLeaves_mono P Q h s hn.1, allLeavesSons_mono P Q h rest hn.2⟩
end

theorem sortedBelow_mono (b b' : Nat) (hb : b ≤ b') (n : Node) (h : n.SortedBelow b) :
    n.SortedBelow b' :=
  allLeaves_mono _ _ (fun _ _ hp => ⟨hp.1, fun x hx => ⟨(hp.2 x hx).1,
    lt_of_lt_of_le (hp.2 x hx).2 hb⟩⟩) n h

theorem sortedBelow_with_new_sons (d : Subdivision) (b : Nat) :
    (Node.with_new_sons d).SortedBelow b := by
  simp only [Node.with_new_sons, Node.SortedBelow, Node.AllLeaves]
  rw [allLeavesSons_iff _ _ 0]
  exact allSons_replicate _ _ _ _ (fun _ => by simp [Node.AllLeaves])

theorem sortedBelow_leaf_push (b t : Nat) (vs ts : List Nat) (ht : 1 ≤ t) (hb : b ≤ t)
    (h : (Node.leaf vs ts).SortedBelow b) : (Node.leaf vs (ts ++ [t])).SortedBelow (t + 1) := by
  simp only [Node.SortedBelow, Node.AllLeaves] at h ⊢
  refine ⟨?_, ?_⟩
  · rw [List.pairwise_append]
    refine ⟨h.1, List.pairwise_singleton _ _, fun x hx y hy => ?_⟩
    simp only [List.mem_singleton] at hy
    subst hy
    exact lt_of_lt_of_le (h.2 x hx).2 hb
  · intro x hx
    simp only [List.mem_append, List.mem_singleton] at hx
    rcases hx with hx | hx
    · exact ⟨(h.2 x hx).1, by have := (h.2 x hx).2; omega⟩
    · subst hx; exact ⟨ht, by omega⟩

theorem sortedBelow_internal (f : Nat → Node → Option Node) (b b' : Nat)
    (hf : ∀ k s s', f k s = some s' → Node.SortedBelow b s → Node.SortedBelow b' s')
    (sons sons' : List Node) (h : Node.forSons f 0 sons = some sons')
    (hs : (Node.internal sons).SortedBelow b) : (Node.internal sons').SortedBelow b' := by
  simp only [Node.SortedBelow, Node.AllLeaves] at hs ⊢
  rw [allLeavesSons_iff _ _ 0] at hs ⊢
  exact forSons_allSons f _ _ (fun k s s' hk hq => hf k s s' hk hq) 0 sons sons' h hs

theorem sortedBelow_internal_first (test : Nat → Bool) (f : Nat → Node → Option Node)
    (b : Nat)
    (hf : ∀ k s s', f k s = some s' → Node.SortedBelow b s → Node.SortedBelow b s')
    (sons sons' : List Node) (h : Node.forFirstSon test f 0 sons = some sons')
    (hs : (Node.internal sons).SortedBelow b) : (Node.internal sons').SortedBelow b := by
  simp only [Node.SortedBelow, Node.AllLeaves] at hs ⊢
  rw [allLeavesSons_iff _ _ 0] at hs ⊢
  exact forFirstSon_allSons test f _ (fun k s s' _ hk hq => hf k s s' hk hq) 0 sons sons' h hs

/-- Inserting the ids of a strictly increasing list one after the other keeps
the arrays of the leaves strictly increasing. -/
theorem insertAll_sorted (add : Node → Nat → Option Node)
    (hstep : ∀ n t n', add n t = some n' → 1 ≤ t →
      Node.SortedBelow t n → Node.SortedBelow (t + 1) n') :
    ∀ (xs : List Nat) (n n' : Node) (b b' : Nat), Node.insertAll add xs n = some n' →
      xs.Pairwise (fun x y => x < y) → (∀ x ∈ xs, 1 ≤ x ∧ b ≤ x ∧ x < b') → b ≤ b' →
      Node.SortedBelow b n → Node.SortedBelow b' n' := by
  intro xs
  induction xs with
  | nil =>
    intro n n' b b' h _ _ hb hn
    simp only [Node.insertAll, Option.some.injEq] at h
    subst h
    exact sortedBelow_mono b b' hb n hn
  | cons x xs ih =>
    intro n n' b b' h hp hx hb hn
    simp only [Node.insertAll] at h
    cases h1 : add n x with
    | none => simp [h1] at h
    | some n1 =>
      simp only [h1] at h
      have hx0 := hx x (List.mem_cons_self _ _)
      rw [List.pairwise_cons] at hp
      refine ih n1 n' (x + 1) b' h hp.2 (fun y hy => ?_) (by omega)
        (hstep n x n1 h1 hx0.1 (sortedBelow_mono b x hx0.2.1 n hn))
      have hy0 := hx y (List.mem_cons_of_mem _ hy)
      have := hp.1 y hy
      exact ⟨hy0.1, by omega, hy0.2.2⟩

/-- The list handed to `split` (the array of the full leaf) is strictly
increasing and bounded. -/
theorem sorted_push (b t : Nat) (ts : List Nat) (ht : 1 ≤ t) (hb : b ≤ t)
    (h : ts.Pairwise (fun x y => x < y) ∧ ∀ x ∈ ts, 1 ≤ x ∧ x < b) :
    (ts ++ [t]).Pairwise (fun x y => x < y) ∧ ∀ x ∈ ts ++ [t], 1 ≤ x ∧ 0 ≤ x ∧ x < t + 1 := by
  have := sortedBelow_leaf_push b t [] ts ht hb (by simpa [Node.SortedBelow, Node.AllLeaves] using h)
  simp only [Node.SortedBelow, Node.AllLeaves] at this
  exact ⟨this.1, fun x hx => ⟨(this.2 x hx).1, Nat.zero_le _, (this.2 x hx).2⟩⟩

theorem T_Tree_sortedStep (d : Subdivision) (mesh : Mesh) (thr : Nat) :
    ∀ fuel, SortedStep (T_Tree.add_tetrahedron d mesh thr fuel) := by
  intro fuel
  induction fuel with
  | zero => intro n dom level t' n' h; simp [T_Tree.add_tetrahedron] at h
  | succ fuel ih =>
    intro n dom level t' n' h ht hs
    simp only [T_Tree.add_tetrahedron] at h
    by_cases htest : Geometry_Wrapper.tetra_in_box_build t' dom mesh = true
    · simp only [htest, Bool.not_true, Bool.false_eq_true, if_false] at h
      cases n with
      | leaf vs ts =>
        simp only [Node.add_tetrahedron] at h
        by_cases hfull : T_Tree.is_full mesh thr (Node.leaf vs (ts ++ [t'])) = true
        · simp only [hfull, if_true, T_Tree.split] at h
          have hp := sorted_push t' t' ts ht (le_refl _)
            (by simpa [Node.SortedBelow, Node.AllLeaves] using hs)
          exact insertAll_sorted _ (fun m x m' hm hx hI => ih m dom level x m' hm hx hI)
            _ _ n' 0 (t' + 1) h hp.1 hp.2 (Nat.zero_le _) (sortedBelow_with_new_sons d 0)
        · have hfull' : T_Tree.is_full mesh thr (Node.leaf vs (ts ++ [t'])) = false := by
            simpa using hfull
          simp only [hfull', Bool.false_eq_true, if_false, Option.some.injEq] at h
          subst h
          exact sortedBelow_leaf_push t' t' vs ts ht (le_refl _) hs
      | internal sons =>
        simp only at h
        cases hs' : Node.forSons (fun i s =>
            T_Tree.add_tetrahedron d mesh thr fuel s (d.compute_domain dom level i)
              (level + 1) t') 0 sons with
        | none => simp [hs'] at h
        | some sons' =>
          simp only [hs', Option.some.injEq] at h
          subst h
          exact sortedBelow_internal _ t' (t' + 1)
            (fun k s s' hk hq => ih s _ _ t' s' hk ht hq) sons sons' hs' hs
    · have htest' : Geometry_Wrapper.tetra_in_box_build t' dom mesh = false := by
        simpa using htest
      simp only [htest', Bool.not_false, if_true, Option.some.injEq] at h
      subst h
      exact sortedBelow_mono t' (t' + 1) (Nat.le_succ _) _ hs

theorem P_Tree_sortedStep (d : Subdivision) (mesh : Mesh) :
    ∀ fuel, SortedStep (P_Tree.add_tetrahedron d mesh fuel) := by
  intro fuel
  induction fuel with
  | zero => intro n dom level t' n' h; simp [P_Tree.add_tetrahedron] at h
  | succ fuel ih =>
    intro n dom level t' n' h ht hs
    simp only [P_Tree.add_tetrahedron] at h
    by_cases htest : Geometry_Wrapper.tetra_in_box_build t' dom mesh = true
    · simp only [htest, Bool.not_true, Bool.false_eq_true, if_false] at h
      cases n with
      | leaf vs ts =>
        simp only [Node.add_tetrahedron, Option.some.injEq] at h
        subst h
        exact sortedBelow_leaf_push t' t' vs ts ht (le_refl _) hs
      | internal sons =>
        simp only at h
        cases hs' : Node.forSons (fun i s =>
            P_Tree.add_tetrahedron d mesh fuel s (d.compute_domain dom level i)
              (level + 1) t') 0 sons with
        | none => simp [hs'] at h
        | some sons' =>
          simp only [hs', Option.some.injEq] at h
          subst h
          exact sortedBelow_internal _ t' (t' + 1)
            (fun k s s' hk hq => ih s _ _ t' s' hk ht hq) sons sons' hs' hs
    · have htest' : Geometry_Wrapper.tetra_in_box_build t' dom mesh = false := by
        simpa using htest
      simp only [htest', Bool.not_false, if_true, Option.some.injEq] at h
      subst h
      exact sortedBelow_mono t' (t' + 1) (Nat.le_succ _) _ hs

theorem RT_split_sortedBelow (d : Subdivision) (mesh : Mesh) (ts : List Nat) (dom : Box)
    (level b : Nat) (h : ts.Pairwise (fun x y => x < y) ∧ ∀ x ∈ ts, 1 ≤ x ∧ x < b) :
    (RT_Tree.split d mesh ts dom level).SortedBelow b := by
  simp only [RT_Tree.split, Node.SortedBelow, Node.AllLeaves]
  rw [allLeavesSons_iff _ _ 0, allSons_iff_getElem]
  intro k s hk
  have := RT_split_sons d mesh ts dom level k s hk
  subst this
  simp only [Node.AllLeaves]
  exact ⟨List.Pairwise.sublist (List.filter_sublist _) h.1,
    fun x hx => h.2 x (List.mem_of_mem_filter hx)⟩

theorem RT_Tree_sortedStep (d : Subdivision) (mesh : Mesh) (thr : Nat) :
    ∀ fuel, SortedStep (RT_Tree.add_tetrahedron d mesh thr fuel) := by
  intro fuel
  induction fuel with
  | zero => intro n dom level t' n' h; simp [RT_Tree.add_tetrahedron] at h
  | succ fuel ih =>
    intro n dom level t' n' h ht hs
    simp only [RT_Tree.add_tetrahedron] at h
    by_cases htest : Geometry_Wrapper.tetra_in_box_build t' dom mesh = true
    · simp only [htest, Bool.not_true, Bool.false_eq_true, if_false] at h
      cases n with
      | leaf vs ts =>
        simp only [Node.add_tetrahedron] at h
        by_cases hfull : RT_Tree.is_full thr (Node.leaf vs (ts ++ [t'])) = true
        · simp only [hfull, if_true, Option.some.injEq] at h
          subst h
          have hp := sorted_push t' t' ts ht (le_refl _)
            (by simpa [Node.SortedBelow, Node.AllLeaves] using hs)
          exact RT_split_sortedBelow d mesh _ dom level (t' + 1)
            ⟨hp.1, fun x hx => ⟨(hp.2 x hx).1, (hp.2 x hx).2.2⟩⟩
        · have hfull' : RT_Tree.is_full thr (Node.leaf vs (ts ++ [t'])) = false := by
            simpa using hfull
          simp only [hfull', Bool.false_eq_true, if_false, Option.some.injEq] at h
          subst h
          exact sortedBelow_leaf_push t' t' vs ts ht (le_refl _) hs
      | internal sons =>
        simp only at h
        cases hs' : Node.forSons (fun i s =>
            RT_Tree.add_tetrahedron d mesh thr fuel s (d.compute_domain dom level i)
              (level + 1) t') 0 sons with
        | none => simp [hs'] at h
        | some sons' =>
          simp only [hs', Option.some.injEq] at h
          subst h
          exact sortedBelow_internal _ t' (t' + 1)
            (fun k s s' hk hq => ih s _ _ t' s' hk ht hq) sons sons' hs' hs
    · have htest' : Geometry_Wrapper.tetra_in_box_build t' dom mesh = false := by
        simpa using htest
      simp only [htest', Bool.not_false, if_true, Option.some.injEq] at h
      subst h
      exact sortedBelow_mono t' (t' + 1) (Nat.le_succ _) _ hs

theorem P_Tree_sortedKeep (d : Subdivision) (mesh : Mesh) (thr : Nat) :
    ∀ fuel, SortedKeep (P_Tree.add_vertex d mesh thr fuel) := by
  intro fuel
  induction fuel with
  | zero => intro n dom level v n' b h; simp [P_Tree.add_vertex] at h
  | succ fuel ih =>
    intro n dom level v n' b h hs
    simp only [P_Tree.add_vertex] at h
    cases n with
    | leaf vs ts =>
      simp only [Node.add_vertex] at h
      by_cases hfull : P_Tree.is_full thr (Node.leaf (vs ++ [v]) ts) = true
      · simp only [hfull, if_true] at h
        obtain ⟨n1, h1, h2⟩ := P_split_phases d _ _ _ _ dom level n' h
        have hn1 : n1.SortedBelow 0 :=
          insertAll_invariant _ (Node.SortedBelow 0)
            (fun m x m' hm hI => ih m dom level x m' 0 hm hI) _ _ n1 h1
            (sortedBelow_with_new_sons d 0)
        simp only [Node.SortedBelow, Node.AllLeaves] at hs
        exact insertAll_sorted _
          (fun m x m' hm hx hI => P_Tree_sortedStep d mesh fuel m dom level x m' hm hx hI)
          ts n1 n' 0 b h2 hs.1 (fun x hx => ⟨(hs.2 x hx).1, Nat.zero_le _, (hs.2 x hx).2⟩)
          (Nat.zero_le _) hn1
      · have hfull' : P_Tree.is_full thr (Node.leaf (vs ++ [v]) ts) = false := by
          simpa using hfull
        simp only [hfull', Bool.false_eq_true, if_false, Option.some.injEq] at h
        subst h
        simpa [Node.SortedBelow, Node.AllLeaves] using hs
    | internal sons =>
      simp only at h
      cases hs' : Node.forFirstSon
          (fun i => (d.compute_domain dom level i).contains
            (mesh.get_vertex v).toPoint mesh.domain.max)
          (fun i s =>
            P_Tree.add_vertex d mesh thr fuel s (d.compute_domain dom level i) (level + 1) v)
          0 sons with
      | none => simp [hs'] at h
      | some sons' =>
        simp only [hs', Option.some.injEq] at h
        subst h
        exact sortedBelow_internal_first _ _ b
          (fun k s s' hk hq => ih s _ _ v s' b hk hq) sons sons' hs' hs

theorem PT_Tree_sorted (d : Subdivision) (mesh : Mesh) (thrV thrT : Nat) :
    ∀ fuel, SortedKeep (PT_Tree.add_vertex d mesh thrV thrT fuel) ∧
      SortedStep (PT_Tree.add_tetrahedron d mesh thrV thrT fuel) := by
  intro fuel
  induction fuel with
  | zero =>
    constructor
    · intro n dom level v n' b h; simp [PT_Tree.add_vertex] at h
    · intro n dom level v n' h; simp [PT_Tree.add_tetrahedron] at h
  | succ fuel ih =>
    obtain ⟨ihV, ihT⟩ := ih
    constructor
    · intro n dom level v n' b h hs
      simp only [PT_Tree.add_vertex] at h
      cases n with
      | leaf vs ts =>
        simp only [Node.add_vertex] at h
        by_cases hfull : PT_Tree.is_full_vertex thrV (Node.leaf (vs ++ [v]) ts) = true
        · simp only [hfull, if_true] at h
          obtain ⟨n1, h1, h2⟩ := PT_split_phases d _ _ _ _ dom level n' h
          have hn1 : n1.SortedBelow 0 :=
            insertAll_invariant _ (Node.SortedBelow 0)
              (fun m x m' hm hI => ihV m dom level x m' 0 hm hI) _ _ n1 h1
              (sortedBelow_with_new_sons d 0)
          simp only [Node.SortedBelow, Node.AllLeaves] at hs
          exact insertAll_sorted _
            (fun m x m' hm hx hI => ihT m dom level x m' hm hx hI)
            ts n1 n' 0 b h2 hs.1 (fun x hx => ⟨(hs.2 x hx).1, Nat.zero_le _, (hs.2 x hx).2⟩)
            (Nat.zero_le _) hn1
        · have hfull' : PT_Tree.is_full_vertex thrV (Node.leaf (vs ++ [v]) ts) = false := by
            simpa using hfull
          simp only [hfull', Bool.false_eq_true, if_false, Option.some.injEq] at h
          subst h
          simpa [Node.SortedBelow, Node.AllLeaves] using hs
      | internal sons =>
        simp only at h
        cases hs' : Node.forFirstSon
            (fun i => (d.compute_domain dom level i).contains
              (mesh.get_vertex v).toPoint mesh.domain.max)
            (fun i s =>
              PT_Tree.add_vertex d mesh thrV thrT fuel s (d.compute_domain dom level i)
                (level + 1) v)
            0 sons with
        | none => simp [hs'] at h
        | some sons' =>
          simp only [hs', Option.some.injEq] at h
          subst h
          exact sortedBelow_internal_first _ _ b
            (fun k s s' hk hq => ihV s _ _ v s' b hk hq) sons sons' hs' hs
    · intro n dom level t' n' h ht hs
      simp only [PT_Tree.add_tetrahedron] at h
      by_cases htest : Geometry_Wrapper.tetra_in_box_build t' dom mesh = true
      · simp only [htest, Bool.not_true, Bool.false_eq_true, if_false] at h
        cases n with
        | leaf vs ts =>
          simp only [Node.add_tetrahedron] at h
          by_cases hfull : PT_Tree.is_full_tetrahedra mesh thrT (Node.leaf vs (ts ++ [t'])) = true
          · simp only [hfull, if_true] at h
            obtain ⟨n1, h1, h2⟩ := PT_split_phases d _ _ _ _ dom level n' h
            have hn1 : n1.SortedBelow 0 :=
              insertAll_invariant _ (Node.SortedBelow 0)
                (fun m x m' hm hI => ihV m dom level x m' 0 hm hI) _ _ n1 h1
                (sortedBelow_with_new_sons d 0)
            have hp := sorted_push t' t' ts ht (le_refl _)
              (by simpa [Node.SortedBelow, Node.AllLeaves] using hs)
            exact insertAll_sorted _
              (fun m x m' hm hx hI => ihT m dom level x m' hm hx hI)
              _ n1 n' 0 (t' + 1) h2 hp.1 hp.2 (Nat.zero_le _) hn1
          · have hfull' :
                PT_Tree.is_full_tetrahedra mesh thrT (Node.leaf vs (ts ++ [t'])) = false := by
              simpa using hfull
            simp only [hfull', Bool.false_eq_true, if_false, Option.some.injEq] at h
            subst h
            exact sortedBelow_leaf_push t' t' vs ts ht (le_refl _) hs
        | internal sons =>
          simp only at h
          cases hs' : Node.forSons (fun i s =>
              PT_Tree.add_tetrahedron d mesh thrV thrT fuel s (d.compute_domain dom level i)
                (level + 1) t') 0 sons with
          | none => simp [hs'] at h
          | some sons' =>
            simp only [hs', Option.some.injEq] at h
            subst h
            exact sortedBelow_internal _ t' (t' + 1)
              (fun k s s' hk hq => ihT s _ _ t' s' hk ht hq) sons sons' hs' hs
      · have htest' : Geometry_Wrapper.tetra_in_box_build t' dom mesh = false := by
          simpa using htest
        simp only [htest', Bool.not_false, if_true, Option.some.injEq] at h
        subst h
        exact sortedBelow_mono t' (t' + 1) (Nat.le_succ _) _ hs

/-- What the loop of `build_tree` over the tetrahedra leaves behind: a well
shaped tree in which every tetrahedron is listed along the boxes containing
each of its vertices, and whose leaves have strictly increasing arrays of ids
in `1..|T|`. -/
theorem build_invariants (d : Subdivision) (mesh : Mesh)
    (add : Node → Box → Nat → Nat → Option Node) (hcov : CoverStep d mesh add)
    (hshape : ShapeKeep d add) (hsort : SortedStep add) (root0 root : Node)
    (hs0 : Node.Shaped d root0) (hb0 : root0.SortedBelow 0)
    (h : Node.insertAll (fun n i => add n mesh.domain 0 i)
      (List.range' 1 mesh.get_num_tetrahedra) root0 = some root) :
    Node.Shaped d root ∧
    (∀ t j, 1 ≤ t → t ≤ mesh.get_num_tetrahedra →
      Node.Covers d mesh.domain.max (mesh.tetra_vertex t j) t root mesh.domain 0) ∧
    root.SortedBelow (mesh.get_num_tetrahedra + 1) := by
  refine ⟨shape_insertAll d add hshape _ mesh.domain 0 root0 root h hs0, ?_, ?_⟩
  · intro t j h1 h2
    exact cover_reinsert d mesh add hcov _ mesh.domain 0 root0 root h t
      (List.mem_range'_1.mpr ⟨h1, by omega⟩) j
  · refine insertAll_sorted _ (fun m x m' hm hx hI => hsort m mesh.domain 0 x m' hm hx hI)
      _ root0 root 0 _ h ?_ (fun x hx => ?_) (Nat.zero_le _) hb0
    · exact List.pairwise_lt_range' 1 _
    · have := List.mem_range'_1.mp hx
      omega

/-- The invariants of a tree built by one of the four classes. -/
theorem builtTree_invariants (d : Subdivision) (mesh : Mesh) (tree : Node)
    (h : BuiltTree d mesh tree) :
    Node.Shaped d tree ∧
    (∀ t j, 1 ≤ t → t ≤ mesh.get_num_tetrahedra →
      Node.Covers d mesh.domain.max (mesh.tetra_vertex t j) t tree mesh.domain 0) ∧
    tree.SortedBelow (mesh.get_num_tetrahedra + 1) := by
  have hleaf : Node.Shaped d (Node.leaf [] []) := by simp [Node.Shaped]
  have hleaf0 : (Node.leaf [] []).SortedBelow 0 := by simp [Node.SortedBelow, Node.AllLeaves]
  obtain ⟨kv, kt, fuel, h | h | h | h⟩ := h
  · simp only [P_Tree.build_tree] at h
    cases h1 : Node.insertAll
        (fun n i => P_Tree.add_vertex d mesh kv fuel n mesh.domain 0 i)
        (List.range' 1 mesh.get_num_vertices) (Node.leaf [] []) with
    | none => simp [h1] at h
    | some root =>
      simp only [h1] at h
      exact build_invariants d mesh _ (P_Tree_coverStep d mesh fuel)
        (P_Tree_shapeKeep_tetra d mesh fuel) (P_Tree_sortedStep d mesh fuel) root tree
        (shape_insertAll d _ (P_Tree_shapeKeep_vertex d mesh kv fuel) _ mesh.domain 0 _ root
          h1 hleaf)
        (insertAll_invariant _ (Node.SortedBelow 0)
          (fun m x m' hm hI => P_Tree_sortedKeep d mesh kv fuel m mesh.domain 0 x m' 0 hm hI)
          _ _ root h1 hleaf0) h
  · simp only [PT_Tree.build_tree] at h
    cases h1 : Node.insertAll
        (fun n i => PT_Tree.add_vertex d mesh kv kt fuel n mesh.domain 0 i)
        (List.range' 1 mesh.get_num_vertices) (Node.leaf [] []) with
    | none => simp [h1] at h
    | some root =>
      simp only [h1] at h
      exact build_invariants d mesh _ (PT_Tree_cover d mesh kv kt fuel).2
        (PT_Tree_shapeKeep d mesh kv kt fuel).2 (PT_Tree_sorted d mesh kv kt fuel).2 root tree
        (shape_insertAll d _ (PT_Tree_shapeKeep d mesh kv kt fuel).1 _ mesh.domain 0 _ root
          h1 hleaf)
        (insertAll_invariant _ (Node.SortedBelow 0)
          (fun m x m' hm hI =>
            (PT_Tree_sorted d mesh kv kt fuel).1 m mesh.domain 0 x m' 0 hm hI)
          _ _ root h1 hleaf0) h
  · exact build_invariants d mesh _ (T_Tree_coverStep d mesh kt fuel)
      (T_Tree_shapeKeep d mesh kt fuel) (T_Tree_sortedStep d mesh kt fuel) _ tree hleaf
      hleaf0 h
  · exact build_invariants d mesh _ (RT_Tree_coverStep d mesh kt fuel)
      (RT_Tree_shapeKeep d mesh kt fuel) (RT_Tree_sortedStep d mesh kt fuel) _ tree hleaf
      hleaf0 h

theorem builtTreeT_builtTree (d : Subdivision) (mesh : Mesh) (tree : Node)
    (h : BuiltTreeT d mesh tree) : BuiltTree d mesh tree := by
  obtain ⟨kt, fuel, h | h⟩ := h
  · exact ⟨0, kt, fuel, Or.inr (Or.inr (Or.inl h))⟩
  · exact ⟨0, kt, fuel, Or.inr (Or.inr (Or.inr h))⟩

/-! ## The boxes along a tree -/

theorem is_in_range_of_lower_half (min max coord max_dom : ℚ)
    (h : Box.is_in_range min (min + (max - min) / 2) coord max_dom = true) :
    Box.is_in_range min max coord max_dom = true := by
  rw [is_in_range_iff] at h ⊢
  obtain ⟨h1, h2⟩ := h
  refine ⟨h1, ?_⟩
  rcases h2 with h2 | ⟨h2, h3⟩
  · left; linarith
  · by_cases hm : min + (max - min) / 2 < max
    · left; linarith
    · right
      have : max = min := by linarith
      constructor <;> linarith

theorem is_in_range_of_upper_half (min max coord max_dom : ℚ)
    (h : Box.is_in_range (min + (max - min) / 2) max coord max_dom = true) :
    Box.is_in_range min max coord max_dom = true := by
  rw [is_in_range_iff] at h ⊢
  obtain ⟨h1, h2⟩ := h
  refine ⟨?_, h2⟩
  rcases h2 with h2 | ⟨_, h3⟩ <;> linarith

/-- A point contained by a child box is contained by the parent box (no
assumption on the box or on the index). -/
theorem child_contains_parent (d : Subdivision) (B : Box) (p dmax : Point) (level i : Nat)
    (h : (d.compute_domain B level i).contains p dmax = true) :
    B.contains p dmax = true := by
  cases d with
  | OK =>
    simp only [Subdivision.compute_domain, OK_Subdivision.compute_domain, Box.contains,
      Point.get_c, Bool.and_eq_true] at h ⊢
    obtain ⟨⟨hx, hy⟩, hz⟩ := h
    refine ⟨⟨?_, ?_⟩, ?_⟩
    · split_ifs at hx
      · exact is_in_range_of_upper_half _ _ _ _ hx
      · exact is_in_range_of_lower_half _ _ _ _ hx
    · split_ifs at hy
      · exact is_in_range_of_upper_half _ _ _ _ hy
      · exact is_in_range_of_lower_half _ _ _ _ hy
    · split_ifs at hz
      · exact is_in_range_of_lower_half _ _ _ _ hz
      · exact is_in_range_of_upper_half _ _ _ _ hz
  | KD =>
    simp only [Subdivision.compute_domain, KD_Subdivision.compute_domain] at h
    split_ifs at h with h1 h0
    · rcases coord_to_change_cases level with hc | hc | hc <;>
        simp only [hc, Box.contains, Point.get_c, Point.set_c, Bool.and_eq_true] at h ⊢ <;>
        obtain ⟨⟨hx, hy⟩, hz⟩ := h
      · exact ⟨⟨is_in_range_of_upper_half _ _ _ _ hx, hy⟩, hz⟩
      · exact ⟨⟨hx, is_in_range_of_upper_half _ _ _ _ hy⟩, hz⟩
      · exact ⟨⟨hx, hy⟩, is_in_range_of_upper_half _ _ _ _ hz⟩
    · rcases coord_to_change_cases level with hc | hc | hc <;>
        simp only [hc, Box.contains, Point.get_c, Point.set_c, Bool.and_eq_true] at h ⊢ <;>
        obtain ⟨⟨hx, hy⟩, hz⟩ := h
      · exact ⟨⟨is_in_range_of_lower_half _ _ _ _ hx, hy⟩, hz⟩
      · exact ⟨⟨hx, is_in_range_of_lower_half _ _ _ _ hy⟩, hz⟩
      · exact ⟨⟨hx, hy⟩, is_in_range_of_lower_half _ _ _ _ hz⟩
    · exact h

mutual
/-- A point contained by the box of a leaf is contained by the box of the
root of the subtree. -/
theorem leaf_contains_root (d : Subdivision) (p dmax : Point) :
    ∀ (n : Node) (dom : Box) (level : Nat), ∀ x ∈ Node.leaves d n dom level,
      x.1.contains p dmax = true → dom.contains p dmax = true
  | Node.leaf vs ts, dom, level, x, hx, hin => by
    simp only [Node.leaves, List.mem_singleton] at hx
    subst hx
    exact hin
  | Node.internal sons, dom, level, x, hx, hin => by
    simp only [Node.leaves] at hx
    exact leaf_contains_root_sons d p dmax sons dom level 0 x hx hin
theorem leaf_contains_root_sons (d : Subdivision) (p dmax : Point) :
    ∀ (sons : List Node) (dom : Box) (level i : Nat),
      ∀ x ∈ Node.leavesOfSons d sons dom level i,
      x.1.contains p dmax = true → dom.contains p dmax = true
  | [], _, _, _, x, hx, _ => by simp [Node.leavesOfSons] at hx
  | s :: rest, dom, level, i, x, hx, hin => by
    simp only [Node.leavesOfSons, List.mem_append] at hx
    rcases hx with hx | hx
    · exact child_contains_parent d dom p dmax level i
        (leaf_contains_root d p dmax s _ _ x hx hin)
    · exact leaf_contains_root_sons d p dmax rest dom level (i + 1) x hx hin
end

mutual
/-- A tetrahedron listed along the boxes containing `p` is listed in every
leaf whose box contains `p`. -/
theorem covers_leaf (d : Subdivision) (dmax p : Point) (t : Nat) :
    ∀ (n : Node) (dom : Box) (level : Nat), Node.Covers d dmax p t n dom level →
      ∀ x ∈ Node.leaves d n dom level, x.1.contains p dmax = true → t ∈ x.2.2
  | Node.leaf vs ts, dom, level, hc, x, hx, hin => by
    simp only [Node.leaves, List.mem_singleton] at hx
    subst hx
    simp only [Node.Covers] at hc
    exact hc hin
  | Node.internal sons, dom, level, hc, x, hx, hin => by
    simp only [Node.Covers] at hc
    have hdom := leaf_contains_root d p dmax (Node.internal sons) dom level x hx hin
    simp only [Node.leaves] at hx
    exact covers_leaf_sons d dmax p t sons dom level 0 (hc hdom) x hx hin
theorem covers_leaf_sons (d : Subdivision) (dmax p : Point) (t : Nat) :
    ∀ (sons : List Node) (dom : Box) (level i : Nat),
      Node.CoversSons d dmax p t sons dom level i →
      ∀ x ∈ Node.leavesOfSons d sons dom level i, x.1.contains p dmax = true → t ∈ x.2.2
  | [], _, _, _, _, x, hx, _ => by simp [Node.leavesOfSons] at hx
  | s :: rest, dom, level, i, hc, x, hx, hin => by
    simp only [Node.CoversSons] at hc
    simp only [Node.leavesOfSons, List.mem_append] at hx
    rcases hx with hx | hx
    · exact covers_leaf d dmax p t s _ _ hc.1 x hx hin
    · exact covers_leaf_sons d dmax p t rest dom level (i + 1) hc.2 x hx hin
end

mutual
/-- In a well shaped tree a point contained by the box of the root is
contained by the box of a leaf. -/
theorem exists_leaf_contains (d : Subdivision) (dmax p : Point) :
    ∀ (n : Node) (dom : Box) (level : Nat), Node.Shaped d n →
      dom.contains p dmax = true →
      ∃ x ∈ Node.leaves d n dom level, x.1.contains p dmax = true
  | Node.leaf vs ts, dom, level, _, hin => ⟨(dom, vs, ts), by simp [Node.leaves], hin⟩
  | Node.internal sons, dom, level, hs, hin => by
    simp only [Node.Shaped] at hs
    obtain ⟨i, hi, hci⟩ := exists_child_contains d dom p dmax level hin
    have := exists_leaf_contains_sons d dmax p sons dom level 0 i hs.2
      (by rw [hs.1]; exact hi) (by simpa using hci)
    simpa [Node.leaves] using this
theorem exists_leaf_contains_sons (d : Subdivision) (dmax p : Point) :
    ∀ (sons : List Node) (dom : Box) (level i0 k : Nat), Node.ShapedSons d sons →
      k < sons.length →
      (d.compute_domain dom level (i0 + k)).contains p dmax = true →
      ∃ x ∈ Node.leavesOfSons d sons dom level i0, x.1.contains p dmax = true
  | [], _, _, _, _, _, hk, _ => by simp at hk
  | s :: rest, dom, level, i0, 0, hs, _, hin => by
    simp only [Node.ShapedSons] at hs
    obtain ⟨x, hx, ht⟩ := exists_leaf_contains d dmax p s _ (level + 1) hs.1
      (by simpa using hin)
    exact ⟨x, by simp [Node.leavesOfSons, hx], ht⟩
  | s :: rest, dom, level, i0, k + 1, hs, hk, hin => by
    simp only [Node.ShapedSons] at hs
    obtain ⟨x, hx, ht⟩ := exists_leaf_contains_sons d dmax p rest dom level (i0 + 1) k hs.2
      (by simpa using hk) (by
        have : i0 + 1 + k = i0 + (k + 1) := by omega
        rw [this]; exact hin)
    exact ⟨x, by simp [Node.leavesOfSons, hx], ht⟩
end

mutual
theorem allLeaves_leaves (d : Subdivision) (P : List Nat → List Nat → Prop) :
    ∀ (n : Node) (dom : Box) (level : Nat), Node.AllLeaves P n →
      ∀ x ∈ Node.leaves d n dom level, P x.2.1 x.2.2
  | Node.leaf vs ts, dom, level, h, x, hx => by
    simp only [Node.leaves, List.mem_singleton] at hx
    subst hx
    simpa [Node.AllLeaves] using h
  | Node.internal sons, dom, level, h, x, hx => by
    simp only [Node.AllLeaves] at h
    simp only [Node.leaves] at hx
    exact allLeaves_leaves_sons d P sons dom level 0 h x hx
theorem allLeaves_leaves_sons (d : Subdivision) (P : List Nat → List Nat → Prop) :
    ∀ (sons : List Node) (dom : Box) (level i : Nat), Node.AllLeavesSons P sons →
      ∀ x ∈ Node.leavesOfSons d sons dom level i, P x.2.1 x.2.2
  | [], _, _, _, _, x, hx => by simp [Node.leavesOfSons] at hx
  | s :: rest, dom, level, i, h, x, hx => by
    simp only [Node.AllLeavesSons] at h
    simp only [Node.leavesOfSons, List.mem_append] at hx
    rcases hx with hx | hx
    · exact allLeaves_leaves d P s _ _ h.1 x hx
    · exact allLeaves_leaves_sons d P rest dom level (i + 1) h.2 x hx
end

/-! ## Scenario S5: a line query through the centre of the cube -/

/-- The line query of S5 on the S1 tree (root leaf), after
`set_faces_ordering`: the ids found, in the order of the result vector. -/
theorem S5_line_query_result :
    (P_Tree.build_tree Subdivision.OK Examples.cubeMesh 10 2).bind (fun tree =>
      (Spatial_Queries.exec_line_query Subdivision.OK ⟨⟨-1, 1 / 2, 1 / 2⟩, ⟨2, 1 / 2, 1 / 2⟩⟩
        (Geometry_Wrapper.set_faces_ordering Examples.cubeMesh) false tree.toRaw
        Examples.cubeMesh.domain 0 (QueryStatistics.init 12)).map
        (fun q => q.tetrahedra)) =
      some [1, 2, 3, 4, 5, 6, 7, 8, 9, 10, 11, 12] := by
  decide!

/-- C15, as stated, fails: on S1 in a PR octree with `kv = 10`, after
`set_faces_ordering`, the line query for the segment from `(-1,1/2,1/2)` to
`(2,1/2,1/2)` does not return exactly 4 tetrahedra: it returns 12, among them
tetrahedron 1 (vertices 1, 2, 3 and the centre), which lies on the cube face
`z = 0`. -/
theorem C15_counterexample_line_query_twelve :
    ∃ tree q, P_Tree.build_tree Subdivision.OK Examples.cubeMesh 10 2 = some tree ∧
      Spatial_Queries.exec_line_query Subdivision.OK ⟨⟨-1, 1 / 2, 1 / 2⟩, ⟨2, 1 / 2, 1 / 2⟩⟩
        (Geometry_Wrapper.set_faces_ordering Examples.cubeMesh) false tree.toRaw
        Examples.cubeMesh.domain 0 (QueryStatistics.init 12) = some q ∧
      q.tetrahedra.length ≠ 4 ∧ 1 ∈ q.tetrahedra := by
  have h := S5_line_query_result
  obtain ⟨tree, htree, h⟩ := Option.bind_eq_some.mp h
  obtain ⟨q, hq, h⟩ := Option.map_eq_some'.mp h
  refine ⟨tree, q, htree, hq, ?_, ?_⟩
  · rw [h]; decide
  · rw [h]; decide

/-- C15 (amended): on the S1 mesh, indexed by a PR octree with `kv = 10` and
after `set_faces_ordering`, the line query for the segment from `(-1,1/2,1/2)`
to `(2,1/2,1/2)` returns all the 12 tetrahedra, each once: the segment passes
through the centre of the cube, a vertex of every tetrahedron, and
`line_in_tetra` is a closed test. -/
theorem C15_S5_line_query_returns_all :
    ∃ tree q, P_Tree.build_tree Subdivision.OK Examples.cubeMesh 10 2 = some tree ∧
      Spatial_Queries.exec_line_query Subdivision.OK ⟨⟨-1, 1 / 2, 1 / 2⟩, ⟨2, 1 / 2, 1 / 2⟩⟩
        (Geometry_Wrapper.set_faces_ordering Examples.cubeMesh) false tree.toRaw
        Examples.cubeMesh.domain 0 (QueryStatistics.init 12) = some q ∧
      q.tetrahedra = [1, 2, 3, 4, 5, 6, 7, 8, 9, 10, 11, 12] ∧
      (∀ t, 1 ≤ t → t ≤ 12 →
        Geometry_Wrapper.line_in_tetra ⟨-1, 1 / 2, 1 / 2⟩ ⟨2, 1 / 2, 1 / 2⟩ t
          (Geometry_Wrapper.set_faces_ordering Examples.cubeMesh) = true) := by
  have h := S5_line_query_result
  obtain ⟨tree, htree, h⟩ := Option.bind_eq_some.mp h
  obtain ⟨q, hq, h⟩ := Option.map_eq_some'.mp h
  refine ⟨tree, q, htree, hq, h, ?_⟩
  intro t h1 h2
  interval_cases t <;> decide!

/-! ## Visits of a tree -/

mutual
/-- A property of the state kept on entering a node and by the leaf procedure
is kept by the visit. -/
theorem visit_invariant {σ : Type} (d : Subdivision) (pre : σ → σ) (prune : Box → Bool)
    (leaf_fn : List Int → List Int → Box → σ → Option σ) (I : σ → Prop)
    (hpre : ∀ s, I s → I (pre s))
    (hleaf : ∀ vs ts dom s s', leaf_fn vs ts dom s = some s' → I s → I s') :
    ∀ (n : RawNode) (dom : Box) (level : Nat) (s s' : σ),
      RawNode.visit d pre prune leaf_fn n dom level s = some s' → I s → I s'
  | RawNode.leaf vs ts, dom, level, s, s', h, hI => by
    simp only [RawNode.visit] at h
    by_cases hp : prune dom = true
    · simp only [hp, if_true, Option.some.injEq] at h
      subst h; exact hpre s hI
    · have hp' : prune dom = false := by simpa using hp
      simp only [hp', Bool.false_eq_true, if_false] at h
      exact hleaf vs ts dom _ s' h (hpre s hI)
  | RawNode.internal sons, dom, level, s, s', h, hI => by
    simp only [RawNode.visit] at h
    by_cases hp : prune dom = true
    · simp only [hp, if_true, Option.some.injEq] at h
      subst h; exact hpre s hI
    · have hp' : prune dom = false := by simpa using hp
      simp only [hp', Bool.false_eq_true, if_false] at h
      exact visitSons_invariant d pre prune leaf_fn I hpre hleaf sons dom level 0 _ s' h
        (hpre s hI)
theorem visitSons_invariant {σ : Type} (d : Subdivision) (pre : σ → σ) (prune : Box → Bool)
    (leaf_fn : List Int → List Int → Box → σ → Option σ) (I : σ → Prop)
    (hpre : ∀ s, I s → I (pre s))
    (hleaf : ∀ vs ts dom s s', leaf_fn vs ts dom s = some s' → I s → I s') :
    ∀ (sons : List RawNode) (dom : Box) (level i : Nat) (s s' : σ),
      RawNode.visitSons d pre prune leaf_fn sons dom level i s = some s' → I s → I s'
  | [], _, _, _, s, s', h, hI => by
    simp only [RawNode.visitSons, Option.some.injEq] at h
    subst h; exact hI
  | n :: rest, dom, level, i, s, s', h, hI => by
    simp only [RawNode.visitSons] at h
    cases h1 : RawNode.visit d pre prune leaf_fn n (d.compute_domain dom level i)
        (level + 1) s with
    | none => simp [h1] at h
    | some s1 =>
      simp only [h1] at h
      exact visitSons_invariant d pre prune leaf_fn I hpre hleaf rest dom level (i + 1) s1 s' h
        (visit_invariant d pre prune leaf_fn I hpre hleaf n _ _ s s1 h1 hI)
end

mutual
/-- The visit returns when the leaf procedure returns on the arrays of every
leaf. -/
theorem visit_returns {σ : Type} (d : Subdivision) (pre : σ → σ) (prune : Box → Bool)
    (leaf_fn : List Int → List Int → Box → σ → Option σ)
    (P : List Int → List Int → Prop)
    (hleaf : ∀ vs ts dom s, P vs ts → ∃ s', leaf_fn vs ts dom s = some s') :
    ∀ (n : RawNode) (dom : Box) (level : Nat) (s : σ), RawNode.AllLeaves P n →
      ∃ s', RawNode.visit d pre prune leaf_fn n dom level s = some s'
  | RawNode.leaf vs ts, dom, level, s, hn => by
    simp only [RawNode.visit]
    simp only [RawNode.AllLeaves] at hn
    by_cases hp : prune dom = true
    · exact ⟨pre s, by simp [hp]⟩
    · have hp' : prune dom = false := by simpa using hp
      simp only [hp', Bool.false_eq_true, if_false]
      exact hleaf vs ts dom _ hn
  | RawNode.internal sons, dom, level, s, hn => by
    simp only [RawNode.visit]
    simp only [RawNode.AllLeaves] at hn
    by_cases hp : prune dom = true
    · exact ⟨pre s, by simp [hp]⟩
    · have hp' : prune dom = false := by simpa using hp
      simp only [hp', Bool.false_eq_true, if_false]
      exact visitSons_returns d pre prune leaf_fn P hleaf sons dom level 0 _ hn
theorem visitSons_returns {σ : Type} (d : Subdivision) (pre : σ → σ) (prune : Box → Bool)
    (leaf_fn : List Int → List Int → Box → σ → Option σ)
    (P : List Int → List Int → Prop)
    (hleaf : ∀ vs ts dom s, P vs ts → ∃ s', leaf_fn vs ts dom s = some s') :
    ∀ (sons : List RawNode) (dom : Box) (level i : Nat) (s : σ),
      RawNode.AllLeavesSons P sons →
      ∃ s', RawNode.visitSons d pre prune leaf_fn sons dom level i s = some s'
  | [], _, _, _, s, _ => ⟨s, by simp [RawNode.visitSons]⟩
  | n :: rest, dom, level, i, s, hn => by
    simp only [RawNode.AllLeavesSons] at hn
    obtain ⟨s1, h1⟩ := visit_returns d pre prune leaf_fn P hleaf n
      (d.compute_domain dom level i) (level + 1) s hn.1
    obtain ⟨s2, h2⟩ := visitSons_returns d pre prune leaf_fn P hleaf rest dom level (i + 1)
      s1 hn.2
    exact ⟨s2, by simp [RawNode.visitSons, h1, h2]⟩
end

/-! ## Box queries: no id is reported twice -/

theorem marks_noDuplicates (t : Nat) (q q' : QueryStatistics)
    (h : QueryStatistics.Marks t q q') (hI : q.NoDuplicates) : q'.NoDuplicates := by
  obtain ⟨hnd, hck⟩ := hI
  rcases h with ⟨h1, h2⟩ | ⟨h0, h1, h2⟩
  · exact ⟨by rw [h1]; exact hnd, fun x hx => by rw [h2]; exact hck x (by rwa [h1] at hx)⟩
  · have hnot : t ∉ q.tetrahedra := fun hm => by
      have := hck t hm
      rw [h0] at this
      exact absurd this (by decide)
    have hup : ∀ x ∈ q.tetrahedra, q'.checkTetra x = true := by
      intro x hx
      rw [h1]
      by_cases hxt : x = t
      · subst hxt; exact absurd hx hnot
      · rw [Function.update_noteq hxt]; exact hck x hx
    rcases h2 with h2 | h2
    · exact ⟨by rw [h2]; exact hnd, fun x hx => hup x (by rwa [h2] at hx)⟩
    · refine ⟨?_, ?_⟩
      · rw [h2]
        exact List.Nodup.append hnd (List.nodup_singleton t) (by simpa using hnot)
      · intro x hx
        rw [h2, List.mem_append, List.mem_singleton] at hx
        rcases hx with hx | hx
        · exact hup x hx
        · subst hx; rw [h1]; simp

/-- A loop that returns has run its body to the end at every step. -/
theorem forEach_eq_foldl {σ α : Type} (body : σ → α → Option σ) :
    ∀ (xs : List α) (s s' : σ), Spatial_Queries.forEach body xs s = some s' →
      s' = xs.foldl (fun q x => (body q x).getD q) s
  | [], s, s', h => by
    simp only [Spatial_Queries.forEach, Option.some.injEq] at h
    simp [h]
  | x :: xs, s, s', h => by
    simp only [Spatial_Queries.forEach, Option.bind_eq_some] at h
    obtain ⟨s1, h1, h2⟩ := h
    rw [List.foldl_cons, h1, Option.getD_some]
    exact forEach_eq_foldl body xs s1 s' h2

/-- A loop whose body returns at every element returns. -/
theorem forEach_returns {σ α : Type} (body : σ → α → Option σ)
    (hb : ∀ s x, ∃ s', body s x = some s') :
    ∀ (xs : List α) (s : σ), ∃ s', Spatial_Queries.forEach body xs s = some s'
  | [], s => ⟨s, rfl⟩
  | x :: xs, s => by
    obtain ⟨s1, h1⟩ := hb s x
    obtain ⟨s2, h2⟩ := forEach_returns body hb xs s1
    exact ⟨s2, by simp [Spatial_Queries.forEach, h1, h2]⟩

theorem count_access_if_false (q : QueryStatistics) (t : Nat) :
    q.count_access_if false t = some q := by
  simp [QueryStatistics.count_access_if]

theorem atomic_tetra_in_box_test_returns (t : Nat) (b : Box) (q : QueryStatistics)
    (mesh : Mesh) : ∃ q', Spatial_Queries.atomic_tetra_in_box_test t b q mesh false = some q' := by
  simp [Spatial_Queries.atomic_tetra_in_box_test, count_access_if_false]

theorem atomic_line_in_tetra_test_returns (t : Nat) (b : Box) (q : QueryStatistics)
    (mesh : Mesh) : ∃ q', Spatial_Queries.atomic_line_in_tetra_test t b q mesh false = some q' := by
  simp [Spatial_Queries.atomic_line_in_tetra_test, count_access_if_false]

theorem box_run_contained_step_returns (q : QueryStatistics) (t : Nat) :
    ∃ q', Spatial_Queries.box_run_contained_step false q t = some q' := by
  simp [Spatial_Queries.box_run_contained_step, count_access_if_false]

theorem box_run_intersect_step_returns (b : Box) (mesh : Mesh) (q : QueryStatistics)
    (t : Nat) : ∃ q', Spatial_Queries.box_run_intersect_step b mesh false q t = some q' := by
  simp [Spatial_Queries.box_run_intersect_step, Spatial_Queries.atomic_tetra_in_box_test,
    count_access_if_false]

theorem add_tetrahedron_to_result_returns (q : QueryStatistics) (t : Nat) :
    ∃ q', Spatial_Queries.add_tetrahedron_to_result false q t = some q' := by
  simp [Spatial_Queries.add_tetrahedron_to_result, count_access_if_false]

theorem atomic_tetra_in_box_test_marks (t : Nat) (b : Box) (q : QueryStatistics) (mesh : Mesh)
    (gs : Bool) :
    QueryStatistics.Marks t q
      ((Spatial_Queries.atomic_tetra_in_box_test t b q mesh gs).getD q) := by
  unfold Spatial_Queries.atomic_tetra_in_box_test QueryStatistics.Marks
  by_cases hl : t < q.access_per_tetra.length <;>
    cases hc : q.checkTetra t <;> cases gs <;>
    cases ht : Geometry_Wrapper.tetra_in_box t b mesh <;>
    simp [QueryStatistics.count_access_if, QueryStatistics.count_access, hl, hc, ht]

theorem atomic_line_in_tetra_test_marks (t : Nat) (b : Box) (q : QueryStatistics) (mesh : Mesh)
    (gs : Bool) :
    QueryStatistics.Marks t q
      ((Spatial_Queries.atomic_line_in_tetra_test t b q mesh gs).getD q) := by
  unfold Spatial_Queries.atomic_line_in_tetra_test QueryStatistics.Marks
  by_cases hl : t < q.access_per_tetra.length <;>
    cases hc : q.checkTetra t <;> cases gs <;>
    cases ht : Geometry_Wrapper.line_in_tetra b.min b.max t mesh <;>
    simp [QueryStatistics.count_access_if, QueryStatistics.count_access, hl, hc, ht]

theorem box_run_contained_step_marks (gs : Bool) (q : QueryStatistics) (t : Nat) :
    QueryStatistics.Marks t q ((Spatial_Queries.box_run_contained_step gs q t).getD q) := by
  unfold Spatial_Queries.box_run_contained_step QueryStatistics.Marks
  by_cases hl : t < q.access_per_tetra.length <;>
    cases hc : q.checkTetra t <;> cases gs <;>
    simp [QueryStatistics.count_access_if, QueryStatistics.count_access, hl, hc]

theorem add_tetrahedron_to_result_marks (gs : Bool) (q : QueryStatistics) (t : Nat) :
    QueryStatistics.Marks t q ((Spatial_Queries.add_tetrahedron_to_result gs q t).getD q) := by
  unfold Spatial_Queries.add_tetrahedron_to_result QueryStatistics.Marks
  by_cases hl : t < q.access_per_tetra.length <;>
    cases hc : q.checkTetra t <;> cases gs <;>
    simp [QueryStatistics.count_access_if, QueryStatistics.count_access, hl, hc]

theorem box_run_intersect_step_marks (b : Box) (mesh : Mesh) (gs : Bool)
    (q : QueryStatistics) (t : Nat) :
    QueryStatistics.Marks t q
      ((Spatial_Queries.box_run_intersect_step b mesh gs q t).getD q) := by
  unfold Spatial_Queries.box_run_intersect_step Spatial_Queries.atomic_tetra_in_box_test
    QueryStatistics.Marks
  by_cases hl : t < q.access_per_tetra.length <;>
    cases hc : q.checkTetra t <;> cases gs <;>
    cases ht : Geometry_Wrapper.tetra_in_box t b mesh <;>
    simp [QueryStatistics.count_access_if, QueryStatistics.count_access, hl, hc, ht]

theorem box_run_disjoint_step_marks (q : QueryStatistics) (t : Nat) :
    QueryStatistics.Marks t q (Spatial_Queries.box_run_disjoint_step q t) := by
  unfold Spatial_Queries.box_run_disjoint_step QueryStatistics.Marks
  cases hc : q.checkTetra t <;> cases ha : q.avoid_to_check_tetra t <;> simp [hc, ha]

/-- A loop whose body marks its id keeps the result vector duplicate-free. -/
theorem foldl_noDuplicates {α : Type} (f : QueryStatistics → α → QueryStatistics)
    (key : α → Nat) (hf : ∀ q x, QueryStatistics.Marks (key x) q (f q x))
    (xs : List α) (q : QueryStatistics) (hI : q.NoDuplicates) :
    (xs.foldl f q).NoDuplicates := by
  induction xs generalizing q with
  | nil => exact hI
  | cons x xs ih =>
    rw [List.foldl_cons]
    exact ih _ (marks_noDuplicates (key x) q _ (hf q x) hI)

/-- A loop whose body, when it returns, marks its id keeps the result vector
duplicate-free. -/
theorem forEach_noDuplicates {α : Type} (body : QueryStatistics → α → Option QueryStatistics)
    (key : α → Nat) (hf : ∀ q x, QueryStatistics.Marks (key x) q ((body q x).getD q))
    (xs : List α) (q q' : QueryStatistics)
    (h : Spatial_Queries.forEach body xs q = some q') (hI : q.NoDuplicates) :
    q'.NoDuplicates := by
  rw [forEach_eq_foldl body xs q q' h]
  exact foldl_noDuplicates _ key hf xs q hI

theorem counters_noDuplicates (q q' : QueryStatistics) (h1 : q'.tetrahedra = q.tetrahedra)
    (h2 : q'.checkTetra = q.checkTetra) (hI : q.NoDuplicates) : q'.NoDuplicates :=
  marks_noDuplicates 0 q q' (Or.inl ⟨h1, h2⟩) hI

theorem exec_box_query_leaf_test_noDuplicates (b : Box) (mesh : Mesh) (gs : Bool) :
    ∀ (ts : List Int) (q q' : QueryStatistics),
      Spatial_Queries.exec_box_query_leaf_test b mesh gs ts q = some q' →
      q.NoDuplicates → q'.NoDuplicates
  | [], q, q', h, hI => by
    simp only [Spatial_Queries.exec_box_query_leaf_test, Option.some.injEq] at h
    subst h; exact hI
  | [a], q, q', h, hI => by
    simp only [Spatial_Queries.exec_box_query_leaf_test] at h
    split_ifs at h
    have hm := atomic_tetra_in_box_test_marks a.toNat b q mesh gs
    rw [h, Option.getD_some] at hm
    exact marks_noDuplicates _ q _ hm hI
  | a :: len :: rest, q, q', h, hI => by
    simp only [Spatial_Queries.exec_box_query_leaf_test] at h
    split_ifs at h with h1 h2 h3 h4 h5 h6
    · obtain ⟨q1, hq1, hq2⟩ := Option.bind_eq_some.mp h
      exact exec_box_query_leaf_test_noDuplicates b mesh gs rest _ q' hq2
        (forEach_noDuplicates _ id (box_run_contained_step_marks gs) _ _ _ hq1
          (counters_noDuplicates q _ rfl rfl hI))
    · obtain ⟨q1, hq1, hq2⟩ := Option.bind_eq_some.mp h
      exact exec_box_query_leaf_test_noDuplicates b mesh gs rest _ q' hq2
        (forEach_noDuplicates _ id (box_run_contained_step_marks gs) _ _ _ hq1 hI)
    · obtain ⟨q1, hq1, hq2⟩ := Option.bind_eq_some.mp h
      exact exec_box_query_leaf_test_noDuplicates b mesh gs rest _ q' hq2
        (forEach_noDuplicates _ id (box_run_intersect_step_marks b mesh gs) _ _ _ hq1
          (counters_noDuplicates q _ rfl rfl hI))
    · obtain ⟨q1, hq1, hq2⟩ := Option.bind_eq_some.mp h
      exact exec_box_query_leaf_test_noDuplicates b mesh gs rest _ q' hq2
        (forEach_noDuplicates _ id (box_run_intersect_step_marks b mesh gs) _ _ _ hq1 hI)
    · exact exec_box_query_leaf_test_noDuplicates b mesh gs rest _ q' h
        (foldl_noDuplicates _ id box_run_disjoint_step_marks _ _
          (counters_noDuplicates q _ rfl rfl hI))
    · exact exec_box_query_leaf_test_noDuplicates b mesh gs rest _ q' h hI
    · obtain ⟨q1, hq1, hq2⟩ := Option.bind_eq_some.mp h
      have hm := atomic_tetra_in_box_test_marks a.toNat b q mesh gs
      rw [hq1, Option.getD_some] at hm
      exact exec_box_query_leaf_test_noDuplicates b mesh gs (len :: rest) _ q' hq2
        (marks_noDuplicates _ q _ hm hI)

/-- Without the statistics the leaf test of the box query returns on every
well-formed array. -/
theorem exec_box_query_leaf_test_returns (b : Box) (mesh : Mesh) :
    ∀ (ts : List Int) (q : QueryStatistics), wellFormedRuns ts = true →
      ∃ q', Spatial_Queries.exec_box_query_leaf_test b mesh false ts q = some q'
  | [], q, _ => ⟨q, by simp [Spatial_Queries.exec_box_query_leaf_test]⟩
  | [a], q, hw => by
    simp only [wellFormedRuns, decide_eq_true_eq] at hw
    simp only [Spatial_Queries.exec_box_query_leaf_test, not_lt.mpr (le_of_lt hw), if_false]
    exact atomic_tetra_in_box_test_returns a.toNat b q mesh
  | a :: len :: rest, q, hw => by
    simp only [wellFormedRuns] at hw
    simp only [Spatial_Queries.exec_box_query_leaf_test]
    by_cases ha : 0 < a
    · simp only [ha, if_true] at hw
      simp only [not_lt.mpr (le_of_lt ha), if_false]
      obtain ⟨q1, h1⟩ := atomic_tetra_in_box_test_returns a.toNat b q mesh
      obtain ⟨q2, h2⟩ := exec_box_query_leaf_test_returns b mesh (len :: rest) q1 hw
      exact ⟨q2, by simp [h1, h2]⟩
    · simp only [ha, if_false, Bool.and_eq_true, decide_eq_true_eq] at hw
      simp only [hw.1.1, if_true, Bool.false_eq_true, if_false]
      split_ifs
      · obtain ⟨q1, h1⟩ := forEach_returns _ box_run_contained_step_returns
          (RawNode.get_run_bounding_box mesh a.natAbs len).2 q
        obtain ⟨q2, h2⟩ := exec_box_query_leaf_test_returns b mesh rest q1 hw.2
        exact ⟨q2, by simp [h1, h2]⟩
      · obtain ⟨q1, h1⟩ := forEach_returns _ (box_run_intersect_step_returns b mesh)
          (RawNode.get_run_bounding_box mesh a.natAbs len).2 q
        obtain ⟨q2, h2⟩ := exec_box_query_leaf_test_returns b mesh rest q1 hw.2
        exact ⟨q2, by simp [h1, h2]⟩
      · exact exec_box_query_leaf_test_returns b mesh rest q hw.2

/-- C12: for every tree (the same tetrahedron possibly in several leaves), every
query box and both values of `get_stats`, the result vector that
`exec_box_query`, started on a reset `QueryStatistics`, produces contains no
tetrahedron id twice, and an id is in the result only if its `checkTetra` bit
is set; without the statistics (`get_stats = false`) the query returns on every
tree whose leaves hold well-formed (possibly run-compressed) tetrahedra
arrays. -/
theorem C12_box_query_no_duplicates (d : Subdivision) (b : Box) (mesh : Mesh)
    (get_stats : Bool) (fuel : Nat) (tree : RawNode) (dom : Box) (level : Nat)
    (qS : QueryStatistics) (hwf : tree.WellFormed fuel) :
    (∀ q, Spatial_Queries.exec_box_query d b mesh get_stats fuel tree dom level qS.reset
        = some q →
      q.tetrahedra.Nodup ∧ ∀ t ∈ q.tetrahedra, q.checkTetra t = true) ∧
    ∃ q, Spatial_Queries.exec_box_query d b mesh false fuel tree dom level qS.reset
      = some q := by
  refine ⟨fun q hq => ?_, ?_⟩
  · refine visit_invariant d _ _ _ QueryStatistics.NoDuplicates ?_ ?_ tree dom level qS.reset
      q hq ⟨by simp [QueryStatistics.reset], by simp [QueryStatistics.reset]⟩
    · intro s hI
      unfold Spatial_Queries.count_node
      cases get_stats
      · exact hI
      · exact counters_noDuplicates s _ rfl rfl hI
    · intro vs ts dom' s s' h hI
      unfold Spatial_Queries.exec_box_query_leaf at h
      have hI1 : (if get_stats then { s with numLeaf := s.numLeaf + 1 }
          else s).NoDuplicates := by
        cases get_stats
        · exact hI
        · exact counters_noDuplicates s _ rfl rfl hI
      by_cases hc : b.completely_contains dom' = true
      · simp only [hc, if_true, Spatial_Queries.add_tetrahedra_to_box_query_result] at h
        cases hcol : run_iterator.collect ts fuel with
        | none => simp [hcol] at h
        | some ids =>
          simp only [hcol] at h
          refine forEach_noDuplicates _ (fun t => t.toNat)
            (fun q x => add_tetrahedron_to_result_marks get_stats q x.toNat) ids _ _ h ?_
          cases get_stats
          · exact hI
          · exact counters_noDuplicates s _ rfl rfl hI
      · have hc' : b.completely_contains dom' = false := by simpa using hc
        simp only [hc', Bool.false_eq_true, if_false] at h
        exact exec_box_query_leaf_test_noDuplicates b mesh get_stats ts _ s' h hI1
  · exact visit_returns d (Spatial_Queries.count_node false)
      (fun dom => !dom.intersects b)
      (fun _ ts dom qS => Spatial_Queries.exec_box_query_leaf b mesh false fuel ts dom qS)
      (fun _ ts => wellFormedRuns ts = true ∧ (runExpansion ts).length < fuel)
      (by
        intro vs ts dom' s hP
        unfold Spatial_Queries.exec_box_query_leaf
        by_cases hc : b.completely_contains dom' = true
        · simp only [hc, if_true, Spatial_Queries.add_tetrahedra_to_box_query_result,
            collect_wellFormed ts hP.1 fuel hP.2]
          exact forEach_returns _
            (fun q (x : Int) => add_tetrahedron_to_result_returns q x.toNat) _ _
        · have hc' : b.completely_contains dom' = false := by simpa using hc
          simp only [hc', Bool.false_eq_true, if_false]
          exact exec_box_query_leaf_test_returns b mesh ts _ hP.1)
      tree dom level qS.reset hwf

/-- C12 on a reindexed tree over the cube mesh, with runs and with tetrahedra
listed in several leaves, for the query box `[1/4, 3/4]³`. -/
theorem C12_box_query_no_duplicates_witness :
    (∀ q, Spatial_Queries.exec_box_query Subdivision.OK
        ⟨⟨1 / 4, 1 / 4, 1 / 4⟩, ⟨3 / 4, 3 / 4, 3 / 4⟩⟩ Examples.cubeMesh false 13
        Examples.runTree Examples.cubeMesh.domain 0 (QueryStatistics.init 12).reset = some q →
      q.tetrahedra.Nodup ∧ ∀ t ∈ q.tetrahedra, q.checkTetra t = true) ∧
    ∃ q, Spatial_Queries.exec_box_query Subdivision.OK
        ⟨⟨1 / 4, 1 / 4, 1 / 4⟩, ⟨3 / 4, 3 / 4, 3 / 4⟩⟩ Examples.cubeMesh false 13
        Examples.runTree Examples.cubeMesh.domain 0 (QueryStatistics.init 12).reset = some q :=
  C12_box_query_no_duplicates Subdivision.OK ⟨⟨1 / 4, 1 / 4, 1 / 4⟩, ⟨3 / 4, 3 / 4, 3 / 4⟩⟩
    Examples.cubeMesh false 13 Examples.runTree Examples.cubeMesh.domain 0
    (QueryStatistics.init 12) (by
      simp only [RawNode.WellFormed, Examples.runTree, RawNode.AllLeaves,
        RawNode.AllLeavesSons]
      decide)

/-- The statistics run of the box query on the cube mesh, with the vector
`access_per_tetra` of the constructor (12 entries for the 12 tetrahedra): the
leaf that lists tetrahedron 12 increments `access_per_tetra[12]`, past the end
of the vector. With 13 entries the same run returns. -/
theorem exec_box_query_statistics_past_end :
    Spatial_Queries.exec_box_query Subdivision.OK
        ⟨⟨1 / 4, 1 / 4, 1 / 4⟩, ⟨3 / 4, 3 / 4, 3 / 4⟩⟩ Examples.cubeMesh true 13
        Examples.runTree Examples.cubeMesh.domain 0 (QueryStatistics.init 12).reset = none ∧
    (Spatial_Queries.exec_box_query Subdivision.OK
        ⟨⟨1 / 4, 1 / 4, 1 / 4⟩, ⟨3 / 4, 3 / 4, 3 / 4⟩⟩ Examples.cubeMesh true 13
        Examples.runTree Examples.cubeMesh.domain 0 (QueryStatistics.init 13).reset).isSome
      = true := by
  constructor
  · have h : (Spatial_Queries.exec_box_query Subdivision.OK
        ⟨⟨1 / 4, 1 / 4, 1 / 4⟩, ⟨3 / 4, 3 / 4, 3 / 4⟩⟩ Examples.cubeMesh true 13
        Examples.runTree Examples.cubeMesh.domain 0 (QueryStatistics.init 12).reset).isSome
        = false := by decide!
    exact Option.not_isSome_iff_eq_none.mp (by rw [h]; decide)
  · decide!

/-! ## Visits of a tree under construction -/

mutual
theorem toRaw_allLeaves (P : List Int → List Int → Prop) :
    ∀ n : Node, Node.AllLeaves
        (fun vs ts => P (vs.map Int.ofNat) (ts.map Int.ofNat)) n →
      RawNode.AllLeaves P n.toRaw
  | Node.leaf vs ts, h => by
    simpa [Node.toRaw, RawNode.AllLeaves, Node.AllLeaves] using h
  | Node.internal sons, h => by
    simp only [Node.AllLeaves] at h
    simp only [Node.toRaw, RawNode.AllLeaves]
    exact toRawSons_allLeaves P sons h
theorem toRawSons_allLeaves (P : List Int → List Int → Prop) :
    ∀ sons : List Node, Node.AllLeavesSons
        (fun vs ts => P (vs.map Int.ofNat) (ts.map Int.ofNat)) sons →
      RawNode.AllLeavesSons P (Node.toRawSons sons)
  | [], _ => by simp [Node.toRawSons, RawNode.AllLeavesSons]
  | s :: rest, h => by
    simp only [Node.AllLeavesSons] at h
    simp only [Node.toRawSons, RawNode.AllLeavesSons]
    exact ⟨toRaw_allLeaves P s h.1, toRawSons_allLeaves P rest h.2⟩
end

mutual
/-- A property of the state kept on entering a node and by the leaf procedure
on the arrays of the leaves of the tree is kept by the visit. -/
theorem visit_invariant_on {σ : Type} (d : Subdivision) (pre : σ → σ) (prune : Box → Bool)
    (leaf_fn : List Int → List Int → Box → σ → Option σ) (I : σ → Prop)
    (P : List Int → List Int → Prop) (hpre : ∀ s, I s → I (pre s))
    (hleaf : ∀ vs ts dom s s', P vs ts → leaf_fn vs ts dom s = some s' → I s → I s') :
    ∀ (n : RawNode) (dom : Box) (level : Nat) (s s' : σ), RawNode.AllLeaves P n →
      RawNode.visit d pre prune leaf_fn n dom level s = some s' → I s → I s'
  | RawNode.leaf vs ts, dom, level, s, s', hn, h, hI => by
    simp only [RawNode.visit] at h
    simp only [RawNode.AllLeaves] at hn
    by_cases hp : prune dom = true
    · simp only [hp, if_true, Option.some.injEq] at h
      subst h; exact hpre s hI
    · have hp' : prune dom = false := by simpa using hp
      simp only [hp', Bool.false_eq_true, if_false] at h
      exact hleaf vs ts dom _ s' hn h (hpre s hI)
  | RawNode.internal sons, dom, level, s, s', hn, h, hI => by
    simp only [RawNode.visit] at h
    simp only [RawNode.AllLeaves] at hn
    by_cases hp : prune dom = true
    · simp only [hp, if_true, Option.some.injEq] at h
      subst h; exact hpre s hI
    · have hp' : prune dom = false := by simpa using hp
      simp only [hp', Bool.false_eq_true, if_false] at h
      exact visitSons_invariant_on d pre prune leaf_fn I P hpre hleaf sons dom level 0 _ s'
        hn h (hpre s hI)
theorem visitSons_invariant_on {σ : Type} (d : Subdivision) (pre : σ → σ)
    (prune : Box → Bool) (leaf_fn : List Int → List Int → Box → σ → Option σ) (I : σ → Prop)
    (P : List Int → List Int → Prop) (hpre : ∀ s, I s → I (pre s))
    (hleaf : ∀ vs ts dom s s', P vs ts → leaf_fn vs ts dom s = some s' → I s → I s') :
    ∀ (sons : List RawNode) (dom : Box) (level i : Nat) (s s' : σ),
      RawNode.AllLeavesSons P sons →
      RawNode.visitSons d pre prune leaf_fn sons dom level i s = some s' → I s → I s'
  | [], _, _, _, s, s', _, h, hI => by
    simp only [RawNode.visitSons, Option.some.injEq] at h
    subst h; exact hI
  | n :: rest, dom, level, i, s, s', hn, h, hI => by
    simp only [RawNode.visitSons] at h
    simp only [RawNode.AllLeavesSons] at hn
    cases h1 : RawNode.visit d pre prune leaf_fn n (d.compute_domain dom level i)
        (level + 1) s with
    | none => simp [h1] at h
    | some s1 =>
      simp only [h1] at h
      exact visitSons_invariant_on d pre prune leaf_fn I P hpre hleaf rest dom level (i + 1)
        s1 s' hn.2 h
        (visit_invariant_on d pre prune leaf_fn I P hpre hleaf n _ _ s s1 hn.1 h1 hI)
end

mutual
/-- A visit that does not prune the boxes containing the point `p` runs the
leaf procedure on every leaf whose box contains `p`: what the procedure
establishes there (`E`) holds at the end, when the rest of the visit keeps
it. -/
theorem visit_reaches {σ : Type} (d : Subdivision) (pre : σ → σ) (prune : Box → Bool)
    (leaf_fn : List Int → List Int → Box → σ → Option σ) (I E : σ → Prop)
    (P : List Int → List Int → Prop) (p dmax : Point) (x : Box × List Nat × List Nat)
    (hpreI : ∀ s, I s → I (pre s))
    (hleafI : ∀ vs ts dom s s', P vs ts → leaf_fn vs ts dom s = some s' → I s → I s')
    (hpreE : ∀ s, I s → E s → E (pre s))
    (hleafE : ∀ vs ts dom s s', P vs ts → leaf_fn vs ts dom s = some s' → I s → E s → E s')
    (hprune : ∀ B : Box, B.contains p dmax = true → prune B = false)
    (hx : x.1.contains p dmax = true)
    (hest : ∀ s s', I s → leaf_fn (x.2.1.map Int.ofNat)
      (x.2.2.map Int.ofNat) x.1 s = some s' → E s') :
    ∀ (n : Node) (dom : Box) (level : Nat) (s s' : σ), RawNode.AllLeaves P n.toRaw →
      x ∈ Node.leaves d n dom level →
      RawNode.visit d pre prune leaf_fn n.toRaw dom level s = some s' → I s → E s'
  | Node.leaf vs ts, dom, level, s, s', _, hmem, h, hI => by
    simp only [Node.leaves, List.mem_singleton] at hmem
    subst hmem
    simp only [Node.toRaw, RawNode.visit, hprune _ hx, Bool.false_eq_true, if_false] at h
    exact hest _ s' (hpreI s hI) h
  | Node.internal sons, dom, level, s, s', hn, hmem, h, hI => by
    have hdom := leaf_contains_root d p dmax (Node.internal sons) dom level x hmem hx
    simp only [Node.leaves] at hmem
    simp only [Node.toRaw, RawNode.AllLeaves] at hn
    simp only [Node.toRaw, RawNode.visit, hprune _ hdom, Bool.false_eq_true, if_false] at h
    exact visitSons_reaches d pre prune leaf_fn I E P p dmax x hpreI hleafI hpreE hleafE
      hprune hx hest sons dom level 0 _ s' hn hmem h (hpreI s hI)
theorem visitSons_reaches {σ : Type} (d : Subdivision) (pre : σ → σ) (prune : Box → Bool)
    (leaf_fn : List Int → List Int → Box → σ → Option σ) (I E : σ → Prop)
    (P : List Int → List Int → Prop) (p dmax : Point) (x : Box × List Nat × List Nat)
    (hpreI : ∀ s, I s → I (pre s))
    (hleafI : ∀ vs ts dom s s', P vs ts → leaf_fn vs ts dom s = some s' → I s → I s')
    (hpreE : ∀ s, I s → E s → E (pre s))
    (hleafE : ∀ vs ts dom s s', P vs ts → leaf_fn vs ts dom s = some s' → I s → E s → E s')
    (hprune : ∀ B : Box, B.contains p dmax = true → prune B = false)
    (hx : x.1.contains p dmax = true)
    (hest : ∀ s s', I s → leaf_fn (x.2.1.map Int.ofNat)
      (x.2.2.map Int.ofNat) x.1 s = some s' → E s') :
    ∀ (sons : List Node) (dom : Box) (level i : Nat) (s s' : σ),
      RawNode.AllLeavesSons P (Node.toRawSons sons) →
      x ∈ Node.leavesOfSons d sons dom level i →
      RawNode.visitSons d pre prune leaf_fn (Node.toRawSons sons) dom level i s = some s' →
      I s → E s'
  | [], _, _, _, _, _, _, hmem, _, _ => by simp [Node.leavesOfSons] at hmem
  | n :: rest, dom, level, i, s, s', hn, hmem, h, hI => by
    simp only [Node.toRawSons, RawNode.AllLeavesSons] at hn
    simp only [Node.toRawSons, RawNode.visitSons] at h
    simp only [Node.leavesOfSons, List.mem_append] at hmem
    cases h1 : RawNode.visit d pre prune leaf_fn n.toRaw (d.compute_domain dom level i)
        (level + 1) s with
    | none => simp [h1] at h
    | some s1 =>
      simp only [h1] at h
      have hI1 : I s1 :=
        visit_invariant_on d pre prune leaf_fn I P hpreI hleafI n.toRaw _ _ s s1 hn.1 h1 hI
      rcases hmem with hmem | hmem
      · have hE1 : E s1 :=
          visit_reaches d pre prune leaf_fn I E P p dmax x hpreI hleafI hpreE hleafE hprune hx
            hest n _ _ s s1 hn.1 hmem h1 hI
        have := visitSons_invariant_on d pre prune leaf_fn (fun s => I s ∧ E s) P
          (fun s hs => ⟨hpreI s hs.1, hpreE s hs.1 hs.2⟩)
          (fun vs ts dom s s' hP hl hs =>
            ⟨hleafI vs ts dom s s' hP hl hs.1, hleafE vs ts dom s s' hP hl hs.1 hs.2⟩)
          (Node.toRawSons rest) dom level (i + 1) s1 s' hn.2 h ⟨hI1, hE1⟩
        exact this.2
      · exact visitSons_reaches d pre prune leaf_fn I E P p dmax x hpreI hleafI hpreE hleafE
          hprune hx hest rest dom level (i + 1) s1 s' hn.2 hmem h hI1
end

/-! ## Leaves of a built tree as the queries read them -/

theorem runExpansion_plain : ∀ ts : List Nat,
    runExpansion (ts.map Int.ofNat) = ts.map Int.ofNat
  | [] => rfl
  | [_] => rfl
  | a :: b :: rest => by
    have ih := runExpansion_plain (b :: rest)
    simp only [List.map_cons] at ih ⊢
    simp only [runExpansion, ih]
    simp

theorem wellFormedRuns_plain : ∀ ts : List Nat, (∀ x ∈ ts, 1 ≤ x) →
    wellFormedRuns (ts.map Int.ofNat) = true
  | [], _ => rfl
  | [a], h => by
    have := h a (by simp)
    simp only [List.map_cons, List.map_nil, wellFormedRuns, decide_eq_true_eq,
      Int.ofNat_eq_coe]
    omega
  | a :: b :: rest, h => by
    have ha := h a (by simp)
    have ih := wellFormedRuns_plain (b :: rest) (fun x hx => h x (List.mem_cons_of_mem _ hx))
    simp only [List.map_cons] at ih ⊢
    have ha' : (0 : Int) < Int.ofNat a := by
      simp only [Int.ofNat_eq_coe]; omega
    simp only [wellFormedRuns, ha', if_true, ih]

theorem collect_plain (ts : List Nat) (h : ∀ x ∈ ts, 1 ≤ x) (fuel : Nat)
    (hf : ts.length < fuel) :
    run_iterator.collect (ts.map Int.ofNat) fuel
      = some (ts.map Int.ofNat) := by
  have := collect_wellFormed (ts.map Int.ofNat) (wellFormedRuns_plain ts h) fuel
    (by rw [runExpansion_plain]; simpa using hf)
  rw [this, runExpansion_plain]

theorem sorted_length_le (n : Nat) (ts : List Nat) (hp : ts.Pairwise (fun x y => x < y))
    (hb : ∀ x ∈ ts, 1 ≤ x ∧ x ≤ n) : ts.length ≤ n := by
  have hnd : ts.Nodup := hp.imp (fun h => Nat.ne_of_lt h)
  have hsub : ts ⊆ List.range' 1 n := fun x hx =>
    List.mem_range'_1.mpr ⟨(hb x hx).1, by have := (hb x hx).2; omega⟩
  have := (List.subperm_of_subset hnd hsub).length_le
  simpa using this

/-- The leaves of a built tree hold plain arrays. -/
theorem builtTree_plain (d : Subdivision) (mesh : Mesh) (tree : Node)
    (h : BuiltTree d mesh tree) :
    RawNode.AllLeaves (fun _ ts => PlainArray mesh.get_num_tetrahedra ts) tree.toRaw := by
  apply toRaw_allLeaves
  refine allLeaves_mono _ _ ?_ tree (builtTree_invariants d mesh tree h).2.2
  intro vs ts hp
  exact ⟨ts, rfl, hp.1, fun x hx => ⟨(hp.2 x hx).1, by have := (hp.2 x hx).2; omega⟩⟩

theorem forEach_map {σ α β : Type} (body : σ → β → Option σ) (f : α → β) :
    ∀ (xs : List α) (s : σ),
      Spatial_Queries.forEach body (xs.map f) s
        = Spatial_Queries.forEach (fun q x => body q (f x)) xs s
  | [], _ => rfl
  | x :: xs, s => by
    simp only [List.map_cons, Spatial_Queries.forEach]
    congr 1
    funext s1
    exact forEach_map body f xs s1

theorem exec_box_query_leaf_test_plain (b : Box) (mesh : Mesh) (gs : Bool) :
    ∀ (ts : List Nat) (q : QueryStatistics),
      Spatial_Queries.exec_box_query_leaf_test b mesh gs (ts.map Int.ofNat) q
        = Spatial_Queries.forEach
            (fun q t => Spatial_Queries.atomic_tetra_in_box_test t b q mesh gs) ts q
  | [], q => rfl
  | [a], q => by
    have ha : ¬ (Int.ofNat a < 0) := by
      simp only [Int.ofNat_eq_coe]; omega
    have hn : (Int.ofNat a).toNat = a := rfl
    simp only [List.map_cons, List.map_nil, Spatial_Queries.exec_box_query_leaf_test, ha,
      if_false, hn, Spatial_Queries.forEach]
    cases Spatial_Queries.atomic_tetra_in_box_test a b q mesh gs <;> rfl
  | a :: c :: rest, q => by
    have ih := exec_box_query_leaf_test_plain b mesh gs (c :: rest)
    simp only [List.map_cons] at ih ⊢
    have ha : ¬ (Int.ofNat a < 0) := by
      simp only [Int.ofNat_eq_coe]; omega
    have hn : (Int.ofNat a).toNat = a := rfl
    simp only [Spatial_Queries.exec_box_query_leaf_test, ha, if_false, hn]
    rw [Spatial_Queries.forEach]
    congr 1
    funext q1
    exact ih q1

theorem add_tetrahedra_to_box_query_result_plain (fuel : Nat) (ts : List Nat)
    (h : ∀ x ∈ ts, 1 ≤ x) (hf : ts.length < fuel) (q : QueryStatistics) (gs : Bool) :
    Spatial_Queries.add_tetrahedra_to_box_query_result fuel (ts.map Int.ofNat) q gs
      = Spatial_Queries.forEach
          (fun q t => Spatial_Queries.add_tetrahedron_to_result gs q t) ts q := by
  simp only [Spatial_Queries.add_tetrahedra_to_box_query_result, collect_plain ts h fuel hf,
    forEach_map, Int.ofNat_eq_coe, Int.toNat_ofNat]

/-! ## Box queries: the box of the whole domain -/

theorem tetra_in_box_strict_of_inside (minF maxF : Point) (c : Fin 4 → Point) (i : Fin 4)
    (h : minF.x < (c i).x ∧ (c i).x < maxF.x ∧ minF.y < (c i).y ∧ (c i).y < maxF.y ∧
      minF.z < (c i).z ∧ (c i).z < maxF.z) :
    Geometry.tetra_in_box_strict minF maxF c = true := by
  unfold Geometry.tetra_in_box_strict
  have h1 : (List.finRange 3).any (fun j =>
      decide (((c 0).get_c j ≤ minF.get_c j ∧ (c 1).get_c j ≤ minF.get_c j ∧
          (c 2).get_c j ≤ minF.get_c j ∧ (c 3).get_c j ≤ minF.get_c j) ∨
        ((c 0).get_c j ≥ maxF.get_c j ∧ (c 1).get_c j ≥ maxF.get_c j ∧
          (c 2).get_c j ≥ maxF.get_c j ∧ (c 3).get_c j ≥ maxF.get_c j))) = false := by
    rw [List.any_eq_false]
    intro j _
    simp only [decide_eq_true_eq]
    obtain ⟨hx1, hx2, hy1, hy2, hz1, hz2⟩ := h
    rintro (⟨a0, a1, a2, a3⟩ | ⟨a0, a1, a2, a3⟩) <;>
      fin_cases j <;> fin_cases i <;> simp only [Point.get_c] at a0 a1 a2 a3 <;>
      first | exact absurd hx1 (not_lt.mpr (by assumption))
            | exact absurd hx2 (not_lt.mpr (by assumption))
            | exact absurd hy1 (not_lt.mpr (by assumption))
            | exact absurd hy2 (not_lt.mpr (by assumption))
            | exact absurd hz1 (not_lt.mpr (by assumption))
            | exact absurd hz2 (not_lt.mpr (by assumption))
  have h2 : (List.finRange 4).any (fun i =>
      decide (minF.x < (c i).x ∧ (c i).x < maxF.x ∧ minF.y < (c i).y ∧ (c i).y < maxF.y ∧
        minF.z < (c i).z ∧ (c i).z < maxF.z)) = true := by
    rw [List.any_eq_true]
    exact ⟨i, List.mem_finRange i, by simpa using h⟩
  rw [h1, h2]
  simp

/-- A tetrahedron with a vertex strictly inside a box passes `tetra_in_box`. -/
theorem tetra_in_box_of_inside (t : Nat) (b : Box) (mesh : Mesh) (j : Fin 4)
    (h : b.strictly_contains (mesh.tetra_vertex t j)) :
    Geometry_Wrapper.tetra_in_box t b mesh = true :=
  tetra_in_box_strict_of_inside _ _ _ j h

/-- Two boxes with a common point intersect. -/
theorem intersects_of_common_point (B b : Box) (p dmax : Point)
    (h1 : B.contains p dmax = true) (h2 : b.contains_with_all_closed_faces p = true) :
    B.intersects b = true := by
  rw [contains_iff] at h1
  have hx := h1 0
  have hy := h1 1
  have hz := h1 2
  simp only [Box.contains_with_all_closed_faces, Box.is_in_range_all_closed, Point.get_c,
    Bool.and_eq_true] at h2
  simp only [Point.get_c] at hx hy hz
  obtain ⟨⟨bx, b_y⟩, bz⟩ := h2
  split_ifs at bx b_y bz with c1 c2 c3
  push_neg at c1 c2 c3
  have Px : p.x ≤ B.max.x := by
    rcases hx.2 with h | h
    · exact le_of_lt h
    · exact le_of_eq h.2
  have Py : p.y ≤ B.max.y := by
    rcases hy.2 with h | h
    · exact le_of_lt h
    · exact le_of_eq h.2
  have Pz : p.z ≤ B.max.z := by
    rcases hz.2 with h | h
    · exact le_of_lt h
    · exact le_of_eq h.2
  unfold Box.intersects
  have e1 : ¬ (B.max.x < b.min.x) := by linarith [c1.2]
  have e2 : ¬ (B.min.x > b.max.x) := by linarith [hx.1, c1.1]
  have e3 : ¬ (B.max.y < b.min.y) := by linarith [c2.2]
  have e4 : ¬ (B.min.y > b.max.y) := by linarith [hy.1, c2.1]
  have e5 : ¬ (B.max.z < b.min.z) := by linarith [c3.2]
  have e6 : ¬ (B.min.z > b.max.z) := by linarith [hz.1, c3.1]
  simp [e1, e2, e3, e4, e5, e6]

theorem atomic_tetra_in_box_test_pushes (t : Nat) (b : Box) (q : QueryStatistics)
    (mesh : Mesh) (gs : Bool) (h : Geometry_Wrapper.tetra_in_box t b mesh = true) :
    ∀ q', Spatial_Queries.atomic_tetra_in_box_test t b q mesh gs = some q' →
      QueryStatistics.Pushes t q q' := by
  unfold Spatial_Queries.atomic_tetra_in_box_test QueryStatistics.Pushes
  intro q' hq
  by_cases hl : t < q.access_per_tetra.length <;>
    cases hc : q.checkTetra t <;> cases gs <;>
    simp [QueryStatistics.count_access_if, QueryStatistics.count_access, hl, hc, h] at hq ⊢ <;>
    subst hq <;> simp [hc]

theorem add_tetrahedron_to_result_pushes (gs : Bool) (q : QueryStatistics) (t : Nat) :
    ∀ q', Spatial_Queries.add_tetrahedron_to_result gs q t = some q' →
      QueryStatistics.Pushes t q q' := by
  unfold Spatial_Queries.add_tetrahedron_to_result QueryStatistics.Pushes
  intro q' hq
  by_cases hl : t < q.access_per_tetra.length <;>
    cases hc : q.checkTetra t <;> cases gs <;>
    simp [QueryStatistics.count_access_if, QueryStatistics.count_access, hl, hc] at hq ⊢ <;>
    subst hq <;> simp [hc]

theorem exact_congr (n : Nat) (q q' : QueryStatistics) (h1 : q'.tetrahedra = q.tetrahedra)
    (h2 : q'.checkTetra = q.checkTetra) (h : q.Exact n) : q'.Exact n := by
  unfold QueryStatistics.Exact at h ⊢
  rw [h1, h2]
  exact h

theorem pushes_exact (n t : Nat) (q q' : QueryStatistics) (ht : 1 ≤ t ∧ t ≤ n)
    (h : QueryStatistics.Pushes t q q') (hE : q.Exact n) : q'.Exact n := by
  rcases h with ⟨_, h1, h2⟩ | ⟨h0, h1, h2⟩
  · exact exact_congr n q q' h1 h2 hE
  · obtain ⟨hnd, hr, hiff⟩ := hE
    have hnot : t ∉ q.tetrahedra := fun hm => by
      have := (hiff t ht.1 ht.2).mpr hm
      rw [h0] at this
      exact absurd this (by decide)
    refine ⟨?_, ?_, ?_⟩
    · rw [h2]
      exact List.Nodup.append hnd (List.nodup_singleton t) (by simpa using hnot)
    · intro x hx
      rw [h2, List.mem_append, List.mem_singleton] at hx
      rcases hx with hx | hx
      · exact hr x hx
      · subst hx; exact ht
    · intro x hx1 hx2
      rw [h1, h2, List.mem_append, List.mem_singleton]
      by_cases hxt : x = t
      · subst hxt; simp
      · rw [Function.update_noteq hxt, hiff x hx1 hx2]
        simp [hxt]

theorem pushes_sets (t : Nat) (q q' : QueryStatistics) (h : QueryStatistics.Pushes t q q') :
    q'.checkTetra t = true ∧ ∀ x, q.checkTetra x = true → q'.checkTetra x = true := by
  rcases h with ⟨h0, _, h2⟩ | ⟨_, h1, _⟩
  · rw [h2]; exact ⟨h0, fun x hx => hx⟩
  · rw [h1]
    refine ⟨by simp, fun x hx => ?_⟩
    by_cases hxt : x = t
    · subst hxt; simp
    · rw [Function.update_noteq hxt]; exact hx

/-- A loop over the ids of a leaf whose body, when it returns, reports its id:
if the loop returns, the result stays exact, no bit is cleared and the bits of
the ids of the leaf are set. -/
theorem forEach_pushes (n : Nat) (body : QueryStatistics → Nat → Option QueryStatistics) :
    ∀ (ts : List Nat), (∀ t ∈ ts, 1 ≤ t ∧ t ≤ n) →
      (∀ q, ∀ t ∈ ts, ∀ q', body q t = some q' → QueryStatistics.Pushes t q q') →
      ∀ (q q' : QueryStatistics), Spatial_Queries.forEach body ts q = some q' →
        (q.Exact n → q'.Exact n) ∧
        (∀ x, q.checkTetra x = true → q'.checkTetra x = true) ∧
        (∀ t ∈ ts, q'.checkTetra t = true)
  | [], _, _, q, q', h => by
    simp only [Spatial_Queries.forEach, Option.some.injEq] at h
    subst h
    exact ⟨fun h => h, fun _ h => h, fun t ht => by simp at ht⟩
  | a :: ts, hr, hf, q, q', h => by
    simp only [Spatial_Queries.forEach, Option.bind_eq_some] at h
    obtain ⟨q1, h1, h2⟩ := h
    have hp := hf q a (by simp) q1 h1
    obtain ⟨i1, i2, i3⟩ := forEach_pushes n body ts
      (fun t ht => hr t (List.mem_cons_of_mem _ ht))
      (fun q t ht => hf q t (List.mem_cons_of_mem _ ht)) q1 q' h2
    refine ⟨fun h => i1 (pushes_exact n a q _ (hr a (by simp)) hp h),
      fun x hx => i2 x ((pushes_sets a q _ hp).2 x hx), fun t ht => ?_⟩
    rcases List.mem_cons.mp ht with ht | ht
    · subst ht; exact i2 _ (pushes_sets _ q _ hp).1
    · exact i3 t ht

/-- The leaf procedure of `exec_box_query` on a plain array whose tetrahedra all
pass `tetra_in_box` for the query box: what it returns. -/
theorem box_leaf_plain (b : Box) (mesh : Mesh) (gs : Bool) (fuel n : Nat)
    (hall : ∀ t, 1 ≤ t → t ≤ n → Geometry_Wrapper.tetra_in_box t b mesh = true)
    (hfuel : n < fuel) (ts0 : List Nat)
    (hp : ts0.Pairwise (fun x y => x < y)) (hr : ∀ x ∈ ts0, 1 ≤ x ∧ x ≤ n)
    (dom : Box) (s s' : QueryStatistics)
    (h : Spatial_Queries.exec_box_query_leaf b mesh gs fuel (ts0.map Int.ofNat) dom s
      = some s') :
    (s.Exact n → s'.Exact n) ∧
    (∀ x, s.checkTetra x = true → s'.checkTetra x = true) ∧
    (∀ t ∈ ts0, s'.checkTetra t = true) := by
  have hlen : ts0.length < fuel := lt_of_le_of_lt (sorted_length_le n ts0 hp hr) hfuel
  unfold Spatial_Queries.exec_box_query_leaf at h
  by_cases hc : b.completely_contains dom = true
  · simp only [hc, if_true] at h
    rw [add_tetrahedra_to_box_query_result_plain fuel ts0 (fun x hx => (hr x hx).1) hlen] at h
    have := forEach_pushes n (fun q t => Spatial_Queries.add_tetrahedron_to_result gs q t)
      ts0 hr (fun q t _ => add_tetrahedron_to_result_pushes gs q t) _ s' h
    cases gs
    · exact this
    · exact ⟨fun h => this.1 (exact_congr n s _ rfl rfl h), this.2.1, this.2.2⟩
  · have hc' : b.completely_contains dom = false := by simpa using hc
    simp only [hc', Bool.false_eq_true, if_false] at h
    rw [exec_box_query_leaf_test_plain] at h
    have := forEach_pushes n
      (fun q t => Spatial_Queries.atomic_tetra_in_box_test t b q mesh gs) ts0 hr
      (fun q t ht => atomic_tetra_in_box_test_pushes t b q mesh gs
        (hall t (hr t ht).1 (hr t ht).2)) _ s' h
    cases gs
    · exact this
    · exact ⟨fun h => this.1 (exact_congr n s _ rfl rfl h), this.2.1, this.2.2⟩

/-- Without the statistics the leaf procedure of `exec_box_query` returns on
every plain array. -/
theorem box_leaf_plain_returns (b : Box) (mesh : Mesh) (fuel n : Nat)
    (hfuel : n < fuel) (ts0 : List Nat)
    (hp : ts0.Pairwise (fun x y => x < y)) (hr : ∀ x ∈ ts0, 1 ≤ x ∧ x ≤ n)
    (dom : Box) (s : QueryStatistics) :
    ∃ s', Spatial_Queries.exec_box_query_leaf b mesh false fuel (ts0.map Int.ofNat) dom s
      = some s' := by
  have hlen : ts0.length < fuel := lt_of_le_of_lt (sorted_length_le n ts0 hp hr) hfuel
  unfold Spatial_Queries.exec_box_query_leaf
  by_cases hc : b.completely_contains dom = true
  · simp only [hc, if_true]
    rw [add_tetrahedra_to_box_query_result_plain fuel ts0 (fun x hx => (hr x hx).1) hlen]
    exact forEach_returns _ add_tetrahedron_to_result_returns _ _
  · have hc' : b.completely_contains dom = false := by simpa using hc
    simp only [hc', Bool.false_eq_true, if_false]
    rw [exec_box_query_leaf_test_plain]
    exact forEach_returns _ (fun q t => atomic_tetra_in_box_test_returns t b q mesh) _ _

/-- The leaves of a built tree, as listed by `Node.leaves`, hold strictly
increasing arrays of ids in `1..|T|`. -/
theorem builtTree_leaves (d : Subdivision) (mesh : Mesh) (tree : Node)
    (h : BuiltTree d mesh tree) (dom : Box) (level : Nat) :
    ∀ x ∈ Node.leaves d tree dom level, x.2.2.Pairwise (fun a b => a < b) ∧
      ∀ t ∈ x.2.2, 1 ≤ t ∧ t ≤ mesh.get_num_tetrahedra := by
  intro x hx
  have := allLeaves_leaves d _ tree dom level (builtTree_invariants d mesh tree h).2.2 x hx
  exact ⟨this.1, fun t ht => ⟨(this.2 t ht).1, by have := (this.2 t ht).2; omega⟩⟩

/-- In a built tree, for every vertex of a tetrahedron there is a leaf whose
box contains the vertex, and every such leaf lists the tetrahedron. -/
theorem builtTree_vertex_leaf (d : Subdivision) (mesh : Mesh) (tree : Node)
    (hwf : mesh.wellFormed) (h : BuiltTree d mesh tree) (t : Nat) (h1 : 1 ≤ t)
    (h2 : t ≤ mesh.get_num_tetrahedra) (j : Fin 4) :
    (∃ x ∈ Node.leaves d tree mesh.domain 0,
      x.1.contains (mesh.tetra_vertex t j) mesh.domain.max = true) ∧
    ∀ x ∈ Node.leaves d tree mesh.domain 0,
      x.1.contains (mesh.tetra_vertex t j) mesh.domain.max = true → t ∈ x.2.2 := by
  obtain ⟨hs, hc, _⟩ := builtTree_invariants d mesh tree h
  exact ⟨exists_leaf_contains d _ _ tree mesh.domain 0 hs
      (domain_contains_tetra_vertex mesh hwf t h1 h2 j),
    covers_leaf d _ _ t tree mesh.domain 0 (hc t j h1 h2)⟩

/-- C13: for every mesh (vertex indices in range, vertices inside the domain)
in which each tetrahedron has at least one vertex strictly inside the mesh
domain, and every tree built on it by one of the four classes, the result of
the box query whose box is the mesh domain, started on a reset
`QueryStatistics`, holds every tetrahedron of the mesh, each exactly once (a
permutation of the ids `1..|T|`), for both values of `get_stats`; without the
statistics (`get_stats = false`) the query returns. -/
theorem C13_domain_box_query_returns_all (d : Subdivision) (mesh : Mesh) (tree : Node)
    (get_stats : Bool) (fuel : Nat) (qS : QueryStatistics) (hwf : mesh.wellFormed)
    (hb : BuiltTree d mesh tree)
    (hin : ∀ t, 1 ≤ t → t ≤ mesh.get_num_tetrahedra →
      ∃ j, mesh.domain.strictly_contains (mesh.tetra_vertex t j))
    (hfuel : mesh.get_num_tetrahedra < fuel) :
    (∀ q, Spatial_Queries.exec_box_query d mesh.domain mesh get_stats fuel tree.toRaw
        mesh.domain 0 qS.reset = some q →
      q.tetrahedra.Perm (List.range' 1 mesh.get_num_tetrahedra)) ∧
    ∃ q, Spatial_Queries.exec_box_query d mesh.domain mesh false fuel tree.toRaw
      mesh.domain 0 qS.reset = some q := by
  have hplain := builtTree_plain d mesh tree hb
  refine ⟨fun q hq => ?_, visit_returns d (Spatial_Queries.count_node false)
    (fun dom => !dom.intersects mesh.domain)
    (fun _ ts dom qS =>
      Spatial_Queries.exec_box_query_leaf mesh.domain mesh false fuel ts dom qS)
    (fun _ ts => PlainArray mesh.get_num_tetrahedra ts)
    (fun vs ts dom s hP => by
      obtain ⟨ts0, rfl, hp, hr⟩ := hP
      exact box_leaf_plain_returns mesh.domain mesh fuel _ hfuel ts0 hp hr dom s)
    tree.toRaw mesh.domain 0 qS.reset hplain⟩
  have hall : ∀ t, 1 ≤ t → t ≤ mesh.get_num_tetrahedra →
      Geometry_Wrapper.tetra_in_box t mesh.domain mesh = true := by
    intro t h1 h2
    obtain ⟨j, hj⟩ := hin t h1 h2
    exact tetra_in_box_of_inside t mesh.domain mesh j hj
  have hpre : ∀ s : QueryStatistics, s.Exact mesh.get_num_tetrahedra →
      (Spatial_Queries.count_node get_stats s).Exact mesh.get_num_tetrahedra := by
    intro s hs
    unfold Spatial_Queries.count_node
    cases get_stats
    · exact hs
    · exact exact_congr _ s _ rfl rfl hs
  have hpreC : ∀ (s : QueryStatistics) (x : Nat), s.checkTetra x = true →
      (Spatial_Queries.count_node get_stats s).checkTetra x = true := by
    intro s x hs
    unfold Spatial_Queries.count_node
    cases get_stats <;> exact hs
  have hleafI : ∀ (ts : List Int) (dom : Box) (s s' : QueryStatistics),
      PlainArray mesh.get_num_tetrahedra ts →
      Spatial_Queries.exec_box_query_leaf mesh.domain mesh get_stats fuel ts dom s = some s' →
      (s.Exact mesh.get_num_tetrahedra → s'.Exact mesh.get_num_tetrahedra) ∧
      (∀ x, s.checkTetra x = true → s'.checkTetra x = true) ∧
      (∀ ts0 : List Nat, ts = ts0.map Int.ofNat → ∀ t ∈ ts0, s'.checkTetra t = true) := by
    intro ts dom s s' hP h
    obtain ⟨ts0, rfl, hp, hr⟩ := hP
    obtain ⟨f1, f2, f3⟩ := box_leaf_plain mesh.domain mesh get_stats fuel _ hall
      hfuel ts0 hp hr dom s s' h
    refine ⟨f1, f2, fun ts1 he t ht => f3 t ?_⟩
    have : ts0 = ts1 := List.map_injective_iff.mpr (fun a b hab => Int.ofNat.inj hab) he
    rw [this]; exact ht
  have hExact : q.Exact mesh.get_num_tetrahedra :=
    visit_invariant_on d _ _ _ (QueryStatistics.Exact mesh.get_num_tetrahedra) _ hpre
      (fun vs ts dom s s' hP h hI => (hleafI ts dom s s' hP h).1 hI)
      tree.toRaw mesh.domain 0 qS.reset q hplain hq
      ⟨by simp [QueryStatistics.reset], by simp [QueryStatistics.reset],
        by simp [QueryStatistics.reset]⟩
  have hchecked : ∀ t, 1 ≤ t → t ≤ mesh.get_num_tetrahedra → q.checkTetra t = true := by
    intro t h1 h2
    obtain ⟨j, hj⟩ := hin t h1 h2
    obtain ⟨⟨x, hx, hxin⟩, hlist⟩ := builtTree_vertex_leaf d mesh tree hwf hb t h1 h2 j
    have hxl := builtTree_leaves d mesh tree hb mesh.domain 0 x hx
    refine visit_reaches d _ _ _ (fun _ => True) (fun s => s.checkTetra t = true) _
      (mesh.tetra_vertex t j) mesh.domain.max x (fun _ _ => trivial)
      (fun _ _ _ _ _ _ _ _ => trivial) (fun s _ hs => hpreC s t hs)
      (fun vs ts dom s s' hP h _ hs => (hleafI ts dom s s' hP h).2.1 t hs)
      (fun B hB => ?_) hxin (fun s s' _ h => ?_) tree mesh.domain 0 qS.reset q hplain hx hq
      trivial
    · have hclosed : mesh.domain.contains_with_all_closed_faces (mesh.tetra_vertex t j)
          = true := by
        rw [← contains_own_max]
        exact domain_contains_tetra_vertex mesh hwf t h1 h2 j
      simp [intersects_of_common_point B mesh.domain _ _ hB hclosed]
    · exact (hleafI _ x.1 s s' ⟨x.2.2, rfl, hxl.1, hxl.2⟩ h).2.2 x.2.2 rfl t
        (hlist x hx hxin)
  obtain ⟨hnd, hr, hiff⟩ := hExact
  rw [List.perm_ext_iff_of_nodup hnd (List.nodup_range' 1 _)]
  intro t
  rw [List.mem_range'_1]
  constructor
  · intro ht
    have := hr t ht
    omega
  · intro ht
    exact (hiff t ht.1 (by omega)).mp (hchecked t ht.1 (by omega))

/-- The centre of the cube, fourth vertex of each of the twelve tetrahedra,
lies strictly inside the domain. -/
theorem cubeMesh_centre_inside (t : Nat) (h1 : 1 ≤ t)
    (h2 : t ≤ Examples.cubeMesh.get_num_tetrahedra) :
    ∃ j, Examples.cubeMesh.domain.strictly_contains (Examples.cubeMesh.tetra_vertex t j) := by
  have h3 : t ≤ 12 := h2
  refine ⟨3, ?_⟩
  unfold Box.strictly_contains
  interval_cases t <;> decide!

/-- C13 on S1 in the PR octree with `kv = 4` (scenario S4): the box query on the
whole domain returns the 12 tetrahedra, each once. -/
theorem C13_domain_box_query_returns_all_witness :
    ∃ tree q, P_Tree.build_tree Subdivision.OK Examples.cubeMesh 4 3 = some tree ∧
      Spatial_Queries.exec_box_query Subdivision.OK Examples.cubeMesh.domain Examples.cubeMesh
        false 13 tree.toRaw Examples.cubeMesh.domain 0 (QueryStatistics.init 12).reset
        = some q ∧
      q.tetrahedra.Perm (List.range' 1 12) := by
  obtain ⟨tree, htree⟩ :
      ∃ tree, P_Tree.build_tree Subdivision.OK Examples.cubeMesh 4 3 = some tree :=
    Option.isSome_iff_exists.mp (by decide!)
  obtain ⟨hperm, q, hq⟩ := C13_domain_box_query_returns_all Subdivision.OK Examples.cubeMesh
    tree false 13 (QueryStatistics.init 12) cubeMesh_wellFormed
    ⟨4, 0, 3, Or.inl htree⟩ cubeMesh_centre_inside (by decide)
  exact ⟨tree, q, htree, hq, hperm q hq⟩

/-! ## Point location -/

/-- A vertex of a tetrahedron passes the point-in-tetra test of the
tetrahedron. -/
theorem point_in_tetra_vertex (t : Nat) (mesh : Mesh) (j : Fin 4) :
    Geometry_Wrapper.point_in_tetra t (mesh.tetra_vertex t j) mesh = true := by
  unfold Geometry_Wrapper.point_in_tetra Geometry.PointInTetra Mesh.tetra_vertex
  fin_cases j <;> simp

theorem atomic_point_in_tetra_test_spec (t : Nat) (p : Point) (q : QueryStatistics)
    (mesh : Mesh) :
    (Geometry_Wrapper.point_in_tetra t p mesh = true →
      (Spatial_Queries.atomic_point_in_tetra_test t p q mesh).2 = true ∧
      (Spatial_Queries.atomic_point_in_tetra_test t p q mesh).1.tetrahedra
        = q.tetrahedra ++ [t]) ∧
    (Geometry_Wrapper.point_in_tetra t p mesh = false →
      (Spatial_Queries.atomic_point_in_tetra_test t p q mesh).2 = false ∧
      (Spatial_Queries.atomic_point_in_tetra_test t p q mesh).1.tetrahedra = q.tetrahedra) := by
  unfold Spatial_Queries.atomic_point_in_tetra_test
  constructor <;> intro h <;> simp [h]

/-- The loop of `exec_point_query_leaf` over plain ids stops at the first
tetrahedron passing the test and reports it. -/
theorem point_tests_run_found (p : Point) (mesh : Mesh) (ts : List Nat) (t : Nat)
    (ht : t ∈ ts) (hpass : Geometry_Wrapper.point_in_tetra t p mesh = true)
    (q : QueryStatistics) :
    ∃ t', (Spatial_Queries.point_tests_run p mesh ts q).2 = true ∧
      (Spatial_Queries.point_tests_run p mesh ts q).1.tetrahedra = q.tetrahedra ++ [t'] ∧
      t' ∈ ts ∧ Geometry_Wrapper.point_in_tetra t' p mesh = true := by
  induction ts generalizing q with
  | nil => simp at ht
  | cons a ts ih =>
    have hs := atomic_point_in_tetra_test_spec a p q mesh
    simp only [Spatial_Queries.point_tests_run]
    cases hr : Spatial_Queries.atomic_point_in_tetra_test a p q mesh with
    | mk q1 r =>
      rw [hr] at hs
      cases ha : Geometry_Wrapper.point_in_tetra a p mesh with
      | true =>
        obtain ⟨e1, e2⟩ := hs.1 ha
        simp only at e1 e2
        subst e1
        exact ⟨a, rfl, e2, by simp, ha⟩
      | false =>
        obtain ⟨e1, e2⟩ := hs.2 ha
        simp only at e1 e2
        subst e1
        have hta : t ∈ ts := by
          rcases List.mem_cons.mp ht with h | h
          · subst h; rw [hpass] at ha; exact absurd ha (by decide)
          · exact h
        obtain ⟨t', f1, f2, f3, f4⟩ := ih hta q1
        exact ⟨t', f1, by rw [f2, e2], List.mem_cons_of_mem _ f3, f4⟩

theorem exec_point_query_leaf_plain (p : Point) (mesh : Mesh) :
    ∀ (ts : List Nat) (q : QueryStatistics),
      Spatial_Queries.exec_point_query_leaf p mesh (ts.map Int.ofNat) q
        = some (Spatial_Queries.point_tests_run p mesh ts q).1
  | [], q => rfl
  | [a], q => by
    have ha : ¬ (Int.ofNat a < 0) := by
      simp only [Int.ofNat_eq_coe]; omega
    have hn : (Int.ofNat a).toNat = a := rfl
    simp only [List.map_cons, List.map_nil, Spatial_Queries.exec_point_query_leaf, ha,
      if_false, hn, Spatial_Queries.point_tests_run]
    cases hr : Spatial_Queries.atomic_point_in_tetra_test a p q mesh with
    | mk q1 r => cases r <;> rfl
  | a :: c :: rest, q => by
    have ha : ¬ (Int.ofNat a < 0) := by
      simp only [Int.ofNat_eq_coe]; omega
    have hn : (Int.ofNat a).toNat = a := rfl
    simp only [List.map_cons, Spatial_Queries.exec_point_query_leaf, ha, if_false, hn]
    rw [Spatial_Queries.point_tests_run]
    cases hr : Spatial_Queries.atomic_point_in_tetra_test a p q mesh with
    | mk q1 r =>
      cases r
      · have ih := exec_point_query_leaf_plain p mesh (c :: rest) q1
        simp only [List.map_cons] at ih
        simp only [ih]
      · rfl

mutual
/-- The point location at a point `p` covered by a tetrahedron `t` that passes
the test at `p`: the visit reaches a leaf listing `t` and reports exactly one
tetrahedron, which passes the test at `p`. -/
theorem exec_point_query_found (d : Subdivision) (p : Point) (mesh : Mesh) (t : Nat)
    (hpass : Geometry_Wrapper.point_in_tetra t p mesh = true) :
    ∀ (n : Node) (dom : Box) (level : Nat) (q : QueryStatistics), Node.Shaped d n →
      Node.Covers d mesh.domain.max p t n dom level →
      dom.contains p mesh.domain.max = true →
      ∃ q' t', Spatial_Queries.exec_point_query d p mesh n.toRaw dom level q = some q' ∧
        q'.tetrahedra = q.tetrahedra ++ [t'] ∧
        Geometry_Wrapper.point_in_tetra t' p mesh = true ∧
        ∃ x ∈ Node.leaves d n dom level, t' ∈ x.2.2
  | Node.leaf vs ts, dom, level, q, _, hc, hin => by
    simp only [Node.Covers] at hc
    simp only [Node.toRaw, Spatial_Queries.exec_point_query, exec_point_query_leaf_plain]
    obtain ⟨t', _, f2, f3, f4⟩ := point_tests_run_found p mesh ts t (hc hin) hpass
      { q with numNode := q.numNode + 1, numLeaf := q.numLeaf + 1 }
    exact ⟨_, t', rfl, f2, f4, (dom, vs, ts), by simp [Node.leaves], f3⟩
  | Node.internal sons, dom, level, q, hs, hc, hin => by
    simp only [Node.Covers] at hc
    simp only [Node.Shaped] at hs
    simp only [Node.toRaw, Spatial_Queries.exec_point_query]
    obtain ⟨i, hi, hci⟩ := exists_child_contains d dom p mesh.domain.max level hin
    simp only [Node.leaves]
    exact exec_point_query_sons_found d p mesh t hpass sons dom level 0 i _ hs.2 (hc hin)
      (by rw [hs.1]; exact hi) (by simpa using hci)
theorem exec_point_query_sons_found (d : Subdivision) (p : Point) (mesh : Mesh) (t : Nat)
    (hpass : Geometry_Wrapper.point_in_tetra t p mesh = true) :
    ∀ (sons : List Node) (dom : Box) (level i0 k : Nat) (q : QueryStatistics),
      Node.ShapedSons d sons → Node.CoversSons d mesh.domain.max p t sons dom level i0 →
      k < sons.length →
      (d.compute_domain dom level (i0 + k)).contains p mesh.domain.max = true →
      ∃ q' t', Spatial_Queries.exec_point_query_sons d p mesh (Node.toRawSons sons) dom level
          i0 q = some q' ∧
        q'.tetrahedra = q.tetrahedra ++ [t'] ∧
        Geometry_Wrapper.point_in_tetra t' p mesh = true ∧
        ∃ x ∈ Node.leavesOfSons d sons dom level i0, t' ∈ x.2.2
  | [], _, _, _, _, _, _, _, hk, _ => by simp at hk
  | s :: rest, dom, level, i0, k, q, hs, hc, hk, hin => by
    simp only [Node.ShapedSons] at hs
    simp only [Node.CoversSons] at hc
    simp only [Node.toRawSons, Spatial_Queries.exec_point_query_sons]
    by_cases h0 : (d.compute_domain dom level i0).contains p mesh.domain.max = true
    · simp only [h0, if_true]
      obtain ⟨q', t', f1, f2, f3, x, hx, f4⟩ :=
        exec_point_query_found d p mesh t hpass s _ (level + 1) q hs.1 hc.1 h0
      exact ⟨q', t', f1, f2, f3, x, by simp [Node.leavesOfSons, hx], f4⟩
    · have h0' : (d.compute_domain dom level i0).contains p mesh.domain.max = false := by
        simpa using h0
      simp only [h0', Bool.false_eq_true, if_false]
      cases k with
      | zero => simp only [Nat.add_zero] at hin; rw [hin] at h0'; exact absurd h0' (by decide)
      | succ k =>
        obtain ⟨q', t', f1, f2, f3, x, hx, f4⟩ :=
          exec_point_query_sons_found d p mesh t hpass rest dom level (i0 + 1) k q hs.2
            hc.2 (by simpa using hk) (by
              have : i0 + 1 + k = i0 + (k + 1) := by omega
              rw [this]; exact hin)
        exact ⟨q', t', f1, f2, f3, x, by simp [Node.leavesOfSons, hx], f4⟩
end

/-- C14: for every tree produced by `build_tree` (of one of the four classes,
not reindexed) on a mesh with vertex indices in range and vertices inside the
domain, and every mesh vertex `v` that belongs to a tetrahedron `t`, the point
location at the coordinates of `v`, started on reset statistics, returns and
reports exactly one tetrahedron id; that tetrahedron is a tetrahedron of the
mesh and passes the closed point-in-tetra test at `v`. -/
theorem C14_point_location_at_vertex (d : Subdivision) (mesh : Mesh) (tree : Node)
    (qS : QueryStatistics) (hwf : mesh.wellFormed) (hb : BuiltTree d mesh tree)
    (v t : Nat) (j : Fin 4) (h1 : 1 ≤ t) (h2 : t ≤ mesh.get_num_tetrahedra)
    (hv : (mesh.get_tetrahedron t).TV j = v) :
    ∃ q t', Spatial_Queries.exec_point_query d (mesh.get_vertex v).toPoint mesh tree.toRaw
        mesh.domain 0 qS.reset_point = some q ∧
      q.tetrahedra = [t'] ∧ 1 ≤ t' ∧ t' ≤ mesh.get_num_tetrahedra ∧
      Geometry_Wrapper.point_in_tetra t' (mesh.get_vertex v).toPoint mesh = true := by
  subst hv
  obtain ⟨hs, hc, _⟩ := builtTree_invariants d mesh tree hb
  obtain ⟨q, t', f1, f2, f3, x, hx, f4⟩ :=
    exec_point_query_found d (mesh.tetra_vertex t j) mesh t (point_in_tetra_vertex t mesh j)
      tree mesh.domain 0 qS.reset_point hs (hc t j h1 h2)
      (domain_contains_tetra_vertex mesh hwf t h1 h2 j)
  have hr := (builtTree_leaves d mesh tree hb mesh.domain 0 x hx).2 t' f4
  exact ⟨q, t', f1, by simpa [QueryStatistics.reset_point] using f2, hr.1, hr.2, f3⟩

/-- C14 on S1 in the PR octree with `kv = 4` (scenario S3): the point location
at the centre `(1/2,1/2,1/2)` (vertex 9, fourth vertex of tetrahedron 1)
reports one tetrahedron among the 12. -/
theorem C14_point_location_at_vertex_witness :
    ∃ tree q t', P_Tree.build_tree Subdivision.OK Examples.cubeMesh 4 3 = some tree ∧
      Spatial_Queries.exec_point_query Subdivision.OK ⟨1 / 2, 1 / 2, 1 / 2⟩ Examples.cubeMesh
        tree.toRaw Examples.cubeMesh.domain 0 (QueryStatistics.init 0).reset_point = some q ∧
      q.tetrahedra = [t'] ∧ 1 ≤ t' ∧ t' ≤ 12 ∧
      Geometry_Wrapper.point_in_tetra t' ⟨1 / 2, 1 / 2, 1 / 2⟩ Examples.cubeMesh = true := by
  obtain ⟨tree, htree⟩ :
      ∃ tree, P_Tree.build_tree Subdivision.OK Examples.cubeMesh 4 3 = some tree :=
    Option.isSome_iff_exists.mp (by decide!)
  obtain ⟨q, t', hq⟩ := C14_point_location_at_vertex Subdivision.OK Examples.cubeMesh tree
    (QueryStatistics.init 0) cubeMesh_wellFormed ⟨4, 0, 3, Or.inl htree⟩ 9 1 3
    (by decide) (by decide) (by decide)
  have hp : (Examples.cubeMesh.get_vertex 9).toPoint = ⟨1 / 2, 1 / 2, 1 / 2⟩ := by decide!
  rw [hp] at hq
  exact ⟨tree, q, t', htree, hq⟩

/-! ## Visits of a built tree, leaf by leaf -/

mutual
/-- The visit of a tree under construction returns when the leaf procedure
returns on every leaf (box and arrays) of the tree. -/
theorem visit_leaves_returns {σ : Type} (d : Subdivision) (pre : σ → σ) (prune : Box → Bool)
    (leaf_fn : List Int → List Int → Box → σ → Option σ)
    (Q : Box × List Nat × List Nat → Prop)
    (hleaf : ∀ x s, Q x →
      ∃ s', leaf_fn (x.2.1.map Int.ofNat) (x.2.2.map Int.ofNat) x.1 s = some s') :
    ∀ (n : Node) (dom : Box) (level : Nat) (s : σ),
      (∀ x ∈ Node.leaves d n dom level, Q x) →
      ∃ s', RawNode.visit d pre prune leaf_fn n.toRaw dom level s = some s'
  | Node.leaf vs ts, dom, level, s, hn => by
    simp only [Node.toRaw, RawNode.visit]
    by_cases hp : prune dom = true
    · exact ⟨pre s, by simp [hp]⟩
    · have hp' : prune dom = false := by simpa using hp
      simp only [hp', Bool.false_eq_true, if_false]
      exact hleaf (dom, vs, ts) _ (hn _ (by simp [Node.leaves]))
  | Node.internal sons, dom, level, s, hn => by
    simp only [Node.toRaw, RawNode.visit]
    simp only [Node.leaves] at hn
    by_cases hp : prune dom = true
    · exact ⟨pre s, by simp [hp]⟩
    · have hp' : prune dom = false := by simpa using hp
      simp only [hp', Bool.false_eq_true, if_false]
      exact visitSons_leaves_returns d pre prune leaf_fn Q hleaf sons dom level 0 _ hn
theorem visitSons_leaves_returns {σ : Type} (d : Subdivision) (pre : σ → σ)
    (prune : Box → Bool) (leaf_fn : List Int → List Int → Box → σ → Option σ)
    (Q : Box × List Nat × List Nat → Prop)
    (hleaf : ∀ x s, Q x →
      ∃ s', leaf_fn (x.2.1.map Int.ofNat) (x.2.2.map Int.ofNat) x.1 s = some s') :
    ∀ (sons : List Node) (dom : Box) (level i : Nat) (s : σ),
      (∀ x ∈ Node.leavesOfSons d sons dom level i, Q x) →
      ∃ s', RawNode.visitSons d pre prune leaf_fn (Node.toRawSons sons) dom level i s
        = some s'
  | [], _, _, _, s, _ => ⟨s, by simp [Node.toRawSons, RawNode.visitSons]⟩
  | n :: rest, dom, level, i, s, hn => by
    simp only [Node.leavesOfSons, List.mem_append] at hn
    obtain ⟨s1, h1⟩ := visit_leaves_returns d pre prune leaf_fn Q hleaf n
      (d.compute_domain dom level i) (level + 1) s (fun x hx => hn x (Or.inl hx))
    obtain ⟨s2, h2⟩ := visitSons_leaves_returns d pre prune leaf_fn Q hleaf rest dom level
      (i + 1) s1 (fun x hx => hn x (Or.inr hx))
    exact ⟨s2, by simp [Node.toRawSons, RawNode.visitSons, h1, h2]⟩
end

mutual
/-- A property of the state kept on entering a node and by the leaf procedure
on every leaf (box and arrays) of the tree is kept by the visit. -/
theorem visit_leaves_invariant {σ : Type} (d : Subdivision) (pre : σ → σ)
    (prune : Box → Bool) (leaf_fn : List Int → List Int → Box → σ → Option σ)
    (I : σ → Prop) (Q : Box × List Nat × List Nat → Prop) (hpre : ∀ s, I s → I (pre s))
    (hleaf : ∀ x s s', Q x →
      leaf_fn (x.2.1.map Int.ofNat) (x.2.2.map Int.ofNat) x.1 s = some s' → I s → I s') :
    ∀ (n : Node) (dom : Box) (level : Nat) (s s' : σ),
      (∀ x ∈ Node.leaves d n dom level, Q x) →
      RawNode.visit d pre prune leaf_fn n.toRaw dom level s = some s' → I s → I s'
  | Node.leaf vs ts, dom, level, s, s', hn, h, hI => by
    simp only [Node.toRaw, RawNode.visit] at h
    by_cases hp : prune dom = true
    · simp only [hp, if_true, Option.some.injEq] at h
      subst h; exact hpre s hI
    · have hp' : prune dom = false := by simpa using hp
      simp only [hp', Bool.false_eq_true, if_false] at h
      exact hleaf (dom, vs, ts) _ s' (hn _ (by simp [Node.leaves])) h (hpre s hI)
  | Node.internal sons, dom, level, s, s', hn, h, hI => by
    simp only [Node.toRaw, RawNode.visit] at h
    simp only [Node.leaves] at hn
    by_cases hp : prune dom = true
    · simp only [hp, if_true, Option.some.injEq] at h
      subst h; exact hpre s hI
    · have hp' : prune dom = false := by simpa using hp
      simp only [hp', Bool.false_eq_true, if_false] at h
      exact visitSons_leaves_invariant d pre prune leaf_fn I Q hpre hleaf sons dom level 0 _
        s' hn h (hpre s hI)
theorem visitSons_leaves_invariant {σ : Type} (d : Subdivision) (pre : σ → σ)
    (prune : Box → Bool) (leaf_fn : List Int → List Int → Box → σ → Option σ)
    (I : σ → Prop) (Q : Box × List Nat × List Nat → Prop) (hpre : ∀ s, I s → I (pre s))
    (hleaf : ∀ x s s', Q x →
      leaf_fn (x.2.1.map Int.ofNat) (x.2.2.map Int.ofNat) x.1 s = some s' → I s → I s') :
    ∀ (sons : List Node) (dom : Box) (level i : Nat) (s s' : σ),
      (∀ x ∈ Node.leavesOfSons d sons dom level i, Q x) →
      RawNode.visitSons d pre prune leaf_fn (Node.toRawSons sons) dom level i s = some s' →
      I s → I s'
  | [], _, _, _, s, s', _, h, hI => by
    simp only [Node.toRawSons, RawNode.visitSons, Option.some.injEq] at h
    subst h; exact hI
  | n :: rest, dom, level, i, s, s', hn, h, hI => by
    simp only [Node.toRawSons, RawNode.visitSons] at h
    simp only [Node.leavesOfSons, List.mem_append] at hn
    cases h1 : RawNode.visit d pre prune leaf_fn n.toRaw (d.compute_domain dom level i)
        (level + 1) s with
    | none => simp [h1] at h
    | some s1 =>
      simp only [h1] at h
      exact visitSons_leaves_invariant d pre prune leaf_fn I Q hpre hleaf rest dom level
        (i + 1) s1 s' (fun x hx => hn x (Or.inr hx)) h
        (visit_leaves_invariant d pre prune leaf_fn I Q hpre hleaf n _ _ s s1
          (fun x hx => hn x (Or.inl hx)) h1 hI)
end

mutual
/-- A visit that does not prune the boxes containing the point `p` runs the
leaf procedure on every leaf whose box contains `p`: what the procedure
establishes on such a leaf `x` (`E`) holds at the end, when the rest of the
visit keeps it. -/
theorem visit_leaves_reaches {σ : Type} (d : Subdivision) (pre : σ → σ)
    (prune : Box → Bool) (leaf_fn : List Int → List Int → Box → σ → Option σ)
    (I E : σ → Prop) (Q : Box × List Nat × List Nat → Prop) (p dmax : Point)
    (x : Box × List Nat × List Nat)
    (hpre : ∀ s, I s → I (pre s) ∧ (E s → E (pre s)))
    (hleaf : ∀ y s s', Q y →
      leaf_fn (y.2.1.map Int.ofNat) (y.2.2.map Int.ofNat) y.1 s = some s' → I s →
      I s' ∧ (E s → E s'))
    (hprune : ∀ B : Box, B.contains p dmax = true → prune B = false)
    (hx : x.1.contains p dmax = true)
    (hest : ∀ s s', I s →
      leaf_fn (x.2.1.map Int.ofNat) (x.2.2.map Int.ofNat) x.1 s = some s' → E s') :
    ∀ (n : Node) (dom : Box) (level : Nat) (s s' : σ),
      (∀ y ∈ Node.leaves d n dom level, Q y) → x ∈ Node.leaves d n dom level →
      RawNode.visit d pre prune leaf_fn n.toRaw dom level s = some s' → I s → E s'
  | Node.leaf vs ts, dom, level, s, s', _, hmem, h, hI => by
    simp only [Node.leaves, List.mem_singleton] at hmem
    subst hmem
    simp only [Node.toRaw, RawNode.visit, hprune _ hx, Bool.false_eq_true, if_false] at h
    exact hest _ s' (hpre s hI).1 h
  | Node.internal sons, dom, level, s, s', hn, hmem, h, hI => by
    have hdom := leaf_contains_root d p dmax (Node.internal sons) dom level x hmem hx
    simp only [Node.leaves] at hmem hn
    simp only [Node.toRaw, RawNode.visit, hprune _ hdom, Bool.false_eq_true, if_false] at h
    exact visitSons_leaves_reaches d pre prune leaf_fn I E Q p dmax x hpre hleaf hprune hx
      hest sons dom level 0 _ s' hn hmem h (hpre s hI).1
theorem visitSons_leaves_reaches {σ : Type} (d : Subdivision) (pre : σ → σ)
    (prune : Box → Bool) (leaf_fn : List Int → List Int → Box → σ → Option σ)
    (I E : σ → Prop) (Q : Box × List Nat × List Nat → Prop) (p dmax : Point)
    (x : Box × List Nat × List Nat)
    (hpre : ∀ s, I s → I (pre s) ∧ (E s → E (pre s)))
    (hleaf : ∀ y s s', Q y →
      leaf_fn (y.2.1.map Int.ofNat) (y.2.2.map Int.ofNat) y.1 s = some s' → I s →
      I s' ∧ (E s → E s'))
    (hprune : ∀ B : Box, B.contains p dmax = true → prune B = false)
    (hx : x.1.contains p dmax = true)
    (hest : ∀ s s', I s →
      leaf_fn (x.2.1.map Int.ofNat) (x.2.2.map Int.ofNat) x.1 s = some s' → E s') :
    ∀ (sons : List Node) (dom : Box) (level i : Nat) (s s' : σ),
      (∀ y ∈ Node.leavesOfSons d sons dom level i, Q y) →
      x ∈ Node.leavesOfSons d sons dom level i →
      RawNode.visitSons d pre prune leaf_fn (Node.toRawSons sons) dom level i s = some s' →
      I s → E s'
  | [], _, _, _, _, _, _, hmem, _, _ => by simp [Node.leavesOfSons] at hmem
  | n :: rest, dom, level, i, s, s', hn, hmem, h, hI => by
    simp only [Node.toRawSons, RawNode.visitSons] at h
    simp only [Node.leavesOfSons, List.mem_append] at hmem hn
    cases h1 : RawNode.visit d pre prune leaf_fn n.toRaw (d.compute_domain dom level i)
        (level + 1) s with
    | none => simp [h1] at h
    | some s1 =>
      simp only [h1] at h
      have hI1 : I s1 :=
        visit_leaves_invariant d pre prune leaf_fn I Q (fun s hs => (hpre s hs).1)
          (fun y s s' hQ hl hs => (hleaf y s s' hQ hl hs).1) n _ _ s s1
          (fun y hy => hn y (Or.inl hy)) h1 hI
      rcases hmem with hmem | hmem
      · have hE1 : E s1 :=
          visit_leaves_reaches d pre prune leaf_fn I E Q p dmax x hpre hleaf hprune hx hest n
            _ _ s s1 (fun y hy => hn y (Or.inl hy)) hmem h1 hI
        have := visitSons_leaves_invariant d pre prune leaf_fn (fun s => I s ∧ E s) Q
          (fun s hs => ⟨(hpre s hs.1).1, (hpre s hs.1).2 hs.2⟩)
          (fun y s s' hQ hl hs =>
            ⟨(hleaf y s s' hQ hl hs.1).1, (hleaf y s s' hQ hl hs.1).2 hs.2⟩)
          rest dom level (i + 1) s1 s' (fun y hy => hn y (Or.inr hy)) h ⟨hI1, hE1⟩
        exact this.2
      · exact visitSons_leaves_reaches d pre prune leaf_fn I E Q p dmax x hpre hleaf hprune
          hx hest rest dom level (i + 1) s1 s' (fun y hy => hn y (Or.inr hy)) hmem h hI1
end

theorem builtTree_leafOK (d : Subdivision) (mesh : Mesh) (tree : Node)
    (h : BuiltTree d mesh tree) :
    ∀ x ∈ Node.leaves d tree mesh.domain 0, mesh.LeafOK x := by
  intro x hx
  obtain ⟨_, hc, _⟩ := builtTree_invariants d mesh tree h
  have hl := builtTree_leaves d mesh tree h mesh.domain 0 x hx
  exact ⟨hl.1, hl.2, fun t j h1 h2 hin =>
    covers_leaf d _ _ t tree mesh.domain 0 (hc t j h1 h2) x hx hin⟩

/-! ## `std::map` -/

theorem find_place {V : Type} (k : Nat) (v : V) (m : StdMap V) (x : Nat)
    (h : StdMap.find m k = none) :
    StdMap.find (StdMap.place k v m) x = if x = k then some v else StdMap.find m x := by
  induction m with
  | nil =>
    simp only [StdMap.place, StdMap.find]
    by_cases hx : x = k
    · simp [hx]
    · simp [hx, Ne.symm hx]
  | cons e rest ih =>
    simp only [StdMap.find] at h
    by_cases he : e.1 = k
    · simp [he] at h
    · simp only [he, if_false] at h
      simp only [StdMap.place]
      by_cases hlt : k < e.1
      · simp only [hlt, if_true, StdMap.find]
        by_cases hx : x = k
        · simp [hx]
        · simp [hx, Ne.symm hx]
      · simp only [hlt, if_false, StdMap.find, ih h]
        by_cases hx : x = k
        · subst hx; simp [he]
        · simp [hx]

theorem find_insert {V : Type} (m : StdMap V) (k : Nat) (v : V) (x : Nat) :
    StdMap.find (StdMap.insert m k v) x =
      if x = k then some ((StdMap.find m k).getD v) else StdMap.find m x := by
  unfold StdMap.insert
  cases h : StdMap.find m k with
  | none =>
    simp only [find_place k v m x h, Option.getD_none]
  | some w =>
    by_cases hx : x = k
    · subst hx; simp [h]
    · simp [hx]

theorem find_assign {V : Type} (m : StdMap V) (k : Nat) (v : V) (x : Nat) :
    StdMap.find (StdMap.assign m k v) x =
      if x = k then (StdMap.find m k).map (fun _ => v) else StdMap.find m x := by
  induction m with
  | nil => simp [StdMap.assign, StdMap.find]
  | cons e rest ih =>
    simp only [StdMap.assign, List.map_cons] at ih ⊢
    by_cases he : e.1 = k
    · simp only [he, if_true, StdMap.find]
      by_cases hx : x = k
      · simp [hx]
      · simp only [hx, if_false, Ne.symm hx] at ih ⊢
        exact ih
    · simp only [he, if_false, StdMap.find]
      by_cases hx : x = k
      · subst hx
        simp only [he, if_false, if_true] at ih ⊢
        exact ih
      · simp only [hx, if_false] at ih ⊢
        rw [ih]

theorem find_insert_range {V : Type} (other m : StdMap V) (x : Nat) :
    StdMap.find (StdMap.insert_range m other) x =
      match StdMap.find m x with
      | some w => some w
      | none => StdMap.find other x := by
  unfold StdMap.insert_range
  induction other generalizing m with
  | nil =>
    simp only [List.foldl_nil, StdMap.find]
    cases StdMap.find m x <;> rfl
  | cons e rest ih =>
    rw [List.foldl_cons, ih, find_insert]
    simp only [StdMap.find]
    by_cases hx : x = e.1
    · subst hx
      cases h : StdMap.find m e.1 <;> simp
    · simp only [hx, if_false, Ne.symm hx]

/-! ## Windowed VT -/

theorem find_update_resulting_VT (v t : Nat) (vt : StdMap (List Nat)) (x : Nat) :
    StdMap.find (Topological_Queries.update_resulting_VT v t vt) x =
      if x = v then some ((StdMap.find vt v).getD [] ++ [t]) else StdMap.find vt x := by
  unfold Topological_Queries.update_resulting_VT
  cases h : StdMap.find vt v with
  | none =>
    simp only [find_insert, h, Option.getD_none, List.nil_append]
  | some l =>
    simp only [find_assign, h, Option.map_some', Option.getD_some]

/-- The map after a sequence of `update_resulting_VT`: at a key, the old list
followed by the tetrahedra pushed for that key, in order. -/
theorem find_updates (kvs : List (Nat × Nat)) (m0 : StdMap (List Nat)) (x : Nat) :
    StdMap.find (kvs.foldl (fun m e => Topological_Queries.update_resulting_VT e.1 e.2 m) m0) x
      = if (kvs.filter (fun e => e.1 = x)).map (fun e => e.2) = [] then StdMap.find m0 x
        else some ((StdMap.find m0 x).getD [] ++
          (kvs.filter (fun e => e.1 = x)).map (fun e => e.2)) := by
  induction kvs generalizing m0 with
  | nil => simp
  | cons e rest ih =>
    rw [List.foldl_cons, ih, find_update_resulting_VT]
    by_cases hx : x = e.1
    · subst hx
      simp [List.filter_cons]
    · have hx' : ¬ e.1 = x := fun h => hx h.symm
      have hf : (e :: rest).filter (fun e => decide (e.1 = x))
          = rest.filter (fun e => decide (e.1 = x)) := by
        rw [List.filter_cons]; simp [hx']
      simp only [hx, if_false, hf]

theorem foldl_flatMap_eq {α β σ : Type} (f : σ → β → σ) (K : α → List β) (xs : List α)
    (s : σ) : xs.foldl (fun acc a => (K a).foldl f acc) s = (xs.flatMap K).foldl f s := by
  induction xs generalizing s with
  | nil => rfl
  | cons a xs ih => simp only [List.foldl_cons, List.flatMap_cons, List.foldl_append, ih]

/-- The pairs (vertex, tetrahedron) for which `windowed_VT_Leaf_no_reindex`
calls `update_resulting_VT`, in order. -/
theorem windowed_VT_local (mesh : Mesh) (b dom : Box) (ts : List Nat)
    (lv : StdMap (List Nat)) :
    ts.foldl (fun lv t =>
        (List.finRange 4).foldl (Topological_Queries.windowed_VT_step mesh b dom t) lv) lv
      = (ts.flatMap (fun t => (List.finRange 4).filterMap (fun j =>
          if dom.contains (mesh.get_vertex ((mesh.get_tetrahedron t).TV j)).toPoint
              mesh.domain.max &&
            b.contains_with_all_closed_faces
              (mesh.get_vertex ((mesh.get_tetrahedron t).TV j)).toPoint
          then some ((mesh.get_tetrahedron t).TV j, t) else none))).foldl
        (fun m e => Topological_Queries.update_resulting_VT e.1 e.2 m) lv := by
  rw [← foldl_flatMap_eq]
  congr 1
  funext lv t
  generalize List.finRange 4 = js
  induction js generalizing lv with
  | nil => rfl
  | cons j js ih =>
    rw [List.foldl_cons, ih, List.filterMap_cons]
    unfold Topological_Queries.windowed_VT_step
    cases h1 : dom.contains (mesh.get_vertex ((mesh.get_tetrahedron t).TV j)).toPoint
        mesh.domain.max <;>
      cases h2 : b.contains_with_all_closed_faces
        (mesh.get_vertex ((mesh.get_tetrahedron t).TV j)).toPoint <;>
      simp [h1, h2]

theorem windowed_VT_pushed_aux (tet : Tetrahedron) (hinj : Function.Injective tet.TV)
    (c : Nat → Bool) (t x : Nat) (js : List (Fin 4)) (hnd : js.Nodup) :
    ((js.filterMap (fun j =>
        if c (tet.TV j) then some (tet.TV j, t) else none)).filter
        (fun e => decide (e.1 = x))).map (fun e => e.2)
      = if c x = true ∧ ∃ j ∈ js, tet.TV j = x then [t] else [] := by
  induction js with
  | nil => simp
  | cons j js ih =>
    rw [List.nodup_cons] at hnd
    have ih' := ih hnd.2
    rw [List.filterMap_cons]
    by_cases hj : tet.TV j = x
    · have hno : ¬ ∃ j' ∈ js, tet.TV j' = x := by
        rintro ⟨j', hj', h⟩
        exact hnd.1 (by rw [hinj (hj.trans h.symm)]; exact hj')
      have hrest : ((js.filterMap (fun j =>
          if c (tet.TV j) then some (tet.TV j, t) else none)).filter
          (fun e => decide (e.1 = x))).map (fun e => e.2) = [] := by
        rw [ih']; simp [hno]
      cases hc : c x
      · rw [hj] 
        simp only [hc, Bool.false_eq_true, if_false, false_and]
        exact hrest
      · rw [hj]
        simp only [hc, if_true, List.filter_cons, decide_True, List.map_cons, hrest, true_and]
        rw [if_pos ⟨j, List.mem_cons_self _ _, hj⟩]
    · have hiff : (∃ j' ∈ j :: js, tet.TV j' = x) ↔ ∃ j' ∈ js, tet.TV j' = x := by
        constructor
        · rintro ⟨j', hj', h⟩
          rcases List.mem_cons.mp hj' with e | e
          · subst e; exact absurd h hj
          · exact ⟨j', e, h⟩
        · rintro ⟨j', hj', h⟩
          exact ⟨j', List.mem_cons_of_mem _ hj', h⟩
      have e : (if c x = true ∧ ∃ j' ∈ j :: js, tet.TV j' = x then [t] else [])
          = (if c x = true ∧ ∃ j' ∈ js, tet.TV j' = x then [t] else []) := by
        simp only [hiff]
      rw [e, ← ih']
      cases hcj : c (tet.TV j)
      · simp
      · simp [List.filter_cons, hj]

/-- The tetrahedra pushed for the vertex `x` by one tetrahedron with four
distinct vertex ids: the tetrahedron itself, once, when `x` is one of its
vertices and passes the two tests. -/
theorem windowed_VT_pushed_one (tet : Tetrahedron) (hinj : Function.Injective tet.TV)
    (c : Nat → Bool) (t x : Nat) :
    (((List.finRange 4).filterMap (fun j =>
        if c (tet.TV j) then some (tet.TV j, t) else none)).filter
        (fun e => decide (e.1 = x))).map (fun e => e.2)
      = if c x = true ∧ ∃ j, tet.TV j = x then [t] else [] := by
  rw [windowed_VT_pushed_aux tet hinj c t x _ (List.nodup_finRange 4)]
  have : (∃ j ∈ List.finRange 4, tet.TV j = x) ↔ ∃ j, tet.TV j = x :=
    ⟨fun ⟨j, _, h⟩ => ⟨j, h⟩, fun ⟨j, h⟩ => ⟨j, List.mem_finRange j, h⟩⟩
  simp only [this]

/-- The tetrahedra pushed for the vertex `x` by the tetrahedra of a leaf. -/
theorem windowed_VT_pushed (mesh : Mesh) (hdist : mesh.distinctVertices) (c : Nat → Bool)
    (x : Nat) (ts : List Nat) (hr : ∀ t ∈ ts, 1 ≤ t ∧ t ≤ mesh.get_num_tetrahedra) :
    (((ts.flatMap (fun t => (List.finRange 4).filterMap (fun j =>
          if c ((mesh.get_tetrahedron t).TV j)
          then some ((mesh.get_tetrahedron t).TV j, t) else none))).filter
        (fun e => decide (e.1 = x))).map (fun e => e.2))
      = if c x = true then ts.filter (fun t => decide (∃ j, (mesh.get_tetrahedron t).TV j = x))
        else [] := by
  induction ts with
  | nil => simp
  | cons t ts ih =>
    have ht := hr t (List.mem_cons_self _ _)
    rw [List.flatMap_cons, List.filter_append, List.map_append,
      ih (fun t' ht' => hr t' (List.mem_cons_of_mem _ ht')),
      windowed_VT_pushed_one _ (hdist _ (get_tetrahedron_mem mesh t ht.1 ht.2)) c t x]
    cases hc : c x
    · simp
    · by_cases hex : ∃ j, (mesh.get_tetrahedron t).TV j = x
      · simp [List.filter_cons, hex]
      · simp [List.filter_cons, hex]

/-- What `windowed_VT_Leaf_no_reindex` does on a plain array of tetrahedra
with distinct vertex ids: it returns, and a vertex that is not yet a key
becomes one when it is contained by the box of the leaf and by the query box
and a tetrahedron of the leaf is incident in it; its value is then the list of
the tetrahedra of the leaf incident in it. -/
theorem windowed_VT_Leaf_plain (mesh : Mesh) (hdist : mesh.distinctVertices) (b dom : Box)
    (fuel : Nat) (ts : List Nat) (hr : ∀ t ∈ ts, 1 ≤ t ∧ t ≤ mesh.get_num_tetrahedra)
    (hf : ts.length < fuel) (vt : StdMap (List Nat)) :
    ∃ vt', Topological_Queries.windowed_VT_Leaf_no_reindex mesh b fuel (ts.map Int.ofNat) dom vt
        = some vt' ∧
      ∀ x, StdMap.find vt' x =
        match StdMap.find vt x with
        | some l => some l
        | none =>
          if (dom.contains (mesh.get_vertex x).toPoint mesh.domain.max &&
                b.contains_with_all_closed_faces (mesh.get_vertex x).toPoint) = true ∧
              ts.filter (fun t => decide (∃ j, (mesh.get_tetrahedron t).TV j = x)) ≠ []
          then some (ts.filter (fun t => decide (∃ j, (mesh.get_tetrahedron t).TV j = x)))
          else none := by
  unfold Topological_Queries.windowed_VT_Leaf_no_reindex
  rw [collect_plain ts (fun x hx => (hr x hx).1) fuel hf]
  refine ⟨_, rfl, fun x => ?_⟩
  have hn : ∀ t : Nat, (Int.ofNat t).toNat = t := fun _ => rfl
  simp only [List.foldl_map, hn]
  rw [find_insert_range, windowed_VT_local, find_updates,
    windowed_VT_pushed mesh hdist
      (fun v => dom.contains (mesh.get_vertex v).toPoint mesh.domain.max &&
        b.contains_with_all_closed_faces (mesh.get_vertex v).toPoint) x ts hr]
  cases hc : (dom.contains (mesh.get_vertex x).toPoint mesh.domain.max &&
      b.contains_with_all_closed_faces (mesh.get_vertex x).toPoint)
  · cases hv : StdMap.find vt x <;> simp [StdMap.find]
  · by_cases hl : ts.filter (fun t => decide (∃ j, (mesh.get_tetrahedron t).TV j = x)) = []
    · cases hv : StdMap.find vt x <;> simp [StdMap.find, hl]
    · cases hv : StdMap.find vt x <;> simp [StdMap.find, hl]

/-- What the windowed VT keeps true of its map: every key is a vertex in the
box, and its value lists, once each, the tetrahedra incident in it. -/
theorem windowed_VT_leaf_step (mesh : Mesh) (hdist : mesh.distinctVertices) (b : Box)
    (fuel : Nat) (hfuel : mesh.get_num_tetrahedra < fuel)
    (y : Box × List Nat × List Nat) (hy : mesh.LeafOK y) (vt : StdMap (List Nat)) :
    ∃ vt', Topological_Queries.windowed_VT_Leaf_no_reindex mesh b fuel
        (y.2.2.map Int.ofNat) y.1 vt = some vt' ∧
      (∀ x l, StdMap.find vt x = some l → StdMap.find vt' x = some l) ∧
      (∀ x l, StdMap.find vt' x = some l → StdMap.find vt x = some l ∨
        (b.contains_with_all_closed_faces (mesh.get_vertex x).toPoint = true ∧
          l ≠ [] ∧ l.Nodup ∧ ∀ t, t ∈ l ↔ mesh.incident t x)) ∧
      (∀ x t, mesh.incident t x →
        y.1.contains (mesh.get_vertex x).toPoint mesh.domain.max = true →
        b.contains_with_all_closed_faces (mesh.get_vertex x).toPoint = true →
        (StdMap.find vt' x).isSome = true) := by
  obtain ⟨hs, hr, hc⟩ := hy
  have hlen : y.2.2.length < fuel :=
    lt_of_le_of_lt (sorted_length_le _ _ hs hr) hfuel
  obtain ⟨vt', hvt', hfind⟩ := windowed_VT_Leaf_plain mesh hdist b y.1 fuel y.2.2 hr hlen vt
  refine ⟨vt', hvt', ?_, ?_, ?_⟩
  · intro x l hx
    rw [hfind x, hx]
  · intro x l hx
    rw [hfind x] at hx
    cases hv : StdMap.find vt x with
    | some w =>
      rw [hv] at hx
      exact Or.inl hx
    | none =>
      rw [hv] at hx
      simp only at hx
      split_ifs at hx with hcond
      · simp only [Option.some.injEq] at hx
        subst hx
        right
        simp only [Bool.and_eq_true] at hcond
        refine ⟨hcond.1.2, hcond.2, (hs.imp (fun h => Nat.ne_of_lt h)).filter _, fun t => ?_⟩
        simp only [List.mem_filter, decide_eq_true_eq]
        constructor
        · rintro ⟨ht, j, hj⟩
          exact ⟨(hr t ht).1, (hr t ht).2, j, hj⟩
        · rintro ⟨h1, h2, j, hj⟩
          refine ⟨hc t j h1 h2 ?_, j, hj⟩
          unfold Mesh.tetra_vertex
          rw [hj]
          exact hcond.1.1
  · intro x t ⟨h1, h2, j, hj⟩ hin hb
    rw [hfind x]
    cases hv : StdMap.find vt x with
    | some w => rfl
    | none =>
      have hmem : t ∈ y.2.2 := hc t j h1 h2 (by unfold Mesh.tetra_vertex; rw [hj]; exact hin)
      have hne : y.2.2.filter (fun t => decide (∃ j, (mesh.get_tetrahedron t).TV j = x)) ≠ [] := by
        intro he
        have : t ∈ y.2.2.filter (fun t => decide (∃ j, (mesh.get_tetrahedron t).TV j = x)) := by
          simp only [List.mem_filter, decide_eq_true_eq]
          exact ⟨hmem, j, hj⟩
        rw [he] at this
        exact List.not_mem_nil _ this
      simp [hin, hb, hne]

/-- C17: for every mesh (vertex indices in range, vertices inside the domain)
whose tetrahedra have four distinct vertex ids, every tree built on it by one
of the four classes and every query box `b`, the non-reindexed windowed VT
returns a map; its keys are exactly the vertices that lie in `b` (all faces
closed) and belong to at least one tetrahedron, and the value of a key `v`
lists exactly the tetrahedra of the mesh incident in `v`, each once. -/
theorem C17_windowed_VT_keys_and_values (d : Subdivision) (mesh : Mesh) (tree : Node)
    (b : Box) (fuel : Nat) (hwf : mesh.wellFormed) (hdist : mesh.distinctVertices)
    (hb : BuiltTree d mesh tree) (hfuel : mesh.get_num_tetrahedra < fuel) :
    ∃ vt, Topological_Queries.windowed_VT_no_reindex d mesh b fuel tree.toRaw mesh.domain 0 []
        = some vt ∧
      (∀ v, (StdMap.find vt v).isSome = true ↔
        (b.contains_with_all_closed_faces (mesh.get_vertex v).toPoint = true ∧
          ∃ t, mesh.incident t v)) ∧
      ∀ v l, StdMap.find vt v = some l → l.Nodup ∧ ∀ t, t ∈ l ↔ mesh.incident t v := by
  have hQ := builtTree_leafOK d mesh tree hb
  obtain ⟨vt, hvt⟩ := visit_leaves_returns d id (fun dom => !dom.intersects b)
    (fun _ ts dom vt => Topological_Queries.windowed_VT_Leaf_no_reindex mesh b fuel ts dom vt)
    mesh.LeafOK
    (fun y s hy => by
      obtain ⟨s', hs', _⟩ := windowed_VT_leaf_step mesh hdist b fuel hfuel y hy s
      exact ⟨s', hs'⟩)
    tree mesh.domain 0 [] hQ
  have hI : ∀ v l, StdMap.find vt v = some l →
      b.contains_with_all_closed_faces (mesh.get_vertex v).toPoint = true ∧
        l ≠ [] ∧ l.Nodup ∧ ∀ t, t ∈ l ↔ mesh.incident t v :=
    visit_leaves_invariant d id (fun dom => !dom.intersects b)
      (fun _ ts dom vt => Topological_Queries.windowed_VT_Leaf_no_reindex mesh b fuel ts dom vt)
      (fun s : StdMap (List Nat) => ∀ v l, StdMap.find s v = some l →
        b.contains_with_all_closed_faces (mesh.get_vertex v).toPoint = true ∧
          l ≠ [] ∧ l.Nodup ∧ ∀ t, t ∈ l ↔ mesh.incident t v)
      mesh.LeafOK (fun s hs => hs)
      (fun y s s' hy h hs v l hv => by
        obtain ⟨s'', hs'', _, f2, _⟩ := windowed_VT_leaf_step mesh hdist b fuel hfuel y hy s
        have h : s'' = s' := Option.some.inj (hs''.symm.trans h)
        subst h
        rcases f2 v l hv with h0 | h0
        · exact hs v l h0
        · exact h0)
      tree mesh.domain 0 [] vt hQ hvt (fun v l hv => by simp [StdMap.find] at hv)
  refine ⟨vt, hvt, fun v => ⟨fun hv => ?_, fun ⟨hin, t, ht⟩ => ?_⟩, fun v l hv =>
    ⟨(hI v l hv).2.2.1, (hI v l hv).2.2.2⟩⟩
  · obtain ⟨l, hl⟩ := Option.isSome_iff_exists.mp hv
    obtain ⟨h1, h2, _, h4⟩ := hI v l hl
    obtain ⟨t, ht⟩ := List.exists_mem_of_ne_nil l h2
    exact ⟨h1, t, (h4 t).mp ht⟩
  · obtain ⟨h1, h2, j, hj⟩ := ht
    have hp : mesh.tetra_vertex t j = (mesh.get_vertex v).toPoint := by
      unfold Mesh.tetra_vertex; rw [hj]
    obtain ⟨⟨x, hx, hxin⟩, _⟩ := builtTree_vertex_leaf d mesh tree hwf hb t h1 h2 j
    rw [hp] at hxin
    exact visit_leaves_reaches d id (fun dom => !dom.intersects b)
      (fun _ ts dom vt => Topological_Queries.windowed_VT_Leaf_no_reindex mesh b fuel ts dom vt)
      (fun _ => True) (fun s : StdMap (List Nat) => (StdMap.find s v).isSome = true)
      mesh.LeafOK (mesh.get_vertex v).toPoint mesh.domain.max x
      (fun s _ => ⟨trivial, fun h => h⟩)
      (fun y s s' hy h _ => ⟨trivial, fun hE => by
        obtain ⟨s'', hs'', f1, _, _⟩ := windowed_VT_leaf_step mesh hdist b fuel hfuel y hy s
        have h : s'' = s' := Option.some.inj (hs''.symm.trans h)
        subst h
        obtain ⟨l, hl⟩ := Option.isSome_iff_exists.mp hE
        rw [f1 v l hl]; rfl⟩)
      (fun B hB => by
        simp only [Bool.not_eq_false']
        exact intersects_of_common_point B b _ _ hB hin)
      hxin
      (fun s s' _ h => by
        obtain ⟨s'', hs'', _, _, f3⟩ := windowed_VT_leaf_step mesh hdist b fuel hfuel x
          (hQ x hx) s
        have h : s'' = s' := Option.some.inj (hs''.symm.trans h)
        subst h
        exact f3 v t ⟨h1, h2, j, hj⟩ hxin hin)
      tree mesh.domain 0 [] vt hQ hx hvt trivial

theorem cubeMesh_distinctVertices : Examples.cubeMesh.distinctVertices := by
  unfold Mesh.distinctVertices
  decide!

/-- C17 on S1 in the PR octree with `kv = 4` and the query box `[0,1/2]³`: the
map returned by the windowed VT has the vertices of the box as keys, each with
its incident tetrahedra. -/
theorem C17_windowed_VT_keys_and_values_witness :
    ∃ tree vt, P_Tree.build_tree Subdivision.OK Examples.cubeMesh 4 3 = some tree ∧
      Topological_Queries.windowed_VT_no_reindex Subdivision.OK Examples.cubeMesh
        ⟨⟨0, 0, 0⟩, ⟨1 / 2, 1 / 2, 1 / 2⟩⟩ 13 tree.toRaw Examples.cubeMesh.domain 0 []
        = some vt ∧
      (∀ v, (StdMap.find vt v).isSome = true ↔
        ((Box.mk ⟨0, 0, 0⟩ ⟨1 / 2, 1 / 2, 1 / 2⟩).contains_with_all_closed_faces
            (Examples.cubeMesh.get_vertex v).toPoint = true ∧
          ∃ t, Examples.cubeMesh.incident t v)) ∧
      ∀ v l, StdMap.find vt v = some l →
        l.Nodup ∧ ∀ t, t ∈ l ↔ Examples.cubeMesh.incident t v := by
  obtain ⟨tree, htree⟩ :
      ∃ tree, P_Tree.build_tree Subdivision.OK Examples.cubeMesh 4 3 = some tree :=
    Option.isSome_iff_exists.mp (by decide!)
  obtain ⟨vt, hvt, h⟩ := C17_windowed_VT_keys_and_values Subdivision.OK Examples.cubeMesh
    tree ⟨⟨0, 0, 0⟩, ⟨1 / 2, 1 / 2, 1 / 2⟩⟩ 13 cubeMesh_wellFormed cubeMesh_distinctVertices
    ⟨4, 0, 3, Or.inl htree⟩ (by decide)
  exact ⟨tree, vt, htree, hvt, h⟩

/-! ## Face tuples -/

theorem tuple_eq_iff (a b : triangle_tetrahedron_tuple) :
    a.eq b = true ↔ a.v1 = b.v1 ∧ a.v2 = b.v2 ∧ a.v3 = b.v3 := by
  simp [triangle_tetrahedron_tuple.eq]

theorem tuple_eq_symm (a b : triangle_tetrahedron_tuple) (h : a.eq b = true) :
    b.eq a = true := by
  rw [tuple_eq_iff] at h ⊢
  omega

theorem tuple_eq_trans (a b c : triangle_tetrahedron_tuple) (h1 : a.eq b = true)
    (h2 : b.eq c = true) : a.eq c = true := by
  rw [tuple_eq_iff] at h1 h2 ⊢
  omega

theorem tuple_lt_iff (a b : triangle_tetrahedron_tuple) :
    a.lt b = true ↔ (a.v1 < b.v1 ∨ (a.v1 = b.v1 ∧ a.v2 < b.v2) ∨
      (a.v1 = b.v1 ∧ a.v2 = b.v2 ∧ a.v3 < b.v3)) := by
  simp [triangle_tetrahedron_tuple.lt]

/-- A tuple followed, in a sorted array, by a tuple it is not equal to is
equal to none of the tuples that come after. -/
theorem tuple_sorted_ne (a b c : triangle_tetrahedron_tuple) (hab : b.lt a = false)
    (hbc : c.lt b = false) (hne : a.eq b = false) : a.eq c = false := by
  rw [← Bool.not_eq_true, tuple_lt_iff] at hab hbc
  rw [← Bool.not_eq_true, tuple_eq_iff] at hne ⊢
  omega

/-- The three indices of a tuple set from three distinct indices: they
increase, and they are the three indices given. -/
theorem sort_and_set_spec (a b c t f : Nat) (hab : a ≠ b) (hac : a ≠ c) (hbc : b ≠ c) :
    (triangle_tetrahedron_tuple.sort_and_set a b c t f).v1 <
        (triangle_tetrahedron_tuple.sort_and_set a b c t f).v2 ∧
      (triangle_tetrahedron_tuple.sort_and_set a b c t f).v2 <
        (triangle_tetrahedron_tuple.sort_and_set a b c t f).v3 ∧
      ∀ x, (x = (triangle_tetrahedron_tuple.sort_and_set a b c t f).v1 ∨
          x = (triangle_tetrahedron_tuple.sort_and_set a b c t f).v2 ∨
          x = (triangle_tetrahedron_tuple.sort_and_set a b c t f).v3) ↔
        (x = a ∨ x = b ∨ x = c) := by
  simp only [triangle_tetrahedron_tuple.sort_and_set]
  split_ifs with h1 h2 <;>
    refine ⟨by omega, by omega, fun x => by omega⟩

/-- Two tuples set from distinct indices are equal exactly when the indices
are the same three. -/
theorem sort_and_set_eq_iff (a b c t f a' b' c' t' f' : Nat) (hab : a ≠ b) (hac : a ≠ c)
    (hbc : b ≠ c) (hab' : a' ≠ b') (hac' : a' ≠ c') (hbc' : b' ≠ c') :
    (triangle_tetrahedron_tuple.sort_and_set a b c t f).eq
        (triangle_tetrahedron_tuple.sort_and_set a' b' c' t' f') = true ↔
      ∀ x, (x = a ∨ x = b ∨ x = c) ↔ (x = a' ∨ x = b' ∨ x = c') := by
  obtain ⟨h1, h2, h3⟩ := sort_and_set_spec a b c t f hab hac hbc
  obtain ⟨h1', h2', h3'⟩ := sort_and_set_spec a' b' c' t' f' hab' hac' hbc'
  rw [tuple_eq_iff]
  constructor
  · rintro ⟨e1, e2, e3⟩ x
    rw [← h3 x, ← h3' x, e1, e2, e3]
  · intro h
    have k1 : ∀ x, (x = (triangle_tetrahedron_tuple.sort_and_set a b c t f).v1 ∨
          x = (triangle_tetrahedron_tuple.sort_and_set a b c t f).v2 ∨
          x = (triangle_tetrahedron_tuple.sort_and_set a b c t f).v3) ↔
        (x = (triangle_tetrahedron_tuple.sort_and_set a' b' c' t' f').v1 ∨
          x = (triangle_tetrahedron_tuple.sort_and_set a' b' c' t' f').v2 ∨
          x = (triangle_tetrahedron_tuple.sort_and_set a' b' c' t' f').v3) :=
      fun x => (h3 x).trans ((h x).trans (h3' x).symm)
    have A1 := k1 (triangle_tetrahedron_tuple.sort_and_set a b c t f).v1
    have A2 := k1 (triangle_tetrahedron_tuple.sort_and_set a b c t f).v2
    have A3 := k1 (triangle_tetrahedron_tuple.sort_and_set a b c t f).v3
    have B1 := k1 (triangle_tetrahedron_tuple.sort_and_set a' b' c' t' f').v1
    have B2 := k1 (triangle_tetrahedron_tuple.sort_and_set a' b' c' t' f').v2
    have B3 := k1 (triangle_tetrahedron_tuple.sort_and_set a' b' c' t' f').v3
    omega

theorem fin4_others (p : Fin 4) :
    (Fin.ofNat (p.val + 1) : Fin 4) ≠ Fin.ofNat (p.val + 2) ∧
      (Fin.ofNat (p.val + 1) : Fin 4) ≠ Fin.ofNat (p.val + 3) ∧
      (Fin.ofNat (p.val + 2) : Fin 4) ≠ Fin.ofNat (p.val + 3) ∧
      ∀ j : Fin 4, j ≠ p ↔
        (j = Fin.ofNat (p.val + 1) ∨ j = Fin.ofNat (p.val + 2) ∨ j = Fin.ofNat (p.val + 3)) := by
  revert p
  decide

theorem fin4_fourth : ∀ k1 k2 k3 : Fin 4, k1 ≠ k2 → k1 ≠ k3 → k2 ≠ k3 →
    ∃ q : Fin 4, ∀ k, k ≠ q ↔ (k = k1 ∨ k = k2 ∨ k = k3) := by
  decide

/-- The vertices of the face opposite to a position: those of the three
positions the face tuple is set from. -/
theorem on_face_iff (T : Tetrahedron) (p : Fin 4) (x : Nat) :
    (∃ j, j ≠ p ∧ T.TV j = x) ↔
      (x = T.TV (Fin.ofNat (p.val + 1)) ∨ x = T.TV (Fin.ofNat (p.val + 2)) ∨
        x = T.TV (Fin.ofNat (p.val + 3))) := by
  obtain ⟨_, _, _, h⟩ := fin4_others p
  constructor
  · rintro ⟨j, hj, rfl⟩
    rcases (h j).mp hj with e | e | e
    · exact Or.inl (by rw [e])
    · exact Or.inr (Or.inl (by rw [e]))
    · exact Or.inr (Or.inr (by rw [e]))
  · rintro (e | e | e)
    · exact ⟨_, (h _).mpr (Or.inl rfl), e.symm⟩
    · exact ⟨_, (h _).mpr (Or.inr (Or.inl rfl)), e.symm⟩
    · exact ⟨_, (h _).mpr (Or.inr (Or.inr rfl)), e.symm⟩

/-- Two face tuples of tetrahedra with four distinct vertices are equal
exactly when the two faces have the same vertices. -/
theorem face_tuple_eq_iff (T U : Tetrahedron) (hT : Function.Injective T.TV)
    (hU : Function.Injective U.TV) (p q : Fin 4) (t u : Nat) :
    (T.face_tuple p.val t).eq (U.face_tuple q.val u) = true ↔
      ∀ x, (∃ j, j ≠ p ∧ T.TV j = x) ↔ (∃ k, k ≠ q ∧ U.TV k = x) := by
  obtain ⟨a1, a2, a3, _⟩ := fin4_others p
  obtain ⟨b1, b2, b3, _⟩ := fin4_others q
  unfold Tetrahedron.face_tuple
  rw [sort_and_set_eq_iff _ _ _ _ _ _ _ _ _ _ (fun e => a1 (hT e)) (fun e => a2 (hT e))
    (fun e => a3 (hT e)) (fun e => b1 (hU e)) (fun e => b2 (hU e)) (fun e => b3 (hU e))]
  constructor
  · intro h x
    rw [on_face_iff, on_face_iff]
    exact h x
  · intro h x
    rw [← on_face_iff, ← on_face_iff]
    exact h x

/-- Two faces of one tetrahedron with four distinct vertices have different
tuples. -/
theorem face_tuple_inj (T : Tetrahedron) (hT : Function.Injective T.TV) (p q : Fin 4)
    (t u : Nat) (h : (T.face_tuple p.val t).eq (T.face_tuple q.val u) = true) : p = q := by
  rw [face_tuple_eq_iff T T hT hT] at h
  by_contra hne
  obtain ⟨k, hk, e⟩ := (h (T.TV q)).mp ⟨q, fun e => hne e.symm, rfl⟩
  exact hk (hT e)

/-- A tetrahedron has the three vertices of a face of another one exactly
when one of its face tuples is equal to the tuple of that face. -/
theorem has_face_of_iff (U T : Tetrahedron) (hT : Function.Injective T.TV)
    (hU : Function.Injective U.TV) (p : Fin 4) (t u : Nat) :
    U.has_face_of T p ↔
      ∃ q : Fin 4, (T.face_tuple p.val t).eq (U.face_tuple q.val u) = true := by
  constructor
  · intro h
    obtain ⟨a1, a2, a3, ha⟩ := fin4_others p
    obtain ⟨k1, e1⟩ := h _ ((ha _).mpr (Or.inl rfl))
    obtain ⟨k2, e2⟩ := h _ ((ha _).mpr (Or.inr (Or.inl rfl)))
    obtain ⟨k3, e3⟩ := h _ ((ha _).mpr (Or.inr (Or.inr rfl)))
    have n12 : k1 ≠ k2 := fun e => a1 (hT (by rw [← e1, ← e2, e]))
    have n13 : k1 ≠ k3 := fun e => a2 (hT (by rw [← e1, ← e3, e]))
    have n23 : k2 ≠ k3 := fun e => a3 (hT (by rw [← e2, ← e3, e]))
    obtain ⟨q, hq⟩ := fin4_fourth k1 k2 k3 n12 n13 n23
    refine ⟨q, (face_tuple_eq_iff T U hT hU p q t u).mpr (fun x => ?_)⟩
    rw [on_face_iff]
    constructor
    · rintro (e | e | e)
      · exact ⟨k1, (hq _).mpr (Or.inl rfl), by rw [e, e1]⟩
      · exact ⟨k2, (hq _).mpr (Or.inr (Or.inl rfl)), by rw [e, e2]⟩
      · exact ⟨k3, (hq _).mpr (Or.inr (Or.inr rfl)), by rw [e, e3]⟩
    · rintro ⟨k, hk, rfl⟩
      rcases (hq k).mp hk with e | e | e
      · exact Or.inl (by rw [e, e1])
      · exact Or.inr (Or.inl (by rw [e, e2]))
      · exact Or.inr (Or.inr (by rw [e, e3]))
  · rintro ⟨q, hq⟩ j hj
    rw [face_tuple_eq_iff T U hT hU] at hq
    obtain ⟨k, _, e⟩ := (hq (T.TV j)).mp ⟨j, hj, rfl⟩
    exact ⟨k, e⟩

/-! ## The table of the batched TT -/

theorem ttTable_init_shape (n : Nat) : TTTable.Shape n (TTTable.init n) := by
  refine ⟨by simp [TTTable.init], fun row hrow => ?_⟩
  simp only [TTTable.init, List.mem_replicate] at hrow
  rw [hrow.2]; simp

theorem ttTable_init_get (n i p : Nat) (hi : i < n) (hp : p < 4) :
    (TTTable.init n).get i p = -1 := by
  simp only [TTTable.get, TTTable.init, List.getD_eq_getElem?_getD]
  rw [List.getElem?_replicate]
  simp only [hi, if_true, Option.getD_some]
  rw [List.getElem?_replicate]
  simp [hp]

theorem ttTable_row_length (n : Nat) (tt : TTTable) (h : TTTable.Shape n tt) (i : Nat)
    (hi : i < n) : (tt.getD i []).length = 4 := by
  have hl : i < tt.length := by rw [h.1]; exact hi
  rw [List.getD_eq_getElem _ _ hl]
  exact h.2 _ (List.getElem_mem _)

theorem ttTable_set_shape (n : Nat) (tt : TTTable) (h : TTTable.Shape n tt) (i p : Nat)
    (v : Int) (hi : i < n) : TTTable.Shape n (tt.set i p v) := by
  refine ⟨by simp [TTTable.set, h.1], fun row hrow => ?_⟩
  simp only [TTTable.set] at hrow
  rcases List.mem_or_eq_of_mem_set hrow with h1 | h1
  · exact h.2 row h1
  · rw [h1, List.length_set]
    exact ttTable_row_length n tt h i hi

theorem ttTable_get_set (n : Nat) (tt : TTTable) (h : TTTable.Shape n tt) (i p : Nat)
    (v : Int) (hi : i < n) (hp : p < 4) (i' p' : Nat) :
    (tt.set i p v).get i' p' = if i' = i ∧ p' = p then v else tt.get i' p' := by
  have hl : i < tt.length := by rw [h.1]; exact hi
  have hrow := ttTable_row_length n tt h i hi
  have hp' : p < (tt.getD i []).length := by rw [hrow]; exact hp
  simp only [TTTable.get, TTTable.set]
  simp only [List.getD_eq_getElem?_getD] at hp' ⊢
  by_cases e : i' = i
  · subst e
    rw [List.getElem?_set_self hl]
    simp only [Option.getD_some, true_and]
    by_cases e2 : p' = p
    · subst e2
      rw [List.getElem?_set_self hp']
      simp
    · rw [List.getElem?_set_ne (fun e3 => e2 e3.symm)]
      simp only [e2, if_false]
  · rw [List.getElem?_set_ne (fun e3 => e e3.symm)]
    simp [e]

/-! ## The loop over the sorted faces -/

theorem scan_faces_flatten : ∀ F : List triangle_tetrahedron_tuple,
    (scan_faces F).flatMap (fun e => e.1 :: e.2.toList) = F
  | [] => rfl
  | [a] => rfl
  | a :: b :: rest => by
    unfold scan_faces
    split_ifs with h
    · simp [scan_faces_flatten rest]
    · simp [scan_faces_flatten (b :: rest)]

theorem facesTwice_tail (a : triangle_tetrahedron_tuple)
    (F : List triangle_tetrahedron_tuple) (h : FacesTwice (a :: F)) : FacesTwice F :=
  ⟨(List.nodup_cons.mp h.1).2, fun x hx y hy z hz =>
    h.2 x (List.mem_cons_of_mem _ hx) y (List.mem_cons_of_mem _ hy) z
      (List.mem_cons_of_mem _ hz)⟩

theorem facePartner_cons (a : triangle_tetrahedron_tuple)
    (F : List triangle_tetrahedron_tuple) (x y : triangle_tetrahedron_tuple)
    (h : FacePartner F x y) : FacePartner (a :: F) x y :=
  ⟨List.mem_cons_of_mem _ h.1, List.mem_cons_of_mem _ h.2.1, h.2.2⟩

/-- In a sorted array where no face occurs more than twice, the loop takes
two tuples together exactly when they are the two tuples of one face. -/
theorem scan_faces_spec : ∀ F : List triangle_tetrahedron_tuple,
    F.Pairwise (fun a b => b.lt a = false) → FacesTwice F →
    ∀ e ∈ scan_faces F,
      (∀ b, e.2 = some b → FacePartner F e.1 b) ∧
      (e.2 = none → e.1 ∈ F ∧ ∀ y, ¬ FacePartner F e.1 y)
  | [], _, _ => by simp [scan_faces]
  | [a], _, _ => by
    intro e he
    simp only [scan_faces, List.mem_singleton] at he
    subst he
    refine ⟨by simp, fun _ => ⟨by simp, fun y hy => ?_⟩⟩
    obtain ⟨_, h2, _, h4⟩ := hy
    simp only [List.mem_singleton] at h2
    exact h4 h2.symm
  | a :: b :: rest, hs, ht => by
    intro e he
    have hnd := ht.1
    have hab : a ≠ b := fun e => (List.nodup_cons.mp hnd).1 (by rw [e]; simp)
    have har : a ∉ rest := fun h => (List.nodup_cons.mp hnd).1 (List.mem_cons_of_mem _ h)
    have hbr : b ∉ rest := fun h =>
      (List.nodup_cons.mp (List.nodup_cons.mp hnd).2).1 h
    have hs1 := List.pairwise_cons.mp hs
    have hs2 := List.pairwise_cons.mp hs1.2
    unfold scan_faces at he
    by_cases h : a.eq b = true
    · simp only [h, if_true, List.mem_cons] at he
      have hno : ∀ y ∈ rest, a.eq y = false := by
        intro y hy
        by_contra hc
        have hc' : a.eq y = true := by simpa using hc
        rcases ht.2 a (by simp) b (by simp) y (by simp [hy]) h hc' with e1 | e1 | e1
        · exact hab e1
        · exact har (by rw [e1]; exact hy)
        · exact hbr (by rw [e1]; exact hy)
      rcases he with he | he
      · subst he
        refine ⟨fun b' hb' => ?_, fun hn => by simp at hn⟩
        simp only [Option.some.injEq] at hb'
        subst hb'
        exact ⟨by simp, by simp, h, hab⟩
      · obtain ⟨i1, i2⟩ := scan_faces_spec rest hs2.2
          (facesTwice_tail b _ (facesTwice_tail a _ ht)) e he
        refine ⟨fun b' hb' => facePartner_cons _ _ _ _ (facePartner_cons _ _ _ _ (i1 b' hb')),
          fun hn => ⟨List.mem_cons_of_mem _ (List.mem_cons_of_mem _ (i2 hn).1), fun y hy => ?_⟩⟩
        obtain ⟨_, y2, y3, y4⟩ := hy
        have hmem := (i2 hn).1
        rcases List.mem_cons.mp y2 with ya | y2
        · subst ya
          have := hno _ hmem
          rw [tuple_eq_symm _ _ y3] at this
          exact Bool.noConfusion this
        · rcases List.mem_cons.mp y2 with yb | y2
          · subst yb
            have := hno _ hmem
            rw [tuple_eq_trans _ _ _ h (tuple_eq_symm _ _ y3)] at this
            exact Bool.noConfusion this
          · exact (i2 hn).2 y ⟨hmem, y2, y3, y4⟩
    · have h' : a.eq b = false := by simpa using h
      simp only [h', Bool.false_eq_true, if_false, List.mem_cons] at he
      have hno : ∀ y ∈ b :: rest, a.eq y = false := by
        intro y hy
        rcases List.mem_cons.mp hy with e1 | e1
        · rw [e1]; exact h'
        · exact tuple_sorted_ne a b y (hs1.1 b (by simp)) (hs2.1 y e1) h'
      rcases he with he | he
      · subst he
        refine ⟨fun b' hb' => by simp at hb', fun _ => ⟨by simp, fun y hy => ?_⟩⟩
        obtain ⟨_, y2, y3, y4⟩ := hy
        rcases List.mem_cons.mp y2 with ya | y2
        · exact y4 ya.symm
        · have := hno y y2
          rw [y3] at this
          exact Bool.noConfusion this
      · obtain ⟨i1, i2⟩ := scan_faces_spec (b :: rest) hs1.2 (facesTwice_tail a _ ht) e he
        refine ⟨fun b' hb' => facePartner_cons _ _ _ _ (i1 b' hb'),
          fun hn => ⟨List.mem_cons_of_mem _ (i2 hn).1, fun y hy => ?_⟩⟩
        obtain ⟨_, y2, y3, y4⟩ := hy
        have hmem := (i2 hn).1
        rcases List.mem_cons.mp y2 with ya | y2
        · subst ya
          have := hno _ hmem
          rw [tuple_eq_symm _ _ y3] at this
          exact Bool.noConfusion this
        · exact (i2 hn).2 y ⟨hmem, y2, y3, y4⟩

theorem facePartner_symm (F : List triangle_tetrahedron_tuple)
    (x y : triangle_tetrahedron_tuple) (h : FacePartner F x y) : FacePartner F y x :=
  ⟨h.2.1, h.1, tuple_eq_symm _ _ h.2.2.1, fun e => h.2.2.2 e.symm⟩

/-- The two tuples of a face are taken together by the loop. -/
theorem scan_faces_partner (F : List triangle_tetrahedron_tuple)
    (hs : F.Pairwise (fun a b => b.lt a = false)) (ht : FacesTwice F)
    (x y : triangle_tetrahedron_tuple) (h : FacePartner F x y) :
    (x, some y) ∈ scan_faces F ∨ (y, some x) ∈ scan_faces F := by
  have hx : x ∈ (scan_faces F).flatMap (fun e => e.1 :: e.2.toList) := by
    rw [scan_faces_flatten]; exact h.1
  obtain ⟨e, he, hxe⟩ := List.mem_flatMap.mp hx
  obtain ⟨i1, i2⟩ := scan_faces_spec F hs ht e he
  obtain ⟨e1, e2⟩ := e
  rcases List.mem_cons.mp hxe with h1 | h1
  · simp only at h1
    subst h1
    cases e2 with
    | none => exact absurd h ((i2 rfl).2 y)
    | some b =>
      have hb := i1 b rfl
      rcases ht.2 x h.1 b hb.2.1 y h.2.1 hb.2.2.1 h.2.2.1 with e | e | e
      · exact absurd e hb.2.2.2
      · exact absurd e h.2.2.2
      · subst e; exact Or.inl he
  · cases e2 with
    | none => simp at h1
    | some b =>
      simp only [Option.toList_some, List.mem_singleton] at h1
      subst h1
      have hb := i1 x rfl
      simp only at hb
      rcases ht.2 x h.1 e1 hb.1 y h.2.1 (tuple_eq_symm _ _ hb.2.2.1) h.2.2.1 with e | e | e
      · exact absurd e.symm hb.2.2.2
      · exact absurd e h.2.2.2
      · subst e; exact Or.inr he

/-- A tuple with no other tuple of its face is taken alone by the loop. -/
theorem scan_faces_single (F : List triangle_tetrahedron_tuple)
    (hs : F.Pairwise (fun a b => b.lt a = false)) (ht : FacesTwice F)
    (x : triangle_tetrahedron_tuple) (hx : x ∈ F) (h : ∀ y, ¬ FacePartner F x y) :
    (x, none) ∈ scan_faces F := by
  have hx : x ∈ (scan_faces F).flatMap (fun e => e.1 :: e.2.toList) := by
    rw [scan_faces_flatten]; exact hx
  obtain ⟨e, he, hxe⟩ := List.mem_flatMap.mp hx
  obtain ⟨i1, i2⟩ := scan_faces_spec F hs ht e he
  obtain ⟨e1, e2⟩ := e
  rcases List.mem_cons.mp hxe with h1 | h1
  · simp only at h1
    subst h1
    cases e2 with
    | none => exact he
    | some b => exact absurd (i1 b rfl) (h b)
  · cases e2 with
    | none => simp at h1
    | some b =>
      simp only [Option.toList_some, List.mem_singleton] at h1
      subst h1
      exact absurd (facePartner_symm _ _ _ (i1 x rfl)) (h e1)

theorem batched_TT_pair_eq : ∀ (F : List triangle_tetrahedron_tuple) (tt : TTTable),
    Topological_Queries.batched_TT_pair F tt = (scan_faces F).foldl batched_TT_step tt
  | [], _ => rfl
  | [a], _ => rfl
  | a :: b :: rest, tt => by
    unfold Topological_Queries.batched_TT_pair scan_faces
    split_ifs with h
    · rw [batched_TT_pair_eq rest]; rfl
    · rw [batched_TT_pair_eq (b :: rest)]; rfl

theorem facesOf_ne (n : Nat) (G : List triangle_tetrahedron_tuple) (h : FacesOf n G)
    (a b : triangle_tetrahedron_tuple) (ha : a ∈ G) (hb : b ∈ G) (hne : a ≠ b) :
    ¬ (a.t - 1 = b.t - 1 ∧ a.f_pos = b.f_pos) := by
  rintro ⟨e1, e2⟩
  have h1 := (h.1 a ha).1
  have h2 := (h.1 b hb).1
  exact hne (h.2 a ha b hb (by omega) e2)

theorem batched_TT_step_shape (n : Nat) (tt : TTTable) (h : TTTable.Shape n tt)
    (e : triangle_tetrahedron_tuple × Option triangle_tetrahedron_tuple)
    (he : ∀ a ∈ e.1 :: e.2.toList, 1 ≤ a.t ∧ a.t ≤ n ∧ a.f_pos < 4) :
    TTTable.Shape n (batched_TT_step tt e) := by
  obtain ⟨a, o⟩ := e
  cases o with
  | none => exact h
  | some b =>
    have ha := he a (by simp)
    have hb := he b (by simp)
    show TTTable.Shape n ((tt.set (a.t - 1) a.f_pos b.t).set (b.t - 1) b.f_pos a.t)
    exact ttTable_set_shape n _ (ttTable_set_shape n _ h _ _ _ (by omega)) _ _ _ (by omega)

theorem batched_TT_step_get (n : Nat) (tt : TTTable) (h : TTTable.Shape n tt)
    (a b : triangle_tetrahedron_tuple) (ha : 1 ≤ a.t ∧ a.t ≤ n ∧ a.f_pos < 4)
    (hb : 1 ≤ b.t ∧ b.t ≤ n ∧ b.f_pos < 4) (i p : Nat) :
    (batched_TT_step tt (a, some b)).get i p =
      if i = b.t - 1 ∧ p = b.f_pos then (a.t : Int)
      else if i = a.t - 1 ∧ p = a.f_pos then (b.t : Int) else tt.get i p := by
  simp only [batched_TT_step]
  rw [ttTable_get_set n _ (ttTable_set_shape n _ h _ _ _ (by omega)) _ _ _ (by omega) hb.2.2,
    ttTable_get_set n _ h _ _ _ (by omega) ha.2.2]

/-- The table after the steps of the loop, when the tuples taken are all
different: the two entries of two tuples taken together hold the tetrahedron
of the other tuple, the other entries are as before. -/
theorem batched_TT_fold (n : Nat) :
    ∀ (L : List (triangle_tetrahedron_tuple × Option triangle_tetrahedron_tuple))
      (tt : TTTable), TTTable.Shape n tt →
      (L.flatMap (fun e => e.1 :: e.2.toList)).Nodup →
      FacesOf n (L.flatMap (fun e => e.1 :: e.2.toList)) →
      TTTable.Shape n (L.foldl batched_TT_step tt) ∧
      (∀ e ∈ L, ∀ b, e.2 = some b →
        (L.foldl batched_TT_step tt).get (e.1.t - 1) e.1.f_pos = b.t ∧
        (L.foldl batched_TT_step tt).get (b.t - 1) b.f_pos = e.1.t) ∧
      (∀ i p, (∀ e ∈ L, ∀ b, e.2 = some b →
          ¬ (e.1.t - 1 = i ∧ e.1.f_pos = p) ∧ ¬ (b.t - 1 = i ∧ b.f_pos = p)) →
        (L.foldl batched_TT_step tt).get i p = tt.get i p)
  | [], tt, hsh, _, _ => ⟨hsh, by simp, fun _ _ _ => rfl⟩
  | e :: L, tt, hsh, hnd, hof => by
    rw [List.flatMap_cons] at hnd hof
    have hnd' := List.nodup_append.mp hnd
    have hofL : FacesOf n (L.flatMap (fun e => e.1 :: e.2.toList)) :=
      ⟨fun a ha => hof.1 a (List.mem_append_right _ ha), fun a ha b hb =>
        hof.2 a (List.mem_append_right _ ha) b (List.mem_append_right _ hb)⟩
    have hsh1 := batched_TT_step_shape n tt hsh e
      (fun a ha => hof.1 a (List.mem_append_left _ ha))
    obtain ⟨i1, i2, i3⟩ := batched_TT_fold n L (batched_TT_step tt e) hsh1 hnd'.2.1 hofL
    simp only [List.foldl_cons]
    have hdis : ∀ x ∈ e.1 :: e.2.toList, ∀ e' ∈ L, ∀ y ∈ e'.1 :: e'.2.toList,
        ¬ (y.t - 1 = x.t - 1 ∧ y.f_pos = x.f_pos) := by
      intro x hx e' he' y hy
      have hy' : y ∈ L.flatMap (fun e => e.1 :: e.2.toList) :=
        List.mem_flatMap.mpr ⟨e', he', hy⟩
      exact facesOf_ne n _ hof y x (List.mem_append_right _ hy') (List.mem_append_left _ hx)
        (fun e0 => hnd'.2.2 hx (by rw [← e0]; exact hy'))
    refine ⟨i1, fun e' he' b hb => ?_, fun i p hip => ?_⟩
    · rcases List.mem_cons.mp he' with h0 | h0
      · subst h0
        obtain ⟨a, o⟩ := e'
        simp only at hb
        subst hb
        have ha := hof.1 a (by simp)
        have hb := hof.1 b (by simp)
        have hab : a ≠ b := by
          have := hnd'.1
          simp only [Option.toList_some, List.nodup_cons, List.mem_singleton] at this
          exact this.1
        have hne := facesOf_ne n _ hof a b (by simp) (by simp) hab
        constructor
        · rw [i3 _ _ (fun e' he' b' hb' =>
            ⟨hdis a (by simp) e' he' e'.1 (by simp),
              hdis a (by simp) e' he' b' (by simp [hb'])⟩),
            batched_TT_step_get n tt hsh a b ha hb]
          simp only [hne, if_false, true_and, and_self, if_true]
        · rw [i3 _ _ (fun e' he' b' hb' =>
            ⟨hdis b (by simp) e' he' e'.1 (by simp),
              hdis b (by simp) e' he' b' (by simp [hb'])⟩),
            batched_TT_step_get n tt hsh a b ha hb]
          simp
      · exact i2 e' h0 b hb
    · rw [i3 i p (fun e' he' b hb => hip e' (List.mem_cons_of_mem _ he') b hb)]
      obtain ⟨a, o⟩ := e
      cases o with
      | none => rfl
      | some b =>
        have h0 := hip (a, some b) (by simp) b rfl
        rw [batched_TT_step_get n tt hsh a b (hof.1 a (by simp)) (hof.1 b (by simp))]
        simp only at h0
        rw [if_neg (fun h => h0.2 ⟨h.1.symm, h.2.symm⟩),
          if_neg (fun h => h0.1 ⟨h.1.symm, h.2.symm⟩)]

theorem face_tuple_t (T : Tetrahedron) (v t : Nat) : (T.face_tuple v t).t = t := rfl

theorem face_tuple_f_pos (T : Tetrahedron) (v t : Nat) : (T.face_tuple v t).f_pos = v := rfl

/-- In a mesh where the tetrahedra have four distinct vertices and a face is
of two tetrahedra at most, three equal face tuples are not of three different
faces. -/
theorem face_tuple_twice (mesh : Mesh) (hdist : mesh.distinctVertices)
    (hman : mesh.twoPerFace) (t u w : Nat) (p q r : Fin 4)
    (ht : 1 ≤ t ∧ t ≤ mesh.get_num_tetrahedra) (hu : 1 ≤ u ∧ u ≤ mesh.get_num_tetrahedra)
    (hw : 1 ≤ w ∧ w ≤ mesh.get_num_tetrahedra)
    (h1 : ((mesh.get_tetrahedron t).face_tuple p t).eq
      ((mesh.get_tetrahedron u).face_tuple q u) = true)
    (h2 : ((mesh.get_tetrahedron t).face_tuple p t).eq
      ((mesh.get_tetrahedron w).face_tuple r w) = true) :
    (t = u ∧ p = q) ∨ (t = w ∧ p = r) ∨ (u = w ∧ q = r) := by
  have iT := hdist _ (get_tetrahedron_mem mesh t ht.1 ht.2)
  have iU := hdist _ (get_tetrahedron_mem mesh u hu.1 hu.2)
  have iW := hdist _ (get_tetrahedron_mem mesh w hw.1 hw.2)
  by_cases e1 : t = u
  · subst e1
    exact Or.inl ⟨rfl, face_tuple_inj _ iT p q t t h1⟩
  by_cases e2 : t = w
  · subst e2
    exact Or.inr (Or.inl ⟨rfl, face_tuple_inj _ iT p r t t h2⟩)
  by_cases e3 : u = w
  · subst e3
    exact Or.inr (Or.inr ⟨rfl, face_tuple_inj _ iU q r u u
      (tuple_eq_trans _ _ _ (tuple_eq_symm _ _ h1) h2)⟩)
  exfalso
  have mem : ∀ x, 1 ≤ x ∧ x ≤ mesh.get_num_tetrahedra →
      x ∈ List.range' 1 mesh.get_num_tetrahedra := fun x hx =>
    List.mem_range'_1.mpr ⟨hx.1, by omega⟩
  exact e3 (hman t (mem t ht) p u (mem u hu) w (mem w hw) (fun e => e1 e.symm)
    (fun e => e2 e.symm)
    ((has_face_of_iff _ _ iT iU p t u).mpr ⟨q, h1⟩)
    ((has_face_of_iff _ _ iT iW p t w).mpr ⟨r, h2⟩))

theorem batched_TT_faces_append (mesh : Mesh) (tt : TTTable) (t : Nat) :
    ∀ (js : List Nat) (fs : List triangle_tetrahedron_tuple),
      js.foldl (fun fs v =>
        if tt.get (t - 1) v = -1 then fs ++ [(mesh.get_tetrahedron t).face_tuple v t]
        else fs) fs
      = fs ++ js.filterMap (fun v =>
        if tt.get (t - 1) v = -1 then some ((mesh.get_tetrahedron t).face_tuple v t)
        else none)
  | [], fs => by simp
  | j :: js, fs => by
    rw [List.foldl_cons, batched_TT_faces_append mesh tt t js, List.filterMap_cons]
    by_cases h : tt.get (t - 1) j = -1
    · simp [h]
    · simp [h]

theorem batched_TT_collected_eq (mesh : Mesh) (tt : TTTable) :
    ∀ (ts : List Nat) (fs : List triangle_tetrahedron_tuple),
      (ts.map Int.ofNat).foldl
          (fun fs tet_id => Topological_Queries.batched_TT_faces mesh tt fs tet_id.toNat) fs
        = fs ++ batched_TT_collected mesh tt ts
  | [], fs => by simp [batched_TT_collected]
  | t :: ts, fs => by
    have hn : (Int.ofNat t).toNat = t := rfl
    rw [List.map_cons, List.foldl_cons, batched_TT_collected_eq mesh tt ts, hn]
    unfold Topological_Queries.batched_TT_faces batched_TT_collected
    rw [batched_TT_faces_append, List.flatMap_cons, List.append_assoc]

theorem mem_batched_TT_collected (mesh : Mesh) (tt : TTTable) (ts : List Nat)
    (a : triangle_tetrahedron_tuple) :
    a ∈ batched_TT_collected mesh tt ts ↔
      ∃ t ∈ ts, ∃ p : Fin 4, tt.get (t - 1) p = -1 ∧
        a = (mesh.get_tetrahedron t).face_tuple p t := by
  simp only [batched_TT_collected, List.mem_flatMap, List.mem_filterMap, List.mem_range]
  constructor
  · rintro ⟨t, ht, v, hv, h⟩
    by_cases hc : tt.get (t - 1) v = -1
    · simp only [hc, if_true, Option.some.injEq] at h
      exact ⟨t, ht, ⟨v, hv⟩, hc, h.symm⟩
    · simp [hc] at h
  · rintro ⟨t, ht, p, hc, rfl⟩
    exact ⟨t, ht, p.val, p.isLt, by simp [hc]⟩

theorem batched_TT_collected_nodup (mesh : Mesh) (tt : TTTable) (ts : List Nat)
    (hts : ts.Nodup) : (batched_TT_collected mesh tt ts).Nodup := by
  unfold batched_TT_collected
  rw [List.nodup_flatMap]
  constructor
  · intro t _
    refine List.Nodup.filterMap (fun v v' b hb hb' => ?_) (List.nodup_range 4)
    simp only [Option.mem_def] at hb hb'
    by_cases hc : tt.get (t - 1) v = -1
    · by_cases hc' : tt.get (t - 1) v' = -1
      · simp only [hc, hc', if_true, Option.some.injEq] at hb hb'
        have := congrArg triangle_tetrahedron_tuple.f_pos (hb.trans hb'.symm)
        simpa [face_tuple_f_pos] using this
      · simp [hc'] at hb'
    · simp [hc] at hb
  · refine hts.imp ?_
    intro t t' hne
    simp only [Function.onFun]
    intro a ha ha'
    simp only [List.mem_filterMap, List.mem_range] at ha ha'
    obtain ⟨v, _, hv⟩ := ha
    obtain ⟨v', _, hv'⟩ := ha'
    by_cases hc : tt.get (t - 1) v = -1
    · by_cases hc' : tt.get (t' - 1) v' = -1
      · simp only [hc, hc', if_true, Option.some.injEq] at hv hv'
        have := congrArg triangle_tetrahedron_tuple.t (hv.trans hv'.symm)
        simp only [face_tuple_t] at this
        exact hne this
      · simp [hc'] at hv'
    · simp [hc] at hv

/-- The table after the loop of `batched_TT_leaf` over a sorted array where
no face occurs more than twice: the entry of a tuple with another tuple of
its face is the tetrahedron of that tuple, the other entries are as before. -/
theorem batched_TT_pair_spec (n : Nat) (F : List triangle_tetrahedron_tuple)
    (hs : F.Pairwise (fun a b => b.lt a = false)) (ht : FacesTwice F) (hof : FacesOf n F)
    (tt : TTTable) (hsh : TTTable.Shape n tt) :
    TTTable.Shape n (Topological_Queries.batched_TT_pair F tt) ∧
      (∀ x y, FacePartner F x y →
        (Topological_Queries.batched_TT_pair F tt).get (x.t - 1) x.f_pos = y.t) ∧
      (∀ i p, (∀ x y, FacePartner F x y → ¬ (x.t - 1 = i ∧ x.f_pos = p)) →
        (Topological_Queries.batched_TT_pair F tt).get i p = tt.get i p) := by
  rw [batched_TT_pair_eq]
  obtain ⟨i1, i2, i3⟩ := batched_TT_fold n (scan_faces F) tt hsh
    (by rw [scan_faces_flatten]; exact ht.1) (by rw [scan_faces_flatten]; exact hof)
  refine ⟨i1, fun x y hxy => ?_, fun i p hip => i3 i p (fun e he b hb => ?_)⟩
  · rcases scan_faces_partner F hs ht x y hxy with h | h
    · exact (i2 _ h y rfl).1
    · exact (i2 _ h x rfl).2
  · have hp := (scan_faces_spec F hs ht e he).1 b hb
    exact ⟨hip _ _ hp, hip _ _ (facePartner_symm _ _ _ hp)⟩

theorem batched_TT_collected_twice (mesh : Mesh) (hdist : mesh.distinctVertices)
    (hman : mesh.twoPerFace) (tt : TTTable) (ts : List Nat) (hts : ts.Nodup)
    (hr : ∀ t ∈ ts, 1 ≤ t ∧ t ≤ mesh.get_num_tetrahedra) :
    FacesTwice (batched_TT_collected mesh tt ts) ∧
      FacesOf mesh.get_num_tetrahedra (batched_TT_collected mesh tt ts) := by
  refine ⟨⟨batched_TT_collected_nodup mesh tt ts hts, fun a ha b hb c hc hab hac => ?_⟩,
    fun a ha => ?_, fun a ha b hb h1 h2 => ?_⟩
  · obtain ⟨t, ht, p, _, rfl⟩ := (mem_batched_TT_collected mesh tt ts a).mp ha
    obtain ⟨u, hu, q, _, rfl⟩ := (mem_batched_TT_collected mesh tt ts b).mp hb
    obtain ⟨w, hw, r, _, rfl⟩ := (mem_batched_TT_collected mesh tt ts c).mp hc
    rcases face_tuple_twice mesh hdist hman t u w p q r (hr t ht) (hr u hu) (hr w hw) hab hac
      with ⟨e1, e2⟩ | ⟨e1, e2⟩ | ⟨e1, e2⟩
    · subst e1; subst e2; exact Or.inl rfl
    · subst e1; subst e2; exact Or.inr (Or.inl rfl)
    · subst e1; subst e2; exact Or.inr (Or.inr rfl)
  · obtain ⟨t, ht, p, _, rfl⟩ := (mem_batched_TT_collected mesh tt ts a).mp ha
    exact ⟨(hr t ht).1, (hr t ht).2, p.isLt⟩
  · obtain ⟨t, ht, p, _, rfl⟩ := (mem_batched_TT_collected mesh tt ts a).mp ha
    obtain ⟨u, hu, q, _, rfl⟩ := (mem_batched_TT_collected mesh tt ts b).mp hb
    simp only [face_tuple_t, face_tuple_f_pos] at h1 h2
    subst h1
    rw [h2]

/-- One leaf of the batched TT, its tetrahedra array a strictly increasing
list of ids of the mesh: the leaf procedure returns, the table stays as the
batched TT keeps it, the entries that were set stay, and two tetrahedra of
the leaf with a common face have each other as the entry of the face. -/
theorem batched_TT_leaf_spec (mesh : Mesh) (hdist : mesh.distinctVertices)
    (hman : mesh.twoPerFace)
    (sort : List triangle_tetrahedron_tuple → List triangle_tetrahedron_tuple)
    (hsort : StdSort sort) (fuel : Nat) (ts : List Nat)
    (hp : ts.Pairwise (fun a b => a < b))
    (hr : ∀ t ∈ ts, 1 ≤ t ∧ t ≤ mesh.get_num_tetrahedra) (hf : ts.length < fuel)
    (tt : TTTable) (hI : TTInv mesh tt) :
    ∃ tt', Topological_Queries.batched_TT_leaf mesh sort fuel (ts.map Int.ofNat) tt
        = some tt' ∧ TTInv mesh tt' ∧
      (∀ t, 1 ≤ t → t ≤ mesh.get_num_tetrahedra → ∀ p : Fin 4,
        tt.get (t - 1) p ≠ -1 → tt'.get (t - 1) p = tt.get (t - 1) p) ∧
      (∀ t ∈ ts, ∀ u ∈ ts, ∀ p q : Fin 4, u ≠ t →
        ((mesh.get_tetrahedron t).face_tuple p t).eq
          ((mesh.get_tetrahedron u).face_tuple q u) = true →
        tt'.get (t - 1) p = u) := by
  have hts : ts.Nodup := hp.imp (fun h => Nat.ne_of_lt h)
  unfold Topological_Queries.batched_TT_leaf
  rw [collect_plain ts (fun x hx => (hr x hx).1) fuel hf]
  simp only [batched_TT_collected_eq, List.nil_append]
  obtain ⟨hperm, hsorted⟩ := hsort (batched_TT_collected mesh tt ts)
  obtain ⟨htw0, hof0⟩ := batched_TT_collected_twice mesh hdist hman tt ts hts hr
  have hmem : ∀ a, a ∈ sort (batched_TT_collected mesh tt ts) ↔
      ∃ t ∈ ts, ∃ p : Fin 4, tt.get (t - 1) p = -1 ∧
        a = (mesh.get_tetrahedron t).face_tuple p t := fun a =>
    hperm.mem_iff.trans (mem_batched_TT_collected mesh tt ts a)
  have htw : FacesTwice (sort (batched_TT_collected mesh tt ts)) :=
    ⟨hperm.nodup_iff.mpr htw0.1, fun a ha b hb c hc =>
      htw0.2 a (hperm.mem_iff.mp ha) b (hperm.mem_iff.mp hb) c (hperm.mem_iff.mp hc)⟩
  have hof : FacesOf mesh.get_num_tetrahedra (sort (batched_TT_collected mesh tt ts)) :=
    ⟨fun a ha => hof0.1 a (hperm.mem_iff.mp ha), fun a ha b hb =>
      hof0.2 a (hperm.mem_iff.mp ha) b (hperm.mem_iff.mp hb)⟩
  obtain ⟨sh, P2, P3⟩ := batched_TT_pair_spec mesh.get_num_tetrahedra _ hsorted htw hof tt hI.1
  -- an entry that was set is not of a collected face
  have hkeep : ∀ t, 1 ≤ t → ∀ p : Fin 4, tt.get (t - 1) p ≠ -1 →
      (Topological_Queries.batched_TT_pair (sort (batched_TT_collected mesh tt ts)) tt).get
        (t - 1) p = tt.get (t - 1) p := by
    intro t h1 p hne
    refine P3 _ _ (fun x y hxy hid => ?_)
    obtain ⟨t', ht', p', hc, rfl⟩ := (hmem x).mp hxy.1
    simp only [face_tuple_t, face_tuple_f_pos] at hid
    have e1 : t' = t := by have := (hr t' ht').1; omega
    subst e1
    rw [← hid.2] at hne
    exact hne hc
  -- two collected faces of two tetrahedra
  have hpair : ∀ t ∈ ts, ∀ u ∈ ts, ∀ p q : Fin 4, u ≠ t → tt.get (t - 1) p = -1 →
      tt.get (u - 1) q = -1 →
      ((mesh.get_tetrahedron t).face_tuple p t).eq
        ((mesh.get_tetrahedron u).face_tuple q u) = true →
      (Topological_Queries.batched_TT_pair (sort (batched_TT_collected mesh tt ts)) tt).get
        (t - 1) p = u := by
    intro t ht u hu p q hne h1 h2 he
    have := P2 ((mesh.get_tetrahedron t).face_tuple p t)
      ((mesh.get_tetrahedron u).face_tuple q u)
      ⟨(hmem _).mpr ⟨t, ht, p, h1, rfl⟩, (hmem _).mpr ⟨u, hu, q, h2, rfl⟩, he,
        fun e => hne (congrArg triangle_tetrahedron_tuple.t e).symm⟩
    simpa [face_tuple_t, face_tuple_f_pos] using this
  refine ⟨_, rfl, ⟨sh, fun t h1 h2 p => ?_⟩, fun t h1 _ p hne => hkeep t h1 p hne,
    fun t ht u hu p q hne he => ?_⟩
  · by_cases hc : tt.get (t - 1) p = -1
    · by_cases hpart : ∃ y, FacePartner (sort (batched_TT_collected mesh tt ts))
          ((mesh.get_tetrahedron t).face_tuple p t) y
      · obtain ⟨y, hy⟩ := hpart
        obtain ⟨u, hu, q, hcu, rfl⟩ := (hmem y).mp hy.2.1
        obtain ⟨t', ht', p', _, hx⟩ := (hmem _).mp hy.1
        have e1 : t = t' := congrArg triangle_tetrahedron_tuple.t hx
        subst e1
        have hut : u ≠ t := by
          intro e
          subst e
          have := face_tuple_inj _ (hdist _ (get_tetrahedron_mem mesh u h1 h2)) p q u u
            hy.2.2.1
          subst this
          exact hy.2.2.2 rfl
        right
        refine ⟨u, q, (hr u hu).1, (hr u hu).2, hut, hy.2.2.1,
          hpair t ht' u hu p q hut hc hcu hy.2.2.1,
          hpair u hu t ht' q p (fun e => hut e.symm) hcu hc (tuple_eq_symm _ _ hy.2.2.1)⟩
      · left
        rw [← hc]
        refine P3 _ _ (fun x y hxy hid => hpart ?_)
        obtain ⟨t', ht', p', _, rfl⟩ := (hmem x).mp hxy.1
        simp only [face_tuple_t, face_tuple_f_pos] at hid
        have e1 : t' = t := by have := (hr t' ht').1; omega
        subst e1
        have e2 : p' = p := Fin.ext hid.2
        subst e2
        exact ⟨y, hxy⟩
    · rw [hkeep t h1 p hc]
      rcases hI.2 t h1 h2 p with h0 | ⟨u, q, hu1, hu2, hut, he, e1, e2⟩
      · exact absurd h0 hc
      · right
        refine ⟨u, q, hu1, hu2, hut, he, e1, ?_⟩
        rw [hkeep u hu1 q (by rw [e2]; omega), e2]
  · by_cases hc : tt.get (t - 1) p = -1
    · have hcu : tt.get (u - 1) q = -1 := by
        rcases hI.2 u (hr u hu).1 (hr u hu).2 q with h0 | ⟨w, r, hw1, hw2, hwu, hew, e1, e2⟩
        · exact h0
        · exfalso
          rcases face_tuple_twice mesh hdist hman u t w q p r (hr u hu) (hr t ht) ⟨hw1, hw2⟩
            (tuple_eq_symm _ _ he) hew with ⟨e, _⟩ | ⟨e, _⟩ | ⟨e, e'⟩
          · exact hne e
          · exact hwu e.symm
          · subst e; subst e'
            rw [hc] at e2
            omega
      exact hpair t ht u hu p q hne hc hcu he
    · rw [hkeep t (hr t ht).1 p hc]
      rcases hI.2 t (hr t ht).1 (hr t ht).2 p with h0 | ⟨w, r, hw1, hw2, hwt, hew, e1, _⟩
      · exact absurd h0 hc
      · rcases face_tuple_twice mesh hdist hman t u w p q r (hr t ht) (hr u hu) ⟨hw1, hw2⟩
          he hew with ⟨e, _⟩ | ⟨e, _⟩ | ⟨e, _⟩
        · exact absurd e.symm hne
        · exact absurd e.symm hwt
        · rw [e1, e]

theorem ttInv_init (mesh : Mesh) : TTInv mesh (TTTable.init mesh.get_num_tetrahedra) :=
  ⟨ttTable_init_shape _, fun t h1 h2 p =>
    Or.inl (ttTable_init_get _ _ _ (by omega) p.isLt)⟩

/-- The sort by insertion meets what `std::sort` guarantees. -/
theorem insertion_sort_faces_stdSort : StdSort insertion_sort_faces := by
  intro l
  haveI : IsTotal triangle_tetrahedron_tuple (fun a b => b.lt a = false) := ⟨fun a b => by
    have h1 := tuple_lt_iff a b
    have h2 := tuple_lt_iff b a
    cases ha : a.lt b <;> cases hb : b.lt a <;> simp_all
    omega⟩
  haveI : IsTrans triangle_tetrahedron_tuple (fun a b => b.lt a = false) :=
    ⟨fun a b c hab hbc => by
      rw [← Bool.not_eq_true, tuple_lt_iff] at hab hbc ⊢
      omega⟩
  exact ⟨List.perm_insertionSort _ l, List.sorted_insertionSort _ l⟩

/-- C18: for every mesh (vertex indices in range, vertices inside the domain)
whose tetrahedra have four distinct vertex ids and in which each triangular
face belongs to at most two tetrahedra, every tree built on it by one of the
four classes and every sort `std::sort` may be, the batched TT visit started
on the table of `-1` returns, and then for every tetrahedron `t` and position
`p`: `tt[t][p] = u` iff `u` is a tetrahedron other than `t` that has the three
vertices of face `p` of `t`; `tt[t][p] = -1` iff no other tetrahedron has that
face; and `tt[t][p] = u` gives a position `q` with `tt[u][q] = t`. -/
theorem C18_batched_TT_adjacency (d : Subdivision) (mesh : Mesh) (tree : Node)
    (sort : List triangle_tetrahedron_tuple → List triangle_tetrahedron_tuple) (fuel : Nat)
    (hwf : mesh.wellFormed) (hdist : mesh.distinctVertices) (hman : mesh.twoPerFace)
    (hsort : StdSort sort) (hb : BuiltTree d mesh tree)
    (hfuel : mesh.get_num_tetrahedra < fuel) :
    ∃ tt, Topological_Queries.batched_TT_visit d mesh sort fuel tree.toRaw mesh.domain 0
        (TTTable.init mesh.get_num_tetrahedra) = some tt ∧
      ∀ t, 1 ≤ t → t ≤ mesh.get_num_tetrahedra → ∀ p : Fin 4,
        (∀ u : Nat, tt.get (t - 1) p = (u : Int) ↔ mesh.shares_face u t p) ∧
        (tt.get (t - 1) p = -1 ↔ ¬ ∃ u, mesh.shares_face u t p) ∧
        (∀ u : Nat, tt.get (t - 1) p = (u : Int) → ∃ q : Fin 4, tt.get (u - 1) q = (t : Int)) := by
  have hQ := builtTree_leafOK d mesh tree hb
  have hstep : ∀ (y : Box × List Nat × List Nat) (s : TTTable), mesh.LeafOK y → TTInv mesh s →
      ∃ s', Topological_Queries.batched_TT_leaf mesh sort fuel (y.2.2.map Int.ofNat) s
          = some s' ∧ TTInv mesh s' ∧
        (∀ t, 1 ≤ t → t ≤ mesh.get_num_tetrahedra → ∀ p : Fin 4,
          s.get (t - 1) p ≠ -1 → s'.get (t - 1) p = s.get (t - 1) p) ∧
        (∀ t ∈ y.2.2, ∀ u ∈ y.2.2, ∀ p q : Fin 4, u ≠ t →
          ((mesh.get_tetrahedron t).face_tuple p t).eq
            ((mesh.get_tetrahedron u).face_tuple q u) = true →
          s'.get (t - 1) p = u) := fun y s hy hs =>
    batched_TT_leaf_spec mesh hdist hman sort hsort fuel y.2.2 hy.1 hy.2.1
      (lt_of_le_of_lt (sorted_length_le _ _ hy.1 hy.2.1) hfuel) s hs
  obtain ⟨tt, htt⟩ := visit_leaves_returns d id (fun _ => false)
    (fun _ ts _ tt => Topological_Queries.batched_TT_leaf mesh sort fuel ts tt)
    mesh.LeafOK
    (fun y s hy => by
      show ∃ s', Topological_Queries.batched_TT_leaf mesh sort fuel (y.2.2.map Int.ofNat) s
        = some s'
      unfold Topological_Queries.batched_TT_leaf
      rw [collect_plain y.2.2 (fun x hx => (hy.2.1 x hx).1) fuel
        (lt_of_le_of_lt (sorted_length_le _ _ hy.1 hy.2.1) hfuel)]
      exact ⟨_, rfl⟩)
    tree mesh.domain 0 (TTTable.init mesh.get_num_tetrahedra) hQ
  have hleafI : ∀ (y : Box × List Nat × List Nat) (s s' : TTTable), mesh.LeafOK y →
      Topological_Queries.batched_TT_leaf mesh sort fuel (y.2.2.map Int.ofNat) s = some s' →
      TTInv mesh s → TTInv mesh s' ∧
        (∀ t, 1 ≤ t → t ≤ mesh.get_num_tetrahedra → ∀ p : Fin 4,
          s.get (t - 1) p ≠ -1 → s'.get (t - 1) p = s.get (t - 1) p) ∧
        (∀ t ∈ y.2.2, ∀ u ∈ y.2.2, ∀ p q : Fin 4, u ≠ t →
          ((mesh.get_tetrahedron t).face_tuple p t).eq
            ((mesh.get_tetrahedron u).face_tuple q u) = true →
          s'.get (t - 1) p = u) := by
    intro y s s' hy h hs
    obtain ⟨s'', hs'', r⟩ := hstep y s hy hs
    have e : s'' = s' := Option.some.inj (hs''.symm.trans h)
    subst e
    exact r
  have hInv : TTInv mesh tt :=
    visit_leaves_invariant d id (fun _ => false)
      (fun _ ts _ tt => Topological_Queries.batched_TT_leaf mesh sort fuel ts tt)
      (TTInv mesh) mesh.LeafOK (fun s hs => hs)
      (fun y s s' hy h hs => (hleafI y s s' hy h hs).1)
      tree mesh.domain 0 _ tt hQ htt (ttInv_init mesh)
  have hreach : ∀ t, 1 ≤ t → t ≤ mesh.get_num_tetrahedra → ∀ (p : Fin 4) (u : Nat),
      mesh.shares_face u t p → tt.get (t - 1) p = (u : Int) := by
    intro t h1 h2 p u ⟨hu1, hu2, hut, hface⟩
    have iT := hdist _ (get_tetrahedron_mem mesh t h1 h2)
    have iU := hdist _ (get_tetrahedron_mem mesh u hu1 hu2)
    obtain ⟨q, hq⟩ := (has_face_of_iff _ _ iT iU p t u).mp hface
    obtain ⟨_, _, _, hj⟩ := fin4_others p
    obtain ⟨k, hk⟩ := hface (Fin.ofNat (p.val + 1)) ((hj _).mpr (Or.inl rfl))
    obtain ⟨⟨x, hx, hxin⟩, hlist⟩ := builtTree_vertex_leaf d mesh tree hwf hb t h1 h2
      (Fin.ofNat (p.val + 1))
    have htx : t ∈ x.2.2 := hlist x hx hxin
    have hux : u ∈ x.2.2 := (hQ x hx).2.2 u k hu1 hu2 (by
      have : mesh.tetra_vertex u k = mesh.tetra_vertex t (Fin.ofNat (p.val + 1)) := by
        unfold Mesh.tetra_vertex; rw [hk]
      rw [this]; exact hxin)
    exact visit_leaves_reaches d id (fun _ => false)
      (fun _ ts _ tt => Topological_Queries.batched_TT_leaf mesh sort fuel ts tt)
      (TTInv mesh) (fun s : TTTable => s.get (t - 1) p = (u : Int)) mesh.LeafOK
      (mesh.tetra_vertex t (Fin.ofNat (p.val + 1))) mesh.domain.max x
      (fun s hs => ⟨hs, fun h => h⟩)
      (fun y s s' hy h hs => ⟨(hleafI y s s' hy h hs).1, fun hE => by
        have hE' : s.get (t - 1) p = (u : Int) := hE
        show s'.get (t - 1) p = (u : Int)
        rw [(hleafI y s s' hy h hs).2.1 t h1 h2 p (by rw [hE']; omega), hE']⟩)
      (fun _ _ => rfl) hxin
      (fun s s' hs h => (hleafI x s s' (hQ x hx) h hs).2.2 t htx u hux p q hut hq)
      tree mesh.domain 0 _ tt hQ hx htt (ttInv_init mesh)
  have hconv : ∀ t, 1 ≤ t → t ≤ mesh.get_num_tetrahedra → ∀ (p : Fin 4) (u : Nat),
      tt.get (t - 1) p = (u : Int) →
      mesh.shares_face u t p ∧ ∃ q : Fin 4, tt.get (u - 1) q = (t : Int) := by
    intro t h1 h2 p u hu
    rcases hInv.2 t h1 h2 p with h0 | ⟨u', q, hu1, hu2, hut, he, e1, e2⟩
    · rw [h0] at hu; omega
    · have e : u' = u := by rw [e1] at hu; omega
      subst e
      exact ⟨⟨hu1, hu2, hut, (has_face_of_iff _ _ (hdist _ (get_tetrahedron_mem mesh t h1 h2))
        (hdist _ (get_tetrahedron_mem mesh u' hu1 hu2)) p t u').mpr ⟨q, he⟩⟩, q, e2⟩
  refine ⟨tt, htt, fun t h1 h2 p => ⟨fun u => ⟨fun h => (hconv t h1 h2 p u h).1,
    hreach t h1 h2 p u⟩, ⟨fun h0 ⟨u, hu⟩ => ?_, fun hno => ?_⟩,
    fun u h => (hconv t h1 h2 p u h).2⟩⟩
  · have := hreach t h1 h2 p u hu
    rw [h0] at this
    omega
  · rcases hInv.2 t h1 h2 p with h0 | ⟨u', q, hu1, hu2, hut, he, e1, e2⟩
    · exact h0
    · exact absurd ⟨u', (hconv t h1 h2 p u' e1).1⟩ hno

theorem cubeMesh_twoPerFace : Examples.cubeMesh.twoPerFace := by
  unfold Mesh.twoPerFace Tetrahedron.has_face_of
  decide!

/-- C18 on S1 in the PR octree with `kv = 4`, the faces sorted by insertion:
the batched TT visit returns the table of the adjacencies of the 12
tetrahedra. -/
theorem C18_batched_TT_adjacency_witness :
    ∃ tree tt, P_Tree.build_tree Subdivision.OK Examples.cubeMesh 4 3 = some tree ∧
      Topological_Queries.batched_TT_visit Subdivision.OK Examples.cubeMesh
        insertion_sort_faces 13 tree.toRaw Examples.cubeMesh.domain 0 (TTTable.init 12)
        = some tt ∧
      ∀ t, 1 ≤ t → t ≤ 12 → ∀ p : Fin 4,
        (∀ u : Nat, tt.get (t - 1) p = (u : Int) ↔ Examples.cubeMesh.shares_face u t p) ∧
        (tt.get (t - 1) p = -1 ↔ ¬ ∃ u, Examples.cubeMesh.shares_face u t p) ∧
        (∀ u : Nat, tt.get (t - 1) p = (u : Int) →
          ∃ q : Fin 4, tt.get (u - 1) q = (t : Int)) := by
  obtain ⟨tree, htree⟩ :
      ∃ tree, P_Tree.build_tree Subdivision.OK Examples.cubeMesh 4 3 = some tree :=
    Option.isSome_iff_exists.mp (by decide!)
  obtain ⟨tt, htt, h⟩ := C18_batched_TT_adjacency Subdivision.OK Examples.cubeMesh tree
    insertion_sort_faces 13 cubeMesh_wellFormed cubeMesh_distinctVertices cubeMesh_twoPerFace
    insertion_sort_faces_stdSort ⟨4, 0, 3, Or.inl htree⟩ (by decide)
  exact ⟨tree, tt, htree, htt, h⟩

/-! ## Border checker -/

theorem set_mesh_borders_loop_eq : ∀ (F : List triangle_tetrahedron_tuple) (m : Mesh),
    Border_Checker.set_mesh_borders_loop F m = (scan_faces F).foldl border_step m
  | [], _ => rfl
  | [a], _ => rfl
  | a :: b :: rest, m => by
    unfold Border_Checker.set_mesh_borders_loop scan_faces
    by_cases h : a.eq b = true
    · simp only [h, Bool.true_eq_false, if_false, if_true, List.foldl_cons]
      rw [set_mesh_borders_loop_eq rest]; rfl
    · have h' : a.eq b = false := by simpa using h
      simp only [h', if_true, Bool.false_eq_true, if_false, List.foldl_cons]
      rw [set_mesh_borders_loop_eq (b :: rest)]; rfl

theorem find_fin4 : ∀ p : Fin 4,
    (List.finRange 4).find? (fun v => decide (v = p)) = some p := by
  decide

/-- The vertex of a tetrahedron with four distinct vertices that is not of a
face is the vertex opposite to the face. -/
theorem has_not_iff (T : Tetrahedron) (hT : Function.Injective T.TV)
    (a : triangle_tetrahedron_tuple) (p : Fin 4) (t : Nat)
    (ha : a.eq (T.face_tuple p t) = true) (v : Fin 4) :
    a.has_not (T.TV v) = true ↔ v = p := by
  obtain ⟨a1, a2, a3, hj⟩ := fin4_others p
  obtain ⟨_, _, h3⟩ := sort_and_set_spec (T.TV (Fin.ofNat (p.val + 1)))
    (T.TV (Fin.ofNat (p.val + 2))) (T.TV (Fin.ofNat (p.val + 3))) t p.val
    (fun e => a1 (hT e)) (fun e => a2 (hT e)) (fun e => a3 (hT e))
  rw [tuple_eq_iff] at ha
  unfold Tetrahedron.face_tuple at ha
  have h3' := h3 (T.TV v)
  rw [← ha.1, ← ha.2.1, ← ha.2.2, ← on_face_iff] at h3'
  simp only [triangle_tetrahedron_tuple.has_not, decide_eq_true_eq]
  constructor
  · intro h
    by_contra hne
    have := h3'.mpr ⟨v, hne, rfl⟩
    omega
  · intro e
    subst e
    by_contra hc
    have : T.TV v = a.v1 ∨ T.TV v = a.v2 ∨ T.TV v = a.v3 := by omega
    obtain ⟨j, hjne, hje⟩ := h3'.mp this
    exact hjne (hT hje)

theorem get_tetrahedron_set (m : Mesh) (i : Nat) (T : Tetrahedron) (hi : i < m.tetrahedra.length)
    (t : Nat) :
    Mesh.get_tetrahedron { m with tetrahedra := m.tetrahedra.set i T } t =
      if t - 1 = i then T else m.get_tetrahedron t := by
  simp only [Mesh.get_tetrahedron, List.getD_eq_getElem?_getD]
  by_cases e : t - 1 = i
  · subst e
    simp [List.getElem?_set_self hi]
  · rw [List.getElem?_set_ne (fun e' => e e'.symm)]
    simp [e]

/-- A tuple of a face of its tetrahedron, taken alone, flags the position
opposite to the face: the index there becomes negative, the unsigned indices
and the other signs stay. -/
theorem flag_border_spec (mesh m : Mesh) (hwf : mesh.wellFormed)
    (hdist : mesh.distinctVertices) (hm : m.SameTV mesh) (a : triangle_tetrahedron_tuple)
    (p : Fin 4) (h1 : 1 ≤ a.t) (h2 : a.t ≤ mesh.get_num_tetrahedra)
    (ha : a.eq ((mesh.get_tetrahedron a.t).face_tuple p a.t) = true) :
    (Border_Checker.flag_border m a).SameTV mesh ∧
      ∀ t, 1 ≤ t → ∀ q : Fin 4,
        (((Border_Checker.flag_border m a).get_tetrahedron t).vertices q < 0 ↔
          ((m.get_tetrahedron t).vertices q < 0 ∨ (t = a.t ∧ q = p))) := by
  obtain ⟨hd, hv, hl, htv⟩ := hm
  have iT : Function.Injective (m.get_tetrahedron a.t).TV := by
    have := hdist _ (get_tetrahedron_mem mesh a.t h1 h2)
    intro i j hij
    rw [htv, htv] at hij
    exact this hij
  have ha' : a.eq ((m.get_tetrahedron a.t).face_tuple p a.t) = true := by
    unfold Tetrahedron.face_tuple at ha ⊢
    rw [htv, htv, htv]
    exact ha
  have hfind : (List.finRange 4).find? (fun v => a.has_not ((m.get_tetrahedron a.t).TV v))
      = some p := by
    rw [← find_fin4 p]
    congr 1
    funext v
    rw [Bool.eq_iff_iff, has_not_iff _ iT a p a.t ha' v]
    simp
  have hi : a.t - 1 < m.tetrahedra.length := by
    rw [hl]; unfold Mesh.get_num_tetrahedra at h2; omega
  have hpos : 1 ≤ (m.get_tetrahedron a.t).TV p := by
    rw [htv]
    exact (hwf.1 _ (get_tetrahedron_mem mesh a.t h1 h2) p).1
  unfold Border_Checker.flag_border
  simp only [hfind]
  refine ⟨⟨hd, hv, by simp [hl], fun t j => ?_⟩, fun t ht q => ?_⟩
  · rw [get_tetrahedron_set m _ _ hi]
    by_cases e : t - 1 = a.t - 1
    · simp only [e, if_true]
      have hh := htv a.t j
      have e' : mesh.get_tetrahedron t = mesh.get_tetrahedron a.t := by
        unfold Mesh.get_tetrahedron; rw [e]
      rw [e', ← hh]
      unfold Tetrahedron.TV Tetrahedron.setTV
      by_cases ej : j = p
      · subst ej
        simp only [Function.update_same, Int.natAbs_neg, Int.natAbs_ofNat]
      · simp [Function.update_noteq ej]
    · simp only [e, if_false]
      exact htv t j
  · rw [get_tetrahedron_set m _ _ hi]
    by_cases e : t - 1 = a.t - 1
    · have e' : t = a.t := by omega
      subst e'
      simp only [if_true, true_and]
      unfold Tetrahedron.setTV
      by_cases eq : q = p
      · subst eq
        simp only [Function.update_same, or_true, iff_true]
        omega
      · simp [Function.update_noteq eq, eq]
    · have e' : t ≠ a.t := fun h => e (by rw [h])
      simp [e, e']

/-- The mesh after the steps of the loop of `set_mesh_borders`, the tuples
taken alone being faces of their tetrahedra: the unsigned indices are those of
the mesh, and an index is negative when it was, or when the face opposite to
it has a tuple taken alone. -/
theorem border_fold (mesh : Mesh) (hwf : mesh.wellFormed) (hdist : mesh.distinctVertices) :
    ∀ (L : List (triangle_tetrahedron_tuple × Option triangle_tetrahedron_tuple)) (m : Mesh),
      m.SameTV mesh →
      (∀ e ∈ L, e.2 = none → 1 ≤ e.1.t ∧ e.1.t ≤ mesh.get_num_tetrahedra ∧
        ∃ p : Fin 4, e.1.eq ((mesh.get_tetrahedron e.1.t).face_tuple p e.1.t) = true) →
      (L.foldl border_step m).SameTV mesh ∧
      ∀ t, 1 ≤ t → ∀ q : Fin 4,
        (((L.foldl border_step m).get_tetrahedron t).vertices q < 0 ↔
          ((m.get_tetrahedron t).vertices q < 0 ∨
            ∃ e ∈ L, e.2 = none ∧ e.1.t = t ∧
              e.1.eq ((mesh.get_tetrahedron t).face_tuple q t) = true))
  | [], m, hm, _ => ⟨hm, fun t _ q => by simp⟩
  | e :: L, m, hm, hL => by
    obtain ⟨a, o⟩ := e
    have hL' : ∀ e ∈ L, e.2 = none → 1 ≤ e.1.t ∧ e.1.t ≤ mesh.get_num_tetrahedra ∧
        ∃ p : Fin 4, e.1.eq ((mesh.get_tetrahedron e.1.t).face_tuple p e.1.t) = true :=
      fun e he => hL e (List.mem_cons_of_mem _ he)
    cases o with
    | some b =>
      obtain ⟨i1, i2⟩ := border_fold mesh hwf hdist L m hm hL'
      refine ⟨i1, fun t ht q => ?_⟩
      rw [List.foldl_cons]
      show ((L.foldl border_step m).get_tetrahedron t).vertices q < 0 ↔ _
      rw [i2 t ht q]
      simp
    | none =>
      obtain ⟨h1, h2, p, hp⟩ := hL (a, none) (by simp) rfl
      simp only at h1 h2 hp
      obtain ⟨f1, f2⟩ := flag_border_spec mesh m hwf hdist hm a p h1 h2 hp
      obtain ⟨i1, i2⟩ := border_fold mesh hwf hdist L (Border_Checker.flag_border m a) f1 hL'
      refine ⟨i1, fun t ht q => ?_⟩
      rw [List.foldl_cons]
      show ((L.foldl border_step (Border_Checker.flag_border m a)).get_tetrahedron t).vertices q
        < 0 ↔ _
      rw [i2 t ht q, f2 t ht q]
      have key : (t = a.t ∧ q = p) ↔
          (a.t = t ∧ a.eq ((mesh.get_tetrahedron t).face_tuple q t) = true) := by
        constructor
        · rintro ⟨e1, e2⟩
          subst e1; subst e2
          exact ⟨rfl, hp⟩
        · rintro ⟨e1, e2⟩
          subst e1
          exact ⟨rfl, face_tuple_inj _ (hdist _ (get_tetrahedron_mem mesh a.t h1 h2)) q p a.t a.t
            (tuple_eq_trans _ _ _ (tuple_eq_symm _ _ e2) hp)⟩
      simp only [List.mem_cons, exists_eq_or_imp, true_and, key]
      tauto

/-- A tuple set from the vertices at three positions of a tetrahedron with
four distinct vertices is the tuple of the face opposite to the fourth
position. -/
theorem sort_and_set_face (T : Tetrahedron) (hT : Function.Injective T.TV)
    (i1 i2 i3 p : Fin 4) (h12 : i1 ≠ i2) (h13 : i1 ≠ i3) (h23 : i2 ≠ i3)
    (hp : ∀ k, k ≠ p ↔ (k = i1 ∨ k = i2 ∨ k = i3)) (t f t' : Nat) :
    (triangle_tetrahedron_tuple.sort_and_set (T.TV i1) (T.TV i2) (T.TV i3) t f).eq
      (T.face_tuple p t') = true := by
  obtain ⟨a1, a2, a3, _⟩ := fin4_others p
  unfold Tetrahedron.face_tuple
  rw [sort_and_set_eq_iff _ _ _ _ _ _ _ _ _ _ (fun e => h12 (hT e)) (fun e => h13 (hT e))
    (fun e => h23 (hT e)) (fun e => a1 (hT e)) (fun e => a2 (hT e)) (fun e => a3 (hT e))]
  intro x
  rw [← on_face_iff]
  constructor
  · rintro (e | e | e)
    · exact ⟨i1, (hp _).mpr (Or.inl rfl), e.symm⟩
    · exact ⟨i2, (hp _).mpr (Or.inr (Or.inl rfl)), e.symm⟩
    · exact ⟨i3, (hp _).mpr (Or.inr (Or.inr rfl)), e.symm⟩
  · rintro ⟨k, hk, rfl⟩
    rcases (hp k).mp hk with e | e | e
    · exact Or.inl (by rw [e])
    · exact Or.inr (Or.inl (by rw [e]))
    · exact Or.inr (Or.inr (by rw [e]))

theorem fin4_incident (v : Fin 4) :
    (Fin.ofNat v.val : Fin 4) = v ∧
      (Fin.ofNat (v.val + 1) : Fin 4) ≠ v ∧ (Fin.ofNat (v.val + 2) : Fin 4) ≠ v ∧
      (Fin.ofNat (v.val + 3) : Fin 4) ≠ v ∧
      (∀ k : Fin 4, k ≠ Fin.ofNat (v.val + 3) ↔
        (k = v ∨ k = Fin.ofNat (v.val + 1) ∨ k = Fin.ofNat (v.val + 2))) ∧
      (∀ k : Fin 4, k ≠ Fin.ofNat (v.val + 2) ↔
        (k = v ∨ k = Fin.ofNat (v.val + 1) ∨ k = Fin.ofNat (v.val + 3))) ∧
      (∀ k : Fin 4, k ≠ Fin.ofNat (v.val + 1) ↔
        (k = v ∨ k = Fin.ofNat (v.val + 2) ∨ k = Fin.ofNat (v.val + 3))) ∧
      (∀ p : Fin 4, p ≠ v →
        (p = Fin.ofNat (v.val + 3) ∨ p = Fin.ofNat (v.val + 2) ∨ p = Fin.ofNat (v.val + 1))) := by
  revert v
  decide

/-- The three tuples `get_incident_triangles` pushes for a position of a
tetrahedron with four distinct vertices: the tuples, all different, of the
three faces not opposite to the position. -/
theorem get_incident_triangles_spec (T : Tetrahedron) (hT : Function.Injective T.TV)
    (t : Nat) (v : Fin 4) :
    (∀ a ∈ Border_Checker.get_incident_triangles T t v.val [],
      a.t = t ∧ ∃ p : Fin 4, p ≠ v ∧ a.eq (T.face_tuple p t) = true) ∧
    (∀ p : Fin 4, p ≠ v → ∃ a ∈ Border_Checker.get_incident_triangles T t v.val [],
      a.eq (T.face_tuple p t) = true) ∧
    (Border_Checker.get_incident_triangles T t v.val []).Nodup ∧
    (∀ a ∈ Border_Checker.get_incident_triangles T t v.val [],
      ∀ b ∈ Border_Checker.get_incident_triangles T t v.val [], a.eq b = true → a = b) := by
  obtain ⟨e0, n1, n2, n3, f3, f2, f1, hall⟩ := fin4_incident v
  obtain ⟨d12, d13, d23, _⟩ := fin4_others v
  have hL : Border_Checker.get_incident_triangles T t v.val [] =
      [triangle_tetrahedron_tuple.sort_and_set (T.TV v) (T.TV (Fin.ofNat (v.val + 1)))
          (T.TV (Fin.ofNat (v.val + 2))) t 0,
        triangle_tetrahedron_tuple.sort_and_set (T.TV v) (T.TV (Fin.ofNat (v.val + 1)))
          (T.TV (Fin.ofNat (v.val + 3))) t 0,
        triangle_tetrahedron_tuple.sort_and_set (T.TV v) (T.TV (Fin.ofNat (v.val + 2)))
          (T.TV (Fin.ofNat (v.val + 3))) t 0] := by
    simp [Border_Checker.get_incident_triangles, e0]
  have k3 := sort_and_set_face T hT v (Fin.ofNat (v.val + 1)) (Fin.ofNat (v.val + 2))
    (Fin.ofNat (v.val + 3)) (Ne.symm n1) (Ne.symm n2) d12 f3 t 0 t
  have k2 := sort_and_set_face T hT v (Fin.ofNat (v.val + 1)) (Fin.ofNat (v.val + 3))
    (Fin.ofNat (v.val + 2)) (Ne.symm n1) (Ne.symm n3) d13 f2 t 0 t
  have k1 := sort_and_set_face T hT v (Fin.ofNat (v.val + 2)) (Fin.ofNat (v.val + 3))
    (Fin.ofNat (v.val + 1)) (Ne.symm n2) (Ne.symm n3) d23 f1 t 0 t
  have hne : ∀ (a b : triangle_tetrahedron_tuple) (p q : Fin 4), p ≠ q →
      a.eq (T.face_tuple p t) = true → b.eq (T.face_tuple q t) = true → a.eq b = false := by
    intro a b p q hpq ha hb
    by_contra hc
    have hc' : a.eq b = true := by simpa using hc
    exact hpq (face_tuple_inj T hT p q t t
      (tuple_eq_trans _ _ _ (tuple_eq_symm _ _ ha) (tuple_eq_trans _ _ _ hc' hb)))
  have x32 := hne _ _ _ _ (Ne.symm d23) k3 k2
  have x31 := hne _ _ _ _ (Ne.symm d13) k3 k1
  have x21 := hne _ _ _ _ (Ne.symm d12) k2 k1
  have x23 := hne _ _ _ _ d23 k2 k3
  have x13 := hne _ _ _ _ d13 k1 k3
  have x12 := hne _ _ _ _ d12 k1 k2
  have refl : ∀ a : triangle_tetrahedron_tuple, a.eq a = true := fun a => by
    rw [tuple_eq_iff]; exact ⟨rfl, rfl, rfl⟩
  rw [hL]
  refine ⟨?_, ?_, ?_, ?_⟩
  · intro a ha
    simp only [List.mem_cons, List.mem_singleton, List.not_mem_nil, or_false] at ha
    rcases ha with rfl | rfl | rfl
    · exact ⟨rfl, _, n3, k3⟩
    · exact ⟨rfl, _, n2, k2⟩
    · exact ⟨rfl, _, n1, k1⟩
  · intro p hp
    rcases hall p hp with rfl | rfl | rfl
    · exact ⟨_, by simp, k3⟩
    · exact ⟨_, by simp, k2⟩
    · exact ⟨_, by simp, k1⟩
  · simp only [List.nodup_cons, List.mem_cons, List.mem_singleton, List.not_mem_nil,
      List.nodup_nil, not_or, not_false_eq_true, and_true]
    refine ⟨⟨fun e => ?_, fun e => ?_⟩, fun e => ?_⟩
    · rw [← e, refl] at x32; exact Bool.noConfusion x32
    · rw [← e, refl] at x31; exact Bool.noConfusion x31
    · rw [← e, refl] at x21; exact Bool.noConfusion x21
  · intro a ha b hb hab
    simp only [List.mem_cons, List.mem_singleton, List.not_mem_nil, or_false] at ha hb
    rcases ha with rfl | rfl | rfl <;> rcases hb with rfl | rfl | rfl <;>
      first
        | rfl
        | (rw [x32] at hab; exact Bool.noConfusion hab)
        | (rw [x31] at hab; exact Bool.noConfusion hab)
        | (rw [x21] at hab; exact Bool.noConfusion hab)
        | (rw [x23] at hab; exact Bool.noConfusion hab)
        | (rw [x13] at hab; exact Bool.noConfusion hab)
        | (rw [x12] at hab; exact Bool.noConfusion hab)

/-! ## Maps of lists -/

theorem mem_place {V : Type} (k : Nat) (v : V) (m : StdMap V) (e : Nat × V) :
    e ∈ StdMap.place k v m ↔ e = (k, v) ∨ e ∈ m := by
  induction m with
  | nil => simp [StdMap.place]
  | cons x rest ih =>
    simp only [StdMap.place]
    split_ifs with h
    · simp
    · simp only [List.mem_cons, ih]
      tauto

theorem find_none_iff {V : Type} (m : StdMap V) (k : Nat) :
    StdMap.find m k = none ↔ ∀ e ∈ m, e.1 ≠ k := by
  induction m with
  | nil => simp [StdMap.find]
  | cons x rest ih =>
    simp only [StdMap.find]
    by_cases h : x.1 = k
    · simp [h]
    · simp [h, ih]

/-- The entries of a map have different keys. -/
theorem keys_nodup_place {V : Type} (k : Nat) (v : V) (m : StdMap V)
    (hm : (m.map Prod.fst).Nodup) (hk : StdMap.find m k = none) :
    ((StdMap.place k v m).map Prod.fst).Nodup := by
  induction m with
  | nil => simp [StdMap.place]
  | cons x rest ih =>
    simp only [StdMap.find] at hk
    by_cases hx : x.1 = k
    · simp [hx] at hk
    · simp only [hx, if_false] at hk
      simp only [List.map_cons, List.nodup_cons] at hm
      simp only [StdMap.place]
      split_ifs with h
      · simp only [List.map_cons, List.nodup_cons, List.mem_cons, not_or]
        refine ⟨⟨fun e => hx e.symm, fun hmem => ?_⟩, hm.1, hm.2⟩
        obtain ⟨e, he, hek⟩ := List.mem_map.mp hmem
        exact (find_none_iff rest k).mp hk e he hek
      · simp only [List.map_cons, List.nodup_cons, List.mem_map]
        refine ⟨?_, ih hm.2 hk⟩
        rintro ⟨e, he, hek⟩
        rcases (mem_place k v rest e).mp he with h0 | h0
        · rw [h0] at hek; exact hx hek.symm
        · exact hm.1 (List.mem_map.mpr ⟨e, h0, hek⟩)

theorem keys_assign {V : Type} (m : StdMap V) (k : Nat) (v : V) :
    (StdMap.assign m k v).map Prod.fst = m.map Prod.fst := by
  induction m with
  | nil => rfl
  | cons x rest ih =>
    simp only [StdMap.assign, List.map_cons] at ih ⊢
    rw [ih]
    by_cases h : x.1 = k <;> simp [h]

theorem keys_nodup_push {α : Type} (m : StdMap (List α)) (k : Nat) (vs : List α)
    (hm : (m.map Prod.fst).Nodup) : ((StdMap.push m k vs).map Prod.fst).Nodup := by
  unfold StdMap.push
  cases h : StdMap.find m k with
  | none =>
    simp only [StdMap.insert, h]
    exact keys_nodup_place k vs m hm h
  | some old =>
    simp only [keys_assign]
    exact hm

theorem mem_iff_find {V : Type} (m : StdMap V) (hm : (m.map Prod.fst).Nodup) (k : Nat)
    (v : V) : (k, v) ∈ m ↔ StdMap.find m k = some v := by
  induction m with
  | nil => simp [StdMap.find]
  | cons x rest ih =>
    simp only [List.map_cons, List.nodup_cons] at hm
    simp only [StdMap.find, List.mem_cons]
    by_cases h : x.1 = k
    · simp only [h, if_true, Option.some.injEq]
      constructor
      · rintro (e | e)
        · rw [← e]
        · exact absurd (List.mem_map.mpr ⟨(k, v), e, rfl⟩) (h ▸ hm.1)
      · intro e
        left
        rw [← e, ← h]
    · simp only [h, if_false, ← ih hm.2]
      constructor
      · rintro (e | e)
        · exact absurd (by rw [← e]) h
        · exact e
      · exact Or.inr

theorem find_push {α : Type} (m : StdMap (List α)) (k : Nat) (vs : List α) (x : Nat) :
    StdMap.find (StdMap.push m k vs) x =
      if x = k then some ((StdMap.find m k).getD [] ++ vs) else StdMap.find m x := by
  unfold StdMap.push
  cases h : StdMap.find m k with
  | none => simp only [find_insert, h, Option.getD_none, List.nil_append]
  | some l => simp only [find_assign, h, Option.map_some', Option.getD_some]

/-- The map after a sequence of pushes: at a key, the old list followed by
the lists pushed for that key, in order. -/
theorem find_pushes {α : Type} (kvs : List (Nat × List α)) (m0 : StdMap (List α))
    (x : Nat) :
    StdMap.find (kvs.foldl (fun m e => StdMap.push m e.1 e.2) m0) x
      = if (kvs.filter (fun e => e.1 = x)).length = 0 then StdMap.find m0 x
        else some ((StdMap.find m0 x).getD [] ++
          (kvs.filter (fun e => e.1 = x)).flatMap (fun e => e.2)) := by
  induction kvs generalizing m0 with
  | nil => simp
  | cons e rest ih =>
    rw [List.foldl_cons, ih, find_push]
    by_cases hx : x = e.1
    · subst hx
      simp only [if_true, List.filter_cons, decide_True, List.length_cons,
        Nat.add_one_ne_zero, if_false, Option.getD_some, List.flatMap_cons, List.append_assoc]
      by_cases h0 : (rest.filter (fun e_1 => decide (e_1.1 = e.1))).length = 0
      · have h1 : rest.filter (fun e_1 => decide (e_1.1 = e.1)) = [] :=
          List.length_eq_zero.mp h0
        simp [h1]
      · simp [h0]
    · have hx' : ¬ e.1 = x := fun h => hx h.symm
      have hf : (e :: rest).filter (fun e => decide (e.1 = x))
          = rest.filter (fun e => decide (e.1 = x)) := by
        rw [List.filter_cons]; simp [hx']
      simp only [hx, if_false, hf]

theorem keys_nodup_pushes {α : Type} (kvs : List (Nat × List α)) (m0 : StdMap (List α))
    (hm : (m0.map Prod.fst).Nodup) :
    ((kvs.foldl (fun m e => StdMap.push m e.1 e.2) m0).map Prod.fst).Nodup := by
  induction kvs generalizing m0 with
  | nil => exact hm
  | cons e rest ih =>
    rw [List.foldl_cons]
    exact ih _ (keys_nodup_push m0 e.1 e.2 hm)

theorem calc_mesh_borders_add_eq (mesh : Mesh) (dom : Box) (t : Nat)
    (m : StdMap (List triangle_tetrahedron_tuple)) (j : Fin 4) :
    Border_Checker.calc_mesh_borders_add mesh dom t m j =
      if dom.contains (mesh.get_vertex ((mesh.get_tetrahedron t).TV j)).toPoint mesh.domain.max
      then StdMap.push m ((mesh.get_tetrahedron t).TV j)
        (Border_Checker.get_incident_triangles (mesh.get_tetrahedron t) t j.val [])
      else m := by
  unfold Border_Checker.calc_mesh_borders_add StdMap.push
  cases h : StdMap.find m ((mesh.get_tetrahedron t).TV j) <;> simp [h]

/-- The map of the faces of a leaf, as the pushes build it. -/
theorem calc_mesh_borders_all_faces (mesh : Mesh) (dom : Box) (ts : List Nat)
    (m0 : StdMap (List triangle_tetrahedron_tuple)) :
    (ts.map Int.ofNat).foldl (fun m tet_id =>
        (List.finRange 4).foldl (Border_Checker.calc_mesh_borders_add mesh dom tet_id.toNat) m)
        m0
      = (border_pushes mesh dom ts).foldl (fun m e => StdMap.push m e.1 e.2) m0 := by
  have hn : ∀ t : Nat, (Int.ofNat t).toNat = t := fun _ => rfl
  simp only [List.foldl_map, hn]
  unfold border_pushes
  rw [← foldl_flatMap_eq]
  congr 1
  funext m t
  generalize List.finRange 4 = js
  induction js generalizing m with
  | nil => rfl
  | cons j js ih =>
    rw [List.foldl_cons, ih, calc_mesh_borders_add_eq, List.filterMap_cons]
    by_cases h : dom.contains (mesh.get_vertex ((mesh.get_tetrahedron t).TV j)).toPoint
        mesh.domain.max = true
    · simp [h]
    · simp [h]

theorem mem_border_pushes (mesh : Mesh) (dom : Box) (ts : List Nat)
    (e : Nat × List triangle_tetrahedron_tuple) :
    e ∈ border_pushes mesh dom ts ↔
      ∃ t ∈ ts, ∃ j : Fin 4,
        dom.contains (mesh.get_vertex ((mesh.get_tetrahedron t).TV j)).toPoint
          mesh.domain.max = true ∧
        e = ((mesh.get_tetrahedron t).TV j,
          Border_Checker.get_incident_triangles (mesh.get_tetrahedron t) t j.val []) := by
  simp only [border_pushes, List.mem_flatMap, List.mem_filterMap, List.mem_finRange, true_and]
  constructor
  · rintro ⟨t, ht, j, h⟩
    by_cases hc : dom.contains (mesh.get_vertex ((mesh.get_tetrahedron t).TV j)).toPoint
        mesh.domain.max = true
    · simp only [hc, if_true, Option.some.injEq] at h
      exact ⟨t, ht, j, hc, h.symm⟩
    · simp [hc] at h
  · rintro ⟨t, ht, j, hc, rfl⟩
    exact ⟨t, ht, j, by simp [hc]⟩

theorem filter_filterMap_flatMap {α β : Type} (f : α → Option (Nat × List β)) (x : Nat) :
    ∀ js : List α, ((js.filterMap f).filter (fun e => decide (e.1 = x))).flatMap (fun e => e.2)
      = js.flatMap (fun j =>
          match f j with
          | some e => if e.1 = x then e.2 else []
          | none => [])
  | [] => rfl
  | j :: js => by
    rw [List.filterMap_cons, List.flatMap_cons, ← filter_filterMap_flatMap f x js]
    cases h : f j with
    | none => simp
    | some e =>
      by_cases hx : e.1 = x
      · simp [List.filter_cons, hx]
      · simp [List.filter_cons, hx]

/-- The faces pushed for a vertex, tetrahedron by tetrahedron. -/
theorem border_pushes_at (mesh : Mesh) (dom : Box) (ts : List Nat) (x : Nat) :
    ((border_pushes mesh dom ts).filter (fun e => decide (e.1 = x))).flatMap (fun e => e.2)
      = ts.flatMap (fun t => (List.finRange 4).flatMap (fun j =>
          if dom.contains (mesh.get_vertex ((mesh.get_tetrahedron t).TV j)).toPoint
              mesh.domain.max = true ∧ (mesh.get_tetrahedron t).TV j = x
          then Border_Checker.get_incident_triangles (mesh.get_tetrahedron t) t j.val []
          else [])) := by
  unfold border_pushes
  induction ts with
  | nil => rfl
  | cons t ts ih =>
    rw [List.flatMap_cons, List.filter_append, List.flatMap_append, ih, List.flatMap_cons,
      filter_filterMap_flatMap]
    congr 1
    congr 1
    funext j
    by_cases hc : dom.contains (mesh.get_vertex ((mesh.get_tetrahedron t).TV j)).toPoint
        mesh.domain.max = true
    · simp [hc]
    · simp [hc]

theorem mem_border_at (mesh : Mesh) (dom : Box) (ts : List Nat) (x : Nat)
    (a : triangle_tetrahedron_tuple) :
    a ∈ ts.flatMap (fun t => (List.finRange 4).flatMap (fun j =>
          if dom.contains (mesh.get_vertex ((mesh.get_tetrahedron t).TV j)).toPoint
              mesh.domain.max = true ∧ (mesh.get_tetrahedron t).TV j = x
          then Border_Checker.get_incident_triangles (mesh.get_tetrahedron t) t j.val []
          else [])) ↔
      ∃ t ∈ ts, ∃ j : Fin 4,
        dom.contains (mesh.get_vertex x).toPoint mesh.domain.max = true ∧
        (mesh.get_tetrahedron t).TV j = x ∧
        a ∈ Border_Checker.get_incident_triangles (mesh.get_tetrahedron t) t j.val [] := by
  simp only [List.mem_flatMap, List.mem_finRange, true_and]
  constructor
  · rintro ⟨t, ht, j, h⟩
    split_ifs at h with hc
    · exact ⟨t, ht, j, by rw [← hc.2]; exact hc.1, hc.2, h⟩
    · simp at h
  · rintro ⟨t, ht, j, hc, hj, h⟩
    refine ⟨t, ht, j, ?_⟩
    rw [if_pos ⟨by rw [hj]; exact hc, hj⟩]
    exact h

/-- The faces pushed for a vertex contained by the box of the leaf are the
faces incident in the vertex of the tetrahedra of the leaf. -/
theorem border_vertexFaces (mesh : Mesh) (hdist : mesh.distinctVertices) (dom : Box)
    (ts : List Nat) (hts : ts.Nodup) (hr : ∀ t ∈ ts, 1 ≤ t ∧ t ≤ mesh.get_num_tetrahedra)
    (x : Nat) (hc : dom.contains (mesh.get_vertex x).toPoint mesh.domain.max = true) :
    VertexFaces mesh ts x
      (ts.flatMap (fun t => (List.finRange 4).flatMap (fun j =>
          if dom.contains (mesh.get_vertex ((mesh.get_tetrahedron t).TV j)).toPoint
              mesh.domain.max = true ∧ (mesh.get_tetrahedron t).TV j = x
          then Border_Checker.get_incident_triangles (mesh.get_tetrahedron t) t j.val []
          else []))) := by
  have inj : ∀ t ∈ ts, Function.Injective (mesh.get_tetrahedron t).TV := fun t ht =>
    hdist _ (get_tetrahedron_mem mesh t (hr t ht).1 (hr t ht).2)
  refine ⟨fun a ha => ?_, fun t ht j p hj hp => ?_, ?_, fun a ha b hb hab he => ?_⟩
  · obtain ⟨t, ht, j, _, hj, hin⟩ := (mem_border_at mesh dom ts x a).mp ha
    obtain ⟨s1, _, _, _⟩ := get_incident_triangles_spec _ (inj t ht) t j
    obtain ⟨e, p, hp, hpe⟩ := s1 a hin
    subst e
    exact ⟨ht, j, p, hj, hp, hpe⟩
  · obtain ⟨s1, s2, _, _⟩ := get_incident_triangles_spec _ (inj t ht) t j
    obtain ⟨a, ha, hae⟩ := s2 p hp
    exact ⟨a, (mem_border_at mesh dom ts x a).mpr ⟨t, ht, j, hc, hj, ha⟩, (s1 a ha).1, hae⟩
  · rw [List.nodup_flatMap]
    constructor
    · intro t ht
      rw [List.nodup_flatMap]
      constructor
      · intro j _
        split_ifs
        · exact (get_incident_triangles_spec _ (inj t ht) t j).2.2.1
        · exact List.nodup_nil
      · refine (List.nodup_finRange 4).imp ?_
        intro j j' hne
        simp only [Function.onFun]
        intro a ha ha'
        split_ifs at ha with h1
        · split_ifs at ha' with h2
          · exact hne (inj t ht (h1.2.trans h2.2.symm))
          · simp at ha'
        · simp at ha
    · refine hts.imp_of_mem ?_
      intro t t' ht ht' hne
      simp only [Function.onFun]
      intro a ha ha'
      simp only [List.mem_flatMap, List.mem_finRange, true_and] at ha ha'
      obtain ⟨j, hj⟩ := ha
      obtain ⟨j', hj'⟩ := ha'
      split_ifs at hj with h1
      · split_ifs at hj' with h2
        · have e1 := ((get_incident_triangles_spec _ (inj t ht) t j).1 a hj).1
          have e2 := ((get_incident_triangles_spec _ (inj t' ht') t' j').1 a hj').1
          exact hne (e1.symm.trans e2)
        · simp at hj'
      · simp at hj
  · obtain ⟨t, ht, j, _, hj, hin⟩ := (mem_border_at mesh dom ts x a).mp ha
    obtain ⟨u, hu, k, _, hk, hin'⟩ := (mem_border_at mesh dom ts x b).mp hb
    obtain ⟨s1, _, _, s4⟩ := get_incident_triangles_spec _ (inj t ht) t j
    obtain ⟨s1', _, _, _⟩ := get_incident_triangles_spec _ (inj u hu) u k
    have e1 : t = u := by rw [← (s1 a hin).1, ← (s1' b hin').1]; exact hab
    subst e1
    have e2 : j = k := inj t ht (hj.trans hk.symm)
    subst e2
    exact s4 a hin b hin' he

/-- `set_mesh_borders` on the faces incident in a vertex `x`, all the
tetrahedra incident in `x` being among those the faces are taken from: the
unsigned indices stay, and an index is negative afterwards when it was, or
when its position is opposite to a face incident in `x` that no other
tetrahedron has. -/
theorem set_mesh_borders_vertex (mesh : Mesh) (hwf : mesh.wellFormed)
    (hdist : mesh.distinctVertices) (hman : mesh.twoPerFace)
    (sort : List triangle_tetrahedron_tuple → List triangle_tetrahedron_tuple)
    (hsort : StdSort sort) (ts : List Nat)
    (hr : ∀ t ∈ ts, 1 ≤ t ∧ t ≤ mesh.get_num_tetrahedra) (x : Nat)
    (hcomplete : ∀ u, 1 ≤ u → u ≤ mesh.get_num_tetrahedra → ∀ k : Fin 4,
      (mesh.get_tetrahedron u).TV k = x → u ∈ ts)
    (L : List triangle_tetrahedron_tuple) (hL : VertexFaces mesh ts x L) (m : Mesh)
    (hm : m.SameTV mesh) :
    (Border_Checker.set_mesh_borders sort L m).SameTV mesh ∧
      ∀ t, 1 ≤ t → t ≤ mesh.get_num_tetrahedra → ∀ q : Fin 4,
        (((Border_Checker.set_mesh_borders sort L m).get_tetrahedron t).vertices q < 0 ↔
          ((m.get_tetrahedron t).vertices q < 0 ∨
            (t ∈ ts ∧ (∃ j : Fin 4, j ≠ q ∧ (mesh.get_tetrahedron t).TV j = x) ∧
              ¬ ∃ u, mesh.shares_face u t q))) := by
  obtain ⟨h1, h2, h3, h4⟩ := hL
  obtain ⟨hperm, hsorted⟩ := hsort L
  have inj : ∀ t, 1 ≤ t → t ≤ mesh.get_num_tetrahedra →
      Function.Injective (mesh.get_tetrahedron t).TV := fun t a b =>
    hdist _ (get_tetrahedron_mem mesh t a b)
  have htw : FacesTwice (sort L) := by
    refine ⟨hperm.nodup_iff.mpr h3, fun a ha b hb c hc hab hac => ?_⟩
    have ha' := hperm.mem_iff.mp ha
    have hb' := hperm.mem_iff.mp hb
    have hc' := hperm.mem_iff.mp hc
    obtain ⟨ta, _, p, _, _, ea⟩ := h1 a ha'
    obtain ⟨tb, _, q, _, _, eb⟩ := h1 b hb'
    obtain ⟨tc, _, r, _, _, ec⟩ := h1 c hc'
    rcases face_tuple_twice mesh hdist hman a.t b.t c.t p q r (hr _ ta) (hr _ tb) (hr _ tc)
      (tuple_eq_trans _ _ _ (tuple_eq_symm _ _ ea) (tuple_eq_trans _ _ _ hab eb))
      (tuple_eq_trans _ _ _ (tuple_eq_symm _ _ ea) (tuple_eq_trans _ _ _ hac ec))
      with ⟨e1, _⟩ | ⟨e1, _⟩ | ⟨e1, _⟩
    · exact Or.inl (h4 a ha' b hb' e1 hab)
    · exact Or.inr (Or.inl (h4 a ha' c hc' e1 hac))
    · exact Or.inr (Or.inr (h4 b hb' c hc' e1
        (tuple_eq_trans _ _ _ (tuple_eq_symm _ _ hab) hac)))
  unfold Border_Checker.set_mesh_borders
  rw [set_mesh_borders_loop_eq]
  obtain ⟨f1, f2⟩ := border_fold mesh hwf hdist (scan_faces (sort L)) m hm (fun e he hn => by
    have hmem := hperm.mem_iff.mp ((scan_faces_spec _ hsorted htw e he).2 hn).1
    obtain ⟨ta, _, p, _, _, ea⟩ := h1 e.1 hmem
    exact ⟨(hr _ ta).1, (hr _ ta).2, p, ea⟩)
  refine ⟨f1, fun t ht1 ht2 q => ?_⟩
  rw [f2 t ht1 q]
  refine or_congr Iff.rfl ⟨?_, ?_⟩
  · rintro ⟨e, he, hn, het, heq⟩
    obtain ⟨hmemF, hsingle⟩ := (scan_faces_spec _ hsorted htw e he).2 hn
    have hmem := hperm.mem_iff.mp hmemF
    obtain ⟨ta, j, p, hj, hpj, ea⟩ := h1 e.1 hmem
    rw [het] at ta hj ea
    have epq : p = q := face_tuple_inj _ (inj t ht1 ht2) p q t t
      (tuple_eq_trans _ _ _ (tuple_eq_symm _ _ ea) heq)
    subst epq
    refine ⟨ta, ⟨j, fun e0 => hpj e0.symm, hj⟩, ?_⟩
    rintro ⟨u, hu1, hu2, hut, hface⟩
    obtain ⟨r, hr'⟩ := (has_face_of_iff _ _ (inj t ht1 ht2) (inj u hu1 hu2) p t u).mp hface
    obtain ⟨k, hk, hkx⟩ := ((face_tuple_eq_iff _ _ (inj t ht1 ht2) (inj u hu1 hu2) p r t u).mp
      hr' x).mp ⟨j, fun e0 => hpj e0.symm, hj⟩
    have hu := hcomplete u hu1 hu2 k hkx
    obtain ⟨b, hb, hbt, hbe⟩ := h2 u hu k r hkx (fun e0 => hk e0.symm)
    refine hsingle b ⟨hmemF, hperm.mem_iff.mpr hb,
      tuple_eq_trans _ _ _ heq (tuple_eq_trans _ _ _ hr' (tuple_eq_symm _ _ hbe)), fun e0 => ?_⟩
    rw [e0, hbt] at het
    exact hut het
  · rintro ⟨hts, ⟨j, hjq, hj⟩, hborder⟩
    obtain ⟨a, ha, hat, hae⟩ := h2 t hts j q hj (fun e0 => hjq e0.symm)
    refine ⟨(a, none), scan_faces_single _ hsorted htw a (hperm.mem_iff.mpr ha)
      (fun b hb => ?_), rfl, hat, hae⟩
    obtain ⟨_, hbF, hab, hne⟩ := hb
    have hb' := hperm.mem_iff.mp hbF
    obtain ⟨tb, k, r, hk, hrk, eb⟩ := h1 b hb'
    by_cases e0 : b.t = t
    · exact hne (h4 a ha b hb' (hat.trans e0.symm) hab)
    · refine hborder ⟨b.t, (hr _ tb).1, (hr _ tb).2, e0, ?_⟩
      exact (has_face_of_iff _ _ (inj t ht1 ht2) (inj _ (hr _ tb).1 (hr _ tb).2) q t b.t).mpr
        ⟨r, tuple_eq_trans _ _ _ (tuple_eq_symm _ _ hae) (tuple_eq_trans _ _ _ hab eb)⟩

theorem stdSort_nil (sort : List triangle_tetrahedron_tuple → List triangle_tetrahedron_tuple)
    (hsort : StdSort sort) : sort [] = [] :=
  List.Perm.eq_nil (hsort []).1

theorem border_entry_step_eq
    (sort : List triangle_tetrahedron_tuple → List triangle_tetrahedron_tuple)
    (hsort : StdSort sort) (m : Mesh) (e : Nat × List triangle_tetrahedron_tuple) :
    (if e.2.length > 0 then Border_Checker.set_mesh_borders sort e.2 m else m)
      = Border_Checker.set_mesh_borders sort e.2 m := by
  by_cases h : e.2.length > 0
  · simp [h]
  · have h0 : e.2 = [] := List.length_eq_zero.mp (by omega)
    simp [h0, Border_Checker.set_mesh_borders, stdSort_nil sort hsort,
      Border_Checker.set_mesh_borders_loop]

/-- The second loop of `calc_mesh_borders` on a leaf, over the entries of the
map of the faces. -/
theorem border_entries_fold (mesh : Mesh) (hwf : mesh.wellFormed)
    (hdist : mesh.distinctVertices) (hman : mesh.twoPerFace)
    (sort : List triangle_tetrahedron_tuple → List triangle_tetrahedron_tuple)
    (hsort : StdSort sort) (ts : List Nat)
    (hr : ∀ t ∈ ts, 1 ≤ t ∧ t ≤ mesh.get_num_tetrahedra) :
    ∀ (E : List (Nat × List triangle_tetrahedron_tuple)) (m : Mesh),
      (∀ e ∈ E, VertexFaces mesh ts e.1 e.2 ∧
        ∀ u, 1 ≤ u → u ≤ mesh.get_num_tetrahedra → ∀ k : Fin 4,
          (mesh.get_tetrahedron u).TV k = e.1 → u ∈ ts) →
      BorderInv mesh m →
      BorderInv mesh (E.foldl (fun m e =>
        if e.2.length > 0 then Border_Checker.set_mesh_borders sort e.2 m else m) m) ∧
      (∀ t, 1 ≤ t → t ≤ mesh.get_num_tetrahedra → ∀ q : Fin 4,
        (m.get_tetrahedron t).vertices q < 0 →
        ((E.foldl (fun m e =>
          if e.2.length > 0 then Border_Checker.set_mesh_borders sort e.2 m else m)
          m).get_tetrahedron t).vertices q < 0) ∧
      (∀ e ∈ E, ∀ t ∈ ts, ∀ q j : Fin 4, j ≠ q → (mesh.get_tetrahedron t).TV j = e.1 →
        (¬ ∃ u, mesh.shares_face u t q) →
        ((E.foldl (fun m e =>
          if e.2.length > 0 then Border_Checker.set_mesh_borders sort e.2 m else m)
          m).get_tetrahedron t).vertices q < 0)
  | [], m, _, hm => ⟨hm, fun _ _ _ _ h => h, by simp⟩
  | e :: E, m, hE, hm => by
    obtain ⟨hv, hc⟩ := hE e (by simp)
    obtain ⟨s1, s2⟩ := set_mesh_borders_vertex mesh hwf hdist hman sort hsort ts hr e.1 hc e.2
      hv m hm.1
    have hm1 : BorderInv mesh (Border_Checker.set_mesh_borders sort e.2 m) :=
      ⟨s1, fun t h1 h2 q hneg => by
        rcases (s2 t h1 h2 q).mp hneg with h | h
        · exact hm.2 t h1 h2 q h
        · exact h.2.2⟩
    obtain ⟨i1, i2, i3⟩ := border_entries_fold mesh hwf hdist hman sort hsort ts hr E
      (Border_Checker.set_mesh_borders sort e.2 m) (fun e' he' => hE e' (List.mem_cons_of_mem _ he'))
      hm1
    rw [List.foldl_cons, border_entry_step_eq sort hsort]
    refine ⟨i1, fun t h1 h2 q hneg => i2 t h1 h2 q ((s2 t h1 h2 q).mpr (Or.inl hneg)),
      fun e' he' t ht q j hjq hj hb => ?_⟩
    rcases List.mem_cons.mp he' with h0 | h0
    · subst h0
      exact i2 t (hr t ht).1 (hr t ht).2 q
        ((s2 t (hr t ht).1 (hr t ht).2 q).mpr (Or.inr ⟨ht, ⟨j, hjq, hj⟩, hb⟩))
    · exact i3 e' h0 t ht q j hjq hj hb

theorem get_incident_triangles_congr (T U : Tetrahedron) (h : ∀ j, T.TV j = U.TV j)
    (t v : Nat) (fs : List triangle_tetrahedron_tuple) :
    Border_Checker.get_incident_triangles T t v fs
      = Border_Checker.get_incident_triangles U t v fs := by
  unfold Border_Checker.get_incident_triangles
  simp only [h]

theorem border_pushes_congr (mesh m : Mesh) (hm : m.SameTV mesh) (dom : Box) (ts : List Nat) :
    border_pushes m dom ts = border_pushes mesh dom ts := by
  obtain ⟨hd, hv, _, htv⟩ := hm
  unfold border_pushes
  have hgv : ∀ x, m.get_vertex x = mesh.get_vertex x := fun x => by
    unfold Mesh.get_vertex; rw [hv]
  simp only [htv, hd, hgv, get_incident_triangles_congr _ _ (htv _)]

/-- One leaf of a built tree under `calc_mesh_borders`: the leaf procedure
returns, the mesh stays as the border checker keeps it, the negative indices
stay negative, and the indices opposite to a face that no other tetrahedron
has and that has a vertex contained by the box of the leaf are negative. -/
theorem calc_mesh_borders_leaf_spec (mesh : Mesh) (hwf : mesh.wellFormed)
    (hdist : mesh.distinctVertices) (hman : mesh.twoPerFace)
    (sort : List triangle_tetrahedron_tuple → List triangle_tetrahedron_tuple)
    (hsort : StdSort sort) (fuel : Nat) (hfuel : mesh.get_num_tetrahedra < fuel)
    (y : Box × List Nat × List Nat) (hy : mesh.LeafOK y) (m : Mesh)
    (hm : BorderInv mesh m) :
    ∃ m', Border_Checker.calc_mesh_borders_leaf sort fuel (y.2.2.map Int.ofNat) y.1 m
        = some m' ∧ BorderInv mesh m' ∧
      (∀ t, 1 ≤ t → t ≤ mesh.get_num_tetrahedra → ∀ q : Fin 4,
        (m.get_tetrahedron t).vertices q < 0 → (m'.get_tetrahedron t).vertices q < 0) ∧
      (∀ t, 1 ≤ t → t ≤ mesh.get_num_tetrahedra → ∀ q j : Fin 4, j ≠ q →
        y.1.contains (mesh.tetra_vertex t j) mesh.domain.max = true →
        (¬ ∃ u, mesh.shares_face u t q) → (m'.get_tetrahedron t).vertices q < 0) := by
  obtain ⟨hs, hr, hc⟩ := hy
  have hts : y.2.2.Nodup := hs.imp (fun h => Nat.ne_of_lt h)
  have hlen : y.2.2.length < fuel := lt_of_le_of_lt (sorted_length_le _ _ hs hr) hfuel
  unfold Border_Checker.calc_mesh_borders_leaf
  rw [collect_plain y.2.2 (fun x hx => (hr x hx).1) fuel hlen]
  simp only [calc_mesh_borders_all_faces, border_pushes_congr mesh m hm.1]
  have hkeys := keys_nodup_pushes (border_pushes mesh y.1 y.2.2) [] (by simp)
  have hfind : ∀ x, StdMap.find
      ((border_pushes mesh y.1 y.2.2).foldl (fun m e => StdMap.push m e.1 e.2) []) x =
      if ((border_pushes mesh y.1 y.2.2).filter (fun e => decide (e.1 = x))).length = 0 then none
      else some (y.2.2.flatMap (fun t => (List.finRange 4).flatMap (fun j =>
          if y.1.contains (mesh.get_vertex ((mesh.get_tetrahedron t).TV j)).toPoint
              mesh.domain.max = true ∧ (mesh.get_tetrahedron t).TV j = x
          then Border_Checker.get_incident_triangles (mesh.get_tetrahedron t) t j.val []
          else []))) := by
    intro x
    rw [find_pushes, border_pushes_at]
    simp [StdMap.find]
  have hpushed : ∀ x, ((border_pushes mesh y.1 y.2.2).filter
      (fun e => decide (e.1 = x))).length ≠ 0 ↔
      (y.1.contains (mesh.get_vertex x).toPoint mesh.domain.max = true ∧
        ∃ t ∈ y.2.2, ∃ j : Fin 4, (mesh.get_tetrahedron t).TV j = x) := by
    intro x
    rw [Ne, List.length_eq_zero, ← Ne]
    constructor
    · intro hne
      obtain ⟨e, he⟩ := List.exists_mem_of_ne_nil _ hne
      simp only [List.mem_filter, decide_eq_true_eq, mem_border_pushes] at he
      obtain ⟨⟨t, ht, j, hcj, rfl⟩, hx⟩ := he
      simp only at hx
      exact ⟨by rw [← hx]; exact hcj, t, ht, j, hx⟩
    · rintro ⟨hcx, t, ht, j, hj⟩
      have hmem : ((mesh.get_tetrahedron t).TV j,
          Border_Checker.get_incident_triangles (mesh.get_tetrahedron t) t j.val []) ∈
          (border_pushes mesh y.1 y.2.2).filter (fun e => decide (e.1 = x)) := by
        simp only [List.mem_filter, decide_eq_true_eq, mem_border_pushes]
        exact ⟨⟨t, ht, j, by rw [hj]; exact hcx, rfl⟩, hj⟩
      exact List.ne_nil_of_mem hmem
  have hE : ∀ e ∈ (border_pushes mesh y.1 y.2.2).foldl (fun m e => StdMap.push m e.1 e.2) [],
      VertexFaces mesh y.2.2 e.1 e.2 ∧
        ∀ u, 1 ≤ u → u ≤ mesh.get_num_tetrahedra → ∀ k : Fin 4,
          (mesh.get_tetrahedron u).TV k = e.1 → u ∈ y.2.2 := by
    intro e he
    have hf := (mem_iff_find _ hkeys e.1 e.2).mp he
    rw [hfind] at hf
    split_ifs at hf with h0
    obtain ⟨hcx, _⟩ := (hpushed e.1).mp h0
    simp only [Option.some.injEq] at hf
    rw [← hf]
    refine ⟨border_vertexFaces mesh hdist y.1 y.2.2 hts hr e.1 hcx, fun u hu1 hu2 k hk => ?_⟩
    refine hc u k hu1 hu2 ?_
    unfold Mesh.tetra_vertex
    rw [hk]
    exact hcx
  obtain ⟨i1, i2, i3⟩ := border_entries_fold mesh hwf hdist hman sort hsort y.2.2 hr _ m hE hm
  refine ⟨_, rfl, i1, i2, fun t h1 h2 q j hjq hin hb => ?_⟩
  have htm : t ∈ y.2.2 := hc t j h1 h2 hin
  have hx : ((border_pushes mesh y.1 y.2.2).filter
      (fun e => decide (e.1 = (mesh.get_tetrahedron t).TV j))).length ≠ 0 :=
    (hpushed _).mpr ⟨hin, t, htm, j, rfl⟩
  have hf := hfind ((mesh.get_tetrahedron t).TV j)
  rw [if_neg hx] at hf
  exact i3 _ ((mem_iff_find _ hkeys _ _).mpr hf) t htm q j hjq rfl hb

theorem borderInv_init (mesh : Mesh) (hun : mesh.unflagged) : BorderInv mesh mesh :=
  ⟨⟨rfl, rfl, rfl, fun _ _ => rfl⟩, fun t h1 h2 q hneg => by
    have := hun _ (get_tetrahedron_mem mesh t h1 h2) q
    omega⟩

/-- C20: for every mesh (vertex indices in range and stored without a sign,
vertices inside the domain) whose tetrahedra have four distinct vertex ids and
in which each triangular face belongs to at most two tetrahedra, every tree
built on it by one of the two classes on `Node_T` and every sort `std::sort`
may be, `Border_Checker::calc_mesh_borders` returns, and then for every
tetrahedron `t` and position `p` the index stored at `p` is negative
(`is_border_face(p)`) iff no other tetrahedron of the mesh has the face
opposite to `p`, and `TV(p)` is what it was. -/
theorem C20_border_checker_flags (d : Subdivision) (mesh : Mesh) (tree : Node)
    (sort : List triangle_tetrahedron_tuple → List triangle_tetrahedron_tuple) (fuel : Nat)
    (hwf : mesh.wellFormed) (hun : mesh.unflagged) (hdist : mesh.distinctVertices)
    (hman : mesh.twoPerFace) (hsort : StdSort sort) (hb : BuiltTreeT d mesh tree)
    (hfuel : mesh.get_num_tetrahedra < fuel) :
    ∃ m, Border_Checker.calc_mesh_borders d sort fuel tree.toRaw mesh.domain 0 mesh = some m ∧
      ∀ t, 1 ≤ t → t ≤ mesh.get_num_tetrahedra → ∀ p : Fin 4,
        ((m.get_tetrahedron t).is_border_face p = true ↔ ¬ ∃ u, mesh.shares_face u t p) ∧
        (m.get_tetrahedron t).TV p = (mesh.get_tetrahedron t).TV p := by
  have hb' := builtTreeT_builtTree d mesh tree hb
  have hQ := builtTree_leafOK d mesh tree hb'
  obtain ⟨m, hm⟩ := visit_leaves_returns d id (fun _ => false)
    (fun _ ts dom m => Border_Checker.calc_mesh_borders_leaf sort fuel ts dom m)
    mesh.LeafOK
    (fun y s hy => by
      show ∃ s', Border_Checker.calc_mesh_borders_leaf sort fuel (y.2.2.map Int.ofNat) y.1 s
        = some s'
      unfold Border_Checker.calc_mesh_borders_leaf
      rw [collect_plain y.2.2 (fun x hx => (hy.2.1 x hx).1) fuel
        (lt_of_le_of_lt (sorted_length_le _ _ hy.1 hy.2.1) hfuel)]
      exact ⟨_, rfl⟩)
    tree mesh.domain 0 mesh hQ
  have hleafI : ∀ (y : Box × List Nat × List Nat) (s s' : Mesh), mesh.LeafOK y →
      Border_Checker.calc_mesh_borders_leaf sort fuel (y.2.2.map Int.ofNat) y.1 s = some s' →
      BorderInv mesh s → BorderInv mesh s' ∧
        (∀ t, 1 ≤ t → t ≤ mesh.get_num_tetrahedra → ∀ q : Fin 4,
          (s.get_tetrahedron t).vertices q < 0 → (s'.get_tetrahedron t).vertices q < 0) ∧
        (∀ t, 1 ≤ t → t ≤ mesh.get_num_tetrahedra → ∀ q j : Fin 4, j ≠ q →
          y.1.contains (mesh.tetra_vertex t j) mesh.domain.max = true →
          (¬ ∃ u, mesh.shares_face u t q) → (s'.get_tetrahedron t).vertices q < 0) := by
    intro y s s' hy h hs
    obtain ⟨s'', hs'', r⟩ := calc_mesh_borders_leaf_spec mesh hwf hdist hman sort hsort fuel
      hfuel y hy s hs
    have e : s'' = s' := Option.some.inj (hs''.symm.trans h)
    subst e
    exact r
  have hInv : BorderInv mesh m :=
    visit_leaves_invariant d id (fun _ => false)
      (fun _ ts dom m => Border_Checker.calc_mesh_borders_leaf sort fuel ts dom m)
      (BorderInv mesh) mesh.LeafOK (fun s hs => hs)
      (fun y s s' hy h hs => (hleafI y s s' hy h hs).1)
      tree mesh.domain 0 _ m hQ hm (borderInv_init mesh hun)
  refine ⟨m, hm, fun t h1 h2 p => ⟨?_, hInv.1.2.2.2 t p⟩⟩
  simp only [Tetrahedron.is_border_face, decide_eq_true_eq]
  refine ⟨hInv.2 t h1 h2 p, fun hborder => ?_⟩
  obtain ⟨⟨x, hx, hxin⟩, _⟩ := builtTree_vertex_leaf d mesh tree hwf hb' t h1 h2
    (Fin.ofNat (p.val + 1))
  exact visit_leaves_reaches d id (fun _ => false)
    (fun _ ts dom m => Border_Checker.calc_mesh_borders_leaf sort fuel ts dom m)
    (BorderInv mesh) (fun s : Mesh => (s.get_tetrahedron t).vertices p < 0) mesh.LeafOK
    (mesh.tetra_vertex t (Fin.ofNat (p.val + 1))) mesh.domain.max x
    (fun s hs => ⟨hs, fun h => h⟩)
    (fun y s s' hy h hs => ⟨(hleafI y s s' hy h hs).1,
      fun hE => (hleafI y s s' hy h hs).2.1 t h1 h2 p hE⟩)
    (fun _ _ => rfl) hxin
    (fun s s' hs h => (hleafI x s s' (hQ x hx) h hs).2.2 t h1 h2 p _
      (fin4_incident p).2.1 hxin hborder)
    tree mesh.domain 0 _ m hQ hx hm (borderInv_init mesh hun)

theorem cubeMesh_unflagged : Examples.cubeMesh.unflagged := by
  unfold Mesh.unflagged
  decide!

/-- C20 on S1 in the T octree with `kt = 4`, the faces sorted by insertion:
after `calc_mesh_borders` the negative indices are those opposite to the
faces of one tetrahedron only. -/
theorem C20_border_checker_flags_witness :
    ∃ tree m, T_Tree.build_tree Subdivision.OK Examples.cubeMesh 4 3 = some tree ∧
      Border_Checker.calc_mesh_borders Subdivision.OK insertion_sort_faces 13 tree.toRaw
        Examples.cubeMesh.domain 0 Examples.cubeMesh = some m ∧
      ∀ t, 1 ≤ t → t ≤ 12 → ∀ p : Fin 4,
        ((m.get_tetrahedron t).is_border_face p = true ↔
          ¬ ∃ u, Examples.cubeMesh.shares_face u t p) ∧
        (m.get_tetrahedron t).TV p = (Examples.cubeMesh.get_tetrahedron t).TV p := by
  obtain ⟨tree, htree⟩ :
      ∃ tree, T_Tree.build_tree Subdivision.OK Examples.cubeMesh 4 3 = some tree :=
    Option.isSome_iff_exists.mp (by decide!)
  obtain ⟨m, hm, h⟩ := C20_border_checker_flags Subdivision.OK Examples.cubeMesh tree
    insertion_sort_faces 13 cubeMesh_wellFormed cubeMesh_unflagged cubeMesh_distinctVertices
    cubeMesh_twoPerFace insertion_sort_faces_stdSort ⟨4, 3, Or.inl htree⟩ (by decide)
  exact ⟨tree, m, htree, hm, h⟩

/-! ## Windowed TT against batched TT -/

theorem compute_domain_within (d : Subdivision) (D B : Box) (level i : Nat)
    (h : D.Within B) : D.Within (d.compute_domain B level i) := by
  obtain ⟨⟨x1, x2, x3⟩, ⟨y1, y2, y3⟩, ⟨z1, z2, z3⟩⟩ := h
  cases d with
  | OK =>
    simp only [Subdivision.compute_domain, OK_Subdivision.compute_domain, Box.Within]
    refine ⟨?_, ?_, ?_⟩
    · split_ifs <;> refine ⟨?_, ?_, ?_⟩ <;> linarith
    · split_ifs <;> refine ⟨?_, ?_, ?_⟩ <;> linarith
    · split_ifs <;> refine ⟨?_, ?_, ?_⟩ <;> linarith
  | KD =>
    simp only [Subdivision.compute_domain, KD_Subdivision.compute_domain, Box.Within]
    have hc : KD_Subdivision.coord_to_change level = 0 ∨
        KD_Subdivision.coord_to_change level = 1 ∨
        KD_Subdivision.coord_to_change level = 2 := by
      generalize KD_Subdivision.coord_to_change level = c
      revert c; decide
    rcases hc with hc | hc | hc <;> rw [hc] <;>
      simp only [Point.get_c, Point.set_c] <;>
      split_ifs <;> refine ⟨⟨?_, ?_, ?_⟩, ⟨?_, ?_, ?_⟩, ⟨?_, ?_, ?_⟩⟩ <;>
      linarith

/-- A box of the domain intersects a box that covers the domain. -/
theorem intersects_of_within (b D B : Box) (hcov : b.covers D) (h : D.Within B) :
    B.intersects b = true := by
  obtain ⟨⟨x1, x2, x3⟩, ⟨y1, y2, y3⟩, ⟨z1, z2, z3⟩⟩ := h
  obtain ⟨⟨a1, a2⟩, ⟨b1, b2⟩, ⟨c1, c2⟩⟩ := hcov
  unfold Box.intersects
  rw [if_neg (by linarith), if_neg (by linarith), if_neg (by linarith), if_neg (by linarith),
    if_neg (by linarith), if_neg (by linarith)]

mutual
/-- Two visits of a tree under construction that prune no box of the domain and whose
leaf procedures keep a relation between their states keep the relation. -/
theorem visit_leaves_simulation {σ τ : Type} (d : Subdivision) (pre1 : σ → σ)
    (pre2 : τ → τ) (prune1 prune2 : Box → Bool)
    (leaf1 : List Int → List Int → Box → σ → Option σ)
    (leaf2 : List Int → List Int → Box → τ → Option τ)
    (R : σ → τ → Prop) (Q : Box × List Nat × List Nat → Prop) (P : Box → Prop)
    (hP : ∀ B level i, P B → P (d.compute_domain B level i))
    (hprune : ∀ B, P B → prune1 B = false ∧ prune2 B = false)
    (hpre : ∀ s t, R s t → R (pre1 s) (pre2 t))
    (hleaf : ∀ y s t s' t', Q y → P y.1 →
      leaf1 (y.2.1.map Int.ofNat) (y.2.2.map Int.ofNat) y.1 s = some s' →
      leaf2 (y.2.1.map Int.ofNat) (y.2.2.map Int.ofNat) y.1 t = some t' → R s t → R s' t') :
    ∀ (n : Node) (dom : Box) (level : Nat) (s s' : σ) (t t' : τ),
      (∀ y ∈ Node.leaves d n dom level, Q y) → P dom →
      RawNode.visit d pre1 prune1 leaf1 n.toRaw dom level s = some s' →
      RawNode.visit d pre2 prune2 leaf2 n.toRaw dom level t = some t' → R s t → R s' t'
  | Node.leaf vs ts, dom, level, s, s', t, t', hn, hdom, h1, h2, hR => by
    simp only [Node.toRaw, RawNode.visit, (hprune dom hdom).1, (hprune dom hdom).2,
      Bool.false_eq_true, if_false] at h1 h2
    exact hleaf (dom, vs, ts) _ _ s' t' (hn _ (by simp [Node.leaves])) hdom h1 h2
      (hpre s t hR)
  | Node.internal sons, dom, level, s, s', t, t', hn, hdom, h1, h2, hR => by
    simp only [Node.toRaw, RawNode.visit, (hprune dom hdom).1, (hprune dom hdom).2,
      Bool.false_eq_true, if_false] at h1 h2
    simp only [Node.leaves] at hn
    exact visitSons_leaves_simulation d pre1 pre2 prune1 prune2 leaf1 leaf2 R Q P hP hprune
      hpre hleaf sons dom level 0 _ s' _ t' hn hdom h1 h2 (hpre s t hR)
/-- The simulation of two visits, on the sons of a node. -/
theorem visitSons_leaves_simulation {σ τ : Type} (d : Subdivision) (pre1 : σ → σ)
    (pre2 : τ → τ) (prune1 prune2 : Box → Bool)
    (leaf1 : List Int → List Int → Box → σ → Option σ)
    (leaf2 : List Int → List Int → Box → τ → Option τ)
    (R : σ → τ → Prop) (Q : Box × List Nat × List Nat → Prop) (P : Box → Prop)
    (hP : ∀ B level i, P B → P (d.compute_domain B level i))
    (hprune : ∀ B, P B → prune1 B = false ∧ prune2 B = false)
    (hpre : ∀ s t, R s t → R (pre1 s) (pre2 t))
    (hleaf : ∀ y s t s' t', Q y → P y.1 →
      leaf1 (y.2.1.map Int.ofNat) (y.2.2.map Int.ofNat) y.1 s = some s' →
      leaf2 (y.2.1.map Int.ofNat) (y.2.2.map Int.ofNat) y.1 t = some t' → R s t → R s' t') :
    ∀ (sons : List Node) (dom : Box) (level i : Nat) (s s' : σ) (t t' : τ),
      (∀ y ∈ Node.leavesOfSons d sons dom level i, Q y) → P dom →
      RawNode.visitSons d pre1 prune1 leaf1 (Node.toRawSons sons) dom level i s = some s' →
      RawNode.visitSons d pre2 prune2 leaf2 (Node.toRawSons sons) dom level i t = some t' →
      R s t → R s' t'
  | [], _, _, _, s, s', t, t', _, _, h1, h2, hR => by
    simp only [Node.toRawSons, RawNode.visitSons, Option.some.injEq] at h1 h2
    subst h1; subst h2; exact hR
  | n :: rest, dom, level, i, s, s', t, t', hn, hdom, h1, h2, hR => by
    simp only [Node.toRawSons, RawNode.visitSons] at h1 h2
    simp only [Node.leavesOfSons, List.mem_append] at hn
    cases e1 : RawNode.visit d pre1 prune1 leaf1 n.toRaw (d.compute_domain dom level i)
        (level + 1) s with
    | none => simp [e1] at h1
    | some s1 =>
      cases e2 : RawNode.visit d pre2 prune2 leaf2 n.toRaw (d.compute_domain dom level i)
          (level + 1) t with
      | none => simp [e2] at h2
      | some t1 =>
        simp only [e1] at h1
        simp only [e2] at h2
        exact visitSons_leaves_simulation d pre1 pre2 prune1 prune2 leaf1 leaf2 R Q P hP
          hprune hpre hleaf rest dom level (i + 1) s1 s' t1 t'
          (fun y hy => hn y (Or.inr hy)) hdom h1 h2
          (visit_leaves_simulation d pre1 pre2 prune1 prune2 leaf1 leaf2 R Q P hP hprune hpre
            hleaf n _ _ s s1 t t1 (fun y hy => hn y (Or.inl hy)) (hP dom level i hdom) e1 e2
            hR)
end

theorem ttTable_getD_set (n : Nat) (tt : TTTable) (h : TTTable.Shape n tt) (i p : Nat)
    (v : Int) (hi : i < n) (x : Nat) :
    (tt.set i p v).getD x [] = if x = i then (tt.getD i []).set p v else tt.getD x [] := by
  have hl : i < tt.length := by rw [h.1]; exact hi
  simp only [TTTable.set, List.getD_eq_getElem?_getD]
  by_cases e : x = i
  · subst e
    rw [List.getElem?_set_self hl]
    simp
  · rw [List.getElem?_set_ne (fun e3 => e e3.symm)]
    simp [e]

theorem foldl_push_map {α β : Type} (f : α → β) :
    ∀ (js : List α) (fs : List β), js.foldl (fun fs v => fs ++ [f v]) fs = fs ++ js.map f
  | [], fs => by simp
  | j :: js, fs => by
    rw [List.foldl_cons, foldl_push_map f js, List.map_cons, List.append_assoc]
    rfl

theorem batched_TT_collected_cons (mesh : Mesh) (tt : TTTable) (t : Nat) (ts : List Nat) :
    batched_TT_collected mesh tt (t :: ts)
      = batched_TT_collected mesh tt [t] ++ batched_TT_collected mesh tt ts := by
  simp [batched_TT_collected]

/-- The faces the windowed TT adds for a tetrahedron are those the batched TT
collects for it. -/
theorem add_faces_sim (n : Nat) (mesh : Mesh) (tt : TTTable) (m : StdMap (List Int))
    (h : TTSim n tt m) (t : Nat) (h1 : 1 ≤ t) (h2 : t ≤ n)
    (faces : List triangle_tetrahedron_tuple) :
    Topological_Queries.add_faces t faces mesh (StdMap.find m t)
      = faces ++ batched_TT_collected mesh tt [t] := by
  have hrow := ttTable_row_length n tt h.1 (t - 1) (by omega)
  have hc : batched_TT_collected mesh tt [t] = (List.range 4).filterMap (fun v =>
      if tt.get (t - 1) v = -1 then some ((mesh.get_tetrahedron t).face_tuple v t)
      else none) := by
    simp [batched_TT_collected]
  rw [hc]
  unfold Topological_Queries.add_faces
  rcases h.2 t h1 h2 with ⟨e1, e2⟩ | e1
  · rw [e1]
    simp only
    rw [foldl_push_map]
    congr 1
    have hget : ∀ v, v < 4 → tt.get (t - 1) v = -1 := by
      intro v hv
      unfold TTTable.get
      rw [e2, List.getD_eq_getElem?_getD, List.getElem?_replicate]
      simp [hv]
    have e : List.range 4 = [0, 1, 2, 3] := by decide
    rw [e]
    simp [hget]
  · rw [e1]
    simp only [hrow]
    exact batched_TT_faces_append mesh tt t (List.range 4) faces

theorem find_init_TT_entry (t : Nat) (m : StdMap (List Int)) (x : Nat) :
    StdMap.find (Topological_Queries.init_TT_entry t m) x =
      if x = t then some ((StdMap.find m t).getD (List.replicate 4 (-1)))
      else StdMap.find m x := by
  unfold Topological_Queries.init_TT_entry
  rw [find_insert]

/-- One tetrahedron added by the windowed TT: the faces of the batched TT are
added, the map stays the table of the batched TT, the tetrahedron has an
entry, and the entries stay. -/
theorem windowed_TT_add_step_spec (n : Nat) (mesh : Mesh) (tt : TTTable)
    (s : Topological_Queries.TTState) (h : TTSim n tt s.tt) (t : Nat) (h1 : 1 ≤ t)
    (h2 : t ≤ n) :
    (Topological_Queries.windowed_TT_add_step mesh s t).faces
        = s.faces ++ batched_TT_collected mesh tt [t] ∧
      TTSim n tt (Topological_Queries.windowed_TT_add_step mesh s t).tt := by
  refine ⟨add_faces_sim n mesh tt s.tt h t h1 h2 s.faces, h.1, fun x hx1 hx2 => ?_⟩
  simp only [Topological_Queries.windowed_TT_add_step]
  by_cases e : StdMap.find s.tt t = none
  · simp only [e, if_true, find_init_TT_entry, Option.getD_none]
    by_cases ex : x = t
    · subst ex
      rcases h.2 x hx1 hx2 with ⟨_, e2⟩ | e1
      · right
        simp only [if_true]
        rw [e2]
      · rw [e] at e1; exact absurd e1 (by simp)
    · simp only [ex, if_false]
      exact h.2 x hx1 hx2
  · simp only [e, if_false]
    exact h.2 x hx1 hx2

/-- One tetrahedron added by the windowed TT, the map and the bits alone. -/
theorem windowed_TT_add_step_checked (n : Nat) (mesh : Mesh)
    (s : Topological_Queries.TTState) (h : TTChecked n (s.tt, s.checkTetra)) (t : Nat) :
    TTChecked n ((Topological_Queries.windowed_TT_add_step mesh s t).tt,
        (Topological_Queries.windowed_TT_add_step mesh s t).checkTetra) ∧
      StdMap.find (Topological_Queries.windowed_TT_add_step mesh s t).tt t ≠ none ∧
      ∀ x, StdMap.find s.tt x ≠ none →
        StdMap.find (Topological_Queries.windowed_TT_add_step mesh s t).tt x ≠ none := by
  have hpres : ∀ x, StdMap.find s.tt x ≠ none →
      StdMap.find (Topological_Queries.windowed_TT_add_step mesh s t).tt x ≠ none := by
    intro x hx
    simp only [Topological_Queries.windowed_TT_add_step]
    by_cases e : StdMap.find s.tt t = none
    · simp only [e, if_true, find_init_TT_entry]
      by_cases ex : x = t
      · simp [ex]
      · simp only [ex, if_false]; exact hx
    · simp only [e, if_false]; exact hx
  have hthis : StdMap.find (Topological_Queries.windowed_TT_add_step mesh s t).tt t ≠ none := by
    by_cases e : StdMap.find s.tt t = none
    · simp [Topological_Queries.windowed_TT_add_step, e, find_init_TT_entry]
    · exact hpres t e
  refine ⟨fun x hx1 hx2 hc => ?_, hthis, hpres⟩
  by_cases ex : x = t
  · subst ex; exact hthis
  · have hc' : s.checkTetra x = true := by
      simpa [Topological_Queries.windowed_TT_add_step, Function.update_noteq ex] using hc
    exact hpres x (h x hx1 hx2 hc')

/-- A tetrahedron that passes the box test is added by the test loop as it is
by the loop without a test. -/
theorem windowed_TT_test_step_eq (n : Nat) (b : Box) (mesh : Mesh)
    (s : Topological_Queries.TTState) (h : TTChecked n (s.tt, s.checkTetra)) (t : Nat)
    (h1 : 1 ≤ t) (h2 : t ≤ n) (hpass : Geometry_Wrapper.tetra_in_box t b mesh = true) :
    Topological_Queries.windowed_TT_test_step b mesh s t
      = Topological_Queries.windowed_TT_add_step mesh s t := by
  have hcond : StdMap.find s.tt t ≠ none ∨
      (!s.checkTetra t && Geometry_Wrapper.tetra_in_box t b mesh) = true := by
    by_cases e : StdMap.find s.tt t = none
    · right
      have : s.checkTetra t = false := by
        by_contra hc
        exact h t h1 h2 (by simpa using hc) e
      simp [this, hpass]
    · exact Or.inl e
  simp only [Topological_Queries.windowed_TT_test_step, hcond, if_true,
    Topological_Queries.windowed_TT_add_step]

/-- The loop of the windowed TT over the tetrahedra of a leaf, against the
faces the batched TT collects. -/
theorem windowed_TT_add_fold_sim (n : Nat) (mesh : Mesh) (tt : TTTable) :
    ∀ (ts : List Nat) (s : Topological_Queries.TTState), TTSim n tt s.tt →
      (∀ t ∈ ts, 1 ≤ t ∧ t ≤ n) →
      (ts.foldl (Topological_Queries.windowed_TT_add_step mesh) s).faces
          = s.faces ++ batched_TT_collected mesh tt ts ∧
        TTSim n tt (ts.foldl (Topological_Queries.windowed_TT_add_step mesh) s).tt
  | [], s, h, _ => ⟨by simp [batched_TT_collected], h⟩
  | t :: ts, s, h, hr => by
    obtain ⟨f1, f2⟩ := windowed_TT_add_step_spec n mesh tt s h t (hr t (by simp)).1
      (hr t (by simp)).2
    obtain ⟨i1, i2⟩ := windowed_TT_add_fold_sim n mesh tt ts _ f2
      (fun x hx => hr x (List.mem_cons_of_mem _ hx))
    rw [List.foldl_cons]
    refine ⟨?_, i2⟩
    rw [i1, f1, List.append_assoc, ← batched_TT_collected_cons]

/-- The loop of the windowed TT over the tetrahedra of a leaf, the map and
the bits alone: the tetrahedra of the leaf have an entry, the entries stay. -/
theorem windowed_TT_add_fold_checked (n : Nat) (mesh : Mesh) :
    ∀ (ts : List Nat) (s : Topological_Queries.TTState), TTChecked n (s.tt, s.checkTetra) →
      TTChecked n ((ts.foldl (Topological_Queries.windowed_TT_add_step mesh) s).tt,
          (ts.foldl (Topological_Queries.windowed_TT_add_step mesh) s).checkTetra) ∧
        (∀ t ∈ ts, StdMap.find
          (ts.foldl (Topological_Queries.windowed_TT_add_step mesh) s).tt t ≠ none) ∧
        ∀ x, StdMap.find s.tt x ≠ none →
          StdMap.find (ts.foldl (Topological_Queries.windowed_TT_add_step mesh) s).tt x ≠ none
  | [], s, h => ⟨h, by simp, fun _ hx => hx⟩
  | t :: ts, s, h => by
    obtain ⟨f1, f2, f3⟩ := windowed_TT_add_step_checked n mesh s h t
    obtain ⟨i1, i2, i3⟩ := windowed_TT_add_fold_checked n mesh ts _ f1
    rw [List.foldl_cons]
    refine ⟨i1, fun x hx => ?_, fun x hx => i3 x (f3 x hx)⟩
    rcases List.mem_cons.mp hx with e | e
    · subst e; exact i3 x f2
    · exact i2 x e

theorem windowed_TT_test_fold_eq (n : Nat) (b : Box) (mesh : Mesh)
    (hpass : ∀ t, 1 ≤ t → t ≤ n → Geometry_Wrapper.tetra_in_box t b mesh = true) :
    ∀ (ts : List Nat) (s : Topological_Queries.TTState), TTChecked n (s.tt, s.checkTetra) →
      (∀ t ∈ ts, 1 ≤ t ∧ t ≤ n) →
      ts.foldl (Topological_Queries.windowed_TT_test_step b mesh) s
        = ts.foldl (Topological_Queries.windowed_TT_add_step mesh) s
  | [], _, _, _ => rfl
  | t :: ts, s, h, hr => by
    have ht := hr t (by simp)
    rw [List.foldl_cons, List.foldl_cons,
      windowed_TT_test_step_eq n b mesh s h t ht.1 ht.2 (hpass t ht.1 ht.2)]
    exact windowed_TT_test_fold_eq n b mesh hpass ts _
      (windowed_TT_add_step_checked n mesh s h t).1
      (fun x hx => hr x (List.mem_cons_of_mem _ hx))

theorem windowed_TT_Leaf_test_loop_plain (b : Box) (mesh : Mesh) :
    ∀ (ts : List Nat) (s : Topological_Queries.TTState),
      Topological_Queries.windowed_TT_Leaf_test_loop b mesh (ts.map Int.ofNat) s
        = some (ts.foldl (Topological_Queries.windowed_TT_test_step b mesh) s)
  | [], s => rfl
  | [a], s => by
    have ha : ¬ (Int.ofNat a < 0) := by
      simp only [Int.ofNat_eq_coe]; omega
    have hn : (Int.ofNat a).toNat = a := rfl
    simp [Topological_Queries.windowed_TT_Leaf_test_loop, ha, hn]
  | a :: c :: rest, s => by
    have ih := windowed_TT_Leaf_test_loop_plain b mesh (c :: rest)
      (Topological_Queries.windowed_TT_test_step b mesh s a)
    simp only [List.map_cons] at ih ⊢
    simp only [Topological_Queries.windowed_TT_Leaf_test_loop]
    have ha : ¬ (Int.ofNat a < 0) := by
      simp only [Int.ofNat_eq_coe]; omega
    have hn : (Int.ofNat a).toNat = a := rfl
    simp only [ha, if_false, hn]
    rw [ih]
    simp

/-- The leaf of the windowed TT on a plain tetrahedra array, every
tetrahedron passing the box test: with or without the test, the tetrahedra of
the array are added, then the faces are sorted and paired. -/
theorem windowed_TT_leaf_plain (n : Nat) (b : Box) (mesh : Mesh)
    (sort : List triangle_tetrahedron_tuple → List triangle_tetrahedron_tuple) (fuel : Nat)
    (hpass : ∀ t, 1 ≤ t → t ≤ n → Geometry_Wrapper.tetra_in_box t b mesh = true)
    (ts : List Nat) (hr : ∀ t ∈ ts, 1 ≤ t ∧ t ≤ n) (hf : ts.length < fuel) (dom : Box)
    (s : StdMap (List Int) × (Nat → Bool)) (h : TTChecked n s) :
    Topological_Queries.windowed_TT_leaf b mesh sort fuel (ts.map Int.ofNat) dom s =
      some (Topological_Queries.finalize_TT_Leaf sort
          (ts.foldl (Topological_Queries.windowed_TT_add_step mesh) ⟨[], s.1, s.2⟩).faces
          (ts.foldl (Topological_Queries.windowed_TT_add_step mesh) ⟨[], s.1, s.2⟩).tt,
        (ts.foldl (Topological_Queries.windowed_TT_add_step mesh) ⟨[], s.1, s.2⟩).checkTetra) := by
  unfold Topological_Queries.windowed_TT_leaf
  split_ifs
  · unfold Topological_Queries.windowed_TT_Leaf_add
    rw [collect_plain ts (fun x hx => (hr x hx).1) fuel hf]
    have hn : ∀ t : Nat, (Int.ofNat t).toNat = t := fun _ => rfl
    simp only [List.foldl_map, hn]
  · unfold Topological_Queries.windowed_TT_Leaf_test
    rw [windowed_TT_Leaf_test_loop_plain, windowed_TT_test_fold_eq n b mesh hpass ts _ h hr]

/-- One write of the pairing, in the map of the windowed TT and in the table
of the batched TT. -/
theorem update_resulting_TT_sim (n : Nat) (tt : TTTable) (m : StdMap (List Int))
    (h : TTSim n tt m) (t : Nat) (h1 : 1 ≤ t) (h2 : t ≤ n) (hp : StdMap.find m t ≠ none)
    (pos v : Nat) :
    TTSim n (tt.set (t - 1) pos v) (Topological_Queries.update_resulting_TT pos t v m) ∧
      ∀ x, StdMap.find m x ≠ none →
        StdMap.find (Topological_Queries.update_resulting_TT pos t v m) x ≠ none := by
  have hrow : StdMap.find m t = some (tt.getD (t - 1) []) := by
    rcases h.2 t h1 h2 with ⟨e, _⟩ | e
    · exact absurd e hp
    · exact e
  have hfind : ∀ x, StdMap.find (Topological_Queries.update_resulting_TT pos t v m) x =
      if x = t then some ((tt.getD (t - 1) []).set pos v) else StdMap.find m x := by
    intro x
    unfold Topological_Queries.update_resulting_TT
    simp only [hrow, find_assign, Option.map_some']
  refine ⟨⟨ttTable_set_shape n tt h.1 _ _ _ (by omega), fun x hx1 hx2 => ?_⟩, fun x hx => ?_⟩
  · rw [hfind, ttTable_getD_set n tt h.1 _ _ _ (by omega)]
    by_cases e : x = t
    · subst e
      right
      simp
    · have e' : ¬ x - 1 = t - 1 := by omega
      simp only [e, e', if_false]
      exact h.2 x hx1 hx2
  · rw [hfind]
    by_cases e : x = t
    · simp [e]
    · simp only [e, if_false]; exact hx

/-- The pairing of the windowed TT against the pairing of the batched TT, on
the same sorted faces, all of tetrahedra with an entry in the map. -/
theorem pair_adjacent_tetrahedra_sim (n : Nat) :
    ∀ (F : List triangle_tetrahedron_tuple) (tt : TTTable) (m : StdMap (List Int)),
      TTSim n tt m → (∀ a ∈ F, 1 ≤ a.t ∧ a.t ≤ n ∧ StdMap.find m a.t ≠ none) →
      TTSim n (Topological_Queries.batched_TT_pair F tt)
          (Topological_Queries.pair_adjacent_tetrahedra F m) ∧
        ∀ x, StdMap.find m x ≠ none →
          StdMap.find (Topological_Queries.pair_adjacent_tetrahedra F m) x ≠ none
  | [], _, _, h, _ => ⟨h, fun _ hx => hx⟩
  | [_], _, _, h, _ => ⟨h, fun _ hx => hx⟩
  | a :: b :: rest, tt, m, h, hF => by
    have ha := hF a (by simp)
    have hb := hF b (by simp)
    unfold Topological_Queries.batched_TT_pair Topological_Queries.pair_adjacent_tetrahedra
    by_cases e : a.eq b = true
    · simp only [e, if_true]
      obtain ⟨s1, p1⟩ := update_resulting_TT_sim n tt m h a.t ha.1 ha.2.1 ha.2.2 a.f_pos b.t
      obtain ⟨s2, p2⟩ := update_resulting_TT_sim n _ _ s1 b.t hb.1 hb.2.1 (p1 _ hb.2.2)
        b.f_pos a.t
      obtain ⟨i1, i2⟩ := pair_adjacent_tetrahedra_sim n rest _ _ s2 (fun c hc =>
        ⟨(hF c (by simp [hc])).1, (hF c (by simp [hc])).2.1,
          p2 _ (p1 _ (hF c (by simp [hc])).2.2)⟩)
      exact ⟨i1, fun x hx => i2 x (p2 x (p1 x hx))⟩
    · simp only [e, if_false]
      exact pair_adjacent_tetrahedra_sim n (b :: rest) tt m h
        (fun c hc => hF c (List.mem_cons_of_mem _ hc))

theorem within_of_contains (D : Box) (p : Point) (h : D.contains p D.max = true) :
    D.Within D := by
  rw [contains_iff] at h
  have hx := h 0
  have hy := h 1
  have hz := h 2
  simp only [Point.get_c] at hx hy hz
  refine ⟨⟨le_refl _, ?_, le_refl _⟩, ⟨le_refl _, ?_, le_refl _⟩, ⟨le_refl _, ?_, le_refl _⟩⟩
  · rcases hx.2 with h0 | h0
    · linarith [hx.1]
    · linarith [hx.1, h0.2]
  · rcases hy.2 with h0 | h0
    · linarith [hy.1]
    · linarith [hy.1, h0.2]
  · rcases hz.2 with h0 | h0
    · linarith [hz.1]
    · linarith [hz.1, h0.2]

theorem covers_contains (b D : Box) (p : Point) (hcov : b.covers D)
    (h : D.contains p D.max = true) : b.contains_with_all_closed_faces p = true := by
  rw [contains_iff] at h
  have hx := h 0
  have hy := h 1
  have hz := h 2
  obtain ⟨⟨a1, a2⟩, ⟨b1, b2⟩, ⟨c1, c2⟩⟩ := hcov
  simp only [Point.get_c] at hx hy hz
  have px : p.x ≤ D.max.x := by
    rcases hx.2 with h0 | h0
    · exact le_of_lt h0
    · exact le_of_eq h0.2
  have py : p.y ≤ D.max.y := by
    rcases hy.2 with h0 | h0
    · exact le_of_lt h0
    · exact le_of_eq h0.2
  have pz : p.z ≤ D.max.z := by
    rcases hz.2 with h0 | h0
    · exact le_of_lt h0
    · exact le_of_eq h0.2
  simp only [Box.contains_with_all_closed_faces, Box.is_in_range_all_closed, Point.get_c,
    Bool.and_eq_true]
  refine ⟨⟨?_, ?_⟩, ?_⟩
  · rw [if_neg (by push_neg; constructor <;> linarith [hx.1])]
  · rw [if_neg (by push_neg; constructor <;> linarith [hy.1])]
  · rw [if_neg (by push_neg; constructor <;> linarith [hz.1])]

theorem update_resulting_TT_present (pos t v : Nat) (m : StdMap (List Int)) (x : Nat)
    (hx : StdMap.find m x ≠ none) :
    StdMap.find (Topological_Queries.update_resulting_TT pos t v m) x ≠ none := by
  unfold Topological_Queries.update_resulting_TT
  cases h : StdMap.find m t with
  | none => exact hx
  | some row =>
    simp only [find_assign, h, Option.map_some']
    by_cases e : x = t
    · simp [e]
    · simp only [e, if_false]; exact hx

theorem pair_adjacent_tetrahedra_present :
    ∀ (F : List triangle_tetrahedron_tuple) (m : StdMap (List Int)) (x : Nat),
      StdMap.find m x ≠ none →
      StdMap.find (Topological_Queries.pair_adjacent_tetrahedra F m) x ≠ none
  | [], _, _, hx => hx
  | [_], _, _, hx => hx
  | a :: b :: rest, m, x, hx => by
    unfold Topological_Queries.pair_adjacent_tetrahedra
    split_ifs
    · exact pair_adjacent_tetrahedra_present rest _ x
        (update_resulting_TT_present _ _ _ _ x (update_resulting_TT_present _ _ _ _ x hx))
    · exact pair_adjacent_tetrahedra_present (b :: rest) m x hx

/-- One leaf of a built tree under the windowed TT, every tetrahedron passing
the box test: the tetrahedra with a set bit keep an entry, those of the leaf
have one, and the entries stay. -/
theorem windowed_TT_leaf_checked (mesh : Mesh) (b : Box)
    (sort : List triangle_tetrahedron_tuple → List triangle_tetrahedron_tuple) (fuel : Nat)
    (hfuel : mesh.get_num_tetrahedra < fuel)
    (hpass : ∀ t, 1 ≤ t → t ≤ mesh.get_num_tetrahedra →
      Geometry_Wrapper.tetra_in_box t b mesh = true)
    (y : Box × List Nat × List Nat) (hy : mesh.LeafOK y)
    (s s' : StdMap (List Int) × (Nat → Bool)) (h : TTChecked mesh.get_num_tetrahedra s)
    (h2 : Topological_Queries.windowed_TT_leaf b mesh sort fuel (y.2.2.map Int.ofNat) y.1 s
      = some s') :
    TTChecked mesh.get_num_tetrahedra s' ∧ (∀ t ∈ y.2.2, StdMap.find s'.1 t ≠ none) ∧
      ∀ x, StdMap.find s.1 x ≠ none → StdMap.find s'.1 x ≠ none := by
  rw [windowed_TT_leaf_plain mesh.get_num_tetrahedra b mesh sort fuel hpass y.2.2 hy.2.1
    (lt_of_le_of_lt (sorted_length_le _ _ hy.1 hy.2.1) hfuel) y.1 s h] at h2
  obtain ⟨c1, c2, c3⟩ := windowed_TT_add_fold_checked mesh.get_num_tetrahedra mesh y.2.2
    ⟨[], s.1, s.2⟩ h
  have e := Option.some.inj h2
  rw [← e]
  unfold Topological_Queries.finalize_TT_Leaf
  refine ⟨fun t h1 h2 hc => pair_adjacent_tetrahedra_present _ _ t (c1 t h1 h2 hc),
    fun t ht => pair_adjacent_tetrahedra_present _ _ t (c2 t ht),
    fun x hx => pair_adjacent_tetrahedra_present _ _ x (c3 x hx)⟩

/-- One leaf of a built tree under the windowed TT and under the batched TT,
every tetrahedron passing the box test: the map stays the table. -/
theorem windowed_TT_leaf_sim (mesh : Mesh) (b : Box)
    (sort : List triangle_tetrahedron_tuple → List triangle_tetrahedron_tuple)
    (hsort : StdSort sort) (fuel : Nat) (hfuel : mesh.get_num_tetrahedra < fuel)
    (hpass : ∀ t, 1 ≤ t → t ≤ mesh.get_num_tetrahedra →
      Geometry_Wrapper.tetra_in_box t b mesh = true)
    (y : Box × List Nat × List Nat) (hy : mesh.LeafOK y)
    (s s' : StdMap (List Int) × (Nat → Bool)) (tt tt' : TTTable)
    (hS : TTSim mesh.get_num_tetrahedra tt s.1) (h : TTChecked mesh.get_num_tetrahedra s)
    (h1 : Topological_Queries.windowed_TT_leaf b mesh sort fuel (y.2.2.map Int.ofNat) y.1 s
      = some s')
    (h2 : Topological_Queries.batched_TT_leaf mesh sort fuel (y.2.2.map Int.ofNat) tt
      = some tt') :
    TTSim mesh.get_num_tetrahedra tt' s'.1 := by
  have hlen := lt_of_le_of_lt (sorted_length_le _ _ hy.1 hy.2.1) hfuel
  rw [windowed_TT_leaf_plain mesh.get_num_tetrahedra b mesh sort fuel hpass y.2.2 hy.2.1
    hlen y.1 s h] at h1
  unfold Topological_Queries.batched_TT_leaf at h2
  rw [collect_plain y.2.2 (fun x hx => (hy.2.1 x hx).1) fuel hlen] at h2
  simp only [batched_TT_collected_eq, List.nil_append, Option.some.injEq] at h2
  obtain ⟨f1, f2⟩ := windowed_TT_add_fold_sim mesh.get_num_tetrahedra mesh tt y.2.2
    ⟨[], s.1, s.2⟩ hS hy.2.1
  obtain ⟨_, c2, _⟩ := windowed_TT_add_fold_checked mesh.get_num_tetrahedra mesh y.2.2
    ⟨[], s.1, s.2⟩ h
  have e := Option.some.inj h1
  rw [← e, ← h2]
  unfold Topological_Queries.finalize_TT_Leaf
  rw [f1, List.nil_append]
  refine (pair_adjacent_tetrahedra_sim mesh.get_num_tetrahedra _ tt _ f2 (fun a ha => ?_)).1
  obtain ⟨t, ht, p, _, rfl⟩ := (mem_batched_TT_collected mesh tt y.2.2 a).mp
    ((hsort _).1.mem_iff.mp ha)
  exact ⟨(hy.2.1 t ht).1, (hy.2.1 t ht).2, c2 t ht⟩

/-- The windowed TT on the two tetrahedra of `flatMesh` in a PR octree with
`kv = 8` (the root is a leaf), the query box being the mesh domain, the faces
sorted by insertion: the map returned. -/
theorem flatMesh_windowed_TT_result :
    (P_Tree.build_tree Subdivision.OK Examples.flatMesh 8 3).bind (fun tree =>
      (Topological_Queries.windowed_TT Subdivision.OK Examples.flatMesh.domain
        Examples.flatMesh insertion_sort_faces 3 tree.toRaw Examples.flatMesh.domain 0
        ([], fun _ => false)).map (fun r => r.1)) =
      some [(1, [-1, -1, -1, -1])] := by
  decide!

/-- The batched TT on the same tree: the table returned. -/
theorem flatMesh_batched_TT_result :
    (P_Tree.build_tree Subdivision.OK Examples.flatMesh 8 3).bind (fun tree =>
      Topological_Queries.batched_TT_visit Subdivision.OK Examples.flatMesh
        insertion_sort_faces 3 tree.toRaw Examples.flatMesh.domain 0 (TTTable.init 2)) =
      some [[-1, 2, -1, -1], [-1, -1, -1, 1]] := by
  decide!

/-- C19, as stated, fails: on `flatMesh` (the corner tetrahedron 1 and the
flat tetrahedron 2, which lies in the face `x = 0` of the domain and shares
the face of vertices 1, 3, 4 with tetrahedron 1) in a PR octree with `kv = 8`,
with the mesh domain as query box, which covers the domain, the windowed TT
gives tetrahedron 1 the neighbours `-1, -1, -1, -1` and tetrahedron 2 no entry,
while the batched TT gives tetrahedron 1 the neighbours `-1, 2, -1, -1`:
`Box::completely_contains`, against its documentation, is strict, so the box
does not completely contain the leaf of the domain, the leaf is tested, and
tetrahedron 2 fails the strict test `tetra_in_box`. -/
theorem C19_counterexample_flat_tetrahedron :
    Box.covers Examples.flatMesh.domain Examples.flatMesh.domain ∧
    ∃ tree r tt, P_Tree.build_tree Subdivision.OK Examples.flatMesh 8 3 = some tree ∧
      Topological_Queries.windowed_TT Subdivision.OK Examples.flatMesh.domain
        Examples.flatMesh insertion_sort_faces 3 tree.toRaw Examples.flatMesh.domain 0
        ([], fun _ => false) = some r ∧
      Topological_Queries.batched_TT_visit Subdivision.OK Examples.flatMesh
        insertion_sort_faces 3 tree.toRaw Examples.flatMesh.domain 0 (TTTable.init 2)
        = some tt ∧
      StdMap.find r.1 1 = some [-1, -1, -1, -1] ∧ tt.getD 0 [] = [-1, 2, -1, -1] ∧
      StdMap.find r.1 2 = none ∧
      Geometry_Wrapper.tetra_in_box 2 Examples.flatMesh.domain Examples.flatMesh = false := by
  refine ⟨by unfold Box.covers; decide!, ?_⟩
  have hw := flatMesh_windowed_TT_result
  have hbt := flatMesh_batched_TT_result
  obtain ⟨tree, htree, hw⟩ := Option.bind_eq_some.mp hw
  obtain ⟨r, hr, hw⟩ := Option.map_eq_some'.mp hw
  rw [htree] at hbt
  simp only [Option.some_bind] at hbt
  refine ⟨tree, r, _, htree, hr, hbt, ?_, ?_, ?_, ?_⟩
  · rw [hw]; decide
  · decide
  · rw [hw]; decide
  · decide!

theorem windowed_TT_leaf_returns (mesh : Mesh) (b : Box)
    (sort : List triangle_tetrahedron_tuple → List triangle_tetrahedron_tuple) (fuel : Nat)
    (hfuel : mesh.get_num_tetrahedra < fuel) (y : Box × List Nat × List Nat)
    (hy : mesh.LeafOK y) (s : StdMap (List Int) × (Nat → Bool)) :
    ∃ s', Topological_Queries.windowed_TT_leaf b mesh sort fuel (y.2.2.map Int.ofNat) y.1 s
      = some s' := by
  unfold Topological_Queries.windowed_TT_leaf
  split_ifs
  · unfold Topological_Queries.windowed_TT_Leaf_add
    rw [collect_plain y.2.2 (fun x hx => (hy.2.1 x hx).1) fuel
      (lt_of_le_of_lt (sorted_length_le _ _ hy.1 hy.2.1) hfuel)]
    exact ⟨_, rfl⟩
  · unfold Topological_Queries.windowed_TT_Leaf_test
    rw [windowed_TT_Leaf_test_loop_plain]
    exact ⟨_, rfl⟩

theorem ttSim_init (n : Nat) : TTSim n (TTTable.init n) [] := by
  refine ⟨ttTable_init_shape n, fun t h1 h2 => Or.inl ⟨rfl, ?_⟩⟩
  simp only [TTTable.init, List.getD_eq_getElem?_getD, List.getElem?_replicate]
  have : t - 1 < n := by omega
  simp [this]

/-- C19 (what the code does): for every mesh (vertex indices in range, vertices
inside the domain), every tree built on it by one of the four classes, every sort
`std::sort` may be and every query box that covers the mesh domain and against
which every tetrahedron of the mesh passes the box test `tetra_in_box` (so
every box that strictly contains the domain), the windowed TT started on the
empty map and the batched TT started on the table of `-1` both return, and the
map gives every tetrahedron of the mesh its row of four neighbours of the
table. -/
theorem C19_windowed_TT_equals_batched (d : Subdivision) (mesh : Mesh) (tree : Node)
    (b : Box) (sort : List triangle_tetrahedron_tuple → List triangle_tetrahedron_tuple)
    (fuel : Nat) (hwf : mesh.wellFormed) (hsort : StdSort sort) (hb : BuiltTree d mesh tree)
    (hcov : b.covers mesh.domain)
    (hpass : ∀ t, 1 ≤ t → t ≤ mesh.get_num_tetrahedra →
      Geometry_Wrapper.tetra_in_box t b mesh = true)
    (hfuel : mesh.get_num_tetrahedra < fuel) :
    ∃ r tt, Topological_Queries.windowed_TT d b mesh sort fuel tree.toRaw mesh.domain 0
        ([], fun _ => false) = some r ∧
      Topological_Queries.batched_TT_visit d mesh sort fuel tree.toRaw mesh.domain 0
        (TTTable.init mesh.get_num_tetrahedra) = some tt ∧
      ∀ t, 1 ≤ t → t ≤ mesh.get_num_tetrahedra →
        StdMap.find r.1 t = some (tt.getD (t - 1) []) := by
  have hQ := builtTree_leafOK d mesh tree hb
  obtain ⟨r, hr⟩ := visit_leaves_returns d id (fun dom => !dom.intersects b)
    (fun _ ts dom s => Topological_Queries.windowed_TT_leaf b mesh sort fuel ts dom s)
    mesh.LeafOK (fun y s hy => windowed_TT_leaf_returns mesh b sort fuel hfuel y hy s)
    tree mesh.domain 0 ([], fun _ => false) hQ
  obtain ⟨tt, htt⟩ := visit_leaves_returns d id (fun _ => false)
    (fun _ ts _ tt => Topological_Queries.batched_TT_leaf mesh sort fuel ts tt)
    mesh.LeafOK
    (fun y s hy => by
      show ∃ s', Topological_Queries.batched_TT_leaf mesh sort fuel (y.2.2.map Int.ofNat) s
        = some s'
      unfold Topological_Queries.batched_TT_leaf
      rw [collect_plain y.2.2 (fun x hx => (hy.2.1 x hx).1) fuel
        (lt_of_le_of_lt (sorted_length_le _ _ hy.1 hy.2.1) hfuel)]
      exact ⟨_, rfl⟩)
    tree mesh.domain 0 (TTTable.init mesh.get_num_tetrahedra) hQ
  refine ⟨r, tt, hr, htt, fun t h1 h2 => ?_⟩
  have hin := domain_contains_tetra_vertex mesh hwf t h1 h2 0
  have hinit : TTChecked mesh.get_num_tetrahedra
      (([], fun _ => false) : StdMap (List Int) × (Nat → Bool)) := by
    intro x _ _ hc
    simp at hc
  -- the map is the table
  have hsim : TTSim mesh.get_num_tetrahedra tt r.1 ∧ TTChecked mesh.get_num_tetrahedra r :=
    visit_leaves_simulation d id id (fun dom => !dom.intersects b) (fun _ => false)
      (fun _ ts dom s => Topological_Queries.windowed_TT_leaf b mesh sort fuel ts dom s)
      (fun _ ts _ tt => Topological_Queries.batched_TT_leaf mesh sort fuel ts tt)
      (fun s tt => TTSim mesh.get_num_tetrahedra tt s.1 ∧ TTChecked mesh.get_num_tetrahedra s)
      mesh.LeafOK mesh.domain.Within
      (fun B level i hB => compute_domain_within d mesh.domain B level i hB)
      (fun B hB => ⟨by simp [intersects_of_within b mesh.domain B hcov hB], rfl⟩)
      (fun s tt h => h)
      (fun y s tt s' tt' hy _ e1 e2 hR =>
        ⟨windowed_TT_leaf_sim mesh b sort hsort fuel hfuel hpass y hy s s' tt tt' hR.1 hR.2
            e1 e2,
          (windowed_TT_leaf_checked mesh b sort fuel hfuel hpass y hy s s' hR.2 e1).1⟩)
      tree mesh.domain 0 _ r _ tt hQ (within_of_contains _ _ hin) hr htt
      ⟨ttSim_init _, hinit⟩
  -- the tetrahedron has an entry
  obtain ⟨⟨x, hx, hxin⟩, hlist⟩ := builtTree_vertex_leaf d mesh tree hwf hb t h1 h2 0
  have hpres : StdMap.find r.1 t ≠ none :=
    visit_leaves_reaches d id (fun dom => !dom.intersects b)
      (fun _ ts dom s => Topological_Queries.windowed_TT_leaf b mesh sort fuel ts dom s)
      (TTChecked mesh.get_num_tetrahedra)
      (fun s : StdMap (List Int) × (Nat → Bool) => StdMap.find s.1 t ≠ none) mesh.LeafOK
      (mesh.tetra_vertex t 0) mesh.domain.max x
      (fun s hs => ⟨hs, fun h => h⟩)
      (fun y s s' hy h hs =>
        ⟨(windowed_TT_leaf_checked mesh b sort fuel hfuel hpass y hy s s' hs h).1,
          fun hE => (windowed_TT_leaf_checked mesh b sort fuel hfuel hpass y hy s s' hs h).2.2
            t hE⟩)
      (fun B hB => by
        simp only [Bool.not_eq_false']
        exact intersects_of_common_point B b _ _ hB (covers_contains b mesh.domain _ hcov hin))
      hxin
      (fun s s' hs h =>
        (windowed_TT_leaf_checked mesh b sort fuel hfuel hpass x (hQ x hx) s s' hs h).2.1 t
          (hlist x hx hxin))
      tree mesh.domain 0 _ r hQ hx hr hinit
  rcases hsim.1.2 t h1 h2 with ⟨e, _⟩ | e
  · exact absurd e hpres
  · exact e

/-- C19 (what the code does) on S1 in the PR octree with `kv = 4`, the query box being
the mesh domain and the faces sorted by insertion: every tetrahedron has the
centre of the cube, strictly inside the box, as a vertex, and the map of the
windowed TT gives the 12 tetrahedra their rows of the table of the batched
TT. -/
theorem C19_windowed_TT_equals_batched_witness :
    ∃ tree r tt, P_Tree.build_tree Subdivision.OK Examples.cubeMesh 4 3 = some tree ∧
      Topological_Queries.windowed_TT Subdivision.OK Examples.cubeMesh.domain
        Examples.cubeMesh insertion_sort_faces 13 tree.toRaw Examples.cubeMesh.domain 0
        ([], fun _ => false) = some r ∧
      Topological_Queries.batched_TT_visit Subdivision.OK Examples.cubeMesh
        insertion_sort_faces 13 tree.toRaw Examples.cubeMesh.domain 0 (TTTable.init 12)
        = some tt ∧
      ∀ t, 1 ≤ t → t ≤ 12 → StdMap.find r.1 t = some (tt.getD (t - 1) []) := by
  obtain ⟨tree, htree⟩ :
      ∃ tree, P_Tree.build_tree Subdivision.OK Examples.cubeMesh 4 3 = some tree :=
    Option.isSome_iff_exists.mp (by decide!)
  obtain ⟨r, tt, hr, htt, h⟩ := C19_windowed_TT_equals_batched Subdivision.OK
    Examples.cubeMesh tree Examples.cubeMesh.domain insertion_sort_faces 13
    cubeMesh_wellFormed insertion_sort_faces_stdSort ⟨4, 0, 3, Or.inl htree⟩
    (by unfold Box.covers; decide!)
    (fun t h1 h2 => by
      obtain ⟨j, hj⟩ := cubeMesh_centre_inside t h1 h2
      exact tetra_in_box_of_inside t _ _ j hj)
    (by decide)
  exact ⟨tree, r, tt, htree, hr, htt, h⟩

/-! ## `Box::completely_contains` -/

theorem completely_contains_iff (b other : Box) :
    b.completely_contains other = true ↔
      b.min.x < other.min.x ∧ b.min.y < other.min.y ∧ b.min.z < other.min.z ∧
        other.max.x < b.max.x ∧ other.max.y < b.max.y ∧ other.max.z < b.max.z := by
  unfold Box.completely_contains
  split_ifs with h
  · simpa using h
  · simpa using h

/-- C29, as stated, fails: the unit box satisfies `min ≤ min` and `max ≤ max`
against itself on every axis, and `Box::completely_contains` answers `false`:
the six comparisons of the body are strict, whereas its documentation says
that all the faces are closed. -/
theorem C29_counterexample_unit_box_not_in_itself :
    ((⟨⟨0, 0, 0⟩, ⟨1, 1, 1⟩⟩ : Box).min.x ≤ (⟨⟨0, 0, 0⟩, ⟨1, 1, 1⟩⟩ : Box).min.x ∧
      (⟨⟨0, 0, 0⟩, ⟨1, 1, 1⟩⟩ : Box).max.x ≤ (⟨⟨0, 0, 0⟩, ⟨1, 1, 1⟩⟩ : Box).max.x) ∧
      Box.completely_contains ⟨⟨0, 0, 0⟩, ⟨1, 1, 1⟩⟩ ⟨⟨0, 0, 0⟩, ⟨1, 1, 1⟩⟩ = false := by
  refine ⟨⟨le_refl _, le_refl _⟩, ?_⟩
  simp [Box.completely_contains]

/-- C29 (what the code does): `Box::completely_contains(other)` returns true
exactly when the six strict inequalities `this.min < other.min` and
`other.max < this.max` hold, so all the faces are open; in particular no box
completely contains itself. -/
theorem C29_completely_contains_is_strict (b other : Box) :
    (b.completely_contains other = true ↔
      b.min.x < other.min.x ∧ b.min.y < other.min.y ∧ b.min.z < other.min.z ∧
        other.max.x < b.max.x ∧ other.max.y < b.max.y ∧ other.max.z < b.max.z) ∧
      b.completely_contains b = false := by
  refine ⟨completely_contains_iff b other, ?_⟩
  cases h : b.completely_contains b
  · rfl
  · exact absurd ((completely_contains_iff b b).mp h).1 (lt_irrefl _)

/-! ## Counting the ids of a compressed sequence -/

theorem elementCountFrom_eq (vec : List Int) :
    ∀ (fuel : Nat) (it : run_iterator) (count : Int),
      elementCountFrom vec fuel it count =
        (collectFrom vec fuel it).map (fun l => count + (l.length : Int)) := by
  intro fuel
  induction fuel with
  | zero => intro it count; rfl
  | succ fuel ih =>
    intro it count
    rw [elementCountFrom, collectFrom]
    split_ifs with h
    · simp
    · cases hi : increment vec it with
      | none => rfl
      | some it' =>
        simp only []
        rw [ih]
        cases hc : collectFrom vec fuel it' with
        | none => rfl
        | some l => simp; omega

theorem elementCount_eq (vec : List Int) (fuel : Nat) :
    elementCount vec fuel = (collect vec fuel).map (fun l => (l.length : Int)) := by
  unfold elementCount collect
  cases h : beginIt vec with
  | none => rfl
  | some it => simp [elementCountFrom_eq]

theorem elementCountFastFrom_wellFormed :
    ∀ (n : Nat) (vec : List Int), vec.length ≤ n → wellFormedRuns vec = true →
      ∀ count : Int,
        elementCountFastFrom vec count = some (count + ((runExpansion vec).length : Int)) := by
  intro n
  induction n with
  | zero =>
    intro vec hn _ count
    have : vec = [] := List.length_eq_zero.mp (by omega)
    subst this
    simp [elementCountFastFrom, runExpansion]
  | succ n ih =>
    intro vec hn hwf count
    match vec, hn, hwf with
    | [], _, _ => simp [elementCountFastFrom, runExpansion]
    | [x], _, hwf =>
      have hx : 0 < x := by simpa [wellFormedRuns] using hwf
      simp [elementCountFastFrom, runExpansion, hx]
    | x :: k :: rest, hn, hwf =>
      rcases wellFormedRuns_cons_cases x (k :: rest) hwf with ⟨hx, hr⟩ | ⟨k', rest', e, hx, hk, hr⟩
      · have hnx : ¬ x < 0 := by omega
        rw [elementCountFastFrom, if_pos hx, ih (k :: rest) (by simpa using hn) hr,
          runExpansion_cons_nonneg x (k :: rest) hnx]
        simp; omega
      · have e1 : k = k' := (List.cons.inj e).1
        have e2 : rest = rest' := (List.cons.inj e).2
        subst e1; subst e2
        have hnx : ¬ x > 0 := by omega
        rw [elementCountFastFrom, if_neg hnx,
          ih rest (by simp at hn; omega) hr]
        simp [runExpansion, hx, length_idRange]
        omega

/-- C30: for every well-formed compressed sequence (each entry a positive id,
or a negative header immediately followed by a tail length `k ≥ 0`),
`elementCountFast`, which reads each raw entry once, returns a number, and it is
the number `elementCount` returns (with any fuel above the number of expanded
ids), which is the number of ids the run iterator yields. -/
theorem C30_elementCountFast_eq_elementCount (vec : List Int)
    (hwf : wellFormedRuns vec = true) (fuel : Nat)
    (hfuel : (runExpansion vec).length < fuel) :
    elementCountFast vec = some ((runExpansion vec).length : Int) ∧
      elementCount vec fuel = elementCountFast vec ∧
      (run_iterator.collect vec fuel).map (fun l => (l.length : Int)) = elementCountFast vec := by
  have h1 : elementCountFast vec = some ((runExpansion vec).length : Int) := by
    unfold elementCountFast
    rw [elementCountFastFrom_wellFormed vec.length vec (le_refl _) hwf 0]
    simp
  have h2 := collect_wellFormed vec hwf fuel hfuel
  refine ⟨h1, ?_, ?_⟩
  · rw [elementCount_eq, h2, h1]; rfl
  · rw [h2, h1]; rfl

/-- C30 at the sequence `[3, -5, 3, 9, -1, 0, 2]`, which stands for the eight
ids `3, 5, 6, 7, 8, 9, 1, 2`. -/
theorem C30_elementCountFast_eq_elementCount_witness :
    wellFormedRuns [3, -5, 3, 9, -1, 0, 2] = true ∧
      elementCountFast [3, -5, 3, 9, -1, 0, 2] = some 8 ∧
      elementCount [3, -5, 3, 9, -1, 0, 2] 9 = some 8 :=
  ⟨by decide,
    (C30_elementCountFast_eq_elementCount [3, -5, 3, 9, -1, 0, 2] (by decide) 9 (by decide)).1,
    by decide⟩

/-! ## `Geometry_Wrapper::set_face_orientation` -/

theorem detSign3D_cases (a1 a2 a3 b1 b2 b3 c1 c2 c3 : ℚ) :
    (Geometry.DetSign3D a1 a2 a3 b1 b2 b3 c1 c2 c3 = 0 ∧
        |Geometry.Det3D a1 a2 a3 b1 b2 b3 c1 c2 c3| ≤ Geometry.ZERO) ∨
      (Geometry.DetSign3D a1 a2 a3 b1 b2 b3 c1 c2 c3 = 1 ∧
        Geometry.ZERO < Geometry.Det3D a1 a2 a3 b1 b2 b3 c1 c2 c3) ∨
      (Geometry.DetSign3D a1 a2 a3 b1 b2 b3 c1 c2 c3 = -1 ∧
        Geometry.Det3D a1 a2 a3 b1 b2 b3 c1 c2 c3 < -Geometry.ZERO) := by
  have hz : (0 : ℚ) < Geometry.ZERO := by unfold Geometry.ZERO; norm_num
  unfold Geometry.DetSign3D
  simp only []
  split_ifs with h1 h2
  · exact Or.inl ⟨rfl, h1⟩
  · refine Or.inr (Or.inl ⟨rfl, ?_⟩)
    rw [abs_of_pos h2] at h1
    exact lt_of_not_le h1
  · refine Or.inr (Or.inr ⟨rfl, ?_⟩)
    have h3 : Geometry.Det3D a1 a2 a3 b1 b2 b3 c1 c2 c3 ≤ 0 := le_of_not_lt h2
    rw [abs_of_nonpos h3] at h1
    linarith [lt_of_not_le h1]

theorem four_point_turn_swap01 (v0 v1 v2 op : Point) :
    Geometry.Det3D (v1.x - op.x) (v1.y - op.y) (v1.z - op.z) (v0.x - v1.x) (v0.y - v1.y)
        (v0.z - v1.z) (v2.x - v1.x) (v2.y - v1.y) (v2.z - v1.z) =
      -Geometry.Det3D (v0.x - op.x) (v0.y - op.y) (v0.z - op.z) (v1.x - v0.x) (v1.y - v0.y)
        (v1.z - v0.z) (v2.x - v0.x) (v2.y - v0.y) (v2.z - v0.z) := by
  unfold Geometry.Det3D Geometry.Det2D
  ring

theorem four_point_turn_right_of_left (v0 v1 v2 op : Point)
    (h : Geometry_Wrapper.four_point_turn_wrapper v0 v1 v2 op = -1) :
    Geometry_Wrapper.four_point_turn_wrapper v1 v0 v2 op = 1 := by
  unfold Geometry_Wrapper.four_point_turn_wrapper Geometry.FourPointTurn at h ⊢
  have hz : (0 : ℚ) < Geometry.ZERO := by unfold Geometry.ZERO; norm_num
  rcases detSign3D_cases (v0.x - op.x) (v0.y - op.y) (v0.z - op.z) (v1.x - v0.x) (v1.y - v0.y)
      (v1.z - v0.z) (v2.x - v0.x) (v2.y - v0.y) (v2.z - v0.z) with ⟨e, _⟩ | ⟨e, _⟩ | ⟨_, hd⟩
  · rw [e] at h; exact absurd h (by decide)
  · rw [e] at h; exact absurd h (by decide)
  · rcases detSign3D_cases (v1.x - op.x) (v1.y - op.y) (v1.z - op.z) (v0.x - v1.x)
        (v0.y - v1.y) (v0.z - v1.z) (v2.x - v1.x) (v2.y - v1.y) (v2.z - v1.z)
        with ⟨_, hd'⟩ | ⟨e, _⟩ | ⟨_, hd'⟩
    · rw [four_point_turn_swap01] at hd'
      have := neg_le_of_abs_le hd'
      linarith [abs_le.mp hd']
    · exact e
    · rw [four_point_turn_swap01] at hd'
      linarith

theorem four_point_turn_values (v0 v1 v2 op : Point) :
    Geometry_Wrapper.four_point_turn_wrapper v0 v1 v2 op = 0 ∨
      Geometry_Wrapper.four_point_turn_wrapper v0 v1 v2 op = 1 ∨
      Geometry_Wrapper.four_point_turn_wrapper v0 v1 v2 op = -1 := by
  unfold Geometry_Wrapper.four_point_turn_wrapper Geometry.FourPointTurn
  rcases detSign3D_cases (v0.x - op.x) (v0.y - op.y) (v0.z - op.z) (v1.x - v0.x) (v1.y - v0.y)
      (v1.z - v0.z) (v2.x - v0.x) (v2.y - v0.y) (v2.z - v0.z) with ⟨e, _⟩ | ⟨e, _⟩ | ⟨e, _⟩
  · exact Or.inl e
  · exact Or.inr (Or.inl e)
  · exact Or.inr (Or.inr e)

theorem TV_mk4 (a b c d : Nat) :
    (Tetrahedron.mk4 a b c d).TV 0 = a ∧ (Tetrahedron.mk4 a b c d).TV 1 = b ∧
      (Tetrahedron.mk4 a b c d).TV 2 = c ∧ (Tetrahedron.mk4 a b c d).TV 3 = d := by
  simp [Tetrahedron.TV, Tetrahedron.mk4]

/-- C28: for every tetrahedron whose stored order has a turn different from `0`
(its four points are not coplanar within the tolerance), after
`Geometry_Wrapper::set_face_orientation` the stored order has the turn
`RIGHT_TURN` (`1`), the set of the four vertex ids is the one before the call,
and the last statements of the function, which print the `not found` message,
are not reached; so the message is printed only for a tetrahedron of turn `0`.
Coordinates are exact rationals. -/
theorem C28_set_face_orientation_right_turn (tet : Tetrahedron) (mesh : Mesh)
    (hturn : Geometry_Wrapper.stored_turn tet mesh ≠ 0) :
    Geometry_Wrapper.stored_turn (Geometry_Wrapper.set_face_orientation tet mesh) mesh = 1 ∧
      (∀ v : Nat, (∃ i, (Geometry_Wrapper.set_face_orientation tet mesh).TV i = v) ↔
        ∃ i, tet.TV i = v) ∧
      Geometry_Wrapper.set_face_orientation_not_found tet mesh = false := by
  unfold Geometry_Wrapper.stored_turn at hturn
  rcases four_point_turn_values (mesh.get_vertex (tet.TV 0)).toPoint
      (mesh.get_vertex (tet.TV 1)).toPoint (mesh.get_vertex (tet.TV 2)).toPoint
      (mesh.get_vertex (tet.TV 3)).toPoint with h | h | h
  · exact absurd h hturn
  · have e : Geometry_Wrapper.set_face_orientation tet mesh = tet := by
      simp only [Geometry_Wrapper.set_face_orientation, h, if_true]
    rw [e]
    refine ⟨h, fun v => Iff.rfl, ?_⟩
    simp only [Geometry_Wrapper.set_face_orientation_not_found, h, if_true]
  · have h1 := four_point_turn_right_of_left _ _ _ _ h
    have hne : ¬ ((-1 : Int) = 1) := by decide
    have e : Geometry_Wrapper.set_face_orientation tet mesh =
        Tetrahedron.mk4 (tet.TV 1) (tet.TV 0) (tet.TV 2) (tet.TV 3) := by
      simp only [Geometry_Wrapper.set_face_orientation, h, h1, hne, if_true, if_false]
    rw [e]
    obtain ⟨t0, t1, t2, t3⟩ := TV_mk4 (tet.TV 1) (tet.TV 0) (tet.TV 2) (tet.TV 3)
    refine ⟨?_, ?_, ?_⟩
    · unfold Geometry_Wrapper.stored_turn
      rw [t0, t1, t2, t3]
      exact h1
    · intro v
      constructor
      · rintro ⟨i, hi⟩
        fin_cases i
        · exact ⟨1, by rw [← hi]; exact t0.symm⟩
        · exact ⟨0, by rw [← hi]; exact t1.symm⟩
        · exact ⟨2, by rw [← hi]; exact t2.symm⟩
        · exact ⟨3, by rw [← hi]; exact t3.symm⟩
      · rintro ⟨i, hi⟩
        fin_cases i
        · exact ⟨1, by rw [← hi]; exact t1⟩
        · exact ⟨0, by rw [← hi]; exact t0⟩
        · exact ⟨2, by rw [← hi]; exact t2⟩
        · exact ⟨3, by rw [← hi]; exact t3⟩
    · simp only [Geometry_Wrapper.set_face_orientation_not_found, h, h1, hne, if_true, if_false]

/-- C28 at the first tetrahedron of the flat-tetrahedron mesh, whose stored
order `1 2 3 4` has the turn `-1`: the call stores `2 1 3 4`, of turn `1`. -/
theorem C28_set_face_orientation_right_turn_witness :
    Geometry_Wrapper.stored_turn (Examples.flatMesh.get_tetrahedron 1) Examples.flatMesh = -1 ∧
      Geometry_Wrapper.stored_turn
        (Geometry_Wrapper.set_face_orientation (Examples.flatMesh.get_tetrahedron 1)
          Examples.flatMesh) Examples.flatMesh = 1 :=
  ⟨by decide!,
    (C28_set_face_orientation_right_turn (Examples.flatMesh.get_tetrahedron 1)
      Examples.flatMesh (by decide!)).1⟩

/-! ## `Border_Checker::calc_mesh_borders` run twice -/

theorem tetrahedron_ext (T U : Tetrahedron) (h : ∀ q, T.vertices q = U.vertices q) : T = U := by
  cases T; cases U
  congr
  funext q
  exact h q

theorem mesh_ext_tetrahedra (m1 m2 : Mesh) (hd : m1.domain = m2.domain)
    (hv : m1.vertices = m2.vertices) (hl : m1.tetrahedra.length = m2.tetrahedra.length)
    (h : ∀ t, t - 1 < m1.tetrahedra.length → m1.get_tetrahedron t = m2.get_tetrahedron t) :
    m1 = m2 := by
  cases m1 with
  | mk d1 v1 t1 =>
    cases m2 with
    | mk d2 v2 t2 =>
      simp only at hd hv hl
      subst hd; subst hv
      have : t1 = t2 := by
        apply List.ext_getElem hl
        intro i h1 h2
        have := h (i + 1) (by simpa using h1)
        simp only [Mesh.get_tetrahedron, Nat.add_sub_cancel] at this
        rw [List.getD_eq_getElem _ _ h1, List.getD_eq_getElem _ _ h2] at this
        exact this
      rw [this]

theorem flag_border_frame (m : Mesh) (a : triangle_tetrahedron_tuple) :
    (Border_Checker.flag_border m a).domain = m.domain ∧
      (Border_Checker.flag_border m a).vertices = m.vertices ∧
      (Border_Checker.flag_border m a).tetrahedra.length = m.tetrahedra.length := by
  unfold Border_Checker.flag_border
  simp only []
  cases (List.finRange 4).find? (fun v => a.has_not ((m.get_tetrahedron a.t).TV v)) with
  | none => exact ⟨rfl, rfl, rfl⟩
  | some v => exact ⟨rfl, rfl, by simp⟩

theorem flag_border_vertices (m : Mesh) (a : triangle_tetrahedron_tuple) (t : Nat) (q : Fin 4) :
    ((Border_Checker.flag_border m a).get_tetrahedron t).vertices q =
      if t - 1 = a.t - 1 ∧ a.t - 1 < m.tetrahedra.length ∧
          (List.finRange 4).find? (fun v => a.has_not ((m.get_tetrahedron a.t).TV v)) = some q
      then -(((m.get_tetrahedron a.t).TV q : Nat) : Int)
      else (m.get_tetrahedron t).vertices q := by
  unfold Border_Checker.flag_border
  simp only []
  cases hf : (List.finRange 4).find? (fun v => a.has_not ((m.get_tetrahedron a.t).TV v)) with
  | none => simp
  | some v =>
    simp only [Option.some.injEq]
    by_cases hi : a.t - 1 < m.tetrahedra.length
    · rw [get_tetrahedron_set m (a.t - 1) _ hi t]
      by_cases ht : t - 1 = a.t - 1
      · have e : m.get_tetrahedron t = m.get_tetrahedron a.t := by
          simp only [Mesh.get_tetrahedron, ht]
        simp only [ht, if_true, true_and, hi, Tetrahedron.setTV]
        by_cases hq : v = q
        · subst hq; simp
        · have hq' : q ≠ v := fun h => hq h.symm
          simp [hq, Function.update_noteq hq', e]
      · simp [ht]
    · have hi' : m.tetrahedra.length ≤ a.t - 1 := Nat.le_of_not_lt hi
      simp only [hi, false_and, and_false, if_false]
      simp only [Mesh.get_tetrahedron, List.set_eq_of_length_le hi']

theorem flag_border_TV (m : Mesh) (a : triangle_tetrahedron_tuple) (t : Nat) (q : Fin 4) :
    ((Border_Checker.flag_border m a).get_tetrahedron t).TV q = (m.get_tetrahedron t).TV q := by
  unfold Tetrahedron.TV
  rw [flag_border_vertices]
  split_ifs with h
  · have e : m.get_tetrahedron t = m.get_tetrahedron a.t := by
      simp only [Mesh.get_tetrahedron, h.1]
    rw [e]
    simp only [Tetrahedron.TV, Int.natAbs_neg, Int.natAbs_ofNat]
  · rfl

theorem sameTV_refl (m : Mesh) : m.SameTV m := ⟨rfl, rfl, rfl, fun _ _ => rfl⟩

theorem sameTV_trans (m1 m2 m3 : Mesh) (h1 : m1.SameTV m2) (h2 : m2.SameTV m3) :
    m1.SameTV m3 :=
  ⟨h1.1.trans h2.1, h1.2.1.trans h2.2.1, h1.2.2.1.trans h2.2.2.1,
    fun t j => (h1.2.2.2 t j).trans (h2.2.2.2 t j)⟩

theorem flag_border_sameTV (m : Mesh) (a : triangle_tetrahedron_tuple) :
    (Border_Checker.flag_border m a).SameTV m :=
  ⟨(flag_border_frame m a).1, (flag_border_frame m a).2.1, (flag_border_frame m a).2.2,
    fun t j => flag_border_TV m a t j⟩

theorem foldl_flag_border_sameTV : ∀ (W : List triangle_tetrahedron_tuple) (m : Mesh),
    (W.foldl Border_Checker.flag_border m).SameTV m
  | [], m => sameTV_refl m
  | a :: W, m => by
    rw [List.foldl_cons]
    exact sameTV_trans _ _ _ (foldl_flag_border_sameTV W _) (flag_border_sameTV m a)

theorem flag_border_find (m m' : Mesh) (h : m'.SameTV m) (a : triangle_tetrahedron_tuple) :
    (List.finRange 4).find? (fun v => a.has_not ((m'.get_tetrahedron a.t).TV v)) =
      (List.finRange 4).find? (fun v => a.has_not ((m.get_tetrahedron a.t).TV v)) := by
  congr 1
  funext v
  rw [h.2.2.2]

theorem settled_fixed (m : Mesh) (a : triangle_tetrahedron_tuple)
    (h : Border_Checker.Settled m a) : Border_Checker.flag_border m a = m := by
  obtain ⟨f1, f2, f3⟩ := flag_border_frame m a
  apply mesh_ext_tetrahedra _ _ f1 f2 f3
  intro t _
  apply tetrahedron_ext
  intro q
  rw [flag_border_vertices]
  split_ifs with hc
  · have e : m.get_tetrahedron t = m.get_tetrahedron a.t := by
      simp only [Mesh.get_tetrahedron, hc.1]
    have := h q hc.2.2 hc.2.1
    rw [e]
    unfold Tetrahedron.TV
    omega
  · rfl

theorem flag_border_settles (m : Mesh) (a : triangle_tetrahedron_tuple) :
    Border_Checker.Settled (Border_Checker.flag_border m a) a := by
  intro v hv hi
  rw [flag_border_find m _ (flag_border_sameTV m a)] at hv
  rw [(flag_border_frame m a).2.2] at hi
  rw [flag_border_vertices, if_pos ⟨rfl, hi, hv⟩]
  omega

theorem settled_flag_border (m : Mesh) (a b : triangle_tetrahedron_tuple)
    (h : Border_Checker.Settled m a) :
    Border_Checker.Settled (Border_Checker.flag_border m b) a := by
  intro v hv hi
  rw [flag_border_find m _ (flag_border_sameTV m b)] at hv
  rw [(flag_border_frame m b).2.2] at hi
  rw [flag_border_vertices]
  split_ifs with hc
  · omega
  · exact h v hv hi

theorem settled_foldl (a : triangle_tetrahedron_tuple) :
    ∀ (W : List triangle_tetrahedron_tuple) (m : Mesh), Border_Checker.Settled m a →
      Border_Checker.Settled (W.foldl Border_Checker.flag_border m) a
  | [], _, h => h
  | b :: W, m, h => by
    rw [List.foldl_cons]
    exact settled_foldl a W _ (settled_flag_border m a b h)

theorem foldl_flag_border_settles : ∀ (W : List triangle_tetrahedron_tuple) (m : Mesh),
    ∀ a ∈ W, Border_Checker.Settled (W.foldl Border_Checker.flag_border m) a
  | [], _, a, ha => by simp at ha
  | b :: W, m, a, ha => by
    rw [List.foldl_cons]
    rcases List.mem_cons.mp ha with e | hin
    · subst e
      exact settled_foldl a W _ (flag_border_settles m a)
    · exact foldl_flag_border_settles W _ a hin

theorem foldl_flag_border_fixed : ∀ (W : List triangle_tetrahedron_tuple) (m : Mesh),
    (∀ a ∈ W, Border_Checker.Settled m a) → W.foldl Border_Checker.flag_border m = m
  | [], _, _ => rfl
  | b :: W, m, h => by
    rw [List.foldl_cons, settled_fixed m b (h b (by simp))]
    exact foldl_flag_border_fixed W m (fun a ha => h a (List.mem_cons_of_mem _ ha))

theorem foldl_flag_border_idem (W : List triangle_tetrahedron_tuple) (m : Mesh) :
    W.foldl Border_Checker.flag_border (W.foldl Border_Checker.flag_border m) =
      W.foldl Border_Checker.flag_border m :=
  foldl_flag_border_fixed W _ (foldl_flag_border_settles W m)

theorem foldl_border_step_singles :
    ∀ (L : List (triangle_tetrahedron_tuple × Option triangle_tetrahedron_tuple)) (m : Mesh),
      L.foldl border_step m =
        (L.filterMap (fun e => match e.2 with
          | none => some e.1
          | some _ => none)).foldl Border_Checker.flag_border m
  | [], _ => rfl
  | (a, none) :: L, m => by
    simp only [List.foldl_cons, List.filterMap_cons, border_step]
    exact foldl_border_step_singles L _
  | (a, some b) :: L, m => by
    simp only [List.foldl_cons, List.filterMap_cons, border_step]
    exact foldl_border_step_singles L _

theorem set_mesh_borders_writes
    (sort : List triangle_tetrahedron_tuple → List triangle_tetrahedron_tuple)
    (fs : List triangle_tetrahedron_tuple) (m : Mesh) :
    Border_Checker.set_mesh_borders sort fs m =
      (border_singles (sort fs)).foldl Border_Checker.flag_border m := by
  unfold Border_Checker.set_mesh_borders border_singles
  rw [set_mesh_borders_loop_eq, foldl_border_step_singles]

theorem border_entries_writes
    (sort : List triangle_tetrahedron_tuple → List triangle_tetrahedron_tuple) :
    ∀ (E : List (List triangle_tetrahedron_tuple)) (m : Mesh),
      E.foldl (fun m fs =>
          if fs.length > 0 then Border_Checker.set_mesh_borders sort fs m else m) m =
        (border_writes sort E).foldl Border_Checker.flag_border m
  | [], _ => rfl
  | fs :: E, m => by
    unfold border_writes
    rw [List.foldl_cons, List.flatMap_cons, List.foldl_append]
    have := border_entries_writes sort E
    unfold border_writes at this
    rw [this]
    congr 1
    split_ifs with h
    · exact set_mesh_borders_writes sort fs m
    · rfl

theorem calc_mesh_borders_add_congr (mesh m : Mesh) (hm : m.SameTV mesh) (dom : Box) (t : Nat)
    (af : StdMap (List triangle_tetrahedron_tuple)) (j : Fin 4) :
    Border_Checker.calc_mesh_borders_add m dom t af j =
      Border_Checker.calc_mesh_borders_add mesh dom t af j := by
  rw [calc_mesh_borders_add_eq, calc_mesh_borders_add_eq]
  have e1 : m.get_vertex ((m.get_tetrahedron t).TV j) =
      mesh.get_vertex ((mesh.get_tetrahedron t).TV j) := by
    rw [hm.2.2.2 t j]
    simp only [Mesh.get_vertex, hm.2.1]
  rw [e1, hm.1, hm.2.2.2 t j,
    get_incident_triangles_congr (m.get_tetrahedron t) (mesh.get_tetrahedron t)
      (fun k => hm.2.2.2 t k)]

theorem calc_mesh_borders_add_V_congr (mesh m : Mesh) (hm : m.SameTV mesh) (v_start v_end : Int)
    (t : Nat) (af : List (List triangle_tetrahedron_tuple)) (j : Fin 4) :
    Border_Checker.calc_mesh_borders_add_V m v_start v_end t af j =
      Border_Checker.calc_mesh_borders_add_V mesh v_start v_end t af j := by
  unfold Border_Checker.calc_mesh_borders_add_V
  simp only []
  rw [hm.2.2.2 t j,
    get_incident_triangles_congr (m.get_tetrahedron t) (mesh.get_tetrahedron t)
      (fun k => hm.2.2.2 t k)]

theorem calc_mesh_borders_leaf_writes (mesh : Mesh)
    (sort : List triangle_tetrahedron_tuple → List triangle_tetrahedron_tuple) (fuel : Nat) :
    Border_Checker.WriteLeaf mesh
      (fun _ ts dom m => Border_Checker.calc_mesh_borders_leaf sort fuel ts dom m) := by
  intro vs ts dom
  cases hc : run_iterator.collect ts fuel with
  | none =>
    refine ⟨none, fun m _ => ?_⟩
    simp only [Border_Checker.calc_mesh_borders_leaf, hc, Option.map_none']
  | some ids =>
    refine ⟨some (border_writes sort ((ids.foldl (fun af tet_id =>
      (List.finRange 4).foldl (Border_Checker.calc_mesh_borders_add mesh dom tet_id.toNat) af)
      []).map Prod.snd)), fun m hm => ?_⟩
    have e : (fun (af : StdMap (List triangle_tetrahedron_tuple)) (tet_id : Int) =>
        (List.finRange 4).foldl (Border_Checker.calc_mesh_borders_add m dom tet_id.toNat) af) =
        (fun af tet_id =>
        (List.finRange 4).foldl (Border_Checker.calc_mesh_borders_add mesh dom tet_id.toNat)
          af) := by
      funext af tet_id
      congr 1
      funext af j
      exact calc_mesh_borders_add_congr mesh m hm dom _ af j
    simp only [Border_Checker.calc_mesh_borders_leaf, hc, Option.map_some', e]
    rw [← border_entries_writes, List.foldl_map]

theorem calc_mesh_borders_leaf_V_writes (mesh : Mesh)
    (sort : List triangle_tetrahedron_tuple → List triangle_tetrahedron_tuple) (fuel : Nat) :
    Border_Checker.WriteLeaf mesh
      (fun vs ts _ m => Border_Checker.calc_mesh_borders_leaf_V sort fuel vs ts m) := by
  intro vs ts dom
  match vs with
  | [] => exact ⟨some [], fun m _ => rfl⟩
  | [_] => exact ⟨none, fun m _ => rfl⟩
  | a :: b :: rest =>
    by_cases hneg : |a| + b + 1 - |a| < 0
    · refine ⟨none, fun m _ => ?_⟩
      simp only [Border_Checker.calc_mesh_borders_leaf_V, hneg, if_true, Option.map_none']
    · cases hc : run_iterator.collect ts fuel with
      | none =>
        refine ⟨none, fun m _ => ?_⟩
        simp only [Border_Checker.calc_mesh_borders_leaf_V, hneg, if_false, hc,
          Option.map_none']
      | some ids =>
        refine ⟨some (border_writes sort (ids.foldl (fun af tet_id =>
          (List.finRange 4).foldl
            (Border_Checker.calc_mesh_borders_add_V mesh |a| (|a| + b + 1) tet_id.toNat) af)
          (List.replicate (|a| + b + 1 - |a|).toNat []))), fun m hm => ?_⟩
        have e : (fun (af : List (List triangle_tetrahedron_tuple)) (tet_id : Int) =>
            (List.finRange 4).foldl
              (Border_Checker.calc_mesh_borders_add_V m |a| (|a| + b + 1) tet_id.toNat) af) =
            (fun af tet_id =>
            (List.finRange 4).foldl
              (Border_Checker.calc_mesh_borders_add_V mesh |a| (|a| + b + 1) tet_id.toNat)
              af) := by
          funext af tet_id
          congr 1
          funext af j
          exact calc_mesh_borders_add_V_congr mesh m hm _ _ _ af j
        simp only [Border_Checker.calc_mesh_borders_leaf_V, hneg, if_false, hc,
          Option.map_some', e]
        rw [← border_entries_writes]

mutual
/-- The visit of a tree with a leaf procedure that flags the tetrahedra of a
list of tuples flags the tetrahedra of one list of tuples. -/
theorem visit_writes (d : Subdivision) (mesh : Mesh)
    (leaf_fn : List Int → List Int → Box → Mesh → Option Mesh)
    (hleaf : Border_Checker.WriteLeaf mesh leaf_fn) :
    ∀ (n : RawNode) (dom : Box) (level : Nat),
      ∃ oW : Option (List triangle_tetrahedron_tuple), ∀ m : Mesh, m.SameTV mesh →
        RawNode.visit d id (fun _ => false) leaf_fn n dom level m =
          oW.map (fun W => W.foldl Border_Checker.flag_border m)
  | RawNode.leaf vs ts, dom, level => by
    obtain ⟨oW, h⟩ := hleaf vs ts dom
    refine ⟨oW, fun m hm => ?_⟩
    simp only [RawNode.visit, Bool.false_eq_true, if_false, id]
    exact h m hm
  | RawNode.internal sons, dom, level => by
    obtain ⟨oW, h⟩ := visitSons_writes d mesh leaf_fn hleaf sons dom level 0
    refine ⟨oW, fun m hm => ?_⟩
    simp only [RawNode.visit, Bool.false_eq_true, if_false, id]
    exact h m hm
theorem visitSons_writes (d : Subdivision) (mesh : Mesh)
    (leaf_fn : List Int → List Int → Box → Mesh → Option Mesh)
    (hleaf : Border_Checker.WriteLeaf mesh leaf_fn) :
    ∀ (sons : List RawNode) (dom : Box) (level i : Nat),
      ∃ oW : Option (List triangle_tetrahedron_tuple), ∀ m : Mesh, m.SameTV mesh →
        RawNode.visitSons d id (fun _ => false) leaf_fn sons dom level i m =
          oW.map (fun W => W.foldl Border_Checker.flag_border m)
  | [], _, _, _ => ⟨some [], fun _ _ => rfl⟩
  | n :: rest, dom, level, i => by
    obtain ⟨o1, h1⟩ := visit_writes d mesh leaf_fn hleaf n (d.compute_domain dom level i)
      (level + 1)
    obtain ⟨o2, h2⟩ := visitSons_writes d mesh leaf_fn hleaf rest dom level (i + 1)
    refine ⟨o1.bind (fun W1 => o2.map (fun W2 => W1 ++ W2)), fun m hm => ?_⟩
    simp only [RawNode.visitSons]
    rw [h1 m hm]
    cases o1 with
    | none => rfl
    | some W1 =>
      simp only [Option.map_some', Option.some_bind]
      rw [h2 _ (sameTV_trans _ _ _ (foldl_flag_border_sameTV W1 m) hm)]
      cases o2 with
      | none => rfl
      | some W2 => simp only [Option.map_some', List.foldl_append]
end

theorem visit_writes_idempotent (d : Subdivision) (mesh : Mesh)
    (leaf_fn : List Int → List Int → Box → Mesh → Option Mesh)
    (hleaf : Border_Checker.WriteLeaf mesh leaf_fn) (n : RawNode) (dom : Box) (level : Nat)
    (m1 : Mesh)
    (h : RawNode.visit d id (fun _ => false) leaf_fn n dom level mesh = some m1) :
    RawNode.visit d id (fun _ => false) leaf_fn n dom level m1 = some m1 := by
  obtain ⟨oW, hW⟩ := visit_writes d mesh leaf_fn hleaf n dom level
  rw [hW mesh (sameTV_refl mesh)] at h
  cases oW with
  | none => simp at h
  | some W =>
    simp only [Option.map_some', Option.some.injEq] at h
    subst h
    rw [hW _ (foldl_flag_border_sameTV W mesh)]
    simp only [Option.map_some', foldl_flag_border_idem]

/-- C21: `Border_Checker::calc_mesh_borders` is idempotent. For every tree,
mesh and starting box, when the visit of the tree returns the mesh `m1`, the
visit run again on `m1` returns `m1`: every tetrahedron keeps its four signed
vertex indices. This holds of the procedure for the trees whose leaves test
the vertices against their box (`calc_mesh_borders`) and of the procedure for
the trees whose leaves hold a vertex range (`calc_mesh_borders_V`). -/
theorem C21_calc_mesh_borders_idempotent (d : Subdivision)
    (sort : List triangle_tetrahedron_tuple → List triangle_tetrahedron_tuple) (fuel : Nat)
    (n : RawNode) (dom : Box) (level : Nat) (mesh : Mesh) :
    (∀ m1, Border_Checker.calc_mesh_borders d sort fuel n dom level mesh = some m1 →
      Border_Checker.calc_mesh_borders d sort fuel n dom level m1 = some m1 ∧
        ∀ m2, Border_Checker.calc_mesh_borders d sort fuel n dom level m1 = some m2 →
          ∀ t j, (m2.get_tetrahedron t).vertices j = (m1.get_tetrahedron t).vertices j) ∧
    (∀ m1, Border_Checker.calc_mesh_borders_V d sort fuel n dom level mesh = some m1 →
      Border_Checker.calc_mesh_borders_V d sort fuel n dom level m1 = some m1 ∧
        ∀ m2, Border_Checker.calc_mesh_borders_V d sort fuel n dom level m1 = some m2 →
          ∀ t j, (m2.get_tetrahedron t).vertices j = (m1.get_tetrahedron t).vertices j) := by
  constructor
  · intro m1 h
    have h2 := visit_writes_idempotent d mesh _ (calc_mesh_borders_leaf_writes mesh sort fuel)
      n dom level m1 h
    refine ⟨h2, fun m2 h3 t j => ?_⟩
    have e : m2 = m1 := Option.some.inj (h3.symm.trans h2)
    rw [e]
  · intro m1 h
    have h2 := visit_writes_idempotent d mesh _
      (calc_mesh_borders_leaf_V_writes mesh sort fuel) n dom level m1 h
    refine ⟨h2, fun m2 h3 t j => ?_⟩
    have e : m2 = m1 := Option.some.inj (h3.symm.trans h2)
    rw [e]

/-- C21 on the flat-tetrahedron mesh, its two tetrahedra listed as the run
`[-1, 1]` in one leaf: the first run returns a mesh in which the first
tetrahedron is flagged at position `0`, and the second run returns that mesh. -/
theorem C21_calc_mesh_borders_idempotent_witness :
    ∃ m1, Border_Checker.calc_mesh_borders Subdivision.OK insertion_sort_faces 3
        (RawNode.leaf [] [-1, 1]) Examples.flatMesh.domain 0 Examples.flatMesh = some m1 ∧
      (m1.get_tetrahedron 1).vertices 0 < 0 ∧
      Border_Checker.calc_mesh_borders Subdivision.OK insertion_sort_faces 3
        (RawNode.leaf [] [-1, 1]) Examples.flatMesh.domain 0 m1 = some m1 := by
  have hx : (Border_Checker.calc_mesh_borders Subdivision.OK insertion_sort_faces 3
      (RawNode.leaf [] [-1, 1]) Examples.flatMesh.domain 0 Examples.flatMesh).map
      (fun m => decide ((m.get_tetrahedron 1).vertices 0 < 0)) = some true := by decide!
  cases h : Border_Checker.calc_mesh_borders Subdivision.OK insertion_sort_faces 3
      (RawNode.leaf [] [-1, 1]) Examples.flatMesh.domain 0 Examples.flatMesh with
  | none => rw [h] at hx; simp at hx
  | some m1 =>
    rw [h] at hx
    refine ⟨m1, rfl, by simpa using hx, ?_⟩
    exact ((C21_calc_mesh_borders_idempotent Subdivision.OK insertion_sort_faces 3
      (RawNode.leaf [] [-1, 1]) Examples.flatMesh.domain 0 Examples.flatMesh).1 m1 h).1

/-! ## Windowed distortion -/

/-- C22, as stated, fails. On the cube mesh (S1), its twelve tetrahedra listed
in one leaf as the run `[-1, 11]`, the borders set by `calc_mesh_borders`, the
query box being the domain, with every 4D trihedral angle `1` and every 3D
trihedral angle `2`: no tetrahedron has a border face through the centre
(vertex `9`), and `windowed_Distortion_no_reindex` reports for it
`-12 + 12 * 2 = 12`, the negate-and-add-3D-angles recomputation, not
`4 * PI - 12`; the corner `1`, which has border faces through it, is reported
with `4 * PI - 3`, not with `-3 + 3 * 2`. The procedure for the leaves of the
reindexed trees (`windowed_Distortion_T`) reports `4 * PI - 12` and `3`. -/
theorem C22_counterexample_cube_centre :
    ∃ m dist distT,
      Border_Checker.calc_mesh_borders Subdivision.OK insertion_sort_faces 13
        (RawNode.leaf [] [-1, 11]) Examples.cubeMesh.domain 0 Examples.cubeMesh = some m ∧
      Topological_Queries.windowed_Distortion_no_reindex Subdivision.OK Examples.unitAngles m
        Examples.cubeMesh.domain 13 (RawNode.leaf [] [-1, 11]) Examples.cubeMesh.domain 0 []
        = some dist ∧
      Topological_Queries.windowed_Distortion_T Subdivision.OK Examples.unitAngles m
        Examples.cubeMesh.domain 13 (RawNode.leaf [] [-1, 11]) Examples.cubeMesh.domain 0 []
        = some distT ∧
      (List.range' 1 12).all (fun t => (List.finRange 4).all (fun p =>
        (m.get_tetrahedron t).TV p != 9 || !([1, 2, 3].any (fun j =>
          (m.get_tetrahedron t).is_border_face (Fin.ofNat (j + p.val)))))) = true ∧
      (m.get_tetrahedron 1).TV 0 = 1 ∧ (m.get_tetrahedron 1).is_border_face 3 = true ∧
      StdMap.find dist 9 = some 12 ∧ (12 : ℚ) ≠ 4 * PI - 12 ∧
      StdMap.find dist 1 = some (4 * PI - 3) ∧ 4 * PI - 3 ≠ -3 + 3 * 2 ∧
      StdMap.find distT 9 = some (4 * PI - 12) ∧ StdMap.find distT 1 = some (-3 + 3 * 2) := by
  have hx : (Border_Checker.calc_mesh_borders Subdivision.OK insertion_sort_faces 13
      (RawNode.leaf [] [-1, 11]) Examples.cubeMesh.domain 0 Examples.cubeMesh).bind (fun m =>
      (Topological_Queries.windowed_Distortion_no_reindex Subdivision.OK Examples.unitAngles m
        Examples.cubeMesh.domain 13 (RawNode.leaf [] [-1, 11]) Examples.cubeMesh.domain 0
        []).bind (fun dist =>
      (Topological_Queries.windowed_Distortion_T Subdivision.OK Examples.unitAngles m
        Examples.cubeMesh.domain 13 (RawNode.leaf [] [-1, 11]) Examples.cubeMesh.domain 0
        []).map (fun distT =>
        (List.range' 1 12).all (fun t => (List.finRange 4).all (fun p =>
          (m.get_tetrahedron t).TV p != 9 || !([1, 2, 3].any (fun j =>
            (m.get_tetrahedron t).is_border_face (Fin.ofNat (j + p.val)))))) &&
          decide ((m.get_tetrahedron 1).TV 0 = 1) && (m.get_tetrahedron 1).is_border_face 3 &&
          decide (StdMap.find dist 9 = some 12) &&
          decide (StdMap.find dist 1 = some (4 * PI - 3)) &&
          decide (StdMap.find distT 9 = some (4 * PI - 12)) &&
          decide (StdMap.find distT 1 = some (-3 + 3 * 2)))))
      = some true := by
    decide!
  cases h1 : Border_Checker.calc_mesh_borders Subdivision.OK insertion_sort_faces 13
      (RawNode.leaf [] [-1, 11]) Examples.cubeMesh.domain 0 Examples.cubeMesh with
  | none => rw [h1] at hx; simp at hx
  | some m =>
    rw [h1] at hx
    simp only [Option.some_bind] at hx
    cases h2 : Topological_Queries.windowed_Distortion_no_reindex Subdivision.OK
        Examples.unitAngles m Examples.cubeMesh.domain 13 (RawNode.leaf [] [-1, 11])
        Examples.cubeMesh.domain 0 [] with
    | none => rw [h2] at hx; simp at hx
    | some dist =>
      rw [h2] at hx
      simp only [Option.some_bind] at hx
      cases h3 : Topological_Queries.windowed_Distortion_T Subdivision.OK
          Examples.unitAngles m Examples.cubeMesh.domain 13 (RawNode.leaf [] [-1, 11])
          Examples.cubeMesh.domain 0 [] with
      | none => rw [h3] at hx; simp at hx
      | some distT =>
        rw [h3] at hx
        simp only [Option.map_some', Option.some.injEq, Bool.and_eq_true,
          decide_eq_true_eq] at hx
        obtain ⟨⟨⟨⟨⟨⟨a1, a2⟩, a3⟩, a4⟩, a5⟩, a6⟩, a7⟩ := hx
        exact ⟨m, dist, distT, rfl, h2, h3, a1, a2, a3, a4, by decide!, a5, by decide!,
          a6, a7⟩

theorem windowed_Distortion_step_V_isVBorder (G : Geometry_Distortion) (mesh : Mesh) (b : Box)
    (v_start v_end : Int) (tet_id : Nat) (s : Topological_Queries.DistortionArrays)
    (v : Fin 4) :
    (Topological_Queries.windowed_Distortion_step_V G mesh b v_start v_end tet_id s v).isVBorder
      = s.isVBorder := by
  have hany : ∀ tet : Tetrahedron, [1, 2, 3].any (fun j =>
      decide (((tet.is_border_face (Fin.ofNat (j + v.val))).toNat : Int) < 0)) = false := by
    intro tet
    simp only [List.any_cons, List.any_nil, Bool.or_false, Bool.or_eq_false_iff,
      decide_eq_false_iff_not, not_lt]
    refine ⟨?_, ?_, ?_⟩ <;> exact Int.ofNat_nonneg _
  unfold Topological_Queries.windowed_Distortion_step_V
  simp only [hany, Bool.false_eq_true, if_false]
  split_ifs <;> rfl

theorem windowed_Distortion_loop_V_isVBorder (G : Geometry_Distortion) (mesh : Mesh) (b : Box)
    (v_start v_end : Int) :
    ∀ (ids : List Int) (s : Topological_Queries.DistortionArrays),
      (ids.foldl (fun s tet_id =>
        (List.finRange 4).foldl
          (Topological_Queries.windowed_Distortion_step_V G mesh b v_start v_end tet_id.toNat)
          s) s).isVBorder = s.isVBorder
  | [], _ => rfl
  | t :: ids, s => by
    rw [List.foldl_cons, windowed_Distortion_loop_V_isVBorder G mesh b v_start v_end ids]
    simp only [finRange_four, List.foldl_cons, List.foldl_nil,
      windowed_Distortion_step_V_isVBorder]

theorem finalize_Distortion_Leaf_interior (G G' : Geometry_Distortion) (v_start : Int)
    (s : Topological_Queries.DistortionArrays) (mesh : Mesh) (dist : StdMap ℚ)
    (h : ∀ i, s.isVBorder.getD i false = false) :
    Topological_Queries.finalize_Distortion_Leaf G v_start s mesh dist =
      Topological_Queries.finalize_Distortion_Leaf G' v_start s mesh dist := by
  unfold Topological_Queries.finalize_Distortion_Leaf
  simp only [h, Bool.false_eq_true, if_false]

theorem windowed_Distortion_Leaf_V_interior (a4 a3 a3' : Tetrahedron → Nat → Mesh → ℚ)
    (mesh : Mesh) (b : Box) (fuel : Nat) (v_array t_array : List Int) (dist : StdMap ℚ) :
    Topological_Queries.windowed_Distortion_Leaf_V ⟨a4, a3⟩ mesh b fuel v_array t_array dist =
      Topological_Queries.windowed_Distortion_Leaf_V ⟨a4, a3'⟩ mesh b fuel v_array t_array
        dist := by
  match v_array with
  | [] => rfl
  | [_] => rfl
  | x :: y :: rest =>
    unfold Topological_Queries.windowed_Distortion_Leaf_V
    simp only []
    split_ifs with hneg
    · rfl
    · cases hc : run_iterator.collect t_array fuel with
      | none => rfl
      | some ids =>
        simp only []
        congr 1
        have hs : (fun (s : Topological_Queries.DistortionArrays) (tet_id : Int) =>
            (List.finRange 4).foldl
              (Topological_Queries.windowed_Distortion_step_V ⟨a4, a3⟩ mesh b |x| (|x| + y + 1)
                tet_id.toNat) s) =
            (fun s tet_id =>
            (List.finRange 4).foldl
              (Topological_Queries.windowed_Distortion_step_V ⟨a4, a3'⟩ mesh b |x|
                (|x| + y + 1) tet_id.toNat) s) := rfl
        rw [hs]
        apply finalize_Distortion_Leaf_interior
        intro i
        rw [windowed_Distortion_loop_V_isVBorder]
        simp only [Topological_Queries.DistortionArrays.init, List.getD_eq_getElem?_getD,
          List.getElem?_replicate]
        split_ifs <;> rfl

/-- C23, as stated, fails. On the flat-tetrahedron mesh, the borders set by
`calc_mesh_borders`, the query box being the domain, with every 4D trihedral
angle `1` and every 3D trihedral angle `2`: vertex `1` is in the range `1 … 5`
of the leaf `[-1, 4]`, it is at position `0` of tetrahedron `1`, whose position
`2` is a border face; `windowed_Distortion_Leaf` for `Node_V` reports for it
`4 * PI - 2`, the value of an interior vertex, whereas the `Node_T` variant
reports `-2 + 2 * 2`. -/
theorem C23_counterexample_border_vertex_as_interior :
    ∃ m distV distT,
      Border_Checker.calc_mesh_borders Subdivision.OK insertion_sort_faces 3
        (RawNode.leaf [] [-1, 1]) Examples.flatMesh.domain 0 Examples.flatMesh = some m ∧
      Topological_Queries.windowed_Distortion_V Subdivision.OK Examples.unitAngles m
        Examples.flatMesh.domain 3 (RawNode.leaf [-1, 4] [-1, 1]) Examples.flatMesh.domain 0 []
        = some distV ∧
      Topological_Queries.windowed_Distortion_T Subdivision.OK Examples.unitAngles m
        Examples.flatMesh.domain 3 (RawNode.leaf [] [-1, 1]) Examples.flatMesh.domain 0 []
        = some distT ∧
      (m.get_tetrahedron 1).TV 0 = 1 ∧ (m.get_tetrahedron 1).is_border_face 2 = true ∧
      Examples.flatMesh.domain.contains_with_all_closed_faces (m.get_vertex 1).toPoint = true ∧
      StdMap.find distV 1 = some (4 * PI - 2) ∧ StdMap.find distT 1 = some (-2 + 2 * 2) ∧
      4 * PI - 2 ≠ -2 + 2 * 2 := by
  have hx : (Border_Checker.calc_mesh_borders Subdivision.OK insertion_sort_faces 3
      (RawNode.leaf [] [-1, 1]) Examples.flatMesh.domain 0 Examples.flatMesh).bind (fun m =>
      (Topological_Queries.windowed_Distortion_V Subdivision.OK Examples.unitAngles m
        Examples.flatMesh.domain 3 (RawNode.leaf [-1, 4] [-1, 1]) Examples.flatMesh.domain 0
        []).bind (fun distV =>
      (Topological_Queries.windowed_Distortion_T Subdivision.OK Examples.unitAngles m
        Examples.flatMesh.domain 3 (RawNode.leaf [] [-1, 1]) Examples.flatMesh.domain 0
        []).map (fun distT =>
        decide ((m.get_tetrahedron 1).TV 0 = 1) && (m.get_tetrahedron 1).is_border_face 2 &&
          Examples.flatMesh.domain.contains_with_all_closed_faces (m.get_vertex 1).toPoint &&
          decide (StdMap.find distV 1 = some (4 * PI - 2)) &&
          decide (StdMap.find distT 1 = some (-2 + 2 * 2)))))
      = some true := by
    decide!
  cases h1 : Border_Checker.calc_mesh_borders Subdivision.OK insertion_sort_faces 3
      (RawNode.leaf [] [-1, 1]) Examples.flatMesh.domain 0 Examples.flatMesh with
  | none => rw [h1] at hx; simp at hx
  | some m =>
    rw [h1] at hx
    simp only [Option.some_bind] at hx
    cases h2 : Topological_Queries.windowed_Distortion_V Subdivision.OK
        Examples.unitAngles m Examples.flatMesh.domain 3 (RawNode.leaf [-1, 4] [-1, 1])
        Examples.flatMesh.domain 0 [] with
    | none => rw [h2] at hx; simp at hx
    | some distV =>
      rw [h2] at hx
      simp only [Option.some_bind] at hx
      cases h3 : Topological_Queries.windowed_Distortion_T Subdivision.OK
          Examples.unitAngles m Examples.flatMesh.domain 3 (RawNode.leaf [] [-1, 1])
          Examples.flatMesh.domain 0 [] with
      | none => rw [h3] at hx; simp at hx
      | some distT =>
        rw [h3] at hx
        simp only [Option.map_some', Option.some.injEq, Bool.and_eq_true,
          decide_eq_true_eq] at hx
        obtain ⟨⟨⟨⟨a1, a2⟩, a3⟩, a4⟩, a5⟩ := hx
        exact ⟨m, distV, distT, rfl, h2, h3, a1, a2, a3, a4, a5, by decide!⟩

/-- C23 (what the code does): the test `tet.is_border_face(…) < 0` of
`windowed_Distortion_Leaf` for `Node_V` compares a `bool` with `0` and never
holds, so no vertex is classified as boundary: whatever the tree, the mesh and
the box, the result of `windowed_Distortion` for `Node_V` does not depend on
the 3D trihedral angle, which only the boundary recomputation reads. -/
theorem C23_windowed_Distortion_V_never_boundary (d : Subdivision)
    (a4 a3 a3' : Tetrahedron → Nat → Mesh → ℚ) (mesh : Mesh) (b : Box) (fuel : Nat)
    (n : RawNode) (dom : Box) (level : Nat) (dist : StdMap ℚ) :
    Topological_Queries.windowed_Distortion_V d ⟨a4, a3⟩ mesh b fuel n dom level dist =
      Topological_Queries.windowed_Distortion_V d ⟨a4, a3'⟩ mesh b fuel n dom level dist := by
  unfold Topological_Queries.windowed_Distortion_V
  have e : (fun (vs ts : List Int) (_ : Box) (dist : StdMap ℚ) =>
      Topological_Queries.windowed_Distortion_Leaf_V ⟨a4, a3⟩ mesh b fuel vs ts dist) =
      (fun vs ts _ dist =>
      Topological_Queries.windowed_Distortion_Leaf_V ⟨a4, a3'⟩ mesh b fuel vs ts dist) := by
    funext vs ts _ dist
    exact windowed_Distortion_Leaf_V_interior a4 a3 a3' mesh b fuel vs ts dist
  rw [e]

/-! ## `Reindexer::update_mesh_vertices` -/

theorem place_all_length {α : Type} : ∀ (pairs : List (Int × α)) (newOrder : List α),
    (Reindexer.place_all pairs newOrder).length = newOrder.length
  | [], _ => rfl
  | p :: pairs, newOrder => by
    unfold Reindexer.place_all
    rw [List.foldl_cons]
    have := place_all_length pairs (newOrder.set (p.1 - 1).toNat p.2)
    unfold Reindexer.place_all at this
    rw [this, List.length_set]

theorem place_all_other {α : Type} : ∀ (pairs : List (Int × α)) (newOrder : List α) (c : Int),
    1 ≤ c → (∀ p ∈ pairs, 1 ≤ p.1 ∧ p.1 ≠ c) →
    (Reindexer.place_all pairs newOrder)[(c - 1).toNat]? = newOrder[(c - 1).toNat]?
  | [], _, _, _, _ => rfl
  | p :: pairs, newOrder, c, hc, h => by
    unfold Reindexer.place_all
    rw [List.foldl_cons]
    have := place_all_other pairs (newOrder.set (p.1 - 1).toNat p.2) c hc
      (fun q hq => h q (List.mem_cons_of_mem _ hq))
    unfold Reindexer.place_all at this
    rw [this]
    have hp := h p (by simp)
    have hne : (p.1 - 1).toNat ≠ (c - 1).toNat := by omega
    exact List.getElem?_set_ne hne

theorem place_all_get {α : Type} : ∀ (pairs : List (Int × α)) (newOrder : List α),
    (pairs.map Prod.fst).Nodup → (∀ p ∈ pairs, 1 ≤ p.1 ∧ p.1 ≤ newOrder.length) →
    ∀ p ∈ pairs, (Reindexer.place_all pairs newOrder)[(p.1 - 1).toNat]? = some p.2
  | [], _, _, _, p, hp => by simp at hp
  | q :: pairs, newOrder, hnd, hr, p, hp => by
    have hnd' : q.1 ∉ pairs.map Prod.fst ∧ (pairs.map Prod.fst).Nodup := by
      rw [List.map_cons] at hnd
      exact List.nodup_cons.mp hnd
    have e : Reindexer.place_all (q :: pairs) newOrder =
        Reindexer.place_all pairs (newOrder.set (q.1 - 1).toNat q.2) := rfl
    rw [e]
    rcases List.mem_cons.mp hp with h | h
    · subst h
      rw [place_all_other pairs _ p.1 (hr p (by simp)).1]
      · have h2 := (hr p (by simp))
        have : (p.1 - 1).toNat < newOrder.length := by omega
        rw [List.getElem?_set_self this]
      · intro r hrm
        refine ⟨(hr r (List.mem_cons_of_mem _ hrm)).1, fun e1 => hnd'.1 ?_⟩
        have := List.mem_map_of_mem Prod.fst hrm
        rw [e1] at this
        exact this
    · exact place_all_get pairs _ hnd'.2
        (fun r hrm => by
          have := hr r (List.mem_cons_of_mem _ hrm)
          rw [List.length_set]; exact this) p h

theorem reorder_eq {α : Type} (ci : List Int) :
    ∀ (old : List α) (pre suf : List Int) (newOrder : List α),
      ci = pre ++ suf → old.length = suf.length →
      (∀ c ∈ suf, 1 ≤ c ∧ c ≤ (newOrder.length : Int)) →
      Reindexer.reorder ci old (pre.length + 1) newOrder =
        some (Reindexer.place_all (suf.zip old) newOrder)
  | [], _, suf, newOrder, _, hl, _ => by
    have : suf = [] := List.length_eq_zero.mp hl.symm
    subst this
    rfl
  | x :: old, pre, [], newOrder, _, hl, _ => by simp at hl
  | x :: old, pre, c :: suf, newOrder, hci, hl, hr => by
    have hat : Reindexer.coherent_at ci ((pre.length + 1 : Nat) : Int) = some c := by
      unfold Reindexer.coherent_at
      have h1 : (1 : Int) ≤ ((pre.length + 1 : Nat) : Int) := by omega
      have h2 : ((((pre.length + 1 : Nat) : Int)) - 1).toNat = pre.length := by omega
      rw [if_pos h1, h2, hci, getElem?_append_cons]
    have hc := hr c (by simp)
    rw [Reindexer.reorder, hat]
    simp only []
    rw [if_pos hc]
    have := reorder_eq ci old (pre ++ [c]) suf (newOrder.set (c - 1).toNat x)
      (by rw [hci]; simp) (by simpa using hl)
      (fun c' hc' => by
        rw [List.length_set]; exact hr c' (List.mem_cons_of_mem _ hc'))
    rw [List.length_append, List.length_singleton] at this
    rw [this]
    rfl

theorem mem_zip_index {α : Type} : ∀ (suf : List Int) (old : List α) (k : Nat) (c : Int) (x : α),
    suf[k]? = some c → old[k]? = some x → (c, x) ∈ suf.zip old
  | [], _, k, _, _, h, _ => by simp at h
  | _ :: _, [], k, _, _, _, h => by simp at h
  | c0 :: suf, x0 :: old, 0, c, x, h1, h2 => by
    simp only [List.getElem?_cons_zero, Option.some.injEq] at h1 h2
    subst h1; subst h2
    simp
  | c0 :: suf, x0 :: old, k + 1, c, x, h1, h2 => by
    simp only [List.getElem?_cons_succ] at h1 h2
    simp only [List.zip_cons_cons, List.mem_cons]
    exact Or.inr (mem_zip_index suf old k c x h1 h2)

theorem map_fst_zip_sublist {α : Type} : ∀ (suf : List Int) (old : List α),
    ((suf.zip old).map Prod.fst).Sublist suf
  | [], _ => by simp
  | c :: suf, [] => by simp
  | c :: suf, x :: old => by
    simp only [List.zip_cons_cons, List.map_cons]
    exact (map_fst_zip_sublist suf old).cons₂ c

/-- A renumbering moves the entry of every old id to its new id. -/
theorem reorder_renumbering {α : Type} (ci : List Int) (old : List α) (dflt : α)
    (h : Reindexer.IsRenumbering old.length ci) :
    ∃ r, Reindexer.reorder ci old 1 (List.replicate old.length dflt) = some r ∧
      r.length = old.length ∧
      ∀ (k : Nat) (c : Int) (x : α), ci[k]? = some c → old[k]? = some x →
        r[(c - 1).toNat]? = some x := by
  obtain ⟨hl, hr, hnd⟩ := h
  have e := reorder_eq ci old [] ci (List.replicate old.length dflt) rfl hl.symm
    (fun c hc => by simpa using hr c hc)
  refine ⟨_, e, by rw [place_all_length]; simp, ?_⟩
  intro k c x h1 h2
  have hmem := mem_zip_index ci old k c x h1 h2
  exact place_all_get (ci.zip old) _ (hnd.sublist (map_fst_zip_sublist ci old))
    (fun p hp => by
      have := hr p.1 ((map_fst_zip_sublist ci old).subset (List.mem_map_of_mem _ hp))
      simpa using this) (c, x) hmem

theorem mapAll_spec {α β : Type} (f : α → Option β) :
    ∀ (xs : List α), (∀ x ∈ xs, (f x).isSome = true) →
      ∃ ys, Reindexer.mapAll f xs = some ys ∧ ys.length = xs.length ∧
        ∀ (k : Nat) (x : α), xs[k]? = some x → ∃ y, ys[k]? = some y ∧ f x = some y
  | [], _ => ⟨[], rfl, rfl, fun k x h => by simp at h⟩
  | x :: xs, h => by
    obtain ⟨y, hy⟩ := Option.isSome_iff_exists.mp (h x (by simp))
    obtain ⟨ys, e, hl, hk⟩ := mapAll_spec f xs (fun z hz => h z (List.mem_cons_of_mem _ hz))
    refine ⟨y :: ys, by simp only [Reindexer.mapAll, hy, e], by simp [hl], ?_⟩
    intro k z hz
    cases k with
    | zero =>
      simp only [List.getElem?_cons_zero, Option.some.injEq] at hz
      subst hz
      exact ⟨y, by simp, hy⟩
    | succ k =>
      simp only [List.getElem?_cons_succ] at hz ⊢
      exact hk k z hz

theorem reindex_TV_spec (ci : List Int) (t : Tetrahedron) (c : Fin 4 → Int)
    (h : ∀ j, Reindexer.coherent_at ci (t.TV j) = some (c j)) :
    Reindexer.reindex_TV ci t = some ⟨c⟩ := by
  have hTV : ∀ (u : Tetrahedron) (i j : Fin 4) (x : Int), i ≠ j →
      (u.setTV i x).TV j = u.TV j := by
    intro u i j x hij
    simp [Tetrahedron.setTV, Tetrahedron.TV, Function.update_noteq (Ne.symm hij)]
  unfold Reindexer.reindex_TV
  simp only [finRange_four, List.foldl_cons, List.foldl_nil]
  rw [h 0]
  simp only []
  rw [hTV t 0 1 _ (by decide), h 1]
  simp only []
  rw [hTV _ 1 2 _ (by decide), hTV t 0 2 _ (by decide), h 2]
  simp only []
  rw [hTV _ 2 3 _ (by decide), hTV _ 1 3 _ (by decide), hTV t 0 3 _ (by decide), h 3]
  simp only [Option.some.injEq]
  apply tetrahedron_ext
  intro q
  fin_cases q <;> simp [Tetrahedron.setTV, Function.update]

theorem coherent_at_renumbering (n : Nat) (ci : List Int) (h : Reindexer.IsRenumbering n ci)
    (i : Nat) (h1 : 1 ≤ i) (h2 : i ≤ n) :
    ∃ c, Reindexer.coherent_at ci i = some c ∧ ci[i - 1]? = some c ∧ 1 ≤ c ∧ c ≤ (n : Int) := by
  have hi : i - 1 < ci.length := by rw [h.1]; omega
  refine ⟨ci[i - 1], ?_, List.getElem?_eq_getElem hi, h.2.1 _ (List.getElem_mem hi)⟩
  unfold Reindexer.coherent_at
  have e : ((i : Int) - 1).toNat = i - 1 := by omega
  rw [if_pos (by omega), e, List.getElem?_eq_getElem hi]

/-- C25: for every mesh whose tetrahedra hold vertex indices in `1 … |V|` and
every renumbering `coherent_indices` of `1 … |V|` (a bijection of `1 … |V|` onto
itself), `Reindexer::update_mesh_vertices` returns, keeps the domain and the
numbers of vertices and tetrahedra, stores at each position `j` of each
tetrahedron the new index of the vertex that was there, and the vertex the new
mesh stores at that new index is the vertex (coordinates and field value) the
old mesh stored at the old index. -/
theorem C25_update_mesh_vertices_preserves_geometry (coherent_indices : List Int) (mesh : Mesh)
    (hci : Reindexer.IsRenumbering mesh.get_num_vertices coherent_indices)
    (hwf : ∀ tet ∈ mesh.tetrahedra, ∀ j : Fin 4,
      1 ≤ tet.TV j ∧ tet.TV j ≤ mesh.get_num_vertices) :
    ∃ mesh', Reindexer.update_mesh_vertices coherent_indices mesh = some mesh' ∧
      mesh'.domain = mesh.domain ∧ mesh'.get_num_vertices = mesh.get_num_vertices ∧
      mesh'.get_num_tetrahedra = mesh.get_num_tetrahedra ∧
      ∀ t, 1 ≤ t → t ≤ mesh.get_num_tetrahedra → ∀ j : Fin 4,
        Reindexer.coherent_at coherent_indices ((mesh.get_tetrahedron t).TV j) =
          some ((mesh'.get_tetrahedron t).vertices j) ∧
        mesh'.get_vertex ((mesh'.get_tetrahedron t).TV j) =
          mesh.get_vertex ((mesh.get_tetrahedron t).TV j) := by
  obtain ⟨nv, e1, hl1, hnv⟩ := reorder_renumbering coherent_indices mesh.vertices
    (⟨⟨0, 0, 0⟩, 0⟩ : Vertex) hci
  have hsome : ∀ tet ∈ mesh.tetrahedra,
      (Reindexer.reindex_TV coherent_indices tet).isSome = true := by
    intro tet htet
    have hc : ∀ j, ∃ c, Reindexer.coherent_at coherent_indices (tet.TV j) = some c := by
      intro j
      obtain ⟨c, h, _⟩ := coherent_at_renumbering _ _ hci (tet.TV j) (hwf tet htet j).1
        (hwf tet htet j).2
      exact ⟨c, h⟩
    choose c hc using hc
    rw [reindex_TV_spec coherent_indices tet c hc]
    rfl
  obtain ⟨ts, e2, hl2, hts⟩ := mapAll_spec (Reindexer.reindex_TV coherent_indices)
    mesh.tetrahedra hsome
  refine ⟨{ mesh with vertices := nv, tetrahedra := ts }, ?_, rfl, hl1, hl2, ?_⟩
  · unfold Reindexer.update_mesh_vertices
    rw [show mesh.get_num_vertices = mesh.vertices.length from rfl, e1]
    simp only [e2]
  · intro t ht1 ht2 j
    have hi : t - 1 < mesh.tetrahedra.length := by
      have : mesh.get_num_tetrahedra = mesh.tetrahedra.length := rfl
      omega
    have hget : mesh.tetrahedra[t - 1]? = some (mesh.get_tetrahedron t) := by
      unfold Mesh.get_tetrahedron
      rw [List.getD_eq_getElem _ _ hi]
      exact List.getElem?_eq_getElem hi
    obtain ⟨y, hy1, hy2⟩ := hts (t - 1) _ hget
    have hmem : mesh.get_tetrahedron t ∈ mesh.tetrahedra := by
      unfold Mesh.get_tetrahedron
      rw [List.getD_eq_getElem _ _ hi]
      exact List.getElem_mem hi
    have hget' : Mesh.get_tetrahedron { mesh with vertices := nv, tetrahedra := ts } t = y := by
      unfold Mesh.get_tetrahedron
      simp only [List.getD_eq_getElem?_getD, hy1, Option.getD_some]
    rw [hget']
    have hc : ∀ j, ∃ c, Reindexer.coherent_at coherent_indices
        ((mesh.get_tetrahedron t).TV j) = some c ∧
        coherent_indices[(mesh.get_tetrahedron t).TV j - 1]? = some c ∧ 1 ≤ c ∧
        c ≤ (mesh.get_num_vertices : Int) := fun j =>
      coherent_at_renumbering _ _ hci _ (hwf _ hmem j).1 (hwf _ hmem j).2
    choose c hc using hc
    have hy : y = ⟨c⟩ := by
      have := reindex_TV_spec coherent_indices (mesh.get_tetrahedron t) c (fun j => (hc j).1)
      rw [hy2] at this
      exact Option.some.inj this
    subst hy
    refine ⟨(hc j).1, ?_⟩
    have hv : (mesh.get_tetrahedron t).TV j - 1 < mesh.vertices.length := by
      have := (hwf _ hmem j)
      have : mesh.get_num_vertices = mesh.vertices.length := rfl
      omega
    have hold : mesh.vertices[(mesh.get_tetrahedron t).TV j - 1]? =
        some (mesh.get_vertex ((mesh.get_tetrahedron t).TV j)) := by
      unfold Mesh.get_vertex
      rw [List.getD_eq_getElem _ _ hv]
      exact List.getElem?_eq_getElem hv
    have hnew := hnv _ (c j) _ (hc j).2.1 hold
    have eTV : (Tetrahedron.TV ⟨c⟩ j : Nat) - 1 = (c j - 1).toNat := by
      simp only [Tetrahedron.TV]
      have := (hc j).2.2.1
      omega
    unfold Mesh.get_vertex at hnew ⊢
    simp only [List.getD_eq_getElem?_getD, eTV, hnew, Option.getD_some]

/-- C25 on the cube mesh (S1) with the renumbering that reverses the nine
vertex ids. -/
theorem C25_update_mesh_vertices_preserves_geometry_witness :
    Reindexer.IsRenumbering Examples.cubeMesh.get_num_vertices [9, 8, 7, 6, 5, 4, 3, 2, 1] ∧
    ∃ mesh', Reindexer.update_mesh_vertices [9, 8, 7, 6, 5, 4, 3, 2, 1] Examples.cubeMesh
        = some mesh' ∧
      ∀ t, 1 ≤ t → t ≤ Examples.cubeMesh.get_num_tetrahedra → ∀ j : Fin 4,
        mesh'.get_vertex ((mesh'.get_tetrahedron t).TV j) =
          Examples.cubeMesh.get_vertex ((Examples.cubeMesh.get_tetrahedron t).TV j) := by
  have hci : Reindexer.IsRenumbering Examples.cubeMesh.get_num_vertices
      [9, 8, 7, 6, 5, 4, 3, 2, 1] := ⟨rfl, by decide, by decide⟩
  obtain ⟨m, h1, _, _, _, h5⟩ := C25_update_mesh_vertices_preserves_geometry
    [9, 8, 7, 6, 5, 4, 3, 2, 1] Examples.cubeMesh hci cubeMesh_wellFormed.1
  exact ⟨hci, m, h1, fun t a b j => (h5 t a b j).2⟩

/-! ## `Reindexer::reindex_vertices` -/

theorem numbered_fst : ∀ (c : Int) (ids : List Int),
    (Reindexer.numbered c ids).map Prod.fst = ids
  | _, [] => rfl
  | c, v :: rest => by simp [Reindexer.numbered, numbered_fst (c + 1) rest]

theorem numbered_append : ∀ (c : Int) (l1 l2 : List Int),
    Reindexer.numbered c (l1 ++ l2) =
      Reindexer.numbered c l1 ++ Reindexer.numbered (c + l1.length) l2
  | c, [], l2 => by simp [Reindexer.numbered]
  | c, v :: l1, l2 => by
    have ih := numbered_append (c + 1) l1 l2
    have e : c + ((v :: l1).length : Int) = c + 1 + (l1.length : Int) := by
      simp only [List.length_cons, Nat.cast_add, Nat.cast_one]
      ring
    rw [List.cons_append, Reindexer.numbered, ih, e]
    rfl

theorem numbered_mem : ∀ (c : Int) (ids : List Int) (k : Nat) (v : Int),
    ids[k]? = some v → (v, c + k) ∈ Reindexer.numbered c ids
  | _, [], k, _, h => by simp at h
  | c, v0 :: rest, 0, v, h => by
    simp only [List.getElem?_cons_zero, Option.some.injEq] at h
    subst h
    simp [Reindexer.numbered]
  | c, v0 :: rest, k + 1, v, h => by
    simp only [List.getElem?_cons_succ] at h
    have := numbered_mem (c + 1) rest k v h
    simp only [Reindexer.numbered, List.mem_cons]
    refine Or.inr ?_
    have e : c + ((k + 1 : Nat) : Int) = c + 1 + (k : Int) := by push_cast; ring
    rw [e]
    exact this

theorem place_all_append {α : Type} (p1 p2 : List (Int × α)) (l : List α) :
    Reindexer.place_all (p1 ++ p2) l = Reindexer.place_all p2 (Reindexer.place_all p1 l) := by
  unfold Reindexer.place_all
  rw [List.foldl_append]

theorem assign_indices_eq : ∀ (ids : List Int) (st : Reindexer.Indices),
    (∀ v ∈ ids, 1 ≤ v ∧ v ≤ (st.coherent_indices.length : Int)) →
    Reindexer.assign_indices ids st =
      some ⟨Reindexer.place_all (Reindexer.numbered st.indices_counter ids)
        st.coherent_indices, st.indices_counter + ids.length⟩
  | [], st, _ => by
    simp [Reindexer.assign_indices, Reindexer.numbered, Reindexer.place_all]
  | v :: rest, st, h => by
    rw [Reindexer.assign_indices, if_pos (h v (by simp))]
    rw [assign_indices_eq rest _ (fun w hw => by
      simp only [List.length_set]
      exact h w (List.mem_cons_of_mem _ hw))]
    simp only [Reindexer.numbered, List.length_cons, Nat.cast_add, Nat.cast_one,
      Option.some.injEq]
    congr 1
    ring

mutual
theorem reindex_vertices_eq (fuel : Nat) :
    ∀ (tree : Node_V) (st : Reindexer.Indices),
      (∀ a ∈ tree.leafArrays, wellFormedRuns a.1 = true ∧ (runExpansion a.1).length < fuel) →
      (∀ v ∈ tree.vertexIds, 1 ≤ v ∧ v ≤ (st.coherent_indices.length : Int)) →
      ∃ tree', Reindexer.reindex_vertices fuel tree st =
        some (tree', ⟨Reindexer.place_all (Reindexer.numbered st.indices_counter tree.vertexIds)
          st.coherent_indices, st.indices_counter + tree.vertexIds.length⟩)
  | Node_V.leaf vs ts, st, hwf, hin => by
    have h1 := hwf (vs, ts) (by simp [Node_V.leafArrays])
    have hids : (Node_V.leaf vs ts).vertexIds = runExpansion vs := by
      simp [Node_V.vertexIds, Node_V.leafArrays]
    rw [hids] at hin ⊢
    have hcount : run_iterator.elementCountFast vs = some ((runExpansion vs).length : Int) := by
      unfold run_iterator.elementCountFast
      rw [elementCountFastFrom_wellFormed vs.length vs (le_refl _) h1.1 0]
      simp
    rw [Reindexer.reindex_vertices, hcount]
    simp only []
    by_cases hpos : ((runExpansion vs).length : Int) > 0
    · rw [if_pos hpos, collect_wellFormed vs h1.1 fuel h1.2]
      simp only []
      rw [assign_indices_eq _ st hin]
      exact ⟨_, rfl⟩
    · rw [if_neg hpos]
      have : runExpansion vs = [] := List.length_eq_zero.mp (by omega)
      rw [this]
      exact ⟨Node_V.leaf vs ts, by simp [Reindexer.numbered, Reindexer.place_all]⟩
  | Node_V.internal vs sons, st, hwf, hin => by
    have hids : (Node_V.internal vs sons).vertexIds =
        (Node_V.leafArraysSons sons).flatMap (fun a => runExpansion a.1) := by
      simp [Node_V.vertexIds, Node_V.leafArrays]
    rw [hids] at hin ⊢
    obtain ⟨sons', e⟩ := reindex_vertices_sons_eq fuel sons st
      (fun a ha => hwf a (by simpa [Node_V.leafArrays] using ha)) hin
    rw [Reindexer.reindex_vertices, e]
    exact ⟨_, rfl⟩
theorem reindex_vertices_sons_eq (fuel : Nat) :
    ∀ (sons : List Node_V) (st : Reindexer.Indices),
      (∀ a ∈ Node_V.leafArraysSons sons,
        wellFormedRuns a.1 = true ∧ (runExpansion a.1).length < fuel) →
      (∀ v ∈ (Node_V.leafArraysSons sons).flatMap (fun a => runExpansion a.1),
        1 ≤ v ∧ v ≤ (st.coherent_indices.length : Int)) →
      ∃ sons', Reindexer.reindex_vertices_sons fuel sons st =
        some (sons', ⟨Reindexer.place_all (Reindexer.numbered st.indices_counter
            ((Node_V.leafArraysSons sons).flatMap (fun a => runExpansion a.1)))
          st.coherent_indices,
          st.indices_counter +
            ((Node_V.leafArraysSons sons).flatMap (fun a => runExpansion a.1)).length⟩)
  | [], st, _, _ => by
    refine ⟨[], ?_⟩
    simp [Reindexer.reindex_vertices_sons, Node_V.leafArraysSons, Reindexer.numbered,
      Reindexer.place_all]
  | n :: rest, st, hwf, hin => by
    have hsplit : (Node_V.leafArraysSons (n :: rest)).flatMap (fun a => runExpansion a.1) =
        n.vertexIds ++ (Node_V.leafArraysSons rest).flatMap (fun a => runExpansion a.1) := by
      simp [Node_V.leafArraysSons, Node_V.vertexIds, List.flatMap_append]
    rw [hsplit] at hin ⊢
    obtain ⟨n', e1⟩ := reindex_vertices_eq fuel n st
      (fun a ha => hwf a (by
        simp only [Node_V.leafArraysSons, List.mem_append]; exact Or.inl ha))
      (fun v hv => hin v (List.mem_append_left _ hv))
    obtain ⟨rest', e2⟩ := reindex_vertices_sons_eq fuel rest
      ⟨Reindexer.place_all (Reindexer.numbered st.indices_counter n.vertexIds)
        st.coherent_indices, st.indices_counter + n.vertexIds.length⟩
      (fun a ha => hwf a (by
        simp only [Node_V.leafArraysSons, List.mem_append]; exact Or.inr ha))
      (fun v hv => by
        simp only [place_all_length]
        exact hin v (List.mem_append_right _ hv))
    refine ⟨n' :: rest', ?_⟩
    rw [Reindexer.reindex_vertices_sons, e1]
    simp only []
    rw [e2]
    simp only [Option.some.injEq, Prod.mk.injEq, true_and]
    rw [numbered_append, place_all_append, List.length_append]
    congr 1
    push_cast
    ring
end

theorem length_le_of_leaf (sons : List (List Int × List Int)) (a : List Int × List Int)
    (ha : a ∈ sons) :
    (runExpansion a.1).length ≤ (sons.flatMap (fun a => runExpansion a.1)).length := by
  induction sons with
  | nil => simp at ha
  | cons b rest ih =>
    simp only [List.flatMap_cons, List.length_append]
    rcases List.mem_cons.mp ha with e | h
    · subst e; omega
    · have := ih h; omega

theorem ids_once (ids : List Int) (n : Nat)
    (hin : ∀ v ∈ ids, 1 ≤ v ∧ v ≤ (n : Int))
    (hone : ∀ v : Int, 1 ≤ v → v ≤ (n : Int) → ids.count v = 1) :
    ids.Nodup ∧ ids.length = n := by
  have hnd : ids.Nodup := by
    rw [List.nodup_iff_count_le_one]
    intro v
    by_cases hv : v ∈ ids
    · rw [hone v (hin v hv).1 (hin v hv).2]
    · rw [List.count_eq_zero_of_not_mem hv]; omega
  refine ⟨hnd, ?_⟩
  have hfin : ids.toFinset = Finset.Icc (1 : Int) n := by
    ext v
    simp only [List.mem_toFinset, Finset.mem_Icc]
    constructor
    · exact hin v
    · intro h
      have := hone v h.1 h.2
      exact List.count_pos_iff.mp (by omega)
  have := List.toFinset_card_of_nodup hnd
  rw [hfin, Int.card_Icc] at this
  omega

/-- C24: for every tree of `Node_V` (a `P_Tree` or a `PT_Tree`) whose leaves
hold well-formed vertices arrays in which each vertex id `1 … |V|` occurs
exactly once, `Reindexer::reindex_vertices`, started as in
`reindex_tree_and_mesh` (`coherent_indices` assigned `|V|` entries `-1`, the
counter `1`), returns and fills `coherent_indices` with a renumbering of
`1 … |V|`: every entry is in `1 … |V|` (none is `0` or `-1`), no two are equal,
and the vertex met in position `k` of the visit (leaf after leaf, each leaf in
the order of its array) receives the index `k + 1`, so that the vertices of a
leaf receive consecutive indices; the counter ends at `|V| + 1`. -/
theorem C24_reindex_vertices_bijection (fuel : Nat) (tree : Node_V) (n : Nat)
    (hwf : ∀ a ∈ tree.leafArrays, wellFormedRuns a.1 = true)
    (hin : ∀ v ∈ tree.vertexIds, 1 ≤ v ∧ v ≤ (n : Int))
    (hone : ∀ v : Int, 1 ≤ v → v ≤ (n : Int) → tree.vertexIds.count v = 1)
    (hfuel : n < fuel) :
    ∃ tree' st', Reindexer.reindex_vertices fuel tree ⟨List.replicate n (-1), 1⟩ =
        some (tree', st') ∧
      Reindexer.IsRenumbering n st'.coherent_indices ∧ st'.indices_counter = n + 1 ∧
      (∀ c ∈ st'.coherent_indices, c ≠ 0 ∧ c ≠ -1) ∧
      ∀ (k : Nat) (v : Int), tree.vertexIds[k]? = some v →
        Reindexer.coherent_at st'.coherent_indices v = some ((k : Int) + 1) := by
  obtain ⟨hnd, hlen⟩ := ids_once tree.vertexIds n hin hone
  obtain ⟨tree', e⟩ := reindex_vertices_eq fuel tree ⟨List.replicate n (-1), 1⟩
    (fun a ha => ⟨hwf a ha, by
      have := length_le_of_leaf tree.leafArrays a ha
      have h2 : (tree.leafArrays.flatMap (fun a => runExpansion a.1)).length = n := hlen
      omega⟩)
    (fun v hv => by simpa using hin v hv)
  have hget : ∀ (k : Nat) (v : Int), tree.vertexIds[k]? = some v →
      (Reindexer.place_all (Reindexer.numbered 1 tree.vertexIds)
        (List.replicate n (-1)))[(v - 1).toNat]? = some (1 + (k : Int)) := by
    intro k v hk
    exact place_all_get (Reindexer.numbered 1 tree.vertexIds) _
      (by rw [numbered_fst]; exact hnd)
      (fun p hp => by
        have : p.1 ∈ tree.vertexIds := by
          rw [← numbered_fst 1 tree.vertexIds]
          exact List.mem_map_of_mem _ hp
        simpa using hin p.1 this)
      (v, 1 + (k : Int)) (numbered_mem 1 tree.vertexIds k v hk)
  have hlen' : (Reindexer.place_all (Reindexer.numbered 1 tree.vertexIds)
      (List.replicate n (-1))).length = n := by
    rw [place_all_length]; simp
  -- the entry at every position
  have hpos : ∀ i, i < n → ∃ k, k < n ∧ tree.vertexIds[k]? = some ((i : Int) + 1) ∧
      (Reindexer.place_all (Reindexer.numbered 1 tree.vertexIds)
        (List.replicate n (-1)))[i]? = some (1 + (k : Int)) := by
    intro i hi
    have hmem : ((i : Int) + 1) ∈ tree.vertexIds :=
      List.count_pos_iff.mp (by rw [hone _ (by omega) (by omega)]; omega)
    obtain ⟨k, hk, hk2⟩ := List.getElem_of_mem hmem
    have hk' : tree.vertexIds[k]? = some ((i : Int) + 1) := by
      rw [List.getElem?_eq_getElem hk, hk2]
    have := hget k _ hk'
    have e2 : ((i : Int) + 1 - 1).toNat = i := by omega
    rw [e2] at this
    exact ⟨k, by omega, hk', this⟩
  have hren : Reindexer.IsRenumbering n (Reindexer.place_all
      (Reindexer.numbered 1 tree.vertexIds) (List.replicate n (-1))) := by
    refine ⟨hlen', ?_, ?_⟩
    · intro c hc
      obtain ⟨i, hi, hi2⟩ := List.getElem_of_mem hc
      rw [hlen'] at hi
      obtain ⟨k, hk, _, hk3⟩ := hpos i hi
      rw [List.getElem?_eq_getElem (by rw [hlen']; exact hi), hi2] at hk3
      have := Option.some.inj hk3
      omega
    · rw [List.nodup_iff_getElem?_ne_getElem?]
      intro i j hij hj
      rw [hlen'] at hj
      obtain ⟨k1, _, a1, b1⟩ := hpos i (by omega)
      obtain ⟨k2, _, a2, b2⟩ := hpos j hj
      rw [b1, b2]
      intro heq
      have hk : k1 = k2 := by
        have := Option.some.inj heq
        omega
      rw [hk, a2] at a1
      have := Option.some.inj a1
      omega
  refine ⟨tree', _, e, hren, ?_, ?_, ?_⟩
  · show (1 : Int) + (tree.vertexIds.length : Int) = n + 1
    rw [hlen]; ring
  · intro c hc
    have := hren.2.1 c hc
    constructor <;> omega
  · intro k v hk
    have hv := hin v (List.getElem?_mem hk)
    unfold Reindexer.coherent_at
    rw [if_pos hv.1]
    show (Reindexer.place_all (Reindexer.numbered 1 tree.vertexIds)
        (List.replicate n (-1)))[(v - 1).toNat]? = some ((k : Int) + 1)
    rw [hget k v hk]
    congr 1
    ring

theorem cubeTreeV_built :
    (P_Tree.build_tree Subdivision.OK Examples.cubeMesh 4 10).map
        (fun t => (t.toV.leafArrays, t.toV.internalArrays)) =
      some (Examples.cubeTreeV.leafArrays, Examples.cubeTreeV.internalArrays) := by
  decide!

theorem cubeTreeV_vertexIds : Examples.cubeTreeV.vertexIds = [4, 2, 3, 1, 8, 9, 6, 7, 5] := by
  decide

/-- C24 on the tree of scenario S2: the nine vertices, met in the order
`4, 2, 3, 1, 8, 9, 6, 7, 5`, receive the indices `1 … 9`. -/
theorem C24_reindex_vertices_bijection_witness :
    ∃ tree' st', Reindexer.reindex_vertices 10 Examples.cubeTreeV
        ⟨List.replicate 9 (-1), 1⟩ = some (tree', st') ∧
      Reindexer.IsRenumbering 9 st'.coherent_indices ∧
      Reindexer.coherent_at st'.coherent_indices 8 = some 5 := by
  obtain ⟨tree', st', h1, h2, _, _, h5⟩ := C24_reindex_vertices_bijection 10
    Examples.cubeTreeV 9 (by decide)
    (by rw [cubeTreeV_vertexIds]; decide)
    (by
      intro v h1 h2
      rw [cubeTreeV_vertexIds]
      interval_cases v <;> decide)
    (by decide)
  exact ⟨tree', st', h1, h2, h5 4 8 (by rw [cubeTreeV_vertexIds]; rfl)⟩

/-! ## The tetrahedra pass of the reindexer -/

theorem numbered_renumbering (ids : List Int) (n : Nat) (hnd : ids.Nodup)
    (hin : ∀ v ∈ ids, 1 ≤ v ∧ v ≤ (n : Int))
    (hmem : ∀ i : Nat, i < n → ((i : Int) + 1) ∈ ids) (hlen : ids.length = n) :
    Reindexer.IsRenumbering n
      (Reindexer.place_all (Reindexer.numbered 1 ids) (List.replicate n (-1))) := by
  have hget : ∀ (k : Nat) (v : Int), ids[k]? = some v →
      (Reindexer.place_all (Reindexer.numbered 1 ids)
        (List.replicate n (-1)))[(v - 1).toNat]? = some (1 + (k : Int)) := by
    intro k v hk
    exact place_all_get (Reindexer.numbered 1 ids) _
      (by rw [numbered_fst]; exact hnd)
      (fun p hp => by
        have : p.1 ∈ ids := by
          rw [← numbered_fst 1 ids]
          exact List.mem_map_of_mem _ hp
        simpa using hin p.1 this)
      (v, 1 + (k : Int)) (numbered_mem 1 ids k v hk)
  have hlen' : (Reindexer.place_all (Reindexer.numbered 1 ids)
      (List.replicate n (-1))).length = n := by
    rw [place_all_length]; simp
  have hpos : ∀ i, i < n → ∃ k, k < n ∧ ids[k]? = some ((i : Int) + 1) ∧
      (Reindexer.place_all (Reindexer.numbered 1 ids)
        (List.replicate n (-1)))[i]? = some (1 + (k : Int)) := by
    intro i hi
    obtain ⟨k, hk, hk2⟩ := List.getElem_of_mem (hmem i hi)
    have hk' : ids[k]? = some ((i : Int) + 1) := by
      rw [List.getElem?_eq_getElem hk, hk2]
    have := hget k _ hk'
    have e2 : ((i : Int) + 1 - 1).toNat = i := by omega
    rw [e2] at this
    exact ⟨k, by omega, hk', this⟩
  refine ⟨hlen', ?_, ?_⟩
  · intro c hc
    obtain ⟨i, hi, hi2⟩ := List.getElem_of_mem hc
    rw [hlen'] at hi
    obtain ⟨k, hk, _, hk3⟩ := hpos i hi
    rw [List.getElem?_eq_getElem (by rw [hlen']; exact hi), hi2] at hk3
    have := Option.some.inj hk3
    omega
  · rw [List.nodup_iff_getElem?_ne_getElem?]
    intro i j hij hj
    rw [hlen'] at hj
    obtain ⟨k1, _, a1, b1⟩ := hpos i (by omega)
    obtain ⟨k2, _, a2, b2⟩ := hpos j hj
    rw [b1, b2]
    intro heq
    have hk : k1 = k2 := by
      have := Option.some.inj heq
      omega
    rw [hk, a2] at a1
    have := Option.some.inj a1
    omega

theorem group_push_perm (key : List (Int × Int)) (t : Int) :
    ∀ g : List (List (Int × Int) × List Int),
      ((Reindexer.group_push key t g).flatMap Prod.snd).Perm (g.flatMap Prod.snd ++ [t])
  | [] => by simp [Reindexer.group_push]
  | e :: rest => by
    unfold Reindexer.group_push
    split_ifs with h1 h2
    · simp only [List.flatMap_cons]
      exact List.perm_append_comm
    · simp only [List.flatMap_cons, List.append_assoc]
      exact (group_push_perm key t rest).append_left e.2
    · simp only [List.flatMap_cons, List.append_assoc]
      exact List.Perm.append_left e.2 List.perm_append_comm

theorem leaf_tetra_groups_perm : ∀ (tla : List (List (Int × Int))) (i : Nat)
    (g : List (List (Int × Int) × List Int)),
    ((Reindexer.leaf_tetra_groups tla i g).flatMap Prod.snd).Perm
      (g.flatMap Prod.snd ++ (List.range' (i + 1) tla.length).map Int.ofNat)
  | [], i, g => by simp [Reindexer.leaf_tetra_groups]
  | key :: rest, i, g => by
    rw [Reindexer.leaf_tetra_groups]
    refine (leaf_tetra_groups_perm rest (i + 1) _).trans ?_
    refine ((group_push_perm key _ g).append_right _).trans ?_
    simp [List.range'_succ]

theorem assign_indices_append : ∀ (l1 l2 : List Int) (st : Reindexer.Indices),
    Reindexer.assign_indices (l1 ++ l2) st =
      (Reindexer.assign_indices l1 st).bind (Reindexer.assign_indices l2)
  | [], _, _ => rfl
  | v :: l1, l2, st => by
    simp only [List.cons_append, Reindexer.assign_indices]
    split_ifs with h
    · exact assign_indices_append l1 l2 _
    · rfl

theorem assign_groups_eq : ∀ (G : List (List (Int × Int) × List Int))
    (acc : Option Reindexer.Indices),
    G.foldl (fun acc g => acc.bind (Reindexer.assign_indices g.2)) acc =
    acc.bind (Reindexer.assign_indices (G.flatMap Prod.snd))
  | [], acc => by
    cases acc <;> simp [Reindexer.assign_indices]
  | g :: G, acc => by
    rw [List.foldl_cons, assign_groups_eq G]
    cases acc with
    | none => rfl
    | some st =>
      simp only [List.flatMap_cons, Option.some_bind, assign_indices_append]

theorem extract_leaves_tetra_association_renumbering (tla : List (List (Int × Int))) :
    ∃ st, Reindexer.extract_leaves_tetra_association tla
        ⟨List.replicate tla.length (-1), 1⟩ = some st ∧
      Reindexer.IsRenumbering tla.length st.coherent_indices := by
  have hperm := leaf_tetra_groups_perm tla 0 []
  simp only [List.flatMap_nil, List.nil_append, Nat.zero_add] at hperm
  have hnd0 : ((List.range' 1 tla.length).map Int.ofNat).Nodup :=
    (List.nodup_range' 1 tla.length).map (fun a b h => Int.ofNat.inj h)
  have hnd := hperm.nodup_iff.mpr hnd0
  have hin : ∀ v ∈ (Reindexer.leaf_tetra_groups tla 0 []).flatMap Prod.snd,
      1 ≤ v ∧ v ≤ (tla.length : Int) := by
    intro v hv
    have := hperm.mem_iff.mp hv
    obtain ⟨k, hk, e⟩ := List.mem_map.mp this
    rw [List.mem_range'_1] at hk
    rw [← e]
    simp only [Int.ofNat_eq_coe]
    omega
  have hmem : ∀ i : Nat, i < tla.length →
      ((i : Int) + 1) ∈ (Reindexer.leaf_tetra_groups tla 0 []).flatMap Prod.snd := by
    intro i hi
    apply hperm.mem_iff.mpr
    refine List.mem_map.mpr ⟨i + 1, ?_, by simp⟩
    rw [List.mem_range'_1]
    omega
  have hlen : ((Reindexer.leaf_tetra_groups tla 0 []).flatMap Prod.snd).length = tla.length := by
    rw [hperm.length_eq]; simp
  refine ⟨⟨Reindexer.place_all (Reindexer.numbered 1
      ((Reindexer.leaf_tetra_groups tla 0 []).flatMap Prod.snd))
      (List.replicate tla.length (-1)),
      1 + (((Reindexer.leaf_tetra_groups tla 0 []).flatMap Prod.snd).length : Int)⟩, ?_,
    numbered_renumbering _ tla.length hnd hin hmem hlen⟩
  unfold Reindexer.extract_leaves_tetra_association
  rw [assign_groups_eq, Option.some_bind, assign_indices_eq _ _ (by simpa using hin)]

theorem collect_nil (fuel : Nat) (h : 0 < fuel) : run_iterator.collect [] fuel = some [] :=
  collect_wellFormed [] rfl fuel (by simpa [runExpansion] using h)

theorem forall2_append_leaves {R : List Int × List Int → List Int × List Int → Prop}
    {l1 l2 r1 r2 : List (List Int × List Int)} (h1 : List.Forall₂ R l1 r1)
    (h2 : List.Forall₂ R l2 r2) : List.Forall₂ R (l1 ++ l2) (r1 ++ r2) := by
  induction h1 with
  | nil => exact h2
  | cons hab _ ih => exact List.Forall₂.cons hab ih

mutual
theorem reindex_tetrahedra_spec (junk : Int) (fuel : Nat) (n : Nat) (ci : List Int)
    (hci : Reindexer.IsRenumbering n ci) :
    ∀ (tree : Node_V),
      (∀ a ∈ tree.leafArrays, wellFormedRuns a.2 = true ∧
        (∀ t ∈ runExpansion a.2, 1 ≤ t ∧ t ≤ (n : Int)) ∧ (runExpansion a.2).length < fuel) →
      ∃ tree', Reindexer.reindex_tetrahedra junk fuel ci tree = some tree' ∧
        tree'.internalArrays = tree.internalArrays ∧
        List.Forall₂ (Reindexer.LeafRenumbered ci fuel) tree.leafArrays tree'.leafArrays
  | Node_V.leaf vs ts, h => by
    obtain ⟨hw, hr, hf⟩ := h (vs, ts) (by simp [Node_V.leafArrays])
    simp only at hw hr hf
    have hsome : ∀ t ∈ runExpansion ts, (Reindexer.coherent_at ci t).isSome = true := by
      intro t ht
      have := hr t ht
      obtain ⟨c, hc, _⟩ := coherent_at_renumbering n ci hci t.toNat (by omega) (by omega)
      have e : ((t.toNat : Nat) : Int) = t := by omega
      rw [e] at hc
      rw [hc]; rfl
    obtain ⟨imgs, e1, hl, himg⟩ := mapAll_spec (Reindexer.coherent_at ci) (runExpansion ts) hsome
    have hpos : ∀ c ∈ imgs, 0 < c := by
      intro c hc
      obtain ⟨k, hk, hk2⟩ := List.getElem_of_mem hc
      have hk' : k < (runExpansion ts).length := by omega
      obtain ⟨y, hy1, hy2⟩ := himg k _ (List.getElem?_eq_getElem hk')
      rw [List.getElem?_eq_getElem hk, hk2] at hy1
      have hy : c = y := Option.some.inj hy1
      subst hy
      have ht := hr _ (List.getElem_mem hk')
      unfold Reindexer.coherent_at at hy2
      rw [if_pos ht.1] at hy2
      have := hci.2.1 c (List.getElem?_mem hy2)
      omega
    rw [Reindexer.reindex_tetrahedra, collect_wellFormed ts hw fuel hf]
    simp only []
    rw [e1]
    simp only []
    by_cases hz : imgs.length > 0
    · rw [if_pos hz]
      refine ⟨_, rfl, rfl, ?_⟩
      simp only [Node_V.leafArrays]
      refine List.Forall₂.cons ⟨rfl, imgs, e1, ?_⟩ List.Forall₂.nil
      exact compress_t_array_roundtrip junk imgs (by
        intro h0; rw [h0] at hz; simp at hz) hpos fuel (by omega)
    · rw [if_neg hz]
      refine ⟨_, rfl, rfl, ?_⟩
      simp only [Node_V.leafArrays]
      refine List.Forall₂.cons ⟨rfl, imgs, e1, ?_⟩ List.Forall₂.nil
      have : imgs = [] := List.length_eq_zero.mp (by omega)
      rw [this]
      exact collect_nil fuel (by omega)
  | Node_V.internal vs sons, h => by
    obtain ⟨sons', e, hi, hl⟩ := reindex_tetrahedra_sons_spec junk fuel n ci hci sons
      (fun a ha => h a (by simpa [Node_V.leafArrays] using ha))
    refine ⟨Node_V.internal vs sons', ?_, ?_, ?_⟩
    · rw [Reindexer.reindex_tetrahedra, e]
    · simp only [Node_V.internalArrays, hi]
    · simpa only [Node_V.leafArrays] using hl
theorem reindex_tetrahedra_sons_spec (junk : Int) (fuel : Nat) (n : Nat) (ci : List Int)
    (hci : Reindexer.IsRenumbering n ci) :
    ∀ (sons : List Node_V),
      (∀ a ∈ Node_V.leafArraysSons sons, wellFormedRuns a.2 = true ∧
        (∀ t ∈ runExpansion a.2, 1 ≤ t ∧ t ≤ (n : Int)) ∧ (runExpansion a.2).length < fuel) →
      ∃ sons', Reindexer.reindex_tetrahedra_sons junk fuel ci sons = some sons' ∧
        Node_V.internalArraysSons sons' = Node_V.internalArraysSons sons ∧
        List.Forall₂ (Reindexer.LeafRenumbered ci fuel) (Node_V.leafArraysSons sons)
          (Node_V.leafArraysSons sons')
  | [], _ => ⟨[], rfl, rfl, List.Forall₂.nil⟩
  | s :: rest, h => by
    obtain ⟨s', e1, i1, l1⟩ := reindex_tetrahedra_spec junk fuel n ci hci s
      (fun a ha => h a (by
        simp only [Node_V.leafArraysSons, List.mem_append]; exact Or.inl ha))
    obtain ⟨rest', e2, i2, l2⟩ := reindex_tetrahedra_sons_spec junk fuel n ci hci rest
      (fun a ha => h a (by
        simp only [Node_V.leafArraysSons, List.mem_append]; exact Or.inr ha))
    refine ⟨s' :: rest', ?_, ?_, ?_⟩
    · rw [Reindexer.reindex_tetrahedra_sons, e1]
      simp only []
      rw [e2]
    · simp only [Node_V.internalArraysSons, i1, i2]
    · simp only [Node_V.leafArraysSons]
      exact forall2_append_leaves l1 l2
end

/-- C26: whatever the table `tetra_leaves_association` extracted before (one
entry per tetrahedron), when the tetrahedra arrays of the leaves are well
formed and hold ids of the mesh, the tetrahedra pass of
`Reindexer::reindex_tree_and_mesh` returns; the new numbering
`coherent_indices` is a renumbering of `1 … |T|` (a bijection); the tree keeps
the vertices arrays of its nodes, and the run iterator decodes from the new
tetrahedra array of each leaf the new indices of the ids it decoded from the
old one, sorted; the mesh keeps its domain and its vertices and stores at each
new index the tetrahedron that was stored at the old id. -/
theorem C26_reindex_tetrahedra_pass (junk : Int) (fuel : Nat) (tla : List (List (Int × Int)))
    (tree : Node_V) (mesh : Mesh) (htla : tla.length = mesh.get_num_tetrahedra)
    (hleaves : ∀ a ∈ tree.leafArrays, wellFormedRuns a.2 = true ∧
      (∀ t ∈ runExpansion a.2, 1 ≤ t ∧ t ≤ (mesh.get_num_tetrahedra : Int)) ∧
      (runExpansion a.2).length < fuel) :
    ∃ tree' mesh' ci, Reindexer.reindex_tetrahedra_pass junk fuel tla tree mesh =
        some (tree', mesh', ci) ∧
      Reindexer.IsRenumbering mesh.get_num_tetrahedra ci ∧
      tree'.internalArrays = tree.internalArrays ∧
      List.Forall₂ (Reindexer.LeafRenumbered ci fuel) tree.leafArrays tree'.leafArrays ∧
      mesh'.domain = mesh.domain ∧ mesh'.vertices = mesh.vertices ∧
      mesh'.get_num_tetrahedra = mesh.get_num_tetrahedra ∧
      ∀ t : Nat, 1 ≤ t → t ≤ mesh.get_num_tetrahedra →
        ∃ c : Int, Reindexer.coherent_at ci t = some c ∧ 1 ≤ c ∧
          c ≤ (mesh.get_num_tetrahedra : Int) ∧
          mesh'.get_tetrahedron c.toNat = mesh.get_tetrahedron t := by
  obtain ⟨st, e1, hren⟩ := extract_leaves_tetra_association_renumbering tla
  rw [htla] at e1 hren
  obtain ⟨tree', e2, hi, hl⟩ := reindex_tetrahedra_spec junk fuel mesh.get_num_tetrahedra
    st.coherent_indices hren tree hleaves
  obtain ⟨r, e3, hlr, hr⟩ := reorder_renumbering st.coherent_indices mesh.tetrahedra
    (⟨fun _ => 0⟩ : Tetrahedron) hren
  refine ⟨tree', { mesh with tetrahedra := r }, st.coherent_indices, ?_, hren, hi, hl, rfl, rfl,
    hlr, ?_⟩
  · unfold Reindexer.reindex_tetrahedra_pass
    rw [e1]
    simp only []
    rw [e2]
    simp only []
    unfold Reindexer.update_mesh_tetrahedra
    rw [show mesh.get_num_tetrahedra = mesh.tetrahedra.length from rfl, e3]
  · intro t h1 h2
    obtain ⟨c, hc1, hc2, hc3, hc4⟩ := coherent_at_renumbering _ _ hren t h1 h2
    refine ⟨c, hc1, hc3, hc4, ?_⟩
    have hi : t - 1 < mesh.tetrahedra.length := by
      have : mesh.get_num_tetrahedra = mesh.tetrahedra.length := rfl
      omega
    have hold : mesh.tetrahedra[t - 1]? = some (mesh.get_tetrahedron t) := by
      unfold Mesh.get_tetrahedron
      rw [List.getD_eq_getElem _ _ hi]
      exact List.getElem?_eq_getElem hi
    have hnew := hr (t - 1) c _ hc2 hold
    have e : c.toNat - 1 = (c - 1).toNat := by omega
    unfold Mesh.get_tetrahedron at hnew ⊢
    simp only [List.getD_eq_getElem?_getD, e, hnew, Option.getD_some]

/-- C26 on the cube mesh (S1) and the tree of scenario S2, with a table that
associates the tetrahedra of even id with one leaf and the others with none:
the odd ids come first in the new numbering. -/
theorem C26_reindex_tetrahedra_pass_witness :
    ∃ tree' mesh' ci, Reindexer.reindex_tetrahedra_pass 0 13
        [[], [(1, 2)], [], [(1, 2)], [], [(1, 2)], [], [(1, 2)], [], [(1, 2)], [], [(1, 2)]]
        Examples.cubeTreeV Examples.cubeMesh = some (tree', mesh', ci) ∧
      Reindexer.IsRenumbering 12 ci ∧ ci = [1, 7, 2, 8, 3, 9, 4, 10, 5, 11, 6, 12] ∧
      List.Forall₂ (Reindexer.LeafRenumbered ci 13) Examples.cubeTreeV.leafArrays
        tree'.leafArrays := by
  obtain ⟨tree', mesh', ci, h1, h2, _, h4, _⟩ := C26_reindex_tetrahedra_pass 0 13
    [[], [(1, 2)], [], [(1, 2)], [], [(1, 2)], [], [(1, 2)], [], [(1, 2)], [], [(1, 2)]]
    Examples.cubeTreeV Examples.cubeMesh rfl (by decide)
  have hx : (Reindexer.reindex_tetrahedra_pass 0 13
      [[], [(1, 2)], [], [(1, 2)], [], [(1, 2)], [], [(1, 2)], [], [(1, 2)], [], [(1, 2)]]
      Examples.cubeTreeV Examples.cubeMesh).map (fun r => r.2.2) =
      some [1, 7, 2, 8, 3, 9, 4, 10, 5, 11, 6, 12] := by decide!
  rw [h1] at hx
  exact ⟨tree', mesh', ci, h1, h2, by simpa using hx, h4⟩

/-! ## Reindexing twice -/

/-- C27, as stated, fails. The tree of scenario S2 (the cube mesh in a PR
octree with `kv = 4`) is reindexed twice. The second call applies the identity
renumbering to the vertices, and leaves the vertices and the tetrahedra of the
mesh and the two arrays of every leaf as they were; but `reindex_vertices`
pushes the range of an internal node at the back of its vertices array without
clearing it (reindexer.h:275-287), so the array of the root, `[-1, 8]` after
the first call, is `[-1, 8, -1, 8]` after the second. -/
theorem C27_counterexample_internal_range_appended :
    ∃ tree tree1 mesh1 tree2 mesh2 st,
      P_Tree.build_tree Subdivision.OK Examples.cubeMesh 4 10 = some tree ∧
      Reindexer.reindex_tree_and_mesh 0 13 tree.toV Examples.cubeMesh = some (tree1, mesh1) ∧
      Reindexer.reindex_tree_and_mesh 0 13 tree1 mesh1 = some (tree2, mesh2) ∧
      Reindexer.reindex_vertices 13 tree1 ⟨List.replicate 9 (-1), 1⟩ = some st ∧
      st.2.coherent_indices = [1, 2, 3, 4, 5, 6, 7, 8, 9] ∧
      tree1.get_v_array = [-1, 8] ∧ tree2.get_v_array = [-1, 8, -1, 8] ∧
      tree2.leafArrays = tree1.leafArrays ∧ mesh2.vertices = mesh1.vertices ∧
      mesh2.tetrahedra.map (fun t => (List.finRange 4).map t.vertices) =
        mesh1.tetrahedra.map (fun t => (List.finRange 4).map t.vertices) := by
  have hx : (P_Tree.build_tree Subdivision.OK Examples.cubeMesh 4 10).bind (fun tree =>
      (Reindexer.reindex_tree_and_mesh 0 13 tree.toV Examples.cubeMesh).bind (fun r1 =>
      (Reindexer.reindex_tree_and_mesh 0 13 r1.1 r1.2).bind (fun r2 =>
      (Reindexer.reindex_vertices 13 r1.1 ⟨List.replicate 9 (-1), 1⟩).map (fun st =>
        decide (st.2.coherent_indices = [1, 2, 3, 4, 5, 6, 7, 8, 9]) &&
        decide (r1.1.get_v_array = [-1, 8]) && decide (r2.1.get_v_array = [-1, 8, -1, 8]) &&
        decide (r2.1.leafArrays = r1.1.leafArrays) && decide (r2.2.vertices = r1.2.vertices) &&
        decide (r2.2.tetrahedra.map (fun t => (List.finRange 4).map t.vertices) =
          r1.2.tetrahedra.map (fun t => (List.finRange 4).map t.vertices)))))) = some true := by
    decide!
  cases h0 : P_Tree.build_tree Subdivision.OK Examples.cubeMesh 4 10 with
  | none => rw [h0] at hx; simp at hx
  | some tree =>
    rw [h0] at hx
    simp only [Option.some_bind] at hx
    cases h1 : Reindexer.reindex_tree_and_mesh 0 13 tree.toV Examples.cubeMesh with
    | none => rw [h1] at hx; simp at hx
    | some r1 =>
      rw [h1] at hx
      simp only [Option.some_bind] at hx
      cases h2 : Reindexer.reindex_tree_and_mesh 0 13 r1.1 r1.2 with
      | none => rw [h2] at hx; simp at hx
      | some r2 =>
        rw [h2] at hx
        simp only [Option.some_bind] at hx
        cases h3 : Reindexer.reindex_vertices 13 r1.1 ⟨List.replicate 9 (-1), 1⟩ with
        | none => rw [h3] at hx; simp at hx
        | some st =>
          rw [h3] at hx
          simp only [Option.map_some', Option.some.injEq, Bool.and_eq_true,
            decide_eq_true_eq] at hx
          obtain ⟨⟨⟨⟨⟨a1, a2⟩, a3⟩, a4⟩, a5⟩, a6⟩ := hx
          exact ⟨tree, r1.1, r1.2, r2.1, r2.2, st, rfl, h1, h2, h3, a1, a2, a3, a4, a5, a6⟩

/-! ## `Geometry::PointInTetra_strict` -/

theorem PointInTetra_strict_iff (xp yp zp : ℚ) (v1 v2 v3 v4 : Point) :
    Geometry.PointInTetra_strict xp yp zp v1 v2 v3 v4 = true ↔
      Geometry.DetSign4D xp yp zp 1 v2.x v2.y v2.z 1 v3.x v3.y v3.z 1 v4.x v4.y v4.z 1 =
        Geometry.DetSign4D v1.x v1.y v1.z 1 v2.x v2.y v2.z 1 v3.x v3.y v3.z 1 v4.x v4.y v4.z 1 ∧
      Geometry.DetSign4D v1.x v1.y v1.z 1 xp yp zp 1 v3.x v3.y v3.z 1 v4.x v4.y v4.z 1 =
        Geometry.DetSign4D v1.x v1.y v1.z 1 v2.x v2.y v2.z 1 v3.x v3.y v3.z 1 v4.x v4.y v4.z 1 ∧
      Geometry.DetSign4D v1.x v1.y v1.z 1 v2.x v2.y v2.z 1 xp yp zp 1 v4.x v4.y v4.z 1 =
        Geometry.DetSign4D v1.x v1.y v1.z 1 v2.x v2.y v2.z 1 v3.x v3.y v3.z 1 v4.x v4.y v4.z 1 ∧
      Geometry.DetSign4D v1.x v1.y v1.z 1 v2.x v2.y v2.z 1 v3.x v3.y v3.z 1 xp yp zp 1 =
        Geometry.DetSign4D v1.x v1.y v1.z 1 v2.x v2.y v2.z 1 v3.x v3.y v3.z 1 v4.x v4.y v4.z 1 := by
  unfold Geometry.PointInTetra_strict
  simp only []
  split_ifs with h1 h2 h3 h4
  · simp [h1]
  · simp [h2]
  · simp [h3]
  · simp [h4]
  · simp only [ne_eq, not_not] at h1 h2 h3 h4
    simp [h1, h2, h3, h4]

/-- C38, as stated, fails for a degenerate tetrahedron. The four points
`(0,0,0)`, `(0,1,0)`, `(0,0,1)`, `(0,1,1)` lie in the plane `x = 0`; for the
point `(0,5,5)` of that plane the four substituted determinant signs are `0`,
as is the sign of the tetrahedron itself, and `PointInTetra_strict` returns
`1`. -/
theorem C38_counterexample_flat_tetrahedron :
    Geometry.DetSign4D 0 5 5 1 0 1 0 1 0 0 1 1 0 1 1 1 = 0 ∧
      Geometry.PointInTetra_strict 0 5 5 ⟨0, 0, 0⟩ ⟨0, 1, 0⟩ ⟨0, 0, 1⟩ ⟨0, 1, 1⟩ = true := by
  constructor <;> decide!

/-- C38 (amended): `PointInTetra_strict` returns `1` exactly when the four
determinant signs obtained by substituting `p` for a vertex are all equal to
the sign of the determinant of the tetrahedron; so for every tetrahedron whose
own sign is not `0` (its points are not coplanar within the tolerance) and
every point `p` for which at least one of the four signs is `0`, it returns
`0`. -/
theorem C38_PointInTetra_strict_rejects_boundary (xp yp zp : ℚ) (v1 v2 v3 v4 : Point)
    (hd : Geometry.DetSign4D v1.x v1.y v1.z 1 v2.x v2.y v2.z 1 v3.x v3.y v3.z 1
      v4.x v4.y v4.z 1 ≠ 0)
    (h0 : Geometry.DetSign4D xp yp zp 1 v2.x v2.y v2.z 1 v3.x v3.y v3.z 1 v4.x v4.y v4.z 1 = 0 ∨
      Geometry.DetSign4D v1.x v1.y v1.z 1 xp yp zp 1 v3.x v3.y v3.z 1 v4.x v4.y v4.z 1 = 0 ∨
      Geometry.DetSign4D v1.x v1.y v1.z 1 v2.x v2.y v2.z 1 xp yp zp 1 v4.x v4.y v4.z 1 = 0 ∨
      Geometry.DetSign4D v1.x v1.y v1.z 1 v2.x v2.y v2.z 1 v3.x v3.y v3.z 1 xp yp zp 1 = 0) :
    Geometry.PointInTetra_strict xp yp zp v1 v2 v3 v4 = false := by
  cases h : Geometry.PointInTetra_strict xp yp zp v1 v2 v3 v4
  · rfl
  · obtain ⟨e1, e2, e3, e4⟩ := (PointInTetra_strict_iff xp yp zp v1 v2 v3 v4).mp h
    rcases h0 with h0 | h0 | h0 | h0
    · rw [e1] at h0; exact absurd h0 hd
    · rw [e2] at h0; exact absurd h0 hd
    · rw [e3] at h0; exact absurd h0 hd
    · rw [e4] at h0; exact absurd h0 hd

/-- C38 (amended) at the unit tetrahedron and the point `(0, 1/4, 1/4)` of its
face `x = 0`. -/
theorem C38_PointInTetra_strict_rejects_boundary_witness :
    Geometry.DetSign4D 0 0 0 1 1 0 0 1 0 1 0 1 0 0 1 1 ≠ 0 ∧
      Geometry.PointInTetra_strict 0 (1 / 4) (1 / 4) ⟨0, 0, 0⟩ ⟨1, 0, 0⟩ ⟨0, 1, 0⟩ ⟨0, 0, 1⟩
        = false :=
  ⟨by decide!,
    C38_PointInTetra_strict_rejects_boundary 0 (1 / 4) (1 / 4) ⟨0, 0, 0⟩ ⟨1, 0, 0⟩ ⟨0, 1, 0⟩
      ⟨0, 0, 1⟩ (by decide!) (Or.inr (Or.inl (by decide!)))⟩

/-! ## `Reindexer::compress_t_array`: reads of `new_t_list` -/

theorem compress_loop_reads_fst (junk : Int) (l : List Int) (todo : Nat) :
    ∀ (i count : Nat) (start : Int) (out : List Int) (reads : List Nat),
      (compress_loop_reads junk l todo i count start out reads).1 =
        compress_loop junk l todo i count start out := by
  induction todo with
  | zero => intro i count start out reads; rfl
  | succ n ih =>
    intro i count start out reads
    simp only [compress_loop_reads, compress_loop]
    split_ifs <;> exact ih _ _ _ _ _

theorem compress_t_array_reads_fst (junk : Int) (t_array L : List Int) :
    (compress_t_array_reads junk t_array L).1 = compress_t_array junk t_array L := by
  unfold compress_t_array_reads compress_t_array
  simp only []
  split_ifs
  · rfl
  · exact compress_loop_reads_fst _ _ _ _ _ _ _ _

theorem compress_loop_reads_last (junk : Int) (l : List Int) (todo : Nat) :
    ∀ (i count : Nat) (start : Int) (out : List Int) (reads : List Nat),
      todo + 1 + i = l.length →
      l.length ∈ (compress_loop_reads junk l (todo + 1) i count start out reads).2 := by
  induction todo with
  | zero =>
    intro i count start out reads h
    have hi : ¬ (i + 1 < l.length) := by omega
    have e : i + 1 = l.length := by omega
    simp only [compress_loop_reads, hi, false_and, if_false, e]
    simp
  | succ n ih =>
    intro i count start out reads h
    rw [compress_loop_reads]
    simp only []
    split_ifs <;> exact ih _ _ _ _ _ (by omega)

/-- C40 fails on the two-element list `[1, 2]`: `compress_t_array` reads
`new_t_list` at the indices `0, 0, 1, 2`, the last of which is its size. -/
theorem C40_counterexample_read_at_size :
    (Reindexer.compress_t_array_reads 0 [] [1, 2]).2 = [0, 0, 1, 2] ∧
      ¬ (∀ i ∈ (Reindexer.compress_t_array_reads 0 [] [1, 2]).2, i < [1, 2].length) := by
  decide

/-- C40 is false for every list of two or more ids: the last iteration of the
loop of `compress_t_array` takes the `else` branch and executes
`start_t_id = new_t_list[i+1]` with `i + 1` equal to the size of `new_t_list`,
so the index `size` is among the indices read. (For a one-element list only
index `0` is read.) -/
theorem C40_compress_t_array_reads_past_end (junk : Int) (t_array L : List Int)
    (h2 : 2 ≤ L.length) :
    L.length ∈ (Reindexer.compress_t_array_reads junk t_array L).2 := by
  unfold compress_t_array_reads
  simp only []
  have hl : (L.insertionSort (fun a b => a ≤ b)).length = L.length := List.length_insertionSort _ _
  rw [if_neg (by omega)]
  obtain ⟨n, hn⟩ : ∃ n, (L.insertionSort (fun a b => a ≤ b)).length = n + 1 := ⟨L.length - 1, by omega⟩
  have := compress_loop_reads_last junk (L.insertionSort (fun a b => a ≤ b)) n 0 0
    ((L.insertionSort (fun a b => a ≤ b)).getD 0 junk) t_array [0] (by omega)
  rw [hl] at this
  rw [hn]
  exact this

/-- C40 (refutation) at the list `[7, 3, 4]`. -/
theorem C40_compress_t_array_reads_past_end_witness :
    2 ≤ [(7 : Int), 3, 4].length ∧
      [(7 : Int), 3, 4].length ∈ (Reindexer.compress_t_array_reads 0 [] [7, 3, 4]).2 :=
  ⟨by decide, C40_compress_t_array_reads_past_end 0 [] [7, 3, 4] (by decide)⟩

/-- C35 fails on the cube mesh for the leaf whose array is the run `[-1, 1]`
(the tetrahedra 1 and 2, below the centre of the cube) and the query point
`(1/2, 1/2, 1/2)`, the centre, which is a vertex of both. The bounding box of
the run is `[0,1] × [0,1] × [0,1/2]`; the point lies in it as a closed box, but
`Box::contains` treats the face `z = 1/2` as open (it is not a face of the
domain), so the run is skipped and nothing is reported, while tetrahedron 1
passes `point_in_tetra` and the same leaf stored as `[1, 2]` reports it.
It fails in the same way on the cube mesh with a further vertex at `(2,2,2)`
for the leaf listing the twelve tetrahedra, stored as `compress_t_array` writes
it (`[-1, 11]`), and the corner `(1, 1, 1)`, a vertex of tetrahedron 4 on the
face `x = 1` of the bounding box `[0,1]³` of the run. -/
theorem C35_counterexample_point_on_run_box_face :
    (wellFormedRuns [-1, 1] = true ∧
      runExpansion [-1, 1] = [1, 2] ∧
      (RawNode.get_run_bounding_box Examples.cubeMesh 1 1).1 = ⟨⟨0, 0, 0⟩, ⟨1, 1, 1 / 2⟩⟩ ∧
      (RawNode.get_run_bounding_box Examples.cubeMesh 1 1).1.contains_with_all_closed_faces
        ⟨1 / 2, 1 / 2, 1 / 2⟩ = true ∧
      Geometry_Wrapper.point_in_tetra 1 ⟨1 / 2, 1 / 2, 1 / 2⟩ Examples.cubeMesh = true ∧
      (Spatial_Queries.exec_point_query_leaf ⟨1 / 2, 1 / 2, 1 / 2⟩ Examples.cubeMesh [-1, 1]
        (QueryStatistics.init 0)).map (fun qS => qS.tetrahedra) = some [] ∧
      (Spatial_Queries.exec_point_query_leaf ⟨1 / 2, 1 / 2, 1 / 2⟩ Examples.cubeMesh [1, 2]
        (QueryStatistics.init 0)).map (fun qS => qS.tetrahedra) = some [1]) ∧
    (Reindexer.compress_t_array 0 [] [1, 2, 3, 4, 5, 6, 7, 8, 9, 10, 11, 12] = [-1, 11] ∧
      (RawNode.get_run_bounding_box Examples.cubeFarMesh 1 11).1 = ⟨⟨0, 0, 0⟩, ⟨1, 1, 1⟩⟩ ∧
      Geometry_Wrapper.point_in_tetra 4 ⟨1, 1, 1⟩ Examples.cubeFarMesh = true ∧
      (Spatial_Queries.exec_point_query_leaf ⟨1, 1, 1⟩ Examples.cubeFarMesh [-1, 11]
        (QueryStatistics.init 0)).map (fun qS => qS.tetrahedra) = some [] ∧
      (Spatial_Queries.exec_point_query_leaf ⟨1, 1, 1⟩ Examples.cubeFarMesh
        [1, 2, 3, 4, 5, 6, 7, 8, 9, 10, 11, 12]
        (QueryStatistics.init 0)).map (fun qS => qS.tetrahedra) = some [4]) := by
  refine ⟨⟨by decide, by decide, by decide!, by decide!, by decide!, by decide!, by decide!⟩,
    ⟨by decide, by decide!, by decide!, by decide!, by decide!⟩⟩

/-! ## `Geometry::ClipTest3D`, `Geometry::ClipLine3D`: interval clipping -/

theorem mul_le_iff_of_neg (p q u : ℚ) (hp : p < 0) : p * u ≤ q ↔ q / p ≤ u := by
  rw [div_le_iff_of_neg hp, mul_comm]

theorem mul_le_iff_of_pos (p q u : ℚ) (hp : 0 < p) : p * u ≤ q ↔ u ≤ q / p := by
  rw [le_div_iff₀ hp, mul_comm]

theorem ClipTest3D_exact (S : ℚ → Prop) (p q : ℚ) (o : Option (ℚ × ℚ)) (h : ClipExact S o) :
    ClipExact (fun u => S u ∧ p * u ≤ q) (o.bind fun u => Geometry.ClipTest3D p q u.1 u.2) := by
  cases o with
  | none => intro u hu; exact h u hu.1
  | some ab =>
    obtain ⟨a, b⟩ := ab
    obtain ⟨hab, hS⟩ := h
    simp only [Option.some_bind, Geometry.ClipTest3D]
    by_cases hp : p < 0
    · simp only [hp, if_true]
      by_cases h1 : q / p > b
      · simp only [h1, if_true]
        intro u hu
        have := (hS u).mpr hu.1
        have := (mul_le_iff_of_neg p q u hp).mp hu.2
        linarith
      · simp only [h1, if_false]
        by_cases h2 : q / p > a
        · simp only [h2, if_true]
          refine ⟨by linarith, fun u => ?_⟩
          show _ ↔ S u ∧ p * u ≤ q
          rw [mul_le_iff_of_neg p q u hp, ← hS u]
          constructor
          · rintro ⟨h3, h4⟩; exact ⟨⟨by linarith, h4⟩, h3⟩
          · rintro ⟨⟨_, h4⟩, h3⟩; exact ⟨h3, h4⟩
        · simp only [h2, if_false]
          refine ⟨hab, fun u => ?_⟩
          show _ ↔ S u ∧ p * u ≤ q
          rw [mul_le_iff_of_neg p q u hp, ← hS u]
          constructor
          · rintro ⟨h3, h4⟩; exact ⟨⟨h3, h4⟩, by linarith⟩
          · rintro ⟨h3, _⟩; exact h3
    · simp only [hp, if_false]
      by_cases hp2 : p > 0
      · simp only [hp2, if_true]
        by_cases h1 : q / p < a
        · simp only [h1, if_true]
          intro u hu
          have := (hS u).mpr hu.1
          have := (mul_le_iff_of_pos p q u hp2).mp hu.2
          linarith
        · simp only [h1, if_false]
          by_cases h2 : q / p < b
          · simp only [h2, if_true]
            refine ⟨by linarith, fun u => ?_⟩
            show _ ↔ S u ∧ p * u ≤ q
            rw [mul_le_iff_of_pos p q u hp2, ← hS u]
            constructor
            · rintro ⟨h3, h4⟩; exact ⟨⟨h3, by linarith⟩, h4⟩
            · rintro ⟨⟨h3, _⟩, h4⟩; exact ⟨h3, h4⟩
          · simp only [h2, if_false]
            refine ⟨hab, fun u => ?_⟩
            show _ ↔ S u ∧ p * u ≤ q
            rw [mul_le_iff_of_pos p q u hp2, ← hS u]
            constructor
            · rintro ⟨h3, h4⟩; exact ⟨⟨h3, h4⟩, by linarith⟩
            · rintro ⟨h3, _⟩; exact h3
      · simp only [hp2, if_false]
        have hp0 : p = 0 := by linarith [not_lt.mp hp, not_lt.mp hp2]
        by_cases hq : q < 0
        · simp only [hq, if_true]
          intro u hu
          have := hu.2
          rw [hp0, zero_mul] at this
          linarith
        · simp only [hq, if_false]
          refine ⟨hab, fun u => ?_⟩
          show _ ↔ S u ∧ p * u ≤ q
          rw [hS u, hp0, zero_mul]
          exact ⟨fun h3 => ⟨h3, not_lt.mp hq⟩, fun h3 => h3.1⟩

theorem ClipExact_isSome (S : ℚ → Prop) (o : Option (ℚ × ℚ)) (h : ClipExact S o) :
    o.isSome = true ↔ ∃ u, S u := by
  cases o with
  | none => simpa using h
  | some ab =>
    obtain ⟨a, b⟩ := ab
    simp only [Option.isSome_some, true_iff]
    exact ⟨a, (h.2 a).mp ⟨le_refl _, h.1⟩⟩

/-- `ClipLine3D` accepts a segment exactly when one of its points lies in the
closed box. -/
theorem ClipLine3D_iff_point
    (minX minY minZ maxX maxY maxZ x1 y1 z1 x2 y2 z2 : ℚ) :
    Geometry.ClipLine3D minX minY minZ maxX maxY maxZ x1 y1 z1 x2 y2 z2 = true ↔
      ∃ u : ℚ, 0 ≤ u ∧ u ≤ 1 ∧
        minX ≤ x1 + u * (x2 - x1) ∧ x1 + u * (x2 - x1) ≤ maxX ∧
        minY ≤ y1 + u * (y2 - y1) ∧ y1 + u * (y2 - y1) ≤ maxY ∧
        minZ ≤ z1 + u * (z2 - z1) ∧ z1 + u * (z2 - z1) ≤ maxZ := by
  have h0 : ClipExact (fun u : ℚ => 0 ≤ u ∧ u ≤ 1) (some (0, 1)) :=
    ⟨by norm_num, fun u => Iff.rfl⟩
  have h1 := ClipTest3D_exact _ (-(x2 - x1)) (x1 - minX) _ h0
  have h2 := ClipTest3D_exact _ (x2 - x1) (maxX - x1) _ h1
  have h3 := ClipTest3D_exact _ (-(y2 - y1)) (y1 - minY) _ h2
  have h4 := ClipTest3D_exact _ (y2 - y1) (maxY - y1) _ h3
  have h5 := ClipTest3D_exact _ (-(z2 - z1)) (z1 - minZ) _ h4
  have h6 := ClipTest3D_exact _ (z2 - z1) (maxZ - z1) _ h5
  have := ClipExact_isSome _ _ h6
  simp only [Option.some_bind] at this
  unfold Geometry.ClipLine3D
  simp only []
  rw [this]
  constructor
  · rintro ⟨u, ⟨⟨⟨⟨⟨⟨ha, hb⟩, c1⟩, c2⟩, c3⟩, c4⟩, c5⟩, c6⟩
    exact ⟨u, ha, hb, by linarith, by linarith, by linarith, by linarith, by linarith,
      by linarith⟩
  · rintro ⟨u, ha, hb, c1, c2, c3, c4, c5, c6⟩
    exact ⟨u, ⟨⟨⟨⟨⟨⟨ha, hb⟩, by linarith⟩, by linarith⟩, by linarith⟩, by linarith⟩,
      by linarith⟩, by linarith⟩

/-- C37: `Geometry::ClipLine3D` returns `1` exactly when some point
`(x1, y1, z1) + u ((x2, y2, z2) - (x1, y1, z1))` with `0 ≤ u ≤ 1` lies in the
closed box `[minX, maxX] × [minY, maxY] × [minZ, maxZ]` (exact arithmetic).
This holds for every box and every segment, so in particular for the boxes
with `min ≤ max` and for a segment reduced to a single point. -/
theorem C37_ClipLine3D_iff_segment_meets_box
    (minX minY minZ maxX maxY maxZ x1 y1 z1 x2 y2 z2 : ℚ) :
    Geometry.ClipLine3D minX minY minZ maxX maxY maxZ x1 y1 z1 x2 y2 z2 = true ↔
      ∃ u : ℚ, 0 ≤ u ∧ u ≤ 1 ∧
        minX ≤ x1 + u * (x2 - x1) ∧ x1 + u * (x2 - x1) ≤ maxX ∧
        minY ≤ y1 + u * (y2 - y1) ∧ y1 + u * (y2 - y1) ≤ maxY ∧
        minZ ≤ z1 + u * (z2 - z1) ∧ z1 + u * (z2 - z1) ≤ maxZ :=
  ClipLine3D_iff_point minX minY minZ maxX maxY maxZ x1 y1 z1 x2 y2 z2

/-! ## `Geometry_Wrapper::line_in_tetra` -/

theorem line_in_tetra_face_exact (S : ℚ → Prop) (v1 d : Point) (tet : Tetrahedron) (mesh : Mesh)
    (i : Fin 4) (o : Option (ℚ × ℚ)) (h : ClipExact S o) :
    ClipExact
      (fun u => S u ∧
        plane_side (mesh.get_vertex (Geometry_Wrapper.ordered_TF tet i 0)).toPoint
          (mesh.get_vertex (Geometry_Wrapper.ordered_TF tet i 1)).toPoint
          (mesh.get_vertex (Geometry_Wrapper.ordered_TF tet i 2)).toPoint
          ⟨v1.x + u * d.x, v1.y + u * d.y, v1.z + u * d.z⟩ ≤ 0)
      (o.bind fun u => Geometry_Wrapper.line_in_tetra_face v1 d tet mesh i u.1 u.2) := by
  cases o with
  | none => intro u hu; exact h u hu.1
  | some ab =>
    obtain ⟨a, b⟩ := ab
    obtain ⟨hab, hS⟩ := h
    simp only [Option.some_bind, Geometry_Wrapper.line_in_tetra_face]
    generalize hA : (mesh.get_vertex (Geometry_Wrapper.ordered_TF tet i 0)).toPoint = A
    generalize hB : (mesh.get_vertex (Geometry_Wrapper.ordered_TF tet i 1)).toPoint = B
    generalize hC : (mesh.get_vertex (Geometry_Wrapper.ordered_TF tet i 2)).toPoint = C
    generalize hN : -(v1.sub A).dot_3D ((B.sub A).cross_3D (C.sub A)) = N
    generalize hD : d.dot_3D ((B.sub A).cross_3D (C.sub A)) = D
    have key : ∀ u : ℚ, plane_side A B C ⟨v1.x + u * d.x, v1.y + u * d.y, v1.z + u * d.z⟩ ≤ 0 ↔
        D * u ≤ N := by
      intro u
      have e : plane_side A B C ⟨v1.x + u * d.x, v1.y + u * d.y, v1.z + u * d.z⟩ =
          D * u - N := by
        rw [← hN, ← hD]
        simp only [plane_side, Point.dot_3D, Point.cross_3D, Point.sub]
        ring
      rw [e]
      constructor <;> intro h <;> linarith
    by_cases hD0 : D = 0
    · simp only [hD0, if_true]
      by_cases hN0 : N < 0
      · simp only [hN0, if_true]
        intro u hu
        have := (key u).mp hu.2
        rw [hD0, zero_mul] at this
        linarith
      · simp only [hN0, if_false]
        refine ⟨hab, fun u => ?_⟩
        show _ ↔ S u ∧ _
        rw [key u, hS u, hD0, zero_mul]
        exact ⟨fun h3 => ⟨h3, not_lt.mp hN0⟩, fun h3 => h3.1⟩
    · simp only [hD0, if_false]
      by_cases hneg : D < 0
      · simp only [hneg, if_true]
        by_cases h1 : max a (N / D) > b
        · simp only [h1, if_true]
          intro u hu
          have h2 := (hS u).mpr hu.1
          have h3 := (mul_le_iff_of_neg D N u hneg).mp ((key u).mp hu.2)
          have := max_le h2.1 h3
          linarith
        · simp only [h1, if_false]
          refine ⟨not_lt.mp h1, fun u => ?_⟩
          show _ ↔ S u ∧ _
          rw [key u, mul_le_iff_of_neg D N u hneg, ← hS u, max_le_iff]
          constructor
          · rintro ⟨⟨h3, h4⟩, h5⟩; exact ⟨⟨h3, h5⟩, h4⟩
          · rintro ⟨⟨h3, h5⟩, h4⟩; exact ⟨⟨h3, h4⟩, h5⟩
      · have hpos : D > 0 := lt_of_le_of_ne (not_lt.mp hneg) (Ne.symm hD0)
        simp only [hneg, if_false, hpos, if_true]
        by_cases h1 : min b (N / D) < a
        · simp only [h1, if_true]
          intro u hu
          have h2 := (hS u).mpr hu.1
          have h3 := (mul_le_iff_of_pos D N u hpos).mp ((key u).mp hu.2)
          have := le_min h2.2 h3
          linarith
        · simp only [h1, if_false]
          refine ⟨not_lt.mp h1, fun u => ?_⟩
          show _ ↔ S u ∧ _
          rw [key u, mul_le_iff_of_pos D N u hpos, ← hS u, le_min_iff]
          constructor
          · rintro ⟨h3, h4, h5⟩; exact ⟨⟨h3, h4⟩, h5⟩
          · rintro ⟨⟨h3, h4⟩, h5⟩; exact ⟨h3, h4, h5⟩

/-- `line_in_tetra` returns `true` exactly when some point of the segment is
on the non-positive side of the four face planes, each taken with the order of
`ordered_TF`. -/
theorem line_in_tetra_iff_sides (a b : Point) (t_id : Nat) (mesh : Mesh) :
    Geometry_Wrapper.line_in_tetra a b t_id mesh = true ↔
      ∃ s : ℚ, 0 ≤ s ∧ s ≤ 1 ∧
        plane_side (mesh.tetra_vertex t_id 0) (mesh.tetra_vertex t_id 1)
          (mesh.tetra_vertex t_id 2) (segment_point a b s) ≤ 0 ∧
        plane_side (mesh.tetra_vertex t_id 1) (mesh.tetra_vertex t_id 3)
          (mesh.tetra_vertex t_id 2) (segment_point a b s) ≤ 0 ∧
        plane_side (mesh.tetra_vertex t_id 3) (mesh.tetra_vertex t_id 0)
          (mesh.tetra_vertex t_id 2) (segment_point a b s) ≤ 0 ∧
        plane_side (mesh.tetra_vertex t_id 1) (mesh.tetra_vertex t_id 0)
          (mesh.tetra_vertex t_id 3) (segment_point a b s) ≤ 0 := by
  have h0 : ClipExact (fun u : ℚ => 0 ≤ u ∧ u ≤ 1) (some (0, 1)) :=
    ⟨by norm_num, fun u => Iff.rfl⟩
  have h1 := line_in_tetra_face_exact _ a (b.sub a) (mesh.get_tetrahedron t_id) mesh 0 _ h0
  have h2 := line_in_tetra_face_exact _ a (b.sub a) (mesh.get_tetrahedron t_id) mesh 1 _ h1
  have h3 := line_in_tetra_face_exact _ a (b.sub a) (mesh.get_tetrahedron t_id) mesh 2 _ h2
  have h4 := line_in_tetra_face_exact _ a (b.sub a) (mesh.get_tetrahedron t_id) mesh 3 _ h3
  have := ClipExact_isSome _ _ h4
  unfold Geometry_Wrapper.line_in_tetra
  simp only [finRange_four, List.foldl_cons, List.foldl_nil]
  rw [this]
  have e : ∀ u : ℚ, (⟨a.x + u * (b.sub a).x, a.y + u * (b.sub a).y, a.z + u * (b.sub a).z⟩ : Point)
      = segment_point a b u := fun u => rfl
  simp only [e, Geometry_Wrapper.ordered_TF, Mesh.tetra_vertex]
  constructor
  · rintro ⟨u, ⟨⟨⟨⟨ha, hb⟩, c1⟩, c2⟩, c3⟩, c4⟩
    exact ⟨u, ha, hb, c1, c2, c3, c4⟩
  · rintro ⟨u, ha, hb, c1, c2, c3, c4⟩
    exact ⟨u, ⟨⟨⟨⟨ha, hb⟩, c1⟩, c2⟩, c3⟩, c4⟩

theorem closed_tetrahedron_iff_sides (v0 v1 v2 v3 x : Point)
    (hright : 0 < Geometry.Det3D (v0.x - v3.x) (v0.y - v3.y) (v0.z - v3.z)
      (v1.x - v0.x) (v1.y - v0.y) (v1.z - v0.z) (v2.x - v0.x) (v2.y - v0.y) (v2.z - v0.z)) :
    (plane_side v0 v1 v2 x ≤ 0 ∧ plane_side v1 v3 v2 x ≤ 0 ∧ plane_side v3 v0 v2 x ≤ 0 ∧
      plane_side v1 v0 v3 x ≤ 0) ↔ inClosedTetrahedron v0 v1 v2 v3 x := by
  obtain ⟨x0, y0, z0⟩ := v0
  obtain ⟨x1, y1, z1⟩ := v1
  obtain ⟨x2, y2, z2⟩ := v2
  obtain ⟨x3, y3, z3⟩ := v3
  obtain ⟨px, py, pz⟩ := x
  simp only [plane_side, Point.dot_3D, Point.cross_3D, Point.sub, inClosedTetrahedron,
    Geometry.Det3D, Geometry.Det2D] at *
  generalize hΔ : (x0 - x3) * ((y1 - y0) * (z2 - z0) - (z1 - z0) * (y2 - y0)) -
      (y0 - y3) * ((x1 - x0) * (z2 - z0) - (z1 - z0) * (x2 - x0)) +
      (z0 - z3) * ((x1 - x0) * (y2 - y0) - (y1 - y0) * (x2 - x0)) = Δ at hright
  have hΔ0 : Δ ≠ 0 := ne_of_gt hright
  constructor
  · rintro ⟨h3, h0, h1, h2⟩
    refine ⟨-((px - x1) * ((y3 - y1) * (z2 - z1) - (y2 - y1) * (z3 - z1)) +
          (py - y1) * ((z3 - z1) * (x2 - x1) - (z2 - z1) * (x3 - x1)) +
          (pz - z1) * ((x3 - x1) * (y2 - y1) - (x2 - x1) * (y3 - y1))) / Δ,
      -((px - x3) * ((y0 - y3) * (z2 - z3) - (y2 - y3) * (z0 - z3)) +
          (py - y3) * ((z0 - z3) * (x2 - x3) - (z2 - z3) * (x0 - x3)) +
          (pz - z3) * ((x0 - x3) * (y2 - y3) - (x2 - x3) * (y0 - y3))) / Δ,
      -((px - x1) * ((y0 - y1) * (z3 - z1) - (y3 - y1) * (z0 - z1)) +
          (py - y1) * ((z0 - z1) * (x3 - x1) - (z3 - z1) * (x0 - x1)) +
          (pz - z1) * ((x0 - x1) * (y3 - y1) - (x3 - x1) * (y0 - y1))) / Δ,
      -((px - x0) * ((y1 - y0) * (z2 - z0) - (y2 - y0) * (z1 - z0)) +
          (py - y0) * ((z1 - z0) * (x2 - x0) - (z2 - z0) * (x1 - x0)) +
          (pz - z0) * ((x1 - x0) * (y2 - y0) - (x2 - x0) * (y1 - y0))) / Δ,
      ?_, ?_, ?_, ?_, ?_, ?_, ?_, ?_⟩
    · exact div_nonneg (by linarith) hright.le
    · exact div_nonneg (by linarith) hright.le
    · exact div_nonneg (by linarith) hright.le
    · exact div_nonneg (by linarith) hright.le
    · rw [← hΔ] at hΔ0 ⊢
      field_simp
      ring
    · rw [← hΔ] at hΔ0 ⊢
      field_simp
      ring
    · rw [← hΔ] at hΔ0 ⊢
      field_simp
      ring
    · rw [← hΔ] at hΔ0 ⊢
      field_simp
      ring
  · rintro ⟨l0, l1, l2, l3, p0, p1, p2, p3, hs, hx, hy, hz⟩
    have e0 : l0 = 1 - l1 - l2 - l3 := by linarith
    subst e0
    subst hx hy hz
    have key : ∀ (l t : ℚ), 0 ≤ l → t = -(l * Δ) → t ≤ 0 := by
      intro l t hl ht
      have := mul_nonneg hl hright.le
      linarith
    refine ⟨?_, ?_, ?_, ?_⟩
    · apply key l3 _ p3
      rw [← hΔ]; ring
    · apply key (1 - l1 - l2 - l3) _ p0
      rw [← hΔ]; ring
    · apply key l1 _ p1
      rw [← hΔ]; ring
    · apply key l2 _ p2
      rw [← hΔ]; ring

/-- C36: for every tetrahedron stored in `RIGHT` orientation (the determinant
of `(v0 - v3, v1 - v0, v2 - v0)` is positive) and every segment from `a` to
`b`, `Geometry_Wrapper::line_in_tetra` returns `true` exactly when some point
`a + s (b - a)` with `0 ≤ s ≤ 1` lies in the closed tetrahedron, the set of
the convex combinations of its four vertices (exact arithmetic). -/
theorem C36_line_in_tetra_iff_segment_meets_tetrahedron (a b : Point) (t_id : Nat) (mesh : Mesh)
    (hright : 0 < Geometry.Det3D
      ((mesh.tetra_vertex t_id 0).x - (mesh.tetra_vertex t_id 3).x)
      ((mesh.tetra_vertex t_id 0).y - (mesh.tetra_vertex t_id 3).y)
      ((mesh.tetra_vertex t_id 0).z - (mesh.tetra_vertex t_id 3).z)
      ((mesh.tetra_vertex t_id 1).x - (mesh.tetra_vertex t_id 0).x)
      ((mesh.tetra_vertex t_id 1).y - (mesh.tetra_vertex t_id 0).y)
      ((mesh.tetra_vertex t_id 1).z - (mesh.tetra_vertex t_id 0).z)
      ((mesh.tetra_vertex t_id 2).x - (mesh.tetra_vertex t_id 0).x)
      ((mesh.tetra_vertex t_id 2).y - (mesh.tetra_vertex t_id 0).y)
      ((mesh.tetra_vertex t_id 2).z - (mesh.tetra_vertex t_id 0).z)) :
    Geometry_Wrapper.line_in_tetra a b t_id mesh = true ↔
      ∃ s : ℚ, 0 ≤ s ∧ s ≤ 1 ∧
        inClosedTetrahedron (mesh.tetra_vertex t_id 0) (mesh.tetra_vertex t_id 1)
          (mesh.tetra_vertex t_id 2) (mesh.tetra_vertex t_id 3) (segment_point a b s) := by
  rw [line_in_tetra_iff_sides]
  constructor
  · rintro ⟨s, h0, h1, hs⟩
    exact ⟨s, h0, h1, (closed_tetrahedron_iff_sides _ _ _ _ _ hright).mp hs⟩
  · rintro ⟨s, h0, h1, hs⟩
    exact ⟨s, h0, h1, (closed_tetrahedron_iff_sides _ _ _ _ _ hright).mpr hs⟩

/-- C36 at the second tetrahedron of the cube mesh, whose stored order has a
positive determinant, and the segment from `(-1, 1/2, 1/2)` to `(2, 1/2, 1/2)`
through the centre of the cube: `line_in_tetra` returns `true`, so a point of
the segment lies in the closed tetrahedron. -/
theorem C36_line_in_tetra_iff_segment_meets_tetrahedron_witness :
    Geometry_Wrapper.line_in_tetra ⟨-1, 1 / 2, 1 / 2⟩ ⟨2, 1 / 2, 1 / 2⟩ 2 Examples.cubeMesh = true ∧
      ∃ s : ℚ, 0 ≤ s ∧ s ≤ 1 ∧
        inClosedTetrahedron (Examples.cubeMesh.tetra_vertex 2 0)
          (Examples.cubeMesh.tetra_vertex 2 1) (Examples.cubeMesh.tetra_vertex 2 2)
          (Examples.cubeMesh.tetra_vertex 2 3)
          (segment_point ⟨-1, 1 / 2, 1 / 2⟩ ⟨2, 1 / 2, 1 / 2⟩ s) :=
  ⟨by decide!,
    (C36_line_in_tetra_iff_segment_meets_tetrahedron ⟨-1, 1 / 2, 1 / 2⟩ ⟨2, 1 / 2, 1 / 2⟩ 2
      Examples.cubeMesh (by decide!)).mp (by decide!)⟩

/-! ## `T_Tree::is_full`, `PT_Tree::is_full_tetrahedra`: the exact condition -/

/-- The loop of `is_full` returns `true` when no vertex occurs in `t_size`
pairs: `count` never reaches `t_size`. -/
theorem common_vertex_loop_true (kt t_size : Nat) :
    ∀ (rest : List vertex_tetrahedron_pair) (a : vertex_tetrahedron_pair) (count : Nat),
      count + rest.countP (fun x => x.v = a.v) < t_size →
      (∀ c, rest.countP (fun x => x.v = c) < t_size) →
      common_vertex_loop kt t_size (a :: rest) count = true := by
  intro rest
  induction rest with
  | nil => intro a count _ _; rfl
  | cons b rest ih =>
    intro a count h1 h2
    have hcount : ∀ c, (b :: rest).countP (fun x => x.v = c) =
        rest.countP (fun x => x.v = c) + (if b.v = c then 1 else 0) := by
      intro c; rw [List.countP_cons]; simp
    simp only [common_vertex_loop]
    by_cases heq : a.v = b.v
    · simp only [heq, if_true]
      rw [hcount, heq] at h1
      simp only [if_true] at h1
      rw [if_neg (by omega)]
      apply ih b (count + 1) (by omega)
      intro c
      have := h2 c
      rw [hcount] at this
      omega
    · simp only [heq, if_false]
      apply ih b 1
      · have := h2 b.v
        rw [hcount] at this
        simp only [if_true] at this
        omega
      · intro c
        have := h2 c
        rw [hcount] at this
        omega

theorem countP_four_le (f : Fin 4 → Nat) (t c : Nat) (hf : ∀ i j : Fin 4, f i = f j → i = j) :
    ([⟨f 0, t⟩, ⟨f 1, t⟩, ⟨f 2, t⟩, ⟨f 3, t⟩] : List vertex_tetrahedron_pair).countP
      (fun x => x.v = c) ≤ 1 := by
  have h01 : f 0 ≠ f 1 := fun h => absurd (hf 0 1 h) (by decide)
  have h02 : f 0 ≠ f 2 := fun h => absurd (hf 0 2 h) (by decide)
  have h03 : f 0 ≠ f 3 := fun h => absurd (hf 0 3 h) (by decide)
  have h12 : f 1 ≠ f 2 := fun h => absurd (hf 1 2 h) (by decide)
  have h13 : f 1 ≠ f 3 := fun h => absurd (hf 1 3 h) (by decide)
  have h23 : f 2 ≠ f 3 := fun h => absurd (hf 2 3 h) (by decide)
  simp only [List.countP_cons, List.countP_nil, decide_eq_true_eq]
  split_ifs <;> omega

theorem countP_four_zero (f : Fin 4 → Nat) (t c : Nat) (h : ∀ j : Fin 4, f j ≠ c) :
    ([⟨f 0, t⟩, ⟨f 1, t⟩, ⟨f 2, t⟩, ⟨f 3, t⟩] : List vertex_tetrahedron_pair).countP
      (fun x => x.v = c) = 0 := by
  simp only [List.countP_cons, List.countP_nil, decide_eq_true_eq, h 0, h 1, h 2, h 3, if_false]

/-- With four distinct vertex ids in each tetrahedron, a vertex that is missing
from one tetrahedron of the array occurs in fewer pairs than the array has
tetrahedra. -/
theorem countP_pairs_lt (mesh : Mesh) (c : Nat) (ts : List Nat)
    (hdist : ∀ t ∈ ts, ∀ i j : Fin 4,
      (mesh.get_tetrahedron t).TV i = (mesh.get_tetrahedron t).TV j → i = j) :
    (ts.flatMap (fun t =>
      ([⟨(mesh.get_tetrahedron t).TV 0, t⟩, ⟨(mesh.get_tetrahedron t).TV 1, t⟩,
        ⟨(mesh.get_tetrahedron t).TV 2, t⟩, ⟨(mesh.get_tetrahedron t).TV 3, t⟩] :
        List vertex_tetrahedron_pair))).countP (fun x => x.v = c) ≤ ts.length ∧
    ((∃ t ∈ ts, ∀ j : Fin 4, (mesh.get_tetrahedron t).TV j ≠ c) →
      (ts.flatMap (fun t =>
        ([⟨(mesh.get_tetrahedron t).TV 0, t⟩, ⟨(mesh.get_tetrahedron t).TV 1, t⟩,
          ⟨(mesh.get_tetrahedron t).TV 2, t⟩, ⟨(mesh.get_tetrahedron t).TV 3, t⟩] :
          List vertex_tetrahedron_pair))).countP (fun x => x.v = c) < ts.length) := by
  induction ts with
  | nil => simp
  | cons t ts ih =>
    obtain ⟨ih1, ih2⟩ := ih (fun x hx => hdist x (by simp [hx]))
    have h4 := countP_four_le (mesh.get_tetrahedron t).TV t c (hdist t (by simp))
    simp only [List.flatMap_cons, List.countP_append, List.length_cons]
    refine ⟨by omega, ?_⟩
    rintro ⟨u, hu, hmiss⟩
    rcases List.mem_cons.mp hu with rfl | hu'
    · have := countP_four_zero (mesh.get_tetrahedron u).TV u c hmiss
      omega
    · have := ih2 ⟨u, hu', hmiss⟩
      omega

/-- A leaf with more than `T_max` tetrahedra, each with four distinct vertex
ids, and no vertex id common to all of them is full. -/
theorem T_is_full_of_no_common_vertex (mesh : Mesh) (kt : Nat) (vs ts : List Nat)
    (hdist : ∀ t ∈ ts, ∀ i j : Fin 4,
      (mesh.get_tetrahedron t).TV i = (mesh.get_tetrahedron t).TV j → i = j)
    (hsize : kt < ts.length)
    (hno : ¬ ∃ c, ∀ t ∈ ts, ∃ j : Fin 4, (mesh.get_tetrahedron t).TV j = c) :
    T_Tree.is_full mesh kt (Node.leaf vs ts) = true := by
  simp only [T_Tree.is_full, Node.get_t_array_size, Node.get_t_array, gt_iff_lt, hsize, if_true]
  have hperm := List.perm_insertionSort (fun a b : vertex_tetrahedron_pair => a.v ≤ b.v)
    (ts.flatMap (fun t =>
      ([⟨(mesh.get_tetrahedron t).TV 0, t⟩, ⟨(mesh.get_tetrahedron t).TV 1, t⟩,
        ⟨(mesh.get_tetrahedron t).TV 2, t⟩, ⟨(mesh.get_tetrahedron t).TV 3, t⟩] :
        List vertex_tetrahedron_pair)))
  have hlt : ∀ c, (sorting_vertices ts mesh).countP (fun x => x.v = c) < ts.length := by
    intro c
    unfold sorting_vertices
    rw [hperm.countP_eq]
    apply (countP_pairs_lt mesh c ts hdist).2
    by_contra hcon
    apply hno
    refine ⟨c, fun t ht => ?_⟩
    by_contra hmiss
    exact hcon ⟨t, ht, fun j hj => hmiss ⟨j, hj⟩⟩
  generalize sorting_vertices ts mesh = L at hlt
  cases L with
  | nil => rfl
  | cons a rest =>
    have hcount : ∀ c, (a :: rest).countP (fun x => x.v = c) =
        rest.countP (fun x => x.v = c) + (if a.v = c then 1 else 0) := by
      intro c; rw [List.countP_cons]; simp
    apply common_vertex_loop_true
    · have := hlt a.v
      rw [hcount] at this
      simp only [if_true] at this
      omega
    · intro c
      have := hlt c
      rw [hcount] at this
      omega

/-- C32 fails for the threshold `T_max = 0`: the leaf listing the single
tetrahedron 1 of the cube mesh is reported full, although the vertex 9 (like
each of its four vertices) is common to all the tetrahedra of the leaf. -/
theorem C32_counterexample_threshold_zero :
    T_Tree.is_full Examples.cubeMesh 0 (Node.leaf [] [1]) = true ∧
      (∀ t ∈ [1], ∃ j : Fin 4, (Examples.cubeMesh.get_tetrahedron t).TV j = 9) ∧
      (∀ t ∈ [1], ∀ i j : Fin 4, (Examples.cubeMesh.get_tetrahedron t).TV i =
        (Examples.cubeMesh.get_tetrahedron t).TV j → i = j) := by
  refine ⟨by decide, by decide, by decide⟩

/-- C32 (amended): for every threshold `T_max ≥ 1` and every leaf whose
tetrahedra each have four distinct vertex ids, `T_Tree::is_full` returns `true`
exactly when the leaf lists more than `T_max` tetrahedra and no vertex id is
common to all of them; `PT_Tree::is_full_tetrahedra` returns the same value. -/
theorem C32_is_full_iff_no_common_vertex (mesh : Mesh) (kt : Nat) (hkt : 1 ≤ kt)
    (vs ts : List Nat)
    (hdist : ∀ t ∈ ts, ∀ i j : Fin 4,
      (mesh.get_tetrahedron t).TV i = (mesh.get_tetrahedron t).TV j → i = j) :
    (T_Tree.is_full mesh kt (Node.leaf vs ts) = true ↔
      (kt < ts.length ∧
        ¬ ∃ c, ∀ t ∈ ts, ∃ j : Fin 4, (mesh.get_tetrahedron t).TV j = c)) ∧
    PT_Tree.is_full_tetrahedra mesh kt (Node.leaf vs ts) =
      T_Tree.is_full mesh kt (Node.leaf vs ts) := by
  refine ⟨?_, rfl⟩
  constructor
  · intro hfull
    have hsize : kt < ts.length := by
      by_contra hcon
      simp only [T_Tree.is_full, Node.get_t_array_size, gt_iff_lt, hcon, if_false] at hfull
      exact Bool.noConfusion hfull
    refine ⟨hsize, ?_⟩
    rintro ⟨c, hc⟩
    rw [T_is_full_common_vertex mesh kt c hkt vs ts hc] at hfull
    exact Bool.noConfusion hfull
  · rintro ⟨hsize, hno⟩
    exact T_is_full_of_no_common_vertex mesh kt vs ts hdist hsize hno

/-- C32 (amended) on the mesh of two tetrahedra with disjoint vertex ids and
`T_max = 1`: the leaf listing both is full. -/
theorem C32_is_full_iff_no_common_vertex_witness :
    T_Tree.is_full Examples.twinMesh 1 (Node.leaf [] [1, 2]) = true ∧
      (1 < [1, 2].length ∧
        ¬ ∃ c, ∀ t ∈ [1, 2], ∃ j : Fin 4, (Examples.twinMesh.get_tetrahedron t).TV j = c) :=
  ⟨by decide,
    (C32_is_full_iff_no_common_vertex Examples.twinMesh 1 (by decide) [] [1, 2]
      (by decide)).1.mp (by decide)⟩

/-! ## `Reindexer::compress_t_array`: the ranges it folds -/

theorem encode_range_block (start : Int) (count : Nat) :
    (if count > 1 then [-start, (count : Int)]
      else if count = 1 then [start, start + (count : Int)]
      else [start]) = encode_range (start, count + 1) := by
  unfold encode_range range_ids
  by_cases h1 : count > 1
  · have h3 : 3 ≤ count + 1 := by omega
    simp only [h1, if_true, h3]
    congr 2
    push_cast
    ring
  · have h3 : ¬ (3 ≤ count + 1) := by omega
    simp only [h1, if_false, h3]
    by_cases h2 : count = 1
    · subst h2
      simp [List.range_succ]
    · have h0 : count = 0 := by omega
      subst h0
      simp [List.range_succ]

theorem compress_loop_ranges (junk : Int) (l : List Int) :
    ∀ (suf pre : List Int) (x : Int) (count : Nat) (start : Int) (out : List Int),
      l = pre ++ x :: suf → x = start + (count : Int) →
      compress_loop junk l (suf.length + 1) pre.length count start out =
        out ++ (maximal_ranges_from start (count + 1) suf).flatMap encode_range := by
  intro suf
  induction suf with
  | nil =>
    intro pre x count start out hl hx
    have hlen : ¬ (pre.length + 1 < l.length) := by subst hl; simp
    simp only [List.length_nil, compress_loop, hlen, false_and, if_false, maximal_ranges_from,
      List.flatMap_cons, List.flatMap_nil, List.append_nil, ← encode_range_block]
    split_ifs <;> rfl
  | cons y suf ih =>
    intro pre x count start out hl hx
    have hlen : pre.length + 1 < l.length := by subst hl; simp
    have hgi : l.getD pre.length junk = x := by
      subst hl; rw [List.getD_eq_getElem?_getD, getElem?_append_cons]; rfl
    have hgi1 : l.getD (pre.length + 1) junk = y := by
      subst hl; rw [List.getD_eq_getElem?_getD, getElem?_append_cons_succ]; rfl
    have hl' : l = (pre ++ [x]) ++ y :: suf := by subst hl; simp
    have hpl : (pre ++ [x]).length = pre.length + 1 := by simp
    rw [show (y :: suf).length + 1 = (suf.length + 1) + 1 by simp, compress_loop_succ, hgi, hgi1]
    by_cases hc : x + 1 = y
    · have hy : y = start + ((count + 1 : Nat) : Int) := by push_cast; omega
      rw [if_pos ⟨hlen, hc⟩, ← hpl, ih (pre ++ [x]) y (count + 1) start out hl' hy]
      simp only [maximal_ranges_from, hy, if_true]
    · have hy : ¬ (y = start + ((count + 1 : Nat) : Int)) := by push_cast; omega
      rw [if_neg (fun h => hc h.2), ← hpl,
        ih (pre ++ [x]) y 0 y _ hl' (by simp)]
      simp only [maximal_ranges_from, hy, if_false, List.flatMap_cons, ← encode_range_block,
        List.append_assoc]
      split_ifs <;> simp

/-- The array written by `compress_t_array` is the concatenation of the
encodings of the maximal ranges of consecutive ids of the sorted list. -/
theorem compress_t_array_ranges (junk : Int) (L : List Int) (hne : L ≠ []) :
    compress_t_array junk [] L =
      (maximal_ranges (L.insertionSort (fun a b => a ≤ b))).flatMap encode_range := by
  unfold compress_t_array
  simp only []
  generalize hS : L.insertionSort (fun a b => a ≤ b) = S
  have hlen : S.length = L.length := by rw [← hS]; exact List.length_insertionSort _ _
  cases S with
  | nil =>
    exfalso
    apply hne
    exact List.length_eq_zero.mp (by rw [← hlen]; rfl)
  | cons x suf =>
    have h := compress_loop_ranges junk (x :: suf) suf [] x 0 x [] rfl (by simp)
    simp only [List.length_nil, List.nil_append, zero_add] at h
    simp only [List.getD_cons_zero, List.length_cons, List.nil_append, maximal_ranges]
    split_ifs with h1
    · have : suf = [] := List.length_eq_zero.mp (by omega)
      subst this
      simp [maximal_ranges_from, encode_range, range_ids, List.range_succ]
    · exact h

theorem range_ids_succ (h : Int) (len : Nat) :
    range_ids (h, len + 1) = range_ids (h, len) ++ [h + (len : Int)] := by
  simp [range_ids, List.range_succ]

theorem range_ids_one (h : Int) : range_ids (h, 1) = [h] := by
  simp [range_ids, List.range_succ]

theorem maximal_ranges_from_cover (rest : List Int) :
    ∀ (h : Int) (len : Nat),
      (maximal_ranges_from h len rest).flatMap range_ids = range_ids (h, len) ++ rest := by
  induction rest with
  | nil => intro h len; simp [maximal_ranges_from]
  | cons y rest ih =>
    intro h len
    simp only [maximal_ranges_from]
    split_ifs with hy
    · rw [ih, range_ids_succ, hy]; simp
    · rw [List.flatMap_cons, ih, range_ids_one]
      simp

theorem maximal_ranges_from_head (rest : List Int) :
    ∀ (h : Int) (len : Nat), ∃ len1 tl, maximal_ranges_from h len rest = (h, len1) :: tl := by
  induction rest with
  | nil => intro h len; exact ⟨len, [], rfl⟩
  | cons y rest ih =>
    intro h len
    simp only [maximal_ranges_from]
    split_ifs with hy
    · exact ih h (len + 1)
    · exact ⟨len, _, rfl⟩

theorem maximal_ranges_from_mem (rest : List Int) :
    ∀ (h : Int) (len : Nat), 1 ≤ len → 0 < h → (∀ y ∈ rest, 0 < y) →
      ∀ r ∈ maximal_ranges_from h len rest, 1 ≤ r.2 ∧ 0 < r.1 := by
  induction rest with
  | nil =>
    intro h len hl hh _ r hr
    simp only [maximal_ranges_from, List.mem_singleton] at hr
    subst hr; exact ⟨hl, hh⟩
  | cons y rest ih =>
    intro h len hl hh hpos r hr
    have hy : 0 < y := hpos y (by simp)
    have hrest : ∀ z ∈ rest, 0 < z := fun z hz => hpos z (by simp [hz])
    simp only [maximal_ranges_from] at hr
    split_ifs at hr with hc
    · exact ih h (len + 1) (by omega) hh hrest r hr
    · rcases List.mem_cons.mp hr with rfl | hr'
      · exact ⟨hl, hh⟩
      · exact ih y 1 (le_refl _) hy hrest r hr'

theorem maximal_ranges_from_maximal (rest : List Int) :
    ∀ (h : Int) (len : Nat), List.Chain (fun a b : Int => a < b) (h + (len : Int) - 1) rest →
      List.Chain' (fun r s : Int × Nat => r.1 + (r.2 : Int) < s.1)
        (maximal_ranges_from h len rest) := by
  induction rest with
  | nil => intro h len _; simp [maximal_ranges_from]
  | cons y rest ih =>
    intro h len hch
    obtain ⟨hlt, hch'⟩ := List.chain_cons.mp hch
    simp only [maximal_ranges_from]
    split_ifs with hy
    · apply ih h (len + 1)
      have e : h + ((len + 1 : Nat) : Int) - 1 = y := by push_cast; omega
      rw [e]; exact hch'
    · have hrec := ih y 1 (by
        have e : y + ((1 : Nat) : Int) - 1 = y := by push_cast; omega
        rw [e]; exact hch')
      obtain ⟨len1, tl, e⟩ := maximal_ranges_from_head rest y 1
      rw [e] at hrec ⊢
      exact List.chain'_cons.mpr ⟨by show h + (len : Int) < y; omega, hrec⟩

theorem tailsAtLeastTwo_cons_pos (x : Int) (out : List Int) (hx : 0 < x) :
    tailsAtLeastTwo (x :: out) = tailsAtLeastTwo out := by
  cases out with
  | nil => simp [tailsAtLeastTwo, hx]
  | cons k rest => simp [tailsAtLeastTwo, hx]

theorem tailsAtLeastTwo_encode (r : Int × Nat) (hr : 0 < r.1) (out : List Int) :
    tailsAtLeastTwo (encode_range r ++ out) = tailsAtLeastTwo out := by
  obtain ⟨h, len⟩ := r
  simp only at hr
  unfold encode_range
  by_cases h3 : 3 ≤ len
  · have hn : ¬ (0 < -h) := by omega
    have hneg : -h < 0 := by omega
    have h2 : (2 : Int) ≤ (len : Int) - 1 := by omega
    simp [h3, tailsAtLeastTwo, hn, hneg, h2]
  · simp only [h3, if_false]
    have hcases : len = 0 ∨ len = 1 ∨ len = 2 := by omega
    rcases hcases with rfl | rfl | rfl
    · simp [range_ids]
    · simp only [range_ids, List.range_succ, List.range_zero, List.nil_append, List.map_cons,
        List.map_nil, List.cons_append]
      exact tailsAtLeastTwo_cons_pos _ _ (by push_cast; omega)
    · simp only [range_ids, List.range_succ, List.range_zero, List.nil_append, List.map_cons,
        List.map_nil, List.cons_append]
      rw [tailsAtLeastTwo_cons_pos _ _ (by push_cast; omega),
        tailsAtLeastTwo_cons_pos _ _ (by push_cast; omega)]

theorem tailsAtLeastTwo_ranges (R : List (Int × Nat)) (h : ∀ r ∈ R, 0 < r.1) :
    tailsAtLeastTwo (R.flatMap encode_range) = true := by
  induction R with
  | nil => rfl
  | cons r R ih =>
    rw [List.flatMap_cons, tailsAtLeastTwo_encode r (h r (by simp))]
    exact ih (fun s hs => h s (by simp [hs]))

theorem encode_range_length (r : Int × Nat) : (encode_range r).length ≤ (range_ids r).length := by
  unfold encode_range
  split_ifs with h3
  · simp [range_ids]; omega
  · exact le_refl _

theorem flatMap_encode_length (R : List (Int × Nat)) :
    (R.flatMap encode_range).length ≤ (R.flatMap range_ids).length := by
  induction R with
  | nil => simp
  | cons r R ih =>
    simp only [List.flatMap_cons, List.length_append]
    have := encode_range_length r
    omega

/-- C33: for every non-empty duplicate-free list `L` of positive ids, the
maximal ranges of consecutive ids of sorted `L` (they cover sorted `L` in
order, each has at least one id, and the id after a range is smaller than the
head of the next range) are encoded one after the other in the array that
`compress_t_array` writes: a range of three or more ids as the single pair
`[-head, length - 1]`, a range of one or two ids as its plain ids. Hence every
header of the array is followed by a tail length of at least 2, and the array
has at most as many entries as `L`. -/
theorem C33_compress_t_array_folds_maximal_ranges (junk : Int) (L : List Int) (hne : L ≠ [])
    (hnd : L.Nodup) (hpos : ∀ t ∈ L, 0 < t) :
    (maximal_ranges (L.insertionSort (fun a b => a ≤ b))).flatMap range_ids =
        L.insertionSort (fun a b => a ≤ b) ∧
      (∀ r ∈ maximal_ranges (L.insertionSort (fun a b => a ≤ b)), 1 ≤ r.2) ∧
      List.Chain' (fun r s : Int × Nat => r.1 + (r.2 : Int) < s.1)
        (maximal_ranges (L.insertionSort (fun a b => a ≤ b))) ∧
      Reindexer.compress_t_array junk [] L =
        (maximal_ranges (L.insertionSort (fun a b => a ≤ b))).flatMap encode_range ∧
      tailsAtLeastTwo (Reindexer.compress_t_array junk [] L) = true ∧
      (Reindexer.compress_t_array junk [] L).length ≤ L.length := by
  have hout := compress_t_array_ranges junk L hne
  have hperm := List.perm_insertionSort (fun a b : Int => a ≤ b) L
  have hsorted := List.sorted_insertionSort (fun a b : Int => a ≤ b) L
  have hnd' : (L.insertionSort (fun a b => a ≤ b)).Nodup := hperm.nodup_iff.mpr hnd
  have hpos' : ∀ t ∈ L.insertionSort (fun a b => a ≤ b), 0 < t :=
    fun t ht => hpos t (hperm.mem_iff.mp ht)
  have hlen : (L.insertionSort (fun a b => a ≤ b)).length = L.length := hperm.length_eq
  rw [hout]
  generalize L.insertionSort (fun a b => a ≤ b) = S at hsorted hnd' hpos' hlen
  cases S with
  | nil =>
    exfalso
    apply hne
    exact List.length_eq_zero.mp (by rw [← hlen]; rfl)
  | cons x suf =>
    simp only [maximal_ranges]
    have hx : 0 < x := hpos' x (by simp)
    have hsuf : ∀ y ∈ suf, 0 < y := fun y hy => hpos' y (by simp [hy])
    have hmem := maximal_ranges_from_mem suf x 1 (le_refl _) hx hsuf
    have hcover := maximal_ranges_from_cover suf x 1
    have hcover' : (maximal_ranges_from x 1 suf).flatMap range_ids = x :: suf := by
      rw [hcover, range_ids_one]; rfl
    have hstrict : List.Chain (fun a b : Int => a < b) x suf :=
      List.Pairwise.chain (List.Sorted.lt_of_le hsorted hnd')
    refine ⟨hcover', fun r hr => (hmem r hr).1, ?_, trivial, ?_, ?_⟩
    · apply maximal_ranges_from_maximal
      have e : x + ((1 : Nat) : Int) - 1 = x := by push_cast; omega
      rw [e]; exact hstrict
    · exact tailsAtLeastTwo_ranges _ (fun r hr => (hmem r hr).2)
    · have := flatMap_encode_length (maximal_ranges_from x 1 suf)
      rw [hcover'] at this
      rw [← hlen]
      exact this

/-- C33 on the list `[5, 3, 4, 9, 10, 1, 20, 21, 22]`: the ranges `1`, `3..5`,
`9..10`, `20..22` are written as `1`, `[-3, 2]`, `9, 10`, `[-20, 2]`. -/
theorem C33_compress_t_array_folds_maximal_ranges_witness :
    maximal_ranges ([5, 3, 4, 9, 10, 1, 20, 21, 22].insertionSort (fun a b => a ≤ b)) =
        [(1, 1), (3, 3), (9, 2), (20, 3)] ∧
      Reindexer.compress_t_array 0 [] [5, 3, 4, 9, 10, 1, 20, 21, 22] =
        [1, -3, 2, 9, 10, -20, 2] ∧
      Reindexer.compress_t_array 0 [] [5, 3, 4, 9, 10, 1, 20, 21, 22] =
        (maximal_ranges ([5, 3, 4, 9, 10, 1, 20, 21, 22].insertionSort
          (fun a b => a ≤ b))).flatMap encode_range :=
  ⟨by decide, by decide,
    (C33_compress_t_array_folds_maximal_ranges 0 [5, 3, 4, 9, 10, 1, 20, 21, 22] (by decide)
      (by decide) (by decide)).2.2.2.1⟩

/-! ## Steps of a query that decide a tetrahedron -/

theorem decides_intro (test : Nat → Bool) (t : Nat) (q q' : QueryStatistics)
    (h : (q'.tetrahedra = q.tetrahedra ∧ q'.checkTetra = q.checkTetra ∧
          (q.checkTetra t = true ∨ test t = false)) ∨
        (q'.tetrahedra = q.tetrahedra ∧ q'.checkTetra = Function.update q.checkTetra t true ∧
          test t = false) ∨
        (q.checkTetra t = false ∧ test t = true ∧
          q'.checkTetra = Function.update q.checkTetra t true ∧
          q'.tetrahedra = q.tetrahedra ++ [t])) :
    QueryStatistics.Decides test t q q' := by
  rintro ⟨hnd, hin, hout⟩
  rcases h with ⟨h1, h2, h3⟩ | ⟨h1, h2, h3⟩ | ⟨h0, h1, h2, h3⟩
  · refine ⟨⟨by rw [h1]; exact hnd, by rw [h1, h2]; exact hin, by rw [h1, h2]; exact hout⟩, ?_⟩
    intro u
    rw [h1]
    constructor
    · exact Or.inl
    · rintro (hu | ⟨rfl, hu⟩)
      · exact hu
      · rcases h3 with h3 | h3
        · exact hout u h3 hu
        · rw [h3] at hu; exact absurd hu (by decide)
  · refine ⟨⟨by rw [h1]; exact hnd, ?_, ?_⟩, ?_⟩
    · intro x hx
      rw [h1] at hx
      refine ⟨?_, (hin x hx).2⟩
      rw [h2]
      by_cases hxt : x = t
      · subst hxt; simp
      · rw [Function.update_noteq hxt]; exact (hin x hx).1
    · intro x hx hxt
      rw [h1]
      rw [h2] at hx
      by_cases hxe : x = t
      · subst hxe; rw [h3] at hxt; exact absurd hxt (by decide)
      · rw [Function.update_noteq hxe] at hx; exact hout x hx hxt
    · intro u
      rw [h1]
      constructor
      · exact Or.inl
      · rintro (hu | ⟨rfl, hu⟩)
        · exact hu
        · rw [h3] at hu; exact absurd hu (by decide)
  · have hnot : t ∉ q.tetrahedra := fun hm => by
      have := (hin t hm).1
      rw [h0] at this
      exact absurd this (by decide)
    refine ⟨⟨?_, ?_, ?_⟩, ?_⟩
    · rw [h3]
      exact List.Nodup.append hnd (List.nodup_singleton t) (by simpa using hnot)
    · intro x hx
      rw [h3, List.mem_append, List.mem_singleton] at hx
      rw [h2]
      rcases hx with hx | hx
      · refine ⟨?_, (hin x hx).2⟩
        by_cases hxt : x = t
        · subst hxt; simp
        · rw [Function.update_noteq hxt]; exact (hin x hx).1
      · subst hx; exact ⟨by simp, h1⟩
    · intro x hx hxt
      rw [h3, List.mem_append, List.mem_singleton]
      rw [h2] at hx
      by_cases hxe : x = t
      · exact Or.inr hxe
      · rw [Function.update_noteq hxe] at hx; exact Or.inl (hout x hx hxt)
    · intro u
      rw [h3, List.mem_append, List.mem_singleton]
      constructor
      · rintro (hu | hu)
        · exact Or.inl hu
        · exact Or.inr ⟨hu, h1⟩
      · rintro (hu | ⟨hu, _⟩)
        · exact Or.inl hu
        · exact Or.inr hu

theorem agrees_congr (test : Nat → Bool) (q q' : QueryStatistics)
    (h1 : q'.tetrahedra = q.tetrahedra) (h2 : q'.checkTetra = q.checkTetra)
    (h : q.Agrees test) : q'.Agrees test := by
  unfold QueryStatistics.Agrees at h ⊢
  rw [h1, h2]
  exact h

/-- A loop whose body decides its id adds to the result the ids of the list
that pass the test. -/
theorem foldl_decides (test : Nat → Bool) (f : QueryStatistics → Nat → QueryStatistics)
    (ids : List Nat) :
    ∀ (q : QueryStatistics), (∀ q t, t ∈ ids → QueryStatistics.Decides test t q (f q t)) →
      q.Agrees test →
      (ids.foldl f q).Agrees test ∧
        ∀ u, u ∈ (ids.foldl f q).tetrahedra ↔
          u ∈ q.tetrahedra ∨ (u ∈ ids ∧ test u = true) := by
  induction ids with
  | nil => intro q _ hq; exact ⟨hq, fun u => by simp⟩
  | cons t ids ih =>
    intro q hf hq
    obtain ⟨h1, h2⟩ := hf q t (by simp) hq
    obtain ⟨h3, h4⟩ := ih (f q t) (fun q x hx => hf q x (by simp [hx])) h1
    rw [List.foldl_cons]
    refine ⟨h3, fun u => ?_⟩
    rw [h4 u, h2 u, List.mem_cons]
    constructor
    · rintro ((hu | ⟨rfl, hu⟩) | ⟨hu, hu'⟩)
      · exact Or.inl hu
      · exact Or.inr ⟨Or.inl rfl, hu⟩
      · exact Or.inr ⟨Or.inr hu, hu'⟩
    · rintro (hu | ⟨rfl | hu, hu'⟩)
      · exact Or.inl (Or.inl hu)
      · exact Or.inl (Or.inr ⟨rfl, hu'⟩)
      · exact Or.inr ⟨hu, hu'⟩

/-- A loop whose body may fail and, when it returns, decides its id: if the loop
returns, it has added to the result the ids of the list that pass the test. -/
theorem forEach_decides (test : Nat → Bool)
    (body : QueryStatistics → Nat → Option QueryStatistics) :
    ∀ (ids : List Nat) (q q' : QueryStatistics),
      (∀ q t q', t ∈ ids → body q t = some q' → QueryStatistics.Decides test t q q') →
      Spatial_Queries.forEach body ids q = some q' → q.Agrees test →
      q'.Agrees test ∧
        ∀ u, u ∈ q'.tetrahedra ↔ u ∈ q.tetrahedra ∨ (u ∈ ids ∧ test u = true)
  | [], q, q', _, h, hq => by
    simp only [Spatial_Queries.forEach, Option.some.injEq] at h
    subst h
    exact ⟨hq, fun u => by simp⟩
  | t :: ids, q, q', hf, h, hq => by
    simp only [Spatial_Queries.forEach, Option.bind_eq_some] at h
    obtain ⟨q1, hq1, hq2⟩ := h
    obtain ⟨h1, h2⟩ := hf q t q1 (by simp) hq1 hq
    obtain ⟨h3, h4⟩ := forEach_decides test body ids q1 q'
      (fun q x q' hx => hf q x q' (by simp [hx])) hq2 h1
    refine ⟨h3, fun u => ?_⟩
    rw [h4 u, h2 u, List.mem_cons]
    constructor
    · rintro ((hu | ⟨rfl, hu⟩) | ⟨hu, hu'⟩)
      · exact Or.inl hu
      · exact Or.inr ⟨Or.inl rfl, hu⟩
      · exact Or.inr ⟨Or.inr hu, hu'⟩
    · rintro (hu | ⟨rfl | hu, hu'⟩)
      · exact Or.inl (Or.inl hu)
      · exact Or.inl (Or.inr ⟨rfl, hu'⟩)
      · exact Or.inr ⟨hu, hu'⟩

theorem atomic_tetra_in_box_test_decides (t : Nat) (b : Box) (q : QueryStatistics)
    (mesh : Mesh) (gs : Bool) (q' : QueryStatistics)
    (hq : Spatial_Queries.atomic_tetra_in_box_test t b q mesh gs = some q') :
    QueryStatistics.Decides (fun u => Geometry_Wrapper.tetra_in_box u b mesh) t q q' := by
  apply decides_intro
  unfold Spatial_Queries.atomic_tetra_in_box_test at hq
  by_cases hl : t < q.access_per_tetra.length <;>
    cases hc : q.checkTetra t <;> cases gs <;>
    cases ht : Geometry_Wrapper.tetra_in_box t b mesh <;>
    simp [QueryStatistics.count_access_if, QueryStatistics.count_access, hl, hc, ht] at hq <;>
    subst hq <;> simp [hc, ht]

theorem box_run_intersect_step_decides (b : Box) (mesh : Mesh) (gs : Bool)
    (q : QueryStatistics) (t : Nat) (q' : QueryStatistics)
    (hq : Spatial_Queries.box_run_intersect_step b mesh gs q t = some q') :
    QueryStatistics.Decides (fun u => Geometry_Wrapper.tetra_in_box u b mesh) t q q' := by
  apply decides_intro
  unfold Spatial_Queries.box_run_intersect_step Spatial_Queries.atomic_tetra_in_box_test at hq
  by_cases hl : t < q.access_per_tetra.length <;>
    cases hc : q.checkTetra t <;> cases gs <;>
    cases ht : Geometry_Wrapper.tetra_in_box t b mesh <;>
    simp [QueryStatistics.count_access_if, QueryStatistics.count_access, hl, hc, ht] at hq <;>
    subst hq <;> simp [hc, ht]

theorem box_run_contained_step_decides (b : Box) (mesh : Mesh) (gs : Bool)
    (q : QueryStatistics) (t : Nat) (ht : Geometry_Wrapper.tetra_in_box t b mesh = true)
    (q' : QueryStatistics) (hq : Spatial_Queries.box_run_contained_step gs q t = some q') :
    QueryStatistics.Decides (fun u => Geometry_Wrapper.tetra_in_box u b mesh) t q q' := by
  apply decides_intro
  unfold Spatial_Queries.box_run_contained_step at hq
  by_cases hl : t < q.access_per_tetra.length <;>
    cases hc : q.checkTetra t <;> cases gs <;>
    simp [QueryStatistics.count_access_if, QueryStatistics.count_access, hl, hc] at hq <;>
    subst hq <;> simp [hc, ht]

theorem box_run_disjoint_step_decides (b : Box) (mesh : Mesh)
    (q : QueryStatistics) (t : Nat) (ht : Geometry_Wrapper.tetra_in_box t b mesh = false) :
    QueryStatistics.Decides (fun u => Geometry_Wrapper.tetra_in_box u b mesh) t q
      (Spatial_Queries.box_run_disjoint_step q t) := by
  apply decides_intro
  unfold Spatial_Queries.box_run_disjoint_step
  cases hc : q.checkTetra t <;> cases ha : q.avoid_to_check_tetra t <;> simp [hc, ha, ht]

/-! ## The bounding box of a run -/

theorem bb_add_self (acc : Point × Point) (v : Point) : Encloses (RawNode.bb_add acc v) v := by
  unfold Encloses RawNode.bb_add
  simp only []
  refine ⟨?_, ?_, ?_, ?_, ?_, ?_⟩ <;> split_ifs <;> linarith

theorem bb_add_mono (acc : Point × Point) (v p : Point) (h : Encloses acc p) :
    Encloses (RawNode.bb_add acc v) p := by
  unfold Encloses RawNode.bb_add at *
  simp only []
  obtain ⟨h1, h2, h3, h4, h5, h6⟩ := h
  refine ⟨?_, ?_, ?_, ?_, ?_, ?_⟩ <;> split_ifs <;> linarith

theorem foldl_bb_add_encloses {α : Type} (g : α → Point) (xs : List α) :
    ∀ (acc : Point × Point),
      (∀ p, Encloses acc p → Encloses (xs.foldl (fun a x => RawNode.bb_add a (g x)) acc) p) ∧
      ∀ x ∈ xs, Encloses (xs.foldl (fun a x => RawNode.bb_add a (g x)) acc) (g x) := by
  induction xs with
  | nil => intro acc; exact ⟨fun p hp => hp, fun x hx => absurd hx (List.not_mem_nil x)⟩
  | cons y xs ih =>
    intro acc
    obtain ⟨h1, h2⟩ := ih (RawNode.bb_add acc (g y))
    rw [List.foldl_cons]
    refine ⟨fun p hp => h1 p (bb_add_mono acc (g y) p hp), fun x hx => ?_⟩
    rcases List.mem_cons.mp hx with rfl | hx'
    · exact h1 _ (bb_add_self acc (g x))
    · exact h2 x hx'

theorem run_fold_encloses (mesh : Mesh) (ids : List Nat) :
    ∀ (acc : Point × Point),
      (∀ p, Encloses acc p → Encloses (ids.foldl (fun acc t_id =>
          (List.finRange 4).foldl (fun acc i =>
            RawNode.bb_add acc (mesh.get_vertex ((mesh.get_tetrahedron t_id).TV i)).toPoint)
            acc) acc) p) ∧
      ∀ t ∈ ids, ∀ j : Fin 4, Encloses (ids.foldl (fun acc t_id =>
          (List.finRange 4).foldl (fun acc i =>
            RawNode.bb_add acc (mesh.get_vertex ((mesh.get_tetrahedron t_id).TV i)).toPoint)
            acc) acc) (mesh.tetra_vertex t j) := by
  induction ids with
  | nil => intro acc; exact ⟨fun p hp => hp, fun t ht => absurd ht (List.not_mem_nil t)⟩
  | cons y ids ih =>
    intro acc
    have hin := foldl_bb_add_encloses
      (fun i : Fin 4 => (mesh.get_vertex ((mesh.get_tetrahedron y).TV i)).toPoint)
      (List.finRange 4) acc
    obtain ⟨h1, h2⟩ := ih ((List.finRange 4).foldl (fun acc i =>
      RawNode.bb_add acc (mesh.get_vertex ((mesh.get_tetrahedron y).TV i)).toPoint) acc)
    rw [List.foldl_cons]
    refine ⟨fun p hp => h1 p (hin.1 p hp), fun t ht j => ?_⟩
    rcases List.mem_cons.mp ht with rfl | ht'
    · exact h1 _ (hin.2 j (List.mem_finRange j))
    · exact h2 t ht' j

/-- The bounding box of a run encloses every vertex of every tetrahedron of the
run. -/
theorem get_run_bounding_box_encloses (mesh : Mesh) (first : Nat) (len : Int) (t : Nat)
    (ht : t ∈ RawNode.run_ids first len) (j : Fin 4) :
    Encloses ((RawNode.get_run_bounding_box mesh first len).1.min,
      (RawNode.get_run_bounding_box mesh first len).1.max) (mesh.tetra_vertex t j) :=
  (run_fold_encloses mesh (RawNode.run_ids first len) _).2 t ht j

theorem mem_idRange (u v : Int) (k : Nat) : u ∈ idRange v k ↔ v ≤ u ∧ u ≤ v + (k : Int) := by
  induction k generalizing v with
  | zero => simp only [idRange, List.mem_singleton]; push_cast; omega
  | succ k ih =>
    rw [idRange, List.mem_cons, ih]
    push_cast
    omega

theorem mem_run_ids (u : Nat) (a len : Int) (ha : a < 0) (hlen : 0 ≤ len) :
    u ∈ RawNode.run_ids a.natAbs len ↔ (u : Int) ∈ idRange (-a) len.toNat := by
  unfold RawNode.run_ids
  rw [if_neg (by omega), List.mem_range'_1, mem_idRange]
  omega

/-- A run whose bounding box is completely contained by the query box: each of
its tetrahedra passes the test. -/
theorem run_contained_passes (b : Box) (mesh : Mesh) (first : Nat) (len : Int)
    (h : b.completely_contains (RawNode.get_run_bounding_box mesh first len).1 = true)
    (t : Nat) (ht : t ∈ RawNode.run_ids first len) :
    Geometry_Wrapper.tetra_in_box t b mesh = true := by
  obtain ⟨h1, h2, h3, h4, h5, h6⟩ := (completely_contains_iff _ _).mp h
  obtain ⟨e1, e2, e3, e4, e5, e6⟩ := get_run_bounding_box_encloses mesh first len t ht 0
  simp only at e1 e2 e3 e4 e5 e6
  apply tetra_in_box_of_inside t b mesh 0
  exact ⟨by linarith, by linarith, by linarith, by linarith, by linarith, by linarith⟩

/-- A run whose bounding box does not intersect the query box: each of its
tetrahedra fails the test. -/
theorem run_disjoint_fails (b : Box) (mesh : Mesh) (first : Nat) (len : Int)
    (h : b.intersects (RawNode.get_run_bounding_box mesh first len).1 = false)
    (t : Nat) (ht : t ∈ RawNode.run_ids first len) :
    Geometry_Wrapper.tetra_in_box t b mesh = false := by
  have e := fun j => get_run_bounding_box_encloses mesh first len t ht j
  unfold Encloses at e
  simp only [Mesh.tetra_vertex] at e
  unfold Box.intersects at h
  unfold Geometry_Wrapper.tetra_in_box
  simp only []
  split_ifs at h with c1 c2 c3 c4 c5 c6
  · apply tetra_in_box_strict_same_side _ _ _ 0
    right
    simp only [Point.get_c]
    exact ⟨by linarith [(e 0).1], by linarith [(e 1).1], by linarith [(e 2).1],
      by linarith [(e 3).1]⟩
  · apply tetra_in_box_strict_same_side _ _ _ 0
    left
    simp only [Point.get_c]
    exact ⟨by linarith [(e 0).2.1], by linarith [(e 1).2.1], by linarith [(e 2).2.1],
      by linarith [(e 3).2.1]⟩
  · apply tetra_in_box_strict_same_side _ _ _ 1
    right
    simp only [Point.get_c]
    exact ⟨by linarith [(e 0).2.2.1], by linarith [(e 1).2.2.1], by linarith [(e 2).2.2.1],
      by linarith [(e 3).2.2.1]⟩
  · apply tetra_in_box_strict_same_side _ _ _ 1
    left
    simp only [Point.get_c]
    exact ⟨by linarith [(e 0).2.2.2.1], by linarith [(e 1).2.2.2.1], by linarith [(e 2).2.2.2.1],
      by linarith [(e 3).2.2.2.1]⟩
  · apply tetra_in_box_strict_same_side _ _ _ 2
    right
    simp only [Point.get_c]
    exact ⟨by linarith [(e 0).2.2.2.2.1], by linarith [(e 1).2.2.2.2.1],
      by linarith [(e 2).2.2.2.2.1], by linarith [(e 3).2.2.2.2.1]⟩
  · apply tetra_in_box_strict_same_side _ _ _ 2
    left
    simp only [Point.get_c]
    exact ⟨by linarith [(e 0).2.2.2.2.2], by linarith [(e 1).2.2.2.2.2],
      by linarith [(e 2).2.2.2.2.2], by linarith [(e 3).2.2.2.2.2]⟩

/-- What the leaf test of the box query returns on a well-formed array. -/
theorem exec_box_query_leaf_test_exact (b : Box) (mesh : Mesh) (gs : Bool) :
    ∀ (ts : List Int) (q q' : QueryStatistics), wellFormedRuns ts = true →
      q.Agrees (fun u => Geometry_Wrapper.tetra_in_box u b mesh) →
      Spatial_Queries.exec_box_query_leaf_test b mesh gs ts q = some q' →
      q'.Agrees (fun u => Geometry_Wrapper.tetra_in_box u b mesh) ∧
        ∀ u : Nat, u ∈ q'.tetrahedra ↔
          u ∈ q.tetrahedra ∨
            ((u : Int) ∈ runExpansion ts ∧ Geometry_Wrapper.tetra_in_box u b mesh = true)
  | [], q, q', _, hq, h => by
    simp only [Spatial_Queries.exec_box_query_leaf_test, Option.some.injEq] at h
    subst h
    exact ⟨hq, fun u => by simp [runExpansion]⟩
  | [a], q, q', hw, hq, h => by
    simp only [wellFormedRuns, decide_eq_true_eq] at hw
    simp only [Spatial_Queries.exec_box_query_leaf_test, not_lt.mpr (le_of_lt hw),
      if_false] at h
    obtain ⟨h1, h2⟩ := atomic_tetra_in_box_test_decides a.toNat b q mesh gs q' h hq
    refine ⟨h1, fun u => ?_⟩
    rw [h2 u]
    simp only [runExpansion, List.mem_singleton]
    have e : u = a.toNat ↔ (u : Int) = a := by omega
    constructor
    · rintro (hu | ⟨hu, hu'⟩)
      · exact Or.inl hu
      · exact Or.inr ⟨e.mp hu, by rw [hu]; exact hu'⟩
    · rintro (hu | ⟨hu, hu'⟩)
      · exact Or.inl hu
      · exact Or.inr ⟨e.mpr hu, by rw [← e.mpr hu]; exact hu'⟩
  | a :: len :: rest, q, q', hw, hq, h => by
    simp only [wellFormedRuns] at hw
    simp only [Spatial_Queries.exec_box_query_leaf_test] at h
    by_cases ha : 0 < a
    · simp only [ha, if_true] at hw
      simp only [not_lt.mpr (le_of_lt ha), if_false] at h
      obtain ⟨q1, hq1, hq2⟩ := Option.bind_eq_some.mp h
      obtain ⟨h1, h2⟩ := atomic_tetra_in_box_test_decides a.toNat b q mesh gs q1 hq1 hq
      obtain ⟨e2, e3⟩ := exec_box_query_leaf_test_exact b mesh gs (len :: rest) q1 q' hw h1 hq2
      refine ⟨e2, fun u => ?_⟩
      rw [e3 u, h2 u, runExpansion_cons_nonneg a _ (not_lt.mpr (le_of_lt ha)), List.mem_cons]
      have e : u = a.toNat ↔ (u : Int) = a := by omega
      constructor
      · rintro ((hu | ⟨hu, hu'⟩) | ⟨hu, hu'⟩)
        · exact Or.inl hu
        · exact Or.inr ⟨Or.inl (e.mp hu), by rw [hu]; exact hu'⟩
        · exact Or.inr ⟨Or.inr hu, hu'⟩
      · rintro (hu | ⟨hu | hu, hu'⟩)
        · exact Or.inl (Or.inl hu)
        · exact Or.inl (Or.inr ⟨e.mpr hu, by rw [← e.mpr hu]; exact hu'⟩)
        · exact Or.inr ⟨hu, hu'⟩
    · simp only [ha, if_false, Bool.and_eq_true, decide_eq_true_eq] at hw
      obtain ⟨⟨han, hlen⟩, hrest⟩ := hw
      simp only [han, if_true] at h
      have hexp : ∀ u : Nat, (u : Int) ∈ runExpansion (a :: len :: rest) ↔
          u ∈ RawNode.run_ids a.natAbs len ∨ (u : Int) ∈ runExpansion rest := by
        intro u
        simp only [runExpansion, han, if_true, List.mem_append, mem_run_ids u a len han hlen]
      have hids : (RawNode.get_run_bounding_box mesh a.natAbs len).2 =
          RawNode.run_ids a.natAbs len := rfl
      have finish : ∀ (q2 : QueryStatistics),
          (q2.Agrees (fun u => Geometry_Wrapper.tetra_in_box u b mesh) ∧
            ∀ u, u ∈ q2.tetrahedra ↔ u ∈ q.tetrahedra ∨
              (u ∈ RawNode.run_ids a.natAbs len ∧
                Geometry_Wrapper.tetra_in_box u b mesh = true)) →
          Spatial_Queries.exec_box_query_leaf_test b mesh gs rest q2 = some q' →
          q'.Agrees (fun u => Geometry_Wrapper.tetra_in_box u b mesh) ∧
            ∀ u : Nat, u ∈ q'.tetrahedra ↔
              u ∈ q.tetrahedra ∨ ((u : Int) ∈ runExpansion (a :: len :: rest) ∧
                Geometry_Wrapper.tetra_in_box u b mesh = true) := by
        intro q2 hq2 hrun
        obtain ⟨h1, h2⟩ := hq2
        obtain ⟨e2, e3⟩ := exec_box_query_leaf_test_exact b mesh gs rest q2 q' hrest h1 hrun
        refine ⟨e2, fun u => ?_⟩
        rw [e3 u, h2 u, hexp u]
        constructor
        · rintro ((hu | ⟨hu, hu'⟩) | ⟨hu, hu'⟩)
          · exact Or.inl hu
          · exact Or.inr ⟨Or.inl hu, hu'⟩
          · exact Or.inr ⟨Or.inr hu, hu'⟩
        · rintro (hu | ⟨hu | hu, hu'⟩)
          · exact Or.inl (Or.inl hu)
          · exact Or.inl (Or.inr ⟨hu, hu'⟩)
          · exact Or.inr ⟨hu, hu'⟩
      have hcount : ∀ q1 : QueryStatistics, q1.tetrahedra = q.tetrahedra →
          q1.checkTetra = q.checkTetra → ∀ q2 : QueryStatistics,
          (q2.Agrees (fun u => Geometry_Wrapper.tetra_in_box u b mesh) ∧
            ∀ u, u ∈ q2.tetrahedra ↔ u ∈ q1.tetrahedra ∨
              (u ∈ RawNode.run_ids a.natAbs len ∧
                Geometry_Wrapper.tetra_in_box u b mesh = true)) →
          (q2.Agrees (fun u => Geometry_Wrapper.tetra_in_box u b mesh) ∧
            ∀ u, u ∈ q2.tetrahedra ↔ u ∈ q.tetrahedra ∨
              (u ∈ RawNode.run_ids a.natAbs len ∧
                Geometry_Wrapper.tetra_in_box u b mesh = true)) := by
        intro q1 ht _ q2 h2
        rw [ht] at h2
        exact h2
      rw [hids] at h
      by_cases hcc : b.completely_contains (RawNode.get_run_bounding_box mesh a.natAbs len).1
      · simp only [hcc, if_true] at h
        obtain ⟨q2, hq2, hrun⟩ := Option.bind_eq_some.mp h
        refine finish q2 (hcount _ (by split_ifs <;> rfl) (by split_ifs <;> rfl) q2
          (forEach_decides _ _ _ _ q2 (fun q0 t q0' ht h0 =>
            box_run_contained_step_decides b mesh gs q0 t
              (run_contained_passes b mesh a.natAbs len hcc t ht) q0' h0) hq2
            (agrees_congr _ q _ (by split_ifs <;> rfl) (by split_ifs <;> rfl) hq))) hrun
      · simp only [hcc, Bool.false_eq_true, if_false] at h
        by_cases hint : b.intersects (RawNode.get_run_bounding_box mesh a.natAbs len).1
        · simp only [hint, if_true] at h
          obtain ⟨q2, hq2, hrun⟩ := Option.bind_eq_some.mp h
          refine finish q2 (hcount _ (by split_ifs <;> rfl) (by split_ifs <;> rfl) q2
            (forEach_decides _ _ _ _ q2 (fun q0 t q0' _ h0 =>
              box_run_intersect_step_decides b mesh gs q0 t q0' h0) hq2
              (agrees_congr _ q _ (by split_ifs <;> rfl) (by split_ifs <;> rfl) hq))) hrun
        · simp only [hint, Bool.false_eq_true, if_false] at h
          have hfail := run_disjoint_fails b mesh a.natAbs len (by simpa using hint)
          cases gs with
          | true =>
            simp only [if_true] at h
            exact finish _
              (hcount { q with box_no_intersect_bbox_num := q.box_no_intersect_bbox_num + 1 }
                rfl rfl _
                (foldl_decides _ Spatial_Queries.box_run_disjoint_step _ _
                  (fun q0 t ht => box_run_disjoint_step_decides b mesh q0 t (hfail t ht))
                  (agrees_congr _ q _ rfl rfl hq))) h
          | false =>
            simp only [Bool.false_eq_true, if_false] at h
            obtain ⟨e2, e3⟩ := exec_box_query_leaf_test_exact b mesh false rest q q' hrest hq h
            refine ⟨e2, fun u => ?_⟩
            rw [e3 u, hexp u]
            constructor
            · rintro (hu | ⟨hu, hu'⟩)
              · exact Or.inl hu
              · exact Or.inr ⟨Or.inr hu, hu'⟩
            · rintro (hu | ⟨hu | hu, hu'⟩)
              · exact Or.inl hu
              · rw [hfail u hu] at hu'; exact absurd hu' (by decide)
              · exact Or.inr ⟨hu, hu'⟩

/-- C34: for every leaf whose tetrahedra array `S` is a well-formed compressed
sequence, every mesh, every query box `b` and a state with an empty result and
no seen bit set: the result vector that `exec_box_query_leaf_test` returns
holds, each once, exactly the ids of the expansion of `S` that pass
`tetra_in_box` (the wrapper of `tetra_in_box_strict`) against `b`, for both
values of `get_stats`; without the statistics (`get_stats = false`) the
function returns. Every tetrahedron of a run whose bounding box `b` completely
contains (the run is accepted without test) passes the test, and every
tetrahedron of a run whose bounding box `b` does not intersect (the run is
skipped) fails it. -/
theorem C34_box_query_leaf_run_pruning_exact (b : Box) (mesh : Mesh) (get_stats : Bool)
    (S : List Int) (qS : QueryStatistics) (hw : wellFormedRuns S = true)
    (hempty : qS.tetrahedra = []) (hseen : ∀ t, qS.checkTetra t = false) :
    (∀ q, Spatial_Queries.exec_box_query_leaf_test b mesh get_stats S qS = some q →
      q.tetrahedra.Nodup ∧
      ∀ u : Nat, u ∈ q.tetrahedra ↔
        ((u : Int) ∈ runExpansion S ∧ Geometry_Wrapper.tetra_in_box u b mesh = true)) ∧
    (∃ q, Spatial_Queries.exec_box_query_leaf_test b mesh false S qS = some q) ∧
    ∀ (first : Nat) (len : Int), ∀ t ∈ (RawNode.get_run_bounding_box mesh first len).2,
      (b.completely_contains (RawNode.get_run_bounding_box mesh first len).1 = true →
        Geometry_Wrapper.tetra_in_box t b mesh = true) ∧
      (b.intersects (RawNode.get_run_bounding_box mesh first len).1 = false →
        Geometry_Wrapper.tetra_in_box t b mesh = false) := by
  refine ⟨fun q hq' => ?_, exec_box_query_leaf_test_returns b mesh S qS hw, ?_⟩
  · have hq : qS.Agrees (fun u => Geometry_Wrapper.tetra_in_box u b mesh) := by
      refine ⟨by rw [hempty]; exact List.nodup_nil, ?_, ?_⟩
      · intro t ht; rw [hempty] at ht; exact absurd ht (List.not_mem_nil t)
      · intro t ht; rw [hseen t] at ht; exact absurd ht (by decide)
    obtain ⟨e2, e3⟩ := exec_box_query_leaf_test_exact b mesh get_stats S qS q hw hq hq'
    refine ⟨e2.1, fun u => ?_⟩
    rw [e3 u, hempty]
    simp
  · intro first len t ht
    exact ⟨fun h => run_contained_passes b mesh first len h t ht,
      fun h => run_disjoint_fails b mesh first len h t ht⟩

/-- C34 on the cube mesh, for the leaf array `[2, -3, 2, 9]` (the ids
`2, 3, 4, 5, 9`) and the query box `[0,1] × [0,1] × [3/4, 2]`. -/
theorem C34_box_query_leaf_run_pruning_exact_witness :
    ∃ q, Spatial_Queries.exec_box_query_leaf_test ⟨⟨0, 0, 3 / 4⟩, ⟨1, 1, 2⟩⟩ Examples.cubeMesh
        false [2, -3, 2, 9] (QueryStatistics.init 12) = some q ∧
      q.tetrahedra.Nodup ∧
      ∀ u : Nat, u ∈ q.tetrahedra ↔
        ((u : Int) ∈ runExpansion [2, -3, 2, 9] ∧
          Geometry_Wrapper.tetra_in_box u ⟨⟨0, 0, 3 / 4⟩, ⟨1, 1, 2⟩⟩ Examples.cubeMesh = true) := by
  obtain ⟨hres, ⟨q, hq⟩, _⟩ := C34_box_query_leaf_run_pruning_exact ⟨⟨0, 0, 3 / 4⟩, ⟨1, 1, 2⟩⟩
    Examples.cubeMesh false [2, -3, 2, 9] (QueryStatistics.init 12) (by decide) rfl
    (fun _ => rfl)
  exact ⟨q, hq, hres q hq⟩

/-! ## `Geometry::ClipLine3D_middle`: a point of the segment in the half-open box -/

theorem ClipTest3D_has (u0 p q : ℚ) (o : Option (ℚ × ℚ)) (h : ClipHas u0 o)
    (hu : p * u0 ≤ q) : ClipHas u0 (o.bind fun u => Geometry.ClipTest3D p q u.1 u.2) := by
  obtain ⟨a, b, rfl, ha, hb⟩ := h
  simp only [Option.some_bind, Geometry.ClipTest3D]
  by_cases hp : p < 0
  · have hr := (mul_le_iff_of_neg p q u0 hp).mp hu
    simp only [hp, if_true]
    by_cases h1 : q / p > b
    · exact absurd h1 (not_lt.mpr (le_trans hr hb))
    · simp only [h1, if_false]
      by_cases h2 : q / p > a
      · simp only [h2, if_true]; exact ⟨_, _, rfl, hr, hb⟩
      · simp only [h2, if_false]; exact ⟨_, _, rfl, ha, hb⟩
  · simp only [hp, if_false]
    by_cases hp2 : p > 0
    · have hr := (mul_le_iff_of_pos p q u0 hp2).mp hu
      simp only [hp2, if_true]
      by_cases h1 : q / p < a
      · exact absurd h1 (not_lt.mpr (le_trans ha hr))
      · simp only [h1, if_false]
        by_cases h2 : q / p < b
        · simp only [h2, if_true]; exact ⟨_, _, rfl, ha, hr⟩
        · simp only [h2, if_false]; exact ⟨_, _, rfl, ha, hb⟩
    · simp only [hp2, if_false]
      have hp0 : p = 0 := by linarith [not_lt.mp hp, not_lt.mp hp2]
      rw [hp0, zero_mul] at hu
      simp only [not_lt.mpr hu, if_false]
      exact ⟨_, _, rfl, ha, hb⟩

theorem ClipTest3D_strict_has (u0 p q : ℚ) (o : Option (ℚ × ℚ)) (h : ClipHas u0 o)
    (hu : p * u0 < q) : ClipHas u0 (o.bind fun u => Geometry.ClipTest3D_strict p q u.1 u.2) := by
  obtain ⟨a, b, rfl, ha, hb⟩ := h
  simp only [Option.some_bind, Geometry.ClipTest3D_strict]
  by_cases hp : p < 0
  · have hr : q / p < u0 := by rw [div_lt_iff_of_neg hp, mul_comm]; exact hu
    simp only [hp, if_true]
    by_cases h1 : q / p ≥ b
    · exact absurd (lt_of_le_of_lt h1 hr) (not_lt.mpr hb)
    · simp only [h1, if_false]
      by_cases h2 : q / p > a
      · simp only [h2, if_true]; exact ⟨_, _, rfl, le_of_lt hr, hb⟩
      · simp only [h2, if_false]; exact ⟨_, _, rfl, ha, hb⟩
  · simp only [hp, if_false]
    by_cases hp2 : p > 0
    · have hr : u0 < q / p := by rw [lt_div_iff₀ hp2, mul_comm]; exact hu
      simp only [hp2, if_true]
      by_cases h1 : q / p ≤ a
      · exact absurd (lt_of_lt_of_le hr h1) (not_lt.mpr ha)
      · simp only [h1, if_false]
        by_cases h2 : q / p < b
        · simp only [h2, if_true]; exact ⟨_, _, rfl, ha, le_of_lt hr⟩
        · simp only [h2, if_false]; exact ⟨_, _, rfl, ha, hb⟩
    · simp only [hp2, if_false]
      have hp0 : p = 0 := by linarith [not_lt.mp hp, not_lt.mp hp2]
      rw [hp0, zero_mul] at hu
      simp only [not_le.mpr hu, if_false]
      exact ⟨_, _, rfl, ha, hb⟩

/-- A segment with a point in the box, the maximum faces excluded, is accepted
by `line_in_box`. -/
theorem line_in_box_of_point (a b : Point) (B : Box) (s : ℚ) (h0 : 0 ≤ s) (h1 : s ≤ 1)
    (hx : B.min.x ≤ (segment_point a b s).x ∧ (segment_point a b s).x < B.max.x)
    (hy : B.min.y ≤ (segment_point a b s).y ∧ (segment_point a b s).y < B.max.y)
    (hz : B.min.z ≤ (segment_point a b s).z ∧ (segment_point a b s).z < B.max.z) :
    Geometry_Wrapper.line_in_box a b B = true := by
  simp only [segment_point] at hx hy hz
  have c0 : ClipHas s (some (0, 1)) := ⟨0, 1, rfl, h0, h1⟩
  have c1 := ClipTest3D_has s (-(b.x - a.x)) (a.x - B.min.x) _ c0 (by linarith [hx.1])
  have c2 := ClipTest3D_strict_has s (b.x - a.x) (B.max.x - a.x) _ c1 (by linarith [hx.2])
  have c3 := ClipTest3D_has s (-(b.y - a.y)) (a.y - B.min.y) _ c2 (by linarith [hy.1])
  have c4 := ClipTest3D_strict_has s (b.y - a.y) (B.max.y - a.y) _ c3 (by linarith [hy.2])
  have c5 := ClipTest3D_has s (-(b.z - a.z)) (a.z - B.min.z) _ c4 (by linarith [hz.1])
  have c6 := ClipTest3D_strict_has s (b.z - a.z) (B.max.z - a.z) _ c5 (by linarith [hz.2])
  obtain ⟨u1, u2, e, _, _⟩ := c6
  unfold Geometry_Wrapper.line_in_box Geometry.ClipLine3D_middle
  simp only [Option.some_bind] at e
  simp only []
  rw [e]
  rfl

/-- A box that contains (`Box::contains`) a point of the segment lying below
the maximum of the domain on every axis is accepted by `line_in_box`. -/
theorem line_in_box_of_contains (a b : Point) (B : Box) (dmax : Point) (s : ℚ)
    (h0 : 0 ≤ s) (h1 : s ≤ 1)
    (hlt : (segment_point a b s).x < dmax.x ∧ (segment_point a b s).y < dmax.y ∧
      (segment_point a b s).z < dmax.z)
    (hc : B.contains (segment_point a b s) dmax = true) :
    Geometry_Wrapper.line_in_box a b B = true := by
  rw [contains_iff] at hc
  have cx := hc 0
  have cy := hc 1
  have cz := hc 2
  simp only [Point.get_c] at cx cy cz
  apply line_in_box_of_point a b B s h0 h1
  · refine ⟨cx.1, ?_⟩
    rcases cx.2 with h | ⟨h, h'⟩
    · exact h
    · linarith [hlt.1]
  · refine ⟨cy.1, ?_⟩
    rcases cy.2 with h | ⟨h, h'⟩
    · exact h
    · linarith [hlt.2.1]
  · refine ⟨cz.1, ?_⟩
    rcases cz.2 with h | ⟨h, h'⟩
    · exact h
    · linarith [hlt.2.2]

/-! ## The line query in a leaf -/

theorem atomic_line_in_tetra_test_decides (t : Nat) (b : Box) (q : QueryStatistics)
    (mesh : Mesh) (gs : Bool) (q' : QueryStatistics)
    (hq : Spatial_Queries.atomic_line_in_tetra_test t b q mesh gs = some q') :
    QueryStatistics.Decides (fun u => Geometry_Wrapper.line_in_tetra b.min b.max u mesh) t q
      q' := by
  apply decides_intro
  unfold Spatial_Queries.atomic_line_in_tetra_test at hq
  by_cases hl : t < q.access_per_tetra.length <;>
    cases hc : q.checkTetra t <;> cases gs <;>
    cases ht : Geometry_Wrapper.line_in_tetra b.min b.max t mesh <;>
    simp [QueryStatistics.count_access_if, QueryStatistics.count_access, hl, hc, ht] at hq <;>
    subst hq <;> simp [hc, ht]

/-- A box that encloses the four vertices of a tetrahedron encloses the closed
tetrahedron. -/
theorem encloses_closed_tetrahedron (acc : Point × Point) (v0 v1 v2 v3 x : Point)
    (e0 : Encloses acc v0) (e1 : Encloses acc v1) (e2 : Encloses acc v2) (e3 : Encloses acc v3)
    (hx : inClosedTetrahedron v0 v1 v2 v3 x) : Encloses acc x := by
  obtain ⟨l0, l1, l2, l3, p0, p1, p2, p3, hs, hxx, hxy, hxz⟩ := hx
  unfold Encloses at *
  obtain ⟨a0, b0, c0, d0, f0, g0⟩ := e0
  obtain ⟨a1, b1, c1, d1, f1, g1⟩ := e1
  obtain ⟨a2, b2, c2, d2, f2, g2⟩ := e2
  obtain ⟨a3, b3, c3, d3, f3, g3⟩ := e3
  have key : ∀ (m w0 w1 w2 w3 : ℚ), m ≤ w0 → m ≤ w1 → m ≤ w2 → m ≤ w3 →
      m ≤ l0 * w0 + l1 * w1 + l2 * w2 + l3 * w3 := by
    intro m w0 w1 w2 w3 h0 h1 h2 h3
    have e : m = l0 * m + l1 * m + l2 * m + l3 * m := by
      have : (l0 + l1 + l2 + l3) * m = m := by rw [hs, one_mul]
      linarith
    have := mul_le_mul_of_nonneg_left h0 p0
    have := mul_le_mul_of_nonneg_left h1 p1
    have := mul_le_mul_of_nonneg_left h2 p2
    have := mul_le_mul_of_nonneg_left h3 p3
    linarith
  have key2 : ∀ (m w0 w1 w2 w3 : ℚ), w0 ≤ m → w1 ≤ m → w2 ≤ m → w3 ≤ m →
      l0 * w0 + l1 * w1 + l2 * w2 + l3 * w3 ≤ m := by
    intro m w0 w1 w2 w3 h0 h1 h2 h3
    have e : m = l0 * m + l1 * m + l2 * m + l3 * m := by
      have : (l0 + l1 + l2 + l3) * m = m := by rw [hs, one_mul]
      linarith
    have := mul_le_mul_of_nonneg_left h0 p0
    have := mul_le_mul_of_nonneg_left h1 p1
    have := mul_le_mul_of_nonneg_left h2 p2
    have := mul_le_mul_of_nonneg_left h3 p3
    linarith
  rw [hxx, hxy, hxz]
  exact ⟨key _ _ _ _ _ a0 a1 a2 a3, key2 _ _ _ _ _ b0 b1 b2 b3, key _ _ _ _ _ c0 c1 c2 c3,
    key2 _ _ _ _ _ d0 d1 d2 d3, key _ _ _ _ _ f0 f1 f2 f3, key2 _ _ _ _ _ g0 g1 g2 g3⟩

/-- For a tetrahedron in `RIGHT` orientation, `line_in_tetra` returns `true`
exactly when a point of the segment lies in the closed tetrahedron. -/
theorem line_in_tetra_iff_closed (a b : Point) (t : Nat) (mesh : Mesh)
    (hright : mesh.right_oriented t) :
    Geometry_Wrapper.line_in_tetra a b t mesh = true ↔
      ∃ s : ℚ, 0 ≤ s ∧ s ≤ 1 ∧
        inClosedTetrahedron (mesh.tetra_vertex t 0) (mesh.tetra_vertex t 1)
          (mesh.tetra_vertex t 2) (mesh.tetra_vertex t 3) (segment_point a b s) := by
  rw [line_in_tetra_iff_sides]
  constructor
  · rintro ⟨s, h0, h1, hs⟩
    exact ⟨s, h0, h1, (closed_tetrahedron_iff_sides _ _ _ _ _ hright).mp hs⟩
  · rintro ⟨s, h0, h1, hs⟩
    exact ⟨s, h0, h1, (closed_tetrahedron_iff_sides _ _ _ _ _ hright).mpr hs⟩

/-- A run that `line_in_bounding_box` rejects: none of its tetrahedra in
`RIGHT` orientation passes `line_in_tetra`. -/
theorem run_rejected_fails (a b : Point) (mesh : Mesh) (first : Nat) (len : Int)
    (h : Geometry_Wrapper.line_in_bounding_box a b
      (RawNode.get_run_bounding_box mesh first len).1 = false)
    (t : Nat) (ht : t ∈ RawNode.run_ids first len) (hright : mesh.right_oriented t) :
    Geometry_Wrapper.line_in_tetra a b t mesh = false := by
  cases hl : Geometry_Wrapper.line_in_tetra a b t mesh
  · rfl
  · exfalso
    obtain ⟨s, h0, h1, hs⟩ := (line_in_tetra_iff_closed a b t mesh hright).mp hl
    have he := encloses_closed_tetrahedron _ _ _ _ _ _
      (get_run_bounding_box_encloses mesh first len t ht 0)
      (get_run_bounding_box_encloses mesh first len t ht 1)
      (get_run_bounding_box_encloses mesh first len t ht 2)
      (get_run_bounding_box_encloses mesh first len t ht 3) hs
    have : Geometry_Wrapper.line_in_bounding_box a b
        (RawNode.get_run_bounding_box mesh first len).1 = true := by
      unfold Geometry_Wrapper.line_in_bounding_box
      rw [ClipLine3D_iff_point]
      unfold Encloses segment_point at he
      simp only at he
      exact ⟨s, h0, h1, he⟩
    rw [h] at this
    exact Bool.noConfusion this

/-- What the leaf procedure of the line query returns on a well-formed array of
tetrahedra in `RIGHT` orientation. -/
theorem exec_line_query_leaf_exact (b : Box) (mesh : Mesh) (gs : Bool) :
    ∀ (ts : List Int) (q q' : QueryStatistics), wellFormedRuns ts = true →
      (∀ u : Nat, (u : Int) ∈ runExpansion ts → mesh.right_oriented u) →
      q.Agrees (fun u => Geometry_Wrapper.line_in_tetra b.min b.max u mesh) →
      Spatial_Queries.exec_line_query_leaf b mesh gs ts q = some q' →
      q'.Agrees (fun u => Geometry_Wrapper.line_in_tetra b.min b.max u mesh) ∧
        ∀ u : Nat, u ∈ q'.tetrahedra ↔
          u ∈ q.tetrahedra ∨
            ((u : Int) ∈ runExpansion ts ∧
              Geometry_Wrapper.line_in_tetra b.min b.max u mesh = true)
  | [], q, q', _, _, hq, h => by
    simp only [Spatial_Queries.exec_line_query_leaf, Option.some.injEq] at h
    subst h
    exact ⟨hq, fun u => by simp [runExpansion]⟩
  | [a], q, q', hw, _, hq, h => by
    simp only [wellFormedRuns, decide_eq_true_eq] at hw
    simp only [Spatial_Queries.exec_line_query_leaf, not_lt.mpr (le_of_lt hw), if_false] at h
    obtain ⟨h1, h2⟩ := atomic_line_in_tetra_test_decides a.toNat b q mesh gs q' h hq
    refine ⟨h1, fun u => ?_⟩
    rw [h2 u]
    simp only [runExpansion, List.mem_singleton]
    have e : u = a.toNat ↔ (u : Int) = a := by omega
    constructor
    · rintro (hu | ⟨hu, hu'⟩)
      · exact Or.inl hu
      · exact Or.inr ⟨e.mp hu, by rw [hu]; exact hu'⟩
    · rintro (hu | ⟨hu, hu'⟩)
      · exact Or.inl hu
      · exact Or.inr ⟨e.mpr hu, by rw [← e.mpr hu]; exact hu'⟩
  | a :: len :: rest, q, q', hw, hright, hq, h => by
    simp only [wellFormedRuns] at hw
    simp only [Spatial_Queries.exec_line_query_leaf] at h
    by_cases ha : 0 < a
    · simp only [ha, if_true] at hw
      simp only [not_lt.mpr (le_of_lt ha), if_false] at h
      obtain ⟨q1, hq1, hq2⟩ := Option.bind_eq_some.mp h
      obtain ⟨h1, h2⟩ := atomic_line_in_tetra_test_decides a.toNat b q mesh gs q1 hq1 hq
      have hexp := runExpansion_cons_nonneg a (len :: rest) (not_lt.mpr (le_of_lt ha))
      obtain ⟨e2, e3⟩ := exec_line_query_leaf_exact b mesh gs (len :: rest) q1 q' hw
        (fun u hu => hright u (by rw [hexp]; exact List.mem_cons_of_mem _ hu)) h1 hq2
      refine ⟨e2, fun u => ?_⟩
      rw [e3 u, h2 u, hexp, List.mem_cons]
      have e : u = a.toNat ↔ (u : Int) = a := by omega
      constructor
      · rintro ((hu | ⟨hu, hu'⟩) | ⟨hu, hu'⟩)
        · exact Or.inl hu
        · exact Or.inr ⟨Or.inl (e.mp hu), by rw [hu]; exact hu'⟩
        · exact Or.inr ⟨Or.inr hu, hu'⟩
      · rintro (hu | ⟨hu | hu, hu'⟩)
        · exact Or.inl (Or.inl hu)
        · exact Or.inl (Or.inr ⟨e.mpr hu, by rw [← e.mpr hu]; exact hu'⟩)
        · exact Or.inr ⟨hu, hu'⟩
    · simp only [ha, if_false, Bool.and_eq_true, decide_eq_true_eq] at hw
      obtain ⟨⟨han, hlen⟩, hrest⟩ := hw
      simp only [han, if_true] at h
      have hexp : ∀ u : Nat, (u : Int) ∈ runExpansion (a :: len :: rest) ↔
          u ∈ RawNode.run_ids a.natAbs len ∨ (u : Int) ∈ runExpansion rest := by
        intro u
        simp only [runExpansion, han, if_true, List.mem_append, mem_run_ids u a len han hlen]
      have hids : (RawNode.get_run_bounding_box mesh a.natAbs len).2 =
          RawNode.run_ids a.natAbs len := rfl
      have hright' : ∀ u : Nat, (u : Int) ∈ runExpansion rest → mesh.right_oriented u :=
        fun u hu => hright u ((hexp u).mpr (Or.inr hu))
      rw [hids] at h
      by_cases hbb : Geometry_Wrapper.line_in_bounding_box b.min b.max
          (RawNode.get_run_bounding_box mesh a.natAbs len).1
      · simp only [hbb, if_true] at h
        obtain ⟨q2, hq2, hrun⟩ := Option.bind_eq_some.mp h
        obtain ⟨h1, h2⟩ := forEach_decides _
          (fun q t => Spatial_Queries.atomic_line_in_tetra_test t b q mesh gs)
          (RawNode.run_ids a.natAbs len) q q2
          (fun q0 t q0' _ h0 => atomic_line_in_tetra_test_decides t b q0 mesh gs q0' h0) hq2 hq
        obtain ⟨e2, e3⟩ := exec_line_query_leaf_exact b mesh gs rest q2 q' hrest hright' h1 hrun
        refine ⟨e2, fun u => ?_⟩
        rw [e3 u, h2 u, hexp u]
        constructor
        · rintro ((hu | ⟨hu, hu'⟩) | ⟨hu, hu'⟩)
          · exact Or.inl hu
          · exact Or.inr ⟨Or.inl hu, hu'⟩
          · exact Or.inr ⟨Or.inr hu, hu'⟩
        · rintro (hu | ⟨hu | hu, hu'⟩)
          · exact Or.inl (Or.inl hu)
          · exact Or.inl (Or.inr ⟨hu, hu'⟩)
          · exact Or.inr ⟨hu, hu'⟩
      · simp only [hbb, Bool.false_eq_true, if_false] at h
        have hfail : ∀ t ∈ RawNode.run_ids a.natAbs len,
            Geometry_Wrapper.line_in_tetra b.min b.max t mesh = false :=
          fun t ht => run_rejected_fails b.min b.max mesh a.natAbs len (by simpa using hbb) t ht
            (hright t ((hexp t).mpr (Or.inl ht)))
        obtain ⟨e2, e3⟩ := exec_line_query_leaf_exact b mesh gs rest q q' hrest hright' hq h
        refine ⟨e2, fun u => ?_⟩
        rw [e3 u, hexp u]
        constructor
        · rintro (hu | ⟨hu, hu'⟩)
          · exact Or.inl hu
          · exact Or.inr ⟨Or.inr hu, hu'⟩
        · rintro (hu | ⟨hu | hu, hu'⟩)
          · exact Or.inl hu
          · rw [hfail u hu] at hu'; exact absurd hu' (by decide)
          · exact Or.inr ⟨hu, hu'⟩

/-- Without the statistics the leaf procedure of the line query returns on every
well-formed array. -/
theorem exec_line_query_leaf_returns (b : Box) (mesh : Mesh) :
    ∀ (ts : List Int) (q : QueryStatistics), wellFormedRuns ts = true →
      ∃ q', Spatial_Queries.exec_line_query_leaf b mesh false ts q = some q'
  | [], q, _ => ⟨q, by simp [Spatial_Queries.exec_line_query_leaf]⟩
  | [a], q, hw => by
    simp only [wellFormedRuns, decide_eq_true_eq] at hw
    simp only [Spatial_Queries.exec_line_query_leaf, not_lt.mpr (le_of_lt hw), if_false]
    exact atomic_line_in_tetra_test_returns a.toNat b q mesh
  | a :: len :: rest, q, hw => by
    simp only [wellFormedRuns] at hw
    simp only [Spatial_Queries.exec_line_query_leaf]
    by_cases ha : 0 < a
    · simp only [ha, if_true] at hw
      simp only [not_lt.mpr (le_of_lt ha), if_false]
      obtain ⟨q1, h1⟩ := atomic_line_in_tetra_test_returns a.toNat b q mesh
      obtain ⟨q2, h2⟩ := exec_line_query_leaf_returns b mesh (len :: rest) q1 hw
      exact ⟨q2, by simp [h1, h2]⟩
    · simp only [ha, if_false, Bool.and_eq_true, decide_eq_true_eq] at hw
      simp only [hw.1.1, if_true]
      split_ifs
      · obtain ⟨q1, h1⟩ := forEach_returns _
          (fun q t => atomic_line_in_tetra_test_returns t b q mesh)
          (RawNode.get_run_bounding_box mesh a.natAbs len).2 q
        obtain ⟨q2, h2⟩ := exec_line_query_leaf_returns b mesh rest q1 hw.2
        exact ⟨q2, by simp [h1, h2]⟩
      · exact exec_line_query_leaf_returns b mesh rest q hw.2

/-! ## The line query on a built tree -/

theorem mem_map_ofNat (u : Nat) (ts : List Nat) : (u : Int) ∈ ts.map Int.ofNat ↔ u ∈ ts := by
  simp only [List.mem_map, Int.ofNat_eq_coe]
  constructor
  · rintro ⟨x, hx, e⟩
    have : x = u := by omega
    subst this; exact hx
  · intro h; exact ⟨u, h, rfl⟩

/-- The line query in a leaf of a built tree: the ids of the leaf that pass
`line_in_tetra` are added to the result. -/
theorem line_leaf_plain (b : Box) (mesh : Mesh) (gs : Bool)
    (hright : ∀ t, 1 ≤ t → t ≤ mesh.get_num_tetrahedra → mesh.right_oriented t)
    (ts : List Nat) (hr : ∀ t ∈ ts, 1 ≤ t ∧ t ≤ mesh.get_num_tetrahedra)
    (s s' : QueryStatistics)
    (hs : s.Agrees (fun u => Geometry_Wrapper.line_in_tetra b.min b.max u mesh))
    (h : Spatial_Queries.exec_line_query_leaf b mesh gs (ts.map Int.ofNat)
      (if gs then { s with numLeaf := s.numLeaf + 1 } else s) = some s') :
    s'.Agrees (fun u => Geometry_Wrapper.line_in_tetra b.min b.max u mesh) ∧
      ∀ u : Nat, u ∈ s'.tetrahedra ↔
        u ∈ s.tetrahedra ∨
          (u ∈ ts ∧ Geometry_Wrapper.line_in_tetra b.min b.max u mesh = true) := by
  have hs1 : (if gs then { s with numLeaf := s.numLeaf + 1 } else s).Agrees
      (fun u => Geometry_Wrapper.line_in_tetra b.min b.max u mesh) := by
    cases gs
    · exact hs
    · exact agrees_congr _ s _ rfl rfl hs
  have ht1 : (if gs then { s with numLeaf := s.numLeaf + 1 } else s).tetrahedra =
      s.tetrahedra := by cases gs <;> rfl
  obtain ⟨e2, e3⟩ := exec_line_query_leaf_exact b mesh gs (ts.map Int.ofNat) _ s'
    (wellFormedRuns_plain ts (fun x hx => (hr x hx).1))
    (fun u hu => by
      rw [runExpansion_plain, mem_map_ofNat] at hu
      exact hright u (hr u hu).1 (hr u hu).2) hs1 h
  refine ⟨e2, fun u => ?_⟩
  rw [e3 u, ht1, runExpansion_plain, mem_map_ofNat]

/-- Without the statistics the line query returns on every tree produced by
`build_tree`. -/
theorem exec_line_query_returns (d : Subdivision) (mesh : Mesh) (tree : Node)
    (b : Box) (qS : QueryStatistics) (hb : BuiltTree d mesh tree) :
    ∃ q, Spatial_Queries.exec_line_query d b mesh false tree.toRaw mesh.domain 0 qS
      = some q :=
  visit_leaves_returns d (Spatial_Queries.count_node false)
    (fun dom => !Geometry_Wrapper.line_in_box b.min b.max dom)
    (fun _ ts _ qS =>
      Spatial_Queries.exec_line_query_leaf b mesh false ts
        (if false then { qS with numLeaf := qS.numLeaf + 1 } else qS))
    (fun y => ∀ t ∈ y.2.2, 1 ≤ t ∧ t ≤ mesh.get_num_tetrahedra)
    (fun y _ hy =>
      exec_line_query_leaf_returns b mesh _ _
        (wellFormedRuns_plain y.2.2 (fun x hx => (hy x hx).1))) tree mesh.domain 0 qS
    (fun y hy => (builtTree_leaves d mesh tree hb mesh.domain 0 y hy).2)

/-- The line query on a tree produced by `build_tree`: the result it returns
agrees with `line_in_tetra` and holds ids of the mesh; a tetrahedron passing
`line_in_tetra` that is listed in a leaf whose box contains a point of the
segment lying below the maximum of the domain on every axis is in the
result. -/
theorem exec_line_query_built (d : Subdivision) (mesh : Mesh) (tree : Node) (gs : Bool)
    (b : Box) (qS q : QueryStatistics) (hb : BuiltTree d mesh tree)
    (hright : ∀ t, 1 ≤ t → t ≤ mesh.get_num_tetrahedra → mesh.right_oriented t)
    (hq : qS.Agrees (fun u => Geometry_Wrapper.line_in_tetra b.min b.max u mesh))
    (hin : ∀ u ∈ qS.tetrahedra, 1 ≤ u ∧ u ≤ mesh.get_num_tetrahedra)
    (hq' : Spatial_Queries.exec_line_query d b mesh gs tree.toRaw mesh.domain 0 qS = some q) :
    q.Agrees (fun u => Geometry_Wrapper.line_in_tetra b.min b.max u mesh) ∧
      (∀ u ∈ q.tetrahedra, 1 ≤ u ∧ u ≤ mesh.get_num_tetrahedra) ∧
      ∀ x ∈ Node.leaves d tree mesh.domain 0, ∀ s : ℚ, 0 ≤ s → s ≤ 1 →
        x.1.contains (segment_point b.min b.max s) mesh.domain.max = true →
        ((segment_point b.min b.max s).x < mesh.domain.max.x ∧
          (segment_point b.min b.max s).y < mesh.domain.max.y ∧
          (segment_point b.min b.max s).z < mesh.domain.max.z) →
        ∀ t ∈ x.2.2, Geometry_Wrapper.line_in_tetra b.min b.max t mesh = true →
          t ∈ q.tetrahedra := by
  have hQ := builtTree_leaves d mesh tree hb mesh.domain 0
  have hpreI : ∀ s : QueryStatistics,
      (s.Agrees (fun u => Geometry_Wrapper.line_in_tetra b.min b.max u mesh) ∧
        ∀ u ∈ s.tetrahedra, 1 ≤ u ∧ u ≤ mesh.get_num_tetrahedra) →
      ((Spatial_Queries.count_node gs s).Agrees
          (fun u => Geometry_Wrapper.line_in_tetra b.min b.max u mesh) ∧
        ∀ u ∈ (Spatial_Queries.count_node gs s).tetrahedra,
          1 ≤ u ∧ u ≤ mesh.get_num_tetrahedra) := by
    intro s hs
    unfold Spatial_Queries.count_node
    cases gs
    · exact hs
    · exact ⟨agrees_congr _ s _ rfl rfl hs.1, hs.2⟩
  have hpreT : ∀ (s : QueryStatistics) (t : Nat), t ∈ s.tetrahedra →
      t ∈ (Spatial_Queries.count_node gs s).tetrahedra := by
    intro s t ht
    unfold Spatial_Queries.count_node
    cases gs <;> exact ht
  have hleaf : ∀ (y : Box × List Nat × List Nat) (s s' : QueryStatistics),
      (y.2.2.Pairwise (fun a b => a < b) ∧ ∀ t ∈ y.2.2, 1 ≤ t ∧ t ≤ mesh.get_num_tetrahedra) →
      Spatial_Queries.exec_line_query_leaf b mesh gs (y.2.2.map Int.ofNat)
        (if gs then { s with numLeaf := s.numLeaf + 1 } else s) = some s' →
      (s.Agrees (fun u => Geometry_Wrapper.line_in_tetra b.min b.max u mesh) ∧
        ∀ u ∈ s.tetrahedra, 1 ≤ u ∧ u ≤ mesh.get_num_tetrahedra) →
      (s'.Agrees (fun u => Geometry_Wrapper.line_in_tetra b.min b.max u mesh) ∧
        ∀ u ∈ s'.tetrahedra, 1 ≤ u ∧ u ≤ mesh.get_num_tetrahedra) ∧
      ∀ u : Nat, u ∈ s'.tetrahedra ↔
        u ∈ s.tetrahedra ∨
          (u ∈ y.2.2 ∧ Geometry_Wrapper.line_in_tetra b.min b.max u mesh = true) := by
    intro y s s' hy h hs
    obtain ⟨e2, e3⟩ := line_leaf_plain b mesh gs hright y.2.2 hy.2 s s' hs.1 h
    refine ⟨⟨e2, fun u hu => ?_⟩, e3⟩
    rcases (e3 u).mp hu with h1 | ⟨h1, _⟩
    · exact hs.2 u h1
    · exact hy.2 u h1
  have hI := visit_leaves_invariant d (Spatial_Queries.count_node gs)
    (fun dom => !Geometry_Wrapper.line_in_box b.min b.max dom)
    (fun _ ts _ qS =>
      Spatial_Queries.exec_line_query_leaf b mesh gs ts
        (if gs then { qS with numLeaf := qS.numLeaf + 1 } else qS))
    (fun s => s.Agrees (fun u => Geometry_Wrapper.line_in_tetra b.min b.max u mesh) ∧
      ∀ u ∈ s.tetrahedra, 1 ≤ u ∧ u ≤ mesh.get_num_tetrahedra)
    (fun y => y.2.2.Pairwise (fun a b => a < b) ∧
      ∀ t ∈ y.2.2, 1 ≤ t ∧ t ≤ mesh.get_num_tetrahedra)
    hpreI (fun y s s' hy h hs => (hleaf y s s' hy h hs).1) tree mesh.domain 0 qS q hQ hq'
    ⟨hq, hin⟩
  refine ⟨hI.1, hI.2, ?_⟩
  intro x hx s h0 h1 hc hlt t ht hpass
  exact visit_leaves_reaches d (Spatial_Queries.count_node gs)
    (fun dom => !Geometry_Wrapper.line_in_box b.min b.max dom)
    (fun _ ts _ qS =>
      Spatial_Queries.exec_line_query_leaf b mesh gs ts
        (if gs then { qS with numLeaf := qS.numLeaf + 1 } else qS))
    (fun s => s.Agrees (fun u => Geometry_Wrapper.line_in_tetra b.min b.max u mesh) ∧
      ∀ u ∈ s.tetrahedra, 1 ≤ u ∧ u ≤ mesh.get_num_tetrahedra)
    (fun s => t ∈ s.tetrahedra)
    (fun y => y.2.2.Pairwise (fun a b => a < b) ∧
      ∀ t ∈ y.2.2, 1 ≤ t ∧ t ≤ mesh.get_num_tetrahedra)
    (segment_point b.min b.max s) mesh.domain.max x
    (fun s hs => ⟨hpreI s hs, hpreT s t⟩)
    (fun y s s' hy h hs =>
      ⟨(hleaf y s s' hy h hs).1, fun hE => ((hleaf y s s' hy h hs).2 t).mpr (Or.inl hE)⟩)
    (fun B hB => by
      simp only [Bool.not_eq_false']
      rw [line_in_box_of_contains b.min b.max B mesh.domain.max s h0 h1 hlt hB])
    hc
    (fun s s' hs h =>
      ((hleaf x s s' (hQ x hx) h hs).2 t).mpr (Or.inr ⟨ht, hpass⟩))
    tree mesh.domain 0 qS q hQ hx hq' ⟨hq, hin⟩

theorem vertex_in_closed_tetrahedron (v : Fin 4 → Point) (j : Fin 4) :
    inClosedTetrahedron (v 0) (v 1) (v 2) (v 3) (v j) := by
  unfold inClosedTetrahedron
  fin_cases j
  · exact ⟨1, 0, 0, 0, by norm_num, by norm_num, by norm_num, by norm_num, by norm_num,
      by simp, by simp, by simp⟩
  · exact ⟨0, 1, 0, 0, by norm_num, by norm_num, by norm_num, by norm_num, by norm_num,
      by simp, by simp, by simp⟩
  · exact ⟨0, 0, 1, 0, by norm_num, by norm_num, by norm_num, by norm_num, by norm_num,
      by simp, by simp, by simp⟩
  · exact ⟨0, 0, 0, 1, by norm_num, by norm_num, by norm_num, by norm_num, by norm_num,
      by simp, by simp, by simp⟩

/-- C39, as stated, fails on the cube mesh after `set_faces_ordering` (its
twelve tetrahedra have the turn `RIGHT_TURN`), in the tree that
`T_Tree::build_tree` produces with the octree and `T_max = 4`, for the segment
from `(1, 1/4, 1/4)` to `(1, 1/2, 1/4)`, which lies in the face `x = 1` of the
domain: tetrahedron 11 passes `line_in_tetra`, and `exec_line_query` returns no
tetrahedron. `line_in_box` (`ClipLine3D_middle`) treats the maximum faces of
every box as open, the faces of the domain included, so the visit stops at the
root. -/
theorem C39_counterexample_segment_on_domain_face :
    (∀ t ∈ List.range' 1 12,
      Geometry_Wrapper.stored_turn
        ((Geometry_Wrapper.set_faces_ordering Examples.cubeMesh).get_tetrahedron t)
        (Geometry_Wrapper.set_faces_ordering Examples.cubeMesh) = 1 ∧
      (Geometry_Wrapper.set_faces_ordering Examples.cubeMesh).right_oriented t) ∧
    Geometry_Wrapper.line_in_tetra ⟨1, 1 / 4, 1 / 4⟩ ⟨1, 1 / 2, 1 / 4⟩ 11
      (Geometry_Wrapper.set_faces_ordering Examples.cubeMesh) = true ∧
    Geometry_Wrapper.line_in_box ⟨1, 1 / 4, 1 / 4⟩ ⟨1, 1 / 2, 1 / 4⟩
      (Geometry_Wrapper.set_faces_ordering Examples.cubeMesh).domain = false ∧
    ∃ tree q,
      T_Tree.build_tree Subdivision.OK (Geometry_Wrapper.set_faces_ordering Examples.cubeMesh)
        4 20 = some tree ∧
      Spatial_Queries.exec_line_query Subdivision.OK ⟨⟨1, 1 / 4, 1 / 4⟩, ⟨1, 1 / 2, 1 / 4⟩⟩
        (Geometry_Wrapper.set_faces_ordering Examples.cubeMesh) false tree.toRaw
        (Geometry_Wrapper.set_faces_ordering Examples.cubeMesh).domain 0
        (QueryStatistics.init 12) = some q ∧
      q.tetrahedra = [] := by
  refine ⟨?_, by decide!, by decide!, ?_⟩
  · unfold Mesh.right_oriented
    decide!
  · have h : (T_Tree.build_tree Subdivision.OK
          (Geometry_Wrapper.set_faces_ordering Examples.cubeMesh) 4 20).bind (fun tree =>
        (Spatial_Queries.exec_line_query Subdivision.OK
          ⟨⟨1, 1 / 4, 1 / 4⟩, ⟨1, 1 / 2, 1 / 4⟩⟩
          (Geometry_Wrapper.set_faces_ordering Examples.cubeMesh) false tree.toRaw
          (Geometry_Wrapper.set_faces_ordering Examples.cubeMesh).domain 0
          (QueryStatistics.init 12)).map (fun q => q.tetrahedra)) = some [] := by
      decide!
    obtain ⟨tree, htree, h⟩ := Option.bind_eq_some.mp h
    obtain ⟨q, hq, hres⟩ := Option.map_eq_some'.mp h
    exact ⟨tree, q, htree, hq, hres⟩

/-- C39 (amended): for every tree produced by `build_tree` on a mesh (vertex
indices in range, vertices inside the domain) whose tetrahedra are all stored in
`RIGHT` orientation, every query segment from `a` to `b` and a state with an
empty result and no seen bit: without the statistics (`get_stats = false`)
`exec_line_query` returns; for both values of `get_stats` the result it returns
has no duplicate and every id in it is a tetrahedron of the mesh for which
`line_in_tetra(a, b, t)` is true; a tetrahedron for which `line_in_tetra` is
true is in the result whenever it is listed in a leaf whose box contains
(`Box::contains`) a point of the segment that lies below the maximum of the
domain on every axis, in particular whenever one of its vertices is such a
point of the segment. Pruning runs with `ClipLine3D` drops nothing: on a
well-formed compressed array whose tetrahedra are in `RIGHT` orientation,
`exec_line_query_leaf` returns without the statistics, and what it returns are
exactly the ids of the expansion for which `line_in_tetra` is true. -/
theorem C39_line_query_complete_below_domain_max (d : Subdivision) (mesh : Mesh) (tree : Node)
    (get_stats : Bool) (a b : Point) (qS : QueryStatistics) (hwf : mesh.wellFormed)
    (hb : BuiltTree d mesh tree)
    (hright : ∀ t, 1 ≤ t → t ≤ mesh.get_num_tetrahedra → mesh.right_oriented t)
    (hempty : qS.tetrahedra = []) (hseen : ∀ t, qS.checkTetra t = false) :
    (∃ q, Spatial_Queries.exec_line_query d ⟨a, b⟩ mesh false tree.toRaw mesh.domain 0 qS
        = some q) ∧
    (∀ q, Spatial_Queries.exec_line_query d ⟨a, b⟩ mesh get_stats tree.toRaw mesh.domain 0 qS
        = some q →
      q.tetrahedra.Nodup ∧
      (∀ t ∈ q.tetrahedra, 1 ≤ t ∧ t ≤ mesh.get_num_tetrahedra ∧
        Geometry_Wrapper.line_in_tetra a b t mesh = true) ∧
      (∀ x ∈ Node.leaves d tree mesh.domain 0, ∀ s : ℚ, 0 ≤ s → s ≤ 1 →
        x.1.contains (segment_point a b s) mesh.domain.max = true →
        ((segment_point a b s).x < mesh.domain.max.x ∧
          (segment_point a b s).y < mesh.domain.max.y ∧
          (segment_point a b s).z < mesh.domain.max.z) →
        ∀ t ∈ x.2.2, Geometry_Wrapper.line_in_tetra a b t mesh = true → t ∈ q.tetrahedra) ∧
      (∀ t, 1 ≤ t → t ≤ mesh.get_num_tetrahedra → ∀ (j : Fin 4) (s : ℚ), 0 ≤ s → s ≤ 1 →
        mesh.tetra_vertex t j = segment_point a b s →
        ((mesh.tetra_vertex t j).x < mesh.domain.max.x ∧
          (mesh.tetra_vertex t j).y < mesh.domain.max.y ∧
          (mesh.tetra_vertex t j).z < mesh.domain.max.z) →
        t ∈ q.tetrahedra)) ∧
    ∀ (S : List Int) (q0 : QueryStatistics), wellFormedRuns S = true →
      (∀ u : Nat, (u : Int) ∈ runExpansion S → mesh.right_oriented u) →
      q0.tetrahedra = [] → (∀ t, q0.checkTetra t = false) →
      (∃ q, Spatial_Queries.exec_line_query_leaf ⟨a, b⟩ mesh false S q0 = some q) ∧
      ∀ q, Spatial_Queries.exec_line_query_leaf ⟨a, b⟩ mesh get_stats S q0 = some q →
        q.tetrahedra.Nodup ∧
        ∀ u : Nat, u ∈ q.tetrahedra ↔
          ((u : Int) ∈ runExpansion S ∧ Geometry_Wrapper.line_in_tetra a b u mesh = true) := by
  have hstart : ∀ q0 : QueryStatistics, q0.tetrahedra = [] → (∀ t, q0.checkTetra t = false) →
      q0.Agrees (fun u => Geometry_Wrapper.line_in_tetra a b u mesh) := by
    intro q0 h1 h2
    refine ⟨by rw [h1]; exact List.nodup_nil, ?_, ?_⟩
    · intro t ht; rw [h1] at ht; exact absurd ht (List.not_mem_nil t)
    · intro t ht; rw [h2 t] at ht; exact absurd ht (by decide)
  refine ⟨exec_line_query_returns d mesh tree ⟨a, b⟩ qS hb, fun q e1 => ?_, ?_⟩
  · obtain ⟨e2, e3, e4⟩ := exec_line_query_built d mesh tree get_stats ⟨a, b⟩ qS q hb hright
      (hstart qS hempty hseen)
      (fun u hu => by rw [hempty] at hu; exact absurd hu (List.not_mem_nil u)) e1
    refine ⟨e2.1, fun t ht => ⟨(e3 t ht).1, (e3 t ht).2, (e2.2.1 t ht).2⟩, e4, ?_⟩
    intro t h1 h2 j s hs0 hs1 hv hlt
    obtain ⟨⟨x, hx, hxc⟩, hall⟩ := builtTree_vertex_leaf d mesh tree hwf hb t h1 h2 j
    have hpass : Geometry_Wrapper.line_in_tetra a b t mesh = true := by
      rw [line_in_tetra_iff_closed a b t mesh (hright t h1 h2)]
      refine ⟨s, hs0, hs1, ?_⟩
      rw [← hv]
      exact vertex_in_closed_tetrahedron (fun i => mesh.tetra_vertex t i) j
    rw [hv] at hxc hlt
    exact e4 x hx s hs0 hs1 hxc hlt t (hall x hx (by rw [hv]; exact hxc)) hpass
  · intro S q0 hw hr h1 h2
    refine ⟨exec_line_query_leaf_returns ⟨a, b⟩ mesh S q0 hw, fun q e1 => ?_⟩
    obtain ⟨e2, e3⟩ := exec_line_query_leaf_exact ⟨a, b⟩ mesh get_stats S q0 q hw hr
      (hstart q0 h1 h2) e1
    refine ⟨e2.1, fun u => ?_⟩
    rw [e3 u, h1]
    simp

theorem orientedCube_wellFormed :
    (Geometry_Wrapper.set_faces_ordering Examples.cubeMesh).wellFormed := by
  unfold Mesh.wellFormed
  constructor
  · decide!
  · decide!

theorem orientedCube_right (t : Nat) (h1 : 1 ≤ t)
    (h2 : t ≤ (Geometry_Wrapper.set_faces_ordering Examples.cubeMesh).get_num_tetrahedra) :
    (Geometry_Wrapper.set_faces_ordering Examples.cubeMesh).right_oriented t := by
  have h3 : t ≤ 12 := h2
  unfold Mesh.right_oriented
  interval_cases t <;> decide!

/-- C39 (amended) on the cube mesh after `set_faces_ordering`, in the tree of
`T_Tree::build_tree` with the octree and `T_max = 4`, for the segment from
`(1/8, 1/4, 3/8)` to `(7/8, 3/4, 1/8)`. -/
theorem C39_line_query_complete_below_domain_max_witness :
    ∃ tree q,
      T_Tree.build_tree Subdivision.OK (Geometry_Wrapper.set_faces_ordering Examples.cubeMesh)
        4 20 = some tree ∧
      Spatial_Queries.exec_line_query Subdivision.OK ⟨⟨1 / 8, 1 / 4, 3 / 8⟩, ⟨7 / 8, 3 / 4, 1 / 8⟩⟩
        (Geometry_Wrapper.set_faces_ordering Examples.cubeMesh) false tree.toRaw
        (Geometry_Wrapper.set_faces_ordering Examples.cubeMesh).domain 0
        (QueryStatistics.init 12) = some q ∧
      q.tetrahedra.Nodup ∧
      ∀ t ∈ q.tetrahedra,
        1 ≤ t ∧ t ≤ (Geometry_Wrapper.set_faces_ordering Examples.cubeMesh).get_num_tetrahedra ∧
        Geometry_Wrapper.line_in_tetra ⟨1 / 8, 1 / 4, 3 / 8⟩ ⟨7 / 8, 3 / 4, 1 / 8⟩ t
          (Geometry_Wrapper.set_faces_ordering Examples.cubeMesh) = true := by
  obtain ⟨tree, htree⟩ :
      ∃ tree, T_Tree.build_tree Subdivision.OK
        (Geometry_Wrapper.set_faces_ordering Examples.cubeMesh) 4 20 = some tree :=
    Option.isSome_iff_exists.mp (by decide!)
  obtain ⟨⟨q, hq⟩, hres, _⟩ := C39_line_query_complete_below_domain_max Subdivision.OK
    (Geometry_Wrapper.set_faces_ordering Examples.cubeMesh) tree false
    ⟨1 / 8, 1 / 4, 3 / 8⟩ ⟨7 / 8, 3 / 4, 1 / 8⟩ (QueryStatistics.init 12)
    orientedCube_wellFormed ⟨0, 4, 20, Or.inr (Or.inr (Or.inl htree))⟩ orientedCube_right
    rfl (fun _ => rfl)
  exact ⟨tree, q, htree, hq, (hres q hq).1, (hres q hq).2.1⟩

/-! ## `Reader::read_mesh` -/

theorem read_vertices_tetrahedra : ∀ (ls : List (ℚ × ℚ × ℚ × ℚ)) (i : Nat) (mesh : Mesh),
    (Reader.read_vertices ls i mesh).tetrahedra = mesh.tetrahedra ∧
    (Reader.read_vertices ls i mesh).vertices =
      mesh.vertices ++ ls.map (fun l => (⟨⟨l.1, l.2.1, l.2.2.1⟩, l.2.2.2⟩ : Vertex))
  | [], _, mesh => by simp [Reader.read_vertices]
  | l :: rest, i, mesh => by
    obtain ⟨h1, h2⟩ := read_vertices_tetrahedra rest (i + 1) (Reader.read_vertex mesh i l)
    have e1 : (Reader.read_vertex mesh i l).tetrahedra = mesh.tetrahedra := by
      unfold Reader.read_vertex Mesh.add_vertex
      simp only []
      split_ifs <;> rfl
    have e2 : (Reader.read_vertex mesh i l).vertices =
        mesh.vertices ++ [(⟨⟨l.1, l.2.1, l.2.2.1⟩, l.2.2.2⟩ : Vertex)] := by
      unfold Reader.read_vertex Mesh.add_vertex
      simp only []
      split_ifs <;> rfl
    simp only [Reader.read_vertices]
    rw [h1, h2, e1, e2]
    simp

theorem read_tetrahedra_spec : ∀ (ls : List (Int × Int × Int × Int)) (mesh : Mesh),
    (ls.foldl Reader.read_tetrahedron mesh).vertices = mesh.vertices ∧
    (ls.foldl Reader.read_tetrahedron mesh).tetrahedra =
      mesh.tetrahedra ++
        ls.map (fun l => Tetrahedron.mk4 (l.1 + 1) (l.2.1 + 1) (l.2.2.1 + 1) (l.2.2.2 + 1))
  | [], mesh => by simp
  | l :: rest, mesh => by
    obtain ⟨h1, h2⟩ := read_tetrahedra_spec rest (Reader.read_tetrahedron mesh l)
    rw [List.foldl_cons, h1, h2]
    simp [Reader.read_tetrahedron, Mesh.add_tetrahedron]

/-- C31, as stated, fails for the file
`1 1 / 0 0 0 0 / 5 6 7 8`: one vertex, one tetrahedron whose four indices are
outside `0..0`. `read_mesh` returns `true` and stores the tetrahedron
`(6, 7, 8, 9)` in a mesh with one vertex. -/
theorem C31_counterexample_index_not_checked :
    ∃ m, Reader.read_mesh Mesh.empty ⟨true, 1, 1, [(0, 0, 0, 0)], [(5, 6, 7, 8)]⟩
        = some (true, m) ∧
      m.get_num_vertices = 1 ∧ m.get_num_tetrahedra = 1 ∧
      (m.get_tetrahedron 1).TV 0 = 6 ∧ (m.get_tetrahedron 1).TV 1 = 7 ∧
      (m.get_tetrahedron 1).TV 2 = 8 ∧ (m.get_tetrahedron 1).TV 3 = 9 := by
  refine ⟨_, rfl, ?_, ?_, ?_, ?_, ?_, ?_⟩ <;> decide!

/-- C31 (amended): `Reader::read_mesh` returns `false`, leaving the mesh as it
was, exactly when the file cannot be opened or `atoi` gives `0` for the number
of vertices or of tetrahedra of the header; for a file that opens, with
positive counts, `num_vertices` vertex lines and at least `num_tetrahedra`
tetrahedron lines, it returns `true`, having appended the vertices of the
vertex lines and, for each of the first `num_tetrahedra` tetrahedron lines, the
tetrahedron of its four indices incremented by one: no index is compared with
`num_vertices`. -/
theorem C31_read_mesh_checks_header_only (mesh : Mesh) (f : Reader.TsFile) :
    ((f.is_open = false ∨ f.num_vertices = 0 ∨ f.num_tetrahedra = 0) →
      Reader.read_mesh mesh f = some (false, mesh)) ∧
    (f.is_open = true → 0 < f.num_vertices → 0 < f.num_tetrahedra →
      f.vertex_lines.length = f.num_vertices.toNat →
      f.num_tetrahedra.toNat ≤ f.tetra_lines.length →
      ∃ m, Reader.read_mesh mesh f = some (true, m) ∧
        m.vertices = mesh.vertices ++
          f.vertex_lines.map (fun l => (⟨⟨l.1, l.2.1, l.2.2.1⟩, l.2.2.2⟩ : Vertex)) ∧
        m.tetrahedra = mesh.tetrahedra ++
          (f.tetra_lines.take f.num_tetrahedra.toNat).map
            (fun l => Tetrahedron.mk4 (l.1 + 1) (l.2.1 + 1) (l.2.2.1 + 1) (l.2.2.2 + 1))) ∧
    (∀ r m, Reader.read_mesh mesh f = some (r, m) →
      (r = false ↔ (f.is_open = false ∨ f.num_vertices = 0 ∨ f.num_tetrahedra = 0))) := by
  refine ⟨?_, ?_, ?_⟩
  · intro h
    unfold Reader.read_mesh
    by_cases ho : f.is_open = false
    · rw [if_pos ho]
    · rw [if_neg ho]
      rcases h with h | h | h
      · exact absurd h ho
      · rw [if_pos (Or.inl h)]
      · rw [if_pos (Or.inr h)]
  · intro ho hv ht hlv hlt
    unfold Reader.read_mesh
    rw [if_neg (by simp [ho]), if_neg (by omega), if_neg (by omega), if_neg (by omega)]
    refine ⟨_, rfl, ?_, ?_⟩
    · rw [(read_tetrahedra_spec _ _).1, (read_vertices_tetrahedra _ _ _).2]
    · rw [(read_tetrahedra_spec _ _).2, (read_vertices_tetrahedra _ _ _).1]
  · intro r m h
    unfold Reader.read_mesh at h
    by_cases ho : f.is_open = false
    · rw [if_pos ho] at h
      simp only [Option.some.injEq, Prod.mk.injEq] at h
      rw [← h.1]
      exact ⟨fun _ => Or.inl ho, fun _ => rfl⟩
    · rw [if_neg ho] at h
      by_cases hz : f.num_vertices = 0 ∨ f.num_tetrahedra = 0
      · rw [if_pos hz] at h
        simp only [Option.some.injEq, Prod.mk.injEq] at h
        rw [← h.1]
        exact ⟨fun _ => Or.inr hz, fun _ => rfl⟩
      · rw [if_neg hz] at h
        split_ifs at h
        simp only [Option.some.injEq, Prod.mk.injEq] at h
        rw [← h.1]
        constructor
        · intro hc; exact absurd hc (by decide)
        · rintro (h1 | h1)
          · exact absurd h1 ho
          · exact absurd h1 hz

/-- C31 (amended) on the file `2 1 / 0 0 0 0 / 1 2 3 0 / 0 1 0 1`. -/
theorem C31_read_mesh_checks_header_only_witness :
    ∃ m, Reader.read_mesh Mesh.empty
        ⟨true, 2, 1, [(0, 0, 0, 0), (1, 2, 3, 0)], [(0, 1, 0, 1)]⟩ = some (true, m) ∧
      m.vertices = [⟨⟨0, 0, 0⟩, 0⟩, ⟨⟨1, 2, 3⟩, 0⟩] ∧
      m.tetrahedra = [Tetrahedron.mk4 1 2 1 2] := by
  obtain ⟨m, h1, h2, h3⟩ := (C31_read_mesh_checks_header_only Mesh.empty
    ⟨true, 2, 1, [(0, 0, 0, 0), (1, 2, 3, 0)], [(0, 1, 0, 1)]⟩).2.1 rfl (by decide) (by decide)
    rfl (by decide)
  exact ⟨m, h1, by rw [h2]; rfl, by rw [h3]; rfl⟩

/-! ## `T_Tree::build_tree`: termination when the subdivision separates the tetrahedra -/

theorem passing_append (mesh : Mesh) (B : Box) (R L : List Nat) :
    T_Tree.passing mesh B (R ++ L) = T_Tree.passing mesh B R ++ T_Tree.passing mesh B L := by
  simp [T_Tree.passing]

theorem passing_of_all (mesh : Mesh) (B : Box) (L : List Nat)
    (h : ∀ x ∈ L, Geometry_Wrapper.tetra_in_box_build x B mesh = true) :
    T_Tree.passing mesh B L = L := by
  simp only [T_Tree.passing, List.filter_eq_self]
  exact h

theorem resolved_congr (d : Subdivision) (mesh : Mesh) (kt k : Nat) (B : Box) (level : Nat)
    (R R' : List Nat) (h : T_Tree.passing mesh B R = T_Tree.passing mesh B R') :
    T_Tree.resolved d mesh kt k B level R = T_Tree.resolved d mesh kt k B level R' := by
  cases k <;> simp only [T_Tree.resolved, h]

theorem T_is_full_vertices (mesh : Mesh) (kt : Nat) (vs vs' ts : List Nat) :
    T_Tree.is_full mesh kt (Node.leaf vs ts) = T_Tree.is_full mesh kt (Node.leaf vs' ts) := rfl

theorem resolved_succ (d : Subdivision) (mesh : Mesh) (kt : Nat) :
    ∀ (k : Nat) (B : Box) (level : Nat) (R : List Nat),
      T_Tree.resolved d mesh kt k B level R = true →
      T_Tree.resolved d mesh kt (k + 1) B level R = true := by
  intro k
  induction k with
  | zero =>
    intro B level R h
    simp only [T_Tree.resolved, Bool.or_eq_true] at h ⊢
    exact Or.inl h
  | succ k ih =>
    intro B level R h
    rw [T_Tree.resolved] at h ⊢
    simp only [Bool.or_eq_true, List.all_eq_true] at h ⊢
    rcases h with h | h
    · exact Or.inl h
    · exact Or.inr (fun i hi => ih _ _ _ (h i hi))

theorem resolved_le (d : Subdivision) (mesh : Mesh) (kt : Nat) (k k' : Nat) (hk : k ≤ k')
    (B : Box) (level : Nat) (R : List Nat) (h : T_Tree.resolved d mesh kt k B level R = true) :
    T_Tree.resolved d mesh kt k' B level R = true := by
  induction hk with
  | refl => exact h
  | step _ ih => exact resolved_succ d mesh kt _ B level R ih

mutual
/-- A canonical subtree shows that the subdivision separates the tetrahedra
offered to its root. -/
theorem canonical_resolved (d : Subdivision) (mesh : Mesh) (kt : Nat) :
    ∀ (n : Node) (B : Box) (level : Nat) (R : List Nat),
      T_Tree.Canonical d mesh kt n B level R →
      ∃ D, T_Tree.resolved d mesh kt D B level R = true
  | Node.leaf vs ts, B, level, R, h => by
    simp only [T_Tree.Canonical] at h
    refine ⟨0, ?_⟩
    simp only [T_Tree.resolved, Bool.not_eq_true']
    rw [← h.1]
    exact h.2
  | Node.internal sons, B, level, R, h => by
    simp only [T_Tree.Canonical] at h
    obtain ⟨D, hD⟩ := canonicalSons_resolved d mesh kt sons B level 0 _ h.1
    refine ⟨D + 1, ?_⟩
    rw [T_Tree.resolved]
    simp only [Bool.or_eq_true, List.all_eq_true, List.mem_range]
    right
    intro i hi
    exact hD i (Nat.zero_le i) (by rw [h.2]; omega)
theorem canonicalSons_resolved (d : Subdivision) (mesh : Mesh) (kt : Nat) :
    ∀ (sons : List Node) (B : Box) (level i : Nat) (S : List Nat),
      T_Tree.CanonicalSons d mesh kt sons B level i S →
      ∃ D, ∀ j, i ≤ j → j < i + sons.length →
        T_Tree.resolved d mesh kt D (d.compute_domain B level j) (level + 1) S = true
  | [], _, _, _, _, _ => ⟨0, fun j h1 h2 => by simp at h2; omega⟩
  | s :: rest, B, level, i, S, h => by
    simp only [T_Tree.CanonicalSons] at h
    obtain ⟨D1, h1⟩ := canonical_resolved d mesh kt s _ _ S h.1
    obtain ⟨D2, h2⟩ := canonicalSons_resolved d mesh kt rest B level (i + 1) S h.2
    refine ⟨max D1 D2, fun j hj1 hj2 => ?_⟩
    by_cases hji : j = i
    · subst hji
      exact resolved_le d mesh kt D1 _ (le_max_left _ _) _ _ _ h1
    · exact resolved_le d mesh kt D2 _ (le_max_right _ _) _ _ _
        (h2 j (by omega) (by simp only [List.length_cons] at hj2; omega))
end

end TetrahedralTrees
